import Mathlib

/-!
# SVA automaton construction (frontends/verific/verificsva.cc)

A shallow embedding of the SVA importer of `verificsva.cc`: the
non-deterministic automaton (`SvaFsm`), the accept circuit (`getAccept`),
the link-free automaton (`node_to_unode`), the subset construction
(`create_dnode`), the reject circuit (`getReject`), the sequence compiler
(`parse_sequence`) and the property importer (`import`).

Conventions of the embedding.

* A `SigBit` is denoted by the expression that drives it: the output wire of
  `module->And(NEW_ID, a, b)` is `SigBit.and a b`, and likewise for `Or` and
  `Not`.  Wires allocated with `module->addWire(NEW_ID)` are `SigBit.auto k`;
  nets of the imported design are `SigBit.wire k`.
* `vector<T>` is `List T`, node ids are `Nat`, `v[i]` is `v.getD i default`.
* Methods take and return the members they read and write.
* Recursion over the automaton graph carries a recursion-depth budget and
  fails with `Failure.depth` when the budget is exhausted; `log_assert`
  failures and `log_error` are explicit results.
-/

namespace SVA

/-! ## Signals and the module under construction -/

/-- One bit of the design: a constant, a net, or the output of a gate. -/
inductive SigBit where
  | S0 : SigBit
  | S1 : SigBit
  | Sx : SigBit
  | wire (id : Nat) : SigBit
  | auto (id : Nat) : SigBit
  | not (a : SigBit) : SigBit
  | and (a b : SigBit) : SigBit
  | or (a b : SigBit) : SigBit
  deriving DecidableEq, Repr, Inhabited

/-- Driver of an auto-generated wire: a clocked register with data input `d`
and reset value `rst` (`clocking.addDff`), or a constant
(`module->connect(wire, State::S0)`). -/
inductive Driver where
  | dff (d : SigBit) (rst : Bool) : Driver
  | const (v : Bool) : Driver
  deriving DecidableEq, Repr

/-- Kind of the checker cell generated for a property. -/
inductive Checker where
  | assert : Checker
  | assume : Checker
  | cover : Checker
  deriving DecidableEq, Repr

/-- The part of the RTLIL module the importer writes to: the number of
auto-generated wires, the drivers attached to them (newest first) and the
checker cells with their `A` and `EN` inputs. -/
structure Module where
  nwires : Nat := 0
  drivers : List (Nat × Driver) := []
  checkers : List (Checker × SigBit × SigBit) := []
  deriving DecidableEq, Repr

/-- Allocate a wire: `module->addWire(NEW_ID)`. -/
def Module.addWire (m : Module) : Module × Nat :=
  ({ m with nwires := m.nwires + 1 }, m.nwires)

/-- Attach a register: `clocking.addDff(NEW_ID, d, q, rst)`. -/
def Module.addDff (m : Module) (d : SigBit) (q : Nat) (rst : Bool) : Module :=
  { m with drivers := (q, Driver.dff d rst) :: m.drivers }

/-- Tie a wire to a constant: `module->connect(q, State::S0)`. -/
def Module.connect (m : Module) (q : Nat) (v : Bool) : Module :=
  { m with drivers := (q, Driver.const v) :: m.drivers }

/-- Add a checker cell: `module->addAssert(name, a, en)` and its siblings. -/
def Module.addChecker (m : Module) (k : Checker) (a en : SigBit) : Module :=
  { m with checkers := m.checkers ++ [(k, a, en)] }

/-- Look up the driver of an auto-generated wire. -/
def Module.driver (m : Module) (q : Nat) : Option Driver :=
  (m.drivers.find? (fun p => p.1 == q)).map Prod.snd

/-- Value of a signal in one cycle, given the values `inp` of the nets of the
design and the values `q` of the auto-generated wires in that cycle. The
simulation is two-valued: `Sx` reads as 0. -/
def SigBit.eval (inp : Nat → Bool) (q : Nat → Bool) : SigBit → Bool
  | SigBit.S0 => false
  | SigBit.S1 => true
  | SigBit.Sx => false
  | SigBit.wire n => inp n
  | SigBit.auto k => q k
  | SigBit.not a => !(a.eval inp q)
  | SigBit.and a b => a.eval inp q && b.eval inp q
  | SigBit.or a b => a.eval inp q || b.eval inp q

/-- Value of the auto-generated wire `w` at cycle `t`, for the input trace
`env` (cycle, net id): a register holds its reset value at cycle 0 and then
the previous cycle's value of its data input; all registers are clocked
together. An undriven wire reads 0. -/
def Module.qval (m : Module) (env : Nat → Nat → Bool) : Nat → Nat → Bool
  | 0, w =>
    match m.driver w with
    | some (Driver.dff _ i) => i
    | some (Driver.const v) => v
    | none => false
  | t + 1, w =>
    match m.driver w with
    | some (Driver.dff d _) => d.eval (env t) (m.qval env t)
    | some (Driver.const v) => v
    | none => false

/-- Value of signal `s` at cycle `t` in module `m` under input trace `env`. -/
def Module.value (m : Module) (env : Nat → Nat → Bool) (t : Nat) (s : SigBit) : Bool :=
  s.eval (env t) (m.qval env t)

/-- The cell built by `module->ReduceOr(NEW_ID, sig)`: the disjunction of the bits. -/
def ReduceOr : List SigBit → SigBit
  | [] => SigBit.S0
  | a :: l => SigBit.or a (ReduceOr l)

/-- A constant bit as a signal. -/
def constBit (b : Bool) : SigBit := if b then SigBit.S1 else SigBit.S0

/-- The comparison of one bit of `module->Eq`: true iff both bits agree. -/
def SigBit.xnor (a b : SigBit) : SigBit :=
  SigBit.or (SigBit.and a b) (SigBit.and (SigBit.not a) (SigBit.not b))

/-- The cell built by `module->Eq(NEW_ID, a, b)`: all bits agree pairwise. -/
def Eq : List SigBit → List SigBit → SigBit
  | a :: as, b :: bs => SigBit.and (SigBit.xnor a b) (Eq as bs)
  | _, _ => SigBit.S1

/-- Total order key of a signal bit, standing for `SigBit::operator<`:
constants first, then wires by id. -/
def SigBit.code : SigBit → Nat
  | SigBit.S0 => Nat.pair 0 0
  | SigBit.S1 => Nat.pair 1 0
  | SigBit.Sx => Nat.pair 2 0
  | SigBit.wire n => Nat.pair 3 n
  | SigBit.auto n => Nat.pair 4 n
  | SigBit.not a => Nat.pair 5 a.code
  | SigBit.and a b => Nat.pair 6 (Nat.pair a.code b.code)
  | SigBit.or a b => Nat.pair 7 (Nat.pair a.code b.code)

/-- Modelled from the spec: `SigSpec::sort_and_unify` of the RTLIL kernel, which
is not part of the sources at hand. It turns a signal vector into the sorted,
duplicate-free vector of its bits. -/
def sort_and_unify (s : List SigBit) : List SigBit :=
  (s.insertionSort (fun a b => a.code ≤ b.code)).dedup

/-- The concatenation `{hi, lo}` of two signal vectors; bit 0 is the first bit of `lo`. -/
def concat (hi lo : List SigBit) : List SigBit := lo ++ hi

/-- The constant `Const(i, width)`: the `width` low bits of `i`, bit 0 first. -/
def Const (i width : Nat) : List Bool :=
  (List.range width).map (fun j => i.testBit j)

/-- Ways in which a call does not return normally. -/
inductive Failure where
  | log_assert : Failure
  | log_error (msg : String) : Failure
  | log_abort : Failure
  | out_of_range : Failure
  | depth : Failure
  deriving DecidableEq, Repr

/-! ## The non-deterministic automaton -/

/-- Node of the non-deterministic automaton. An edge activates its target if the ctrl
signal is true and consumes a clock cycle; a link does not consume a cycle. -/
structure SvaNFsmNode where
  edges : List (Nat × SigBit) := []
  links : List (Nat × SigBit) := []
  deriving DecidableEq, Repr, Inhabited

/-- Node of the automaton after resolving links. An edge activates its target if
all bits of its ctrl are true; the node accepts if all bits of an accept entry are true. -/
structure SvaUFsmNode where
  edges : List (Nat × List SigBit) := []
  accept : List (List SigBit) := []
  reachable : Bool := false
  deriving DecidableEq, Repr, Inhabited

/-- Node of the deterministic automaton: a state is a sorted vector of node ids
of the link-free automaton; edge, accept and reject controls are constants matched against
`ctrl`. The last three fields are the temporary data of `getReject`. -/
structure SvaDFsmNode where
  ctrl : List SigBit := []
  edges : List (List Nat × List Bool) := []
  accept : List (List Bool) := []
  reject : List (List Bool) := []
  ffoutwire : Nat := 0
  statesig : SigBit := SigBit.S0
  nextstate : List SigBit := []
  deriving DecidableEq, Repr, Inhabited

/-- The automaton under construction (`struct SvaFsm`). -/
structure SvaFsm where
  trigger_sig : SigBit := SigBit.S1
  disable_sig : SigBit := SigBit.S0
  throughout_sig : SigBit := SigBit.S1
  materialized : Bool := false
  disable_stack : List SigBit := []
  throughout_stack : List SigBit := []
  startNode : Nat := 0
  acceptNode : Nat := 0
  nodes : List SvaNFsmNode := []
  final_accept_sig : SigBit := SigBit.Sx
  final_reject_sig : SigBit := SigBit.Sx
  unodes : List SvaUFsmNode := []
  dnodes : List (List Nat × SvaDFsmNode) := []
  deriving DecidableEq, Repr

/-- `SvaFsm::createNode`. -/
def SvaFsm.createNode (fsm : SvaFsm) : Except Failure (SvaFsm × Nat) :=
  if fsm.materialized then Except.error Failure.log_assert
  else Except.ok ({ fsm with nodes := fsm.nodes ++ [default] }, fsm.nodes.length)

/-- The constructor `SvaFsm(clking, trig)`: a fresh automaton whose start node is
node 0 and whose accept node is node 1. -/
def SvaFsm.new (trig : SigBit) : SvaFsm :=
  { trigger_sig := trig, startNode := 0, acceptNode := 1, nodes := [default, default] }

/-- `SvaFsm::pushDisable`. -/
def SvaFsm.pushDisable (fsm : SvaFsm) (sig : SigBit) : Except Failure SvaFsm :=
  if fsm.materialized then Except.error Failure.log_assert
  else
    let stack := fsm.disable_stack ++ [fsm.disable_sig]
    if fsm.disable_sig = SigBit.S0 then
      Except.ok { fsm with disable_stack := stack, disable_sig := sig }
    else
      Except.ok { fsm with disable_stack := stack, disable_sig := SigBit.or fsm.disable_sig sig }

/-- `SvaFsm::popDisable`. -/
def SvaFsm.popDisable (fsm : SvaFsm) : Except Failure SvaFsm :=
  if fsm.materialized then Except.error Failure.log_assert
  else if fsm.disable_stack.isEmpty then Except.error Failure.log_assert
  else Except.ok { fsm with
    disable_sig := fsm.disable_stack.getLastD SigBit.S0,
    disable_stack := fsm.disable_stack.dropLast }

/-- `SvaFsm::pushThroughout`. -/
def SvaFsm.pushThroughout (fsm : SvaFsm) (sig : SigBit) : Except Failure SvaFsm :=
  if fsm.materialized then Except.error Failure.log_assert
  else
    let stack := fsm.throughout_stack ++ [fsm.throughout_sig]
    if fsm.throughout_sig = SigBit.S1 then
      Except.ok { fsm with throughout_stack := stack, throughout_sig := sig }
    else
      Except.ok { fsm with throughout_stack := stack,
                           throughout_sig := SigBit.and fsm.throughout_sig sig }

/-- `SvaFsm::popThroughout`. -/
def SvaFsm.popThroughout (fsm : SvaFsm) : Except Failure SvaFsm :=
  if fsm.materialized then Except.error Failure.log_assert
  else if fsm.throughout_stack.isEmpty then Except.error Failure.log_assert
  else Except.ok { fsm with
    throughout_sig := fsm.throughout_stack.getLastD SigBit.S1,
    throughout_stack := fsm.throughout_stack.dropLast }

/-- The control stored by `createEdge` and `createLink`: `ctrl` combined with the
current throughout signal. -/
def SvaFsm.throughout_ctrl (fsm : SvaFsm) (ctrl : SigBit) : SigBit :=
  if fsm.throughout_sig ≠ SigBit.S1 then
    if ctrl ≠ SigBit.S1 then SigBit.and fsm.throughout_sig ctrl
    else fsm.throughout_sig
  else ctrl

/-- `SvaFsm::createEdge`; the default of `ctrl` is `State::S1`. -/
def SvaFsm.createEdge (fsm : SvaFsm) (from_node to_node : Int) (ctrl : SigBit) :
    Except Failure SvaFsm :=
  if fsm.materialized then Except.error Failure.log_assert
  else if ¬ (0 ≤ from_node ∧ from_node < fsm.nodes.length) then Except.error Failure.log_assert
  else if ¬ (0 ≤ to_node ∧ to_node < fsm.nodes.length) then Except.error Failure.log_assert
  else
    let ctrl := fsm.throughout_ctrl ctrl
    let node := fsm.nodes.getD from_node.toNat default
    let node := { node with edges := node.edges ++ [(to_node.toNat, ctrl)] }
    Except.ok { fsm with nodes := fsm.nodes.set from_node.toNat node }

/-- `SvaFsm::createLink`; the default of `ctrl` is `State::S1`. -/
def SvaFsm.createLink (fsm : SvaFsm) (from_node to_node : Int) (ctrl : SigBit) :
    Except Failure SvaFsm :=
  if fsm.materialized then Except.error Failure.log_assert
  else if ¬ (0 ≤ from_node ∧ from_node < fsm.nodes.length) then Except.error Failure.log_assert
  else if ¬ (0 ≤ to_node ∧ to_node < fsm.nodes.length) then Except.error Failure.log_assert
  else
    let ctrl := fsm.throughout_ctrl ctrl
    let node := fsm.nodes.getD from_node.toNat default
    let node := { node with links := node.links ++ [(to_node.toNat, ctrl)] }
    Except.ok { fsm with nodes := fsm.nodes.set from_node.toNat node }

/-- Links of node `node` (`nodes[node].links`). -/
def SvaFsm.linksOf (fsm : SvaFsm) (node : Nat) : List (Nat × SigBit) :=
  (fsm.nodes.getD node default).links

/-- Edges of node `node` (`nodes[node].edges`). -/
def SvaFsm.edgesOf (fsm : SvaFsm) (node : Nat) : List (Nat × SigBit) :=
  (fsm.nodes.getD node default).edges

/-- `SvaFsm::make_link_order`: raise `order[node]` to at least `min`, then visit
every link target with minimum `order[node]+1`. The first argument bounds the
recursion depth. -/
def SvaFsm.make_link_order (fsm : SvaFsm) :
    Nat → List Nat → Nat → Nat → Except Failure (List Nat)
  | 0, _, _, _ => Except.error Failure.depth
  | fuel + 1, order, node, min =>
    let order := order.set node (max (order.getD node 0) min)
    (fsm.linksOf node).foldlM
      (fun order it => fsm.make_link_order fuel order it.1 (order.getD node 0 + 1)) order

/-- The loop `for (i = 0; i < GetSize(nodes); i++) make_link_order(node_order, i, 0)`
of `getAccept`, started from the all-zero vector. A link path visits every node at most
once when the links are acyclic, so the recursion depth of a terminating run is at most the
number of nodes. -/
def SvaFsm.link_orders (fsm : SvaFsm) : Except Failure (List Nat) :=
  (List.range fsm.nodes.length).foldlM
    (fun order i => fsm.make_link_order fsm.nodes.length order i 0)
    (List.replicate fsm.nodes.length 0)

/-! ### `getAccept` -/

/-- Block "Create state signals" of `getAccept`: one wire per node; the trigger is
ORed into the start node and every state signal is ANDed with the inverted disable signal.
Returns the module, `state_wire` and `state_sig`. -/
def SvaFsm.accept_state_signals (fsm : SvaFsm) (m : Module) :
    Module × List Nat × List SigBit :=
  let not_disable :=
    if fsm.disable_sig ≠ SigBit.S0 then SigBit.not fsm.disable_sig else SigBit.S1
  (List.range fsm.nodes.length).foldl
    (fun (acc : Module × List Nat × List SigBit) i =>
      let (m, w) := acc.1.addWire
      let s := SigBit.auto w
      let s := if i = fsm.startNode then SigBit.or s fsm.trigger_sig else s
      let s := if fsm.disable_sig ≠ SigBit.S0 then SigBit.and s not_disable else s
      (m, acc.2.1.set i w, acc.2.2.set i s))
    (m, List.replicate fsm.nodes.length 0, List.replicate fsm.nodes.length SigBit.S0)

/-- The vector `order_to_nodes` of `getAccept`: the nodes of each order, in
increasing node id. -/
def order_to_nodes (node_order : List Nat) : List (List Nat) :=
  (List.range node_order.length).foldl
    (fun (otn : List (List Nat)) i =>
      let o := node_order.getD i 0
      let otn := if o ≥ otn.length then otn ++ List.replicate (o + 1 - otn.length) [] else otn
      otn.set o (otn.getD o [] ++ [i]))
    []

/-- One link of block "Follow Links": OR the (guarded) state of `node` into the
state of the link target. -/
def follow_link (node : Nat) (state_sig : List SigBit) (it : Nat × SigBit) : List SigBit :=
  let target := it.1
  let ctrl := state_sig.getD node SigBit.S0
  let ctrl := if it.2 ≠ SigBit.S1 then SigBit.and ctrl it.2 else ctrl
  state_sig.set target (SigBit.or (state_sig.getD target SigBit.S0) ctrl)

/-- Block "Follow Links" of `getAccept`: orders from low to high, nodes of an
order in turn, links of a node in turn. -/
def SvaFsm.follow_links (fsm : SvaFsm) (otn : List (List Nat)) (state_sig : List SigBit) :
    List SigBit :=
  otn.foldl (fun ss nodesOfOrder =>
    nodesOfOrder.foldl (fun ss node =>
      (fsm.linksOf node).foldl (follow_link node) ss) ss) state_sig

/-- Block "Construct activations", first loop: `activate_sig`. -/
def SvaFsm.activate_sigs (fsm : SvaFsm) (state_sig : List SigBit) : List (List SigBit) :=
  (List.range fsm.nodes.length).foldl
    (fun (act : List (List SigBit)) i =>
      (fsm.edgesOf i).foldl
        (fun (act : List (List SigBit)) it =>
          act.set it.1 (act.getD it.1 [] ++ [SigBit.and (state_sig.getD i SigBit.S0) it.2]))
        act)
    (List.replicate fsm.nodes.length [])

/-- Block "Construct activations", second loop: `next_state_sig`. -/
def next_state_sigs (n : Nat) (activate_sig : List (List SigBit)) : List SigBit :=
  (List.range n).foldl
    (fun (ns : List SigBit) i =>
      let a := activate_sig.getD i []
      if a.length = 0 then ns.set i SigBit.S0
      else if a.length = 1 then ns.set i (a.getD 0 SigBit.S0)
      else ns.set i (ReduceOr a))
    (List.replicate n SigBit.S0)

/-- Block "Create state FFs" of `getAccept`. -/
def accept_state_ffs (n : Nat) (next_state_sig : List SigBit) (state_wire : List Nat)
    (m : Module) : Module :=
  (List.range n).foldl
    (fun (m : Module) i =>
      if next_state_sig.getD i SigBit.S0 ≠ SigBit.S0 then
        m.addDff (next_state_sig.getD i SigBit.S0) (state_wire.getD i 0) false
      else
        m.connect (state_wire.getD i 0) false)
    m

/-- `SvaFsm::getAccept`: emits the circuit of the non-deterministic automaton into
the module and returns the module, the automaton and the accept signal. -/
def SvaFsm.getAccept (fsm : SvaFsm) (m : Module) : Except Failure (Module × SvaFsm × SigBit) :=
  if fsm.materialized then Except.error Failure.log_assert
  else
    let fsm := { fsm with materialized := true }
    let (m, state_wire, state_sig) := fsm.accept_state_signals m
    match fsm.link_orders with
    | Except.error e => Except.error e
    | Except.ok node_order =>
      let state_sig := fsm.follow_links (order_to_nodes node_order) state_sig
      let next_state_sig := next_state_sigs fsm.nodes.length (fsm.activate_sigs state_sig)
      let m := accept_state_ffs fsm.nodes.length next_state_sig state_wire m
      let final_accept_sig := state_sig.getD fsm.acceptNode SigBit.S0
      Except.ok (m, { fsm with final_accept_sig := final_accept_sig }, final_accept_sig)

/-- `SvaFsm::getAnyAllRejectWorker`: unimplemented in the source. -/
def SvaFsm.getAnyAllRejectWorker (_fsm : SvaFsm) (_allMode : Bool) : Except Failure SigBit :=
  Except.error Failure.log_abort

/-- `SvaFsm::getAnyReject`. -/
def SvaFsm.getAnyReject (fsm : SvaFsm) : Except Failure SigBit :=
  fsm.getAnyAllRejectWorker false

/-- `SvaFsm::getAllReject`. -/
def SvaFsm.getAllReject (fsm : SvaFsm) : Except Failure SigBit :=
  fsm.getAnyAllRejectWorker true

/-! ### The link-free automaton -/

/-- `SvaFsm::node_to_unode`: record in `unodes[unode]` the edges and accept
conditions reached from `node` through links, with the sorted union `ctrl` of the
link controls passed so far. The first argument bounds the recursion depth. -/
def SvaFsm.node_to_unode (fsm : SvaFsm) :
    Nat → List SvaUFsmNode → Nat → Nat → List SigBit → Except Failure (List SvaUFsmNode)
  | 0, _, _, _, _ => Except.error Failure.depth
  | fuel + 1, unodes, node, unode, ctrl =>
    let unodes :=
      if node = fsm.acceptNode then
        let u := unodes.getD unode default
        unodes.set unode { u with accept := u.accept ++ [ctrl] }
      else unodes
    let unodes := (fsm.edgesOf node).foldl
      (fun (unodes : List SvaUFsmNode) it =>
        let u := unodes.getD unode default
        if it.2 ≠ SigBit.S1 then
          let s := sort_and_unify (concat ctrl [it.2])
          unodes.set unode { u with edges := u.edges ++ [(it.1, s)] }
        else
          unodes.set unode { u with edges := u.edges ++ [(it.1, ctrl)] })
      unodes
    (fsm.linksOf node).foldlM
      (fun (unodes : List SvaUFsmNode) it =>
        if it.2 ≠ SigBit.S1 then
          fsm.node_to_unode fuel unodes it.1 unode (sort_and_unify (concat ctrl [it.2]))
        else
          fsm.node_to_unode fuel unodes it.1 unode ctrl)
      unodes

/-- `SvaFsm::mark_reachable_unode`. The first argument bounds the recursion depth. -/
def mark_reachable_unode : Nat → List SvaUFsmNode → Nat → Except Failure (List SvaUFsmNode)
  | 0, _, _ => Except.error Failure.depth
  | fuel + 1, unodes, unode =>
    if (unodes.getD unode default).reachable then Except.ok unodes
    else
      let u := unodes.getD unode default
      let unodes := unodes.set unode { u with reachable := true }
      u.edges.foldlM (fun (unodes : List SvaUFsmNode) it =>
        mark_reachable_unode fuel unodes it.1) unodes

/-- `SvaFsm::usortint`: sort the vector, then keep an element iff it is the last
one or differs from its successor. -/
def usortint (vec : List Nat) : List Nat :=
  let vec := vec.insertionSort (fun a b => a ≤ b)
  (List.range vec.length).foldl
    (fun (newvec : List Nat) i =>
      if i = vec.length - 1 ∨ vec.getD i 0 ≠ vec.getD (i + 1) 0 then newvec ++ [vec.getD i 0]
      else newvec)
    []

/-- `SvaFsm::cmp_ctrl`: every bit of `ctrl` is in the pool `ctrl_bits`. -/
def cmp_ctrl (ctrl_bits : List SigBit) : List SigBit → Bool
  | [] => true
  | b :: ctrl => if ctrl_bits.count b = 0 then false else cmp_ctrl ctrl_bits ctrl

/-- `dnodes.count(key)` of the dictionary of deterministic nodes. -/
def dict_count (d : List (List Nat × SvaDFsmNode)) (key : List Nat) : Nat :=
  if d.any (fun p => p.1 = key) then 1 else 0

/-- `dnodes[key] = node`: replace the entry of `key`, or add one. -/
def dict_set : List (List Nat × SvaDFsmNode) → List Nat → SvaDFsmNode →
    List (List Nat × SvaDFsmNode)
  | [], key, node => [(key, node)]
  | p :: d, key, node =>
    if p.1 = key then (key, node) :: d else p :: dict_set d key node

/-- `dnodes.at(key)`. -/
def dict_at (d : List (List Nat × SvaDFsmNode)) (key : List Nat) : Option SvaDFsmNode :=
  (d.find? (fun p => p.1 = key)).map Prod.snd

/-- First loop of `create_dnode`: assert that every member of the subset is
reachable and collect all edge and accept controls of the members. -/
def dnode_ctrl_raw (unodes : List SvaUFsmNode) (state : List Nat) : Except Failure (List SigBit) :=
  state.foldlM
    (fun (ctrl : List SigBit) unode =>
      let u := unodes.getD unode default
      if ¬ u.reachable then Except.error Failure.log_assert
      else
        let ctrl := u.edges.foldl (fun (ctrl : List SigBit) it => ctrl ++ it.2) ctrl
        Except.ok (u.accept.foldl (fun (ctrl : List SigBit) it => ctrl ++ it) ctrl))
    []

/-- The pool `ctrl_bits` of `create_dnode`: the bits of `ctrl` that are 1 in `ctrl_val`. -/
def dnode_ctrl_bits (ctrl : List SigBit) (ctrl_val : List Bool) : List SigBit :=
  (List.range ctrl.length).foldl
    (fun (bits : List SigBit) i =>
      if ctrl_val.getD i false = true then bits ++ [ctrl.getD i SigBit.S0] else bits)
    []

/-- The flag `accept` of `create_dnode` for one valuation. -/
def dnode_accept (unodes : List SvaUFsmNode) (state : List Nat) (ctrl_bits : List SigBit) : Bool :=
  state.foldl
    (fun (accept : Bool) unode =>
      (unodes.getD unode default).accept.foldl
        (fun (accept : Bool) it => if cmp_ctrl ctrl_bits it then true else accept)
        accept)
    false

/-- The vector `new_state` of `create_dnode` for one valuation, before `usortint`. -/
def dnode_new_state (unodes : List SvaUFsmNode) (state : List Nat) (ctrl_bits : List SigBit) :
    List Nat :=
  state.foldl
    (fun (new_state : List Nat) unode =>
      (unodes.getD unode default).edges.foldl
        (fun (new_state : List Nat) it =>
          if cmp_ctrl ctrl_bits it.2 then new_state ++ [it.1] else new_state)
        new_state)
    []

/-- The message of the state-explosion guard. -/
def ctrl_error : String :=
  "SVA property DFSM state ctrl signal has over 10 bits. Stopping to prevent exponential design size explosion.\n"

/-- `SvaFsm::create_dnode`: subset construction, memoized in `dnodes`. The first
argument bounds the recursion depth. -/
def create_dnode (unodes : List SvaUFsmNode) :
    Nat → List (List Nat × SvaDFsmNode) → List Nat → Bool →
    Except Failure (List (List Nat × SvaDFsmNode))
  | 0, _, _, _ => Except.error Failure.depth
  | fuel + 1, dnodes, state, firstmatch =>
    if dict_count dnodes state ≠ 0 then Except.ok dnodes
    else
      let dnodes := dict_set dnodes state default
      match dnode_ctrl_raw unodes state with
      | Except.error e => Except.error e
      | Except.ok raw =>
        let ctrl := sort_and_unify raw
        if ctrl.length > 10 then Except.error (Failure.log_error ctrl_error)
        else
          let loop := (List.range (1 <<< ctrl.length)).foldlM
            (fun (acc : SvaDFsmNode × List (List Nat × SvaDFsmNode)) i =>
              let dnode := acc.1
              let ctrl_val := Const i ctrl.length
              let ctrl_bits := dnode_ctrl_bits ctrl ctrl_val
              let accept := dnode_accept unodes state ctrl_bits
              let new_state :=
                if ¬ accept ∨ ¬ firstmatch then dnode_new_state unodes state ctrl_bits else []
              let dnode :=
                if accept then { dnode with accept := dnode.accept ++ [ctrl_val] } else dnode
              if new_state.isEmpty then
                if ¬ accept then
                  Except.ok ({ dnode with reject := dnode.reject ++ [ctrl_val] }, acc.2)
                else Except.ok (dnode, acc.2)
              else
                let new_state := usortint new_state
                let dnode := { dnode with edges := dnode.edges ++ [(new_state, ctrl_val)] }
                match create_dnode unodes fuel acc.2 new_state firstmatch with
                | Except.error e => Except.error e
                | Except.ok dnodes => Except.ok (dnode, dnodes))
            ({ ctrl := ctrl }, dnodes)
          match loop with
          | Except.error e => Except.error e
          | Except.ok (dnode, dnodes) => Except.ok (dict_set dnodes state dnode)

/-- The body of the loop of `create_dnode` over the valuations, with `construct` standing
for the recursive call. -/
def dnode_step (unodes : List SvaUFsmNode) (state : List Nat) (firstmatch : Bool)
    (ctrl : List SigBit)
    (construct : List (List Nat × SvaDFsmNode) → List Nat →
      Except Failure (List (List Nat × SvaDFsmNode)))
    (acc : SvaDFsmNode × List (List Nat × SvaDFsmNode)) (i : Nat) :
    Except Failure (SvaDFsmNode × List (List Nat × SvaDFsmNode)) :=
  let dnode := acc.1
  let ctrl_val := Const i ctrl.length
  let ctrl_bits := dnode_ctrl_bits ctrl ctrl_val
  let accept := dnode_accept unodes state ctrl_bits
  let new_state :=
    if ¬ accept ∨ ¬ firstmatch then dnode_new_state unodes state ctrl_bits else []
  let dnode :=
    if accept then { dnode with accept := dnode.accept ++ [ctrl_val] } else dnode
  if new_state.isEmpty then
    if ¬ accept then
      Except.ok ({ dnode with reject := dnode.reject ++ [ctrl_val] }, acc.2)
    else Except.ok (dnode, acc.2)
  else
    let new_state := usortint new_state
    let dnode := { dnode with edges := dnode.edges ++ [(new_state, ctrl_val)] }
    match construct acc.2 new_state with
    | Except.error e => Except.error e
    | Except.ok dnodes => Except.ok (dnode, dnodes)

/-- The flag `accept` that `create_dnode` computes for valuation number `i` of `ctrl`. -/
def val_accept (unodes : List SvaUFsmNode) (state : List Nat) (ctrl : List SigBit) (i : Nat) :
    Bool :=
  dnode_accept unodes state (dnode_ctrl_bits ctrl (Const i ctrl.length))

/-- The vector `new_state` that `create_dnode` computes for valuation number `i` of `ctrl`,
before `usortint`. -/
def val_next (unodes : List SvaUFsmNode) (state : List Nat) (firstmatch : Bool)
    (ctrl : List SigBit) (i : Nat) : List Nat :=
  if ¬ val_accept unodes state ctrl i ∨ ¬ firstmatch then
    dnode_new_state unodes state (dnode_ctrl_bits ctrl (Const i ctrl.length))
  else []

/-! ### `getReject` -/

/-- Block "Create unlinked NFSM" of `getReject`, up to `mark_reachable_unode`. -/
def SvaFsm.make_unodes (fsm : SvaFsm) : Except Failure (List SvaUFsmNode) :=
  let n := fsm.nodes.length
  let unodes := fsm.unodes.take n ++ List.replicate (n - fsm.unodes.length) default
  match (List.range n).foldlM
      (fun (unodes : List SvaUFsmNode) node => fsm.node_to_unode n unodes node node []) unodes with
  | Except.error e => Except.error e
  | Except.ok unodes => mark_reachable_unode (n + 1) unodes fsm.startNode

/-- `dnodes.sort()`: order the dictionary by key. -/
def dict_sort (d : List (List Nat × SvaDFsmNode)) : List (List Nat × SvaDFsmNode) :=
  d.insertionSort (fun a b => a.1 ≤ b.1)

/-- First loop of block "Create DFSM Circuit": one state wire per deterministic
node; the trigger is ORed into the state of the start subset. -/
def SvaFsm.reject_state_signals (fsm : SvaFsm) (m : Module)
    (dnodes : List (List Nat × SvaDFsmNode)) : Module × List (List Nat × SvaDFsmNode) :=
  dnodes.foldl
    (fun (acc : Module × List (List Nat × SvaDFsmNode)) it =>
      let (m, w) := acc.1.addWire
      let statesig := SigBit.auto w
      let statesig :=
        if it.1 = [fsm.startNode] then SigBit.or statesig fsm.trigger_sig else statesig
      (m, acc.2 ++ [(it.1, { it.2 with ffoutwire := w, statesig := statesig })]))
    (m, [])

/-- The comparator `module->Eq(NEW_ID, {dnode.ctrl, dnode.statesig}, {value, State::S1})`. -/
def dnode_eq (dnode : SvaDFsmNode) (value : List Bool) : SigBit :=
  Eq (concat dnode.ctrl [dnode.statesig]) (concat (value.map constBit) [SigBit.S1])

/-- Second loop of block "Create DFSM Circuit": the activation of every edge is
appended to `nextstate` of its target; accept and reject comparators are collected.
Returns `dnodes`, `accept_sig` and `reject_sig`. -/
def reject_activations (with_accept : Bool) (dnodes : List (List Nat × SvaDFsmNode)) :
    Except Failure (List (List Nat × SvaDFsmNode) × List SigBit × List SigBit) :=
  dnodes.foldlM
    (fun (acc : List (List Nat × SvaDFsmNode) × List SigBit × List SigBit) it =>
      let dnode := it.2
      match dnode.edges.foldlM
          (fun (d : List (List Nat × SvaDFsmNode)) edge =>
            let trig := dnode_eq dnode edge.2
            match dict_at d edge.1 with
            | none => Except.error Failure.out_of_range
            | some tgt => Except.ok (dict_set d edge.1 { tgt with nextstate := tgt.nextstate ++ [trig] }))
          acc.1 with
      | Except.error e => Except.error e
      | Except.ok d =>
        let accept_sig :=
          if with_accept then
            dnode.accept.foldl (fun (s : List SigBit) value => s ++ [dnode_eq dnode value]) acc.2.1
          else acc.2.1
        let reject_sig :=
          dnode.reject.foldl (fun (s : List SigBit) value => s ++ [dnode_eq dnode value]) acc.2.2
        Except.ok (d, accept_sig, reject_sig))
    (dnodes, [], [])

/-- Third loop of block "Create DFSM Circuit": the state registers. -/
def reject_state_ffs (m : Module) (dnodes : List (List Nat × SvaDFsmNode)) : Module :=
  dnodes.foldl
    (fun (m : Module) it =>
      let dnode := it.2
      if dnode.nextstate.length = 0 then m.connect dnode.ffoutwire false
      else if dnode.nextstate.length = 1 then
        m.addDff (dnode.nextstate.getD 0 SigBit.S0) dnode.ffoutwire false
      else m.addDff (ReduceOr dnode.nextstate) dnode.ffoutwire false)
    m

/-- The reduction of `accept_sig` and `reject_sig` to one bit at the end of `getReject`. -/
def reduce_sig (sig : List SigBit) : SigBit :=
  if sig.length = 0 then SigBit.S0
  else if sig.length = 1 then sig.getD 0 SigBit.S0
  else ReduceOr sig

/-- `SvaFsm::getReject`: builds the link-free and the deterministic automaton and
emits the circuit of the latter. `with_accept` tells whether `accept_sigptr` is given.
Returns the module, the automaton, the reject signal and the value stored through
`accept_sigptr`. A subset construction that terminates nests at most one call per subset. -/
def SvaFsm.getReject (fsm : SvaFsm) (m : Module) (with_accept : Bool) :
    Except Failure (Module × SvaFsm × SigBit × Option SigBit) :=
  match fsm.make_unodes with
  | Except.error e => Except.error e
  | Except.ok unodes =>
    match create_dnode unodes (2 ^ fsm.nodes.length + 1) fsm.dnodes [fsm.startNode] true with
    | Except.error e => Except.error e
    | Except.ok dnodes =>
      let dnodes := dict_sort dnodes
      let (m, dnodes) := fsm.reject_state_signals m dnodes
      match reject_activations with_accept dnodes with
      | Except.error e => Except.error e
      | Except.ok (dnodes, accept_sig, reject_sig) =>
        let m := reject_state_ffs m dnodes
        let final_accept_sig := if with_accept then reduce_sig accept_sig else fsm.final_accept_sig
        let final_reject_sig := reduce_sig reject_sig
        Except.ok (m,
          { fsm with unodes := unodes, dnodes := dnodes,
                     final_accept_sig := final_accept_sig, final_reject_sig := final_reject_sig },
          final_reject_sig,
          if with_accept then some final_accept_sig else none)

/-! ## The sequence compiler and the property importer -/

/-- A Verific net together with the SVA primitive that drives it, as seen through
`net_to_ast_driver`. `expr sig` is a net without SVA driver, mapped by
`importer->net_map_at` to `sig`. The attributes `sva:low` and `sva:high` are `sva_low`
and `sva_high`; `sva_high = none` is the value `$`. `other` is any other primitive. -/
inductive SvaNet where
  | expr (sig : SigBit) : SvaNet
  | seq_concat (sva_low : Nat) (sva_high : Option Nat) (input1 input2 : SvaNet) : SvaNet
  | consecutive_repeat (sva_low : Nat) (sva_high : Option Nat) (input : SvaNet) : SvaNet
  | seq_or (input1 input2 : SvaNet) : SvaNet
  | throughout (input1 input2 : SvaNet) : SvaNet
  | overlapped_implication (input1 input2 : SvaNet) : SvaNet
  | non_overlapped_implication (input1 input2 : SvaNet) : SvaNet
  | not (input : SvaNet) : SvaNet
  | until (input1 input2 : SvaNet) : SvaNet
  | s_until (input1 input2 : SvaNet) : SvaNet
  | until_with (input1 input2 : SvaNet) : SvaNet
  | s_until_with (input1 input2 : SvaNet) : SvaNet
  | triggered (input : SvaNet) : SvaNet
  | other (name : String) : SvaNet
  deriving DecidableEq, Repr, Inhabited

/-- The message for an unsupported primitive. -/
def unsupported_error : String :=
  "Verific SVA primitive is currently unsupported in this context.\n"

/-- One pass of the loops of `parse_sequence` that add a node and an edge to it. -/
def edge_to_new_node (fsm : SvaFsm) (node : Nat) : Except Failure (SvaFsm × Nat) := do
  let (fsm, next_node) ← fsm.createNode
  let fsm ← fsm.createEdge node next_node SigBit.S1
  pure (fsm, next_node)

/-- `VerificSvaImporter::parse_sequence`: compile the sequence driven by `net` into
the automaton, starting at `start_node`; returns the end node. -/
def parse_sequence (mode_keep : Bool) : SvaNet → SvaFsm → Nat → Except Failure (SvaFsm × Nat)
  | SvaNet.expr sig, fsm, start_node => do
    let (fsm, node) ← fsm.createNode
    let fsm ← fsm.createLink start_node node sig
    pure (fsm, node)
  | SvaNet.seq_concat sva_low sva_high input1 input2, fsm, start_node => do
    let (fsm, node) ← parse_sequence mode_keep input1 fsm start_node
    let (fsm, node) ← (List.range sva_low).foldlM
      (fun (acc : SvaFsm × Nat) _ => edge_to_new_node acc.1 acc.2) (fsm, node)
    let (fsm, node) ←
      match sva_high with
      | none => do
        let fsm ← fsm.createEdge node node SigBit.S1
        pure (fsm, node)
      | some sva_high =>
        (List.range' sva_low (sva_high - sva_low)).foldlM
          (fun (acc : SvaFsm × Nat) _ => do
            let (fsm, next_node) ← edge_to_new_node acc.1 acc.2
            let fsm ← fsm.createLink acc.2 next_node SigBit.S1
            pure (fsm, next_node))
          (fsm, node)
    parse_sequence mode_keep input2 fsm node
  | SvaNet.consecutive_repeat sva_low sva_high input, fsm, start_node => do
    let (fsm, node) ← parse_sequence mode_keep input fsm start_node
    let (fsm, node) ← (List.range' 1 (sva_low - 1)).foldlM
      (fun (acc : SvaFsm × Nat) _ => do
        let (fsm, next_node) ← edge_to_new_node acc.1 acc.2
        parse_sequence mode_keep input fsm next_node)
      (fsm, node)
    match sva_high with
    | none => do
      let (fsm, next_node) ← edge_to_new_node fsm node
      let (fsm, next_node) ← parse_sequence mode_keep input fsm next_node
      let fsm ← fsm.createLink next_node node SigBit.S1
      pure (fsm, node)
    | some sva_high =>
      (List.range' sva_low (sva_high - sva_low)).foldlM
        (fun (acc : SvaFsm × Nat) _ => do
          let (fsm, next_node) ← edge_to_new_node acc.1 acc.2
          let (fsm, next_node) ← parse_sequence mode_keep input fsm next_node
          let fsm ← fsm.createLink acc.2 next_node SigBit.S1
          pure (fsm, next_node))
        (fsm, node)
  | SvaNet.seq_or input1 input2, fsm, start_node => do
    let (fsm, node) ← parse_sequence mode_keep input1 fsm start_node
    let (fsm, node2) ← parse_sequence mode_keep input2 fsm start_node
    let fsm ← fsm.createLink node2 node SigBit.S1
    pure (fsm, node)
  | SvaNet.throughout input1 input2, fsm, start_node =>
    match input1 with
    | SvaNet.expr expr => do
      let fsm ← fsm.pushThroughout expr
      let (fsm, node) ← parse_sequence mode_keep input2 fsm start_node
      let fsm ← fsm.popThroughout
      pure (fsm, node)
    | _ => Except.error Failure.log_assert
  | _, fsm, start_node =>
    if ¬ mode_keep then Except.error (Failure.log_error unsupported_error)
    else Except.ok (fsm, start_node)

/-- The members of `VerificSvaImporter` that `import` reads: the mode flags,
`importer->mode_keep`, and the body of the property found by `VerificClocking`
(`none` when no clocking could be parsed). -/
structure VerificSvaImporter where
  mode_keep : Bool := false
  mode_assert : Bool := false
  mode_assume : Bool := false
  mode_cover : Bool := false
  eventually : Bool := false
  body_net : Option SvaNet := none
  deriving Repr

/-- The messages of `import`. -/
def clocking_error : String := "Failed to parse SVA clocking."

/-- The message for an unsupported until condition. -/
def until_error : String :=
  "Currently only boolean expressions or sequence.triggered is alowed in SVA_UNTIL condition.\n"

/-- The message for eventually-class properties. -/
def eventually_error : String := "No support for eventually in Verific SVA bindings yet.\n"

/-- Compile a sequence into a fresh automaton with trigger `trig` and link its
end node to the accept node; with `extra_edge` one more unguarded edge is added
before the link (non-overlapped implication). -/
def build_fsm (mode_keep : Bool) (trig : SigBit) (net : SvaNet) (extra_edge : Bool) :
    Except Failure SvaFsm := do
  let fsm := SvaFsm.new trig
  let (fsm, node) ← parse_sequence mode_keep net fsm fsm.startNode
  let (fsm, node) ← if extra_edge then edge_to_new_node fsm node else pure (fsm, node)
  fsm.createLink node fsm.acceptNode SigBit.S1

/-- The until handling of `import`: given the antecedent match, emit the until
automaton and the latch and return the new antecedent match. -/
def import_until (mode_keep : Bool) (m : Module) (antecedent_match : SigBit)
    (until_net : SvaNet) (until_with : Bool) : Except Failure (Module × SigBit) := do
  let until_fsm ← build_fsm mode_keep SigBit.S1 until_net false
  let (m, _, until_match) ← until_fsm.getAccept m
  let not_until_match := SigBit.not until_match
  let (m, w) := m.addWire
  let antecedent_match_q := SigBit.auto w
  let antecedent_match := SigBit.or antecedent_match antecedent_match_q
  let antecedent_match_filtered := SigBit.and antecedent_match not_until_match
  let m := m.addDff antecedent_match_filtered w false
  pure (m, if ¬ until_with then antecedent_match_filtered else antecedent_match)

/-- The consequent part of the implication branch of `import`: strip a leading
`not`, build the consequent automaton triggered by `antecedent_match` and pick
the signal `prop_okay`. -/
def import_consequent (mode_keep mode_cover : Bool) (m : Module) (antecedent_match : SigBit)
    (consequent_net : SvaNet) : Except Failure (Module × SigBit) := do
  let (consequent_not, consequent_net) :=
    match consequent_net with
    | SvaNet.not input => (true, input)
    | net => (false, net)
  let consequent_fsm ← build_fsm mode_keep antecedent_match consequent_net false
  if mode_cover then
    if consequent_not then
      let (m, _, reject, _) ← consequent_fsm.getReject m false
      pure (m, reject)
    else
      let (m, _, accept) ← consequent_fsm.getAccept m
      pure (m, accept)
  else
    if consequent_not then
      let (m, _, accept) ← consequent_fsm.getAccept m
      pure (m, SigBit.not accept)
    else
      let (m, _, reject, _) ← consequent_fsm.getReject m false
      pure (m, SigBit.not reject)

/-- The implication branch of `import`; the signal is `none` for the `return`
after a warning. -/
def import_implication (mode_keep mode_cover : Bool) (m : Module) (non_overlapped : Bool)
    (antecedent_net consequent_net : SvaNet) : Except Failure (Module × Option SigBit) := do
  let antecedent_fsm ← build_fsm mode_keep SigBit.S1 antecedent_net non_overlapped
  let (m, _, antecedent_match) ← antecedent_fsm.getAccept m
  let until_parts : Option (SvaNet × SvaNet × Bool) :=
    match consequent_net with
    | SvaNet.until a b => some (a, b, false)
    | SvaNet.s_until a b => some (a, b, false)
    | SvaNet.until_with a b => some (a, b, true)
    | SvaNet.s_until_with a b => some (a, b, true)
    | _ => none
  match until_parts with
  | some (consequent_net, until_net, until_with) =>
    let until_net? : Option SvaNet :=
      match until_net with
      | SvaNet.expr _ => some until_net
      | SvaNet.triggered input => some input
      | _ => none
    match until_net? with
    | none =>
      if ¬ mode_keep then Except.error (Failure.log_error until_error)
      else pure (m, none)
    | some until_net => do
      let (m, antecedent_match) ← import_until mode_keep m antecedent_match until_net until_with
      let (m, prop_okay) ← import_consequent mode_keep mode_cover m antecedent_match consequent_net
      pure (m, some prop_okay)
  | none => do
    let (m, prop_okay) ← import_consequent mode_keep mode_cover m antecedent_match consequent_net
    pure (m, some prop_okay)

/-- The final FF stage and the checker cells of `import`. -/
def import_final (imp : VerificSvaImporter) (m : Module) (prop_okay : SigBit) :
    Except Failure Module :=
  let (m, w) := m.addWire
  let prop_okay_q := SigBit.auto w
  let m := m.addDff prop_okay w (if imp.mode_cover then false else true)
  if imp.eventually then Except.error (Failure.log_error eventually_error)
  else
    let m := if imp.mode_assert then m.addChecker Checker.assert prop_okay_q SigBit.S1 else m
    let m := if imp.mode_assume then m.addChecker Checker.assume prop_okay_q SigBit.S1 else m
    let m := if imp.mode_cover then m.addChecker Checker.cover prop_okay_q SigBit.S1 else m
    Except.ok m

/-- The part of `import` that computes `prop_okay`; the signal is `none` for the
`return` after a warning. -/
def import_prop_okay (imp : VerificSvaImporter) (m : Module) (net : SvaNet) :
    Except Failure (Module × Option SigBit) :=
  match net with
  | SvaNet.expr sig => Except.ok (m, some sig)
  | SvaNet.overlapped_implication a b =>
    import_implication imp.mode_keep imp.mode_cover m false a b
  | SvaNet.non_overlapped_implication a b =>
    import_implication imp.mode_keep imp.mode_cover m true a b
  | net =>
    let is_not : Option SvaNet := match net with
      | SvaNet.not input => some input
      | _ => none
    if is_not.isSome ∨ imp.mode_cover then do
      let fsm ← build_fsm imp.mode_keep SigBit.S1
        (if imp.mode_cover then net else is_not.getD net) false
      let (m, _, accept) ← fsm.getAccept m
      pure (m, some (SigBit.not accept))
    else if ¬ imp.mode_keep then Except.error (Failure.log_error unsupported_error)
    else Except.ok (m, none)

/-- `VerificSvaImporter::import`: compile the property into the module. -/
def VerificSvaImporter.import (imp : VerificSvaImporter) (m : Module) : Except Failure Module :=
  match imp.body_net with
  | none => Except.error (Failure.log_error clocking_error)
  | some net =>
    match import_prop_okay imp m net with
    | Except.error e => Except.error e
    | Except.ok (m, none) => Except.ok m
    | Except.ok (m, some prop_okay) => import_final imp m prop_okay

/-- `import_sva_assert`. -/
def import_sva_assert (mode_keep : Bool) (body_net : Option SvaNet) (m : Module) :
    Except Failure Module :=
  VerificSvaImporter.import { mode_keep := mode_keep, mode_assert := true, body_net := body_net } m

/-- `import_sva_assume`. -/
def import_sva_assume (mode_keep : Bool) (body_net : Option SvaNet) (m : Module) :
    Except Failure Module :=
  VerificSvaImporter.import { mode_keep := mode_keep, mode_assume := true, body_net := body_net } m

/-- `import_sva_cover`. -/
def import_sva_cover (mode_keep : Bool) (body_net : Option SvaNet) (m : Module) :
    Except Failure Module :=
  VerificSvaImporter.import { mode_keep := mode_keep, mode_cover := true, body_net := body_net } m

/-! ## Reference notions used by the statements -/

/-- There is a link from node `u` to node `v`. -/
def SvaFsm.Link (fsm : SvaFsm) (u v : Nat) : Prop :=
  ∃ c, (v, c) ∈ fsm.linksOf u

/-- The links are acyclic: no node reaches itself through one or more links. -/
def SvaFsm.Acyclic (fsm : SvaFsm) : Prop :=
  ∀ u, ¬ Relation.TransGen fsm.Link u u

/-- The invariant kept by the constructor, `createEdge` and `createLink`: the start
node, the accept node and the target of every edge and link are nodes of the automaton. -/
def SvaFsm.WellFormed (fsm : SvaFsm) : Prop :=
  fsm.startNode < fsm.nodes.length ∧ fsm.acceptNode < fsm.nodes.length ∧
  (∀ u, ∀ p ∈ fsm.linksOf u, p.1 < fsm.nodes.length) ∧
  (∀ u, ∀ p ∈ fsm.edgesOf u, p.1 < fsm.nodes.length)

/-- Decidable form of `WellFormed`, for concrete automata. -/
def SvaFsm.wellFormedb (fsm : SvaFsm) : Bool :=
  decide (fsm.startNode < fsm.nodes.length) && decide (fsm.acceptNode < fsm.nodes.length) &&
  fsm.nodes.all (fun nd =>
    nd.links.all (fun p => decide (p.1 < fsm.nodes.length)) &&
    nd.edges.all (fun p => decide (p.1 < fsm.nodes.length)))

/-- Decidable certificate of acyclicity: `rank` increases strictly along every link. -/
def SvaFsm.rankedb (fsm : SvaFsm) (rank : List Nat) : Bool :=
  (List.range fsm.nodes.length).all (fun u =>
    (fsm.linksOf u).all (fun p => decide (rank.getD u 0 < rank.getD p.1 0)))

/-- `LinkPath u v k`: there is a path of `k` links from `u` to `v`. -/
inductive SvaFsm.LinkPath (fsm : SvaFsm) : Nat → Nat → Nat → Prop where
  | nil (u : Nat) : SvaFsm.LinkPath fsm u u 0
  | snoc {u v w k : Nat} : SvaFsm.LinkPath fsm u v k → fsm.Link v w →
      SvaFsm.LinkPath fsm u w (k + 1)

/-- In the vector `order`, every link target of `u` lies at least one above `u`. -/
def SvaFsm.Settled (fsm : SvaFsm) (order : List Nat) (u : Nat) : Prop :=
  ∀ p ∈ fsm.linksOf u, order.getD u 0 + 1 ≤ order.getD p.1 0

/-- Every entry of the vector `order` is the length of some link path ending at that node. -/
def SvaFsm.Realizable (fsm : SvaFsm) (order : List Nat) : Prop :=
  ∀ v, ∃ u, fsm.LinkPath u v (order.getD v 0)

/-- `GuardedPath u v cs`: there is a link path from `u` to `v`, and `cs` lists the
controls of its links other than the constant 1, first link first. -/
inductive SvaFsm.GuardedPath (fsm : SvaFsm) : Nat → Nat → List SigBit → Prop where
  | nil (u : Nat) : SvaFsm.GuardedPath fsm u u []
  | link {u v w : Nat} {c : SigBit} {cs : List SigBit} : (v, c) ∈ fsm.linksOf u →
      SvaFsm.GuardedPath fsm v w cs →
      SvaFsm.GuardedPath fsm u w (if c ≠ SigBit.S1 then c :: cs else cs)

/-- The entries that `node_to_unode(node, unode, ctrl)` adds to `unodes[unode]`, which
goes from `u0` to `u1`: one edge for every edge reached from `node` through links and one
accept entry for every link path from `node` to the accept node, each guarded by the
sorted duplicate-free list of `ctrl` and the controls passed. -/
def SvaFsm.UnodeEntries (fsm : SvaFsm) (node : Nat) (ctrl : List SigBit)
    (u0 u1 : SvaUFsmNode) : Prop :=
  u1.reachable = u0.reachable ∧
  ∃ E A, u1.edges = u0.edges ++ E ∧ u1.accept = u0.accept ++ A ∧
    (∀ t G, (t, G) ∈ E ↔
      ∃ m cs c, fsm.GuardedPath node m cs ∧ (t, c) ∈ fsm.edgesOf m ∧
        G = sort_and_unify (ctrl ++ cs ++ (if c ≠ SigBit.S1 then [c] else []))) ∧
    (∀ G, G ∈ A ↔
      ∃ cs, fsm.GuardedPath node fsm.acceptNode cs ∧ G = sort_and_unify (ctrl ++ cs))

/-- Bit `b` of the control vector `ctrl` is true under the valuation `v`. -/
def valTrue (ctrl : List SigBit) (v : List Bool) (b : SigBit) : Prop :=
  ∃ j, j < ctrl.length ∧ ctrl.getD j SigBit.S0 = b ∧ v.getD j false = true

/-- Some member of the subset `state` has an accept guard all of whose bits are true
under the valuation `v` of `ctrl`. -/
def acceptsUnder (unodes : List SvaUFsmNode) (state : List Nat) (ctrl : List SigBit)
    (v : List Bool) : Prop :=
  ∃ u ∈ state, ∃ G ∈ (unodes.getD u default).accept, ∀ b ∈ G, valTrue ctrl v b

/-- Node `t` is the target of an edge of a member of the subset `state` whose guard bits
are all true under the valuation `v` of `ctrl`. -/
def targetUnder (unodes : List SvaUFsmNode) (state : List Nat) (ctrl : List SigBit)
    (v : List Bool) (t : Nat) : Prop :=
  ∃ u ∈ state, ∃ e ∈ (unodes.getD u default).edges, e.1 = t ∧ ∀ b ∈ e.2, valTrue ctrl v b

/-- Closure of the node set `E` under the links whose control is true under `val`. -/
inductive SvaFsm.LinkClosure (fsm : SvaFsm) (val : SigBit → Bool) (E : Nat → Prop) :
    Nat → Prop where
  | base {v : Nat} : E v → SvaFsm.LinkClosure fsm val E v
  | link {u v : Nat} {c : SigBit} : SvaFsm.LinkClosure fsm val E u →
      (v, c) ∈ fsm.linksOf u → val c = true → SvaFsm.LinkClosure fsm val E v

/-- Reference run of the automaton, stored bits: all stored bits are 0 at cycle 0; the
stored bit of `v` is set at `t+1` iff some node that is active at `t` has an edge to
`v` whose control is true at `t`. A node is enabled at `t` iff disable is false at `t`
and its stored bit is set or it is the start node and the trigger is true; the
active nodes are the link closure of the enabled ones. `val t c` is the value of signal
`c` at cycle `t`. -/
def SvaFsm.refStored (fsm : SvaFsm) (val : Nat → SigBit → Bool) : Nat → Nat → Prop
  | 0, _ => False
  | t + 1, v =>
    ∃ u c,
      fsm.LinkClosure (val t)
        (fun w => val t fsm.disable_sig = false ∧
          (fsm.refStored val t w ∨ (w = fsm.startNode ∧ val t fsm.trigger_sig = true))) u ∧
      (v, c) ∈ fsm.edgesOf u ∧ val t c = true

/-- Reference run: the nodes enabled at cycle `t`. -/
def SvaFsm.refEnabled (fsm : SvaFsm) (val : Nat → SigBit → Bool) (t w : Nat) : Prop :=
  val t fsm.disable_sig = false ∧
    (fsm.refStored val t w ∨ (w = fsm.startNode ∧ val t fsm.trigger_sig = true))

/-- Reference run: the active set `A_t`. -/
def SvaFsm.refActive (fsm : SvaFsm) (val : Nat → SigBit → Bool) (t : Nat) : Nat → Prop :=
  fsm.LinkClosure (val t) (fsm.refEnabled val t)

/-- The state signal of node `i` before links are followed, for state wires
numbered from `base`. -/
def SvaFsm.state_sig0 (fsm : SvaFsm) (base i : Nat) : SigBit :=
  let s := SigBit.auto (base + i)
  let s := if i = fsm.startNode then SigBit.or s fsm.trigger_sig else s
  if fsm.disable_sig ≠ SigBit.S0 then SigBit.and s (SigBit.not fsm.disable_sig) else s

/-- One relaxation step of "Follow Links" on the values of the state signals:
the step `(u, v, c)` ORs `B u ∧ c` into `B v`. -/
def relaxStep (ev : SigBit → Bool) (B : Nat → Bool) (s : Nat × Nat × SigBit) : Nat → Bool :=
  Function.update B s.2.1 (B s.2.1 || (B s.1 && ev s.2.2))

/-- A sequence of relaxation steps on the values of the state signals. -/
def relax (ev : SigBit → Bool) (B : Nat → Bool) (steps : List (Nat × Nat × SigBit)) :
    Nat → Bool :=
  steps.foldl (relaxStep ev) B

/-- The relaxation steps of "Follow Links" for the node sequence `l`. -/
def SvaFsm.linkSteps (fsm : SvaFsm) (l : List Nat) : List (Nat × Nat × SigBit) :=
  l.flatMap (fun u => (fsm.linksOf u).map (fun p => (u, p.1, p.2)))

/-! ## Concrete automata -/

/-- The automaton that `parse_sequence` builds for `e[*2:4]` with `e = wire 0`, the end
node linked to the accept node, triggered by `wire 9`. -/
def fsmRepeat24 : SvaFsm :=
  { trigger_sig := SigBit.wire 9, startNode := 0, acceptNode := 1,
    nodes := [
      { links := [(2, SigBit.wire 0)] },
      { },
      { edges := [(3, SigBit.S1)] },
      { links := [(4, SigBit.wire 0)] },
      { edges := [(5, SigBit.S1)], links := [(6, SigBit.S1)] },
      { links := [(6, SigBit.wire 0)] },
      { edges := [(7, SigBit.S1)], links := [(8, SigBit.S1)] },
      { links := [(8, SigBit.wire 0)] },
      { links := [(1, SigBit.S1)] } ] }

end SVA


namespace SVA

/-! ## Concrete automata after link resolution -/

/-- The link-free automaton of `e[*2:4]` (`fsmRepeat24`), as built by `getReject`. -/
def unodesRepeat24 : List SvaUFsmNode :=
  [ { edges := [(3, [SigBit.wire 0])], accept := [], reachable := true },
    { edges := [], accept := [[]], reachable := false },
    { edges := [(3, [])], accept := [], reachable := false },
    { edges := [(5, [SigBit.wire 0]), (7, [SigBit.wire 0])], accept := [[SigBit.wire 0]],
      reachable := true },
    { edges := [(5, []), (7, [])], accept := [[]], reachable := false },
    { edges := [(7, [SigBit.wire 0])], accept := [[SigBit.wire 0]], reachable := true },
    { edges := [(7, [])], accept := [[]], reachable := false },
    { edges := [], accept := [[SigBit.wire 0]], reachable := true },
    { edges := [], accept := [[]], reachable := false } ]

/-- The deterministic automaton of `e[*2:4]` in first-match mode. -/
def dnodesRepeat24 : List (List Nat × SvaDFsmNode) :=
  [ ([0], { ctrl := [SigBit.wire 0], edges := [([3], [true])], accept := [],
            reject := [[false]] }),
    ([3], { ctrl := [SigBit.wire 0], edges := [], accept := [[true]], reject := [[false]] }) ]

/-- A link-free automaton whose only node has one accept guard of `n` distinct bits. -/
def unodesWide (n : Nat) : List SvaUFsmNode :=
  [ { edges := [], accept := [(List.range n).map SigBit.wire], reachable := true } ]

/-! ## The implication idiom `a ##1 b |-> c ##[1:2] d` -/

/-- The property `a ##1 b |-> c ##[1:2] d` with `a, b, c, d` the nets 0, 1, 2, 3. -/
def implProp : SvaNet :=
  SvaNet.overlapped_implication
    (SvaNet.seq_concat 1 (some 1) (SvaNet.expr (SigBit.wire 0)) (SvaNet.expr (SigBit.wire 1)))
    (SvaNet.seq_concat 1 (some 2) (SvaNet.expr (SigBit.wire 2)) (SvaNet.expr (SigBit.wire 3)))

/-- The antecedent match of `implProp`: the accept signal of the automaton of `a ##1 b`. -/
def implMatch : SigBit :=
  SigBit.or (SigBit.auto 1)
    (SigBit.or (SigBit.auto 4) (SigBit.and (SigBit.auto 3) (SigBit.wire 1)))

/-- The state signal of the start subset of the consequent of `implProp`. -/
def implStart : SigBit := SigBit.or (SigBit.auto 5) implMatch

/-- The comparator of a deterministic node of `implProp`: state `st` is active and the
control bit `c` has the value `v`. -/
def implEq (st c : SigBit) (v : SigBit) : SigBit :=
  SigBit.and (SigBit.xnor st SigBit.S1) (SigBit.and (SigBit.xnor c v) SigBit.S1)

/-- The reject signal of the consequent of `implProp`. -/
def implReject : SigBit :=
  SigBit.or (implEq implStart (SigBit.wire 2) SigBit.S0)
    (SigBit.or (implEq (SigBit.auto 7) (SigBit.wire 3) SigBit.S0) SigBit.S0)

/-- The module that `import_sva_assert` builds for `implProp` from the empty module: wires
0 to 4 are the states of the antecedent automaton, wires 5 to 7 the states of the subsets
`{0}`, `{3}`, `{4}` of the consequent, wire 8 the registered property-OK. -/
def implModule : Module :=
  { nwires := 9,
    drivers := [
      (8, Driver.dff (SigBit.not implReject) true),
      (7, Driver.dff (implEq (SigBit.auto 6) (SigBit.wire 3) SigBit.S0) false),
      (6, Driver.dff (implEq implStart (SigBit.wire 2) SigBit.S1) false),
      (5, Driver.const false),
      (4, Driver.const false),
      (3, Driver.dff
        (SigBit.and
          (SigBit.or (SigBit.auto 2)
            (SigBit.and (SigBit.or (SigBit.auto 0) SigBit.S1) (SigBit.wire 0)))
          SigBit.S1) false),
      (2, Driver.const false),
      (1, Driver.const false),
      (0, Driver.const false) ],
    checkers := [(Checker.assert, SigBit.auto 8, SigBit.S1)] }

/-- A trace on which `a` holds at cycle 0, `b` and `c` at cycle 1 and `d` at cycle 2, and
nothing else holds. -/
def implTrace (t w : Nat) : Bool :=
  (t == 0 && w == 0) || (t == 1 && w == 1) || (t == 1 && w == 2) || (t == 2 && w == 3)

/-- A trace on which `a` holds at cycle 0 and `b` at cycle 1, and nothing else holds. -/
def implTraceFail (t w : Nat) : Bool :=
  (t == 0 && w == 0) || (t == 1 && w == 1)

/-! ## Closed forms of the automata of `e[*N:M]` and `e[*N:$]` -/

/-- The fresh automaton with trigger `trig` whose node `i` is `f i`, for `i < n`. -/
def fsmOf (trig : SigBit) (n : Nat) (f : Nat → SvaNFsmNode) : SvaFsm :=
  { SvaFsm.new trig with nodes := (List.range n).map f }

/-- Node `i` of the automaton of a bounded repetition of `e` after `K` copies of `e`, of
which the copies from `lo` on are optional: node 0 is the start node, node 1 the accept
node, node `2k` the end of copy `k` and node `2k-1` its entry for `k ≥ 2`. With `fin` the
end of the last copy is linked to the accept node. -/
def repNode (e : SigBit) (lo K : Nat) (fin : Bool) (i : Nat) : SvaNFsmNode :=
  if i = 0 then { edges := [], links := [(2, e)] }
  else if i = 1 then { edges := [], links := [] }
  else if i % 2 = 1 then { edges := [], links := [(i + 1, e)] }
  else if i < 2 * K then
    { edges := [(i + 1, SigBit.S1)],
      links := if 2 * lo ≤ i then [(i + 2, SigBit.S1)] else [] }
  else { edges := [], links := if fin then [(1, SigBit.S1)] else [] }

/-- Node `i` of the automaton of `e[*lo:$]` for `lo ≥ 1`: `lo` copies of `e` as in
`repNode`, one more copy from node `2*lo+1` to node `2*lo+2`, which is linked back to the
end `2*lo` of copy `lo`, which is linked to the accept node. -/
def infNode (e : SigBit) (lo : Nat) (i : Nat) : SvaNFsmNode :=
  if i = 0 then { edges := [], links := [(2, e)] }
  else if i = 1 then { edges := [], links := [] }
  else if i % 2 = 1 then { edges := [], links := [(i + 1, e)] }
  else if i < 2 * lo then { edges := [(i + 1, SigBit.S1)], links := [] }
  else if i = 2 * lo then { edges := [(i + 1, SigBit.S1)], links := [(1, SigBit.S1)] }
  else { edges := [], links := [(2 * lo, SigBit.S1)] }

end SVA


namespace SVA

/-! ## Reference notions for the deterministic automaton -/

/-- The keys of the dictionary of deterministic nodes. -/
def dict_keys (d : List (List Nat × SvaDFsmNode)) : List (List Nat) := d.map Prod.fst

/-- The deterministic node that the loop of `create_dnode` over the valuations builds for
the subset `state` with control vector `ctrl`: one edge, accept or reject entry for every
valuation, in increasing order of the valuations. -/
def dnode_of_ctrl (unodes : List SvaUFsmNode) (firstmatch : Bool) (state : List Nat)
    (ctrl : List SigBit) : SvaDFsmNode :=
  { ctrl := ctrl,
    edges :=
      ((List.range (2 ^ ctrl.length)).filter (fun i =>
        !decide (val_next unodes state firstmatch ctrl i = []))).map
        (fun i => (usortint (val_next unodes state firstmatch ctrl i), Const i ctrl.length)),
    accept :=
      ((List.range (2 ^ ctrl.length)).filter (fun i => val_accept unodes state ctrl i)).map
        (fun i => Const i ctrl.length),
    reject :=
      ((List.range (2 ^ ctrl.length)).filter (fun i =>
        decide (val_next unodes state firstmatch ctrl i = []) &&
          !val_accept unodes state ctrl i)).map (fun i => Const i ctrl.length) }

/-- The dictionary `d'` extends `d`: it keeps the keys and entries of `d`, and every new
entry is the node that `create_dnode` builds for its key, of at most 10 control bits, with
all edge targets among the keys of `d'`. -/
def dict_extends (unodes : List SvaUFsmNode) (firstmatch : Bool)
    (d d' : List (List Nat × SvaDFsmNode)) : Prop :=
  (∀ K, K ∈ dict_keys d → K ∈ dict_keys d') ∧
  (∀ K, K ∈ dict_keys d → dict_at d' K = dict_at d K) ∧
  (∀ K, K ∉ dict_keys d → ∀ dn, dict_at d' K = some dn →
    (∃ raw, dnode_ctrl_raw unodes K = Except.ok raw ∧ (sort_and_unify raw).length ≤ 10 ∧
      dn = dnode_of_ctrl unodes firstmatch K (sort_and_unify raw)) ∧
    ∀ e ∈ dn.edges, e.1 ∈ dict_keys d')

/-- The node `u` of the link-free automaton stands for `node`: it has one edge for every
edge reached from `node` through links and one accept entry for every link path from `node`
to the accept node, each guarded by the sorted duplicate-free list of the controls passed. -/
def SvaFsm.UnodeOf (fsm : SvaFsm) (node : Nat) (u : SvaUFsmNode) : Prop :=
  (∀ t G, (t, G) ∈ u.edges ↔
    ∃ m cs c, fsm.GuardedPath node m cs ∧ (t, c) ∈ fsm.edgesOf m ∧
      G = sort_and_unify (cs ++ (if c ≠ SigBit.S1 then [c] else []))) ∧
  (∀ G, G ∈ u.accept ↔
    ∃ cs, fsm.GuardedPath node fsm.acceptNode cs ∧ G = sort_and_unify cs)

/-! ## Closed forms of the loops of block "Create DFSM Circuit" -/

/-- The entry of a deterministic node after the first loop: its state wire is `w`, and the
trigger is ORed into the state signal of the start subset. -/
def SvaFsm.dnode_wire (fsm : SvaFsm) (w : Nat) (it : List Nat × SvaDFsmNode) :
    List Nat × SvaDFsmNode :=
  (it.1, { it.2 with
    ffoutwire := w,
    statesig :=
      if it.1 = [fsm.startNode] then SigBit.or (SigBit.auto w) fsm.trigger_sig
      else SigBit.auto w })

/-- The dictionary after the first loop: the entries get the wires `base`, `base+1`, ... -/
def SvaFsm.with_wires (fsm : SvaFsm) : Nat → List (List Nat × SvaDFsmNode) →
    List (List Nat × SvaDFsmNode)
  | _, [] => []
  | base, it :: l => fsm.dnode_wire base it :: fsm.with_wires (base + 1) l

/-- The dictionary in which `N K` is appended to `nextstate` of the entry of every key `K`. -/
def add_next (l : List (List Nat × SvaDFsmNode)) (N : List Nat → List SigBit) :
    List (List Nat × SvaDFsmNode) :=
  l.map (fun it => (it.1, { it.2 with nextstate := it.2.nextstate ++ N it.1 }))

/-- The activations of the edges of `dnode` that lead to the subset `K`. -/
def edge_trigs (dnode : SvaDFsmNode) (K : List Nat) : List SigBit :=
  (dnode.edges.filter (fun e => decide (e.1 = K))).map (fun e => dnode_eq dnode e.2)

/-- The activations of all edges of the dictionary `l` that lead to the subset `K`. -/
def dict_trigs (l : List (List Nat × SvaDFsmNode)) (K : List Nat) : List SigBit :=
  l.flatMap (fun it => edge_trigs it.2 K)

/-- The driver that the third loop attaches to the state wire of `dnode`. -/
def dnode_driver (dnode : SvaDFsmNode) : Driver :=
  if dnode.nextstate.length = 0 then Driver.const false
  else if dnode.nextstate.length = 1 then Driver.dff (dnode.nextstate.getD 0 SigBit.S0) false
  else Driver.dff (ReduceOr dnode.nextstate) false

/-- What `getReject` emits, as far as the run of the circuit goes: `D` is the dictionary of
deterministic nodes with their state wires, over the link-free automaton `U`. Its keys are
distinct and include the start subset; every entry is the node that `create_dnode` builds
for its key, with all edge targets among the keys; its state register is 0 at cycle 0 and
then holds whether some edge into it was taken in the cycle before; the reject and the
accept signal tell whether some reject or accept comparator is true. -/
def SvaFsm.DfsmCircuit (fsm : SvaFsm) (U : List SvaUFsmNode)
    (D : List (List Nat × SvaDFsmNode)) (m' : Module) (rej : SigBit) (accO : Option SigBit)
    (with_accept : Bool) : Prop :=
  (dict_keys D).Nodup ∧ [fsm.startNode] ∈ dict_keys D ∧
  (∀ it ∈ D,
    (∃ raw, dnode_ctrl_raw U it.1 = Except.ok raw ∧ (sort_and_unify raw).length ≤ 10 ∧
      it.2.ctrl = sort_and_unify raw ∧
      it.2.edges = (dnode_of_ctrl U true it.1 (sort_and_unify raw)).edges ∧
      it.2.accept = (dnode_of_ctrl U true it.1 (sort_and_unify raw)).accept ∧
      it.2.reject = (dnode_of_ctrl U true it.1 (sort_and_unify raw)).reject) ∧
    it.2.statesig =
      (if it.1 = [fsm.startNode] then SigBit.or (SigBit.auto it.2.ffoutwire) fsm.trigger_sig
       else SigBit.auto it.2.ffoutwire) ∧
    (∀ e ∈ it.2.edges, e.1 ∈ dict_keys D) ∧
    (∀ env, m'.qval env 0 it.2.ffoutwire = false) ∧
    (∀ env t, m'.qval env (t + 1) it.2.ffoutwire = true ↔
      ∃ itS ∈ D, ∃ e ∈ itS.2.edges, e.1 = it.1 ∧
        m'.value env t (dnode_eq itS.2 e.2) = true)) ∧
  (∀ env t, m'.value env t rej = true ↔
    ∃ it ∈ D, ∃ v ∈ it.2.reject, m'.value env t (dnode_eq it.2 v) = true) ∧
  (with_accept = true → ∃ acc, accO = some acc ∧
    ∀ env t, (m'.value env t acc = true ↔
      ∃ it ∈ D, ∃ v ∈ it.2.accept, m'.value env t (dnode_eq it.2 v) = true))

/-- Reference run with first-match: node `w` is enabled at cycle `t` and the automaton has
not accepted at any earlier cycle. -/
def SvaFsm.refLive (fsm : SvaFsm) (val : Nat → SigBit → Bool) (t w : Nat) : Prop :=
  (∀ t', t' < t → ¬ fsm.refActive val t' fsm.acceptNode) ∧ fsm.refEnabled val t w

/-- The state of the deterministic automaton at cycle `t` follows the reference run: either
no node is live and no state signal is true, or the sorted list `K` of the live nodes is a
key of the dictionary and the state signal of an entry is true iff its key is `K`. -/
def SvaFsm.DfsmAt (fsm : SvaFsm) (D : List (List Nat × SvaDFsmNode)) (m' : Module)
    (env : Nat → Nat → Bool) (t : Nat) : Prop :=
  ((¬ ∃ w, fsm.refLive (m'.value env) t w) ∧
    ∀ it ∈ D, m'.value env t it.2.statesig = false) ∨
  (∃ K, K ∈ dict_keys D ∧ (∀ w, w ∈ K ↔ fsm.refLive (m'.value env) t w) ∧ K ≠ [] ∧
    K.Sorted (fun a b => a < b) ∧
    ∀ it ∈ D, (m'.value env t it.2.statesig = true ↔ it.1 = K))

/-! ## Reference notions for the termination of `getReject` -/

/-- The number of nodes of the link-free automaton not yet marked reachable. -/
def unmarked (U : List SvaUFsmNode) : Nat := U.countP (fun x => !x.reachable)

/-- Every marked node outside `S` has all its edge targets marked. -/
def MarksClosed (U : List SvaUFsmNode) (S : List Nat) : Prop :=
  ∀ j, (U.getD j default).reachable = true → j ∉ S →
    ∀ e ∈ (U.getD j default).edges, (U.getD e.1 default).reachable = true

/-- A subset that `create_dnode` may be called with: a strictly sorted list of marked nodes
of the link-free automaton `U`. -/
def GoodState (U : List SvaUFsmNode) (S : List Nat) : Prop :=
  S.Sorted (fun a b => a < b) ∧
    ∀ x ∈ S, x < U.length ∧ (U.getD x default).reachable = true

/-! ## A pending match -/

/-- The sequence `a ##1 b` with `a`, `b` the nets 0 and 1. -/
def concatAB : SvaNet :=
  SvaNet.seq_concat 1 (some 1) (SvaNet.expr (SigBit.wire 0)) (SvaNet.expr (SigBit.wire 1))

/-- A trace on which `a` (net 0) and the trigger (net 2) hold at cycle 0 and nothing else
holds. -/
def traceA (t w : Nat) : Bool :=
  decide (t = 0) && (decide (w = 0) || decide (w = 2))

end SVA


namespace SVA

/-! ## Definitions for the contracts of the automaton interface and the sequence compiler -/

/-- `SvaFsm::usortint` on arbitrary `int` values: sort the vector, then keep an element iff
it is the last one or differs from its successor. `usortint` is this function on node ids. -/
def usortintZ (vec : List Int) : List Int :=
  let vec := vec.insertionSort (fun a b => a ≤ b)
  (List.range vec.length).foldl
    (fun (newvec : List Int) i =>
      if i = vec.length - 1 ∨ vec.getD i 0 ≠ vec.getD (i + 1) 0 then newvec ++ [vec.getD i 0]
      else newvec)
    []

/-- The primitives that `parse_sequence` reports as unsupported: every SVA primitive other
than sequence concatenation, consecutive repetition, sequence-or and throughout. -/
def SvaNet.unsupported_in_sequence : SvaNet → Bool
  | SvaNet.expr _ => false
  | SvaNet.seq_concat _ _ _ _ => false
  | SvaNet.consecutive_repeat _ _ _ => false
  | SvaNet.seq_or _ _ => false
  | SvaNet.throughout _ _ => false
  | _ => true

/-- The automaton after a successful `createNode`. -/
def SvaFsm.withNode (fsm : SvaFsm) : SvaFsm :=
  { fsm with nodes := fsm.nodes ++ [default] }

/-- The automaton after `nodes[u].edges.push_back(make_pair(v, c))`. -/
def SvaFsm.withEdge (fsm : SvaFsm) (u v : Nat) (c : SigBit) : SvaFsm :=
  let node := fsm.nodes.getD u default
  { fsm with nodes := fsm.nodes.set u { node with edges := node.edges ++ [(v, c)] } }

/-- The automaton after `nodes[u].links.push_back(make_pair(v, c))`. -/
def SvaFsm.withLink (fsm : SvaFsm) (u v : Nat) (c : SigBit) : SvaFsm :=
  let node := fsm.nodes.getD u default
  { fsm with nodes := fsm.nodes.set u { node with links := node.links ++ [(v, c)] } }

/-- The automaton `fsm2` differs from `fsm` in its nodes only. -/
def SvaFsm.NodesOnly (fsm fsm2 : SvaFsm) : Prop :=
  fsm2 = { fsm with nodes := fsm2.nodes }

/-- Relation between the automaton and node a compiler step starts from and the automaton
and node it returns: only the nodes change, no node is removed, and the returned node is a
node of the automaton when the start node was. -/
def Grows (s s2 : SvaFsm × Nat) : Prop :=
  s.1.NodesOnly s2.1 ∧ s.1.nodes.length ≤ s2.1.nodes.length ∧
    (s.2 < s.1.nodes.length → s2.2 < s2.1.nodes.length)

/-- The node from which the `j`-th fresh node of a delay chain is reached, for a chain
that starts at node `node` of an automaton with `L` nodes: the fresh nodes are `L`, `L+1`,
...; the first one is reached from `node`, every other one from the fresh node before it. -/
def chain_src (node L j : Nat) : Nat := if j = 0 then node else L + j - 1

/-- The automaton `f` is the automaton `f1` with a delay chain of `n` fresh nodes added
at node `node`: with `L` the number of nodes of `f1`, the `j`-th fresh node `L + j` is
reached from `chain_src node L j` by one edge with control `c`, and for `N ≤ j` also by
one link with control `c`; nothing else is added and nothing else is changed. -/
def DelayChain (f1 : SvaFsm) (node : Nat) (c : SigBit) (N n : Nat) (f : SvaFsm) : Prop :=
  f1.NodesOnly f ∧ f.nodes.length = f1.nodes.length + n ∧
  (∀ j, j < n → f.edgesOf (chain_src node f1.nodes.length j) =
    f1.edgesOf (chain_src node f1.nodes.length j) ++ [(f1.nodes.length + j, c)]) ∧
  (∀ i, (∀ j, j < n → i ≠ chain_src node f1.nodes.length j) → f.edgesOf i = f1.edgesOf i) ∧
  (∀ j, N ≤ j → j < n → f.linksOf (chain_src node f1.nodes.length j) =
    f1.linksOf (chain_src node f1.nodes.length j) ++ [(f1.nodes.length + j, c)]) ∧
  (∀ i, (∀ j, N ≤ j → j < n → i ≠ chain_src node f1.nodes.length j) →
    f.linksOf i = f1.linksOf i)

/-- Number of passes of the second loop of a concatenation `##[sva_low:sva_high]`:
`sva_high - sva_low` for a finite `sva_high` (none when `sva_high ≤ sva_low`), and none
for `sva_high = $`. -/
def concat_window (sva_low : Nat) : Option Nat → Nat
  | none => 0
  | some sva_high => sva_high - sva_low

/-- The operands of an until primitive (`until`, `s_until`, `until_with`, `s_until_with`)
and whether it is a `with` form; `none` for every other net. -/
def SvaNet.until_parts : SvaNet → Option (SvaNet × SvaNet × Bool)
  | SvaNet.until a b => some (a, b, false)
  | SvaNet.s_until a b => some (a, b, false)
  | SvaNet.until_with a b => some (a, b, true)
  | SvaNet.s_until_with a b => some (a, b, true)
  | _ => none

/-- The net that `import` compiles for an until condition: the net itself when it has no
SVA driver, the input of `triggered`, and `none` for every other primitive. -/
def SvaNet.until_cond : SvaNet → Option SvaNet
  | SvaNet.expr sig => some (SvaNet.expr sig)
  | SvaNet.triggered input => some input
  | _ => none

/-- The module `M` extends the module `m`: it has at least the wires of `m`, and the wires
of `m` have in `M` the drivers they have in `m`. -/
def Module.Extends (m M : Module) : Prop :=
  m.nwires ≤ M.nwires ∧ ∀ w, w < m.nwires → M.driver w = m.driver w

end SVA


namespace SVA

/-! ## Definitions for the contracts of the importer and of circuit emission -/

/-- The sequence operators of `parse_sequence`: sequence concatenation, consecutive
repetition, sequence-or and throughout. -/
def SvaNet.is_sequence_op : SvaNet → Bool
  | SvaNet.seq_concat _ _ _ _ => true
  | SvaNet.consecutive_repeat _ _ _ => true
  | SvaNet.seq_or _ _ => true
  | SvaNet.throughout _ _ => true
  | _ => false

/-- The vector `state_sig` of `getAccept` after block "Follow Links", for state wires
numbered from `base` and the link order `order`. -/
def SvaFsm.linked_state_sigs (fsm : SvaFsm) (base : Nat) (order : List Nat) : List SigBit :=
  fsm.follow_links (order_to_nodes order)
    ((List.range fsm.nodes.length).map (fsm.state_sig0 base))

/-- The automaton of `e[*2:4]` (`fsmRepeat24`) after `pushDisable` with the net 1. -/
def fsmDisabled : SvaFsm :=
  { fsmRepeat24 with disable_sig := SigBit.wire 1, disable_stack := [SigBit.S0] }

/-- The automaton that `import` builds for the sequence `a`, the net 0. -/
def fsmExpr : SvaFsm :=
  { trigger_sig := SigBit.S1, startNode := 0, acceptNode := 1,
    nodes := [ { links := [(2, SigBit.wire 0)] }, { }, { links := [(1, SigBit.S1)] } ] }

/-! ## The `memory` pass (passes/memory/memory.cc) -/

/-- The locals of `MemoryPass::execute` that the argument loop writes. -/
structure MemoryFlags where
  flag_nomap : Bool := false
  flag_nordff : Bool := false
  flag_nowide : Bool := false
  flag_nosat : Bool := false
  flag_memx : Bool := false
  memory_bram_opts : String := ""
  deriving DecidableEq, Repr

/-- The argument loop of `MemoryPass::execute`, from the argument at index `argidx` on,
`rest` being the arguments from that index: returns the flags and the index at which the
loop stops (the first argument that is no option of the pass, or the number of arguments). -/
def MemoryPass.parse_args : List String → Nat → MemoryFlags → MemoryFlags × Nat
  | [], argidx, f => (f, argidx)
  | a :: rest, argidx, f =>
    if a = "-nomap" then MemoryPass.parse_args rest (argidx + 1) { f with flag_nomap := true }
    else if a = "-nordff" then
      MemoryPass.parse_args rest (argidx + 1) { f with flag_nordff := true }
    else if a = "-nowide" then
      MemoryPass.parse_args rest (argidx + 1) { f with flag_nowide := true }
    else if a = "-nosat" then
      MemoryPass.parse_args rest (argidx + 1) { f with flag_nosat := true }
    else if a = "-memx" then
      MemoryPass.parse_args rest (argidx + 1)
        { f with flag_nordff := true, flag_nowide := true, flag_memx := true }
    else
      match rest with
      | b :: rest2 =>
        if a = "-bram" then
          MemoryPass.parse_args rest2 (argidx + 2)
            { f with memory_bram_opts := f.memory_bram_opts ++ " -rules " ++ b }
        else (f, argidx)
      | [] => (f, argidx)

/-- The flags that `MemoryPass::execute` computes from its arguments. -/
def MemoryPass.flags (args : List String) : MemoryFlags :=
  (MemoryPass.parse_args (args.drop 1) 1 {}).1

/-- The index at which the argument loop of `MemoryPass::execute` stops. -/
def MemoryPass.argidx (args : List String) : Nat :=
  (MemoryPass.parse_args (args.drop 1) 1 {}).2

/-- `Pass::call(design, command)`: the command is appended to the list of the commands
run so far. -/
def Pass.call (log : List String) (command : String) : List String := log ++ [command]

/-- `MemoryPass::execute`: returns the commands passed to `Pass::call`, in the order of the
calls. `extra_args` stands for `Pass::extra_args(args, argidx, design)`, which handles the
selection arguments and fails on an argument it does not accept. -/
def MemoryPass.execute (extra_args : List String → Nat → Except Failure Unit)
    (args : List String) : Except Failure (List String) := do
  let (f, argidx) := MemoryPass.parse_args (args.drop 1) 1 {}
  extra_args args argidx
  let memory_share_opts := ""
  let memory_share_opts :=
    if f.flag_nowide then memory_share_opts ++ " -nowide" else memory_share_opts
  let memory_share_opts :=
    if f.flag_nosat then memory_share_opts ++ " -nosat" else memory_share_opts
  let log := Pass.call [] "opt_mem"
  let log := if ¬ f.flag_nordff then Pass.call log "memory_dff" else log
  let log := Pass.call log "opt_clean"
  let log := Pass.call log ("memory_share" ++ memory_share_opts)
  let log := if f.flag_memx then Pass.call log "memory_memx" else log
  let log := Pass.call log "opt_clean"
  let log := Pass.call log "memory_collect"
  let log :=
    if ¬ f.memory_bram_opts.isEmpty then Pass.call log ("memory_bram" ++ f.memory_bram_opts)
    else log
  let log := if ¬ f.flag_nomap then Pass.call log "memory_map" else log
  pure log

/-- The order of the sub-passes listed in the help text of the `memory` pass, for given
flags: `opt_mem`, `memory_dff` (skipped with `-nordff` or `-memx`), `opt_clean`,
`memory_share` with its options, `opt_clean`, `memory_memx` (with `-memx`),
`memory_collect`, `memory_bram` with its rules (with `-bram`), `memory_map` (skipped with
`-nomap`). -/
def MemoryPass.help_order (f : MemoryFlags) : List String :=
  ["opt_mem"] ++
  (if f.flag_nordff then [] else ["memory_dff"]) ++
  ["opt_clean"] ++
  ["memory_share" ++ (if f.flag_nowide then " -nowide" else "") ++
    (if f.flag_nosat then " -nosat" else "")] ++
  ["opt_clean"] ++
  (if f.flag_memx then ["memory_memx"] else []) ++
  ["memory_collect"] ++
  (if f.memory_bram_opts.isEmpty then [] else ["memory_bram" ++ f.memory_bram_opts]) ++
  (if f.flag_nomap then [] else ["memory_map"])

end SVA


namespace SVA

/-! ## Reference notions for reachability and for link cycles -/

/-- Node `b` of the link-free automaton `U` is reachable from node `a` along edges. -/
def UReach (U : List SvaUFsmNode) (a b : Nat) : Prop :=
  Relation.ReflTransGen (fun x y => ∃ e ∈ (U.getD x default).edges, e.1 = y) a b

/-- A cycle of links is reachable from `node` through links. -/
def SvaFsm.LinkCycleFrom (fsm : SvaFsm) (node : Nat) : Prop :=
  ∃ u, Relation.ReflTransGen fsm.Link node u ∧ Relation.TransGen fsm.Link u u

/-- Every link target is a node of the automaton. -/
def SvaFsm.LinksInRange (fsm : SvaFsm) : Prop :=
  ∀ u, ∀ p ∈ fsm.linksOf u, p.1 < fsm.nodes.length

/-- Decidable check that every edge target of the link-free automaton is one of its nodes. -/
def edges_in_range (U : List SvaUFsmNode) : Bool :=
  U.all (fun u => u.edges.all (fun e => decide (e.1 < U.length)))

/-- Decidable check that every marked node has all its edge targets marked. -/
def marks_closed (U : List SvaUFsmNode) : Bool :=
  U.all (fun u => !u.reachable || u.edges.all (fun e => (U.getD e.1 default).reachable))

/-! ## Concrete automata with cycles -/

/-- A link-free automaton with a cycle of edges, as built for `a ##1 b[*] ##1 c` with
`a, b, c` the nets 0, 1, 2: node 1 has an edge to itself. Node 3 is not reachable from
node 0. No node is marked. -/
def unodesLoop : List SvaUFsmNode :=
  [ { edges := [(1, [SigBit.wire 0])] },
    { edges := [(1, [SigBit.wire 1]), (2, [SigBit.wire 2])] },
    { accept := [[]] },
    { edges := [(0, [])] } ]

/-- The automaton `unodesLoop` after `mark_reachable_unode` from node 0. -/
def unodesLoopMarked : List SvaUFsmNode :=
  [ { edges := [(1, [SigBit.wire 0])], reachable := true },
    { edges := [(1, [SigBit.wire 1]), (2, [SigBit.wire 2])], reachable := true },
    { accept := [[]], reachable := true },
    { edges := [(0, [])] } ]

/-- An automaton whose links form a cycle between the nodes 1 and 2; node 0 has a link
into the cycle. `createLink` makes no cycle check, so three calls build it. -/
def fsmLinkLoop : SvaFsm :=
  { startNode := 0, acceptNode := 1,
    nodes := [ { links := [(1, SigBit.S1)] }, { links := [(2, SigBit.S1)] },
               { links := [(1, SigBit.wire 0)] } ] }

end SVA


namespace SVA

/-! ## Reference notions for the frame of the sequence compiler -/

/-- The net has no SVA driver: it is a plain Boolean expression. -/
def SvaNet.is_expr : SvaNet → Bool
  | SvaNet.expr _ => true
  | _ => false

/-- The sequence is built only from the operators that `parse_sequence` compiles: plain
expressions, concatenation, consecutive repetition, sequence-or, and `throughout` with a
plain expression as its condition. -/
def SvaNet.supported : SvaNet → Bool
  | SvaNet.expr _ => true
  | SvaNet.seq_concat _ _ a b => a.supported && b.supported
  | SvaNet.consecutive_repeat _ _ a => a.supported
  | SvaNet.seq_or a b => a.supported && b.supported
  | SvaNet.throughout a b => a.is_expr && b.supported
  | _ => false

/-- The signals of the plain expressions that `parse_sequence` reads in a sequence: the
operands of the sequence operators and the conditions of `throughout`. -/
def SvaNet.exprs : SvaNet → List SigBit
  | SvaNet.expr sig => [sig]
  | SvaNet.seq_concat _ _ a b => a.exprs ++ b.exprs
  | SvaNet.consecutive_repeat _ _ a => a.exprs
  | SvaNet.seq_or a b => a.exprs ++ b.exprs
  | SvaNet.throughout a b => a.exprs ++ b.exprs
  | _ => []

/-- The signal reads auto-generated wires below `n` only. -/
def SigBit.reads_below (n : Nat) : SigBit → Bool
  | SigBit.auto k => decide (k < n)
  | SigBit.not a => a.reads_below n
  | SigBit.and a b => a.reads_below n && b.reads_below n
  | SigBit.or a b => a.reads_below n && b.reads_below n
  | _ => true

/-- The module is closed: the data input of every register of one of its wires reads wires
of the module only. -/
def Module.Closed (m : Module) : Prop :=
  ∀ w d i, w < m.nwires → m.driver w = some (Driver.dff d i) →
    d.reads_below m.nwires = true

/-- The control `c` is guarded by `g` and satisfies `P`: whenever `c` is true, `g` is
true. -/
def Guarded (g : SigBit) (P : SigBit → Prop) (c : SigBit) : Prop :=
  (∀ inp q : Nat → Bool, c.eval inp q = true → g.eval inp q = true) ∧ P c

/-- The automaton `f2` is `f` with entries added: only the nodes differ, no node is removed,
every edge list and link list of `f` is an initial part of the list of `f2`, and every added
entry leads from `start` or a node `≥ L` to `start` or a node `≥ L` of `f2`, with a control
that satisfies `G`. -/
def SvaFsm.Adds (L start : Nat) (G : SigBit → Prop) (f f2 : SvaFsm) : Prop :=
  f.NodesOnly f2 ∧ f.nodes.length ≤ f2.nodes.length ∧
  ∀ u, ∃ newE newL, f2.edgesOf u = f.edgesOf u ++ newE ∧ f2.linksOf u = f.linksOf u ++ newL ∧
    ∀ p, p ∈ newE ∨ p ∈ newL →
      (u = start ∨ L ≤ u) ∧ u < f2.nodes.length ∧
      (p.1 = start ∨ L ≤ p.1) ∧ p.1 < f2.nodes.length ∧ G p.2

/-- The state `(f, n)` of a run of the sequence compiler that was started on node `start`
of the automaton `f0`: `f` is `f0` with entries added, and the current node `n` is `start`
or a new node. With `sup` (the sequence has supported operators only, or the importer is
strict) the current node is new and has no links, and the links are acyclic if they were
in `f0`. -/
def SvaFsm.Built (f0 : SvaFsm) (start : Nat) (G : SigBit → Prop) (sup : Prop)
    (s : SvaFsm × Nat) : Prop :=
  f0.Adds f0.nodes.length start G s.1 ∧ (s.2 = start ∨ f0.nodes.length ≤ s.2) ∧
  s.2 < s.1.nodes.length ∧
  (sup → f0.nodes.length ≤ s.2 ∧ s.1.linksOf s.2 = [] ∧ (f0.Acyclic → s.1.Acyclic))

/-- The automaton that `build_fsm` makes of the automaton `P` and the node `node` returned
by `parse_sequence`: the final link to the accept node, after one more node and edge for a
non-overlapped implication. -/
def SvaFsm.finish (P : SvaFsm) (node : Nat) (extra_edge : Bool) : SvaFsm :=
  if extra_edge then
    ((P.withNode.withEdge node P.nodes.length (P.throughout_ctrl SigBit.S1)).withLink
      P.nodes.length P.acceptNode (P.throughout_ctrl SigBit.S1))
  else P.withLink node P.acceptNode (P.throughout_ctrl SigBit.S1)

/-- A sequence in which sequence-or combines two unsupported primitives. -/
def orOther : SvaNet := SvaNet.seq_or (SvaNet.other "a") (SvaNet.other "b")

/-- The sequence `a ##1 (c throughout (b ##1 d))` over the nets 0, 1, 2, 3 for `a, b, c, d`,
with `c` net 2. -/
def throughoutSeq : SvaNet :=
  SvaNet.throughout (SvaNet.expr (SigBit.wire 2))
    (SvaNet.seq_concat 1 (some 1) (SvaNet.expr (SigBit.wire 1)) (SvaNet.expr (SigBit.wire 3)))

end SVA


namespace SVA

/-! ## Further concrete sequences -/

/-- The sequence `e throughout (a ##1 (c throughout (b ##1 d)))` over the nets 0, 1, 2, 3, 4
for `a, b, c, d, e`: a throughout nested in a throughout. -/
def throughoutNested : SvaNet :=
  SvaNet.throughout (SvaNet.expr (SigBit.wire 4))
    (SvaNet.seq_concat 1 (some 1) (SvaNet.expr (SigBit.wire 0)) throughoutSeq)

/-- A trace on which `a` (net 0) holds at cycle 0 and `b` (net 1) at cycle 1, and nothing
else holds: the sequence `a ##1 b` matches at cycle 1 and at no other cycle. -/
def traceAB (t w : Nat) : Bool :=
  (decide (t = 0) && decide (w = 0)) || (decide (t = 1) && decide (w = 1))

/-- The accept signal of the automaton of `a ##1 b` emitted into the empty module. -/
def acceptAB : SigBit :=
  SigBit.or (SigBit.auto 1)
    (SigBit.or (SigBit.auto 4) (SigBit.and (SigBit.auto 3) (SigBit.wire 1)))

end SVA


namespace SVA

/-! ## Sequences inside the scope of a throughout -/

/-- The sequence `c throughout (a ##[1:2] b)` with `a, b, c` the nets 0, 1, 2. -/
def throughoutWindow : SvaNet :=
  SvaNet.throughout (SvaNet.expr (SigBit.wire 2))
    (SvaNet.seq_concat 1 (some 2) (SvaNet.expr (SigBit.wire 0)) (SvaNet.expr (SigBit.wire 1)))

/-- The sequence `c throughout (a or b)` with `a, b, c` the nets 0, 1, 2. -/
def throughoutOr : SvaNet :=
  SvaNet.throughout (SvaNet.expr (SigBit.wire 2))
    (SvaNet.seq_or (SvaNet.expr (SigBit.wire 0)) (SvaNet.expr (SigBit.wire 1)))

/-- The fresh automaton inside the scope of `c throughout`, `c` the net 2: the state in
which `parse_sequence` compiles the operand of the throughout. -/
def fsmThroughout : SvaFsm :=
  { SvaFsm.new SigBit.S1 with throughout_sig := SigBit.wire 2, throughout_stack := [SigBit.S1] }

/-! ## The subsets that the subset construction reaches -/

/-- The subset `K2` is constructed from the subset `K`: the control union of `K` has at
most 10 bits, so that `create_dnode` enumerates its valuations, and `K2` is the non-empty
next subset of `K` under one of them. -/
def NextSubset (unodes : List SvaUFsmNode) (firstmatch : Bool) (K K2 : List Nat) : Prop :=
  ∃ raw i, dnode_ctrl_raw unodes K = Except.ok raw ∧ (sort_and_unify raw).length ≤ 10 ∧
    i < 2 ^ (sort_and_unify raw).length ∧
    val_next unodes K firstmatch (sort_and_unify raw) i ≠ [] ∧
    K2 = usortint (val_next unodes K firstmatch (sort_and_unify raw) i)

/-- The subset `K` is `S` or one of the subsets constructed, directly or through other
subsets, from `S`: the subsets for which `create_dnode`, called on `S` with the empty
dictionary, calls itself. -/
def SubsetReach (unodes : List SvaUFsmNode) (firstmatch : Bool) (S K : List Nat) : Prop :=
  Relation.ReflTransGen (NextSubset unodes firstmatch) S K

end SVA


namespace SVA

/-! ## Basic facts about vectors and results -/

theorem getD_set_eq {α : Type} (l : List α) (i : Nat) (a d : α) (h : i < l.length) :
    (l.set i a).getD i d = a := by
  simp [List.getD_eq_getElem?_getD, List.getElem?_set, h]

theorem getD_set_ne {α : Type} (l : List α) (i j : Nat) (a d : α) (h : i ≠ j) :
    (l.set i a).getD j d = l.getD j d := by
  simp [List.getD_eq_getElem?_getD, List.getElem?_set, h]

theorem getD_set_ge {α : Type} (l : List α) (i j : Nat) (a d : α) (h : l.length ≤ i) :
    (l.set i a).getD j d = l.getD j d := by
  by_cases hij : i = j
  · subst hij
    simp [List.getD_eq_getElem?_getD, List.getElem?_set, Nat.not_lt.mpr h,
      List.getElem?_eq_none h]
  · exact getD_set_ne l i j a d hij

theorem getD_replicate {α : Type} (n i : Nat) (a d : α) (h : i < n) :
    (List.replicate n a).getD i d = a := by
  simp [List.getD_eq_getElem?_getD, List.getElem?_replicate, h]

theorem getD_of_length_le {α : Type} (l : List α) (i : Nat) (d : α) (h : l.length ≤ i) :
    l.getD i d = d := by
  simp [List.getD_eq_getElem?_getD, List.getElem?_eq_none h]

theorem foldlM_ok_nil {ε σ α : Type} (f : σ → α → Except ε σ) (s : σ) :
    List.foldlM f s ([] : List α) = Except.ok s := rfl

theorem foldlM_ok_cons {ε σ α : Type} (f : σ → α → Except ε σ) (s : σ) (a : α) (l : List α) :
    List.foldlM f s (a :: l) =
      (match f s a with
       | Except.error e => Except.error e
       | Except.ok s1 => List.foldlM f s1 l) := by
  rw [List.foldlM_cons]
  cases f s a <;> rfl

theorem foldlM_ok_append {ε σ α : Type} (f : σ → α → Except ε σ) (s : σ) (l1 l2 : List α) :
    List.foldlM f s (l1 ++ l2) =
      (match List.foldlM f s l1 with
       | Except.error e => Except.error e
       | Except.ok s1 => List.foldlM f s1 l2) := by
  induction l1 generalizing s with
  | nil => rfl
  | cons a l ih =>
    rw [List.cons_append, foldlM_ok_cons, foldlM_ok_cons]
    cases f s a with
    | error e => rfl
    | ok s1 => exact ih s1

/-! ## Links, paths and acyclicity -/

theorem linksOf_nil_of_ge (fsm : SvaFsm) (u : Nat) (h : fsm.nodes.length ≤ u) :
    fsm.linksOf u = [] := by
  unfold SvaFsm.linksOf
  rw [getD_of_length_le _ _ _ h]
  rfl

theorem edgesOf_nil_of_ge (fsm : SvaFsm) (u : Nat) (h : fsm.nodes.length ≤ u) :
    fsm.edgesOf u = [] := by
  unfold SvaFsm.edgesOf
  rw [getD_of_length_le _ _ _ h]
  rfl

theorem Link.src_lt {fsm : SvaFsm} {u v : Nat} (h : fsm.Link u v) : u < fsm.nodes.length := by
  by_contra hu
  obtain ⟨c, hc⟩ := h
  rw [linksOf_nil_of_ge fsm u (Nat.le_of_not_lt hu)] at hc
  simp at hc

theorem Link.tgt_lt {fsm : SvaFsm} (hwf : fsm.WellFormed) {u v : Nat} (h : fsm.Link u v) :
    v < fsm.nodes.length := by
  obtain ⟨c, hc⟩ := h
  exact hwf.2.2.1 u (v, c) hc

/-- A chain of links (listed newest first) in an acyclic automaton repeats no node. -/
theorem chain_nodup {fsm : SvaFsm} (hac : fsm.Acyclic) (l : List Nat)
    (hl : List.Chain' (Function.swap fsm.Link) l) : l.Nodup := by
  have h1 : List.Chain' (Relation.TransGen (Function.swap fsm.Link)) l :=
    hl.imp (fun _ _ h => Relation.TransGen.single h)
  have h2 : List.Pairwise (Relation.TransGen (Function.swap fsm.Link)) l :=
    List.chain'_iff_pairwise.mp h1
  refine h2.imp ?_
  intro a b hab heq
  subst heq
  exact hac a (Relation.transGen_swap.mp hab)

/-- In an acyclic automaton a chain of links through nodes has at most as many nodes as the automaton. -/
theorem chain_length_le {fsm : SvaFsm} (hac : fsm.Acyclic) (l : List Nat)
    (hl : List.Chain' (Function.swap fsm.Link) l) (hlt : ∀ x ∈ l, x < fsm.nodes.length) :
    l.length ≤ fsm.nodes.length := by
  have hnd := chain_nodup hac l hl
  have hsub : l.toFinset ⊆ Finset.range fsm.nodes.length := by
    intro x hx
    simp only [List.mem_toFinset] at hx
    simpa using hlt x hx
  have := Finset.card_le_card hsub
  rwa [List.toFinset_card_of_nodup hnd, Finset.card_range] at this

/-- A strictly increasing rank along links certifies acyclicity. -/
theorem acyclic_of_rank (fsm : SvaFsm) (rank : Nat → Nat)
    (h : ∀ u v, fsm.Link u v → rank u < rank v) : fsm.Acyclic := by
  have key : ∀ u v, Relation.TransGen fsm.Link u v → rank u < rank v := by
    intro u v huv
    induction huv with
    | single hl => exact h _ _ hl
    | tail _ hl ih => exact lt_trans ih (h _ _ hl)
  intro u hu
  exact lt_irrefl _ (key u u hu)

theorem acyclic_of_rankedb (fsm : SvaFsm) (rank : List Nat) (h : fsm.rankedb rank = true) :
    fsm.Acyclic := by
  apply acyclic_of_rank fsm (fun u => rank.getD u 0)
  intro u v huv
  have hu := Link.src_lt huv
  obtain ⟨c, hc⟩ := huv
  unfold SvaFsm.rankedb at h
  rw [List.all_eq_true] at h
  have h1 := h u (List.mem_range.mpr hu)
  rw [List.all_eq_true] at h1
  simpa using h1 (v, c) hc

theorem wellFormed_of_wellFormedb (fsm : SvaFsm) (h : fsm.wellFormedb = true) :
    fsm.WellFormed := by
  unfold SvaFsm.wellFormedb at h
  simp only [Bool.and_eq_true, decide_eq_true_eq, List.all_eq_true] at h
  obtain ⟨⟨h1, h2⟩, h3⟩ := h
  refine ⟨h1, h2, ?_, ?_⟩
  · intro u p hp
    by_cases hu : u < fsm.nodes.length
    · have hmem : fsm.nodes.getD u default ∈ fsm.nodes := by
        rw [List.getD_eq_getElem _ _ hu]
        exact List.getElem_mem _
      exact (h3 _ hmem).1 p hp
    · rw [linksOf_nil_of_ge fsm u (Nat.le_of_not_lt hu)] at hp
      simp at hp
  · intro u p hp
    by_cases hu : u < fsm.nodes.length
    · have hmem : fsm.nodes.getD u default ∈ fsm.nodes := by
        rw [List.getD_eq_getElem _ _ hu]
        exact List.getElem_mem _
      exact (h3 _ hmem).2 p hp
    · rw [edgesOf_nil_of_ge fsm u (Nat.le_of_not_lt hu)] at hp
      simp at hp

end SVA


namespace SVA

/-! ## `make_link_order` -/

theorem make_link_order_succ (fsm : SvaFsm) (fuel : Nat) (order : List Nat) (node min : Nat) :
    fsm.make_link_order (fuel + 1) order node min =
      (fsm.linksOf node).foldlM
        (fun order it => fsm.make_link_order fuel order it.1 (order.getD node 0 + 1))
        (order.set node (max (order.getD node 0) min)) := rfl

theorem settled_of_ge (fsm : SvaFsm) (order : List Nat) (u : Nat)
    (h : fsm.nodes.length ≤ u) : fsm.Settled order u := by
  intro p hp
  rw [linksOf_nil_of_ge fsm u h] at hp
  simp at hp

/-- Specification of one call of `make_link_order` on an acyclic automaton. `anc` lists the
nodes of the enclosing calls, innermost first. -/
theorem make_link_order_spec {fsm : SvaFsm} (hwf : fsm.WellFormed) (hac : fsm.Acyclic) :
    ∀ (fuel : Nat) (anc : List Nat) (order : List Nat) (node min : Nat),
      List.Chain' (Function.swap fsm.Link) (node :: anc) →
      (∀ x ∈ node :: anc, x < fsm.nodes.length) →
      fsm.nodes.length < fuel + (anc.length + 1) →
      order.length = fsm.nodes.length → fsm.Realizable order →
      (∃ u, fsm.LinkPath u node min) →
      ∃ order', fsm.make_link_order fuel order node min = Except.ok order' ∧
        order'.length = fsm.nodes.length ∧
        (∀ k, order.getD k 0 ≤ order'.getD k 0) ∧
        order'.getD node 0 = max (order.getD node 0) min ∧
        (∀ k, ¬ Relation.ReflTransGen fsm.Link node k → order'.getD k 0 = order.getD k 0) ∧
        fsm.Settled order' node ∧
        (∀ u, fsm.Settled order u → fsm.Settled order' u) ∧
        fsm.Realizable order' := by
  intro fuel
  induction fuel with
  | zero =>
    intro anc order node min hch hlt hfuel _ _ _
    have := chain_length_le hac (node :: anc) hch hlt
    simp only [List.length_cons] at this
    omega
  | succ fuel ih =>
    intro anc order node min hch hlt hfuel hlen hreal hpath
    have hnode : node < fsm.nodes.length := hlt node (List.mem_cons_self _ _)
    rw [make_link_order_succ]
    -- the vector after raising `order[node]`
    generalize hM : max (order.getD node 0) min = M
    generalize ho1 : order.set node M = order1
    have h1len : order1.length = fsm.nodes.length := by rw [← ho1, List.length_set, hlen]
    have h1node : order1.getD node 0 = M := by
      rw [← ho1]; exact getD_set_eq _ _ _ _ (by rw [hlen]; exact hnode)
    have h1other : ∀ k, k ≠ node → order1.getD k 0 = order.getD k 0 := by
      intro k hk; rw [← ho1]; exact getD_set_ne _ _ _ _ _ (Ne.symm hk)
    have h1mono : ∀ k, order.getD k 0 ≤ order1.getD k 0 := by
      intro k
      by_cases hk : k = node
      · subst hk; rw [h1node, ← hM]; exact le_max_left _ _
      · rw [h1other k hk]
    have h1real : fsm.Realizable order1 := by
      intro v
      by_cases hv : v = node
      · subst hv
        rw [h1node, ← hM]
        rcases le_total (order.getD v 0) min with hle | hle
        · rw [max_eq_right hle]; exact hpath
        · rw [max_eq_left hle]; exact hreal v
      · rw [h1other v hv]; exact hreal v
    -- the loop over the links
    have hfold : ∀ (ls : List (Nat × SigBit)), (∀ p ∈ ls, p ∈ fsm.linksOf node) →
        ∀ o : List Nat, o.length = fsm.nodes.length → o.getD node 0 = M →
          (∀ k, ¬ Relation.ReflTransGen fsm.Link node k → o.getD k 0 = order1.getD k 0) →
          fsm.Realizable o →
          (∀ u, u ≠ node → fsm.Settled order1 u → fsm.Settled o u) →
          (∀ k, order1.getD k 0 ≤ o.getD k 0) →
          ∃ o', ls.foldlM
              (fun order it => fsm.make_link_order fuel order it.1 (order.getD node 0 + 1)) o
                = Except.ok o' ∧
            o'.length = fsm.nodes.length ∧ o'.getD node 0 = M ∧
            (∀ k, ¬ Relation.ReflTransGen fsm.Link node k → o'.getD k 0 = order1.getD k 0) ∧
            fsm.Realizable o' ∧
            (∀ u, u ≠ node → fsm.Settled order1 u → fsm.Settled o' u) ∧
            (∀ k, o.getD k 0 ≤ o'.getD k 0) ∧
            (∀ p ∈ ls, M + 1 ≤ o'.getD p.1 0) := by
      intro ls
      induction ls with
      | nil =>
        intro _ o hol hon hoo hor hos _
        exact ⟨o, rfl, hol, hon, hoo, hor, hos, fun _ => le_refl _, by simp⟩
      | cons p ls ihl =>
        intro hsub o hol hon hoo hor hos hom
        have hp : p ∈ fsm.linksOf node := hsub p (List.mem_cons_self _ _)
        have hlink : fsm.Link node p.1 := ⟨p.2, hp⟩
        have hplt : p.1 < fsm.nodes.length := Link.tgt_lt hwf hlink
        have hpathp : ∃ u, fsm.LinkPath u p.1 (o.getD node 0 + 1) := by
          obtain ⟨u, hu⟩ := hor node
          exact ⟨u, SvaFsm.LinkPath.snoc hu hlink⟩
        obtain ⟨o2, hcall, h2len, h2mono, h2node, h2other, _, h2settled, h2real⟩ :=
          ih (node :: anc) o p.1 (o.getD node 0 + 1)
            (List.chain'_cons.mpr ⟨hlink, hch⟩)
            (by
              intro x hx
              rcases List.mem_cons.mp hx with rfl | hx
              · exact hplt
              · exact hlt x hx)
            (by simp only [List.length_cons]; omega)
            hol hor hpathp
        have hnotreach : ¬ Relation.ReflTransGen fsm.Link p.1 node := by
          intro hr
          exact hac node (Relation.TransGen.head' hlink hr)
        have h2n : o2.getD node 0 = M := by rw [h2other node hnotreach, hon]
        obtain ⟨o', hrest, h'len, h'node, h'other, h'real, h'settled, h'mono, h'tg⟩ :=
          ihl (fun q hq => hsub q (List.mem_cons_of_mem _ hq)) o2 h2len h2n
            (by
              intro k hk
              have : ¬ Relation.ReflTransGen fsm.Link p.1 k := fun hr =>
                hk (Relation.ReflTransGen.head hlink hr)
              rw [h2other k this, hoo k hk])
            h2real
            (fun u hu hs => h2settled u (hos u hu hs))
            (fun k => le_trans (hom k) (h2mono k))
        refine ⟨o', ?_, h'len, h'node, h'other, h'real, h'settled,
          fun k => le_trans (h2mono k) (h'mono k), ?_⟩
        · rw [foldlM_ok_cons, hcall]
          exact hrest
        · intro q hq
          rcases List.mem_cons.mp hq with rfl | hq
          · calc M + 1 = o.getD node 0 + 1 := by rw [hon]
              _ ≤ max (o.getD q.1 0) (o.getD node 0 + 1) := le_max_right _ _
              _ = o2.getD q.1 0 := h2node.symm
              _ ≤ o'.getD q.1 0 := h'mono _
          · exact h'tg q hq
    obtain ⟨o', hrun, h'len, h'node, h'other, h'real, h'settled, h'mono, h'tg⟩ :=
      hfold (fsm.linksOf node) (fun _ h => h) order1 h1len h1node (fun _ _ => rfl) h1real
        (fun _ _ hs => hs) (fun _ => le_refl _)
    have hsettled_node : fsm.Settled o' node := by
      intro p hp
      rw [h'node]
      exact h'tg p hp
    refine ⟨o', hrun, h'len, fun k => le_trans (h1mono k) (h'mono k), h'node, ?_,
      hsettled_node, ?_, h'real⟩
    · intro k hk
      have hkn : k ≠ node := by
        rintro rfl
        exact hk Relation.ReflTransGen.refl
      rw [h'other k hk, h1other k hkn]
    · intro u hu
      by_cases hun : u = node
      · subst hun; exact hsettled_node
      · apply h'settled u hun
        intro p hp
        calc order1.getD u 0 + 1 = order.getD u 0 + 1 := by rw [h1other u hun]
          _ ≤ order.getD p.1 0 := hu p hp
          _ ≤ order1.getD p.1 0 := h1mono _

/-- The loop of `getAccept` over all nodes returns on an acyclic automaton, and the
resulting vector is settled at every node and realizable. -/
theorem link_orders_spec {fsm : SvaFsm} (hwf : fsm.WellFormed) (hac : fsm.Acyclic) :
    ∃ order, fsm.link_orders = Except.ok order ∧ order.length = fsm.nodes.length ∧
      (∀ u, fsm.Settled order u) ∧ fsm.Realizable order := by
  have hloop : ∀ k, k ≤ fsm.nodes.length →
      ∃ order, (List.range k).foldlM
          (fun order i => fsm.make_link_order fsm.nodes.length order i 0)
          (List.replicate fsm.nodes.length 0) = Except.ok order ∧
        order.length = fsm.nodes.length ∧ (∀ u, u < k → fsm.Settled order u) ∧
        fsm.Realizable order := by
    intro k
    induction k with
    | zero =>
      intro _
      refine ⟨List.replicate fsm.nodes.length 0, rfl, by simp, by simp, ?_⟩
      intro v
      refine ⟨v, ?_⟩
      have : (List.replicate fsm.nodes.length 0).getD v 0 = 0 := by
        by_cases hv : v < fsm.nodes.length
        · exact getD_replicate _ _ _ _ hv
        · exact getD_of_length_le _ _ _ (by simpa using hv)
      rw [this]
      exact SvaFsm.LinkPath.nil v
    | succ k ih =>
      intro hk
      obtain ⟨o, hrun, holen, hoset, horeal⟩ := ih (by omega)
      obtain ⟨o', hcall, h'len, _, _, _, h'node, h'settled, h'real⟩ :=
        make_link_order_spec hwf hac fsm.nodes.length [] o k 0
          (List.chain'_singleton k)
          (by intro x hx; simp only [List.mem_singleton] at hx; subst hx; omega)
          (by simp)
          holen horeal ⟨k, SvaFsm.LinkPath.nil k⟩
      refine ⟨o', ?_, h'len, ?_, h'real⟩
      · rw [List.range_succ, foldlM_ok_append, hrun]
        simp only [foldlM_ok_cons, hcall]
        rfl
      · intro u hu
        by_cases huk : u = k
        · subst huk; exact h'node
        · exact h'settled u (hoset u (by omega))
  obtain ⟨order, hrun, hlen, hset, hreal⟩ := hloop fsm.nodes.length (le_refl _)
  refine ⟨order, hrun, hlen, ?_, hreal⟩
  intro u
  by_cases hu : u < fsm.nodes.length
  · exact hset u hu
  · exact settled_of_ge fsm order u (by omega)

/-- In a settled vector the entry of a node bounds the length of every link path ending there. -/
theorem linkPath_le_order {fsm : SvaFsm} {order : List Nat} (hs : ∀ u, fsm.Settled order u)
    {u v k : Nat} (hp : fsm.LinkPath u v k) : k ≤ order.getD v 0 := by
  induction hp with
  | nil => exact Nat.zero_le _
  | snoc _ hl ih =>
    obtain ⟨c, hc⟩ := hl
    have := hs _ _ hc
    simp only at this
    omega

end SVA


namespace SVA

/-! ## Loops that fill a vector -/

theorem length_foldl_set {α : Type} (f : Nat → α) (l : List Nat) (v : List α) :
    (l.foldl (fun (v : List α) i => v.set i (f i)) v).length = v.length := by
  induction l generalizing v with
  | nil => rfl
  | cons a l ih => simp [List.foldl_cons, ih]

theorem getElem?_foldl_set_range {α : Type} (f : Nat → α) (v : List α) (k j : Nat) :
    ((List.range k).foldl (fun (v : List α) i => v.set i (f i)) v)[j]? =
      if j < k ∧ j < v.length then some (f j) else v[j]? := by
  induction k with
  | zero => simp
  | succ k ih =>
    rw [List.range_succ, List.foldl_append]
    simp only [List.foldl_cons, List.foldl_nil]
    rw [List.getElem?_set, length_foldl_set, ih]
    by_cases hkj : k = j
    · subst hkj
      by_cases hk : k < v.length
      · simp [hk]
      · simp [hk, List.getElem?_eq_none (Nat.le_of_not_lt hk)]
    · simp only [hkj, if_false]
      by_cases hj : j < k
      · have : j < k + 1 := by omega
        simp [hj, this]
      · have : ¬ j < k + 1 := by omega
        simp [hj, this]

/-- A loop `for i < n: v[i] = f(i)` over a vector of size `n` yields `f(0), ..., f(n-1)`. -/
theorem foldl_set_range {α : Type} (f : Nat → α) (v : List α) (n : Nat) (h : v.length = n) :
    (List.range n).foldl (fun (v : List α) i => v.set i (f i)) v = (List.range n).map f := by
  apply List.ext_getElem?
  intro j
  rw [getElem?_foldl_set_range]
  by_cases hj : j < n
  · simp [hj, h]
  · have h1 : v[j]? = none := List.getElem?_eq_none (by omega)
    have h2 : ((List.range n).map f)[j]? = none := List.getElem?_eq_none (by simp; omega)
    rw [if_neg (by omega), h1, h2]

theorem getD_map_range {α : Type} (f : Nat → α) (n i : Nat) (d : α) (h : i < n) :
    ((List.range n).map f).getD i d = f i := by
  simp [List.getD_eq_getElem?_getD, h]

/-! ## `getAccept`: state signals -/

theorem accept_state_signals_eq (fsm : SvaFsm) (m : Module) :
    fsm.accept_state_signals m =
      ({ m with nwires := m.nwires + fsm.nodes.length },
        (List.range fsm.nodes.length).map (fun i => m.nwires + i),
        (List.range fsm.nodes.length).map (fsm.state_sig0 m.nwires)) := by
  unfold SvaFsm.accept_state_signals
  have hloop : ∀ (k : Nat) (a : List Nat) (b : List SigBit),
      (List.range k).foldl
        (fun (acc : Module × List Nat × List SigBit) i =>
          let (m, w) := acc.1.addWire
          let s := SigBit.auto w
          let s := if i = fsm.startNode then SigBit.or s fsm.trigger_sig else s
          let s := if fsm.disable_sig ≠ SigBit.S0 then
            SigBit.and s (if fsm.disable_sig ≠ SigBit.S0 then SigBit.not fsm.disable_sig
              else SigBit.S1) else s
          (m, acc.2.1.set i w, acc.2.2.set i s))
        (m, a, b) =
      ({ m with nwires := m.nwires + k },
        (List.range k).foldl (fun (v : List Nat) i => v.set i (m.nwires + i)) a,
        (List.range k).foldl (fun (v : List SigBit) i => v.set i (fsm.state_sig0 m.nwires i)) b) := by
    intro k
    induction k with
    | zero => intro a b; rfl
    | succ k ih =>
      intro a b
      rw [List.range_succ, List.foldl_append, List.foldl_append, List.foldl_append, ih]
      simp only [List.foldl_cons, List.foldl_nil, Module.addWire, SvaFsm.state_sig0]
      by_cases hd : fsm.disable_sig = SigBit.S0
      · simp [hd, Nat.add_assoc]
      · simp [hd, Nat.add_assoc]
  rw [hloop]
  rw [foldl_set_range _ _ _ (by simp), foldl_set_range _ _ _ (by simp)]

/-! ## `getAccept`: the order of processing -/

/-- What `order_to_nodes` holds: the list of order `o` contains exactly the nodes of order `o`. -/
theorem order_to_nodes_spec (ord : List Nat) :
    (∀ o x, x ∈ (order_to_nodes ord).getD o [] → x < ord.length ∧ ord.getD x 0 = o) ∧
    (∀ i, i < ord.length → i ∈ (order_to_nodes ord).getD (ord.getD i 0) []) := by
  unfold order_to_nodes
  have hloop : ∀ k, k ≤ ord.length →
      (∀ o x, x ∈ ((List.range k).foldl
          (fun (otn : List (List Nat)) i =>
            let o := ord.getD i 0
            let otn :=
              if o ≥ otn.length then otn ++ List.replicate (o + 1 - otn.length) [] else otn
            otn.set o (otn.getD o [] ++ [i])) []).getD o [] → x < k ∧ ord.getD x 0 = o) ∧
      (∀ i, i < k → i ∈ ((List.range k).foldl
          (fun (otn : List (List Nat)) i =>
            let o := ord.getD i 0
            let otn :=
              if o ≥ otn.length then otn ++ List.replicate (o + 1 - otn.length) [] else otn
            otn.set o (otn.getD o [] ++ [i])) []).getD (ord.getD i 0) []) := by
    intro k
    induction k with
    | zero => intro _; simp
    | succ k ih =>
      intro hk
      obtain ⟨iha, ihb⟩ := ih (by omega)
      rw [List.range_succ, List.foldl_append]
      simp only [List.foldl_cons, List.foldl_nil]
      generalize (List.range k).foldl
          (fun (otn : List (List Nat)) i =>
            let o := ord.getD i 0
            let otn :=
              if o ≥ otn.length then otn ++ List.replicate (o + 1 - otn.length) [] else otn
            otn.set o (otn.getD o [] ++ [i])) [] = otn at iha ihb ⊢
      -- the resized vector
      generalize hres : (if ord.getD k 0 ≥ otn.length then
          otn ++ List.replicate (ord.getD k 0 + 1 - otn.length) [] else otn) = otn1
      have hres_get : ∀ o, otn1.getD o [] = otn.getD o [] := by
        intro o
        rw [← hres]
        split_ifs with hge
        · simp only [List.getD_eq_getElem?_getD]
          by_cases ho : o < otn.length
          · rw [List.getElem?_append_left ho]
          · have ho' : otn.length ≤ o := Nat.le_of_not_lt ho
            rw [List.getElem?_append_right ho', List.getElem?_eq_none ho',
              List.getElem?_replicate]
            split_ifs <;> rfl
        · rfl
      have hres_len : ord.getD k 0 < otn1.length := by
        rw [← hres]
        split_ifs with hge
        · simp; omega
        · omega
      have hget : ∀ o, (otn1.set (ord.getD k 0) (otn1.getD (ord.getD k 0) [] ++ [k])).getD o [] =
          if o = ord.getD k 0 then otn.getD o [] ++ [k] else otn.getD o [] := by
        intro o
        by_cases ho : o = ord.getD k 0
        · subst ho
          rw [getD_set_eq _ _ _ _ hres_len, hres_get]
          simp
        · rw [getD_set_ne _ _ _ _ _ (Ne.symm ho), hres_get, if_neg ho]
      constructor
      · intro o x hx
        rw [hget] at hx
        split_ifs at hx with ho
        · rcases List.mem_append.mp hx with hx | hx
          · have := iha o x hx
            exact ⟨by omega, this.2⟩
          · simp only [List.mem_singleton] at hx
            subst hx
            exact ⟨by omega, ho.symm⟩
        · have := iha o x hx
          exact ⟨by omega, this.2⟩
      · intro i hi
        rw [hget]
        by_cases hik : i = k
        · subst hik
          simp
        · have := ihb i (by omega)
          split_ifs
          · exact List.mem_append_left _ this
          · exact this
  exact hloop ord.length (le_refl _)

/-- The nodes are processed in non-decreasing order, and every node is processed. -/
theorem order_to_nodes_flatten (ord : List Nat) :
    List.Pairwise (fun a b => ord.getD a 0 ≤ ord.getD b 0) (order_to_nodes ord).flatten ∧
    (∀ i, i < ord.length → i ∈ (order_to_nodes ord).flatten) := by
  obtain ⟨ha, hb⟩ := order_to_nodes_spec ord
  have hget : ∀ (o : Nat) (h : o < (order_to_nodes ord).length),
      ∀ x ∈ (order_to_nodes ord)[o], ord.getD x 0 = o := by
    intro o h x hx
    have := ha o x (by rw [List.getD_eq_getElem _ _ h]; exact hx)
    exact this.2
  constructor
  · rw [List.pairwise_flatten]
    constructor
    · intro l hl
      obtain ⟨o, ho, rfl⟩ := List.mem_iff_getElem.mp hl
      rw [List.pairwise_iff_getElem]
      intro i j hi hj _
      rw [hget o ho _ (List.getElem_mem hi), hget o ho _ (List.getElem_mem hj)]
    · rw [List.pairwise_iff_getElem]
      intro i j hi hj hij x hx y hy
      rw [hget i hi x hx, hget j hj y hy]
      omega
  · intro i hi
    have hmem := hb i hi
    rw [List.mem_flatten]
    by_cases ho : ord.getD i 0 < (order_to_nodes ord).length
    · refine ⟨(order_to_nodes ord)[ord.getD i 0], List.getElem_mem ho, ?_⟩
      rwa [List.getD_eq_getElem _ _ ho] at hmem
    · rw [getD_of_length_le _ _ _ (by omega)] at hmem
      simp at hmem

/-! ## `getAccept`: following the links -/

theorem length_follow_link (node : Nat) (ss : List SigBit) (it : Nat × SigBit) :
    (follow_link node ss it).length = ss.length := by
  unfold follow_link
  simp

theorem follow_links_eq_foldl (fsm : SvaFsm) (otn : List (List Nat)) (ss : List SigBit) :
    fsm.follow_links otn ss =
      (fsm.linkSteps otn.flatten).foldl
        (fun ss s => follow_link s.1 ss (s.2.1, s.2.2)) ss := by
  unfold SvaFsm.follow_links SvaFsm.linkSteps
  induction otn generalizing ss with
  | nil => rfl
  | cons l otn ih =>
    rw [List.foldl_cons, ih, List.flatten_cons, List.flatMap_append, List.foldl_append]
    congr 1
    clear ih
    induction l generalizing ss with
    | nil => rfl
    | cons u l ihl =>
      rw [List.foldl_cons, ihl, List.flatMap_cons, List.foldl_append]
      congr 1
      generalize fsm.linksOf u = ls
      induction ls generalizing ss with
      | nil => rfl
      | cons p ls ihp =>
        rw [List.foldl_cons, ihp, List.map_cons, List.foldl_cons]

theorem eval_follow_link (inp q : Nat → Bool) (node : Nat) (ss : List SigBit) (it : Nat × SigBit)
    (ht : it.1 < ss.length) (w : Nat) :
    ((follow_link node ss it).getD w SigBit.S0).eval inp q =
      relaxStep (SigBit.eval inp q) (fun w => (ss.getD w SigBit.S0).eval inp q)
        (node, it.1, it.2) w := by
  unfold follow_link relaxStep
  by_cases hw : w = it.1
  · subst hw
    simp only [Function.update_same]
    rw [getD_set_eq _ _ _ _ ht]
    by_cases hc : it.2 = SigBit.S1
    · simp [hc, SigBit.eval]
    · simp [hc, SigBit.eval]
  · rw [getD_set_ne _ _ _ _ _ (Ne.symm hw)]
    simp [Function.update_noteq hw]

theorem eval_foldl_follow_link (inp q : Nat → Bool) (steps : List (Nat × Nat × SigBit))
    (ss : List SigBit) (hs : ∀ s ∈ steps, s.2.1 < ss.length) (w : Nat) :
    ((steps.foldl (fun ss s => follow_link s.1 ss (s.2.1, s.2.2)) ss).getD w SigBit.S0).eval inp q =
      relax (SigBit.eval inp q) (fun w => (ss.getD w SigBit.S0).eval inp q) steps w := by
  unfold relax
  induction steps generalizing ss with
  | nil => rfl
  | cons s steps ih =>
    rw [List.foldl_cons, List.foldl_cons]
    rw [ih _ (by
      intro s' hs'
      rw [length_follow_link]
      exact hs s' (List.mem_cons_of_mem _ hs'))]
    have hstep : (fun w' => ((follow_link s.1 ss (s.2.1, s.2.2)).getD w' SigBit.S0).eval inp q) =
        relaxStep (SigBit.eval inp q) (fun w => (ss.getD w SigBit.S0).eval inp q) s := by
      funext w'
      exact eval_follow_link inp q s.1 ss (s.2.1, s.2.2) (hs s (List.mem_cons_self _ _)) w'
    rw [hstep]

theorem length_foldl_follow_link (steps : List (Nat × Nat × SigBit)) (ss : List SigBit) :
    (steps.foldl (fun ss s => follow_link s.1 ss (s.2.1, s.2.2)) ss).length = ss.length := by
  induction steps generalizing ss with
  | nil => rfl
  | cons s steps ih => rw [List.foldl_cons, ih, length_follow_link]

/-! ## Relaxation computes the link closure -/

theorem relax_nil (ev : SigBit → Bool) (B : Nat → Bool) : relax ev B [] = B := rfl

theorem relax_cons (ev : SigBit → Bool) (B : Nat → Bool) (s : Nat × Nat × SigBit)
    (steps : List (Nat × Nat × SigBit)) :
    relax ev B (s :: steps) = relax ev (relaxStep ev B s) steps := rfl

theorem relax_append (ev : SigBit → Bool) (B : Nat → Bool)
    (l1 l2 : List (Nat × Nat × SigBit)) :
    relax ev B (l1 ++ l2) = relax ev (relax ev B l1) l2 := by
  unfold relax
  rw [List.foldl_append]

theorem relaxStep_mono (ev : SigBit → Bool) (B : Nat → Bool) (s : Nat × Nat × SigBit) (w : Nat)
    (h : B w = true) : relaxStep ev B s w = true := by
  unfold relaxStep
  by_cases hw : w = s.2.1
  · subst hw; simp [h]
  · rw [Function.update_noteq hw]; exact h

theorem relax_mono (ev : SigBit → Bool) (steps : List (Nat × Nat × SigBit)) (B : Nat → Bool)
    (w : Nat) (h : B w = true) : relax ev B steps w = true := by
  induction steps generalizing B with
  | nil => exact h
  | cons s steps ih =>
    rw [relax_cons]
    exact ih _ (relaxStep_mono ev B s w h)

theorem relax_untouched (ev : SigBit → Bool) (steps : List (Nat × Nat × SigBit))
    (B : Nat → Bool) (w : Nat) (h : ∀ s ∈ steps, s.2.1 ≠ w) : relax ev B steps w = B w := by
  induction steps generalizing B with
  | nil => rfl
  | cons s steps ih =>
    rw [relax_cons, ih _ (fun s' hs' => h s' (List.mem_cons_of_mem _ hs'))]
    unfold relaxStep
    exact Function.update_noteq (Ne.symm (h s (List.mem_cons_self _ _))) _ _

/-- Every value set by relaxation lies in the link closure of the initial values. -/
theorem relax_sound (fsm : SvaFsm) (ev : SigBit → Bool) (steps : List (Nat × Nat × SigBit))
    (hsteps : ∀ s ∈ steps, (s.2.1, s.2.2) ∈ fsm.linksOf s.1)
    (B0 B : Nat → Bool)
    (hB : ∀ w, B w = true → fsm.LinkClosure ev (fun w => B0 w = true) w) (w : Nat)
    (h : relax ev B steps w = true) : fsm.LinkClosure ev (fun w => B0 w = true) w := by
  induction steps generalizing B w with
  | nil => exact hB w h
  | cons s steps ih =>
    rw [relax_cons] at h
    refine ih (fun s' hs' => hsteps s' (List.mem_cons_of_mem _ hs')) _ ?_ w h
    intro w' hw'
    unfold relaxStep at hw'
    by_cases hw : w' = s.2.1
    · subst hw
      simp only [Function.update_same, Bool.or_eq_true, Bool.and_eq_true] at hw'
      rcases hw' with h1 | ⟨h1, h2⟩
      · exact hB _ h1
      · exact SvaFsm.LinkClosure.link (hB _ h1) (hsteps s (List.mem_cons_self _ _)) h2
    · rw [Function.update_noteq hw] at hw'
      exact hB _ hw'

/-- When the steps are sorted by the order of their source and every link raises the order,
one pass of relaxation reaches the whole link closure. -/
theorem relax_complete (fsm : SvaFsm) (ev : SigBit → Bool) (ord : Nat → Nat)
    (steps : List (Nat × Nat × SigBit))
    (hall : ∀ u p, p ∈ fsm.linksOf u → (u, p.1, p.2) ∈ steps)
    (hsorted : List.Pairwise (fun s1 s2 => ord s1.1 ≤ ord s2.1) steps)
    (hup : ∀ s ∈ steps, ord s.1 < ord s.2.1)
    (B0 : Nat → Bool) (w : Nat)
    (h : fsm.LinkClosure ev (fun w => B0 w = true) w) : relax ev B0 steps w = true := by
  induction h with
  | base hE => exact relax_mono ev steps B0 _ hE
  | @link u v c _ hl hc ih =>
    have hmem := hall u (v, c) hl
    obtain ⟨l1, l2, hsplit⟩ := List.append_of_mem hmem
    rw [hsplit] at hsorted
    have hlater : ∀ s ∈ (u, v, c) :: l2, s.2.1 ≠ u := by
      intro s hs
      have hsmem : s ∈ steps := by
        rw [hsplit]; exact List.mem_append_right _ hs
      have h1 := hup s hsmem
      rcases List.mem_cons.mp hs with rfl | hs2
      · simp only at h1 ⊢
        intro heq
        rw [heq] at h1
        exact lt_irrefl _ h1
      · have h2 := (List.pairwise_cons.mp (List.pairwise_append.mp hsorted).2.1).1 s hs2
        simp only at h2
        intro heq
        rw [heq] at h1
        omega
    have hu : relax ev B0 l1 u = true := by
      have := relax_untouched ev ((u, v, c) :: l2) (relax ev B0 l1) u hlater
      rw [← relax_append, ← hsplit] at this
      rw [← this]; exact ih
    rw [hsplit, relax_append, relax_cons]
    apply relax_mono
    unfold relaxStep
    simp [hu, hc]

end SVA


namespace SVA

/-! ## `getAccept`: activations and registers -/

theorem eval_ReduceOr (inp q : Nat → Bool) (l : List SigBit) :
    (ReduceOr l).eval inp q = l.any (fun x => x.eval inp q) := by
  induction l with
  | nil => rfl
  | cons a l ih => simp [ReduceOr, SigBit.eval, ih]

theorem length_foldl_push {α : Type} (ins : List (Nat × α)) (act : List (List α)) :
    (ins.foldl (fun (act : List (List α)) p => act.set p.1 (act.getD p.1 [] ++ [p.2])) act).length
      = act.length := by
  induction ins generalizing act with
  | nil => rfl
  | cons p ins ih => rw [List.foldl_cons, ih, List.length_set]

/-- Appending entries to the slots of a vector of lists: what a slot holds afterwards. -/
theorem mem_foldl_push {α : Type} (ins : List (Nat × α)) (act : List (List α)) (v : Nat) (y : α) :
    y ∈ (ins.foldl (fun (act : List (List α)) p => act.set p.1 (act.getD p.1 [] ++ [p.2]))
        act).getD v [] ↔
      y ∈ act.getD v [] ∨ (v < act.length ∧ (v, y) ∈ ins) := by
  induction ins generalizing act with
  | nil => simp
  | cons p ins ih =>
    rw [List.foldl_cons, ih, List.length_set]
    by_cases hv : v < act.length
    · by_cases hp : p.1 = v
      · subst hp
        rw [getD_set_eq _ _ _ _ hv]
        constructor
        · rintro (h | ⟨_, h⟩)
          · rcases List.mem_append.mp h with h | h
            · exact Or.inl h
            · refine Or.inr ⟨hv, ?_⟩
              have hy : y = p.2 := List.mem_singleton.mp h
              rw [hy]
              exact List.mem_cons_self _ _
          · exact Or.inr ⟨hv, List.mem_cons_of_mem _ h⟩
        · rintro (h | ⟨_, h⟩)
          · exact Or.inl (List.mem_append_left _ h)
          · rcases List.mem_cons.mp h with h | h
            · refine Or.inl (List.mem_append_right _ ?_)
              have hy : y = p.2 := congrArg Prod.snd h
              rw [hy]
              exact List.mem_singleton_self _
            · exact Or.inr ⟨hv, h⟩
      · rw [getD_set_ne _ _ _ _ _ hp]
        constructor
        · rintro (h | ⟨_, h⟩)
          · exact Or.inl h
          · exact Or.inr ⟨hv, List.mem_cons_of_mem _ h⟩
        · rintro (h | ⟨_, h⟩)
          · exact Or.inl h
          · rcases List.mem_cons.mp h with h | h
            · exact absurd (congrArg Prod.fst h).symm hp
            · exact Or.inr ⟨hv, h⟩
    · have hlen : act.length ≤ v := Nat.le_of_not_lt hv
      have h1 : (act.set p.1 (act.getD p.1 [] ++ [p.2])).getD v [] = [] :=
        getD_of_length_le _ _ _ (by rw [List.length_set]; exact hlen)
      rw [h1, getD_of_length_le _ _ _ hlen]
      simp [hv]

theorem activate_sigs_eq (fsm : SvaFsm) (ss : List SigBit) :
    fsm.activate_sigs ss =
      ((List.range fsm.nodes.length).flatMap (fun i =>
          (fsm.edgesOf i).map (fun it => (it.1, SigBit.and (ss.getD i SigBit.S0) it.2)))).foldl
        (fun (act : List (List SigBit)) p => act.set p.1 (act.getD p.1 [] ++ [p.2]))
        (List.replicate fsm.nodes.length []) := by
  unfold SvaFsm.activate_sigs
  generalize List.replicate fsm.nodes.length ([] : List SigBit) = act
  generalize List.range fsm.nodes.length = l
  induction l generalizing act with
  | nil => rfl
  | cons i l ih =>
    rw [List.foldl_cons, ih, List.flatMap_cons, List.foldl_append]
    congr 1
    generalize fsm.edgesOf i = es
    induction es generalizing act with
    | nil => rfl
    | cons e es ihe => rw [List.foldl_cons, ihe, List.map_cons, List.foldl_cons]

/-- The activations collected for node `v`: one AND gate per edge into `v`. -/
theorem mem_activate_sigs (fsm : SvaFsm) (ss : List SigBit) (v : Nat)
    (hv : v < fsm.nodes.length) (x : SigBit) :
    x ∈ (fsm.activate_sigs ss).getD v [] ↔
      ∃ u c, (v, c) ∈ fsm.edgesOf u ∧ x = SigBit.and (ss.getD u SigBit.S0) c := by
  rw [activate_sigs_eq, mem_foldl_push]
  have h0 : (List.replicate fsm.nodes.length ([] : List SigBit)).getD v [] = [] :=
    getD_replicate _ _ _ _ hv
  rw [h0]
  simp only [List.not_mem_nil, false_or, List.length_replicate, hv, true_and,
    List.mem_flatMap, List.mem_range, List.mem_map, Prod.mk.injEq]
  constructor
  · rintro ⟨u, _, p, hp, h1, h2⟩
    refine ⟨u, p.2, ?_, h2.symm⟩
    rw [← h1]
    exact hp
  · rintro ⟨u, c, huc, hx⟩
    have hu : u < fsm.nodes.length := by
      by_contra hu
      rw [edgesOf_nil_of_ge fsm u (Nat.le_of_not_lt hu)] at huc
      simp at huc
    exact ⟨u, hu, (v, c), huc, rfl, hx.symm⟩

theorem next_state_sigs_eq (n : Nat) (act : List (List SigBit)) :
    next_state_sigs n act =
      (List.range n).map (fun i =>
        if (act.getD i []).length = 0 then SigBit.S0
        else if (act.getD i []).length = 1 then (act.getD i []).getD 0 SigBit.S0
        else ReduceOr (act.getD i [])) := by
  unfold next_state_sigs
  rw [← foldl_set_range _ (List.replicate n SigBit.S0) n (by simp)]
  congr 1
  funext ns i
  simp only
  split_ifs <;> rfl

theorem eval_next_state_sigs (inp q : Nat → Bool) (n : Nat) (act : List (List SigBit)) (v : Nat)
    (hv : v < n) :
    ((next_state_sigs n act).getD v SigBit.S0).eval inp q =
      (act.getD v []).any (fun x => x.eval inp q) := by
  rw [next_state_sigs_eq, getD_map_range _ _ _ _ hv]
  rcases hact : act.getD v [] with _ | ⟨a, _ | ⟨b, l⟩⟩
  · simp [SigBit.eval]
  · simp
  · simp only [List.length_cons]
    rw [if_neg (by omega), if_neg (by omega), eval_ReduceOr]

theorem driver_addDff (m : Module) (d : SigBit) (q : Nat) (rst : Bool) (w : Nat) :
    (m.addDff d q rst).driver w = if q = w then some (Driver.dff d rst) else m.driver w := by
  unfold Module.addDff Module.driver
  by_cases h : q = w
  · simp [List.find?_cons, h]
  · have hb : (q == w) = false := by simpa using h
    simp [List.find?_cons, hb, h]

theorem driver_connect (m : Module) (q : Nat) (b : Bool) (w : Nat) :
    (m.connect q b).driver w = if q = w then some (Driver.const b) else m.driver w := by
  unfold Module.connect Module.driver
  by_cases h : q = w
  · simp [List.find?_cons, h]
  · have hb : (q == w) = false := by simpa using h
    simp [List.find?_cons, hb, h]

/-- The driver that "Create state FFs" attaches to the state wire of node `v`. -/
theorem driver_accept_state_ffs (n : Nat) (ns : List SigBit) (base : Nat) (m : Module) (v : Nat)
    (hv : v < n) :
    (accept_state_ffs n ns ((List.range n).map (fun i => base + i)) m).driver (base + v) =
      some (if ns.getD v SigBit.S0 ≠ SigBit.S0 then Driver.dff (ns.getD v SigBit.S0) false
            else Driver.const false) := by
  unfold accept_state_ffs
  have hloop : ∀ k, k ≤ n → v < k →
      ((List.range k).foldl
        (fun (m : Module) i =>
          if ns.getD i SigBit.S0 ≠ SigBit.S0 then
            m.addDff (ns.getD i SigBit.S0) (((List.range n).map (fun i => base + i)).getD i 0) false
          else
            m.connect (((List.range n).map (fun i => base + i)).getD i 0) false)
        m).driver (base + v) =
      some (if ns.getD v SigBit.S0 ≠ SigBit.S0 then Driver.dff (ns.getD v SigBit.S0) false
            else Driver.const false) := by
    intro k
    induction k with
    | zero => intro _ h; omega
    | succ k ih =>
      intro hk hvk
      rw [List.range_succ, List.foldl_append]
      simp only [List.foldl_cons, List.foldl_nil]
      rw [getD_map_range _ _ _ _ (by omega : k < n)]
      by_cases hkv : k = v
      · subst hkv
        by_cases h : ns.getD k SigBit.S0 ≠ SigBit.S0
        · rw [if_pos h, if_pos h, driver_addDff, if_pos rfl]
        · rw [if_neg h, if_neg h, driver_connect, if_pos rfl]
      · have hne : ¬ base + k = base + v := by omega
        by_cases h : ns.getD k SigBit.S0 ≠ SigBit.S0
        · rw [if_pos h, driver_addDff, if_neg hne]
          exact ih (by omega) (by omega)
        · rw [if_neg h, driver_connect, if_neg hne]
          exact ih (by omega) (by omega)
  exact hloop n (le_refl _) hv

theorem qval_zero_of_driver (m : Module) (env : Nat → Nat → Bool) (w : Nat) (ns : SigBit)
    (h : m.driver w = some (if ns ≠ SigBit.S0 then Driver.dff ns false else Driver.const false)) :
    m.qval env 0 w = false := by
  unfold Module.qval
  rw [h]
  split_ifs <;> rfl

theorem qval_succ_of_driver (m : Module) (env : Nat → Nat → Bool) (t w : Nat) (ns : SigBit)
    (h : m.driver w = some (if ns ≠ SigBit.S0 then Driver.dff ns false else Driver.const false)) :
    m.qval env (t + 1) w = ns.eval (env t) (m.qval env t) := by
  rw [Module.qval]
  rw [h]
  by_cases hns : ns = SigBit.S0
  · simp [hns, SigBit.eval]
  · simp [hns]

/-! ## The reference run -/

theorem refStored_lt {fsm : SvaFsm} (hwf : fsm.WellFormed) (val : Nat → SigBit → Bool)
    (t v : Nat) (h : fsm.refStored val t v) : v < fsm.nodes.length := by
  cases t with
  | zero => exact absurd h (by simp [SvaFsm.refStored])
  | succ t =>
    simp only [SvaFsm.refStored] at h
    obtain ⟨u, c, _, he, _⟩ := h
    exact hwf.2.2.2 u (v, c) he

theorem refEnabled_lt {fsm : SvaFsm} (hwf : fsm.WellFormed) (val : Nat → SigBit → Bool)
    (t v : Nat) (h : fsm.refEnabled val t v) : v < fsm.nodes.length := by
  obtain ⟨_, h | ⟨h, _⟩⟩ := h
  · exact refStored_lt hwf val t v h
  · rw [h]; exact hwf.1

theorem linkClosure_congr (fsm : SvaFsm) (val : SigBit → Bool) (E E' : Nat → Prop)
    (h : ∀ w, E w ↔ E' w) (w : Nat) : fsm.LinkClosure val E w ↔ fsm.LinkClosure val E' w := by
  have hEE : E = E' := funext (fun w => propext (h w))
  rw [hEE]

theorem refStored_succ (fsm : SvaFsm) (val : Nat → SigBit → Bool) (t v : Nat) :
    fsm.refStored val (t + 1) v ↔
      ∃ u c, fsm.refActive val t u ∧ (v, c) ∈ fsm.edgesOf u ∧ val t c = true := by
  simp only [SvaFsm.refStored, SvaFsm.refActive]
  rfl

theorem eval_state_sig0 (fsm : SvaFsm) (base i : Nat) (inp q : Nat → Bool) :
    (fsm.state_sig0 base i).eval inp q =
      ((q (base + i) || (decide (i = fsm.startNode) && fsm.trigger_sig.eval inp q)) &&
        !(fsm.disable_sig.eval inp q)) := by
  unfold SvaFsm.state_sig0
  by_cases hd : fsm.disable_sig = SigBit.S0
  · by_cases hi : i = fsm.startNode
    · simp [hd, hi, SigBit.eval]
    · simp [hd, hi, SigBit.eval]
  · by_cases hi : i = fsm.startNode
    · simp [hd, hi, SigBit.eval]
    · simp [hd, hi, SigBit.eval]

end SVA


namespace SVA

/-! ## `getAccept` against the reference run -/

/-- The circuit emitted by `getAccept`, for a given result of the link ordering: after links
are followed, the state signal of node `w` is true at cycle `t` iff `w` is active at `t`
in the reference run. -/
theorem accept_circuit_active {fsm : SvaFsm} (hwf : fsm.WellFormed) (hac : fsm.Acyclic)
    (m : Module) (node_order : List Nat) (hord : fsm.link_orders = Except.ok node_order)
    (env : Nat → Nat → Bool) :
    ∀ t w,
      ((fsm.follow_links (order_to_nodes node_order)
          ((List.range fsm.nodes.length).map (fsm.state_sig0 m.nwires))).getD w SigBit.S0).eval
        (env t)
        ((accept_state_ffs fsm.nodes.length
          (next_state_sigs fsm.nodes.length
            (fsm.activate_sigs
              (fsm.follow_links (order_to_nodes node_order)
                ((List.range fsm.nodes.length).map (fsm.state_sig0 m.nwires)))))
          ((List.range fsm.nodes.length).map (fun i => m.nwires + i))
          { m with nwires := m.nwires + fsm.nodes.length }).qval env t) = true ↔
      fsm.refActive
        (fun t c => (accept_state_ffs fsm.nodes.length
          (next_state_sigs fsm.nodes.length
            (fsm.activate_sigs
              (fsm.follow_links (order_to_nodes node_order)
                ((List.range fsm.nodes.length).map (fsm.state_sig0 m.nwires)))))
          ((List.range fsm.nodes.length).map (fun i => m.nwires + i))
          { m with nwires := m.nwires + fsm.nodes.length }).value env t c) t w := by
  -- names for the pieces
  generalize hss0 : (List.range fsm.nodes.length).map (fsm.state_sig0 m.nwires) = ss0
  generalize hss : fsm.follow_links (order_to_nodes node_order) ss0 = ss
  generalize hns : next_state_sigs fsm.nodes.length (fsm.activate_sigs ss) = ns
  generalize hm' : accept_state_ffs fsm.nodes.length ns
    ((List.range fsm.nodes.length).map (fun i => m.nwires + i))
    { m with nwires := m.nwires + fsm.nodes.length } = m'
  -- the link order
  obtain ⟨order, hrun, hlen, hsettled, _⟩ := link_orders_spec hwf hac
  have hoeq : node_order = order := by
    rw [hord] at hrun
    exact Except.ok.inj hrun
  subst hoeq
  obtain ⟨hsorted, hallnodes⟩ := order_to_nodes_flatten node_order
  -- the relaxation steps
  have hss0len : ss0.length = fsm.nodes.length := by rw [← hss0]; simp
  have hsteps_link : ∀ s ∈ fsm.linkSteps (order_to_nodes node_order).flatten,
      (s.2.1, s.2.2) ∈ fsm.linksOf s.1 := by
    intro s hs
    unfold SvaFsm.linkSteps at hs
    rw [List.mem_flatMap] at hs
    obtain ⟨u, _, hu⟩ := hs
    rw [List.mem_map] at hu
    obtain ⟨p, hp, rfl⟩ := hu
    exact hp
  have hsteps_lt : ∀ s ∈ fsm.linkSteps (order_to_nodes node_order).flatten,
      s.2.1 < ss0.length := by
    intro s hs
    rw [hss0len]
    exact hwf.2.2.1 s.1 (s.2.1, s.2.2) (hsteps_link s hs)
  have hsteps_all : ∀ u p, p ∈ fsm.linksOf u →
      (u, p.1, p.2) ∈ fsm.linkSteps (order_to_nodes node_order).flatten := by
    intro u p hp
    have hu : u < fsm.nodes.length := Link.src_lt ⟨p.2, hp⟩
    unfold SvaFsm.linkSteps
    rw [List.mem_flatMap]
    exact ⟨u, hallnodes u (by rw [hlen]; exact hu), List.mem_map.mpr ⟨p, hp, rfl⟩⟩
  have hsteps_sorted : List.Pairwise
      (fun (s1 s2 : Nat × Nat × SigBit) => node_order.getD s1.1 0 ≤ node_order.getD s2.1 0)
      (fsm.linkSteps (order_to_nodes node_order).flatten) := by
    unfold SvaFsm.linkSteps
    rw [List.pairwise_flatMap]
    constructor
    · intro u _
      rw [List.pairwise_map]
      exact List.pairwise_of_forall (fun _ _ => le_refl _)
    · refine hsorted.imp ?_
      intro a b hab x hx y hy
      rw [List.mem_map] at hx hy
      obtain ⟨_, _, rfl⟩ := hx
      obtain ⟨_, _, rfl⟩ := hy
      exact hab
  have hsteps_up : ∀ s ∈ fsm.linkSteps (order_to_nodes node_order).flatten,
      node_order.getD s.1 0 < node_order.getD s.2.1 0 := by
    intro s hs
    have := hsettled s.1 (s.2.1, s.2.2) (hsteps_link s hs)
    simp only at this
    omega
  -- value of a state signal after the links are followed
  have hclosure : ∀ (inp q : Nat → Bool) (w : Nat),
      (ss.getD w SigBit.S0).eval inp q = true ↔
        fsm.LinkClosure (SigBit.eval inp q)
          (fun w => (ss0.getD w SigBit.S0).eval inp q = true) w := by
    intro inp q w
    rw [← hss, follow_links_eq_foldl, eval_foldl_follow_link inp q _ ss0 hsteps_lt w]
    constructor
    · intro h
      exact relax_sound fsm _ _ hsteps_link _ _ (fun w hw => SvaFsm.LinkClosure.base hw) w h
    · intro h
      exact relax_complete fsm _ (fun u => node_order.getD u 0) _ hsteps_all hsteps_sorted
        hsteps_up _ w h
  -- the registers
  have hdrv : ∀ v, v < fsm.nodes.length →
      m'.driver (m.nwires + v) =
        some (if ns.getD v SigBit.S0 ≠ SigBit.S0 then Driver.dff (ns.getD v SigBit.S0) false
              else Driver.const false) := by
    intro v hv
    rw [← hm']
    exact driver_accept_state_ffs _ _ _ _ v hv
  have hnext : ∀ t v, v < fsm.nodes.length →
      (m'.qval env (t + 1) (m.nwires + v) = true ↔
        ∃ u c, (v, c) ∈ fsm.edgesOf u ∧
          (ss.getD u SigBit.S0).eval (env t) (m'.qval env t) = true ∧
          c.eval (env t) (m'.qval env t) = true) := by
    intro t v hv
    rw [qval_succ_of_driver m' env t _ _ (hdrv v hv), ← hns,
      eval_next_state_sigs _ _ _ _ v hv, List.any_eq_true]
    constructor
    · rintro ⟨x, hx, hxe⟩
      obtain ⟨u, c, huc, rfl⟩ := (mem_activate_sigs fsm ss v hv x).mp hx
      simp only [SigBit.eval, Bool.and_eq_true] at hxe
      exact ⟨u, c, huc, hxe.1, hxe.2⟩
    · rintro ⟨u, c, huc, h1, h2⟩
      refine ⟨SigBit.and (ss.getD u SigBit.S0) c,
        (mem_activate_sigs fsm ss v hv _).mpr ⟨u, c, huc, rfl⟩, ?_⟩
      simp only [SigBit.eval, h1, h2, Bool.and_self]
  -- enabled nodes
  have henabled : ∀ t, (∀ v, v < fsm.nodes.length →
        (m'.qval env t (m.nwires + v) = true ↔ fsm.refStored (m'.value env) t v)) →
      ∀ w, ((ss0.getD w SigBit.S0).eval (env t) (m'.qval env t) = true ↔
        fsm.refEnabled (m'.value env) t w) := by
    intro t hst w
    by_cases hw : w < fsm.nodes.length
    · rw [← hss0, getD_map_range _ _ _ _ hw, eval_state_sig0]
      unfold SvaFsm.refEnabled
      rw [← hst w hw]
      simp only [Module.value, Bool.and_eq_true, Bool.or_eq_true, decide_eq_true_eq,
        Bool.not_eq_true']
      tauto
    · have h1 : ss0.getD w SigBit.S0 = SigBit.S0 :=
        getD_of_length_le _ _ _ (by rw [hss0len]; omega)
      rw [h1]
      constructor
      · intro h; simp [SigBit.eval] at h
      · intro h; exact absurd (refEnabled_lt hwf _ t w h) hw
  have hactive : ∀ t, (∀ v, v < fsm.nodes.length →
        (m'.qval env t (m.nwires + v) = true ↔ fsm.refStored (m'.value env) t v)) →
      ∀ w, ((ss.getD w SigBit.S0).eval (env t) (m'.qval env t) = true ↔
        fsm.refActive (m'.value env) t w) := by
    intro t hst w
    rw [hclosure]
    unfold SvaFsm.refActive
    exact linkClosure_congr fsm _ _ _ (henabled t hst) w
  -- stored bits, by induction on the cycle
  have hstored : ∀ t v, v < fsm.nodes.length →
      (m'.qval env t (m.nwires + v) = true ↔ fsm.refStored (m'.value env) t v) := by
    intro t
    induction t with
    | zero =>
      intro v hv
      rw [qval_zero_of_driver m' env _ _ (hdrv v hv)]
      simp [SvaFsm.refStored]
    | succ t ih =>
      intro v hv
      rw [hnext t v hv, refStored_succ]
      constructor
      · rintro ⟨u, c, huc, h1, h2⟩
        exact ⟨u, c, (hactive t ih u).mp h1, huc, h2⟩
      · rintro ⟨u, c, h1, huc, h2⟩
        exact ⟨u, c, huc, (hactive t ih u).mpr h1, h2⟩
  intro t w
  exact hactive t (hstored t) w

theorem make_link_order_congr (fsm1 fsm2 : SvaFsm) (h : fsm1.nodes = fsm2.nodes) :
    ∀ fuel order node min,
      fsm1.make_link_order fuel order node min = fsm2.make_link_order fuel order node min := by
  intro fuel
  induction fuel with
  | zero => intro _ _ _; rfl
  | succ fuel ih =>
    intro order node min
    rw [make_link_order_succ, make_link_order_succ]
    have hl : fsm1.linksOf node = fsm2.linksOf node := by
      unfold SvaFsm.linksOf; rw [h]
    rw [hl]
    congr 1
    funext o it
    exact ih _ _ _

theorem link_orders_congr (fsm1 fsm2 : SvaFsm) (h : fsm1.nodes = fsm2.nodes) :
    fsm1.link_orders = fsm2.link_orders := by
  unfold SvaFsm.link_orders
  rw [h]
  congr 1
  funext o i
  exact make_link_order_congr fsm1 fsm2 h _ _ _ _

/-- What `getAccept` returns on a non-materialized automaton, in terms of its blocks. -/
theorem getAccept_eq (fsm : SvaFsm) (m : Module) (hmat : fsm.materialized = false)
    (node_order : List Nat) (hord : fsm.link_orders = Except.ok node_order) :
    fsm.getAccept m = Except.ok
      (accept_state_ffs fsm.nodes.length
          (next_state_sigs fsm.nodes.length
            (fsm.activate_sigs
              (fsm.follow_links (order_to_nodes node_order)
                ((List.range fsm.nodes.length).map (fsm.state_sig0 m.nwires)))))
          ((List.range fsm.nodes.length).map (fun i => m.nwires + i))
          { m with nwires := m.nwires + fsm.nodes.length },
        { fsm with
          materialized := true,
          final_accept_sig :=
            (fsm.follow_links (order_to_nodes node_order)
              ((List.range fsm.nodes.length).map (fsm.state_sig0 m.nwires))).getD
              fsm.acceptNode SigBit.S0 },
        (fsm.follow_links (order_to_nodes node_order)
          ((List.range fsm.nodes.length).map (fsm.state_sig0 m.nwires))).getD
          fsm.acceptNode SigBit.S0) := by
  unfold SvaFsm.getAccept
  rw [if_neg (by simp [hmat])]
  simp only
  rw [accept_state_signals_eq]
  have h1 : SvaFsm.link_orders { fsm with materialized := true } = Except.ok node_order := by
    exact (link_orders_congr { fsm with materialized := true } fsm rfl).trans hord
  simp only [h1]
  rfl

end SVA


namespace SVA

/-! ## `sort_and_unify` -/

theorem code_injective : Function.Injective SigBit.code := by
  intro a
  induction a with
  | S0 => intro b h; cases b <;> simp_all [SigBit.code, Nat.pair_eq_pair]
  | S1 => intro b h; cases b <;> simp_all [SigBit.code, Nat.pair_eq_pair]
  | Sx => intro b h; cases b <;> simp_all [SigBit.code, Nat.pair_eq_pair]
  | wire n => intro b h; cases b <;> simp_all [SigBit.code, Nat.pair_eq_pair]
  | auto n => intro b h; cases b <;> simp_all [SigBit.code, Nat.pair_eq_pair]
  | not a ih =>
    intro b h
    cases b
    case not b =>
      simp only [SigBit.code, Nat.pair_eq_pair, true_and] at h
      rw [ih h]
    all_goals simp [SigBit.code, Nat.pair_eq_pair] at h
  | and a1 a2 ih1 ih2 =>
    intro b h
    cases b
    case and b1 b2 =>
      simp only [SigBit.code, Nat.pair_eq_pair, true_and] at h
      rw [ih1 h.1, ih2 h.2]
    all_goals simp [SigBit.code, Nat.pair_eq_pair] at h
  | or a1 a2 ih1 ih2 =>
    intro b h
    cases b
    case or b1 b2 =>
      simp only [SigBit.code, Nat.pair_eq_pair, true_and] at h
      rw [ih1 h.1, ih2 h.2]
    all_goals simp [SigBit.code, Nat.pair_eq_pair] at h

theorem mem_sort_and_unify (l : List SigBit) (x : SigBit) : x ∈ sort_and_unify l ↔ x ∈ l := by
  unfold sort_and_unify
  rw [List.mem_dedup, List.mem_insertionSort]

theorem nodup_sort_and_unify (l : List SigBit) : (sort_and_unify l).Nodup :=
  List.nodup_dedup _

theorem sorted_sort_and_unify (l : List SigBit) :
    List.Sorted (fun a b => a.code ≤ b.code) (sort_and_unify l) := by
  unfold sort_and_unify
  haveI : IsTotal SigBit (fun a b => a.code ≤ b.code) := ⟨fun a b => Nat.le_total _ _⟩
  haveI : IsTrans SigBit (fun a b => a.code ≤ b.code) := ⟨fun _ _ _ h1 h2 => Nat.le_trans h1 h2⟩
  have hs := List.sorted_insertionSort (fun (a b : SigBit) => a.code ≤ b.code) l
  exact List.Pairwise.sublist (List.dedup_sublist _) hs

/-- The result of `sort_and_unify` is strictly increasing: sorted and duplicate-free. -/
theorem strictSorted_sort_and_unify (l : List SigBit) :
    List.Sorted (fun a b => a.code < b.code) (sort_and_unify l) := by
  have h1 := sorted_sort_and_unify l
  have h2 := nodup_sort_and_unify l
  unfold List.Sorted at h1 ⊢
  unfold List.Nodup at h2
  refine (h1.and h2).imp ?_
  rintro a b ⟨hle, hne⟩
  exact lt_of_le_of_ne hle (fun h => hne (code_injective h))

/-- The result of `sort_and_unify` depends only on the set of bits. -/
theorem sort_and_unify_congr (l1 l2 : List SigBit) (h : ∀ x, x ∈ l1 ↔ x ∈ l2) :
    sort_and_unify l1 = sort_and_unify l2 := by
  haveI : IsAntisymm SigBit (fun a b => a.code ≤ b.code) :=
    ⟨fun _ _ h1 h2 => code_injective (Nat.le_antisymm h1 h2)⟩
  apply List.eq_of_perm_of_sorted _ (sorted_sort_and_unify l1) (sorted_sort_and_unify l2)
  rw [List.perm_ext_iff_of_nodup (nodup_sort_and_unify l1) (nodup_sort_and_unify l2)]
  intro x
  rw [mem_sort_and_unify, mem_sort_and_unify]
  exact h x

theorem sort_and_unify_nil : sort_and_unify [] = [] := rfl

theorem sort_and_unify_idem (l : List SigBit) :
    sort_and_unify (sort_and_unify l) = sort_and_unify l :=
  sort_and_unify_congr _ _ (fun x => mem_sort_and_unify l x)

/-- A sorted duplicate-free vector is left unchanged. -/
theorem sort_and_unify_of_canonical (l : List SigBit) (h : sort_and_unify l = l) (l2 : List SigBit)
    (h2 : ∀ x, x ∈ l2 ↔ x ∈ l) : sort_and_unify l2 = l := by
  rw [← h]
  exact sort_and_unify_congr _ _ h2

end SVA


namespace SVA

/-! ## `node_to_unode` -/

theorem node_to_unode_succ (fsm : SvaFsm) (fuel : Nat) (unodes : List SvaUFsmNode)
    (node unode : Nat) (ctrl : List SigBit) :
    fsm.node_to_unode (fuel + 1) unodes node unode ctrl =
      (fsm.linksOf node).foldlM
        (fun (unodes : List SvaUFsmNode) it =>
          if it.2 ≠ SigBit.S1 then
            fsm.node_to_unode fuel unodes it.1 unode (sort_and_unify (concat ctrl [it.2]))
          else
            fsm.node_to_unode fuel unodes it.1 unode ctrl)
        ((fsm.edgesOf node).foldl
          (fun (unodes : List SvaUFsmNode) it =>
            let u := unodes.getD unode default
            if it.2 ≠ SigBit.S1 then
              let s := sort_and_unify (concat ctrl [it.2])
              unodes.set unode { u with edges := u.edges ++ [(it.1, s)] }
            else
              unodes.set unode { u with edges := u.edges ++ [(it.1, ctrl)] })
          (if node = fsm.acceptNode then
            let u := unodes.getD unode default
            unodes.set unode { u with accept := u.accept ++ [ctrl] }
          else unodes)) := rfl

/-- The guard that `node_to_unode` passes on after a link or stores for an edge with
control `c`. -/
theorem mem_guard_step (ctrl : List SigBit) (c x : SigBit) :
    x ∈ (if c ≠ SigBit.S1 then sort_and_unify (concat ctrl [c]) else ctrl) ↔
      x ∈ ctrl ++ (if c ≠ SigBit.S1 then [c] else []) := by
  by_cases hc : c = SigBit.S1
  · simp [hc]
  · simp only [ne_eq, hc, not_false_eq_true, if_true, mem_sort_and_unify, concat,
      List.mem_append, List.mem_singleton]
    tauto

theorem guard_step_canonical (ctrl : List SigBit) (c : SigBit) (h : sort_and_unify ctrl = ctrl) :
    sort_and_unify (if c ≠ SigBit.S1 then sort_and_unify (concat ctrl [c]) else ctrl) =
      (if c ≠ SigBit.S1 then sort_and_unify (concat ctrl [c]) else ctrl) := by
  by_cases hc : c = SigBit.S1
  · simp [hc, h]
  · simp only [ne_eq, hc, not_false_eq_true, if_true]
    exact sort_and_unify_idem _

/-- The loop of `node_to_unode` over the edges of a node appends one entry per edge. -/
theorem edges_loop_spec (unode : Nat) (ctrl : List SigBit) (es : List (Nat × SigBit))
    (unodes : List SvaUFsmNode) (h : unode < unodes.length) :
    (es.foldl
        (fun (unodes : List SvaUFsmNode) it =>
          let u := unodes.getD unode default
          if it.2 ≠ SigBit.S1 then
            let s := sort_and_unify (concat ctrl [it.2])
            unodes.set unode { u with edges := u.edges ++ [(it.1, s)] }
          else
            unodes.set unode { u with edges := u.edges ++ [(it.1, ctrl)] })
        unodes).length = unodes.length ∧
    (∀ j, j ≠ unode →
      (es.foldl
        (fun (unodes : List SvaUFsmNode) it =>
          let u := unodes.getD unode default
          if it.2 ≠ SigBit.S1 then
            let s := sort_and_unify (concat ctrl [it.2])
            unodes.set unode { u with edges := u.edges ++ [(it.1, s)] }
          else
            unodes.set unode { u with edges := u.edges ++ [(it.1, ctrl)] })
        unodes).getD j default = unodes.getD j default) ∧
    (es.foldl
        (fun (unodes : List SvaUFsmNode) it =>
          let u := unodes.getD unode default
          if it.2 ≠ SigBit.S1 then
            let s := sort_and_unify (concat ctrl [it.2])
            unodes.set unode { u with edges := u.edges ++ [(it.1, s)] }
          else
            unodes.set unode { u with edges := u.edges ++ [(it.1, ctrl)] })
        unodes).getD unode default =
      { unodes.getD unode default with
        edges := (unodes.getD unode default).edges ++
          es.map (fun it =>
            (it.1, if it.2 ≠ SigBit.S1 then sort_and_unify (concat ctrl [it.2]) else ctrl)) } := by
  induction es generalizing unodes with
  | nil => simp
  | cons e es ih =>
    simp only [List.foldl_cons]
    have hstep : (if e.2 ≠ SigBit.S1 then
          unodes.set unode { unodes.getD unode default with
            edges := (unodes.getD unode default).edges ++
              [(e.1, sort_and_unify (concat ctrl [e.2]))] }
        else
          unodes.set unode { unodes.getD unode default with
            edges := (unodes.getD unode default).edges ++ [(e.1, ctrl)] }) =
        unodes.set unode { unodes.getD unode default with
          edges := (unodes.getD unode default).edges ++
            [(e.1, if e.2 ≠ SigBit.S1 then sort_and_unify (concat ctrl [e.2]) else ctrl)] } := by
      split_ifs <;> rfl
    rw [hstep]
    obtain ⟨h1, h2, h3⟩ := ih (unodes.set unode { unodes.getD unode default with
          edges := (unodes.getD unode default).edges ++
            [(e.1, if e.2 ≠ SigBit.S1 then sort_and_unify (concat ctrl [e.2]) else ctrl)] })
      (by rw [List.length_set]; exact h)
    refine ⟨by rw [h1, List.length_set], ?_, ?_⟩
    · intro j hj
      rw [h2 j hj, getD_set_ne _ _ _ _ _ (Ne.symm hj)]
    · rw [h3, getD_set_eq _ _ _ _ h]
      simp [List.append_assoc]

/-- A link path either is empty or starts with a link. -/
theorem guardedPath_cases {fsm : SvaFsm} {u w : Nat} {cs : List SigBit}
    (h : fsm.GuardedPath u w cs) :
    (w = u ∧ cs = []) ∨
    ∃ v c cs', (v, c) ∈ fsm.linksOf u ∧ fsm.GuardedPath v w cs' ∧
      cs = (if c ≠ SigBit.S1 then c :: cs' else cs') := by
  cases h with
  | nil => exact Or.inl ⟨rfl, rfl⟩
  | link hl hp => exact Or.inr ⟨_, _, _, hl, hp, rfl⟩

/-- Members of the guard stored at the end of a path that starts with the link of
control `c`. -/
theorem mem_guard_path (ctrl : List SigBit) (c : SigBit) (cs e : List SigBit) (x : SigBit) :
    x ∈ (if c ≠ SigBit.S1 then sort_and_unify (concat ctrl [c]) else ctrl) ++ cs ++ e ↔
      x ∈ ctrl ++ (if c ≠ SigBit.S1 then c :: cs else cs) ++ e := by
  by_cases hc : c = SigBit.S1
  · simp [hc]
  · simp only [ne_eq, hc, not_false_eq_true, if_true, List.mem_append, mem_sort_and_unify,
      concat, List.mem_singleton, List.mem_cons]
    tauto

/-- Specification of one call of `node_to_unode` on an acyclic automaton. `anc` lists the
nodes of the enclosing calls, innermost first. -/
theorem node_to_unode_spec {fsm : SvaFsm} (hwf : fsm.WellFormed) (hac : fsm.Acyclic)
    (unode : Nat) :
    ∀ (fuel : Nat) (anc : List Nat) (unodes : List SvaUFsmNode) (node : Nat)
      (ctrl : List SigBit),
      List.Chain' (Function.swap fsm.Link) (node :: anc) →
      (∀ x ∈ node :: anc, x < fsm.nodes.length) →
      fsm.nodes.length < fuel + (anc.length + 1) →
      unode < unodes.length → sort_and_unify ctrl = ctrl →
      ∃ unodes', fsm.node_to_unode fuel unodes node unode ctrl = Except.ok unodes' ∧
        unodes'.length = unodes.length ∧
        (∀ j, j ≠ unode → unodes'.getD j default = unodes.getD j default) ∧
        fsm.UnodeEntries node ctrl (unodes.getD unode default) (unodes'.getD unode default) := by
  intro fuel
  induction fuel with
  | zero =>
    intro anc unodes node ctrl hch hlt hfuel _ _
    have := chain_length_le hac (node :: anc) hch hlt
    simp only [List.length_cons] at this
    omega
  | succ fuel ih =>
    intro anc unodes node ctrl hch hlt hfuel hunode hcan
    rw [node_to_unode_succ]
    -- after the accept entry
    generalize hua : (if node = fsm.acceptNode then
        unodes.set unode { unodes.getD unode default with
          accept := (unodes.getD unode default).accept ++ [ctrl] }
      else unodes) = ua
    have hualen : ua.length = unodes.length := by
      rw [← hua]; split_ifs
      · rw [List.length_set]
      · rfl
    have huaoth : ∀ j, j ≠ unode → ua.getD j default = unodes.getD j default := by
      intro j hj
      rw [← hua]; split_ifs
      · rw [getD_set_ne _ _ _ _ _ (Ne.symm hj)]
      · rfl
    have huaun : ua.getD unode default =
        { unodes.getD unode default with
          accept := (unodes.getD unode default).accept ++
            (if node = fsm.acceptNode then [ctrl] else []) } := by
      rw [← hua]; split_ifs
      · rw [getD_set_eq _ _ _ _ hunode]
      · simp
    -- after the edges
    obtain ⟨hblen, hboth, hbun⟩ := edges_loop_spec unode ctrl (fsm.edgesOf node) ua
      (by rw [hualen]; exact hunode)
    generalize (fsm.edgesOf node).foldl
        (fun (unodes : List SvaUFsmNode) it =>
          let u := unodes.getD unode default
          if it.2 ≠ SigBit.S1 then
            let s := sort_and_unify (concat ctrl [it.2])
            unodes.set unode { u with edges := u.edges ++ [(it.1, s)] }
          else
            unodes.set unode { u with edges := u.edges ++ [(it.1, ctrl)] })
        ua = ub at hblen hboth hbun ⊢
    -- the loop over the links
    have hfold : ∀ (ls : List (Nat × SigBit)), (∀ p ∈ ls, p ∈ fsm.linksOf node) →
        ∀ ux : List SvaUFsmNode, ux.length = unodes.length →
          ∃ uy E A, ls.foldlM
              (fun (unodes : List SvaUFsmNode) it =>
                if it.2 ≠ SigBit.S1 then
                  fsm.node_to_unode fuel unodes it.1 unode (sort_and_unify (concat ctrl [it.2]))
                else
                  fsm.node_to_unode fuel unodes it.1 unode ctrl) ux = Except.ok uy ∧
            uy.length = unodes.length ∧
            (∀ j, j ≠ unode → uy.getD j default = ux.getD j default) ∧
            (uy.getD unode default).reachable = (ux.getD unode default).reachable ∧
            (uy.getD unode default).edges = (ux.getD unode default).edges ++ E ∧
            (uy.getD unode default).accept = (ux.getD unode default).accept ++ A ∧
            (∀ t G, (t, G) ∈ E ↔ ∃ p ∈ ls, ∃ m cs c, fsm.GuardedPath p.1 m cs ∧
              (t, c) ∈ fsm.edgesOf m ∧
              G = sort_and_unify
                ((if p.2 ≠ SigBit.S1 then sort_and_unify (concat ctrl [p.2]) else ctrl) ++ cs ++
                  (if c ≠ SigBit.S1 then [c] else []))) ∧
            (∀ G, G ∈ A ↔ ∃ p ∈ ls, ∃ cs, fsm.GuardedPath p.1 fsm.acceptNode cs ∧
              G = sort_and_unify
                ((if p.2 ≠ SigBit.S1 then sort_and_unify (concat ctrl [p.2]) else ctrl) ++ cs)) := by
      intro ls
      induction ls with
      | nil =>
        intro _ ux hux
        exact ⟨ux, [], [], rfl, hux, fun _ _ => rfl, rfl, by simp, by simp, by simp, by simp⟩
      | cons p ls ihl =>
        intro hsub ux hux
        have hp : p ∈ fsm.linksOf node := hsub p (List.mem_cons_self _ _)
        have hlink : fsm.Link node p.1 := ⟨p.2, hp⟩
        have hplt : p.1 < fsm.nodes.length := Link.tgt_lt hwf hlink
        obtain ⟨u1, hcall, h1len, h1oth, h1r, E1, A1, h1e, h1a, h1E, h1A⟩ :=
          ih (node :: anc) ux p.1
            (if p.2 ≠ SigBit.S1 then sort_and_unify (concat ctrl [p.2]) else ctrl)
            (List.chain'_cons.mpr ⟨hlink, hch⟩)
            (by
              intro x hx
              rcases List.mem_cons.mp hx with rfl | hx
              · exact hplt
              · exact hlt x hx)
            (by simp only [List.length_cons]; omega)
            (by rw [hux]; exact hunode)
            (guard_step_canonical ctrl p.2 hcan)
        obtain ⟨uy, E2, A2, hrest, hylen, hyoth, hyr, hye, hya, hyE, hyA⟩ :=
          ihl (fun q hq => hsub q (List.mem_cons_of_mem _ hq)) u1 (by rw [h1len, hux])
        refine ⟨uy, E1 ++ E2, A1 ++ A2, ?_, hylen, ?_, ?_, ?_, ?_, ?_, ?_⟩
        · rw [foldlM_ok_cons]
          have hc : (if p.2 ≠ SigBit.S1 then
                fsm.node_to_unode fuel ux p.1 unode (sort_and_unify (concat ctrl [p.2]))
              else fsm.node_to_unode fuel ux p.1 unode ctrl) = Except.ok u1 := by
            rw [← hcall]; split_ifs <;> rfl
          rw [hc]
          exact hrest
        · intro j hj; rw [hyoth j hj, h1oth j hj]
        · rw [hyr, h1r]
        · rw [hye, h1e, List.append_assoc]
        · rw [hya, h1a, List.append_assoc]
        · intro t G
          rw [List.mem_append, h1E, hyE]
          constructor
          · rintro (⟨m, cs, c, h1, h2, h3⟩ | ⟨q, hq, m, cs, c, h1, h2, h3⟩)
            · exact ⟨p, List.mem_cons_self _ _, m, cs, c, h1, h2, h3⟩
            · exact ⟨q, List.mem_cons_of_mem _ hq, m, cs, c, h1, h2, h3⟩
          · rintro ⟨q, hq, m, cs, c, h1, h2, h3⟩
            rcases List.mem_cons.mp hq with rfl | hq
            · exact Or.inl ⟨m, cs, c, h1, h2, h3⟩
            · exact Or.inr ⟨q, hq, m, cs, c, h1, h2, h3⟩
        · intro G
          rw [List.mem_append, h1A, hyA]
          constructor
          · rintro (⟨cs, h1, h3⟩ | ⟨q, hq, cs, h1, h3⟩)
            · exact ⟨p, List.mem_cons_self _ _, cs, h1, h3⟩
            · exact ⟨q, List.mem_cons_of_mem _ hq, cs, h1, h3⟩
          · rintro ⟨q, hq, cs, h1, h3⟩
            rcases List.mem_cons.mp hq with rfl | hq
            · exact Or.inl ⟨cs, h1, h3⟩
            · exact Or.inr ⟨q, hq, cs, h1, h3⟩
    obtain ⟨uy, E, A, hrun, hylen, hyoth, hyr, hye, hya, hyE, hyA⟩ :=
      hfold (fsm.linksOf node) (fun _ h => h) ub (by rw [hblen, hualen])
    refine ⟨uy, hrun, hylen, ?_, ?_, ?_⟩
    · intro j hj; rw [hyoth j hj, hboth j hj, huaoth j hj]
    · rw [hyr, hbun, huaun]
    · refine ⟨(fsm.edgesOf node).map (fun it =>
          (it.1, if it.2 ≠ SigBit.S1 then sort_and_unify (concat ctrl [it.2]) else ctrl)) ++ E,
        (if node = fsm.acceptNode then [ctrl] else []) ++ A, ?_, ?_, ?_, ?_⟩
      · rw [hye, hbun, huaun, List.append_assoc]
      · rw [hya, hbun, huaun, List.append_assoc]
      · intro t G
        rw [List.mem_append, hyE, List.mem_map]
        constructor
        · rintro (⟨it, hit, heq⟩ | ⟨p, hp, m, cs, c, h1, h2, h3⟩)
          · refine ⟨node, [], it.2, SvaFsm.GuardedPath.nil node, ?_, ?_⟩
            · have := congrArg Prod.fst heq
              simp only at this
              rw [← this]; exact hit
            · have := congrArg Prod.snd heq
              simp only at this
              rw [← this]
              symm
              apply sort_and_unify_of_canonical _ (guard_step_canonical ctrl it.2 hcan)
              intro x
              rw [mem_guard_step]
              simp
          · refine ⟨m, _, c, SvaFsm.GuardedPath.link hp h1, h2, ?_⟩
            rw [h3]
            exact sort_and_unify_congr _ _ (fun x => mem_guard_path ctrl p.2 cs _ x)
        · rintro ⟨m, cs, c, h1, h2, h3⟩
          rcases guardedPath_cases h1 with ⟨rfl, rfl⟩ | ⟨v, c', cs', hl, hp, rfl⟩
          · refine Or.inl ⟨(t, c), h2, ?_⟩
            rw [h3]
            congr 1
            symm
            apply sort_and_unify_of_canonical _ (guard_step_canonical ctrl c hcan)
            intro x
            rw [mem_guard_step]
            simp
          · refine Or.inr ⟨(v, c'), hl, m, cs', c, hp, h2, ?_⟩
            rw [h3]
            exact (sort_and_unify_congr _ _ (fun x => mem_guard_path ctrl c' cs' _ x)).symm
      · intro G
        rw [List.mem_append, hyA]
        constructor
        · rintro (hG | ⟨p, hp, cs, h1, h3⟩)
          · split_ifs at hG with hn
            · simp only [List.mem_singleton] at hG
              refine ⟨[], ?_, ?_⟩
              · rw [← hn]; exact SvaFsm.GuardedPath.nil node
              · rw [hG, List.append_nil, hcan]
            · simp at hG
          · refine ⟨_, SvaFsm.GuardedPath.link hp h1, ?_⟩
            rw [h3]
            have := sort_and_unify_congr _ _ (fun x => mem_guard_path ctrl p.2 cs [] x)
            simpa using this
        · rintro ⟨cs, h1, h3⟩
          rcases guardedPath_cases h1 with ⟨hn, rfl⟩ | ⟨v, c', cs', hl, hp, rfl⟩
          · left
            rw [if_pos hn.symm, h3, List.append_nil, hcan]
            exact List.mem_singleton_self _
          · refine Or.inr ⟨(v, c'), hl, cs', hp, ?_⟩
            rw [h3]
            have := sort_and_unify_congr _ _ (fun x => mem_guard_path ctrl c' cs' [] x)
            simpa using this.symm

end SVA


namespace SVA

/-! ## `create_dnode`: unfolding -/

theorem create_dnode_zero (unodes : List SvaUFsmNode) (dnodes : List (List Nat × SvaDFsmNode))
    (state : List Nat) (firstmatch : Bool) :
    create_dnode unodes 0 dnodes state firstmatch = Except.error Failure.depth := rfl

theorem create_dnode_succ (unodes : List SvaUFsmNode) (fuel : Nat)
    (dnodes : List (List Nat × SvaDFsmNode)) (state : List Nat) (firstmatch : Bool) :
    create_dnode unodes (fuel + 1) dnodes state firstmatch =
      if dict_count dnodes state ≠ 0 then Except.ok dnodes
      else
        match dnode_ctrl_raw unodes state with
        | Except.error e => Except.error e
        | Except.ok raw =>
          if (sort_and_unify raw).length > 10 then Except.error (Failure.log_error ctrl_error)
          else
            match (List.range (1 <<< (sort_and_unify raw).length)).foldlM
                (dnode_step unodes state firstmatch (sort_and_unify raw)
                  (fun d s => create_dnode unodes fuel d s firstmatch))
                ({ ctrl := sort_and_unify raw }, dict_set dnodes state default) with
            | Except.error e => Except.error e
            | Except.ok (dnode, dnodes) => Except.ok (dict_set dnodes state dnode) := rfl

/-- The outcome of one pass of the valuation loop, in terms of `val_accept` and `val_next`. -/
theorem dnode_step_eq (unodes : List SvaUFsmNode) (state : List Nat) (firstmatch : Bool)
    (ctrl : List SigBit)
    (construct : List (List Nat × SvaDFsmNode) → List Nat →
      Except Failure (List (List Nat × SvaDFsmNode)))
    (acc : SvaDFsmNode × List (List Nat × SvaDFsmNode)) (i : Nat) :
    dnode_step unodes state firstmatch ctrl construct acc i =
      if val_next unodes state firstmatch ctrl i = [] then
        Except.ok ({ acc.1 with
          accept := acc.1.accept ++
            (if val_accept unodes state ctrl i then [Const i ctrl.length] else []),
          reject := acc.1.reject ++
            (if val_accept unodes state ctrl i then [] else [Const i ctrl.length]) }, acc.2)
      else
        match construct acc.2 (usortint (val_next unodes state firstmatch ctrl i)) with
        | Except.error e => Except.error e
        | Except.ok dnodes =>
          Except.ok ({ acc.1 with
            accept := acc.1.accept ++
              (if val_accept unodes state ctrl i then [Const i ctrl.length] else []),
            edges := acc.1.edges ++
              [(usortint (val_next unodes state firstmatch ctrl i), Const i ctrl.length)] },
            dnodes) := by
  unfold dnode_step val_next val_accept
  dsimp only
  generalize dnode_accept unodes state (dnode_ctrl_bits ctrl (Const i ctrl.length)) = A
  generalize dnode_new_state unodes state (dnode_ctrl_bits ctrl (Const i ctrl.length)) = NS
  cases A <;> cases firstmatch <;> cases NS <;> simp

/-- What the valuation loop has recorded in the node after `k` valuations, when it returns. -/
theorem dnode_loop_spec (unodes : List SvaUFsmNode) (state : List Nat) (firstmatch : Bool)
    (ctrl : List SigBit)
    (construct : List (List Nat × SvaDFsmNode) → List Nat →
      Except Failure (List (List Nat × SvaDFsmNode)))
    (acc0 : SvaDFsmNode × List (List Nat × SvaDFsmNode)) :
    ∀ (k : Nat) (res : SvaDFsmNode × List (List Nat × SvaDFsmNode)),
      (List.range k).foldlM (dnode_step unodes state firstmatch ctrl construct) acc0
        = Except.ok res →
      res.1.ctrl = acc0.1.ctrl ∧
      res.1.accept = acc0.1.accept ++
        ((List.range k).filter (fun i => val_accept unodes state ctrl i)).map
          (fun i => Const i ctrl.length) ∧
      res.1.reject = acc0.1.reject ++
        ((List.range k).filter (fun i =>
          decide (val_next unodes state firstmatch ctrl i = []) &&
            !val_accept unodes state ctrl i)).map (fun i => Const i ctrl.length) ∧
      res.1.edges = acc0.1.edges ++
        ((List.range k).filter (fun i =>
          !decide (val_next unodes state firstmatch ctrl i = []))).map
          (fun i => (usortint (val_next unodes state firstmatch ctrl i), Const i ctrl.length)) := by
  intro k
  induction k with
  | zero =>
    intro res h
    have : res = acc0 := by
      have h' : Except.ok acc0 = Except.ok res := h
      exact (Except.ok.inj h').symm
    subst this
    simp
  | succ k ih =>
    intro res h
    rw [List.range_succ, foldlM_ok_append] at h
    cases hk : (List.range k).foldlM (dnode_step unodes state firstmatch ctrl construct) acc0 with
    | error e => rw [hk] at h; cases h
    | ok mid =>
      rw [hk] at h
      simp only [foldlM_ok_cons, foldlM_ok_nil] at h
      obtain ⟨h1, h2, h3, h4⟩ := ih mid hk
      rw [dnode_step_eq] at h
      by_cases hnext : val_next unodes state firstmatch ctrl k = []
      · rw [if_pos hnext] at h
        have hres : res = _ := (Except.ok.inj h).symm
        subst hres
        simp only [List.range_succ, List.filter_append, List.map_append, List.filter_cons,
          List.filter_nil]
        refine ⟨h1, ?_, ?_, ?_⟩
        · rw [h2]
          by_cases ha : val_accept unodes state ctrl k = true
          · simp [ha]
          · simp [ha]
        · rw [h3]
          by_cases ha : val_accept unodes state ctrl k = true
          · simp [ha, hnext]
          · simp [ha, hnext]
        · rw [h4]; simp [hnext]
      · rw [if_neg hnext] at h
        cases hc : construct mid.2 (usortint (val_next unodes state firstmatch ctrl k)) with
        | error e => rw [hc] at h; cases h
        | ok d =>
          rw [hc] at h
          have hres : res = _ := (Except.ok.inj h).symm
          subst hres
          simp only [List.range_succ, List.filter_append, List.map_append, List.filter_cons,
          List.filter_nil]
          refine ⟨h1, ?_, ?_, ?_⟩
          · rw [h2]
            by_cases ha : val_accept unodes state ctrl k = true
            · simp [ha]
            · simp [ha]
          · rw [h3]; simp [hnext]
          · rw [h4]; simp [hnext]

/-! ## The dictionary of deterministic nodes -/

theorem dict_at_dict_set_eq (d : List (List Nat × SvaDFsmNode)) (key : List Nat)
    (node : SvaDFsmNode) : dict_at (dict_set d key node) key = some node := by
  induction d with
  | nil => simp [dict_set, dict_at]
  | cons p d ih =>
    unfold dict_set
    by_cases h : p.1 = key
    · simp [h, dict_at]
    · simp only [h, if_false]
      unfold dict_at at ih ⊢
      simp only [List.find?_cons, h, decide_False]
      exact ih

theorem dict_at_dict_set_ne (d : List (List Nat × SvaDFsmNode)) (key key' : List Nat)
    (node : SvaDFsmNode) (hne : key ≠ key') :
    dict_at (dict_set d key node) key' = dict_at d key' := by
  induction d with
  | nil => simp [dict_set, dict_at, hne]
  | cons p d ih =>
    unfold dict_set
    by_cases h : p.1 = key
    · have h' : ¬ p.1 = key' := by rw [h]; exact hne
      simp [h, dict_at, List.find?_cons, hne, h']
    · simp only [h, if_false]
      unfold dict_at at ih ⊢
      by_cases h' : p.1 = key'
      · simp [List.find?_cons, h']
      · simp only [List.find?_cons, h', decide_False]
        exact ih

theorem dict_count_eq_zero_iff (d : List (List Nat × SvaDFsmNode)) (key : List Nat) :
    dict_count d key = 0 ↔ dict_at d key = none := by
  unfold dict_count dict_at
  by_cases h : d.any (fun p => decide (p.1 = key)) = true
  · simp only [h, if_true]
    constructor
    · intro h0; cases h0
    · intro hn
      rw [List.any_eq_true] at h
      obtain ⟨p, hp, hk⟩ := h
      rw [Option.map_eq_none', List.find?_eq_none] at hn
      exact absurd hk (hn p hp)
  · simp only [h]
    constructor
    · intro _
      rw [Option.map_eq_none', List.find?_eq_none]
      intro p hp hk
      apply h
      rw [List.any_eq_true]
      exact ⟨p, hp, hk⟩
    · intro _; rfl

end SVA


namespace SVA

/-! ## Loops that collect elements -/

/-- A loop that appends `f i` for the elements `i` that satisfy `p`. -/
theorem foldl_append_if {α β : Type} (p : α → Prop) [DecidablePred p] (f : α → β)
    (l : List α) (acc : List β) :
    l.foldl (fun (acc : List β) i => if p i then acc ++ [f i] else acc) acc =
      acc ++ (l.filter (fun i => decide (p i))).map f := by
  induction l generalizing acc with
  | nil => simp
  | cons a l ih =>
    rw [List.foldl_cons, ih]
    by_cases h : p a
    · simp [h, List.filter_cons]
    · simp [h, List.filter_cons]

/-- A loop that sets a flag when some element satisfies `p`. -/
theorem foldl_flag {α : Type} (p : α → Bool) (l : List α) (acc : Bool) :
    l.foldl (fun (acc : Bool) it => if p it then true else acc) acc = (acc || l.any p) := by
  induction l generalizing acc with
  | nil => simp
  | cons a l ih =>
    rw [List.foldl_cons, ih]
    cases h : p a <;> simp [h]

/-! ## `usortint` -/

theorem usortint_eq (vec : List Nat) :
    usortint vec =
      ((List.range (vec.insertionSort (fun a b => a ≤ b)).length).filter (fun i =>
        decide (i = (vec.insertionSort (fun a b => a ≤ b)).length - 1 ∨
          (vec.insertionSort (fun a b => a ≤ b)).getD i 0 ≠
            (vec.insertionSort (fun a b => a ≤ b)).getD (i + 1) 0))).map
        (fun i => (vec.insertionSort (fun a b => a ≤ b)).getD i 0) := by
  unfold usortint
  simp only
  rw [foldl_append_if]
  simp

/-- Keeping the last element of every run of equal elements keeps every value. -/
theorem mem_keep_last (s : List Nat) (x : Nat) :
    x ∈ ((List.range s.length).filter (fun i =>
        decide (i = s.length - 1 ∨ s.getD i 0 ≠ s.getD (i + 1) 0))).map (fun i => s.getD i 0) ↔
      x ∈ s := by
  constructor
  · intro h
    rw [List.mem_map] at h
    obtain ⟨i, hi, rfl⟩ := h
    rw [List.mem_filter, List.mem_range] at hi
    rw [List.getD_eq_getElem _ _ hi.1]
    exact List.getElem_mem _
  · intro h
    have key : ∀ d i, i < s.length → s.length - 1 - i = d →
        s.getD i 0 ∈ ((List.range s.length).filter (fun i =>
          decide (i = s.length - 1 ∨ s.getD i 0 ≠ s.getD (i + 1) 0))).map
            (fun i => s.getD i 0) := by
      intro d
      induction d with
      | zero =>
        intro i hi hd
        rw [List.mem_map]
        refine ⟨i, ?_, rfl⟩
        rw [List.mem_filter, List.mem_range]
        refine ⟨hi, ?_⟩
        simp only [decide_eq_true_eq]
        left; omega
      | succ d ih =>
        intro i hi hd
        by_cases hk : s.getD i 0 ≠ s.getD (i + 1) 0
        · rw [List.mem_map]
          refine ⟨i, ?_, rfl⟩
          rw [List.mem_filter, List.mem_range]
          refine ⟨hi, ?_⟩
          simp only [decide_eq_true_eq]
          exact Or.inr hk
        · have heq : s.getD i 0 = s.getD (i + 1) 0 := by
            by_contra hne; exact hk hne
          rw [heq]
          exact ih (i + 1) (by omega) (by omega)
    obtain ⟨i, hi, rfl⟩ := List.mem_iff_getElem.mp h
    have := key (s.length - 1 - i) i hi rfl
    rwa [List.getD_eq_getElem _ _ hi] at this

/-- Keeping the last element of every run of a sorted vector gives a strictly increasing vector. -/
theorem sorted_keep_last (s : List Nat) (hs : List.Sorted (fun a b => a ≤ b) s) :
    List.Sorted (fun a b => a < b)
      (((List.range s.length).filter (fun i =>
        decide (i = s.length - 1 ∨ s.getD i 0 ≠ s.getD (i + 1) 0))).map (fun i => s.getD i 0)) := by
  unfold List.Sorted
  rw [List.pairwise_map]
  have hrange : List.Pairwise (fun a b => a < b) (List.range s.length) := List.pairwise_lt_range _
  have hfil := hrange.filter (fun i =>
        decide (i = s.length - 1 ∨ s.getD i 0 ≠ s.getD (i + 1) 0))
  refine List.Pairwise.imp_of_mem ?_ hfil
  intro i j hi hj hij
  rw [List.mem_filter, List.mem_range] at hi hj
  have hki := hi.2
  simp only [decide_eq_true_eq] at hki
  have hjlt := hj.1
  have hi1 : i + 1 < s.length := by omega
  rcases hki with hki | hki
  · omega
  · have hsorted := List.pairwise_iff_getElem.mp hs
    have e1 : s.getD i 0 = s[i] := List.getD_eq_getElem _ _ hi.1
    have e2 : s.getD (i + 1) 0 = s[i + 1] := List.getD_eq_getElem _ _ hi1
    have e3 : s.getD j 0 = s[j] := List.getD_eq_getElem _ _ hjlt
    have h1 : s[i] ≤ s[i + 1] := hsorted i (i + 1) hi.1 hi1 (by omega)
    have h2 : s.getD (i + 1) 0 ≤ s.getD j 0 := by
      by_cases hij' : i + 1 = j
      · subst hij'; exact le_refl _
      · have := hsorted (i + 1) j hi1 hjlt (by omega)
        omega
    omega

theorem mem_usortint (vec : List Nat) (x : Nat) : x ∈ usortint vec ↔ x ∈ vec := by
  rw [usortint_eq, mem_keep_last, List.mem_insertionSort]

/-- The result of `usortint` is strictly increasing: sorted and duplicate-free. -/
theorem sorted_usortint (vec : List Nat) : List.Sorted (fun a b => a < b) (usortint vec) := by
  rw [usortint_eq]
  apply sorted_keep_last
  exact List.sorted_insertionSort (fun (a b : Nat) => a ≤ b) vec

theorem usortint_eq_nil_iff (vec : List Nat) : usortint vec = [] ↔ vec = [] := by
  constructor
  · intro h
    cases vec with
    | nil => rfl
    | cons a l =>
      have : a ∈ usortint (a :: l) := (mem_usortint _ _).mpr (List.mem_cons_self _ _)
      rw [h] at this
      simp at this
  · intro h; subst h; rfl

/-! ## Valuations -/

theorem length_Const (i width : Nat) : (Const i width).length = width := by
  simp [Const]

theorem getD_Const (i width j : Nat) (h : j < width) :
    (Const i width).getD j false = i.testBit j := by
  unfold Const
  rw [getD_map_range _ _ _ _ h]

/-- Distinct valuation numbers below `2^width` give distinct constants. -/
theorem Const_injective (width i j : Nat) (hi : i < 2 ^ width) (hj : j < 2 ^ width)
    (h : Const i width = Const j width) : i = j := by
  apply Nat.eq_of_testBit_eq
  intro k
  by_cases hk : k < width
  · rw [← getD_Const i width k hk, ← getD_Const j width k hk, h]
  · have hw : 2 ^ width ≤ 2 ^ k := Nat.pow_le_pow_right (by omega) (by omega)
    rw [Nat.testBit_lt_two_pow (lt_of_lt_of_le hi hw),
      Nat.testBit_lt_two_pow (lt_of_lt_of_le hj hw)]

theorem cmp_ctrl_iff (ctrl_bits ctrl : List SigBit) :
    cmp_ctrl ctrl_bits ctrl = true ↔ ∀ b ∈ ctrl, b ∈ ctrl_bits := by
  induction ctrl with
  | nil => simp [cmp_ctrl]
  | cons b ctrl ih =>
    unfold cmp_ctrl
    by_cases h : ctrl_bits.count b = 0
    · simp only [h, if_true]
      have : b ∉ ctrl_bits := List.count_eq_zero.mp h
      simp [this]
    · simp only [h, if_false]
      have : b ∈ ctrl_bits := by
        by_contra hb; exact h (List.count_eq_zero.mpr hb)
      simp [ih, this]

theorem mem_dnode_ctrl_bits (ctrl : List SigBit) (v : List Bool) (b : SigBit) :
    b ∈ dnode_ctrl_bits ctrl v ↔ valTrue ctrl v b := by
  unfold dnode_ctrl_bits valTrue
  rw [foldl_append_if (fun i => v.getD i false = true) (fun i => ctrl.getD i SigBit.S0)]
  simp only [List.nil_append, List.mem_map, List.mem_filter, List.mem_range, decide_eq_true_eq]
  constructor
  · rintro ⟨j, ⟨hj, hv⟩, hb⟩
    exact ⟨j, hj, hb, hv⟩
  · rintro ⟨j, hj, hb, hv⟩
    exact ⟨j, ⟨hj, hv⟩, hb⟩

theorem dnode_accept_iff (unodes : List SvaUFsmNode) (state : List Nat) (bits : List SigBit) :
    dnode_accept unodes state bits = true ↔
      ∃ u ∈ state, ∃ G ∈ (unodes.getD u default).accept, cmp_ctrl bits G = true := by
  unfold dnode_accept
  have hgen : ∀ (acc : Bool),
      state.foldl (fun (accept : Bool) unode =>
        (unodes.getD unode default).accept.foldl
          (fun (accept : Bool) it => if cmp_ctrl bits it then true else accept) accept) acc
        = (acc || state.any (fun u => (unodes.getD u default).accept.any (cmp_ctrl bits))) := by
    induction state with
    | nil => intro acc; simp
    | cons u state ih =>
      intro acc
      rw [List.foldl_cons, ih, foldl_flag]
      simp [Bool.or_assoc]
  rw [hgen]
  simp only [Bool.false_or, List.any_eq_true]

theorem mem_dnode_new_state (unodes : List SvaUFsmNode) (state : List Nat) (bits : List SigBit)
    (t : Nat) :
    t ∈ dnode_new_state unodes state bits ↔
      ∃ u ∈ state, ∃ e ∈ (unodes.getD u default).edges, e.1 = t ∧ cmp_ctrl bits e.2 = true := by
  unfold dnode_new_state
  have hgen : ∀ (acc : List Nat),
      t ∈ state.foldl (fun (new_state : List Nat) unode =>
        (unodes.getD unode default).edges.foldl
          (fun (new_state : List Nat) it =>
            if cmp_ctrl bits it.2 then new_state ++ [it.1] else new_state) new_state) acc ↔
        t ∈ acc ∨ ∃ u ∈ state, ∃ e ∈ (unodes.getD u default).edges,
          e.1 = t ∧ cmp_ctrl bits e.2 = true := by
    induction state with
    | nil => intro acc; simp
    | cons u state ih =>
      intro acc
      rw [List.foldl_cons, ih,
        foldl_append_if (fun (it : Nat × List SigBit) => cmp_ctrl bits it.2 = true)
          (fun it => it.1)]
      simp only [List.mem_append, List.mem_map, List.mem_filter, decide_eq_true_eq,
        List.mem_cons, exists_eq_or_imp]
      constructor
      · rintro ((h | ⟨e, ⟨he, hc⟩, rfl⟩) | h)
        · exact Or.inl h
        · exact Or.inr (Or.inl ⟨e, he, rfl, hc⟩)
        · exact Or.inr (Or.inr h)
      · rintro (h | ⟨e, he, rfl, hc⟩ | h)
        · exact Or.inl (Or.inl h)
        · exact Or.inl (Or.inr ⟨e, ⟨he, hc⟩, rfl⟩)
        · exact Or.inr h
  rw [hgen]
  simp

/-- The flag `accept` of `create_dnode` says that the subset accepts under the valuation. -/
theorem val_accept_iff (unodes : List SvaUFsmNode) (state : List Nat) (ctrl : List SigBit)
    (i : Nat) :
    val_accept unodes state ctrl i = true ↔
      acceptsUnder unodes state ctrl (Const i ctrl.length) := by
  unfold val_accept acceptsUnder
  rw [dnode_accept_iff]
  simp only [cmp_ctrl_iff, mem_dnode_ctrl_bits]

/-- The vector `new_state` of `create_dnode` holds the targets of the edges enabled under
the valuation; it is left empty in first-match mode when the valuation accepts. -/
theorem mem_val_next (unodes : List SvaUFsmNode) (state : List Nat) (firstmatch : Bool)
    (ctrl : List SigBit) (i t : Nat) :
    t ∈ val_next unodes state firstmatch ctrl i ↔
      ¬ (firstmatch = true ∧ acceptsUnder unodes state ctrl (Const i ctrl.length)) ∧
        targetUnder unodes state ctrl (Const i ctrl.length) t := by
  unfold val_next targetUnder
  rw [← val_accept_iff]
  by_cases h : ¬ val_accept unodes state ctrl i = true ∨ ¬ firstmatch = true
  · rw [if_pos h, mem_dnode_new_state]
    simp only [cmp_ctrl_iff, mem_dnode_ctrl_bits]
    constructor
    · intro hx
      exact ⟨by tauto, hx⟩
    · intro hx; exact hx.2
  · rw [if_neg h]
    simp only [List.not_mem_nil, false_iff]
    intro hx
    exact h (by tauto)

end SVA


namespace SVA

/-! ## `create_dnode`: the control union and the guard -/

/-- An error of a loop is the error of one of its passes. -/
theorem foldlM_error {σ α : Type} (P : Failure → Prop) (f : σ → α → Except Failure σ)
    (hf : ∀ s a e, f s a = Except.error e → P e) :
    ∀ (l : List α) (s : σ) (e : Failure), l.foldlM f s = Except.error e → P e := by
  intro l
  induction l with
  | nil => intro s e h; cases h
  | cons a l ih =>
    intro s e h
    rw [foldlM_ok_cons] at h
    cases hfa : f s a with
    | error e' =>
      rw [hfa] at h
      have : e' = e := Except.error.inj h
      rw [← this]; exact hf s a e' hfa
    | ok s1 =>
      rw [hfa] at h
      exact ih s1 e h

/-- The first loop of `create_dnode` returns iff every member is reachable, and then it has
collected exactly the bits of the edge and accept guards of the members. -/
theorem dnode_ctrl_raw_spec (unodes : List SvaUFsmNode) (state : List Nat) :
    (∀ e, dnode_ctrl_raw unodes state = Except.error e → e = Failure.log_assert) ∧
    (∀ raw, dnode_ctrl_raw unodes state = Except.ok raw →
      ∀ b, b ∈ raw ↔ ∃ u ∈ state,
        (∃ e ∈ (unodes.getD u default).edges, b ∈ e.2) ∨
        (∃ G ∈ (unodes.getD u default).accept, b ∈ G)) := by
  unfold dnode_ctrl_raw
  have hinner1 : ∀ (es : List (Nat × List SigBit)) (acc : List SigBit) (b : SigBit),
      b ∈ es.foldl (fun (ctrl : List SigBit) it => ctrl ++ it.2) acc ↔
        b ∈ acc ∨ ∃ e ∈ es, b ∈ e.2 := by
    intro es
    induction es with
    | nil => intro acc b; simp
    | cons e es ih =>
      intro acc b
      rw [List.foldl_cons, ih]
      simp only [List.mem_append, List.mem_cons, exists_eq_or_imp]
      tauto
  have hinner2 : ∀ (gs : List (List SigBit)) (acc : List SigBit) (b : SigBit),
      b ∈ gs.foldl (fun (ctrl : List SigBit) it => ctrl ++ it) acc ↔
        b ∈ acc ∨ ∃ G ∈ gs, b ∈ G := by
    intro gs
    induction gs with
    | nil => intro acc b; simp
    | cons g gs ih =>
      intro acc b
      rw [List.foldl_cons, ih]
      simp only [List.mem_append, List.mem_cons, exists_eq_or_imp]
      tauto
  constructor
  · intro e h
    refine foldlM_error (fun e => e = Failure.log_assert) _ ?_ state [] e h
    intro s a e' hstep
    simp only at hstep
    split_ifs at hstep
    · exact (Except.error.inj hstep).symm
  · have hgen : ∀ (st : List Nat) (acc raw : List SigBit),
        st.foldlM
          (fun (ctrl : List SigBit) unode =>
            let u := unodes.getD unode default
            if ¬ u.reachable then Except.error Failure.log_assert
            else
              let ctrl := u.edges.foldl (fun (ctrl : List SigBit) it => ctrl ++ it.2) ctrl
              Except.ok (u.accept.foldl (fun (ctrl : List SigBit) it => ctrl ++ it) ctrl))
          acc = Except.ok raw →
        ∀ b, b ∈ raw ↔ b ∈ acc ∨ ∃ u ∈ st,
          (∃ e ∈ (unodes.getD u default).edges, b ∈ e.2) ∨
          (∃ G ∈ (unodes.getD u default).accept, b ∈ G) := by
      intro st
      induction st with
      | nil =>
        intro acc raw h b
        have : acc = raw := Except.ok.inj h
        subst this
        simp
      | cons u st ih =>
        intro acc raw h b
        rw [foldlM_ok_cons] at h
        simp only at h
        split_ifs at h with hr
        · rw [ih _ raw h b, hinner2, hinner1]
          simp only [List.mem_cons, exists_eq_or_imp]
          constructor
          · rintro (((h | h) | h) | h)
            · exact Or.inl h
            · exact Or.inr (Or.inl (Or.inl h))
            · exact Or.inr (Or.inl (Or.inr h))
            · exact Or.inr (Or.inr h)
          · rintro (h | (h | h) | h)
            · exact Or.inl (Or.inl (Or.inl h))
            · exact Or.inl (Or.inl (Or.inr h))
            · exact Or.inl (Or.inr h)
            · exact Or.inr h
    intro raw h b
    rw [hgen state [] raw h b]
    simp

/-- With a control union of more than 10 bits the call fails with the documented error,
whatever the recursion budget. -/
theorem create_dnode_guard_fires (unodes : List SvaUFsmNode)
    (dnodes : List (List Nat × SvaDFsmNode)) (state : List Nat) (firstmatch : Bool)
    (raw : List SigBit) (hnew : dict_count dnodes state = 0)
    (hraw : dnode_ctrl_raw unodes state = Except.ok raw)
    (hlen : 10 < (sort_and_unify raw).length) (fuel : Nat) :
    create_dnode unodes (fuel + 1) dnodes state firstmatch =
      Except.error (Failure.log_error ctrl_error) := by
  rw [create_dnode_succ, if_neg (by simp [hnew]), hraw]
  simp only
  rw [if_pos hlen]

/-- With a control union of at most 10 bits the call runs the valuation loop. -/
theorem create_dnode_guard_passes (unodes : List SvaUFsmNode)
    (dnodes : List (List Nat × SvaDFsmNode)) (state : List Nat) (firstmatch : Bool)
    (raw : List SigBit) (hnew : dict_count dnodes state = 0)
    (hraw : dnode_ctrl_raw unodes state = Except.ok raw)
    (hlen : (sort_and_unify raw).length ≤ 10) (fuel : Nat) :
    create_dnode unodes (fuel + 1) dnodes state firstmatch =
      match (List.range (1 <<< (sort_and_unify raw).length)).foldlM
          (dnode_step unodes state firstmatch (sort_and_unify raw)
            (fun d s => create_dnode unodes fuel d s firstmatch))
          ({ ctrl := sort_and_unify raw }, dict_set dnodes state default) with
      | Except.error e => Except.error e
      | Except.ok (dnode, dnodes) => Except.ok (dict_set dnodes state dnode) := by
  rw [create_dnode_succ, if_neg (by simp [hnew]), hraw]
  simp only
  simp only [if_neg (show ¬ (sort_and_unify raw).length > 10 by omega)]

theorem dnode_step_error (unodes : List SvaUFsmNode) (state : List Nat) (firstmatch : Bool)
    (ctrl : List SigBit)
    (construct : List (List Nat × SvaDFsmNode) → List Nat →
      Except Failure (List (List Nat × SvaDFsmNode)))
    (acc : SvaDFsmNode × List (List Nat × SvaDFsmNode)) (i : Nat) (e : Failure)
    (h : dnode_step unodes state firstmatch ctrl construct acc i = Except.error e) :
    ∃ d s, construct d s = Except.error e := by
  rw [dnode_step_eq] at h
  by_cases hn : val_next unodes state firstmatch ctrl i = []
  · rw [if_pos hn] at h; cases h
  · rw [if_neg hn] at h
    cases hc : construct acc.2 (usortint (val_next unodes state firstmatch ctrl i)) with
    | error e' =>
      rw [hc] at h
      exact ⟨_, _, hc.trans (by rw [Except.error.inj h])⟩
    | ok d => rw [hc] at h; cases h

/-- The documented error is raised only by the guard: when a call fails with a `log_error`,
the message is the documented one and some subset has a control union of more than 10 bits. -/
theorem create_dnode_log_error (unodes : List SvaUFsmNode) (firstmatch : Bool) :
    ∀ (fuel : Nat) (dnodes : List (List Nat × SvaDFsmNode)) (state : List Nat) (msg : String),
      create_dnode unodes fuel dnodes state firstmatch = Except.error (Failure.log_error msg) →
      msg = ctrl_error ∧
      ∃ S raw, dnode_ctrl_raw unodes S = Except.ok raw ∧ 10 < (sort_and_unify raw).length := by
  intro fuel
  induction fuel with
  | zero =>
    intro dnodes state msg h
    rw [create_dnode_zero] at h
    cases h
  | succ fuel ih =>
    intro dnodes state msg h
    rw [create_dnode_succ] at h
    split_ifs at h with hc
    cases hraw : dnode_ctrl_raw unodes state with
    | error e =>
      rw [hraw] at h
      simp only at h
      have h1 := (dnode_ctrl_raw_spec unodes state).1 e hraw
      rw [h1] at h
      cases h
    | ok raw =>
      rw [hraw] at h
      simp only at h
      split_ifs at h with hlen
      · have hm : ctrl_error = msg := by
          have := Except.error.inj h
          exact Failure.log_error.inj this
        exact ⟨hm.symm, state, raw, hraw, hlen⟩
      · cases hloop : (List.range (1 <<< (sort_and_unify raw).length)).foldlM
            (dnode_step unodes state firstmatch (sort_and_unify raw)
              (fun d s => create_dnode unodes fuel d s firstmatch))
            ({ ctrl := sort_and_unify raw }, dict_set dnodes state default) with
        | error e =>
          rw [hloop] at h
          simp only at h
          have he : e = Failure.log_error msg := Except.error.inj h
          subst he
          refine foldlM_error
            (fun e => e = Failure.log_error msg → msg = ctrl_error ∧
              ∃ S raw, dnode_ctrl_raw unodes S = Except.ok raw ∧
                10 < (sort_and_unify raw).length) _ ?_ _ _ _ hloop rfl
          intro s a e' hstep he'
          subst he'
          obtain ⟨d, s', hcs⟩ := dnode_step_error _ _ _ _ _ _ _ _ hstep
          exact ih d s' msg hcs
        | ok res =>
          rw [hloop] at h
          cases h

/-- With a recursion budget of one call, nothing but the guard of the subset itself can raise
the documented error. -/
theorem create_dnode_one_log_error (unodes : List SvaUFsmNode)
    (dnodes : List (List Nat × SvaDFsmNode)) (state : List Nat) (firstmatch : Bool)
    (raw : List SigBit) (hnew : dict_count dnodes state = 0)
    (hraw : dnode_ctrl_raw unodes state = Except.ok raw) :
    create_dnode unodes 1 dnodes state firstmatch = Except.error (Failure.log_error ctrl_error) ↔
      10 < (sort_and_unify raw).length := by
  constructor
  · intro h
    by_contra hlen
    rw [create_dnode_guard_passes unodes dnodes state firstmatch raw hnew hraw (by omega) 0] at h
    cases hloop : (List.range (1 <<< (sort_and_unify raw).length)).foldlM
        (dnode_step unodes state firstmatch (sort_and_unify raw)
          (fun d s => create_dnode unodes 0 d s firstmatch))
        ({ ctrl := sort_and_unify raw }, dict_set dnodes state default) with
    | error e =>
      rw [hloop] at h
      simp only at h
      have he : e = Failure.log_error ctrl_error := Except.error.inj h
      have hdepth : e = Failure.depth := by
        refine foldlM_error (fun e => e = Failure.depth) _ ?_ _ _ _ hloop
        intro s a e' hstep
        obtain ⟨d, s', hcs⟩ := dnode_step_error _ _ _ _ _ _ _ _ hstep
        rw [create_dnode_zero] at hcs
        exact (Except.error.inj hcs).symm
      rw [hdepth] at he
      cases he
    | ok res =>
      rw [hloop] at h
      cases h
  · intro hlen
    exact create_dnode_guard_fires unodes dnodes state firstmatch raw hnew hraw hlen 0

/-- The node that a successful call stores for a subset that was not yet constructed. -/
theorem create_dnode_constructs (unodes : List SvaUFsmNode) (fuel : Nat)
    (dnodes dnodes' : List (List Nat × SvaDFsmNode)) (state : List Nat) (firstmatch : Bool)
    (hnew : dict_count dnodes state = 0)
    (hrun : create_dnode unodes (fuel + 1) dnodes state firstmatch = Except.ok dnodes') :
    ∃ raw dnode, dnode_ctrl_raw unodes state = Except.ok raw ∧
      (sort_and_unify raw).length ≤ 10 ∧
      dict_at dnodes' state = some dnode ∧ dnode.ctrl = sort_and_unify raw ∧
      dnode.accept =
        ((List.range (2 ^ (sort_and_unify raw).length)).filter (fun i =>
          val_accept unodes state (sort_and_unify raw) i)).map
          (fun i => Const i (sort_and_unify raw).length) ∧
      dnode.reject =
        ((List.range (2 ^ (sort_and_unify raw).length)).filter (fun i =>
          decide (val_next unodes state firstmatch (sort_and_unify raw) i = []) &&
            !val_accept unodes state (sort_and_unify raw) i)).map
          (fun i => Const i (sort_and_unify raw).length) ∧
      dnode.edges =
        ((List.range (2 ^ (sort_and_unify raw).length)).filter (fun i =>
          !decide (val_next unodes state firstmatch (sort_and_unify raw) i = []))).map
          (fun i => (usortint (val_next unodes state firstmatch (sort_and_unify raw) i),
            Const i (sort_and_unify raw).length)) := by
  rw [create_dnode_succ, if_neg (by simp [hnew])] at hrun
  cases hraw : dnode_ctrl_raw unodes state with
  | error e => rw [hraw] at hrun; cases hrun
  | ok raw =>
    rw [hraw] at hrun
    simp only at hrun
    split_ifs at hrun with hlen
    cases hloop : (List.range (1 <<< (sort_and_unify raw).length)).foldlM
        (dnode_step unodes state firstmatch (sort_and_unify raw)
          (fun d s => create_dnode unodes fuel d s firstmatch))
        ({ ctrl := sort_and_unify raw }, dict_set dnodes state default) with
    | error e => rw [hloop] at hrun; cases hrun
    | ok res =>
      rw [hloop] at hrun
      simp only at hrun
      have hd : dict_set res.2 state res.1 = dnodes' := Except.ok.inj hrun
      obtain ⟨h1, h2, h3, h4⟩ := dnode_loop_spec _ _ _ _ _ _ _ _ hloop
      have hpow : 1 <<< (sort_and_unify raw).length = 2 ^ (sort_and_unify raw).length := by
        rw [Nat.shiftLeft_eq, Nat.one_mul]
      rw [hpow] at h2 h3 h4
      refine ⟨raw, res.1, rfl, by omega, ?_, h1, ?_, ?_, ?_⟩
      · rw [← hd]; exact dict_at_dict_set_eq _ _ _
      · rw [h2]; rfl
      · rw [h3]; rfl
      · rw [h4]; rfl

end SVA


namespace SVA

/-! ## The implication idiom -/

theorem import_implProp :
    import_sva_assert false (some implProp) {} = Except.ok implModule := by rfl

theorem impl_qval_const (env : Nat → Nat → Bool) (t k : Nat)
    (hk : k = 0 ∨ k = 1 ∨ k = 2 ∨ k = 4 ∨ k = 5) : implModule.qval env t k = false := by
  rcases hk with rfl | rfl | rfl | rfl | rfl <;> cases t <;> rfl

theorem impl_qval_zero (env : Nat → Nat → Bool) :
    implModule.qval env 0 3 = false ∧ implModule.qval env 0 6 = false ∧
    implModule.qval env 0 7 = false ∧ implModule.qval env 0 8 = true :=
  ⟨rfl, rfl, rfl, rfl⟩

theorem impl_eval_match (env : Nat → Nat → Bool) (t : Nat) :
    implStart.eval (env t) (implModule.qval env t) =
      (implModule.qval env t 3 && env t 1) := by
  simp [implStart, implMatch, SigBit.eval, impl_qval_const]

theorem impl_eval_eq (inp q : Nat → Bool) (st c : SigBit) :
    (implEq st c SigBit.S0).eval inp q = (st.eval inp q && !c.eval inp q) ∧
    (implEq st c SigBit.S1).eval inp q = (st.eval inp q && c.eval inp q) := by
  constructor <;> simp [implEq, SigBit.xnor, SigBit.eval]

theorem impl_qval_succ (env : Nat → Nat → Bool) (t : Nat) :
    implModule.qval env (t + 1) 3 = env t 0 ∧
    implModule.qval env (t + 1) 6 = ((implModule.qval env t 3 && env t 1) && env t 2) ∧
    implModule.qval env (t + 1) 7 = (implModule.qval env t 6 && !env t 3) ∧
    implModule.qval env (t + 1) 8 =
      !(((implModule.qval env t 3 && env t 1) && !env t 2) ||
        (implModule.qval env t 7 && !env t 3)) := by
  refine ⟨?_, ?_, ?_, ?_⟩
  · show (SigBit.and (SigBit.or (SigBit.auto 2)
        (SigBit.and (SigBit.or (SigBit.auto 0) SigBit.S1) (SigBit.wire 0))) SigBit.S1).eval
        (env t) (implModule.qval env t) = _
    simp [SigBit.eval, impl_qval_const]
  · show (implEq implStart (SigBit.wire 2) SigBit.S1).eval (env t) (implModule.qval env t) = _
    rw [(impl_eval_eq _ _ _ _).2, impl_eval_match]
    rfl
  · show (implEq (SigBit.auto 6) (SigBit.wire 3) SigBit.S0).eval (env t)
        (implModule.qval env t) = _
    rw [(impl_eval_eq _ _ _ _).1]
    rfl
  · show (SigBit.not implReject).eval (env t) (implModule.qval env t) = _
    have h := impl_eval_match env t
    have h1 := (impl_eval_eq (env t) (implModule.qval env t) implStart (SigBit.wire 2)).1
    have h2 := (impl_eval_eq (env t) (implModule.qval env t) (SigBit.auto 7) (SigBit.wire 3)).1
    show (!((implEq implStart (SigBit.wire 2) SigBit.S0).eval (env t) (implModule.qval env t) ||
      ((implEq (SigBit.auto 7) (SigBit.wire 3) SigBit.S0).eval (env t)
        (implModule.qval env t) || false))) = _
    rw [h1, h2, h, Bool.or_false]
    rfl

/-- The registered property-OK of the implication idiom in closed form: it is true at the
cycles 0 and 1; at cycle `t+2` it is false iff the antecedent matched at cycle `t+1` (`a` at
`t`, `b` at `t+1`) and `c` is false at `t+1`, or the antecedent matched at cycle `t-1`, `c`
held then and `d` holds neither at `t` nor at `t+1`. -/
theorem impl_okq_closed (env : Nat → Nat → Bool) :
    implModule.qval env 0 8 = true ∧ implModule.qval env 1 8 = true ∧
    implModule.qval env 2 8 = !(env 0 0 && env 1 1 && !env 1 2) ∧
    implModule.qval env 3 8 = !(env 1 0 && env 2 1 && !env 2 2) ∧
    ∀ t, implModule.qval env (t + 4) 8 =
      !((env (t + 2) 0 && env (t + 3) 1 && !env (t + 3) 2) ||
        (env t 0 && env (t + 1) 1 && env (t + 1) 2 && !env (t + 2) 3 && !env (t + 3) 3)) := by
  have z := impl_qval_zero env
  have q3 : ∀ t, implModule.qval env (t + 1) 3 = env t 0 := fun t => (impl_qval_succ env t).1
  have q61 : implModule.qval env 1 6 = false := by
    rw [(impl_qval_succ env 0).2.1, z.1]; rfl
  have q6 : ∀ t, implModule.qval env (t + 2) 6 = (env t 0 && env (t + 1) 1 && env (t + 1) 2) := by
    intro t
    rw [(impl_qval_succ env (t + 1)).2.1, q3]
  have q71 : implModule.qval env 1 7 = false := by
    rw [(impl_qval_succ env 0).2.2.1, z.2.1]; rfl
  have q72 : implModule.qval env 2 7 = false := by
    rw [(impl_qval_succ env 1).2.2.1, q61]; rfl
  have q7 : ∀ t, implModule.qval env (t + 3) 7 =
      (env t 0 && env (t + 1) 1 && env (t + 1) 2 && !env (t + 2) 3) := by
    intro t
    rw [(impl_qval_succ env (t + 2)).2.2.1, q6]
  refine ⟨z.2.2.2, ?_, ?_, ?_, ?_⟩
  · rw [(impl_qval_succ env 0).2.2.2, z.1, z.2.2.1]; rfl
  · rw [(impl_qval_succ env 1).2.2.2, q3, q71]
    simp
  · rw [(impl_qval_succ env 2).2.2.2, q3, q72]
    simp
  · intro t
    rw [(impl_qval_succ env (t + 3)).2.2.2, q3, q7]

/-- The cycles at which the registered property-OK of the implication idiom is false. -/
theorem impl_okq_false (env : Nat → Nat → Bool) (t : Nat) :
    implModule.qval env t 8 = false ↔
      ∃ s, env s 0 = true ∧ env (s + 1) 1 = true ∧
        ((t = s + 2 ∧ env (s + 1) 2 = false) ∨
          (t = s + 4 ∧ env (s + 1) 2 = true ∧ env (s + 2) 3 = false ∧
            env (s + 3) 3 = false)) := by
  obtain ⟨h0, h1, h2, h3, h4⟩ := impl_okq_closed env
  have F1 : ∀ s, (env s 0 && env (s + 1) 1 && !env (s + 1) 2) = true ↔
      (env s 0 = true ∧ env (s + 1) 1 = true ∧ env (s + 1) 2 = false) := by
    intro s
    simp [and_assoc]
  have F2 : ∀ s, (env s 0 && env (s + 1) 1 && env (s + 1) 2 && !env (s + 2) 3 &&
      !env (s + 3) 3) = true ↔
      (env s 0 = true ∧ env (s + 1) 1 = true ∧ env (s + 1) 2 = true ∧
        env (s + 2) 3 = false ∧ env (s + 3) 3 = false) := by
    intro s
    simp [and_assoc]
  rcases t with _ | _ | _ | _ | t
  · rw [h0]
    constructor
    · intro h; cases h
    · rintro ⟨s, _, _, h | h⟩ <;> omega
  · rw [h1]
    constructor
    · intro h; cases h
    · rintro ⟨s, _, _, h | h⟩ <;> omega
  · rw [h2, Bool.not_eq_false', F1 0]
    constructor
    · rintro ⟨a, b, c⟩
      exact ⟨0, a, b, Or.inl ⟨rfl, c⟩⟩
    · rintro ⟨s, a, b, ⟨e, c⟩ | ⟨e, _⟩⟩
      · have : s = 0 := by omega
        subst this
        exact ⟨a, b, c⟩
      · omega
  · rw [h3, Bool.not_eq_false', F1 1]
    constructor
    · rintro ⟨a, b, c⟩
      exact ⟨1, a, b, Or.inl ⟨rfl, c⟩⟩
    · rintro ⟨s, a, b, ⟨e, c⟩ | ⟨e, _⟩⟩
      · have : s = 1 := by omega
        subst this
        exact ⟨a, b, c⟩
      · omega
  · rw [h4, Bool.not_eq_false', Bool.or_eq_true, F1 (t + 2), F2 t]
    constructor
    · rintro (⟨a, b, c⟩ | ⟨a, b, c, d, e⟩)
      · exact ⟨t + 2, a, b, Or.inl ⟨rfl, c⟩⟩
      · exact ⟨t, a, b, Or.inr ⟨rfl, c, d, e⟩⟩
    · rintro ⟨s, a, b, ⟨e, c⟩ | ⟨e, c, d, f⟩⟩
      · have : s = t + 2 := by omega
        subst this
        exact Or.inl ⟨a, b, c⟩
      · have : s = t := by omega
        subst this
        exact Or.inr ⟨a, b, c, d, f⟩

end SVA


namespace SVA

/-! ## Building automata in closed form -/

theorem getAccept_reference (fsm : SvaFsm) (m : Module) (hwf : fsm.WellFormed)
    (hac : fsm.Acyclic) (hmat : fsm.materialized = false) :
    ∃ m' fsm' acc, fsm.getAccept m = Except.ok (m', fsm', acc) ∧
      ∀ (env : Nat → Nat → Bool) (t : Nat),
        (m'.value env t acc = true ↔ fsm.refActive (m'.value env) t fsm.acceptNode) := by
  obtain ⟨order, hrun, _, _, _⟩ := link_orders_spec hwf hac
  refine ⟨_, _, _, getAccept_eq fsm m hmat order hrun, ?_⟩
  intro env t
  exact accept_circuit_active hwf hac m order hrun env t fsm.acceptNode

theorem fsmOf_congr (trig : SigBit) (n : Nat) (f g : Nat → SvaNFsmNode)
    (h : ∀ i, i < n → f i = g i) : fsmOf trig n f = fsmOf trig n g := by
  have hm : (List.range n).map f = (List.range n).map g :=
    List.map_congr_left (fun i hi => h i (List.mem_range.1 hi))
  unfold fsmOf
  rw [hm]

theorem getElem?_map_range (n : Nat) (g : Nat → SvaNFsmNode) (i : Nat) :
    ((List.range n).map g)[i]? = if i < n then some (g i) else none := by
  by_cases hi : i < n
  · rw [if_pos hi, List.getElem?_map, List.getElem?_range hi]
    rfl
  · rw [if_neg hi]
    apply List.getElem?_eq_none
    simp
    omega

theorem set_map_range (n : Nat) (f : Nat → SvaNFsmNode) (u : Nat) (x : SvaNFsmNode) :
    ((List.range n).map f).set u x = (List.range n).map (Function.update f u x) := by
  apply List.ext_getElem?
  intro i
  rw [List.getElem?_set, getElem?_map_range, getElem?_map_range, List.length_map,
    List.length_range]
  by_cases hu : u = i
  · subst hu
    by_cases hi : u < n
    · simp [hi]
    · simp [hi]
  · have hu' : i ≠ u := fun h => hu h.symm
    simp [hu, Function.update, hu']

theorem getD_map_range_lt (n : Nat) (f : Nat → SvaNFsmNode) (u : Nat) (hu : u < n) :
    ((List.range n).map f).getD u default = f u := by
  simp [List.getD, hu]

theorem createNode_fsmOf (trig : SigBit) (n : Nat) (f : Nat → SvaNFsmNode) :
    (fsmOf trig n f).createNode =
      Except.ok (fsmOf trig (n + 1) (Function.update f n default), n) := by
  unfold SvaFsm.createNode fsmOf SvaFsm.new
  simp only [Bool.false_eq_true, if_false, List.length_map, List.length_range]
  congr 2
  rw [List.range_succ, List.map_append]
  congr 2
  · apply List.map_congr_left
    intro i hi
    have : i ≠ n := by have := List.mem_range.1 hi; omega
    simp [Function.update, this]
  · simp [Function.update]

theorem createEdge_fsmOf (trig : SigBit) (n : Nat) (f : Nat → SvaNFsmNode) (u v : Nat)
    (c : SigBit) (hu : u < n) (hv : v < n) :
    (fsmOf trig n f).createEdge u v c =
      Except.ok (fsmOf trig n
        (Function.update f u { f u with edges := (f u).edges ++ [(v, c)] })) := by
  unfold SvaFsm.createEdge
  have hlen : (fsmOf trig n f).nodes.length = n := by simp [fsmOf]
  have hm : (fsmOf trig n f).materialized = false := rfl
  rw [if_neg (by simp [hm]), if_neg (by simp [hlen, hu]), if_neg (by simp [hlen, hv])]
  simp only [Int.toNat_ofNat]
  have hc : (fsmOf trig n f).throughout_ctrl c = c := by
    simp [SvaFsm.throughout_ctrl, fsmOf, SvaFsm.new]
  rw [hc]
  have hn : (fsmOf trig n f).nodes = (List.range n).map f := rfl
  rw [hn, getD_map_range_lt n f u hu, set_map_range]
  rfl

theorem createLink_fsmOf (trig : SigBit) (n : Nat) (f : Nat → SvaNFsmNode) (u v : Nat)
    (c : SigBit) (hu : u < n) (hv : v < n) :
    (fsmOf trig n f).createLink u v c =
      Except.ok (fsmOf trig n
        (Function.update f u { f u with links := (f u).links ++ [(v, c)] })) := by
  unfold SvaFsm.createLink
  have hlen : (fsmOf trig n f).nodes.length = n := by simp [fsmOf]
  have hm : (fsmOf trig n f).materialized = false := rfl
  rw [if_neg (by simp [hm]), if_neg (by simp [hlen, hu]), if_neg (by simp [hlen, hv])]
  simp only [Int.toNat_ofNat]
  have hc : (fsmOf trig n f).throughout_ctrl c = c := by
    simp [SvaFsm.throughout_ctrl, fsmOf, SvaFsm.new]
  rw [hc]
  have hn : (fsmOf trig n f).nodes = (List.range n).map f := rfl
  rw [hn, getD_map_range_lt n f u hu, set_map_range]
  rfl

theorem edge_to_new_node_fsmOf (trig : SigBit) (n : Nat) (f : Nat → SvaNFsmNode) (u : Nat)
    (hu : u < n) :
    edge_to_new_node (fsmOf trig n f) u =
      Except.ok (fsmOf trig (n + 1)
        (Function.update (Function.update f n default) u
          { f u with edges := (f u).edges ++ [(n, SigBit.S1)] }), n) := by
  unfold edge_to_new_node
  rw [createNode_fsmOf]
  show (do
    let fsm ← (fsmOf trig (n + 1) (Function.update f n default)).createEdge u n SigBit.S1
    pure (fsm, n)) = _
  rw [createEdge_fsmOf trig (n + 1) _ u n SigBit.S1 (by omega) (by omega)]
  have : Function.update f n default u = f u := by
    simp [Function.update]; intro h; omega
  rw [this]
  rfl

theorem parse_expr_fsmOf (trig : SigBit) (n : Nat) (f : Nat → SvaNFsmNode) (u : Nat)
    (e : SigBit) (hu : u < n) :
    parse_sequence false (SvaNet.expr e) (fsmOf trig n f) u =
      Except.ok (fsmOf trig (n + 1)
        (Function.update (Function.update f n default) u
          { f u with links := (f u).links ++ [(n, e)] }), n) := by
  unfold parse_sequence
  rw [createNode_fsmOf]
  show (do
    let fsm ← (fsmOf trig (n + 1) (Function.update f n default)).createLink u n e
    pure (fsm, n)) = _
  rw [createLink_fsmOf trig (n + 1) _ u n e (by omega) (by omega)]
  have : Function.update f n default u = f u := by
    simp [Function.update]; intro h; omega
  rw [this]
  rfl

end SVA


namespace SVA

/-! ## The automaton of a bounded repetition in closed form -/

theorem foldlM_iterate {α σ : Type} (step : σ → Except Failure σ) (S : Nat → σ)
    (hstep : ∀ k, step (S k) = Except.ok (S (k + 1))) (l : List α) (k : Nat) :
    l.foldlM (fun acc _ => step acc) (S k) = Except.ok (S (k + l.length)) := by
  induction l generalizing k with
  | nil => rfl
  | cons a l ih =>
    rw [foldlM_ok_cons]
    simp only [hstep k]
    rw [ih (k + 1), List.length_cons]
    congr 2
    omega

theorem new_eq_fsmOf (trig : SigBit) : SvaFsm.new trig = fsmOf trig 2 (fun _ => default) := rfl

theorem node_default : (default : SvaNFsmNode) = { edges := [], links := [] } := rfl

theorem repNode_end (e : SigBit) (lo K : Nat) (fin : Bool) (i : Nat) (hK : 1 ≤ K)
    (hi : i = 2 * K) :
    repNode e lo K fin i =
      { edges := [], links := if fin then [(1, SigBit.S1)] else [] } := by
  unfold repNode
  rw [if_neg (by omega), if_neg (by omega), if_neg (by omega), if_neg (by omega)]

theorem repNode_odd (e : SigBit) (lo K : Nat) (fin : Bool) (i : Nat) (hi : 3 ≤ i)
    (h : i % 2 = 1) :
    repNode e lo K fin i = { edges := [], links := [(i + 1, e)] } := by
  unfold repNode
  rw [if_neg (by omega), if_neg (by omega), if_pos h]

theorem repNode_inner (e : SigBit) (lo K : Nat) (fin : Bool) (i : Nat) (hi : 2 ≤ i)
    (h : i % 2 = 0) (hK : i < 2 * K) :
    repNode e lo K fin i =
      { edges := [(i + 1, SigBit.S1)],
        links := if 2 * lo ≤ i then [(i + 2, SigBit.S1)] else [] } := by
  unfold repNode
  rw [if_neg (by omega), if_neg (by omega), if_neg (by omega), if_pos hK]

theorem repNode_lt (e : SigBit) (lo lo' K K' : Nat) (fin fin' : Bool) (i : Nat)
    (hi : i < 2 * K) (hK : K ≤ K') (hlo : ∀ k, k < K → (lo ≤ k ↔ lo' ≤ k)) :
    repNode e lo' K' fin' i = repNode e lo K fin i := by
  unfold repNode
  by_cases h0 : i = 0
  · rw [if_pos h0, if_pos h0]
  rw [if_neg h0, if_neg h0]
  by_cases h1 : i = 1
  · rw [if_pos h1, if_pos h1]
  rw [if_neg h1, if_neg h1]
  by_cases h2 : i % 2 = 1
  · rw [if_pos h2, if_pos h2]
  rw [if_neg h2, if_neg h2, if_pos (by omega), if_pos hi]
  have := hlo (i / 2) (by omega)
  by_cases h : 2 * lo ≤ i
  · rw [if_pos h, if_pos (by omega)]
  · rw [if_neg h, if_neg (by omega)]

end SVA


namespace SVA

theorem repeat_step1 (trig e : SigBit) (K : Nat) (hK : 1 ≤ K) :
    (do
      let (fsm, next_node) ← edge_to_new_node (fsmOf trig (2 * K + 1) (repNode e K K false)) (2 * K)
      parse_sequence false (SvaNet.expr e) fsm next_node) =
    Except.ok (fsmOf trig (2 * (K + 1) + 1) (repNode e (K + 1) (K + 1) false), 2 * (K + 1)) := by
  rw [edge_to_new_node_fsmOf _ _ _ _ (by omega)]
  simp only [bind, Except.bind]
  rw [parse_expr_fsmOf _ _ _ _ _ (by omega)]
  have h1 : 2 * (K + 1) + 1 = 2 * K + 1 + 1 + 1 := by omega
  have h2 : 2 * (K + 1) = 2 * K + 1 + 1 := by omega
  rw [h1, h2]
  refine congrArg (fun x => Except.ok (x, 2 * K + 1 + 1)) (fsmOf_congr _ _ _ _ ?_)
  intro i hi
  rcases (by omega : i = 2 * K + 1 + 1 ∨ i = 2 * K + 1 ∨ i = 2 * K ∨ i < 2 * K) with
    h | h | h | h
  · rw [repNode_end e (K + 1) (K + 1) false i (by omega) (by omega)]
    subst h
    simp [Function.update_apply, node_default]
  · rw [repNode_odd e (K + 1) (K + 1) false i (by omega) (by omega)]
    subst h
    simp [Function.update_apply, node_default]
  · rw [repNode_inner e (K + 1) (K + 1) false i (by omega) (by omega) (by omega)]
    have hA := repNode_end e K K false i hK h
    subst h
    simp [Function.update_apply, node_default, hA]
    omega
  · rw [repNode_lt e K (K + 1) K (K + 1) false false i h (by omega) (by intro k hk; omega)]
    have h3 : i ≠ 2 * K + 1 := by omega
    have h4 : i ≠ 2 * K := by omega
    have h5 : i ≠ 2 * K + 1 + 1 := by omega
    simp [Function.update_apply, h3, h4, h5]

theorem repeat_step2 (trig e : SigBit) (lo K : Nat) (hlo : 1 ≤ lo) (hK : lo ≤ K) :
    (do
      let (fsm, next_node) ←
        edge_to_new_node (fsmOf trig (2 * K + 1) (repNode e lo K false)) (2 * K)
      let (fsm, next_node) ← parse_sequence false (SvaNet.expr e) fsm next_node
      let fsm ← fsm.createLink (2 * K : Nat) next_node SigBit.S1
      pure (fsm, next_node)) =
    Except.ok (fsmOf trig (2 * (K + 1) + 1) (repNode e lo (K + 1) false), 2 * (K + 1)) := by
  rw [edge_to_new_node_fsmOf _ _ _ _ (by omega)]
  simp only [bind, Except.bind]
  rw [parse_expr_fsmOf _ _ _ _ _ (by omega)]
  simp only
  rw [createLink_fsmOf _ _ _ _ _ _ (by omega) (by omega)]
  have h1 : 2 * (K + 1) + 1 = 2 * K + 1 + 1 + 1 := by omega
  have h2 : 2 * (K + 1) = 2 * K + 1 + 1 := by omega
  rw [h1, h2]
  refine congrArg (fun x => Except.ok (x, 2 * K + 1 + 1)) (fsmOf_congr _ _ _ _ ?_)
  intro i hi
  rcases (by omega : i = 2 * K + 1 + 1 ∨ i = 2 * K + 1 ∨ i = 2 * K ∨ i < 2 * K) with
    h | h | h | h
  · rw [repNode_end e lo (K + 1) false i (by omega) (by omega)]
    subst h
    simp [Function.update_apply, node_default]
    omega
  · rw [repNode_odd e lo (K + 1) false i (by omega) (by omega)]
    subst h
    simp [Function.update_apply, node_default]
  · rw [repNode_inner e lo (K + 1) false i (by omega) (by omega) (by omega)]
    have hA := repNode_end e lo K false i (by omega) h
    subst h
    have h6 : ¬ (2 * K = 2 * K + 1 + 1) := by omega
    simp [Function.update_apply, node_default, hA, h6, hK]
  · rw [repNode_lt e lo lo K (K + 1) false false i h (by omega) (by intro k hk; rfl)]
    have h3 : i ≠ 2 * K + 1 := by omega
    have h4 : i ≠ 2 * K := by omega
    have h5 : i ≠ 2 * K + 1 + 1 := by omega
    simp [Function.update_apply, h3, h4, h5]

theorem repeat_final (trig e : SigBit) (lo K : Nat) (hK : 1 ≤ K) :
    (fsmOf trig (2 * K + 1) (repNode e lo K false)).createLink (2 * K : Nat)
        (fsmOf trig (2 * K + 1) (repNode e lo K false)).acceptNode SigBit.S1 =
      Except.ok (fsmOf trig (2 * K + 1) (repNode e lo K true)) := by
  show (fsmOf trig (2 * K + 1) (repNode e lo K false)).createLink (2 * K : Nat) (1 : Nat)
    SigBit.S1 = _
  rw [createLink_fsmOf _ _ _ _ _ _ (by omega) (by omega)]
  refine congrArg Except.ok (fsmOf_congr _ _ _ _ ?_)
  intro i hi
  rcases (by omega : i = 2 * K ∨ i < 2 * K) with h | h
  · rw [repNode_end e lo K true i hK h]
    have hA := repNode_end e lo K false i hK h
    subst h
    simp [Function.update_apply, hA]
  · rw [repNode_lt e lo lo K K false true i h (by omega) (by intro k hk; rfl)]
    have h4 : i ≠ 2 * K := by omega
    simp [Function.update_apply, h4]

theorem repeat_first (trig e : SigBit) :
    parse_sequence false (SvaNet.expr e) (SvaFsm.new trig) (SvaFsm.new trig).startNode =
      Except.ok (fsmOf trig (2 * 1 + 1) (repNode e 1 1 false), 2 * 1) := by
  show parse_sequence false (SvaNet.expr e) (fsmOf trig 2 (fun _ => default)) 0 = _
  rw [parse_expr_fsmOf _ _ _ _ _ (by omega)]
  refine congrArg (fun x => Except.ok (x, 2)) (fsmOf_congr _ _ _ _ ?_)
  intro i hi
  rcases (by omega : i = 0 ∨ i = 1 ∨ i = 2) with h | h | h <;> subst h <;>
    simp [Function.update_apply, node_default, repNode]

theorem repeat_head (trig e : SigBit) (N : Nat) :
    (do
      let (fsm, node) ← parse_sequence false (SvaNet.expr e) (SvaFsm.new trig)
        (SvaFsm.new trig).startNode
      (List.range' 1 (N - 1)).foldlM
        (fun (acc : SvaFsm × Nat) _ => do
          let (fsm, next_node) ← edge_to_new_node acc.1 acc.2
          parse_sequence false (SvaNet.expr e) fsm next_node)
        (fsm, node)) =
    Except.ok (fsmOf trig (2 * (max N 1) + 1) (repNode e (max N 1) (max N 1) false),
      2 * (max N 1)) := by
  rw [repeat_first]
  simp only [bind, Except.bind]
  have h := @foldlM_iterate Nat (SvaFsm × Nat)
    (fun acc => do
      let (fsm, next_node) ← edge_to_new_node acc.1 acc.2
      parse_sequence false (SvaNet.expr e) fsm next_node)
    (fun k => (fsmOf trig (2 * (k + 1) + 1) (repNode e (k + 1) (k + 1) false), 2 * (k + 1)))
    (fun k => repeat_step1 trig e (k + 1) (by omega)) (List.range' 1 (N - 1)) 0
  simp only [bind, Except.bind] at h
  have hN : 0 + (List.range' 1 (N - 1)).length + 1 = max N 1 := by
    rw [List.length_range']
    omega
  rw [hN] at h
  exact h

theorem build_fsm_repeat_bounded (trig e : SigBit) (N M : Nat) :
    build_fsm false trig (SvaNet.consecutive_repeat N (some M) (SvaNet.expr e)) false =
      Except.ok (fsmOf trig (2 * (max N 1 + (M - N)) + 1)
        (repNode e (max N 1) (max N 1 + (M - N)) true)) := by
  unfold build_fsm
  unfold parse_sequence
  have hp := repeat_head trig e N
  simp only [bind, Except.bind] at hp ⊢
  rw [repeat_first] at hp ⊢
  simp only at hp ⊢
  rw [hp]
  simp only
  have h := @foldlM_iterate Nat (SvaFsm × Nat)
    (fun acc => do
      let (fsm, next_node) ← edge_to_new_node acc.1 acc.2
      let (fsm, next_node) ← parse_sequence false (SvaNet.expr e) fsm next_node
      let fsm ← fsm.createLink acc.2 next_node SigBit.S1
      pure (fsm, next_node))
    (fun j => (fsmOf trig (2 * (max N 1 + j) + 1) (repNode e (max N 1) (max N 1 + j) false),
      2 * (max N 1 + j)))
    (fun j => repeat_step2 trig e (max N 1) (max N 1 + j) (by omega) (by omega))
    (List.range' N (M - N)) 0
  simp only [bind, Except.bind, Nat.add_zero] at h
  have hN : 0 + (List.range' N (M - N)).length = M - N := by
    rw [List.length_range']
    omega
  rw [hN] at h
  rw [h]
  simp only [Bool.false_eq_true, if_false, pure, Except.pure]
  exact repeat_final trig e (max N 1) (max N 1 + (M - N)) (by omega)

end SVA


namespace SVA

/-! ## The automaton of an unbounded repetition in closed form -/

theorem infNode_back (e : SigBit) (lo i : Nat) (hi : i = 2 * lo + 2) :
    infNode e lo i = { edges := [], links := [(2 * lo, SigBit.S1)] } := by
  unfold infNode
  rw [if_neg (by omega), if_neg (by omega), if_neg (by omega), if_neg (by omega),
    if_neg (by omega)]

theorem infNode_odd (e : SigBit) (lo i : Nat) (hi : 3 ≤ i) (h : i % 2 = 1) :
    infNode e lo i = { edges := [], links := [(i + 1, e)] } := by
  unfold infNode
  rw [if_neg (by omega), if_neg (by omega), if_pos h]

theorem infNode_end (e : SigBit) (lo i : Nat) (hlo : 1 ≤ lo) (hi : i = 2 * lo) :
    infNode e lo i = { edges := [(i + 1, SigBit.S1)], links := [(1, SigBit.S1)] } := by
  unfold infNode
  rw [if_neg (by omega), if_neg (by omega), if_neg (by omega), if_neg (by omega), if_pos hi]

theorem infNode_inner (e : SigBit) (lo i : Nat) (hi : 2 ≤ i) (h : i % 2 = 0)
    (hlt : i < 2 * lo) :
    infNode e lo i = { edges := [(i + 1, SigBit.S1)], links := [] } := by
  unfold infNode
  rw [if_neg (by omega), if_neg (by omega), if_neg (by omega), if_pos hlt]

theorem infNode_lt (e : SigBit) (lo i : Nat) (hi : i < 2 * lo) :
    infNode e lo i = repNode e lo lo false i := by
  unfold infNode repNode
  by_cases h0 : i = 0
  · rw [if_pos h0, if_pos h0]
  rw [if_neg h0, if_neg h0]
  by_cases h1 : i = 1
  · rw [if_pos h1, if_pos h1]
  rw [if_neg h1, if_neg h1]
  by_cases h2 : i % 2 = 1
  · rw [if_pos h2, if_pos h2]
  rw [if_neg h2, if_neg h2, if_pos hi, if_pos hi, if_neg (by omega)]

theorem fsmOf_acceptNode (trig : SigBit) (n : Nat) (f : Nat → SvaNFsmNode) :
    (fsmOf trig n f).acceptNode = 1 := rfl

theorem repeat_inf_tail (trig e : SigBit) (lo : Nat) (hlo : 1 ≤ lo) :
    (do
      let r ← (do
        let (fsm, next_node) ←
          edge_to_new_node (fsmOf trig (2 * lo + 1) (repNode e lo lo false)) (2 * lo)
        let (fsm, next_node) ← parse_sequence false (SvaNet.expr e) fsm next_node
        let fsm ← fsm.createLink next_node (2 * lo : Nat) SigBit.S1
        pure (fsm, 2 * lo))
      r.1.createLink r.2 r.1.acceptNode SigBit.S1) =
    Except.ok (fsmOf trig (2 * lo + 1 + 1 + 1) (infNode e lo)) := by
  rw [edge_to_new_node_fsmOf _ _ _ _ (by omega)]
  simp only [bind, Except.bind]
  rw [parse_expr_fsmOf _ _ _ _ _ (by omega)]
  simp only
  rw [createLink_fsmOf _ _ _ _ _ _ (by omega) (by omega)]
  simp only [pure, Except.pure]
  rw [createLink_fsmOf _ _ _ _ _ _ (by omega) (by rw [fsmOf_acceptNode]; omega)]
  refine congrArg Except.ok (fsmOf_congr _ _ _ _ ?_)
  intro i hi
  rcases (by omega : i = 2 * lo + 1 + 1 ∨ i = 2 * lo + 1 ∨ i = 2 * lo ∨ i < 2 * lo) with
    h | h | h | h
  · rw [infNode_back e lo i (by omega)]
    subst h
    have h6 : ¬ (2 * lo + 1 + 1 = 2 * lo) := by omega
    simp [Function.update_apply, node_default, h6]
  · rw [infNode_odd e lo i (by omega) (by omega)]
    subst h
    simp [Function.update_apply, node_default]
  · rw [infNode_end e lo i hlo h]
    have hA := repNode_end e lo lo false i hlo h
    subst h
    have h6 : ¬ (2 * lo = 2 * lo + 1 + 1) := by omega
    simp [Function.update_apply, node_default, hA, h6, fsmOf_acceptNode]
  · rw [infNode_lt e lo i h]
    have h3 : i ≠ 2 * lo + 1 := by omega
    have h4 : i ≠ 2 * lo := by omega
    have h5 : i ≠ 2 * lo + 1 + 1 := by omega
    simp [Function.update_apply, h3, h4, h5]

theorem build_fsm_repeat_unbounded (trig e : SigBit) (N : Nat) :
    build_fsm false trig (SvaNet.consecutive_repeat N none (SvaNet.expr e)) false =
      Except.ok (fsmOf trig (2 * (max N 1) + 1 + 1 + 1) (infNode e (max N 1))) := by
  unfold build_fsm
  unfold parse_sequence
  have hp := repeat_head trig e N
  simp only [bind, Except.bind] at hp ⊢
  rw [repeat_first] at hp ⊢
  simp only at hp ⊢
  rw [hp]
  simp only [Bool.false_eq_true, if_false, pure, Except.pure]
  have h := repeat_inf_tail trig e (max N 1) (by omega)
  simp only [bind, Except.bind, pure, Except.pure] at h
  exact h

end SVA


namespace SVA

/-! ## Links and edges of the repetition automata -/

theorem linksOf_fsmOf (trig : SigBit) (n : Nat) (f : Nat → SvaNFsmNode) (u : Nat) :
    (fsmOf trig n f).linksOf u = if u < n then (f u).links else [] := by
  unfold SvaFsm.linksOf
  have hn : (fsmOf trig n f).nodes = (List.range n).map f := rfl
  rw [hn]
  by_cases hu : u < n
  · rw [if_pos hu, getD_map_range_lt n f u hu]
  · rw [if_neg hu, getD_of_length_le _ _ _ (by simp; omega)]
    rfl

theorem edgesOf_fsmOf (trig : SigBit) (n : Nat) (f : Nat → SvaNFsmNode) (u : Nat) :
    (fsmOf trig n f).edgesOf u = if u < n then (f u).edges else [] := by
  unfold SvaFsm.edgesOf
  have hn : (fsmOf trig n f).nodes = (List.range n).map f := rfl
  rw [hn]
  by_cases hu : u < n
  · rw [if_pos hu, getD_map_range_lt n f u hu]
  · rw [if_neg hu, getD_of_length_le _ _ _ (by simp; omega)]
    rfl

theorem repNode_zero (e : SigBit) (lo K : Nat) (fin : Bool) :
    repNode e lo K fin 0 = { edges := [], links := [(2, e)] } := rfl

theorem repNode_one (e : SigBit) (lo K : Nat) (fin : Bool) :
    repNode e lo K fin 1 = { edges := [], links := [] } := rfl

theorem rep_link_cases (trig e : SigBit) (lo K : Nat) (hlo : 1 ≤ lo) (hK : lo ≤ K)
    (u v : Nat) (c : SigBit)
    (h : (v, c) ∈ (fsmOf trig (2 * K + 1) (repNode e lo K true)).linksOf u) :
    (u = 0 ∧ v = 2 ∧ c = e) ∨
    (3 ≤ u ∧ u % 2 = 1 ∧ u < 2 * K ∧ v = u + 1 ∧ c = e) ∨
    (2 ≤ u ∧ u % 2 = 0 ∧ u < 2 * K ∧ 2 * lo ≤ u ∧ v = u + 2 ∧ c = SigBit.S1) ∨
    (u = 2 * K ∧ v = 1 ∧ c = SigBit.S1) := by
  rw [linksOf_fsmOf] at h
  by_cases hu : u < 2 * K + 1
  swap
  · rw [if_neg hu] at h
    cases h
  rw [if_pos hu] at h
  rcases (by omega : u = 0 ∨ u = 1 ∨ (3 ≤ u ∧ u % 2 = 1) ∨ (2 ≤ u ∧ u % 2 = 0 ∧ u < 2 * K) ∨
    u = 2 * K) with h0 | h0 | h0 | h0 | h0
  · subst h0
    rw [repNode_zero] at h
    simp only [List.mem_singleton, Prod.mk.injEq] at h
    exact Or.inl ⟨rfl, h.1, h.2⟩
  · subst h0
    rw [repNode_one] at h
    cases h
  · rw [repNode_odd e lo K true u h0.1 h0.2] at h
    simp only [List.mem_singleton, Prod.mk.injEq] at h
    exact Or.inr (Or.inl ⟨h0.1, h0.2, by omega, h.1, h.2⟩)
  · rw [repNode_inner e lo K true u h0.1 h0.2.1 h0.2.2] at h
    by_cases hl : 2 * lo ≤ u
    · rw [if_pos hl] at h
      simp only [List.mem_singleton, Prod.mk.injEq] at h
      exact Or.inr (Or.inr (Or.inl ⟨h0.1, h0.2.1, h0.2.2, hl, h.1, h.2⟩))
    · rw [if_neg hl] at h
      cases h
  · rw [repNode_end e lo K true u (by omega) h0] at h
    simp only [if_true, List.mem_singleton, Prod.mk.injEq] at h
    exact Or.inr (Or.inr (Or.inr ⟨h0, h.1, h.2⟩))

theorem rep_link_start (trig e : SigBit) (lo K : Nat) (hK : 1 ≤ K) :
    (2, e) ∈ (fsmOf trig (2 * K + 1) (repNode e lo K true)).linksOf 0 := by
  rw [linksOf_fsmOf, if_pos (by omega), repNode_zero]
  exact List.mem_singleton.2 rfl

theorem rep_link_entry (trig e : SigBit) (lo K u : Nat) (h3 : 3 ≤ u) (ho : u % 2 = 1)
    (hu : u < 2 * K) :
    (u + 1, e) ∈ (fsmOf trig (2 * K + 1) (repNode e lo K true)).linksOf u := by
  rw [linksOf_fsmOf, if_pos (by omega), repNode_odd e lo K true u h3 ho]
  exact List.mem_singleton.2 rfl

theorem rep_link_next (trig e : SigBit) (lo K u : Nat) (h2 : 2 ≤ u) (he : u % 2 = 0)
    (hu : u < 2 * K) (hl : 2 * lo ≤ u) :
    (u + 2, SigBit.S1) ∈ (fsmOf trig (2 * K + 1) (repNode e lo K true)).linksOf u := by
  rw [linksOf_fsmOf, if_pos (by omega), repNode_inner e lo K true u h2 he hu, if_pos hl]
  exact List.mem_singleton.2 rfl

theorem rep_link_accept (trig e : SigBit) (lo K : Nat) (hK : 1 ≤ K) :
    (1, SigBit.S1) ∈ (fsmOf trig (2 * K + 1) (repNode e lo K true)).linksOf (2 * K) := by
  rw [linksOf_fsmOf, if_pos (by omega), repNode_end e lo K true (2 * K) hK rfl]
  exact List.mem_singleton.2 rfl

theorem rep_edge_cases (trig e : SigBit) (lo K : Nat) (hK : 1 ≤ K) (u v : Nat) (c : SigBit)
    (h : (v, c) ∈ (fsmOf trig (2 * K + 1) (repNode e lo K true)).edgesOf u) :
    2 ≤ u ∧ u % 2 = 0 ∧ u < 2 * K ∧ v = u + 1 ∧ c = SigBit.S1 := by
  rw [edgesOf_fsmOf] at h
  by_cases hu : u < 2 * K + 1
  swap
  · rw [if_neg hu] at h
    cases h
  rw [if_pos hu] at h
  rcases (by omega : u = 0 ∨ u = 1 ∨ (3 ≤ u ∧ u % 2 = 1) ∨ (2 ≤ u ∧ u % 2 = 0 ∧ u < 2 * K) ∨
    u = 2 * K) with h0 | h0 | h0 | h0 | h0
  · subst h0
    rw [repNode_zero] at h
    cases h
  · subst h0
    rw [repNode_one] at h
    cases h
  · rw [repNode_odd e lo K true u h0.1 h0.2] at h
    cases h
  · rw [repNode_inner e lo K true u h0.1 h0.2.1 h0.2.2] at h
    simp only [List.mem_singleton, Prod.mk.injEq] at h
    exact ⟨h0.1, h0.2.1, h0.2.2, h.1, h.2⟩
  · rw [repNode_end e lo K true u hK h0] at h
    cases h

theorem rep_edge (trig e : SigBit) (lo K u : Nat) (h2 : 2 ≤ u) (he : u % 2 = 0)
    (hu : u < 2 * K) :
    (u + 1, SigBit.S1) ∈ (fsmOf trig (2 * K + 1) (repNode e lo K true)).edgesOf u := by
  rw [edgesOf_fsmOf, if_pos (by omega), repNode_inner e lo K true u h2 he hu]
  exact List.mem_singleton.2 rfl

end SVA


namespace SVA

/-! ## The run of the automaton of a bounded repetition -/

theorem rep_active_of_stored (trig e : SigBit) (lo K : Nat) (hlo : 1 ≤ lo) (hK : lo ≤ K)
    (val : Nat → SigBit → Bool) (hS0 : ∀ t, val t SigBit.S0 = false)
    (hS1 : ∀ t, val t SigBit.S1 = true) (htrig : ∀ t, val t trig = true ↔ t = 0) (t : Nat)
    (hst : ∀ v, (fsmOf trig (2 * K + 1) (repNode e lo K true)).refStored val t v ↔
      (1 ≤ t ∧ (∀ i, i < t → val i e = true) ∧
        ∃ j, t + 1 ≤ j ∧ j ≤ K ∧ (j = t + 1 ∨ lo ≤ t) ∧ v + 1 = 2 * j)) (v : Nat) :
    (fsmOf trig (2 * K + 1) (repNode e lo K true)).refActive val t v ↔
      ((∀ i, i < t → val i e = true) ∧
        ((t = 0 ∧ v = 0) ∨
         (1 ≤ t ∧ ∃ j, t + 1 ≤ j ∧ j ≤ K ∧ (j = t + 1 ∨ lo ≤ t) ∧ v + 1 = 2 * j) ∨
         (val t e = true ∧ ∃ k, t + 1 ≤ k ∧ k ≤ K ∧ (k = t + 1 ∨ lo ≤ t + 1) ∧ v = 2 * k) ∨
         (val t e = true ∧ lo ≤ t + 1 ∧ t + 1 ≤ K ∧ v = 1))) := by
  constructor
  · intro h
    induction h with
    | base hE =>
      obtain ⟨_, hs | ⟨hw, htr⟩⟩ := hE
      · obtain ⟨ht1, hpre, j, hj⟩ := (hst _).1 hs
        exact ⟨hpre, Or.inr (Or.inl ⟨ht1, j, hj⟩)⟩
      · have ht0 : t = 0 := (htrig t).1 htr
        refine ⟨fun i hi => by omega, Or.inl ⟨ht0, hw⟩⟩
    | link hcl hmem hval ih =>
      obtain ⟨hpre, ih⟩ := ih
      refine ⟨hpre, ?_⟩
      rcases rep_link_cases trig e lo K hlo hK _ _ _ hmem with
        ⟨hu, hv, hc⟩ | ⟨hu3, huo, huK, hv, hc⟩ | ⟨hu2, hue, huK, hul, hv, hc⟩ | ⟨hu, hv, hc⟩
      · rw [hc] at hval
        rcases ih with ⟨ht0, _⟩ | ⟨ht1, j, hj1, hj2, hj3, hj4⟩ | ⟨_, k, hk1, hk2, hk3, hk4⟩ |
          ⟨_, _, _, h1⟩
        · exact Or.inr (Or.inr (Or.inl ⟨hval, 1, by omega, by omega, Or.inl (by omega),
            by omega⟩))
        · omega
        · omega
        · omega
      · rw [hc] at hval
        rcases ih with ⟨ht0, h0⟩ | ⟨ht1, j, hj1, hj2, hj3, hj4⟩ | ⟨_, k, hk1, hk2, hk3, hk4⟩ |
          ⟨_, _, _, h1⟩
        · omega
        · exact Or.inr (Or.inr (Or.inl ⟨hval, j, hj1, hj2, by omega, by omega⟩))
        · omega
        · omega
      · rcases ih with ⟨ht0, h0⟩ | ⟨ht1, j, hj1, hj2, hj3, hj4⟩ | ⟨he, k, hk1, hk2, hk3, hk4⟩ |
          ⟨_, _, _, h1⟩
        · omega
        · omega
        · exact Or.inr (Or.inr (Or.inl ⟨he, k + 1, by omega, by omega, by omega, by omega⟩))
        · omega
      · rcases ih with ⟨ht0, h0⟩ | ⟨ht1, j, hj1, hj2, hj3, hj4⟩ | ⟨he, k, hk1, hk2, hk3, hk4⟩ |
          ⟨_, _, _, h1⟩
        · omega
        · omega
        · exact Or.inr (Or.inr (Or.inr ⟨he, by omega, by omega, hv⟩))
        · omega
  · rintro ⟨hpre, h⟩
    have hdis : val t (fsmOf trig (2 * K + 1) (repNode e lo K true)).disable_sig = false :=
      hS0 t
    -- the end of copy `t+1` is active when `e` holds
    have hfirst : val t e = true → t + 1 ≤ K →
        (fsmOf trig (2 * K + 1) (repNode e lo K true)).refActive val t (2 * (t + 1)) := by
      intro he htK
      rcases Nat.eq_zero_or_pos t with ht0 | ht1
      · subst ht0
        exact SvaFsm.LinkClosure.link
          (SvaFsm.LinkClosure.base ⟨hdis, Or.inr ⟨rfl, (htrig 0).2 rfl⟩⟩)
          (rep_link_start trig e lo K (by omega)) he
      · have hs : (fsmOf trig (2 * K + 1) (repNode e lo K true)).refStored val t (2 * t + 1) :=
          (hst _).2 ⟨ht1, hpre, t + 1, le_refl _, htK, Or.inl rfl, by omega⟩
        have hl := rep_link_entry trig e lo K (2 * t + 1) (by omega) (by omega) (by omega)
        exact SvaFsm.LinkClosure.link (SvaFsm.LinkClosure.base ⟨hdis, Or.inl hs⟩) hl he
    -- and so are the ends of the later copies once `lo` copies are complete
    have hchain : val t e = true → lo ≤ t + 1 → ∀ d, t + 1 + d ≤ K →
        (fsmOf trig (2 * K + 1) (repNode e lo K true)).refActive val t (2 * (t + 1 + d)) := by
      intro he hlt d
      induction d with
      | zero => intro hd; exact hfirst he hd
      | succ d ihd =>
        intro hd
        have hl := rep_link_next trig e lo K (2 * (t + 1 + d)) (by omega) (by omega)
          (by omega) (by omega)
        exact SvaFsm.LinkClosure.link (ihd (by omega)) hl (hS1 t)
    rcases h with ⟨ht0, hv⟩ | ⟨ht1, j, hj⟩ | ⟨he, k, hk1, hk2, hk3, hk4⟩ | ⟨he, hl, htK, hv⟩
    · exact SvaFsm.LinkClosure.base ⟨hdis, Or.inr ⟨hv, (htrig t).2 ht0⟩⟩
    · exact SvaFsm.LinkClosure.base ⟨hdis, Or.inl ((hst v).2 ⟨ht1, hpre, j, hj⟩)⟩
    · rcases hk3 with hk3 | hk3
      · rw [hk4, hk3]
        exact hfirst he (by omega)
      · have := hchain he hk3 (k - (t + 1)) (by omega)
        rw [hk4]
        have hidx : 2 * (t + 1 + (k - (t + 1))) = 2 * k := by omega
        rw [hidx] at this
        exact this
    · have := hchain he hl (K - (t + 1)) (by omega)
      have hidx : 2 * (t + 1 + (K - (t + 1))) = 2 * K := by omega
      rw [hidx] at this
      rw [hv]
      exact SvaFsm.LinkClosure.link this (rep_link_accept trig e lo K (by omega)) (hS1 t)

theorem rep_stored_succ (trig e : SigBit) (lo K : Nat) (hlo : 1 ≤ lo) (hK : lo ≤ K)
    (val : Nat → SigBit → Bool) (hS1 : ∀ t, val t SigBit.S1 = true) (t : Nat)
    (hact : ∀ v, (fsmOf trig (2 * K + 1) (repNode e lo K true)).refActive val t v ↔
      ((∀ i, i < t → val i e = true) ∧
        ((t = 0 ∧ v = 0) ∨
         (1 ≤ t ∧ ∃ j, t + 1 ≤ j ∧ j ≤ K ∧ (j = t + 1 ∨ lo ≤ t) ∧ v + 1 = 2 * j) ∨
         (val t e = true ∧ ∃ k, t + 1 ≤ k ∧ k ≤ K ∧ (k = t + 1 ∨ lo ≤ t + 1) ∧ v = 2 * k) ∨
         (val t e = true ∧ lo ≤ t + 1 ∧ t + 1 ≤ K ∧ v = 1)))) (v : Nat) :
    (fsmOf trig (2 * K + 1) (repNode e lo K true)).refStored val (t + 1) v ↔
      (1 ≤ t + 1 ∧ (∀ i, i < t + 1 → val i e = true) ∧
        ∃ j, t + 1 + 1 ≤ j ∧ j ≤ K ∧ (j = t + 1 + 1 ∨ lo ≤ t + 1) ∧ v + 1 = 2 * j) := by
  rw [refStored_succ]
  constructor
  · rintro ⟨u, c, hu, hedge, hval⟩
    obtain ⟨hu2, hue, huK, hv, hc⟩ := rep_edge_cases trig e lo K (by omega) u v c hedge
    obtain ⟨hpre, hu⟩ := (hact u).1 hu
    rcases hu with ⟨ht0, h0⟩ | ⟨ht1, j, hj1, hj2, hj3, hj4⟩ | ⟨he, k, hk1, hk2, hk3, hk4⟩ |
      ⟨_, _, _, h1⟩
    · omega
    · omega
    · refine ⟨by omega, ?_, k + 1, by omega, by omega, by omega, by omega⟩
      intro i hi
      rcases Nat.lt_succ_iff_lt_or_eq.1 hi with h | h
      · exact hpre i h
      · rw [h]; exact he
    · omega
  · rintro ⟨_, hpre, j, hj1, hj2, hj3, hj4⟩
    refine ⟨2 * (j - 1), SigBit.S1, ?_, ?_, hS1 t⟩
    · refine (hact _).2 ⟨fun i hi => hpre i (by omega), ?_⟩
      exact Or.inr (Or.inr (Or.inl ⟨hpre t (by omega), j - 1, by omega, by omega, by omega,
        rfl⟩))
    · have hv : v = 2 * (j - 1) + 1 := by omega
      rw [hv]
      exact rep_edge trig e lo K (2 * (j - 1)) (by omega) (by omega) (by omega)

theorem rep_run (trig e : SigBit) (lo K : Nat) (hlo : 1 ≤ lo) (hK : lo ≤ K)
    (val : Nat → SigBit → Bool) (hS0 : ∀ t, val t SigBit.S0 = false)
    (hS1 : ∀ t, val t SigBit.S1 = true) (htrig : ∀ t, val t trig = true ↔ t = 0) (t : Nat) :
    ∀ v, (fsmOf trig (2 * K + 1) (repNode e lo K true)).refStored val t v ↔
      (1 ≤ t ∧ (∀ i, i < t → val i e = true) ∧
        ∃ j, t + 1 ≤ j ∧ j ≤ K ∧ (j = t + 1 ∨ lo ≤ t) ∧ v + 1 = 2 * j) := by
  induction t with
  | zero =>
    intro v
    constructor
    · intro h
      cases h
    · rintro ⟨h, _⟩
      omega
  | succ t ih =>
    intro v
    exact rep_stored_succ trig e lo K hlo hK val hS1 t
      (rep_active_of_stored trig e lo K hlo hK val hS0 hS1 htrig t ih) v

theorem rep_accept (trig e : SigBit) (lo K : Nat) (hlo : 1 ≤ lo) (hK : lo ≤ K)
    (val : Nat → SigBit → Bool) (hS0 : ∀ t, val t SigBit.S0 = false)
    (hS1 : ∀ t, val t SigBit.S1 = true) (htrig : ∀ t, val t trig = true ↔ t = 0) (t : Nat) :
    (fsmOf trig (2 * K + 1) (repNode e lo K true)).refActive val t 1 ↔
      ((∀ i, i ≤ t → val i e = true) ∧ lo ≤ t + 1 ∧ t + 1 ≤ K) := by
  rw [rep_active_of_stored trig e lo K hlo hK val hS0 hS1 htrig t
    (rep_run trig e lo K hlo hK val hS0 hS1 htrig t) 1]
  constructor
  · rintro ⟨hpre, h⟩
    rcases h with ⟨ht0, h0⟩ | ⟨ht1, j, hj1, hj2, hj3, hj4⟩ | ⟨he, k, hk1, hk2, hk3, hk4⟩ |
      ⟨he, h1, h2, _⟩
    · omega
    · omega
    · omega
    · refine ⟨?_, h1, h2⟩
      intro i hi
      rcases Nat.lt_or_eq_of_le hi with h | h
      · exact hpre i h
      · rw [h]; exact he
  · rintro ⟨hpre, h1, h2⟩
    exact ⟨fun i hi => hpre i (by omega), Or.inr (Or.inr (Or.inr ⟨hpre t (le_refl _), h1, h2,
      rfl⟩))⟩

theorem rep_wellFormed (trig e : SigBit) (lo K : Nat) (hlo : 1 ≤ lo) (hK : lo ≤ K) :
    (fsmOf trig (2 * K + 1) (repNode e lo K true)).WellFormed := by
  have hlen : (fsmOf trig (2 * K + 1) (repNode e lo K true)).nodes.length = 2 * K + 1 := by
    simp [fsmOf]
  refine ⟨?_, ?_, ?_, ?_⟩
  · rw [hlen]; show 0 < _; omega
  · rw [hlen]; show 1 < _; omega
  · intro u p hp
    rw [hlen]
    rcases rep_link_cases trig e lo K hlo hK u p.1 p.2 hp with
      ⟨hu, hv, hc⟩ | ⟨hu3, huo, huK, hv, hc⟩ | ⟨hu2, hue, huK, hul, hv, hc⟩ | ⟨hu, hv, hc⟩ <;>
      omega
  · intro u p hp
    rw [hlen]
    obtain ⟨hu2, hue, huK, hv, hc⟩ := rep_edge_cases trig e lo K (by omega) u p.1 p.2 hp
    omega

theorem rep_acyclic (trig e : SigBit) (lo K : Nat) (hlo : 1 ≤ lo) (hK : lo ≤ K) :
    (fsmOf trig (2 * K + 1) (repNode e lo K true)).Acyclic := by
  apply acyclic_of_rank _ (fun i => if i = 1 then 2 * K + 5 else i)
  rintro u v ⟨c, hp⟩
  rcases rep_link_cases trig e lo K hlo hK u v c hp with
    ⟨hu, hv, hc⟩ | ⟨hu3, huo, huK, hv, hc⟩ | ⟨hu2, hue, huK, hul, hv, hc⟩ | ⟨hu, hv, hc⟩
  · subst hu hv; simp
  · rw [if_neg (by omega), if_neg (by omega)]; omega
  · rw [if_neg (by omega), if_neg (by omega)]; omega
  · rw [if_neg (by omega), if_pos hv]; omega

end SVA


namespace SVA

/-! ## Links and edges of the automaton of an unbounded repetition -/

theorem infNode_zero (e : SigBit) (lo : Nat) :
    infNode e lo 0 = { edges := [], links := [(2, e)] } := rfl

theorem infNode_one (e : SigBit) (lo : Nat) :
    infNode e lo 1 = { edges := [], links := [] } := rfl

theorem inf_link_cases (trig e : SigBit) (lo : Nat) (hlo : 1 ≤ lo) (u v : Nat) (c : SigBit)
    (h : (v, c) ∈ (fsmOf trig (2 * lo + 1 + 1 + 1) (infNode e lo)).linksOf u) :
    (u = 0 ∧ v = 2 ∧ c = e) ∨
    (3 ≤ u ∧ u % 2 = 1 ∧ u ≤ 2 * lo + 1 ∧ v = u + 1 ∧ c = e) ∨
    (u = 2 * lo ∧ v = 1 ∧ c = SigBit.S1) ∨
    (u = 2 * lo + 2 ∧ v = 2 * lo ∧ c = SigBit.S1) := by
  rw [linksOf_fsmOf] at h
  by_cases hu : u < 2 * lo + 1 + 1 + 1
  swap
  · rw [if_neg hu] at h
    cases h
  rw [if_pos hu] at h
  rcases (by omega : u = 0 ∨ u = 1 ∨ (3 ≤ u ∧ u % 2 = 1) ∨ (2 ≤ u ∧ u % 2 = 0 ∧ u < 2 * lo) ∨
    u = 2 * lo ∨ u = 2 * lo + 2) with h0 | h0 | h0 | h0 | h0 | h0
  · subst h0
    rw [infNode_zero] at h
    simp only [List.mem_singleton, Prod.mk.injEq] at h
    exact Or.inl ⟨rfl, h.1, h.2⟩
  · subst h0
    rw [infNode_one] at h
    cases h
  · rw [infNode_odd e lo u h0.1 h0.2] at h
    simp only [List.mem_singleton, Prod.mk.injEq] at h
    exact Or.inr (Or.inl ⟨h0.1, h0.2, by omega, h.1, h.2⟩)
  · rw [infNode_inner e lo u h0.1 h0.2.1 h0.2.2] at h
    cases h
  · rw [infNode_end e lo u hlo h0] at h
    simp only [List.mem_singleton, Prod.mk.injEq] at h
    exact Or.inr (Or.inr (Or.inl ⟨h0, h.1, h.2⟩))
  · rw [infNode_back e lo u h0] at h
    simp only [List.mem_singleton, Prod.mk.injEq] at h
    exact Or.inr (Or.inr (Or.inr ⟨h0, h.1, h.2⟩))

theorem inf_link_start (trig e : SigBit) (lo : Nat) :
    (2, e) ∈ (fsmOf trig (2 * lo + 1 + 1 + 1) (infNode e lo)).linksOf 0 := by
  rw [linksOf_fsmOf, if_pos (by omega), infNode_zero]
  exact List.mem_singleton.2 rfl

theorem inf_link_entry (trig e : SigBit) (lo u : Nat) (h3 : 3 ≤ u) (ho : u % 2 = 1)
    (hu : u ≤ 2 * lo + 1) :
    (u + 1, e) ∈ (fsmOf trig (2 * lo + 1 + 1 + 1) (infNode e lo)).linksOf u := by
  rw [linksOf_fsmOf, if_pos (by omega), infNode_odd e lo u h3 ho]
  exact List.mem_singleton.2 rfl

theorem inf_link_accept (trig e : SigBit) (lo : Nat) (hlo : 1 ≤ lo) :
    (1, SigBit.S1) ∈ (fsmOf trig (2 * lo + 1 + 1 + 1) (infNode e lo)).linksOf (2 * lo) := by
  rw [linksOf_fsmOf, if_pos (by omega), infNode_end e lo (2 * lo) hlo rfl]
  exact List.mem_singleton.2 rfl

theorem inf_link_back (trig e : SigBit) (lo : Nat) :
    (2 * lo, SigBit.S1) ∈
      (fsmOf trig (2 * lo + 1 + 1 + 1) (infNode e lo)).linksOf (2 * lo + 2) := by
  rw [linksOf_fsmOf, if_pos (by omega), infNode_back e lo (2 * lo + 2) rfl]
  exact List.mem_singleton.2 rfl

theorem inf_edge_cases (trig e : SigBit) (lo : Nat) (hlo : 1 ≤ lo) (u v : Nat) (c : SigBit)
    (h : (v, c) ∈ (fsmOf trig (2 * lo + 1 + 1 + 1) (infNode e lo)).edgesOf u) :
    2 ≤ u ∧ u % 2 = 0 ∧ u ≤ 2 * lo ∧ v = u + 1 ∧ c = SigBit.S1 := by
  rw [edgesOf_fsmOf] at h
  by_cases hu : u < 2 * lo + 1 + 1 + 1
  swap
  · rw [if_neg hu] at h
    cases h
  rw [if_pos hu] at h
  rcases (by omega : u = 0 ∨ u = 1 ∨ (3 ≤ u ∧ u % 2 = 1) ∨ (2 ≤ u ∧ u % 2 = 0 ∧ u < 2 * lo) ∨
    u = 2 * lo ∨ u = 2 * lo + 2) with h0 | h0 | h0 | h0 | h0 | h0
  · subst h0
    rw [infNode_zero] at h
    cases h
  · subst h0
    rw [infNode_one] at h
    cases h
  · rw [infNode_odd e lo u h0.1 h0.2] at h
    cases h
  · rw [infNode_inner e lo u h0.1 h0.2.1 h0.2.2] at h
    simp only [List.mem_singleton, Prod.mk.injEq] at h
    exact ⟨h0.1, h0.2.1, by omega, h.1, h.2⟩
  · rw [infNode_end e lo u hlo h0] at h
    simp only [List.mem_singleton, Prod.mk.injEq] at h
    exact ⟨by omega, by omega, by omega, h.1, h.2⟩
  · rw [infNode_back e lo u h0] at h
    cases h

theorem inf_edge (trig e : SigBit) (lo u : Nat) (hlo : 1 ≤ lo) (h2 : 2 ≤ u) (he : u % 2 = 0)
    (hu : u ≤ 2 * lo) :
    (u + 1, SigBit.S1) ∈ (fsmOf trig (2 * lo + 1 + 1 + 1) (infNode e lo)).edgesOf u := by
  rw [edgesOf_fsmOf, if_pos (by omega)]
  rcases Nat.lt_or_eq_of_le hu with h | h
  · rw [infNode_inner e lo u h2 he h]
    exact List.mem_singleton.2 rfl
  · rw [infNode_end e lo u hlo h]
    exact List.mem_singleton.2 rfl

theorem inf_wellFormed (trig e : SigBit) (lo : Nat) (hlo : 1 ≤ lo) :
    (fsmOf trig (2 * lo + 1 + 1 + 1) (infNode e lo)).WellFormed := by
  have hlen : (fsmOf trig (2 * lo + 1 + 1 + 1) (infNode e lo)).nodes.length =
      2 * lo + 1 + 1 + 1 := by
    simp [fsmOf]
  refine ⟨?_, ?_, ?_, ?_⟩
  · rw [hlen]; show 0 < _; omega
  · rw [hlen]; show 1 < _; omega
  · intro u p hp
    rw [hlen]
    rcases inf_link_cases trig e lo hlo u p.1 p.2 hp with
      ⟨hu, hv, hc⟩ | ⟨hu3, huo, huK, hv, hc⟩ | ⟨hu, hv, hc⟩ | ⟨hu, hv, hc⟩ <;> omega
  · intro u p hp
    rw [hlen]
    obtain ⟨hu2, hue, huK, hv, hc⟩ := inf_edge_cases trig e lo hlo u p.1 p.2 hp
    omega

theorem inf_acyclic (trig e : SigBit) (lo : Nat) (hlo : 1 ≤ lo) :
    (fsmOf trig (2 * lo + 1 + 1 + 1) (infNode e lo)).Acyclic := by
  apply acyclic_of_rank _ (fun i => if i = 1 then 2 * lo + 10 else if i = 2 * lo then
    2 * lo + 5 else if i = 2 * lo + 2 then 2 * lo + 4 else i)
  rintro u v ⟨c, hp⟩
  rcases inf_link_cases trig e lo hlo u v c hp with
    ⟨hu, hv, hc⟩ | ⟨hu3, huo, huK, hv, hc⟩ | ⟨hu, hv, hc⟩ | ⟨hu, hv, hc⟩ <;>
    split_ifs <;> omega

end SVA


namespace SVA

/-! ## The run of the automaton of an unbounded repetition -/

theorem inf_active_of_stored (trig e : SigBit) (lo : Nat) (hlo : 1 ≤ lo)
    (val : Nat → SigBit → Bool) (hS0 : ∀ t, val t SigBit.S0 = false)
    (hS1 : ∀ t, val t SigBit.S1 = true) (htrig : ∀ t, val t trig = true ↔ t = 0) (t : Nat)
    (hst : ∀ v, (fsmOf trig (2 * lo + 1 + 1 + 1) (infNode e lo)).refStored val t v ↔
      (1 ≤ t ∧ (∀ i, i < t → val i e = true) ∧ v + 1 = 2 * min (t + 1) (lo + 1))) (v : Nat) :
    (fsmOf trig (2 * lo + 1 + 1 + 1) (infNode e lo)).refActive val t v ↔
      ((∀ i, i < t → val i e = true) ∧
        ((t = 0 ∧ v = 0) ∨
         (1 ≤ t ∧ v + 1 = 2 * min (t + 1) (lo + 1)) ∨
         (val t e = true ∧ v = 2 * min (t + 1) (lo + 1)) ∨
         (val t e = true ∧ lo ≤ t ∧ v = 2 * lo) ∨
         (val t e = true ∧ lo ≤ t + 1 ∧ v = 1))) := by
  constructor
  · intro h
    induction h with
    | base hE =>
      obtain ⟨_, hs | ⟨hw, htr⟩⟩ := hE
      · obtain ⟨ht1, hpre, hj⟩ := (hst _).1 hs
        exact ⟨hpre, Or.inr (Or.inl ⟨ht1, hj⟩)⟩
      · have ht0 : t = 0 := (htrig t).1 htr
        refine ⟨fun i hi => by omega, Or.inl ⟨ht0, hw⟩⟩
    | link hcl hmem hval ih =>
      obtain ⟨hpre, ih⟩ := ih
      refine ⟨hpre, ?_⟩
      rcases inf_link_cases trig e lo hlo _ _ _ hmem with
        ⟨hu, hv, hc⟩ | ⟨hu3, huo, huK, hv, hc⟩ | ⟨hu, hv, hc⟩ | ⟨hu, hv, hc⟩
      · rw [hc] at hval
        rcases ih with ⟨ht0, _⟩ | ⟨ht1, hj⟩ | ⟨_, hk⟩ | ⟨_, _, hk⟩ | ⟨_, _, h1⟩
        · exact Or.inr (Or.inr (Or.inl ⟨hval, by omega⟩))
        · omega
        · omega
        · omega
        · omega
      · rw [hc] at hval
        rcases ih with ⟨ht0, h0⟩ | ⟨ht1, hj⟩ | ⟨_, hk⟩ | ⟨_, _, hk⟩ | ⟨_, _, h1⟩
        · omega
        · exact Or.inr (Or.inr (Or.inl ⟨hval, by omega⟩))
        · omega
        · omega
        · omega
      · rcases ih with ⟨ht0, h0⟩ | ⟨ht1, hj⟩ | ⟨he, hk⟩ | ⟨he, _, hk⟩ | ⟨_, _, h1⟩
        · omega
        · omega
        · exact Or.inr (Or.inr (Or.inr (Or.inr ⟨he, by omega, hv⟩)))
        · exact Or.inr (Or.inr (Or.inr (Or.inr ⟨he, by omega, hv⟩)))
        · omega
      · rcases ih with ⟨ht0, h0⟩ | ⟨ht1, hj⟩ | ⟨he, hk⟩ | ⟨he, _, hk⟩ | ⟨_, _, h1⟩
        · omega
        · omega
        · exact Or.inr (Or.inr (Or.inr (Or.inl ⟨he, by omega, hv⟩)))
        · omega
        · omega
  · rintro ⟨hpre, h⟩
    have hdis : val t (fsmOf trig (2 * lo + 1 + 1 + 1) (infNode e lo)).disable_sig = false :=
      hS0 t
    have hfirst : val t e = true →
        (fsmOf trig (2 * lo + 1 + 1 + 1) (infNode e lo)).refActive val t
          (2 * min (t + 1) (lo + 1)) := by
      intro he
      rcases Nat.eq_zero_or_pos t with ht0 | ht1
      · subst ht0
        have hidx : 2 * min (0 + 1) (lo + 1) = 2 := by omega
        rw [hidx]
        exact SvaFsm.LinkClosure.link
          (SvaFsm.LinkClosure.base ⟨hdis, Or.inr ⟨rfl, (htrig 0).2 rfl⟩⟩)
          (inf_link_start trig e lo) he
      · have hs : (fsmOf trig (2 * lo + 1 + 1 + 1) (infNode e lo)).refStored val t
            (2 * min (t + 1) (lo + 1) - 1) :=
          (hst _).2 ⟨ht1, hpre, by omega⟩
        have hl := inf_link_entry trig e lo (2 * min (t + 1) (lo + 1) - 1) (by omega)
          (by omega) (by omega)
        have hidx : 2 * min (t + 1) (lo + 1) - 1 + 1 = 2 * min (t + 1) (lo + 1) := by omega
        rw [hidx] at hl
        exact SvaFsm.LinkClosure.link (SvaFsm.LinkClosure.base ⟨hdis, Or.inl hs⟩) hl he
    have hend : val t e = true → lo ≤ t + 1 →
        (fsmOf trig (2 * lo + 1 + 1 + 1) (infNode e lo)).refActive val t (2 * lo) := by
      intro he hl
      rcases Nat.lt_or_ge t lo with h | h
      · have := hfirst he
        have hidx : 2 * min (t + 1) (lo + 1) = 2 * lo := by omega
        rw [hidx] at this
        exact this
      · have := hfirst he
        have hidx : 2 * min (t + 1) (lo + 1) = 2 * lo + 2 := by omega
        rw [hidx] at this
        exact SvaFsm.LinkClosure.link this (inf_link_back trig e lo) (hS1 t)
    rcases h with ⟨ht0, hv⟩ | ⟨ht1, hj⟩ | ⟨he, hk⟩ | ⟨he, hl, hk⟩ | ⟨he, hl, hv⟩
    · exact SvaFsm.LinkClosure.base ⟨hdis, Or.inr ⟨hv, (htrig t).2 ht0⟩⟩
    · exact SvaFsm.LinkClosure.base ⟨hdis, Or.inl ((hst v).2 ⟨ht1, hpre, hj⟩)⟩
    · rw [hk]
      exact hfirst he
    · rw [hk]
      exact hend he (by omega)
    · rw [hv]
      exact SvaFsm.LinkClosure.link (hend he hl) (inf_link_accept trig e lo hlo) (hS1 t)

theorem inf_stored_succ (trig e : SigBit) (lo : Nat) (hlo : 1 ≤ lo)
    (val : Nat → SigBit → Bool) (hS1 : ∀ t, val t SigBit.S1 = true) (t : Nat)
    (hact : ∀ v, (fsmOf trig (2 * lo + 1 + 1 + 1) (infNode e lo)).refActive val t v ↔
      ((∀ i, i < t → val i e = true) ∧
        ((t = 0 ∧ v = 0) ∨
         (1 ≤ t ∧ v + 1 = 2 * min (t + 1) (lo + 1)) ∨
         (val t e = true ∧ v = 2 * min (t + 1) (lo + 1)) ∨
         (val t e = true ∧ lo ≤ t ∧ v = 2 * lo) ∨
         (val t e = true ∧ lo ≤ t + 1 ∧ v = 1)))) (v : Nat) :
    (fsmOf trig (2 * lo + 1 + 1 + 1) (infNode e lo)).refStored val (t + 1) v ↔
      (1 ≤ t + 1 ∧ (∀ i, i < t + 1 → val i e = true) ∧
        v + 1 = 2 * min (t + 1 + 1) (lo + 1)) := by
  rw [refStored_succ]
  constructor
  · rintro ⟨u, c, hu, hedge, hval⟩
    obtain ⟨hu2, hue, huK, hv, hc⟩ := inf_edge_cases trig e lo hlo u v c hedge
    obtain ⟨hpre, hu⟩ := (hact u).1 hu
    have hpre' : val t e = true → ∀ i, i < t + 1 → val i e = true := by
      intro he i hi
      rcases Nat.lt_succ_iff_lt_or_eq.1 hi with h | h
      · exact hpre i h
      · rw [h]; exact he
    rcases hu with ⟨ht0, h0⟩ | ⟨ht1, hj⟩ | ⟨he, hk⟩ | ⟨he, hl, hk⟩ | ⟨_, _, h1⟩
    · omega
    · omega
    · exact ⟨by omega, hpre' he, by omega⟩
    · exact ⟨by omega, hpre' he, by omega⟩
    · omega
  · rintro ⟨_, hpre, hj⟩
    refine ⟨v - 1, SigBit.S1, ?_, ?_, hS1 t⟩
    · refine (hact _).2 ⟨fun i hi => hpre i (by omega), ?_⟩
      rcases Nat.lt_or_ge t lo with h | h
      · exact Or.inr (Or.inr (Or.inl ⟨hpre t (by omega), by omega⟩))
      · exact Or.inr (Or.inr (Or.inr (Or.inl ⟨hpre t (by omega), h, by omega⟩)))
    · have hv : v = v - 1 + 1 := by omega
      rw [hv]
      exact inf_edge trig e lo (v - 1) hlo (by omega) (by omega) (by omega)

theorem inf_run (trig e : SigBit) (lo : Nat) (hlo : 1 ≤ lo)
    (val : Nat → SigBit → Bool) (hS0 : ∀ t, val t SigBit.S0 = false)
    (hS1 : ∀ t, val t SigBit.S1 = true) (htrig : ∀ t, val t trig = true ↔ t = 0) (t : Nat) :
    ∀ v, (fsmOf trig (2 * lo + 1 + 1 + 1) (infNode e lo)).refStored val t v ↔
      (1 ≤ t ∧ (∀ i, i < t → val i e = true) ∧ v + 1 = 2 * min (t + 1) (lo + 1)) := by
  induction t with
  | zero =>
    intro v
    constructor
    · intro h
      cases h
    · rintro ⟨h, _⟩
      omega
  | succ t ih =>
    intro v
    exact inf_stored_succ trig e lo hlo val hS1 t
      (inf_active_of_stored trig e lo hlo val hS0 hS1 htrig t ih) v

theorem inf_accept (trig e : SigBit) (lo : Nat) (hlo : 1 ≤ lo)
    (val : Nat → SigBit → Bool) (hS0 : ∀ t, val t SigBit.S0 = false)
    (hS1 : ∀ t, val t SigBit.S1 = true) (htrig : ∀ t, val t trig = true ↔ t = 0) (t : Nat) :
    (fsmOf trig (2 * lo + 1 + 1 + 1) (infNode e lo)).refActive val t 1 ↔
      ((∀ i, i ≤ t → val i e = true) ∧ lo ≤ t + 1) := by
  rw [inf_active_of_stored trig e lo hlo val hS0 hS1 htrig t
    (inf_run trig e lo hlo val hS0 hS1 htrig t) 1]
  constructor
  · rintro ⟨hpre, h⟩
    rcases h with ⟨ht0, h0⟩ | ⟨ht1, hj⟩ | ⟨he, hk⟩ | ⟨he, hl, hk⟩ | ⟨he, h1, _⟩
    · omega
    · omega
    · omega
    · omega
    · refine ⟨?_, h1⟩
      intro i hi
      rcases Nat.lt_or_eq_of_le hi with h | h
      · exact hpre i h
      · rw [h]; exact he
  · rintro ⟨hpre, h1⟩
    exact ⟨fun i hi => hpre i (by omega),
      Or.inr (Or.inr (Or.inr (Or.inr ⟨hpre t (le_refl _), h1, rfl⟩)))⟩

end SVA


namespace SVA

/-! ## The dictionary of deterministic nodes -/

theorem mem_dict_keys_dict_set (d : List (List Nat × SvaDFsmNode)) (K K' : List Nat)
    (n : SvaDFsmNode) : K' ∈ dict_keys (dict_set d K n) ↔ K' = K ∨ K' ∈ dict_keys d := by
  induction d with
  | nil => simp [dict_set, dict_keys]
  | cons p d ih =>
    unfold dict_set
    by_cases h : p.1 = K
    · rw [if_pos h]
      simp only [dict_keys, List.map_cons, List.mem_cons, h]
      tauto
    · rw [if_neg h]
      simp only [dict_keys, List.map_cons, List.mem_cons] at ih ⊢
      rw [ih]
      tauto

theorem dict_at_eq_none_iff (d : List (List Nat × SvaDFsmNode)) (K : List Nat) :
    dict_at d K = none ↔ K ∉ dict_keys d := by
  induction d with
  | nil => simp [dict_at, dict_keys]
  | cons p d ih =>
    simp only [dict_at, dict_keys, List.map_cons, List.mem_cons, List.find?_cons] at ih ⊢
    by_cases h : p.1 = K
    · simp [h]
    · have h' : ¬ K = p.1 := fun e => h e.symm
      simp only [h, decide_False, h', false_or]
      exact ih

theorem dict_count_ne_zero_iff (d : List (List Nat × SvaDFsmNode)) (K : List Nat) :
    dict_count d K ≠ 0 ↔ K ∈ dict_keys d := by
  rw [Ne, dict_count_eq_zero_iff, dict_at_eq_none_iff, not_not]

theorem dict_at_some_mem_keys (d : List (List Nat × SvaDFsmNode)) (K : List Nat)
    (dn : SvaDFsmNode) (h : dict_at d K = some dn) : K ∈ dict_keys d := by
  by_contra hc
  rw [(dict_at_eq_none_iff d K).2 hc] at h
  cases h

theorem dict_extends_refl (unodes : List SvaUFsmNode) (fm : Bool)
    (d : List (List Nat × SvaDFsmNode)) : dict_extends unodes fm d d := by
  refine ⟨fun K h => h, fun K _ => rfl, ?_⟩
  intro K hK dn hdn
  exact absurd (dict_at_some_mem_keys d K dn hdn) hK

theorem dict_extends_trans (unodes : List SvaUFsmNode) (fm : Bool)
    (d1 d2 d3 : List (List Nat × SvaDFsmNode)) (h12 : dict_extends unodes fm d1 d2)
    (h23 : dict_extends unodes fm d2 d3) : dict_extends unodes fm d1 d3 := by
  obtain ⟨a1, b1, c1⟩ := h12
  obtain ⟨a2, b2, c2⟩ := h23
  refine ⟨fun K h => a2 K (a1 K h), fun K h => (b2 K (a1 K h)).trans (b1 K h), ?_⟩
  intro K hK dn hdn
  by_cases h2 : K ∈ dict_keys d2
  · rw [b2 K h2] at hdn
    obtain ⟨hp, hc⟩ := c1 K hK dn hdn
    exact ⟨hp, fun e he => a2 _ (hc e he)⟩
  · exact c2 K h2 dn hdn

/-! ## The subset construction builds a closed dictionary -/

theorem dnode_loop_dict (unodes : List SvaUFsmNode) (state : List Nat) (firstmatch : Bool)
    (ctrl : List SigBit)
    (construct : List (List Nat × SvaDFsmNode) → List Nat →
      Except Failure (List (List Nat × SvaDFsmNode)))
    (hC : ∀ d s d', construct d s = Except.ok d' →
      s ∈ dict_keys d' ∧ dict_extends unodes firstmatch d d')
    (acc0 : SvaDFsmNode × List (List Nat × SvaDFsmNode)) :
    ∀ (k : Nat) (res : SvaDFsmNode × List (List Nat × SvaDFsmNode)),
      (List.range k).foldlM (dnode_step unodes state firstmatch ctrl construct) acc0
        = Except.ok res →
      res.1.ffoutwire = acc0.1.ffoutwire ∧ res.1.statesig = acc0.1.statesig ∧
      res.1.nextstate = acc0.1.nextstate ∧
      dict_extends unodes firstmatch acc0.2 res.2 ∧
      ∀ i, i < k → val_next unodes state firstmatch ctrl i ≠ [] →
        usortint (val_next unodes state firstmatch ctrl i) ∈ dict_keys res.2 := by
  intro k
  induction k with
  | zero =>
    intro res h
    have : res = acc0 := by
      have h' : Except.ok acc0 = Except.ok res := h
      exact (Except.ok.inj h').symm
    subst this
    exact ⟨rfl, rfl, rfl, dict_extends_refl _ _ _, fun i hi => absurd hi (Nat.not_lt_zero i)⟩
  | succ k ih =>
    intro res h
    rw [List.range_succ, foldlM_ok_append] at h
    cases hk : (List.range k).foldlM (dnode_step unodes state firstmatch ctrl construct) acc0 with
    | error e => rw [hk] at h; cases h
    | ok mid =>
      rw [hk] at h
      simp only [foldlM_ok_cons, foldlM_ok_nil] at h
      obtain ⟨h1, h2, h3, h4, h5⟩ := ih mid hk
      rw [dnode_step_eq] at h
      by_cases hnext : val_next unodes state firstmatch ctrl k = []
      · rw [if_pos hnext] at h
        have hres : res = _ := (Except.ok.inj h).symm
        subst hres
        refine ⟨h1, h2, h3, h4, ?_⟩
        intro i hi hne
        rcases Nat.lt_succ_iff_lt_or_eq.1 hi with hlt | heq
        · exact h5 i hlt hne
        · rw [heq] at hne
          exact absurd hnext hne
      · rw [if_neg hnext] at h
        cases hc : construct mid.2 (usortint (val_next unodes state firstmatch ctrl k)) with
        | error e => rw [hc] at h; cases h
        | ok d =>
          rw [hc] at h
          have hres : res = _ := (Except.ok.inj h).symm
          subst hres
          obtain ⟨hin, hext⟩ := hC _ _ _ hc
          refine ⟨h1, h2, h3, dict_extends_trans _ _ _ _ _ h4 hext, ?_⟩
          intro i hi hne
          rcases Nat.lt_succ_iff_lt_or_eq.1 hi with hlt | heq
          · exact hext.1 _ (h5 i hlt hne)
          · rw [heq]
            exact hin

theorem dnode_ext (a b : SvaDFsmNode) (h1 : a.ctrl = b.ctrl) (h2 : a.edges = b.edges)
    (h3 : a.accept = b.accept) (h4 : a.reject = b.reject) (h5 : a.ffoutwire = b.ffoutwire)
    (h6 : a.statesig = b.statesig) (h7 : a.nextstate = b.nextstate) : a = b := by
  cases a
  cases b
  simp only at h1 h2 h3 h4 h5 h6 h7
  subst h1 h2 h3 h4 h5 h6 h7
  rfl

theorem create_dnode_inv (unodes : List SvaUFsmNode) (firstmatch : Bool) :
    ∀ (fuel : Nat) (d : List (List Nat × SvaDFsmNode)) (S : List Nat)
      (d' : List (List Nat × SvaDFsmNode)),
      create_dnode unodes fuel d S firstmatch = Except.ok d' →
      S ∈ dict_keys d' ∧ dict_extends unodes firstmatch d d' := by
  intro fuel
  induction fuel with
  | zero =>
    intro d S d' h
    rw [create_dnode_zero] at h
    cases h
  | succ fuel ih =>
    intro d S d' hrun
    by_cases hin : S ∈ dict_keys d
    · rw [create_dnode_succ, if_pos ((dict_count_ne_zero_iff d S).2 hin)] at hrun
      have hd : d = d' := Except.ok.inj hrun
      subst hd
      exact ⟨hin, dict_extends_refl _ _ _⟩
    · have hcnt : ¬ dict_count d S ≠ 0 := fun h => hin ((dict_count_ne_zero_iff d S).1 h)
      rw [create_dnode_succ, if_neg hcnt] at hrun
      cases hraw : dnode_ctrl_raw unodes S with
      | error e => rw [hraw] at hrun; cases hrun
      | ok raw =>
        rw [hraw] at hrun
        simp only at hrun
        split_ifs at hrun with hlen
        cases hloop : (List.range (1 <<< (sort_and_unify raw).length)).foldlM
            (dnode_step unodes S firstmatch (sort_and_unify raw)
              (fun d s => create_dnode unodes fuel d s firstmatch))
            ({ ctrl := sort_and_unify raw }, dict_set d S default) with
        | error e => rw [hloop] at hrun; cases hrun
        | ok res =>
          rw [hloop] at hrun
          simp only at hrun
          have hd : dict_set res.2 S res.1 = d' := Except.ok.inj hrun
          obtain ⟨h1, h2, h3, h4⟩ := dnode_loop_spec _ _ _ _ _ _ _ _ hloop
          obtain ⟨g1, g2, g3, hext, htgt⟩ := dnode_loop_dict unodes S firstmatch
            (sort_and_unify raw) (fun d s => create_dnode unodes fuel d s firstmatch)
            (fun d s d' h => ih d s d' h) _ _ _ hloop
          have hpow : 1 <<< (sort_and_unify raw).length = 2 ^ (sort_and_unify raw).length := by
            rw [Nat.shiftLeft_eq, Nat.one_mul]
          rw [hpow] at h2 h3 h4 htgt
          have hres : res.1 = dnode_of_ctrl unodes firstmatch S (sort_and_unify raw) := by
            apply dnode_ext
            · exact h1
            · rw [h4]; rfl
            · rw [h2]; rfl
            · rw [h3]; rfl
            · exact g1
            · exact g2
            · exact g3
          have hS1 : S ∈ dict_keys (dict_set d S default) :=
            (mem_dict_keys_dict_set d S S default).2 (Or.inl rfl)
          subst hd
          refine ⟨(mem_dict_keys_dict_set _ _ _ _).2 (Or.inl rfl), ?_, ?_, ?_⟩
          · intro K hK
            exact (mem_dict_keys_dict_set _ _ _ _).2 (Or.inr (hext.1 K
              ((mem_dict_keys_dict_set d S K default).2 (Or.inr hK))))
          · intro K hK
            have hne : S ≠ K := fun e => hin (e ▸ hK)
            rw [dict_at_dict_set_ne _ _ _ _ hne,
              hext.2.1 K ((mem_dict_keys_dict_set d S K default).2 (Or.inr hK)),
              dict_at_dict_set_ne _ _ _ _ hne]
          · intro K hK dn hdn
            by_cases hKS : S = K
            · subst hKS
              rw [dict_at_dict_set_eq] at hdn
              have hdn' : res.1 = dn := Option.some.inj hdn
              subst hdn'
              refine ⟨⟨raw, hraw, by omega, hres⟩, ?_⟩
              intro e he
              rw [h4] at he
              simp only [List.nil_append, List.mem_map, List.mem_filter, List.mem_range,
                Bool.not_eq_true', decide_eq_false_iff_not] at he
              obtain ⟨i, ⟨hi, hne⟩, rfl⟩ := he
              exact (mem_dict_keys_dict_set _ _ _ _).2 (Or.inr (htgt i hi hne))
            · rw [dict_at_dict_set_ne _ _ _ _ hKS] at hdn
              have hK1 : K ∉ dict_keys (dict_set d S default) := by
                intro h
                rcases (mem_dict_keys_dict_set d S K default).1 h with h | h
                · exact hKS h.symm
                · exact hK h
              obtain ⟨hp, hc⟩ := hext.2.2 K hK1 dn hdn
              exact ⟨hp, fun e he => (mem_dict_keys_dict_set _ _ _ _).2 (Or.inr (hc e he))⟩

end SVA


namespace SVA

/-! ## The link-free automaton built by `getReject` -/

theorem unodeOf_of_entries (fsm : SvaFsm) (node : Nat) (u : SvaUFsmNode)
    (h : fsm.UnodeEntries node [] default u) : fsm.UnodeOf node u := by
  obtain ⟨_, E, A, hE, hA, hedges, hacc⟩ := h
  have hE' : u.edges = E := by rw [hE]; rfl
  have hA' : u.accept = A := by rw [hA]; rfl
  constructor
  · intro t G
    rw [hE', hedges]
    simp only [List.nil_append]
  · intro G
    rw [hA', hacc]
    simp only [List.nil_append]

theorem make_unodes_loop {fsm : SvaFsm} (hwf : fsm.WellFormed) (hac : fsm.Acyclic) :
    ∀ k, k ≤ fsm.nodes.length →
      ∃ U, (List.range k).foldlM
          (fun (unodes : List SvaUFsmNode) node =>
            fsm.node_to_unode fsm.nodes.length unodes node node [])
          (List.replicate fsm.nodes.length default) = Except.ok U ∧
        U.length = fsm.nodes.length ∧
        (∀ j, j < k → fsm.UnodeOf j (U.getD j default)) ∧
        (∀ j, k ≤ j → U.getD j default = default) := by
  intro k
  induction k with
  | zero =>
    intro _
    refine ⟨_, rfl, List.length_replicate _ _, fun j hj => absurd hj (Nat.not_lt_zero j), ?_⟩
    intro j _
    by_cases hj : j < fsm.nodes.length
    · exact getD_replicate _ _ _ _ hj
    · exact getD_of_length_le _ _ _ (by simp; omega)
  | succ k ih =>
    intro hk
    obtain ⟨U, hU, hlen, hlt, hge⟩ := ih (by omega)
    obtain ⟨U', hrun, hlen', hother, hent⟩ :=
      node_to_unode_spec hwf hac k fsm.nodes.length [] U k []
        (List.chain'_singleton _) (by intro x hx; simp at hx; omega) (by simp)
        (by omega) sort_and_unify_nil
    refine ⟨U', ?_, hlen'.trans hlen, ?_, ?_⟩
    · rw [List.range_succ, foldlM_ok_append, hU]
      simp only [foldlM_ok_cons, foldlM_ok_nil]
      rw [hrun]
    · intro j hj
      rcases Nat.lt_succ_iff_lt_or_eq.1 hj with h | h
      · rw [hother j (by omega)]
        exact hlt j h
      · rw [h]
        rw [hge k (le_refl _)] at hent
        exact unodeOf_of_entries fsm k _ hent
    · intro j hj
      rw [hother j (by omega)]
      exact hge j (by omega)

theorem foldlM_preserves {σ α : Type} (R : σ → σ → Prop) (hrefl : ∀ s, R s s)
    (htrans : ∀ a b c, R a b → R b c → R a c) (f : σ → α → Except Failure σ)
    (l : List α) (hf : ∀ s a s', a ∈ l → f s a = Except.ok s' → R s s') :
    ∀ (s s' : σ), l.foldlM f s = Except.ok s' → R s s' := by
  induction l with
  | nil =>
    intro s s' h
    have h' : Except.ok s = Except.ok s' := h
    rw [Except.ok.inj h']
    exact hrefl s'
  | cons a l ih =>
    intro s s' h
    rw [foldlM_ok_cons] at h
    cases h1 : f s a with
    | error e => rw [h1] at h; cases h
    | ok s1 =>
      rw [h1] at h
      exact htrans _ _ _ (hf s a s1 (List.mem_cons_self _ _) h1)
        (ih (fun s a s' ha => hf s a s' (List.mem_cons_of_mem _ ha)) s1 s' h)

theorem mark_reachable_unode_keeps :
    ∀ (fuel : Nat) (U : List SvaUFsmNode) (u : Nat) (U' : List SvaUFsmNode),
      mark_reachable_unode fuel U u = Except.ok U' →
      U'.length = U.length ∧
      ∀ j, (U'.getD j default).edges = (U.getD j default).edges ∧
        (U'.getD j default).accept = (U.getD j default).accept := by
  intro fuel
  induction fuel with
  | zero =>
    intro U u U' h
    cases h
  | succ fuel ih =>
    intro U u U' h
    unfold mark_reachable_unode at h
    by_cases hr : (U.getD u default).reachable = true
    · rw [if_pos hr] at h
      rw [← Except.ok.inj h]
      exact ⟨rfl, fun j => ⟨rfl, rfl⟩⟩
    · rw [if_neg hr] at h
      simp only at h
      have hset : (U.set u { U.getD u default with reachable := true }).length = U.length ∧
          ∀ j, ((U.set u { U.getD u default with reachable := true }).getD j default).edges =
              (U.getD j default).edges ∧
            ((U.set u { U.getD u default with reachable := true }).getD j default).accept =
              (U.getD j default).accept := by
        refine ⟨List.length_set _ _ _, ?_⟩
        intro j
        by_cases hj : j = u
        · subst hj
          by_cases hlt : j < U.length
          · rw [getD_set_eq _ _ _ _ hlt]
            exact ⟨rfl, rfl⟩
          · rw [getD_set_ge _ _ _ _ _ (by omega)]
            exact ⟨rfl, rfl⟩
        · rw [getD_set_ne _ _ _ _ _ (fun e => hj e.symm)]
          exact ⟨rfl, rfl⟩
      have := foldlM_preserves
        (fun (A B : List SvaUFsmNode) => B.length = A.length ∧
          ∀ j, (B.getD j default).edges = (A.getD j default).edges ∧
            (B.getD j default).accept = (A.getD j default).accept)
        (fun s => ⟨rfl, fun j => ⟨rfl, rfl⟩⟩)
        (fun a b c hab hbc => ⟨hbc.1.trans hab.1, fun j =>
          ⟨((hbc.2 j).1).trans ((hab.2 j).1), ((hbc.2 j).2).trans ((hab.2 j).2)⟩⟩)
        (fun (unodes : List SvaUFsmNode) (it : Nat × List SigBit) =>
          mark_reachable_unode fuel unodes it.1)
        (U.getD u default).edges
        (fun s a s' _ hs => ih s a.1 s' hs) _ _ h
      exact ⟨this.1.trans hset.1, fun j =>
        ⟨((this.2 j).1).trans ((hset.2 j).1), ((this.2 j).2).trans ((hset.2 j).2)⟩⟩

theorem make_unodes_spec {fsm : SvaFsm} (hwf : fsm.WellFormed) (hac : fsm.Acyclic)
    (hun : fsm.unodes = []) (U : List SvaUFsmNode) (h : fsm.make_unodes = Except.ok U) :
    U.length = fsm.nodes.length ∧ ∀ j, j < fsm.nodes.length → fsm.UnodeOf j (U.getD j default) := by
  unfold SvaFsm.make_unodes at h
  obtain ⟨U0, hU0, hlen, hlt, _⟩ := make_unodes_loop hwf hac fsm.nodes.length (le_refl _)
  simp only [hun, List.take_nil, List.nil_append, List.length_nil, Nat.sub_zero] at h
  rw [hU0] at h
  simp only at h
  obtain ⟨hl, hk⟩ := mark_reachable_unode_keeps _ _ _ _ h
  refine ⟨hl.trans hlen, ?_⟩
  intro j hj
  have := hlt j hj
  unfold SvaFsm.UnodeOf at this ⊢
  rw [(hk j).1, (hk j).2]
  exact this

end SVA


namespace SVA

/-! ## The loops of block "Create DFSM Circuit" in closed form -/

theorem reject_state_signals_loop (fsm : SvaFsm) (l : List (List Nat × SvaDFsmNode)) :
    ∀ (m : Module) (acc : List (List Nat × SvaDFsmNode)),
      l.foldl
        (fun (acc : Module × List (List Nat × SvaDFsmNode)) it =>
          let (m, w) := acc.1.addWire
          let statesig := SigBit.auto w
          let statesig :=
            if it.1 = [fsm.startNode] then SigBit.or statesig fsm.trigger_sig else statesig
          (m, acc.2 ++ [(it.1, { it.2 with ffoutwire := w, statesig := statesig })]))
        (m, acc) =
      ({ m with nwires := m.nwires + l.length }, acc ++ fsm.with_wires m.nwires l) := by
  induction l with
  | nil =>
    intro m acc
    simp [SvaFsm.with_wires]
  | cons it l ih =>
    intro m acc
    rw [List.foldl_cons]
    refine (ih _ _).trans ?_
    simp only [Module.addWire, SvaFsm.with_wires, SvaFsm.dnode_wire, List.length_cons,
      List.append_assoc, List.singleton_append]
    congr 2
    omega

theorem reject_state_signals_eq (fsm : SvaFsm) (m : Module)
    (l : List (List Nat × SvaDFsmNode)) :
    fsm.reject_state_signals m l =
      ({ m with nwires := m.nwires + l.length }, fsm.with_wires m.nwires l) := by
  unfold SvaFsm.reject_state_signals
  rw [reject_state_signals_loop]
  rfl

theorem with_wires_keys (fsm : SvaFsm) (l : List (List Nat × SvaDFsmNode)) :
    ∀ base, dict_keys (fsm.with_wires base l) = dict_keys l := by
  induction l with
  | nil => intro base; rfl
  | cons it l ih =>
    intro base
    simp only [SvaFsm.with_wires, dict_keys, List.map_cons, SvaFsm.dnode_wire] at ih ⊢
    rw [ih]

theorem mem_with_wires (fsm : SvaFsm) (l : List (List Nat × SvaDFsmNode))
    (x : List Nat × SvaDFsmNode) :
    ∀ base, x ∈ fsm.with_wires base l ↔
      ∃ i, i < l.length ∧ x = fsm.dnode_wire (base + i) (l.getD i default) := by
  induction l with
  | nil =>
    intro base
    simp [SvaFsm.with_wires]
  | cons it l ih =>
    intro base
    simp only [SvaFsm.with_wires, List.mem_cons, List.length_cons]
    rw [ih]
    constructor
    · rintro (h | ⟨i, hi, h⟩)
      · exact ⟨0, by omega, by rw [h]; rfl⟩
      · refine ⟨i + 1, by omega, ?_⟩
        rw [h]
        have : base + 1 + i = base + (i + 1) := by omega
        rw [this]
        rfl
    · rintro ⟨i, hi, h⟩
      cases i with
      | zero => exact Or.inl (by rw [h]; rfl)
      | succ i =>
        refine Or.inr ⟨i, by omega, ?_⟩
        rw [h]
        have : base + 1 + i = base + (i + 1) := by omega
        rw [this]
        rfl

end SVA


namespace SVA

/-! ## The activation loop in closed form -/

theorem add_next_keys (l : List (List Nat × SvaDFsmNode)) (N : List Nat → List SigBit) :
    dict_keys (add_next l N) = dict_keys l := by
  simp [add_next, dict_keys, List.map_map, Function.comp]

theorem add_next_congr (l : List (List Nat × SvaDFsmNode)) (N N' : List Nat → List SigBit)
    (h : ∀ K, K ∈ dict_keys l → N K = N' K) : add_next l N = add_next l N' := by
  unfold add_next
  apply List.map_congr_left
  intro it hit
  have : it.1 ∈ dict_keys l := List.mem_map_of_mem Prod.fst hit
  rw [h it.1 this]

theorem add_next_nil (l : List (List Nat × SvaDFsmNode)) : add_next l (fun _ => []) = l := by
  unfold add_next
  conv_rhs => rw [← List.map_id l]
  apply List.map_congr_left
  intro it _
  simp

theorem dict_at_add_next (l : List (List Nat × SvaDFsmNode)) (N : List Nat → List SigBit)
    (K : List Nat) :
    dict_at (add_next l N) K =
      (dict_at l K).map (fun dn => { dn with nextstate := dn.nextstate ++ N K }) := by
  induction l with
  | nil => rfl
  | cons p l ih =>
    simp only [dict_at, add_next, List.map_cons, List.find?_cons] at ih ⊢
    by_cases h : p.1 = K
    · simp [h]
    · simp only [h, decide_False]
      exact ih

theorem dict_set_add_next (l : List (List Nat × SvaDFsmNode)) (N : List Nat → List SigBit)
    (K : List Nat) (dn0 : SvaDFsmNode) (trig : SigBit)
    (hnd : (dict_keys l).Nodup) (hat : dict_at l K = some dn0) :
    dict_set (add_next l N) K
        { dn0 with nextstate := dn0.nextstate ++ N K ++ [trig] } =
      add_next l (Function.update N K (N K ++ [trig])) := by
  induction l with
  | nil => cases hat
  | cons p l ih =>
    simp only [dict_keys, List.map_cons, List.nodup_cons] at hnd
    by_cases h : p.1 = K
    · have hp : dn0 = p.2 := by
        simp only [dict_at, List.find?_cons, h, decide_True, Option.map_some'] at hat
        exact (Option.some.inj hat).symm
      subst hp
      have htail : add_next l (Function.update N K (N K ++ [trig])) = add_next l N := by
        apply add_next_congr
        intro K' hK'
        have : K' ≠ K := by
          intro e
          rw [e, ← h] at hK'
          exact hnd.1 hK'
        simp [Function.update, this]
      show dict_set ((p.1, _) :: add_next l N) K _ = (p.1, _) :: add_next l _
      rw [htail]
      unfold dict_set
      rw [if_pos h]
      subst h
      simp [List.append_assoc]
    · have hat' : dict_at l K = some dn0 := by
        simp only [dict_at, List.find?_cons, h, decide_False] at hat
        exact hat
      show dict_set ((p.1, _) :: add_next l N) K _ = (p.1, _) :: add_next l _
      unfold dict_set
      rw [if_neg h, ih hnd.2 hat']
      simp [Function.update, h]

theorem edges_loop_add_next (dnode : SvaDFsmNode) (L : List (List Nat × SvaDFsmNode))
    (hnd : (dict_keys L).Nodup) :
    ∀ (es : List (List Nat × List Bool)) (N : List Nat → List SigBit),
      (∀ e ∈ es, e.1 ∈ dict_keys L) →
      es.foldlM
        (fun (d : List (List Nat × SvaDFsmNode)) edge =>
          let trig := dnode_eq dnode edge.2
          match dict_at d edge.1 with
          | none => Except.error Failure.out_of_range
          | some tgt =>
            Except.ok (dict_set d edge.1 { tgt with nextstate := tgt.nextstate ++ [trig] }))
        (add_next L N) =
      Except.ok (add_next L (fun K => N K ++
        (es.filter (fun e => decide (e.1 = K))).map (fun e => dnode_eq dnode e.2))) := by
  intro es
  induction es with
  | nil =>
    intro N _
    simp only [List.filter_nil, List.map_nil, List.append_nil]
    rfl
  | cons e es ih =>
    intro N hes
    have he : e.1 ∈ dict_keys L := hes e (List.mem_cons_self _ _)
    obtain ⟨dn0, hdn0⟩ : ∃ dn0, dict_at L e.1 = some dn0 := by
      cases h : dict_at L e.1 with
      | none => exact absurd he ((dict_at_eq_none_iff L e.1).1 h)
      | some dn0 => exact ⟨dn0, rfl⟩
    rw [foldlM_ok_cons]
    simp only [dict_at_add_next, hdn0, Option.map_some']
    rw [dict_set_add_next L N e.1 dn0 _ hnd hdn0]
    rw [ih _ (fun e' he' => hes e' (List.mem_cons_of_mem _ he'))]
    congr 1
    apply add_next_congr
    intro K _
    by_cases hK : e.1 = K
    · subst hK
      simp [Function.update, List.filter_cons]
    · have hK' : K ≠ e.1 := fun h => hK h.symm
      simp [Function.update, List.filter_cons, hK, hK']

theorem foldl_snoc_map {α β : Type} (f : α → β) (l : List α) :
    ∀ acc : List β, l.foldl (fun s v => s ++ [f v]) acc = acc ++ l.map f := by
  induction l with
  | nil => intro acc; simp
  | cons a l ih =>
    intro acc
    rw [List.foldl_cons, ih]
    simp

theorem reject_activations_loop (with_accept : Bool) (L : List (List Nat × SvaDFsmNode))
    (hnd : (dict_keys L).Nodup) :
    ∀ (P : List (List Nat × SvaDFsmNode)) (N : List Nat → List SigBit) (A Rj : List SigBit),
      (∀ it ∈ P, ∀ e ∈ it.2.edges, e.1 ∈ dict_keys L) →
      P.foldlM
        (fun (acc : List (List Nat × SvaDFsmNode) × List SigBit × List SigBit) it =>
          let dnode := it.2
          match dnode.edges.foldlM
              (fun (d : List (List Nat × SvaDFsmNode)) edge =>
                let trig := dnode_eq dnode edge.2
                match dict_at d edge.1 with
                | none => Except.error Failure.out_of_range
                | some tgt =>
                  Except.ok (dict_set d edge.1 { tgt with nextstate := tgt.nextstate ++ [trig] }))
              acc.1 with
          | Except.error e => Except.error e
          | Except.ok d =>
            let accept_sig :=
              if with_accept then
                dnode.accept.foldl (fun (s : List SigBit) value => s ++ [dnode_eq dnode value])
                  acc.2.1
              else acc.2.1
            let reject_sig :=
              dnode.reject.foldl (fun (s : List SigBit) value => s ++ [dnode_eq dnode value])
                acc.2.2
            Except.ok (d, accept_sig, reject_sig))
        (add_next L N, A, Rj) =
      Except.ok (add_next L (fun K => N K ++ dict_trigs P K),
        A ++ (if with_accept then P.flatMap (fun it => it.2.accept.map (dnode_eq it.2)) else []),
        Rj ++ P.flatMap (fun it => it.2.reject.map (dnode_eq it.2))) := by
  intro P
  induction P with
  | nil =>
    intro N A Rj _
    simp only [dict_trigs, List.flatMap_nil, List.append_nil, ite_self]
    rfl
  | cons it P ih =>
    intro N A Rj hP
    rw [foldlM_ok_cons]
    have hinner := edges_loop_add_next it.2 L hnd it.2.edges N (hP it (List.mem_cons_self _ _))
    simp only [foldl_snoc_map] at ih hinner ⊢
    rw [hinner]
    simp only
    rw [ih _ _ _ (fun it' h' => hP it' (List.mem_cons_of_mem _ h'))]
    congr 2
    · apply add_next_congr
      intro K _
      simp [dict_trigs, edge_trigs, List.flatMap_cons, List.append_assoc]
    · congr 1
      · cases with_accept <;> simp [List.flatMap_cons, List.append_assoc]
      · simp [List.flatMap_cons, List.append_assoc]

theorem reject_activations_eq (with_accept : Bool) (L : List (List Nat × SvaDFsmNode))
    (hnd : (dict_keys L).Nodup)
    (hcl : ∀ it ∈ L, ∀ e ∈ it.2.edges, e.1 ∈ dict_keys L) :
    reject_activations with_accept L =
      Except.ok (add_next L (dict_trigs L),
        (if with_accept then L.flatMap (fun it => it.2.accept.map (dnode_eq it.2)) else []),
        L.flatMap (fun it => it.2.reject.map (dnode_eq it.2))) := by
  unfold reject_activations
  have h := reject_activations_loop with_accept L hnd L (fun _ => []) [] [] hcl
  rw [add_next_nil] at h
  refine h.trans ?_
  simp only [List.nil_append]

end SVA


namespace SVA

/-! ## The state registers of the deterministic automaton -/

theorem reject_state_ffs_cons (m : Module) (it : List Nat × SvaDFsmNode)
    (l : List (List Nat × SvaDFsmNode)) :
    reject_state_ffs m (it :: l) =
      reject_state_ffs
        { m with drivers := (it.2.ffoutwire, dnode_driver it.2) :: m.drivers } l := by
  unfold reject_state_ffs
  rw [List.foldl_cons]
  congr 1
  unfold dnode_driver Module.connect Module.addDff
  dsimp only
  by_cases h0 : it.2.nextstate.length = 0
  · rw [if_pos h0, if_pos h0]
  · by_cases h1 : it.2.nextstate.length = 1
    · rw [if_neg h0, if_neg h0, if_pos h1, if_pos h1]
    · rw [if_neg h0, if_neg h0, if_neg h1, if_neg h1]

theorem driver_cons (m : Module) (q : Nat) (drv : Driver) (w : Nat) :
    Module.driver { m with drivers := (q, drv) :: m.drivers } w =
      if q = w then some drv else m.driver w := by
  unfold Module.driver
  by_cases h : q = w
  · simp [h]
  · have hb : (q == w) = false := by simpa using h
    simp [List.find?_cons, hb, h]

theorem driver_reject_state_ffs_other (l : List (List Nat × SvaDFsmNode)) :
    ∀ (m : Module) (w : Nat), (∀ it ∈ l, it.2.ffoutwire ≠ w) →
      (reject_state_ffs m l).driver w = m.driver w := by
  induction l with
  | nil => intro m w _; rfl
  | cons it l ih =>
    intro m w h
    rw [reject_state_ffs_cons, ih _ _ (fun it' h' => h it' (List.mem_cons_of_mem _ h')),
      driver_cons, if_neg (h it (List.mem_cons_self _ _))]

theorem driver_reject_state_ffs (l : List (List Nat × SvaDFsmNode)) :
    ∀ (m : Module), (l.map (fun it => it.2.ffoutwire)).Nodup →
      ∀ it ∈ l, (reject_state_ffs m l).driver it.2.ffoutwire = some (dnode_driver it.2) := by
  induction l with
  | nil => intro m _ it h; cases h
  | cons a l ih =>
    intro m hnd it hit
    rw [List.map_cons, List.nodup_cons] at hnd
    rw [reject_state_ffs_cons]
    rcases List.mem_cons.1 hit with h | h
    · subst h
      rw [driver_reject_state_ffs_other l _ _ ?_, driver_cons, if_pos rfl]
      intro it' h' heq
      exact hnd.1 (List.mem_map.2 ⟨it', h', heq⟩)
    · exact ih _ hnd.2 it h

theorem any_eval_ReduceOr (l : List SigBit) (inp q : Nat → Bool) :
    (ReduceOr l).eval inp q = l.any (fun s => s.eval inp q) := by
  induction l with
  | nil => rfl
  | cons a l ih =>
    simp only [ReduceOr, SigBit.eval, List.any_cons, ih]

theorem qval_zero_dnode_driver (m : Module) (env : Nat → Nat → Bool) (w : Nat)
    (dn : SvaDFsmNode) (h : m.driver w = some (dnode_driver dn)) :
    m.qval env 0 w = false := by
  unfold Module.qval
  rw [h]
  unfold dnode_driver
  split_ifs <;> rfl

theorem qval_succ_dnode_driver (m : Module) (env : Nat → Nat → Bool) (t w : Nat)
    (dn : SvaDFsmNode) (h : m.driver w = some (dnode_driver dn)) :
    m.qval env (t + 1) w = dn.nextstate.any (fun s => s.eval (env t) (m.qval env t)) := by
  rw [Module.qval, h]
  unfold dnode_driver
  split_ifs with h0 h1
  · have : dn.nextstate = [] := List.length_eq_zero.1 h0
    rw [this]
    rfl
  · obtain ⟨a, ha⟩ := List.length_eq_one.1 h1
    rw [ha]
    simp
  · exact any_eval_ReduceOr _ _ _

theorem eval_reduce_sig (l : List SigBit) (inp q : Nat → Bool) :
    (reduce_sig l).eval inp q = l.any (fun s => s.eval inp q) := by
  unfold reduce_sig
  split_ifs with h0 h1
  · have : l = [] := List.length_eq_zero.1 h0
    rw [this]
    rfl
  · obtain ⟨a, ha⟩ := List.length_eq_one.1 h1
    rw [ha]
    simp
  · exact any_eval_ReduceOr _ _ _

end SVA


namespace SVA

/-! ## The keys of the dictionary are distinct -/

theorem nodup_dict_set (d : List (List Nat × SvaDFsmNode)) (K : List Nat) (n : SvaDFsmNode)
    (h : (dict_keys d).Nodup) : (dict_keys (dict_set d K n)).Nodup := by
  induction d with
  | nil => simp [dict_set, dict_keys]
  | cons p d ih =>
    have h' : p.1 ∉ dict_keys d ∧ (dict_keys d).Nodup := by
      simpa [dict_keys] using h
    unfold dict_set
    by_cases hK : p.1 = K
    · rw [if_pos hK]
      subst hK
      simpa [dict_keys] using h
    · rw [if_neg hK]
      have h1 : dict_keys (p :: dict_set d K n) = p.1 :: dict_keys (dict_set d K n) := rfl
      rw [h1, List.nodup_cons]
      refine ⟨?_, ih h'.2⟩
      intro hmem
      rcases (mem_dict_keys_dict_set d K p.1 n).1 hmem with e | e
      · exact hK e
      · exact h'.1 e

theorem dnode_step_nodup (unodes : List SvaUFsmNode) (state : List Nat) (firstmatch : Bool)
    (ctrl : List SigBit)
    (construct : List (List Nat × SvaDFsmNode) → List Nat →
      Except Failure (List (List Nat × SvaDFsmNode)))
    (hC : ∀ d s d', construct d s = Except.ok d' → (dict_keys d).Nodup → (dict_keys d').Nodup)
    (acc res : SvaDFsmNode × List (List Nat × SvaDFsmNode)) (i : Nat)
    (h : dnode_step unodes state firstmatch ctrl construct acc i = Except.ok res) :
    (dict_keys acc.2).Nodup → (dict_keys res.2).Nodup := by
  rw [dnode_step_eq] at h
  by_cases hnext : val_next unodes state firstmatch ctrl i = []
  · rw [if_pos hnext] at h
    rw [← Except.ok.inj h]
    exact fun hn => hn
  · rw [if_neg hnext] at h
    cases hc : construct acc.2 (usortint (val_next unodes state firstmatch ctrl i)) with
    | error e => rw [hc] at h; cases h
    | ok d =>
      rw [hc] at h
      rw [← Except.ok.inj h]
      exact hC _ _ _ hc

theorem create_dnode_nodup (unodes : List SvaUFsmNode) (firstmatch : Bool) :
    ∀ (fuel : Nat) (d : List (List Nat × SvaDFsmNode)) (S : List Nat)
      (d' : List (List Nat × SvaDFsmNode)),
      create_dnode unodes fuel d S firstmatch = Except.ok d' →
      (dict_keys d).Nodup → (dict_keys d').Nodup := by
  intro fuel
  induction fuel with
  | zero =>
    intro d S d' h
    rw [create_dnode_zero] at h
    cases h
  | succ fuel ih =>
    intro d S d' hrun hnd
    rw [create_dnode_succ] at hrun
    split_ifs at hrun with hcnt
    · rw [← Except.ok.inj hrun]
      exact hnd
    · cases hraw : dnode_ctrl_raw unodes S with
      | error e => rw [hraw] at hrun; cases hrun
      | ok raw =>
        rw [hraw] at hrun
        simp only at hrun
        split_ifs at hrun with hlen
        cases hloop : (List.range (1 <<< (sort_and_unify raw).length)).foldlM
            (dnode_step unodes S firstmatch (sort_and_unify raw)
              (fun d s => create_dnode unodes fuel d s firstmatch))
            ({ ctrl := sort_and_unify raw }, dict_set d S default) with
        | error e => rw [hloop] at hrun; cases hrun
        | ok res =>
          rw [hloop] at hrun
          simp only at hrun
          rw [← Except.ok.inj hrun]
          apply nodup_dict_set
          have := foldlM_preserves
            (fun (a b : SvaDFsmNode × List (List Nat × SvaDFsmNode)) =>
              (dict_keys a.2).Nodup → (dict_keys b.2).Nodup)
            (fun s h => h) (fun a b c hab hbc h => hbc (hab h))
            (dnode_step unodes S firstmatch (sort_and_unify raw)
              (fun d s => create_dnode unodes fuel d s firstmatch))
            (List.range (1 <<< (sort_and_unify raw).length))
            (fun s a s' _ hs => dnode_step_nodup unodes S firstmatch _ _
              (fun d s d' h => ih d s d' h) s s' a hs)
            _ _ hloop
          exact this (nodup_dict_set _ _ _ hnd)

end SVA


namespace SVA

/-! ## The deterministic automaton and its circuit -/

theorem dict_at_of_mem (d : List (List Nat × SvaDFsmNode)) (K : List Nat) (dn : SvaDFsmNode)
    (hnd : (dict_keys d).Nodup) (h : (K, dn) ∈ d) : dict_at d K = some dn := by
  induction d with
  | nil => cases h
  | cons p d ih =>
    have h' : p.1 ∉ dict_keys d ∧ (dict_keys d).Nodup := by
      simpa [dict_keys] using hnd
    rcases List.mem_cons.1 h with e | e
    · subst e
      simp [dict_at, List.find?_cons]
    · have hK : K ∈ dict_keys d := List.mem_map.2 ⟨(K, dn), e, rfl⟩
      have hne : ¬ p.1 = K := fun e' => h'.1 (e' ▸ hK)
      have := ih h'.2 e
      simp only [dict_at, List.find?_cons, hne, decide_False] at this ⊢
      exact this

theorem with_wires_wires (fsm : SvaFsm) (l : List (List Nat × SvaDFsmNode)) :
    ∀ base, (fsm.with_wires base l).map (fun it => it.2.ffoutwire) =
      List.range' base l.length := by
  induction l with
  | nil => intro base; rfl
  | cons it l ih =>
    intro base
    simp only [SvaFsm.with_wires, List.map_cons, List.length_cons, List.range'_succ, ih]
    rfl

theorem any_dict_trigs (L : List (List Nat × SvaDFsmNode)) (K : List Nat)
    (f : SigBit → Bool) :
    (dict_trigs L K).any f = true ↔
      ∃ it ∈ L, ∃ e ∈ it.2.edges, e.1 = K ∧ f (dnode_eq it.2 e.2) = true := by
  simp only [dict_trigs, edge_trigs, List.any_eq_true, List.mem_flatMap, List.mem_map,
    List.mem_filter, decide_eq_true_eq]
  constructor
  · rintro ⟨s, ⟨it, hit, e, ⟨he, hK⟩, rfl⟩, hf⟩
    exact ⟨it, hit, e, he, hK, hf⟩
  · rintro ⟨it, hit, e, he, hK, hf⟩
    exact ⟨_, ⟨it, hit, e, ⟨he, hK⟩, rfl⟩, hf⟩

theorem any_flatMap_map (L : List (List Nat × SvaDFsmNode))
    (sel : SvaDFsmNode → List (List Bool)) (f : SigBit → Bool) :
    (L.flatMap (fun it => (sel it.2).map (dnode_eq it.2))).any f = true ↔
      ∃ it ∈ L, ∃ v ∈ sel it.2, f (dnode_eq it.2 v) = true := by
  simp only [List.any_eq_true, List.mem_flatMap, List.mem_map]
  constructor
  · rintro ⟨s, ⟨it, hit, v, hv, rfl⟩, hf⟩
    exact ⟨it, hit, v, hv, hf⟩
  · rintro ⟨it, hit, v, hv, hf⟩
    exact ⟨_, ⟨it, hit, v, hv, rfl⟩, hf⟩

theorem dict_sort_perm (d : List (List Nat × SvaDFsmNode)) : (dict_sort d).Perm d :=
  List.perm_insertionSort _ d

theorem dict_sort_keys_nodup (d : List (List Nat × SvaDFsmNode)) (h : (dict_keys d).Nodup) :
    (dict_keys (dict_sort d)).Nodup :=
  ((dict_sort_perm d).map Prod.fst).nodup_iff.2 h

theorem mem_dict_sort (d : List (List Nat × SvaDFsmNode)) (it : List Nat × SvaDFsmNode) :
    it ∈ dict_sort d ↔ it ∈ d :=
  (dict_sort_perm d).mem_iff

theorem mem_dict_keys_dict_sort (d : List (List Nat × SvaDFsmNode)) (K : List Nat) :
    K ∈ dict_keys (dict_sort d) ↔ K ∈ dict_keys d :=
  ((dict_sort_perm d).map Prod.fst).mem_iff

end SVA


namespace SVA

theorem create_dnode_top (U : List SvaUFsmNode) (fuel : Nat) (S : List Nat)
    (d : List (List Nat × SvaDFsmNode)) (h : create_dnode U fuel [] S true = Except.ok d) :
    (dict_keys (dict_sort d)).Nodup ∧ S ∈ dict_keys (dict_sort d) ∧
    ∀ it ∈ dict_sort d,
      (∃ raw, dnode_ctrl_raw U it.1 = Except.ok raw ∧ (sort_and_unify raw).length ≤ 10 ∧
        it.2 = dnode_of_ctrl U true it.1 (sort_and_unify raw)) ∧
      ∀ e ∈ it.2.edges, e.1 ∈ dict_keys (dict_sort d) := by
  have hnd : (dict_keys d).Nodup := create_dnode_nodup U true fuel [] S d h List.nodup_nil
  obtain ⟨hS, _, _, hnew⟩ := create_dnode_inv U true fuel [] S d h
  refine ⟨dict_sort_keys_nodup d hnd, (mem_dict_keys_dict_sort d S).2 hS, ?_⟩
  intro it hit
  have hit' : (it.1, it.2) ∈ d := (mem_dict_sort d it).1 hit
  have hat := dict_at_of_mem d it.1 it.2 hnd hit'
  obtain ⟨hp, hc⟩ := hnew it.1 (by simp [dict_keys]) it.2 hat
  exact ⟨hp, fun e he => (mem_dict_keys_dict_sort d _).2 (hc e he)⟩

end SVA


namespace SVA

theorem with_wires_entry (fsm : SvaFsm) (U : List SvaUFsmNode) (base : Nat)
    (D0 : List (List Nat × SvaDFsmNode))
    (hent0 : ∀ it ∈ D0,
      (∃ raw, dnode_ctrl_raw U it.1 = Except.ok raw ∧ (sort_and_unify raw).length ≤ 10 ∧
        it.2 = dnode_of_ctrl U true it.1 (sort_and_unify raw)) ∧
      ∀ e ∈ it.2.edges, e.1 ∈ dict_keys D0)
    (it : List Nat × SvaDFsmNode) (hit : it ∈ fsm.with_wires base D0) :
    (∃ raw, dnode_ctrl_raw U it.1 = Except.ok raw ∧ (sort_and_unify raw).length ≤ 10 ∧
      it.2.ctrl = sort_and_unify raw ∧
      it.2.edges = (dnode_of_ctrl U true it.1 (sort_and_unify raw)).edges ∧
      it.2.accept = (dnode_of_ctrl U true it.1 (sort_and_unify raw)).accept ∧
      it.2.reject = (dnode_of_ctrl U true it.1 (sort_and_unify raw)).reject) ∧
    it.2.statesig =
      (if it.1 = [fsm.startNode] then SigBit.or (SigBit.auto it.2.ffoutwire) fsm.trigger_sig
       else SigBit.auto it.2.ffoutwire) ∧
    (∀ e ∈ it.2.edges, e.1 ∈ dict_keys (fsm.with_wires base D0)) ∧
    it.2.nextstate = [] := by
  obtain ⟨i, hi, rfl⟩ := (mem_with_wires fsm D0 it base).1 hit
  have hmem : D0.getD i default ∈ D0 := by
    rw [List.getD_eq_getElem _ _ hi]
    exact List.getElem_mem _
  obtain ⟨⟨raw, hraw, hlen, heq⟩, hcl⟩ := hent0 _ hmem
  refine ⟨⟨raw, hraw, hlen, ?_, ?_, ?_, ?_⟩, rfl, ?_, ?_⟩
  · show (D0.getD i default).2.ctrl = _
    rw [heq]; rfl
  · show (D0.getD i default).2.edges = _
    rw [heq]; rfl
  · show (D0.getD i default).2.accept = _
    rw [heq]; rfl
  · show (D0.getD i default).2.reject = _
    rw [heq]; rfl
  · intro e he
    rw [with_wires_keys]
    exact hcl e he
  · show (D0.getD i default).2.nextstate = _
    rw [heq]; rfl

theorem getReject_circuit (fsm : SvaFsm) (m : Module) (with_accept : Bool) (m' : Module)
    (fsm' : SvaFsm) (rej : SigBit) (accO : Option SigBit) (hdn : fsm.dnodes = [])
    (h : fsm.getReject m with_accept = Except.ok (m', fsm', rej, accO)) :
    ∃ U D, fsm.make_unodes = Except.ok U ∧ fsm.DfsmCircuit U D m' rej accO with_accept := by
  unfold SvaFsm.getReject at h
  cases hU : fsm.make_unodes with
  | error e => rw [hU] at h; cases h
  | ok U =>
    rw [hU, hdn] at h
    simp only at h
    cases hD : create_dnode U (2 ^ fsm.nodes.length + 1) [] [fsm.startNode] true with
    | error e => rw [hD] at h; cases h
    | ok d =>
      rw [hD] at h
      simp only at h
      obtain ⟨hnd0, hS0, hent0⟩ := create_dnode_top U _ _ d hD
      rw [reject_state_signals_eq] at h
      simp only at h
      have hk1 : dict_keys (fsm.with_wires m.nwires (dict_sort d)) = dict_keys (dict_sort d) :=
        with_wires_keys fsm _ _
      have hent1 := with_wires_entry fsm U m.nwires (dict_sort d) hent0
      have hw1 := with_wires_wires fsm (dict_sort d) m.nwires
      generalize fsm.with_wires m.nwires (dict_sort d) = D1 at h hk1 hent1 hw1
      have hnd1 : (dict_keys D1).Nodup := by
        rw [hk1]; exact hnd0
      rw [reject_activations_eq with_accept _ hnd1 (fun it hit => (hent1 it hit).2.2.1)] at h
      simp only at h
      have h' := Except.ok.inj h
      simp only [Prod.mk.injEq] at h'
      obtain ⟨hm', _, hrej, hacc⟩ := h'
      refine ⟨U, D1, rfl, hnd1, ?_, ?_, ?_, ?_⟩
      · rw [hk1]; exact hS0
      · intro it hit
        obtain ⟨hp, hss, hcl, hns⟩ := hent1 it hit
        refine ⟨hp, hss, hcl, ?_⟩
        have hwn : ((add_next D1 (dict_trigs D1)).map (fun it => it.2.ffoutwire)).Nodup := by
          have : (add_next D1 (dict_trigs D1)).map (fun it => it.2.ffoutwire) =
              D1.map (fun it => it.2.ffoutwire) := by
            simp [add_next, List.map_map, Function.comp]
          rw [this, hw1]
          exact List.nodup_range' _ _
        have hit2 : (fun (it : List Nat × SvaDFsmNode) =>
            (it.1, { it.2 with nextstate := it.2.nextstate ++ dict_trigs D1 it.1 })) it ∈
            add_next D1 (dict_trigs D1) :=
          List.mem_map.2 ⟨it, hit, rfl⟩
        have hdrv := driver_reject_state_ffs _
          { m with nwires := m.nwires + (dict_sort d).length } hwn _ hit2
        rw [hm'] at hdrv
        simp only at hdrv
        constructor
        · intro env
          exact qval_zero_dnode_driver m' env _ _ hdrv
        · intro env t
          rw [qval_succ_dnode_driver m' env t _ _ hdrv]
          simp only [hns, List.nil_append]
          exact any_dict_trigs _ _ _
      · intro env t
        rw [← hrej]
        unfold Module.value
        rw [eval_reduce_sig]
        exact any_flatMap_map _ (fun dn => dn.reject) _
      · intro hwa
        subst hwa
        simp only [if_true] at hacc
        refine ⟨_, hacc.symm, ?_⟩
        intro env t
        unfold Module.value
        rw [eval_reduce_sig]
        exact any_flatMap_map _ (fun dn => dn.accept) _

end SVA


namespace SVA

/-! ## The comparators of the deterministic automaton -/

theorem eval_constBit (b : Bool) (inp q : Nat → Bool) : (constBit b).eval inp q = b := by
  cases b <;> rfl

theorem eval_xnor (a b : SigBit) (inp q : Nat → Bool) :
    (SigBit.xnor a b).eval inp q = decide (a.eval inp q = b.eval inp q) := by
  simp only [SigBit.xnor, SigBit.eval]
  cases a.eval inp q <;> cases b.eval inp q <;> rfl

theorem eval_Eq_const (inp q : Nat → Bool) (ctrl : List SigBit) :
    ∀ v : List Bool, (Eq ctrl (v.map constBit)).eval inp q = true ↔
      ∀ j, j < ctrl.length → j < v.length →
        (ctrl.getD j SigBit.S0).eval inp q = v.getD j false := by
  induction ctrl with
  | nil =>
    intro v
    simp [Eq, SigBit.eval]
  | cons c ctrl ih =>
    intro v
    cases v with
    | nil => simp [Eq, SigBit.eval]
    | cons b v =>
      show ((SigBit.xnor c (constBit b)).eval inp q &&
        (Eq ctrl (v.map constBit)).eval inp q) = true ↔ _
      rw [Bool.and_eq_true, eval_xnor, eval_constBit, decide_eq_true_eq, ih]
      constructor
      · rintro ⟨h0, h⟩ j hj1 hj2
        cases j with
        | zero => exact h0
        | succ j =>
          exact h j (by simp only [List.length_cons] at hj1; omega)
            (by simp only [List.length_cons] at hj2; omega)
      · intro h
        refine ⟨h 0 (by simp) (by simp), ?_⟩
        intro j hj1 hj2
        exact h (j + 1) (by simp only [List.length_cons]; omega)
          (by simp only [List.length_cons]; omega)

theorem eval_dnode_eq (dn : SvaDFsmNode) (v : List Bool) (inp q : Nat → Bool) :
    (dnode_eq dn v).eval inp q = true ↔
      dn.statesig.eval inp q = true ∧
      ∀ j, j < dn.ctrl.length → j < v.length →
        (dn.ctrl.getD j SigBit.S0).eval inp q = v.getD j false := by
  show ((SigBit.xnor dn.statesig SigBit.S1).eval inp q &&
    (Eq dn.ctrl (v.map constBit)).eval inp q) = true ↔ _
  rw [Bool.and_eq_true, eval_xnor, decide_eq_true_eq, eval_Eq_const]
  rfl

theorem exists_valuation (f : Nat → Bool) :
    ∀ len : Nat, ∃ i, i < 2 ^ len ∧ ∀ j, j < len → i.testBit j = f j := by
  intro len
  induction len with
  | zero => exact ⟨0, by simp, fun j hj => absurd hj (Nat.not_lt_zero j)⟩
  | succ len ih =>
    obtain ⟨i, hi, hbits⟩ := ih
    by_cases hf : f len = true
    · refine ⟨2 ^ len + i, by rw [Nat.pow_succ]; omega, ?_⟩
      intro j hj
      rcases Nat.lt_succ_iff_lt_or_eq.1 hj with h | h
      · rw [Nat.testBit_two_pow_add_gt h]
        exact hbits j h
      · rw [h, Nat.testBit_two_pow_add_eq, Nat.testBit_lt_two_pow hi, hf]
        rfl
    · refine ⟨i, by rw [Nat.pow_succ]; omega, ?_⟩
      intro j hj
      rcases Nat.lt_succ_iff_lt_or_eq.1 hj with h | h
      · exact hbits j h
      · rw [h, Nat.testBit_lt_two_pow hi]
        cases hfl : f len
        · rfl
        · exact absurd hfl hf

theorem valTrue_Const (ctrl : List SigBit) (i : Nat) (ev : SigBit → Bool)
    (hi : ∀ j, j < ctrl.length → i.testBit j = ev (ctrl.getD j SigBit.S0)) (b : SigBit) :
    valTrue ctrl (Const i ctrl.length) b ↔ b ∈ ctrl ∧ ev b = true := by
  unfold valTrue
  constructor
  · rintro ⟨j, hj, hb, hv⟩
    rw [getD_Const _ _ _ hj, hi j hj, hb] at hv
    refine ⟨?_, hv⟩
    rw [← hb, List.getD_eq_getElem _ _ hj]
    exact List.getElem_mem _
  · rintro ⟨hb, hv⟩
    obtain ⟨j, hj, hjb⟩ := List.getElem_of_mem hb
    refine ⟨j, hj, ?_, ?_⟩
    · rw [List.getD_eq_getElem _ _ hj]
      exact hjb
    · rw [getD_Const _ _ _ hj, hi j hj, List.getD_eq_getElem _ _ hj, hjb]
      exact hv

end SVA


namespace SVA

/-! ## The link-free automaton and the reference run -/

theorem guardedPath_snoc {fsm : SvaFsm} {u v w : Nat} {cs : List SigBit} {c : SigBit}
    (h : fsm.GuardedPath u v cs) (hl : (w, c) ∈ fsm.linksOf v) :
    ∃ cs', fsm.GuardedPath u w cs' ∧
      ∀ b, b ∈ cs' ↔ (b ∈ cs ∨ (c ≠ SigBit.S1 ∧ b = c)) := by
  induction h with
  | nil u =>
    refine ⟨_, SvaFsm.GuardedPath.link hl (SvaFsm.GuardedPath.nil w), ?_⟩
    intro b
    by_cases hc : c ≠ SigBit.S1
    · simp [hc]
    · simp [hc]
  | link hmem hpath ih =>
    rename_i u0 v0 w0 c0 cs0
    obtain ⟨cs', hp', hiff⟩ := ih hl
    refine ⟨_, SvaFsm.GuardedPath.link hmem hp', ?_⟩
    intro b
    by_cases hc0 : c0 ≠ SigBit.S1
    · simp only [if_pos hc0, List.mem_cons, hiff]
      tauto
    · simp only [if_neg hc0, hiff]

theorem linkClosure_of_guardedPath {fsm : SvaFsm} (ev : SigBit → Bool)
    (hS1 : ev SigBit.S1 = true) (E : Nat → Prop) {u w : Nat} {cs : List SigBit}
    (hp : fsm.GuardedPath u w cs) :
    fsm.LinkClosure ev E u → (∀ b ∈ cs, ev b = true) → fsm.LinkClosure ev E w := by
  induction hp with
  | nil u => intro h _; exact h
  | link hmem hpath ih =>
    rename_i u0 v0 w0 c0 cs0
    intro hu hall
    by_cases hc0 : c0 ≠ SigBit.S1
    · rw [if_pos hc0] at hall
      exact ih (SvaFsm.LinkClosure.link hu hmem (hall c0 (List.mem_cons_self _ _)))
        (fun b hb => hall b (List.mem_cons_of_mem _ hb))
    · rw [if_neg hc0] at hall
      have : c0 = SigBit.S1 := not_not.1 hc0
      exact ih (SvaFsm.LinkClosure.link hu hmem (by rw [this]; exact hS1)) hall

theorem linkClosure_iff_guardedPath (fsm : SvaFsm) (ev : SigBit → Bool)
    (hS1 : ev SigBit.S1 = true) (E : Nat → Prop) (v : Nat) :
    fsm.LinkClosure ev E v ↔
      ∃ u cs, E u ∧ fsm.GuardedPath u v cs ∧ ∀ b ∈ cs, ev b = true := by
  constructor
  · intro h
    induction h with
    | base hE => exact ⟨_, [], hE, SvaFsm.GuardedPath.nil _, fun b hb => by cases hb⟩
    | link hcl hmem hval ih =>
      obtain ⟨u0, cs, hE, hp, hall⟩ := ih
      obtain ⟨cs', hp', hiff⟩ := guardedPath_snoc hp hmem
      refine ⟨u0, cs', hE, hp', ?_⟩
      intro b hb
      rcases (hiff b).1 hb with h | ⟨_, h⟩
      · exact hall b h
      · rw [h]; exact hval
  · rintro ⟨u, cs, hE, hp, hall⟩
    exact linkClosure_of_guardedPath ev hS1 E hp (SvaFsm.LinkClosure.base hE) hall

theorem unode_accept_iff (fsm : SvaFsm) (ev : SigBit → Bool) (hS1 : ev SigBit.S1 = true)
    (E : Nat → Prop) (U : List SvaUFsmNode)
    (hU : ∀ u, E u → fsm.UnodeOf u (U.getD u default)) :
    (∃ u, E u ∧ ∃ G ∈ (U.getD u default).accept, ∀ b ∈ G, ev b = true) ↔
      fsm.LinkClosure ev E fsm.acceptNode := by
  rw [linkClosure_iff_guardedPath fsm ev hS1]
  constructor
  · rintro ⟨u, hE, G, hG, hall⟩
    obtain ⟨cs, hp, rfl⟩ := ((hU u hE).2 G).1 hG
    exact ⟨u, cs, hE, hp, fun b hb => hall b ((mem_sort_and_unify cs b).2 hb)⟩
  · rintro ⟨u, cs, hE, hp, hall⟩
    exact ⟨u, hE, sort_and_unify cs, ((hU u hE).2 _).2 ⟨cs, hp, rfl⟩,
      fun b hb => hall b ((mem_sort_and_unify cs b).1 hb)⟩

theorem unode_target_iff (fsm : SvaFsm) (ev : SigBit → Bool) (hS1 : ev SigBit.S1 = true)
    (E : Nat → Prop) (U : List SvaUFsmNode)
    (hU : ∀ u, E u → fsm.UnodeOf u (U.getD u default)) (w : Nat) :
    (∃ u, E u ∧ ∃ e ∈ (U.getD u default).edges, e.1 = w ∧ ∀ b ∈ e.2, ev b = true) ↔
      ∃ m c, fsm.LinkClosure ev E m ∧ (w, c) ∈ fsm.edgesOf m ∧ ev c = true := by
  constructor
  · rintro ⟨u, hE, e, he, rfl, hall⟩
    obtain ⟨m, cs, c, hp, hedge, hG⟩ := ((hU u hE).1 e.1 e.2).1 he
    refine ⟨m, c, (linkClosure_iff_guardedPath fsm ev hS1 E m).2 ⟨u, cs, hE, hp, ?_⟩, hedge, ?_⟩
    · intro b hb
      apply hall b
      rw [hG, mem_sort_and_unify]
      exact List.mem_append_left _ hb
    · by_cases hc : c ≠ SigBit.S1
      · apply hall c
        rw [hG, mem_sort_and_unify, if_pos hc]
        exact List.mem_append_right _ (List.mem_singleton.2 rfl)
      · rw [not_not.1 hc]; exact hS1
  · rintro ⟨m, c, hcl, hedge, hc⟩
    obtain ⟨u, cs, hE, hp, hall⟩ := (linkClosure_iff_guardedPath fsm ev hS1 E m).1 hcl
    refine ⟨u, hE, (w, sort_and_unify (cs ++ (if c ≠ SigBit.S1 then [c] else []))),
      ((hU u hE).1 _ _).2 ⟨m, cs, c, hp, hedge, rfl⟩, rfl, ?_⟩
    intro b hb
    rw [mem_sort_and_unify, List.mem_append] at hb
    rcases hb with hb | hb
    · exact hall b hb
    · by_cases hc' : c ≠ SigBit.S1
      · rw [if_pos hc'] at hb
        rw [List.mem_singleton.1 hb]; exact hc
      · rw [if_neg hc'] at hb
        cases hb

end SVA


namespace SVA

/-! ## One valuation of a deterministic node against the reference run -/

theorem step_accept (fsm : SvaFsm) (ev : SigBit → Bool) (hS1 : ev SigBit.S1 = true)
    (E : Nat → Prop) (U : List SvaUFsmNode)
    (hU : ∀ u, E u → fsm.UnodeOf u (U.getD u default))
    (K : List Nat) (hK : ∀ w, w ∈ K ↔ E w) (raw : List SigBit)
    (hraw : dnode_ctrl_raw U K = Except.ok raw) (i : Nat)
    (hi : ∀ j, j < (sort_and_unify raw).length →
      i.testBit j = ev ((sort_and_unify raw).getD j SigBit.S0)) :
    val_accept U K (sort_and_unify raw) i = true ↔ fsm.LinkClosure ev E fsm.acceptNode := by
  rw [val_accept_iff, ← unode_accept_iff fsm ev hS1 E U hU]
  unfold acceptsUnder
  constructor
  · rintro ⟨u, hu, G, hG, hall⟩
    refine ⟨u, (hK u).1 hu, G, hG, ?_⟩
    intro b hb
    exact ((valTrue_Const _ i ev hi b).1 (hall b hb)).2
  · rintro ⟨u, hu, G, hG, hall⟩
    refine ⟨u, (hK u).2 hu, G, hG, ?_⟩
    intro b hb
    refine (valTrue_Const _ i ev hi b).2 ⟨?_, hall b hb⟩
    rw [mem_sort_and_unify]
    exact ((dnode_ctrl_raw_spec U K).2 raw hraw b).2
      ⟨u, (hK u).2 hu, Or.inr ⟨G, hG, hb⟩⟩

theorem step_target (fsm : SvaFsm) (ev : SigBit → Bool) (hS1 : ev SigBit.S1 = true)
    (E : Nat → Prop) (U : List SvaUFsmNode)
    (hU : ∀ u, E u → fsm.UnodeOf u (U.getD u default))
    (K : List Nat) (hK : ∀ w, w ∈ K ↔ E w) (raw : List SigBit)
    (hraw : dnode_ctrl_raw U K = Except.ok raw) (i : Nat)
    (hi : ∀ j, j < (sort_and_unify raw).length →
      i.testBit j = ev ((sort_and_unify raw).getD j SigBit.S0)) (w : Nat) :
    targetUnder U K (sort_and_unify raw) (Const i (sort_and_unify raw).length) w ↔
      ∃ m c, fsm.LinkClosure ev E m ∧ (w, c) ∈ fsm.edgesOf m ∧ ev c = true := by
  rw [← unode_target_iff fsm ev hS1 E U hU]
  unfold targetUnder
  constructor
  · rintro ⟨u, hu, e, he, hw, hall⟩
    refine ⟨u, (hK u).1 hu, e, he, hw, ?_⟩
    intro b hb
    exact ((valTrue_Const _ i ev hi b).1 (hall b hb)).2
  · rintro ⟨u, hu, e, he, hw, hall⟩
    refine ⟨u, (hK u).2 hu, e, he, hw, ?_⟩
    intro b hb
    refine (valTrue_Const _ i ev hi b).2 ⟨?_, hall b hb⟩
    rw [mem_sort_and_unify]
    exact ((dnode_ctrl_raw_spec U K).2 raw hraw b).2
      ⟨u, (hK u).2 hu, Or.inl ⟨e, he, hb⟩⟩

theorem step_next (fsm : SvaFsm) (ev : SigBit → Bool) (hS1 : ev SigBit.S1 = true)
    (E : Nat → Prop) (U : List SvaUFsmNode)
    (hU : ∀ u, E u → fsm.UnodeOf u (U.getD u default))
    (K : List Nat) (hK : ∀ w, w ∈ K ↔ E w) (raw : List SigBit)
    (hraw : dnode_ctrl_raw U K = Except.ok raw) (i : Nat)
    (hi : ∀ j, j < (sort_and_unify raw).length →
      i.testBit j = ev ((sort_and_unify raw).getD j SigBit.S0)) (w : Nat) :
    w ∈ val_next U K true (sort_and_unify raw) i ↔
      ¬ fsm.LinkClosure ev E fsm.acceptNode ∧
        ∃ m c, fsm.LinkClosure ev E m ∧ (w, c) ∈ fsm.edgesOf m ∧ ev c = true := by
  rw [mem_val_next, step_target fsm ev hS1 E U hU K hK raw hraw i hi,
    ← val_accept_iff, step_accept fsm ev hS1 E U hU K hK raw hraw i hi]
  simp

theorem strictSorted_ext (a b : List Nat) (ha : a.Sorted (fun x y => x < y))
    (hb : b.Sorted (fun x y => x < y)) (h : ∀ w, w ∈ a ↔ w ∈ b) : a = b := by
  have hna : a.Nodup := ha.imp (fun h => Nat.ne_of_lt h)
  have hnb : b.Nodup := hb.imp (fun h => Nat.ne_of_lt h)
  exact List.eq_of_perm_of_sorted ((List.perm_ext_iff_of_nodup hna hnb).2 h) ha hb

end SVA


namespace SVA

/-! ## The valuation taken by a deterministic node in one cycle -/

theorem eq_of_testBit_lt (len i i' : Nat) (hi : i < 2 ^ len) (hi' : i' < 2 ^ len)
    (h : ∀ j, j < len → i'.testBit j = i.testBit j) : i' = i := by
  apply Nat.eq_of_testBit_eq
  intro j
  by_cases hj : j < len
  · exact h j hj
  · have hle : 2 ^ len ≤ 2 ^ j := Nat.pow_le_pow_right (by omega) (by omega)
    rw [Nat.testBit_lt_two_pow (by omega), Nat.testBit_lt_two_pow (by omega)]

theorem dnode_eq_taken (dn : SvaDFsmNode) (inp q : Nat → Bool) (i i' : Nat)
    (hi : i < 2 ^ dn.ctrl.length) (hi' : i' < 2 ^ dn.ctrl.length)
    (hbits : ∀ j, j < dn.ctrl.length → i.testBit j = (dn.ctrl.getD j SigBit.S0).eval inp q) :
    (dnode_eq dn (Const i' dn.ctrl.length)).eval inp q = true ↔
      dn.statesig.eval inp q = true ∧ i' = i := by
  rw [eval_dnode_eq]
  constructor
  · rintro ⟨hs, h⟩
    refine ⟨hs, eq_of_testBit_lt _ _ _ hi hi' ?_⟩
    intro j hj
    have := h j hj (by rw [length_Const]; exact hj)
    rw [getD_Const _ _ _ hj] at this
    rw [hbits j hj, this]
  · rintro ⟨hs, rfl⟩
    refine ⟨hs, ?_⟩
    intro j hj _
    rw [getD_Const _ _ _ hj, hbits j hj]

theorem entry_outcomes (U : List SvaUFsmNode) (dn : SvaDFsmNode) (K : List Nat)
    (raw : List SigBit) (hctrl : dn.ctrl = sort_and_unify raw)
    (hedges : dn.edges = (dnode_of_ctrl U true K (sort_and_unify raw)).edges)
    (haccept : dn.accept = (dnode_of_ctrl U true K (sort_and_unify raw)).accept)
    (hreject : dn.reject = (dnode_of_ctrl U true K (sort_and_unify raw)).reject)
    (inp q : Nat → Bool) (i : Nat) (hi : i < 2 ^ (sort_and_unify raw).length)
    (hbits : ∀ j, j < (sort_and_unify raw).length →
        i.testBit j = ((sort_and_unify raw).getD j SigBit.S0).eval inp q) :
      (∀ T, (∃ e ∈ dn.edges, e.1 = T ∧ (dnode_eq dn e.2).eval inp q = true) ↔
        dn.statesig.eval inp q = true ∧ val_next U K true (sort_and_unify raw) i ≠ [] ∧
          T = usortint (val_next U K true (sort_and_unify raw) i)) ∧
      ((∃ v ∈ dn.accept, (dnode_eq dn v).eval inp q = true) ↔
        dn.statesig.eval inp q = true ∧ val_accept U K (sort_and_unify raw) i = true) ∧
      ((∃ v ∈ dn.reject, (dnode_eq dn v).eval inp q = true) ↔
        dn.statesig.eval inp q = true ∧ val_next U K true (sort_and_unify raw) i = [] ∧
          val_accept U K (sort_and_unify raw) i = false) := by
  have hi0 : i < 2 ^ dn.ctrl.length := by rw [hctrl]; exact hi
  have hbits0 : ∀ j, j < dn.ctrl.length →
      i.testBit j = (dn.ctrl.getD j SigBit.S0).eval inp q := by
    rw [hctrl]; exact hbits
  have key : ∀ i', i' < 2 ^ (sort_and_unify raw).length →
      ((dnode_eq dn (Const i' (sort_and_unify raw).length)).eval inp q = true ↔
        dn.statesig.eval inp q = true ∧ i' = i) := by
    intro i' hi'
    have := dnode_eq_taken dn inp q i i' hi0 (by rw [hctrl]; exact hi') hbits0
    rw [hctrl] at this
    exact this
  refine ⟨?_, ?_, ?_⟩
  · intro T
    rw [hedges]
    simp only [dnode_of_ctrl, List.mem_map, List.mem_filter, List.mem_range,
      Bool.not_eq_true', decide_eq_false_iff_not]
    constructor
    · rintro ⟨e, ⟨i', ⟨hi', hne⟩, rfl⟩, hT, hev⟩
      obtain ⟨hs, rfl⟩ := (key i' hi').1 hev
      exact ⟨hs, hne, hT.symm⟩
    · rintro ⟨hs, hne, hT⟩
      exact ⟨_, ⟨i, ⟨hi, hne⟩, rfl⟩, hT.symm, (key i hi).2 ⟨hs, rfl⟩⟩
  · rw [haccept]
    simp only [dnode_of_ctrl, List.mem_map, List.mem_filter, List.mem_range]
    constructor
    · rintro ⟨v, ⟨i', ⟨hi', hacc⟩, rfl⟩, hev⟩
      obtain ⟨hs, rfl⟩ := (key i' hi').1 hev
      exact ⟨hs, hacc⟩
    · rintro ⟨hs, hacc⟩
      exact ⟨_, ⟨i, ⟨hi, hacc⟩, rfl⟩, (key i hi).2 ⟨hs, rfl⟩⟩
  · rw [hreject]
    simp only [dnode_of_ctrl, List.mem_map, List.mem_filter, List.mem_range,
      Bool.and_eq_true, decide_eq_true_eq, Bool.not_eq_true']
    constructor
    · rintro ⟨v, ⟨i', ⟨hi', hnil, hacc⟩, rfl⟩, hev⟩
      obtain ⟨hs, rfl⟩ := (key i' hi').1 hev
      exact ⟨hs, hnil, hacc⟩
    · rintro ⟨hs, hnil, hacc⟩
      exact ⟨_, ⟨i, ⟨hi, hnil, hacc⟩, rfl⟩, (key i hi).2 ⟨hs, rfl⟩⟩

end SVA


namespace SVA

/-! ## The deterministic automaton follows the reference run -/

theorem linkClosure_nonempty {fsm : SvaFsm} {ev : SigBit → Bool} {E : Nat → Prop} {v : Nat}
    (h : fsm.LinkClosure ev E v) : ∃ u, E u := by
  induction h with
  | base hE => exact ⟨_, hE⟩
  | link _ _ _ ih => exact ih

theorem statesig_value (fsm : SvaFsm) (U : List SvaUFsmNode)
    (D : List (List Nat × SvaDFsmNode)) (m' : Module) (rej : SigBit) (accO : Option SigBit)
    (wa : Bool) (hC : fsm.DfsmCircuit U D m' rej accO wa) (it : List Nat × SvaDFsmNode)
    (hit : it ∈ D) (env : Nat → Nat → Bool) (t : Nat) :
    m'.value env t it.2.statesig =
      (m'.qval env t it.2.ffoutwire ||
        (decide (it.1 = [fsm.startNode]) && m'.value env t fsm.trigger_sig)) := by
  obtain ⟨_, hss, _⟩ := hC.2.2.1 it hit
  rw [hss]
  by_cases h : it.1 = [fsm.startNode]
  · rw [if_pos h]
    simp [h, Module.value, SigBit.eval]
  · rw [if_neg h]
    simp [h, Module.value, SigBit.eval]

theorem dfsm_dead (D : List (List Nat × SvaDFsmNode)) (m' : Module)
    (env : Nat → Nat → Bool) (t : Nat)
    (hst : ∀ it ∈ D, m'.value env t it.2.statesig = false)
    (itS : List Nat × SvaDFsmNode) (hS : itS ∈ D) (v : List Bool) :
    ¬ m'.value env t (dnode_eq itS.2 v) = true := by
  intro h
  have := ((eval_dnode_eq itS.2 v _ _).1 h).1
  have h2 := hst itS hS
  unfold Module.value at h2
  rw [h2] at this
  cases this

theorem dfsm_taken (fsm : SvaFsm) (U : List SvaUFsmNode)
    (D : List (List Nat × SvaDFsmNode)) (m' : Module) (rej : SigBit) (accO : Option SigBit)
    (wa : Bool) (hC : fsm.DfsmCircuit U D m' rej accO wa) (env : Nat → Nat → Bool) (t : Nat)
    (K : List Nat) (hKin : K ∈ dict_keys D)
    (hst : ∀ it ∈ D, (m'.value env t it.2.statesig = true ↔ it.1 = K))
    (raw : List SigBit) (hraw : dnode_ctrl_raw U K = Except.ok raw) (i : Nat)
    (hi : i < 2 ^ (sort_and_unify raw).length)
    (hbits : ∀ j, j < (sort_and_unify raw).length →
      i.testBit j = m'.value env t ((sort_and_unify raw).getD j SigBit.S0)) :
    (∀ T, (∃ itS ∈ D, ∃ e ∈ itS.2.edges, e.1 = T ∧
        m'.value env t (dnode_eq itS.2 e.2) = true) ↔
      val_next U K true (sort_and_unify raw) i ≠ [] ∧
        T = usortint (val_next U K true (sort_and_unify raw) i)) ∧
    ((∃ itS ∈ D, ∃ v ∈ itS.2.accept, m'.value env t (dnode_eq itS.2 v) = true) ↔
      val_accept U K (sort_and_unify raw) i = true) ∧
    ((∃ itS ∈ D, ∃ v ∈ itS.2.reject, m'.value env t (dnode_eq itS.2 v) = true) ↔
      val_next U K true (sort_and_unify raw) i = [] ∧
        val_accept U K (sort_and_unify raw) i = false) := by
  -- every entry whose state signal is true has the key `K`, hence the same node
  have hent : ∀ itS ∈ D, m'.value env t itS.2.statesig = true →
      itS.2.ctrl = sort_and_unify raw ∧
      itS.2.edges = (dnode_of_ctrl U true K (sort_and_unify raw)).edges ∧
      itS.2.accept = (dnode_of_ctrl U true K (sort_and_unify raw)).accept ∧
      itS.2.reject = (dnode_of_ctrl U true K (sort_and_unify raw)).reject := by
    intro itS hS hs
    have hk : itS.1 = K := (hst itS hS).1 hs
    obtain ⟨⟨raw', hraw', _, h1, h2, h3, h4⟩, _⟩ := hC.2.2.1 itS hS
    rw [hk, hraw] at hraw'
    have : raw = raw' := Except.ok.inj hraw'
    subst this
    rw [hk] at h2 h3 h4
    exact ⟨h1, h2, h3, h4⟩
  obtain ⟨itK, hitK, hitK1⟩ : ∃ itK ∈ D, itK.1 = K := by
    obtain ⟨itK, h1, h2⟩ := List.mem_map.1 hKin
    exact ⟨itK, h1, h2⟩
  have hsK : m'.value env t itK.2.statesig = true := (hst itK hitK).2 hitK1
  obtain ⟨k1, k2, k3, k4⟩ := hent itK hitK hsK
  obtain ⟨oE, oA, oR⟩ := entry_outcomes U itK.2 K raw k1 k2 k3 k4 (env t) (m'.qval env t)
    i hi hbits
  have hstat : ∀ itS ∈ D, ∀ v, m'.value env t (dnode_eq itS.2 v) = true →
      m'.value env t itS.2.statesig = true := by
    intro itS _ v h
    exact ((eval_dnode_eq itS.2 v _ _).1 h).1
  refine ⟨?_, ?_, ?_⟩
  · intro T
    constructor
    · rintro ⟨itS, hS, e, he, hT, hev⟩
      obtain ⟨l1, l2, l3, l4⟩ := hent itS hS (hstat itS hS _ hev)
      have := (entry_outcomes U itS.2 K raw l1 l2 l3 l4 (env t) (m'.qval env t)
        i hi hbits).1 T
      exact (this.1 ⟨e, he, hT, hev⟩).2
    · rintro ⟨hne, hT⟩
      obtain ⟨e, he, h1, h2⟩ := (oE T).2 ⟨hsK, hne, hT⟩
      exact ⟨itK, hitK, e, he, h1, h2⟩
  · constructor
    · rintro ⟨itS, hS, v, hv, hev⟩
      obtain ⟨l1, l2, l3, l4⟩ := hent itS hS (hstat itS hS _ hev)
      have := (entry_outcomes U itS.2 K raw l1 l2 l3 l4 (env t) (m'.qval env t)
        i hi hbits).2.1
      exact (this.1 ⟨v, hv, hev⟩).2
    · intro hacc
      obtain ⟨v, hv, h2⟩ := oA.2 ⟨hsK, hacc⟩
      exact ⟨itK, hitK, v, hv, h2⟩
  · constructor
    · rintro ⟨itS, hS, v, hv, hev⟩
      obtain ⟨l1, l2, l3, l4⟩ := hent itS hS (hstat itS hS _ hev)
      have := (entry_outcomes U itS.2 K raw l1 l2 l3 l4 (env t) (m'.qval env t)
        i hi hbits).2.2
      exact (this.1 ⟨v, hv, hev⟩).2
    · intro hrej
      obtain ⟨v, hv, h2⟩ := oR.2 ⟨hsK, hrej.1, hrej.2⟩
      exact ⟨itK, hitK, v, hv, h2⟩

end SVA


namespace SVA

/-! ## The live nodes of the reference run -/

theorem refLive_lt {fsm : SvaFsm} (hwf : fsm.WellFormed) (val : Nat → SigBit → Bool)
    (t w : Nat) (h : fsm.refLive val t w) : w < fsm.nodes.length :=
  refEnabled_lt hwf val t w h.2

theorem refLive_closure (fsm : SvaFsm) (val : Nat → SigBit → Bool) (t : Nat)
    (hno : ∀ t', t' < t → ¬ fsm.refActive val t' fsm.acceptNode) (m : Nat) :
    fsm.LinkClosure (val t) (fsm.refLive val t) m ↔ fsm.refActive val t m := by
  unfold SvaFsm.refActive
  apply linkClosure_congr
  intro w
  exact ⟨fun h => h.2, fun h => ⟨hno, h⟩⟩

theorem refLive_zero (fsm : SvaFsm) (val : Nat → SigBit → Bool)
    (hdis : ∀ t, val t fsm.disable_sig = false)
    (htrig : ∀ t, val t fsm.trigger_sig = true ↔ t = 0) (w : Nat) :
    fsm.refLive val 0 w ↔ w = fsm.startNode := by
  unfold SvaFsm.refLive SvaFsm.refEnabled
  constructor
  · rintro ⟨_, _, h | h⟩
    · cases h
    · exact h.1
  · intro h
    exact ⟨fun t' ht' => absurd ht' (Nat.not_lt_zero t'), hdis 0, Or.inr ⟨h, (htrig 0).2 rfl⟩⟩

theorem refLive_succ (fsm : SvaFsm) (val : Nat → SigBit → Bool)
    (hdis : ∀ t, val t fsm.disable_sig = false)
    (htrig : ∀ t, val t fsm.trigger_sig = true ↔ t = 0) (t w : Nat) :
    fsm.refLive val (t + 1) w ↔
      (∀ t', t' < t → ¬ fsm.refActive val t' fsm.acceptNode) ∧
      ¬ fsm.refActive val t fsm.acceptNode ∧ fsm.refStored val (t + 1) w := by
  unfold SvaFsm.refLive SvaFsm.refEnabled
  constructor
  · rintro ⟨hno, _, h | h⟩
    · exact ⟨fun t' ht' => hno t' (by omega), hno t (by omega), h⟩
    · have := (htrig (t + 1)).1 h.2
      omega
  · rintro ⟨hno, hnt, hs⟩
    refine ⟨?_, hdis _, Or.inl hs⟩
    intro t' ht'
    rcases Nat.lt_succ_iff_lt_or_eq.1 ht' with h | h
    · exact hno t' h
    · rw [h]; exact hnt

theorem refLive_dead_succ (fsm : SvaFsm) (val : Nat → SigBit → Bool)
    (hdis : ∀ t, val t fsm.disable_sig = false)
    (htrig : ∀ t, val t fsm.trigger_sig = true ↔ t = 0) (t : Nat)
    (hdead : ¬ ∃ w, fsm.refLive val t w) : ¬ ∃ w, fsm.refLive val (t + 1) w := by
  rintro ⟨w, hw⟩
  obtain ⟨hno, _, hs⟩ := (refLive_succ fsm val hdis htrig t w).1 hw
  obtain ⟨u, c, hact, _, _⟩ := (refStored_succ fsm val t w).1 hs
  obtain ⟨u0, hu0⟩ := linkClosure_nonempty hact
  exact hdead ⟨u0, hno, hu0⟩

theorem dfsm_ref_step (fsm : SvaFsm) (hwf : fsm.WellFormed) (U : List SvaUFsmNode)
    (hU : ∀ j, j < fsm.nodes.length → fsm.UnodeOf j (U.getD j default))
    (val : Nat → SigBit → Bool) (hS1 : ∀ t, val t SigBit.S1 = true)
    (hdis : ∀ t, val t fsm.disable_sig = false)
    (htrig : ∀ t, val t fsm.trigger_sig = true ↔ t = 0) (t : Nat)
    (K : List Nat) (hK : ∀ w, w ∈ K ↔ fsm.refLive val t w) (hne : K ≠ [])
    (raw : List SigBit) (hraw : dnode_ctrl_raw U K = Except.ok raw) (i : Nat)
    (hbits : ∀ j, j < (sort_and_unify raw).length →
      i.testBit j = val t ((sort_and_unify raw).getD j SigBit.S0)) :
    (∀ t', t' < t → ¬ fsm.refActive val t' fsm.acceptNode) ∧
    (val_accept U K (sort_and_unify raw) i = true ↔ fsm.refActive val t fsm.acceptNode) ∧
    (∀ w, w ∈ val_next U K true (sort_and_unify raw) i ↔ fsm.refLive val (t + 1) w) := by
  have hno : ∀ t', t' < t → ¬ fsm.refActive val t' fsm.acceptNode := by
    obtain ⟨w, hw⟩ := List.exists_mem_of_ne_nil K hne
    exact ((hK w).1 hw).1
  have hU' : ∀ u, fsm.refLive val t u → fsm.UnodeOf u (U.getD u default) :=
    fun u hu => hU u (refLive_lt hwf val t u hu)
  have hacc := step_accept fsm (val t) (hS1 t) (fsm.refLive val t) U hU' K hK raw hraw i hbits
  rw [refLive_closure fsm val t hno] at hacc
  refine ⟨hno, hacc, ?_⟩
  intro w
  rw [step_next fsm (val t) (hS1 t) (fsm.refLive val t) U hU' K hK raw hraw i hbits w,
    refLive_closure fsm val t hno, refLive_succ fsm val hdis htrig t w, refStored_succ]
  constructor
  · rintro ⟨h1, m, c, h2, h3, h4⟩
    exact ⟨hno, h1, m, c, (refLive_closure fsm val t hno m).1 h2, h3, h4⟩
  · rintro ⟨_, h1, m, c, h2, h3, h4⟩
    exact ⟨h1, m, c, (refLive_closure fsm val t hno m).2 h2, h3, h4⟩

end SVA


namespace SVA

theorem statesig_succ (fsm : SvaFsm) (U : List SvaUFsmNode)
    (D : List (List Nat × SvaDFsmNode)) (m' : Module) (rej : SigBit) (accO : Option SigBit)
    (wa : Bool) (hC : fsm.DfsmCircuit U D m' rej accO wa) (env : Nat → Nat → Bool)
    (htrig : ∀ t, m'.value env t fsm.trigger_sig = true ↔ t = 0)
    (it : List Nat × SvaDFsmNode) (hit : it ∈ D) (t : Nat) :
    m'.value env (t + 1) it.2.statesig = true ↔
      ∃ itS ∈ D, ∃ e ∈ itS.2.edges, e.1 = it.1 ∧
        m'.value env t (dnode_eq itS.2 e.2) = true := by
  rw [statesig_value fsm U D m' rej accO wa hC it hit env (t + 1)]
  have htr : m'.value env (t + 1) fsm.trigger_sig = false := by
    cases h : m'.value env (t + 1) fsm.trigger_sig
    · rfl
    · have := (htrig (t + 1)).1 h
      omega
  rw [htr, Bool.and_false, Bool.or_false]
  exact (hC.2.2.1 it hit).2.2.2.2 env t

theorem dfsm_zero (fsm : SvaFsm) (U : List SvaUFsmNode)
    (D : List (List Nat × SvaDFsmNode)) (m' : Module) (rej : SigBit) (accO : Option SigBit)
    (wa : Bool) (hC : fsm.DfsmCircuit U D m' rej accO wa) (hdis0 : fsm.disable_sig = SigBit.S0)
    (env : Nat → Nat → Bool)
    (htrig : ∀ t, m'.value env t fsm.trigger_sig = true ↔ t = 0) :
    fsm.DfsmAt D m' env 0 := by
  have hdis : ∀ t, m'.value env t fsm.disable_sig = false := by
    intro t; rw [hdis0]; rfl
  refine Or.inr ⟨[fsm.startNode], hC.2.1, ?_, by simp, List.sorted_singleton _, ?_⟩
  · intro w
    rw [refLive_zero fsm _ hdis htrig, List.mem_singleton]
  · intro it hit
    rw [statesig_value fsm U D m' rej accO wa hC it hit env 0,
      (hC.2.2.1 it hit).2.2.2.1 env, (htrig 0).2 rfl]
    simp

theorem dfsm_succ (fsm : SvaFsm) (hwf : fsm.WellFormed) (U : List SvaUFsmNode)
    (hU : ∀ j, j < fsm.nodes.length → fsm.UnodeOf j (U.getD j default))
    (D : List (List Nat × SvaDFsmNode)) (m' : Module) (rej : SigBit) (accO : Option SigBit)
    (wa : Bool) (hC : fsm.DfsmCircuit U D m' rej accO wa) (hdis0 : fsm.disable_sig = SigBit.S0)
    (env : Nat → Nat → Bool)
    (htrig : ∀ t, m'.value env t fsm.trigger_sig = true ↔ t = 0) (t : Nat)
    (h : fsm.DfsmAt D m' env t) : fsm.DfsmAt D m' env (t + 1) := by
  have hdis : ∀ t, m'.value env t fsm.disable_sig = false := by
    intro t; rw [hdis0]; rfl
  have hS1 : ∀ t, m'.value env t SigBit.S1 = true := fun _ => rfl
  rcases h with ⟨hdead, hst⟩ | ⟨K, hKin, hK, hne, hsorted, hst⟩
  · refine Or.inl ⟨refLive_dead_succ fsm _ hdis htrig t hdead, ?_⟩
    intro it hit
    cases hv : m'.value env (t + 1) it.2.statesig
    · rfl
    · obtain ⟨itS, hS, e, _, _, hev⟩ :=
        (statesig_succ fsm U D m' rej accO wa hC env htrig it hit t).1 hv
      exact absurd hev (dfsm_dead D m' env t hst itS hS e.2)
  · obtain ⟨itK, hitK, hitK1⟩ : ∃ itK ∈ D, itK.1 = K := by
      obtain ⟨itK, h1, h2⟩ := List.mem_map.1 hKin
      exact ⟨itK, h1, h2⟩
    obtain ⟨⟨raw, hraw, _, hc1, hc2, _, _⟩, _, hcl, _⟩ := hC.2.2.1 itK hitK
    rw [hitK1] at hraw hc2
    obtain ⟨i, hi, hbits⟩ := exists_valuation
      (fun j => m'.value env t ((sort_and_unify raw).getD j SigBit.S0))
      (sort_and_unify raw).length
    obtain ⟨hE, _, _⟩ := dfsm_taken fsm U D m' rej accO wa hC env t K hKin hst raw hraw i hi hbits
    obtain ⟨_, _, hnext⟩ := dfsm_ref_step fsm hwf U hU (m'.value env) hS1 hdis htrig t K hK hne
      raw hraw i hbits
    by_cases hnil : val_next U K true (sort_and_unify raw) i = []
    · refine Or.inl ⟨?_, ?_⟩
      · rintro ⟨w, hw⟩
        have := (hnext w).2 hw
        rw [hnil] at this
        cases this
      · intro it hit
        cases hv : m'.value env (t + 1) it.2.statesig
        · rfl
        · have := (statesig_succ fsm U D m' rej accO wa hC env htrig it hit t).1 hv
          exact absurd hnil ((hE it.1).1 this).1
    · refine Or.inr ⟨usortint (val_next U K true (sort_and_unify raw) i), ?_, ?_, ?_,
        sorted_usortint _, ?_⟩
      · obtain ⟨itS, hS, e, he, hT, hev⟩ := (hE _).2 ⟨hnil, rfl⟩
        have := (hC.2.2.1 itS hS).2.2.1 e he
        rw [hT] at this
        exact this
      · intro w
        rw [mem_usortint]
        exact hnext w
      · intro h0
        exact hnil ((usortint_eq_nil_iff _).1 h0)
      · intro it hit
        rw [statesig_succ fsm U D m' rej accO wa hC env htrig it hit t, hE it.1]
        exact ⟨fun h => h.2, fun h => ⟨hnil, h⟩⟩

theorem dfsm_all (fsm : SvaFsm) (hwf : fsm.WellFormed) (U : List SvaUFsmNode)
    (hU : ∀ j, j < fsm.nodes.length → fsm.UnodeOf j (U.getD j default))
    (D : List (List Nat × SvaDFsmNode)) (m' : Module) (rej : SigBit) (accO : Option SigBit)
    (wa : Bool) (hC : fsm.DfsmCircuit U D m' rej accO wa) (hdis0 : fsm.disable_sig = SigBit.S0)
    (env : Nat → Nat → Bool)
    (htrig : ∀ t, m'.value env t fsm.trigger_sig = true ↔ t = 0) (t : Nat) :
    fsm.DfsmAt D m' env t := by
  induction t with
  | zero => exact dfsm_zero fsm U D m' rej accO wa hC hdis0 env htrig
  | succ t ih => exact dfsm_succ fsm hwf U hU D m' rej accO wa hC hdis0 env htrig t ih

end SVA


namespace SVA

/-! ## The outputs of the deterministic automaton -/

theorem dfsm_outputs (fsm : SvaFsm) (hwf : fsm.WellFormed) (U : List SvaUFsmNode)
    (hU : ∀ j, j < fsm.nodes.length → fsm.UnodeOf j (U.getD j default))
    (D : List (List Nat × SvaDFsmNode)) (m' : Module) (rej : SigBit) (accO : Option SigBit)
    (wa : Bool) (hC : fsm.DfsmCircuit U D m' rej accO wa) (hdis0 : fsm.disable_sig = SigBit.S0)
    (env : Nat → Nat → Bool)
    (htrig : ∀ t, m'.value env t fsm.trigger_sig = true ↔ t = 0) (t : Nat) :
    ((∃ it ∈ D, ∃ v ∈ it.2.accept, m'.value env t (dnode_eq it.2 v) = true) ↔
      (∀ t', t' < t → ¬ fsm.refActive (m'.value env) t' fsm.acceptNode) ∧
        fsm.refActive (m'.value env) t fsm.acceptNode) ∧
    ((∃ it ∈ D, ∃ v ∈ it.2.reject, m'.value env t (dnode_eq it.2 v) = true) ↔
      (∀ t', t' < t → ¬ fsm.refActive (m'.value env) t' fsm.acceptNode) ∧
        (∃ w, fsm.refEnabled (m'.value env) t w) ∧
        ¬ fsm.refActive (m'.value env) t fsm.acceptNode ∧
        ∀ w, ¬ fsm.refStored (m'.value env) (t + 1) w) := by
  have hdis : ∀ t, m'.value env t fsm.disable_sig = false := by
    intro t; rw [hdis0]; rfl
  have hS1 : ∀ t, m'.value env t SigBit.S1 = true := fun _ => rfl
  rcases dfsm_all fsm hwf U hU D m' rej accO wa hC hdis0 env htrig t with
    ⟨hdead, hst⟩ | ⟨K, hKin, hK, hne, hsorted, hst⟩
  · constructor
    · constructor
      · rintro ⟨it, hit, v, _, hev⟩
        exact absurd hev (dfsm_dead D m' env t hst it hit v)
      · rintro ⟨hno, hacc⟩
        obtain ⟨u, hu⟩ := linkClosure_nonempty hacc
        exact absurd ⟨u, hno, hu⟩ hdead
    · constructor
      · rintro ⟨it, hit, v, _, hev⟩
        exact absurd hev (dfsm_dead D m' env t hst it hit v)
      · rintro ⟨hno, ⟨w, hw⟩, _, _⟩
        exact absurd ⟨w, hno, hw⟩ hdead
  · obtain ⟨itK, hitK, hitK1⟩ : ∃ itK ∈ D, itK.1 = K := by
      obtain ⟨itK, h1, h2⟩ := List.mem_map.1 hKin
      exact ⟨itK, h1, h2⟩
    obtain ⟨⟨raw, hraw, _, _⟩, _⟩ := hC.2.2.1 itK hitK
    rw [hitK1] at hraw
    obtain ⟨i, hi, hbits⟩ := exists_valuation
      (fun j => m'.value env t ((sort_and_unify raw).getD j SigBit.S0))
      (sort_and_unify raw).length
    obtain ⟨_, hA, hR⟩ := dfsm_taken fsm U D m' rej accO wa hC env t K hKin hst raw hraw i hi hbits
    obtain ⟨hno, hacc, hnext⟩ := dfsm_ref_step fsm hwf U hU (m'.value env) hS1 hdis htrig t K hK
      hne raw hraw i hbits
    constructor
    · rw [hA, hacc]
      exact ⟨fun h => ⟨hno, h⟩, fun h => h.2⟩
    · rw [hR]
      constructor
      · rintro ⟨hnil, hna⟩
        have hna' : ¬ fsm.refActive (m'.value env) t fsm.acceptNode := by
          intro h
          rw [hacc.2 h] at hna
          cases hna
        obtain ⟨w, hw⟩ := List.exists_mem_of_ne_nil K hne
        refine ⟨hno, ⟨w, ((hK w).1 hw).2⟩, hna', ?_⟩
        intro w' hw'
        have := (hnext w').2
          ((refLive_succ fsm _ hdis htrig t w').2 ⟨hno, hna', hw'⟩)
        rw [hnil] at this
        cases this
      · rintro ⟨_, _, hna, hns⟩
        constructor
        · apply List.eq_nil_iff_forall_not_mem.2
          intro w hw
          exact hns w ((refLive_succ fsm _ hdis htrig t w).1 ((hnext w).1 hw)).2.2
        · cases hv : val_accept U K (sort_and_unify raw) i
          · rfl
          · exact absurd (hacc.1 hv) hna

end SVA


namespace SVA

theorem getReject_outputs (fsm : SvaFsm) (m : Module) (hwf : fsm.WellFormed)
    (hac : fsm.Acyclic) (hdis0 : fsm.disable_sig = SigBit.S0) (hun : fsm.unodes = [])
    (hdn : fsm.dnodes = []) (wa : Bool) (m' : Module) (fsm' : SvaFsm) (rej : SigBit)
    (accO : Option SigBit) (hrun : fsm.getReject m wa = Except.ok (m', fsm', rej, accO))
    (env : Nat → Nat → Bool)
    (htrig : ∀ t, m'.value env t fsm.trigger_sig = true ↔ t = 0) (t : Nat) :
    (m'.value env t rej = true ↔
      (∀ t', t' < t → ¬ fsm.refActive (m'.value env) t' fsm.acceptNode) ∧
        (∃ w, fsm.refEnabled (m'.value env) t w) ∧
        ¬ fsm.refActive (m'.value env) t fsm.acceptNode ∧
        ∀ w, ¬ fsm.refStored (m'.value env) (t + 1) w) ∧
    (wa = true → ∃ acc, accO = some acc ∧
      (m'.value env t acc = true ↔
        (∀ t', t' < t → ¬ fsm.refActive (m'.value env) t' fsm.acceptNode) ∧
          fsm.refActive (m'.value env) t fsm.acceptNode)) := by
  obtain ⟨U, D, hU, hC⟩ := getReject_circuit fsm m wa m' fsm' rej accO hdn hrun
  obtain ⟨_, hUspec⟩ := make_unodes_spec hwf hac hun U hU
  obtain ⟨hA, hR⟩ := dfsm_outputs fsm hwf U hUspec D m' rej accO wa hC hdis0 env htrig t
  constructor
  · rw [hC.2.2.2.1 env t]
    exact hR
  · intro hwa
    obtain ⟨acc, hacc, hval⟩ := hC.2.2.2.2 hwa
    refine ⟨acc, hacc, ?_⟩
    rw [hval env t]
    exact hA

end SVA


namespace SVA

/-! ## `mark_reachable_unode` returns -/

theorem unmarked_set (U : List SvaUFsmNode) :
    ∀ (u : Nat), u < U.length → (U.getD u default).reachable = false →
      unmarked (U.set u { U.getD u default with reachable := true }) + 1 = unmarked U := by
  induction U with
  | nil => intro u hu; cases hu
  | cons a U ih =>
    intro u hu hr
    cases u with
    | zero =>
      have ha : a.reachable = false := hr
      simp [unmarked, List.countP_cons, ha]
    | succ u =>
      have hu' : u < U.length := by simpa using hu
      have hr' : (U.getD u default).reachable = false := by simpa using hr
      have := ih u hu' hr'
      simp only [unmarked, List.set_cons_succ, List.countP_cons, List.getD_cons_succ] at this ⊢
      omega

theorem mark_reachable_step (U : List SvaUFsmNode) (u : Nat) (S : List Nat)
    (hu : u < U.length) (hcl : MarksClosed U S) :
    (∀ j, (U.getD j default).reachable = true →
      ((U.set u { U.getD u default with reachable := true }).getD j default).reachable = true) ∧
    ((U.set u { U.getD u default with reachable := true }).getD u default).reachable = true ∧
    MarksClosed (U.set u { U.getD u default with reachable := true }) (u :: S) := by
  have hget : ∀ j, j ≠ u →
      (U.set u { U.getD u default with reachable := true }).getD j default =
        U.getD j default := fun j hj => getD_set_ne _ _ _ _ _ (fun e => hj e.symm)
  have hmono : ∀ j, (U.getD j default).reachable = true →
      ((U.set u { U.getD u default with reachable := true }).getD j default).reachable =
        true := by
    intro j hj
    by_cases hju : j = u
    · rw [hju, getD_set_eq _ _ _ _ hu]
    · rw [hget j hju]; exact hj
  refine ⟨hmono, by rw [getD_set_eq _ _ _ _ hu], ?_⟩
  intro j hj hjS e he
  have hju : j ≠ u := fun e' => hjS (e' ▸ List.mem_cons_self _ _)
  rw [hget j hju] at hj he
  exact hmono _ (hcl j hj (fun h => hjS (List.mem_cons_of_mem _ h)) e he)

theorem mark_reachable_fold (k : Nat) (T : List Nat)
    (ih : ∀ (U : List SvaUFsmNode) (u : Nat), unmarked U < k → u < U.length →
      (∀ j, ∀ e ∈ (U.getD j default).edges, e.1 < U.length) → MarksClosed U T →
      ∃ U', mark_reachable_unode k U u = Except.ok U' ∧ unmarked U' ≤ unmarked U ∧
        (∀ j, (U.getD j default).reachable = true → (U'.getD j default).reachable = true) ∧
        (U'.getD u default).reachable = true ∧ MarksClosed U' T) :
    ∀ (es : List (Nat × List SigBit)) (V : List SvaUFsmNode),
      (∀ e ∈ es, e.1 < V.length) → unmarked V < k →
      (∀ j, ∀ e ∈ (V.getD j default).edges, e.1 < V.length) → MarksClosed V T →
      ∃ V', es.foldlM (fun (unodes : List SvaUFsmNode) it =>
          mark_reachable_unode k unodes it.1) V = Except.ok V' ∧
        unmarked V' ≤ unmarked V ∧
        (∀ j, (V.getD j default).reachable = true → (V'.getD j default).reachable = true) ∧
        MarksClosed V' T ∧ ∀ e ∈ es, (V'.getD e.1 default).reachable = true := by
  intro es
  induction es with
  | nil =>
    intro V _ _ _ hcl
    exact ⟨V, rfl, le_refl _, fun j h => h, hcl, fun e he => by cases he⟩
  | cons e es ihes =>
    intro V hes hk hR hcl
    obtain ⟨V1, hrun, hle, hmono, hmark, hcl1⟩ :=
      ih V e.1 hk (hes e (List.mem_cons_self _ _)) hR hcl
    obtain ⟨hlen, hkeep⟩ := mark_reachable_unode_keeps _ _ _ _ hrun
    have hR1 : ∀ j, ∀ e ∈ (V1.getD j default).edges, e.1 < V1.length := by
      intro j e' he'
      rw [(hkeep j).1] at he'
      rw [hlen]
      exact hR j e' he'
    obtain ⟨V', hrun', hle', hmono', hcl', hall⟩ := ihes V1
      (fun e' he' => by rw [hlen]; exact hes e' (List.mem_cons_of_mem _ he'))
      (by omega) hR1 hcl1
    refine ⟨V', ?_, by omega, fun j h => hmono' j (hmono j h), hcl', ?_⟩
    · rw [foldlM_ok_cons, hrun]
      exact hrun'
    · intro e' he'
      rcases List.mem_cons.1 he' with h | h
      · rw [h]; exact hmono' _ hmark
      · exact hall e' h

theorem mark_reachable_total :
    ∀ (fuel : Nat) (S : List Nat) (U : List SvaUFsmNode) (u : Nat),
      unmarked U < fuel → u < U.length →
      (∀ j, ∀ e ∈ (U.getD j default).edges, e.1 < U.length) → MarksClosed U S →
      ∃ U', mark_reachable_unode fuel U u = Except.ok U' ∧ unmarked U' ≤ unmarked U ∧
        (∀ j, (U.getD j default).reachable = true → (U'.getD j default).reachable = true) ∧
        (U'.getD u default).reachable = true ∧ MarksClosed U' S := by
  intro fuel
  induction fuel with
  | zero => intro S U u h; omega
  | succ k ih =>
    intro S U u hk hu hR hcl
    unfold mark_reachable_unode
    by_cases hr : (U.getD u default).reachable = true
    · rw [if_pos hr]
      exact ⟨U, rfl, le_refl _, fun j h => h, hr, hcl⟩
    · rw [if_neg hr]
      have hr' : (U.getD u default).reachable = false := by
        cases h : (U.getD u default).reachable
        · rfl
        · exact absurd h hr
      have hcount := unmarked_set U u hu hr'
      obtain ⟨hmono, hmark, hcl1⟩ := mark_reachable_step U u S hu hcl
      have hedges : ∀ j, ((U.set u { U.getD u default with reachable := true }).getD j
          default).edges = (U.getD j default).edges := by
        intro j
        by_cases hj : j = u
        · rw [hj, getD_set_eq _ _ _ _ hu]
        · rw [getD_set_ne _ _ _ _ _ (fun e => hj e.symm)]
      have hlen : (U.set u { U.getD u default with reachable := true }).length = U.length :=
        List.length_set _ _ _
      obtain ⟨V', hrun, hle, hmono', hcl', hall⟩ :=
        mark_reachable_fold k (u :: S) (ih (u :: S)) (U.getD u default).edges
          (U.set u { U.getD u default with reachable := true })
          (fun e he => by rw [hlen]; exact hR u e he) (by omega)
          (fun j e he => by rw [hlen]; rw [hedges j] at he; exact hR j e he) hcl1
      refine ⟨V', hrun, by omega, fun j h => hmono' j (hmono j h), hmono' u hmark, ?_⟩
      obtain ⟨_, hkeep⟩ := foldlM_preserves
        (fun (A B : List SvaUFsmNode) => B.length = A.length ∧
          ∀ j, (B.getD j default).edges = (A.getD j default).edges ∧
            (B.getD j default).accept = (A.getD j default).accept)
        (fun s => ⟨rfl, fun j => ⟨rfl, rfl⟩⟩)
        (fun a b c hab hbc => ⟨hbc.1.trans hab.1, fun j =>
          ⟨((hbc.2 j).1).trans ((hab.2 j).1), ((hbc.2 j).2).trans ((hab.2 j).2)⟩⟩)
        (fun (unodes : List SvaUFsmNode) (it : Nat × List SigBit) =>
          mark_reachable_unode k unodes it.1)
        (U.getD u default).edges
        (fun s a s' _ hs => mark_reachable_unode_keeps k s a.1 s' hs) _ _ hrun
      intro j hj hjS e he
      by_cases hju : j = u
      · subst hju
        rw [(hkeep j).1, hedges j] at he
        exact hall e he
      · exact hcl' j hj (fun h => by
          rcases List.mem_cons.1 h with h | h
          · exact hju h
          · exact hjS h) e he

end SVA


namespace SVA

/-! ## `make_unodes` returns -/

theorem make_unodes_loop_unmarked {fsm : SvaFsm} (hwf : fsm.WellFormed) (hac : fsm.Acyclic) :
    ∀ k, k ≤ fsm.nodes.length →
      ∀ U, (List.range k).foldlM
          (fun (unodes : List SvaUFsmNode) node =>
            fsm.node_to_unode fsm.nodes.length unodes node node [])
          (List.replicate fsm.nodes.length default) = Except.ok U →
        U.length = fsm.nodes.length ∧ ∀ j, (U.getD j default).reachable = false := by
  intro k
  induction k with
  | zero =>
    intro _ U h
    have h' : Except.ok (List.replicate fsm.nodes.length default) = Except.ok U := h
    rw [← Except.ok.inj h']
    refine ⟨List.length_replicate _ _, ?_⟩
    intro j
    by_cases hj : j < fsm.nodes.length
    · rw [getD_replicate _ _ _ _ hj]; rfl
    · rw [getD_of_length_le _ _ _ (by simp; omega)]; rfl
  | succ k ih =>
    intro hk U h
    rw [List.range_succ, foldlM_ok_append] at h
    cases hU0 : (List.range k).foldlM
        (fun (unodes : List SvaUFsmNode) node =>
          fsm.node_to_unode fsm.nodes.length unodes node node [])
        (List.replicate fsm.nodes.length default) with
    | error e => rw [hU0] at h; cases h
    | ok U0 =>
      rw [hU0] at h
      simp only [foldlM_ok_cons, foldlM_ok_nil] at h
      obtain ⟨hlen, hun⟩ := ih (by omega) U0 hU0
      obtain ⟨U', hrun, hlen', hother, hent⟩ :=
        node_to_unode_spec hwf hac k fsm.nodes.length [] U0 k []
          (List.chain'_singleton _) (by intro x hx; simp at hx; omega) (by simp)
          (by omega) sort_and_unify_nil
      rw [hrun] at h
      have hUU : U' = U := Except.ok.inj h
      subst hUU
      refine ⟨hlen'.trans hlen, ?_⟩
      intro j
      by_cases hj : j = k
      · rw [hj, hent.1]
        exact hun k
      · rw [hother j hj]
        exact hun j

theorem make_unodes_total {fsm : SvaFsm} (hwf : fsm.WellFormed) (hac : fsm.Acyclic)
    (hun : fsm.unodes = []) :
    ∃ U, fsm.make_unodes = Except.ok U ∧ U.length = fsm.nodes.length ∧
      (∀ j, ∀ e ∈ (U.getD j default).edges, e.1 < U.length) ∧
      (U.getD fsm.startNode default).reachable = true ∧ MarksClosed U [] := by
  obtain ⟨U0, hU0, hlen0, hspec0, hge0⟩ := make_unodes_loop hwf hac fsm.nodes.length (le_refl _)
  obtain ⟨_, hunm⟩ := make_unodes_loop_unmarked hwf hac fsm.nodes.length (le_refl _) U0 hU0
  have hR0 : ∀ j, ∀ e ∈ (U0.getD j default).edges, e.1 < U0.length := by
    intro j e he
    by_cases hj : j < fsm.nodes.length
    · obtain ⟨m, cs, c, _, hedge, _⟩ := ((hspec0 j hj).1 e.1 e.2).1 he
      rw [hlen0]
      exact hwf.2.2.2 m _ hedge
    · rw [hge0 j (by omega)] at he
      cases he
  have hcl0 : MarksClosed U0 [] := by
    intro j hj
    rw [hunm j] at hj
    cases hj
  have hcnt : unmarked U0 < fsm.nodes.length + 1 := by
    have : unmarked U0 ≤ U0.length := List.countP_le_length _
    omega
  obtain ⟨U, hrun, _, _, hstart, hcl⟩ := mark_reachable_total (fsm.nodes.length + 1) [] U0
    fsm.startNode hcnt (by rw [hlen0]; exact hwf.1) hR0 hcl0
  obtain ⟨hlen, hkeep⟩ := mark_reachable_unode_keeps _ _ _ _ hrun
  refine ⟨U, ?_, hlen.trans hlen0, ?_, hstart, hcl⟩
  · unfold SvaFsm.make_unodes
    simp only [hun, List.take_nil, List.nil_append, List.length_nil, Nat.sub_zero]
    rw [hU0]
    exact hrun
  · intro j e he
    rw [(hkeep j).1] at he
    rw [hlen]
    exact hR0 j e he

end SVA


namespace SVA

/-! ## `create_dnode` returns or stops at the guard -/

theorem dnode_ctrl_raw_ok (U : List SvaUFsmNode) (S : List Nat)
    (h : ∀ x ∈ S, (U.getD x default).reachable = true) :
    ∃ raw, dnode_ctrl_raw U S = Except.ok raw := by
  unfold dnode_ctrl_raw
  generalize ([] : List SigBit) = acc
  induction S generalizing acc with
  | nil => exact ⟨acc, rfl⟩
  | cons x S ih =>
    rw [foldlM_ok_cons]
    have hx := h x (List.mem_cons_self _ _)
    simp only [hx, not_true_eq_false, if_false]
    exact ih (fun y hy => h y (List.mem_cons_of_mem _ hy)) _

theorem good_next (U : List SvaUFsmNode)
    (hR : ∀ j, ∀ e ∈ (U.getD j default).edges, e.1 < U.length) (hcl : MarksClosed U [])
    (S : List Nat) (hS : GoodState U S) (ctrl : List SigBit) (i : Nat) :
    GoodState U (usortint (val_next U S true ctrl i)) := by
  refine ⟨sorted_usortint _, ?_⟩
  intro x hx
  rw [mem_usortint, mem_val_next] at hx
  obtain ⟨_, u, hu, e, he, hex, _⟩ := hx
  rw [← hex]
  exact ⟨hR u e he, hcl u (hS.2 u hu).2 (by simp) e he⟩

theorem good_toFinset_inj (U : List SvaUFsmNode) (K S : List Nat) (hK : GoodState U K)
    (hS : GoodState U S) (h : K.toFinset = S.toFinset) : K = S := by
  apply strictSorted_ext K S hK.1 hS.1
  intro w
  rw [← List.mem_toFinset, h, List.mem_toFinset]

theorem dnode_loop_total (U : List SvaUFsmNode) (S : List Nat) (ctrl : List SigBit)
    (construct : List (List Nat × SvaDFsmNode) → List Nat →
      Except Failure (List (List Nat × SvaDFsmNode)))
    (P : List (List Nat × SvaDFsmNode) → Prop)
    (hC : ∀ d i, P d →
      (∃ d', construct d (usortint (val_next U S true ctrl i)) = Except.ok d' ∧ P d') ∨
      construct d (usortint (val_next U S true ctrl i)) =
        Except.error (Failure.log_error ctrl_error)) :
    ∀ (l : List Nat) (acc : SvaDFsmNode × List (List Nat × SvaDFsmNode)), P acc.2 →
      (∃ res, l.foldlM (dnode_step U S true ctrl construct) acc = Except.ok res) ∨
      l.foldlM (dnode_step U S true ctrl construct) acc =
        Except.error (Failure.log_error ctrl_error) := by
  intro l
  induction l with
  | nil => intro acc _; exact Or.inl ⟨acc, rfl⟩
  | cons i l ih =>
    intro acc hP
    rw [foldlM_ok_cons, dnode_step_eq]
    by_cases hnext : val_next U S true ctrl i = []
    · rw [if_pos hnext]
      exact ih _ hP
    · rw [if_neg hnext]
      rcases hC acc.2 i hP with ⟨d', hd', hP'⟩ | herr
      · rw [hd']
        exact ih _ hP'
      · rw [herr]
        exact Or.inr rfl

theorem create_dnode_total (U : List SvaUFsmNode)
    (hR : ∀ j, ∀ e ∈ (U.getD j default).edges, e.1 < U.length) (hcl : MarksClosed U []) :
    ∀ (fuel : Nat) (d : List (List Nat × SvaDFsmNode)) (S : List Nat)
      (A : Finset (Finset Nat)), GoodState U S →
      (∀ K, GoodState U K → K ∉ dict_keys d → K.toFinset ∈ A) → A.card < fuel →
      (∃ d', create_dnode U fuel d S true = Except.ok d') ∨
      create_dnode U fuel d S true = Except.error (Failure.log_error ctrl_error) := by
  intro fuel
  induction fuel with
  | zero => intro d S A _ _ h; omega
  | succ k ih =>
    intro d S A hS hA hcard
    rw [create_dnode_succ]
    by_cases hin : S ∈ dict_keys d
    · rw [if_pos ((dict_count_ne_zero_iff d S).2 hin)]
      exact Or.inl ⟨d, rfl⟩
    · rw [if_neg (fun h => hin ((dict_count_ne_zero_iff d S).1 h))]
      obtain ⟨raw, hraw⟩ := dnode_ctrl_raw_ok U S (fun x hx => (hS.2 x hx).2)
      rw [hraw]
      simp only
      by_cases hlen : (sort_and_unify raw).length > 10
      · rw [if_pos hlen]
        exact Or.inr rfl
      · rw [if_neg hlen]
        have hSA : S.toFinset ∈ A := hA S hS hin
        have hcard' : (A.erase S.toFinset).card < k := by
          rw [Finset.card_erase_of_mem hSA]
          have : 0 < A.card := Finset.card_pos.2 ⟨_, hSA⟩
          omega
        have hloop := dnode_loop_total U S (sort_and_unify raw)
          (fun d s => create_dnode U k d s true)
          (fun d' => ∀ K, K ∈ dict_keys (dict_set d S default) → K ∈ dict_keys d')
          (by
            intro d1 i hP
            have hA' : ∀ K, GoodState U K → K ∉ dict_keys d1 →
                K.toFinset ∈ A.erase S.toFinset := by
              intro K hK hKn
              have hKS : K ≠ S := by
                intro e
                exact hKn (e ▸ hP S ((mem_dict_keys_dict_set d S S default).2 (Or.inl rfl)))
              have hKd : K ∉ dict_keys d := fun h =>
                hKn (hP K ((mem_dict_keys_dict_set d S K default).2 (Or.inr h)))
              refine Finset.mem_erase.2 ⟨?_, hA K hK hKd⟩
              intro e
              exact hKS (good_toFinset_inj U K S hK hS e)
            rcases ih d1 _ (A.erase S.toFinset) (good_next U hR hcl S hS _ i) hA' hcard' with
              ⟨d', hd'⟩ | herr
            · refine Or.inl ⟨d', hd', ?_⟩
              intro K hK
              exact (create_dnode_inv U true k d1 _ d' hd').2.1 K (hP K hK)
            · exact Or.inr herr)
          (List.range (1 <<< (sort_and_unify raw).length))
          ({ ctrl := sort_and_unify raw }, dict_set d S default) (fun K hK => hK)
        rcases hloop with ⟨res, hres⟩ | herr
        · rw [hres]
          exact Or.inl ⟨_, rfl⟩
        · rw [herr]
          exact Or.inr rfl

end SVA


namespace SVA

/-! ## `getReject` returns or stops at the guard -/

theorem getReject_total (fsm : SvaFsm) (m : Module) (wa : Bool) (hwf : fsm.WellFormed)
    (hac : fsm.Acyclic) (hun : fsm.unodes = []) (hdn : fsm.dnodes = []) :
    (∃ m' fsm' rej accO, fsm.getReject m wa = Except.ok (m', fsm', rej, accO)) ∨
    fsm.getReject m wa = Except.error (Failure.log_error ctrl_error) := by
  obtain ⟨U, hU, hlen, hR, hstart, hcl⟩ := make_unodes_total hwf hac hun
  have hgood : GoodState U [fsm.startNode] := by
    refine ⟨List.sorted_singleton _, ?_⟩
    intro x hx
    rw [List.mem_singleton.1 hx]
    exact ⟨by rw [hlen]; exact hwf.1, hstart⟩
  have hA : ∀ K, GoodState U K → K ∉ dict_keys ([] : List (List Nat × SvaDFsmNode)) →
      K.toFinset ∈ (Finset.range fsm.nodes.length).powerset := by
    intro K hK _
    rw [Finset.mem_powerset]
    intro x hx
    rw [Finset.mem_range, ← hlen]
    exact (hK.2 x (List.mem_toFinset.1 hx)).1
  have hcard : ((Finset.range fsm.nodes.length).powerset).card < 2 ^ fsm.nodes.length + 1 := by
    rw [Finset.card_powerset, Finset.card_range]
    omega
  unfold SvaFsm.getReject
  rw [hU, hdn]
  simp only
  rcases create_dnode_total U hR hcl (2 ^ fsm.nodes.length + 1) [] [fsm.startNode] _ hgood hA
    hcard with ⟨d, hD⟩ | herr
  · left
    rw [hD]
    simp only
    obtain ⟨hnd0, _, hent0⟩ := create_dnode_top U _ _ d hD
    rw [reject_state_signals_eq]
    simp only
    have hk1 : dict_keys (fsm.with_wires m.nwires (dict_sort d)) = dict_keys (dict_sort d) :=
      with_wires_keys fsm _ _
    have hent1 := with_wires_entry fsm U m.nwires (dict_sort d) hent0
    have hnd1 : (dict_keys (fsm.with_wires m.nwires (dict_sort d))).Nodup := by
      rw [hk1]; exact hnd0
    rw [reject_activations_eq wa _ hnd1 (fun it hit => (hent1 it hit).2.2.1)]
    exact ⟨_, _, _, _, rfl⟩
  · right
    rw [herr]

end SVA


namespace SVA

/-! ## Pending matches in the reference run -/

theorem refStored_nonempty_pred (fsm : SvaFsm) (val : Nat → SigBit → Bool)
    (htrig : ∀ t, val t fsm.trigger_sig = true ↔ t = 0) (s : Nat) (hs : 1 ≤ s)
    (h : ∃ w, fsm.refStored val (s + 1) w) : ∃ w, fsm.refStored val s w := by
  obtain ⟨w, hw⟩ := h
  obtain ⟨u, c, hact, _, _⟩ := (refStored_succ fsm val s w).1 hw
  obtain ⟨u0, hu0⟩ := linkClosure_nonempty hact
  rcases hu0.2 with h | h
  · exact ⟨u0, h⟩
  · have := (htrig s).1 h.2
    omega

theorem refStored_nonempty_mono (fsm : SvaFsm) (val : Nat → SigBit → Bool)
    (htrig : ∀ t, val t fsm.trigger_sig = true ↔ t = 0) (s : Nat) (hs : 1 ≤ s) :
    ∀ d, (∃ w, fsm.refStored val (s + d) w) → ∃ w, fsm.refStored val s w := by
  intro d
  induction d with
  | zero => exact fun h => h
  | succ d ih =>
    intro h
    exact ih (refStored_nonempty_pred fsm val htrig (s + d) (by omega) h)

theorem refActive_stored (fsm : SvaFsm) (val : Nat → SigBit → Bool)
    (htrig : ∀ t, val t fsm.trigger_sig = true ↔ t = 0) (s : Nat) (hs : 1 ≤ s) (v : Nat)
    (h : fsm.refActive val s v) : ∃ w, fsm.refStored val s w := by
  obtain ⟨u0, hu0⟩ := linkClosure_nonempty h
  rcases hu0.2 with h | h
  · exact ⟨u0, h⟩
  · have := (htrig s).1 h.2
    omega

theorem never_rejected_iff (fsm : SvaFsm) (val : Nat → SigBit → Bool) (rejv : Nat → Bool)
    (hdis : ∀ t, val t fsm.disable_sig = false)
    (htrig : ∀ t, val t fsm.trigger_sig = true ↔ t = 0)
    (hrej : ∀ t, rejv t = true ↔
      (∀ t', t' < t → ¬ fsm.refActive val t' fsm.acceptNode) ∧
        (∃ w, fsm.refEnabled val t w) ∧ ¬ fsm.refActive val t fsm.acceptNode ∧
        ∀ w, ¬ fsm.refStored val (t + 1) w) (T : Nat) (hT : 1 ≤ T) :
    (∀ t, t < T → rejv t = false) ↔
      (∃ t, t < T ∧ fsm.refActive val t fsm.acceptNode) ∨ ∃ w, fsm.refStored val T w := by
  constructor
  · intro hnever
    by_cases hacc : ∃ t, t < T ∧ fsm.refActive val t fsm.acceptNode
    · exact Or.inl hacc
    · right
      have hno : ∀ t, t < T → ¬ fsm.refActive val t fsm.acceptNode :=
        fun t ht h => hacc ⟨t, ht, h⟩
      have key : ∀ s, s < T → ∃ w, fsm.refStored val (s + 1) w := by
        intro s
        induction s with
        | zero =>
          intro h0
          by_contra hnone
          have : rejv 0 = true := (hrej 0).2
            ⟨fun t' ht' => absurd ht' (Nat.not_lt_zero t'),
             ⟨fsm.startNode, hdis 0, Or.inr ⟨rfl, (htrig 0).2 rfl⟩⟩, hno 0 h0,
             fun w hw => hnone ⟨w, hw⟩⟩
          rw [hnever 0 h0] at this
          cases this
        | succ s ih =>
          intro hs
          obtain ⟨w, hw⟩ := ih (by omega)
          by_contra hnone
          have : rejv (s + 1) = true := (hrej (s + 1)).2
            ⟨fun t' ht' => hno t' (by omega), ⟨w, hdis _, Or.inl hw⟩, hno _ hs,
             fun w hw => hnone ⟨w, hw⟩⟩
          rw [hnever _ hs] at this
          cases this
      have := key (T - 1) (by omega)
      have hTT : T - 1 + 1 = T := by omega
      rw [hTT] at this
      exact this
  · intro h t ht
    cases hv : rejv t
    · rfl
    · obtain ⟨hno, _, hna, hns⟩ := (hrej t).1 hv
      exfalso
      have hst : ∃ w, fsm.refStored val (t + 1) w := by
        rcases h with ⟨t0, ht0, hacc0⟩ | hstored
        · have hlt : t < t0 := by
            by_contra hge
            rcases Nat.lt_or_eq_of_le (Nat.le_of_not_lt hge) with h1 | h1
            · exact hno t0 h1 hacc0
            · rw [h1] at hacc0
              exact hna hacc0
          obtain ⟨w, hw⟩ := refActive_stored fsm val htrig t0 (by omega) _ hacc0
          have ht0' : t0 = t + 1 + (t0 - (t + 1)) := by omega
          rw [ht0'] at hw
          exact refStored_nonempty_mono fsm val htrig (t + 1) (by omega) _ ⟨w, hw⟩
        · obtain ⟨w, hw⟩ := hstored
          have hT' : T = t + 1 + (T - (t + 1)) := by omega
          rw [hT'] at hw
          exact refStored_nonempty_mono fsm val htrig (t + 1) (by omega) _ ⟨w, hw⟩
      obtain ⟨w, hw⟩ := hst
      exact hns w hw

end SVA


namespace SVA

/-- C10: on an automaton with acyclic links, running `make_link_order(order, i, 0)` for every
node `i` from the all-zero vector returns, and in the result `order[v] ≥ order[u] + 1` for every
link `u -> v`; moreover `order[v]` is the length of the longest link path ending at `v`: some
link path of that length ends at `v` and no link path ending at `v` is longer. -/
theorem make_link_order_longest_path (fsm : SvaFsm) (hwf : fsm.WellFormed) (hac : fsm.Acyclic) :
    ∃ order, fsm.link_orders = Except.ok order ∧ order.length = fsm.nodes.length ∧
      (∀ u v, fsm.Link u v → order.getD u 0 + 1 ≤ order.getD v 0) ∧
      (∀ v, (∃ u, fsm.LinkPath u v (order.getD v 0)) ∧
        ∀ u k, fsm.LinkPath u v k → k ≤ order.getD v 0) := by
  obtain ⟨order, hrun, hlen, hsettled, hreal⟩ := link_orders_spec hwf hac
  refine ⟨order, hrun, hlen, ?_, ?_⟩
  · rintro u v ⟨c, hc⟩
    exact hsettled u (v, c) hc
  · intro v
    exact ⟨hreal v, fun u k hp => linkPath_le_order hsettled hp⟩

/-- Witness for C10 on the automaton of `e[*2:4]`. -/
theorem make_link_order_longest_path_witness :
    fsmRepeat24.WellFormed ∧ fsmRepeat24.Acyclic ∧
    ∃ order, fsmRepeat24.link_orders = Except.ok order ∧
      order.length = fsmRepeat24.nodes.length ∧
      (∀ u v, fsmRepeat24.Link u v → order.getD u 0 + 1 ≤ order.getD v 0) ∧
      (∀ v, (∃ u, fsmRepeat24.LinkPath u v (order.getD v 0)) ∧
        ∀ u k, fsmRepeat24.LinkPath u v k → k ≤ order.getD v 0) :=
  ⟨wellFormed_of_wellFormedb _ (by decide),
   acyclic_of_rankedb _ [0, 4, 1, 0, 1, 0, 2, 0, 3] (by decide),
   make_link_order_longest_path fsmRepeat24 (wellFormed_of_wellFormedb _ (by decide))
     (acyclic_of_rankedb _ [0, 4, 1, 0, 1, 0, 2, 0, 3] (by decide))⟩

/-- C1: on a non-materialized automaton with acyclic links `getAccept` returns, and for every
input trace the returned signal is true at cycle `t` iff the accept node belongs to the active
set of the reference run at `t`. In the reference run all stored bits are 0 at cycle 0, a node
is enabled iff disable is false and its stored bit is set or it is the start node and the
trigger is true, the active set is the closure of the enabled nodes under links whose control
is true, and the stored bit of `v` is set at `t+1` iff an active node has an edge to `v` whose
control is true at `t`. The signals are valued in the module after emission. -/
theorem getAccept_refines_reference (fsm : SvaFsm) (m : Module) (hwf : fsm.WellFormed)
    (hac : fsm.Acyclic) (hmat : fsm.materialized = false) :
    ∃ m' fsm' acc, fsm.getAccept m = Except.ok (m', fsm', acc) ∧
      ∀ (env : Nat → Nat → Bool) (t : Nat),
        (m'.value env t acc = true ↔ fsm.refActive (m'.value env) t fsm.acceptNode) := by
  obtain ⟨order, hrun, _, _, _⟩ := link_orders_spec hwf hac
  refine ⟨_, _, _, getAccept_eq fsm m hmat order hrun, ?_⟩
  intro env t
  exact accept_circuit_active hwf hac m order hrun env t fsm.acceptNode

/-- Witness for C1 on the automaton of `e[*2:4]` and the empty module. -/
theorem getAccept_refines_reference_witness :
    fsmRepeat24.WellFormed ∧ fsmRepeat24.Acyclic ∧ fsmRepeat24.materialized = false ∧
    ∃ m' fsm' acc, fsmRepeat24.getAccept {} = Except.ok (m', fsm', acc) ∧
      ∀ (env : Nat → Nat → Bool) (t : Nat),
        (m'.value env t acc = true ↔
          fsmRepeat24.refActive (m'.value env) t fsmRepeat24.acceptNode) :=
  ⟨wellFormed_of_wellFormedb _ (by decide),
   acyclic_of_rankedb _ [0, 4, 1, 0, 1, 0, 2, 0, 3] (by decide),
   rfl,
   getAccept_refines_reference fsmRepeat24 {} (wellFormed_of_wellFormedb _ (by decide))
     (acyclic_of_rankedb _ [0, 4, 1, 0, 1, 0, 2, 0, 3] (by decide)) rfl⟩

end SVA


namespace SVA

/-- C9: epsilon elimination. On an automaton with acyclic links, `node_to_unode(n, n, {})`
started on a fresh entry `unodes[n]` returns, and afterwards `unodes[n]` has an edge `(t, G)`
iff there are a link path from `n` to some node `m` and an edge `(t, c)` of `m` such that `G`
is the sorted duplicate-free list of the controls other than constant 1 of the path's links
and of that edge; it has an accept entry `G` iff there is a link path from `n` to the accept
node whose link controls other than constant 1 form the sorted duplicate-free list `G`; and
every stored guard is strictly increasing in the bit order, hence sorted and duplicate-free. -/
theorem node_to_unode_eliminates_links (fsm : SvaFsm) (hwf : fsm.WellFormed) (hac : fsm.Acyclic)
    (unodes : List SvaUFsmNode) (n : Nat) (hn : n < fsm.nodes.length)
    (hlen : unodes.length = fsm.nodes.length) (hfresh : unodes.getD n default = default) :
    ∃ unodes', fsm.node_to_unode fsm.nodes.length unodes n n [] = Except.ok unodes' ∧
      (∀ t G, (t, G) ∈ (unodes'.getD n default).edges ↔
        ∃ m cs c, fsm.GuardedPath n m cs ∧ (t, c) ∈ fsm.edgesOf m ∧
          G = sort_and_unify (cs ++ (if c ≠ SigBit.S1 then [c] else []))) ∧
      (∀ G, G ∈ (unodes'.getD n default).accept ↔
        ∃ cs, fsm.GuardedPath n fsm.acceptNode cs ∧ G = sort_and_unify cs) ∧
      (∀ t G, (t, G) ∈ (unodes'.getD n default).edges →
        List.Sorted (fun a b => a.code < b.code) G) ∧
      (∀ G, G ∈ (unodes'.getD n default).accept →
        List.Sorted (fun a b => a.code < b.code) G) := by
  obtain ⟨unodes', hrun, _, _, _, E, A, hE, hA, hEs, hAs⟩ :=
    node_to_unode_spec hwf hac n fsm.nodes.length [] unodes n []
      (List.chain'_singleton n)
      (by intro x hx; simp only [List.mem_singleton] at hx; subst hx; exact hn)
      (by simp) (by rw [hlen]; exact hn) sort_and_unify_nil
  rw [hfresh] at hE hA
  have hE' : (unodes'.getD n default).edges = E := by rw [hE]; rfl
  have hA' : (unodes'.getD n default).accept = A := by rw [hA]; rfl
  have hedges : ∀ t G, (t, G) ∈ (unodes'.getD n default).edges ↔
      ∃ m cs c, fsm.GuardedPath n m cs ∧ (t, c) ∈ fsm.edgesOf m ∧
        G = sort_and_unify (cs ++ (if c ≠ SigBit.S1 then [c] else [])) := by
    intro t G
    rw [hE', hEs]
    simp only [List.nil_append]
  have haccept : ∀ G, G ∈ (unodes'.getD n default).accept ↔
      ∃ cs, fsm.GuardedPath n fsm.acceptNode cs ∧ G = sort_and_unify cs := by
    intro G
    rw [hA', hAs]
    simp only [List.nil_append]
  refine ⟨unodes', hrun, hedges, haccept, ?_, ?_⟩
  · intro t G h
    obtain ⟨_, _, _, _, _, rfl⟩ := (hedges t G).mp h
    exact strictSorted_sort_and_unify _
  · intro G h
    obtain ⟨_, _, rfl⟩ := (haccept G).mp h
    exact strictSorted_sort_and_unify _

/-- Witness for C9: node 4 of the automaton of `e[*2:4]`. -/
theorem node_to_unode_eliminates_links_witness :
    fsmRepeat24.WellFormed ∧ fsmRepeat24.Acyclic ∧ 4 < fsmRepeat24.nodes.length ∧
    (List.replicate 9 (default : SvaUFsmNode)).length = fsmRepeat24.nodes.length ∧
    (List.replicate 9 (default : SvaUFsmNode)).getD 4 default = default ∧
    ∃ unodes', fsmRepeat24.node_to_unode fsmRepeat24.nodes.length
        (List.replicate 9 default) 4 4 [] = Except.ok unodes' ∧
      (∀ t G, (t, G) ∈ (unodes'.getD 4 default).edges ↔
        ∃ m cs c, fsmRepeat24.GuardedPath 4 m cs ∧ (t, c) ∈ fsmRepeat24.edgesOf m ∧
          G = sort_and_unify (cs ++ (if c ≠ SigBit.S1 then [c] else []))) ∧
      (∀ G, G ∈ (unodes'.getD 4 default).accept ↔
        ∃ cs, fsmRepeat24.GuardedPath 4 fsmRepeat24.acceptNode cs ∧ G = sort_and_unify cs) ∧
      (∀ t G, (t, G) ∈ (unodes'.getD 4 default).edges →
        List.Sorted (fun a b => a.code < b.code) G) ∧
      (∀ G, G ∈ (unodes'.getD 4 default).accept →
        List.Sorted (fun a b => a.code < b.code) G) :=
  ⟨wellFormed_of_wellFormedb _ (by decide),
   acyclic_of_rankedb _ [0, 4, 1, 0, 1, 0, 2, 0, 3] (by decide),
   by decide, rfl, rfl,
   node_to_unode_eliminates_links fsmRepeat24 (wellFormed_of_wellFormedb _ (by decide))
     (acyclic_of_rankedb _ [0, 4, 1, 0, 1, 0, 2, 0, 3] (by decide))
     (List.replicate 9 default) 4 (by decide) rfl rfl⟩

/-- A filter that lets through exactly one number below `N`. -/
theorem filter_range_eq_single (N i : Nat) (q : Nat → Bool) (hi : i < N)
    (hq : ∀ j, j < N → (q j = true ↔ j = i)) : (List.range N).filter q = [i] := by
  induction N with
  | zero => omega
  | succ N ih =>
    rw [List.range_succ, List.filter_append]
    by_cases hiN : i = N
    · subst hiN
      have h1 : (List.range i).filter q = [] := by
        rw [List.filter_eq_nil_iff]
        intro j hj
        have hj' := List.mem_range.mp hj
        rw [hq j (by omega)]
        omega
      have h2 : q i = true := (hq i (by omega)).mpr rfl
      simp [h1, List.filter_cons, h2]
    · have h1 := ih (by omega) (fun j hj => hq j (by omega))
      have h2 : ¬ q N = true := by
        rw [hq N (by omega)]
        exact fun h => hiN h.symm
      simp [h1, List.filter_cons, h2]

/-- C8: the valuations of a constructed subset. When `create_dnode` returns after constructing
the subset `state` with first-match flag `firstmatch`, the stored node has the control union as
`ctrl`, and for every valuation `v` of `ctrl`: `v` is recorded in `accept` iff some member has an
accept guard whose bits are all true under `v`; there is a next-subset `next`, strictly increasing
(sorted and duplicate-free), that holds exactly the targets of the members' edges whose guard
bits are all true under `v`, and nothing when `firstmatch` holds and `v` accepts; `v` is recorded
in `reject` iff `next` is empty and `v` does not accept; when `next` is non-empty the edges that
carry `v` are exactly the one edge `(next, v)`; when `next` is empty no edge carries `v`. -/
theorem create_dnode_valuations (unodes : List SvaUFsmNode) (fuel : Nat)
    (dnodes dnodes' : List (List Nat × SvaDFsmNode)) (state : List Nat) (firstmatch : Bool)
    (hnew : dict_count dnodes state = 0)
    (hrun : create_dnode unodes (fuel + 1) dnodes state firstmatch = Except.ok dnodes') :
    ∃ raw dnode, dnode_ctrl_raw unodes state = Except.ok raw ∧
      dict_at dnodes' state = some dnode ∧ dnode.ctrl = sort_and_unify raw ∧
      ∀ i, i < 2 ^ dnode.ctrl.length →
        (Const i dnode.ctrl.length ∈ dnode.accept ↔
          acceptsUnder unodes state dnode.ctrl (Const i dnode.ctrl.length)) ∧
        ∃ next : List Nat, List.Sorted (fun a b => a < b) next ∧
          (∀ t, t ∈ next ↔
            ¬ (firstmatch = true ∧
              acceptsUnder unodes state dnode.ctrl (Const i dnode.ctrl.length)) ∧
            targetUnder unodes state dnode.ctrl (Const i dnode.ctrl.length) t) ∧
          (Const i dnode.ctrl.length ∈ dnode.reject ↔
            next = [] ∧ ¬ acceptsUnder unodes state dnode.ctrl (Const i dnode.ctrl.length)) ∧
          (next ≠ [] →
            dnode.edges.filter (fun e => decide (e.2 = Const i dnode.ctrl.length)) =
              [(next, Const i dnode.ctrl.length)]) ∧
          (next = [] →
            dnode.edges.filter (fun e => decide (e.2 = Const i dnode.ctrl.length)) = []) := by
  obtain ⟨raw, dnode, hraw, _, hat, hctrl, hacc, hrej, hedg⟩ :=
    create_dnode_constructs unodes fuel dnodes dnodes' state firstmatch hnew hrun
  refine ⟨raw, dnode, hraw, hat, hctrl, ?_⟩
  rw [hctrl]
  generalize sort_and_unify raw = ctrl at hacc hrej hedg ⊢
  intro i hi
  have hir : i ∈ List.range (2 ^ ctrl.length) := List.mem_range.mpr hi
  -- a recorded valuation determines its number
  have hinj : ∀ j, j ∈ List.range (2 ^ ctrl.length) →
      Const j ctrl.length = Const i ctrl.length → j = i := by
    intro j hj h
    exact Const_injective ctrl.length j i (List.mem_range.mp hj) hi h
  refine ⟨?_, usortint (val_next unodes state firstmatch ctrl i), sorted_usortint _, ?_, ?_, ?_, ?_⟩
  · rw [hacc, List.mem_map, ← val_accept_iff]
    constructor
    · rintro ⟨j, hj, hc⟩
      rw [List.mem_filter] at hj
      rw [← hinj j hj.1 hc]; exact hj.2
    · intro h
      exact ⟨i, List.mem_filter.mpr ⟨hir, h⟩, rfl⟩
  · intro t
    rw [mem_usortint, mem_val_next]
  · rw [hrej, List.mem_map, usortint_eq_nil_iff, ← val_accept_iff]
    constructor
    · rintro ⟨j, hj, hc⟩
      rw [List.mem_filter] at hj
      have hji := hinj j hj.1 hc
      subst hji
      simpa using hj.2
    · rintro ⟨h1, h2⟩
      refine ⟨i, List.mem_filter.mpr ⟨hir, ?_⟩, rfl⟩
      simp [h1, h2]
  · intro hne
    rw [Ne, usortint_eq_nil_iff] at hne
    rw [hedg, List.filter_map, List.filter_filter,
      filter_range_eq_single (2 ^ ctrl.length) i _ hi]
    · rfl
    · intro j hj
      simp only [Function.comp, Bool.and_eq_true, decide_eq_true_eq, Bool.not_eq_true',
        decide_eq_false_iff_not]
      constructor
      · rintro ⟨hc, _⟩
        exact hinj j (List.mem_range.mpr hj) hc
      · rintro rfl
        exact ⟨rfl, hne⟩
  · intro hnil
    rw [usortint_eq_nil_iff] at hnil
    rw [hedg, List.filter_map, List.filter_filter, List.map_eq_nil_iff, List.filter_eq_nil_iff]
    intro j hj
    simp only [Function.comp, Bool.and_eq_true, decide_eq_true_eq, Bool.not_eq_true',
      decide_eq_false_iff_not, not_and, not_not]
    intro hc
    rw [hinj j hj hc]
    exact hnil

/-- Witness for C8: the start subset of the link-free automaton of `e[*2:4]`. -/
theorem create_dnode_valuations_witness :
    dict_count [] [0] = 0 ∧
    create_dnode unodesRepeat24 3 [] [0] true = Except.ok dnodesRepeat24 ∧
    ∃ raw dnode, dnode_ctrl_raw unodesRepeat24 [0] = Except.ok raw ∧
      dict_at dnodesRepeat24 [0] = some dnode ∧ dnode.ctrl = sort_and_unify raw ∧
      ∀ i, i < 2 ^ dnode.ctrl.length →
        (Const i dnode.ctrl.length ∈ dnode.accept ↔
          acceptsUnder unodesRepeat24 [0] dnode.ctrl (Const i dnode.ctrl.length)) ∧
        ∃ next : List Nat, List.Sorted (fun a b => a < b) next ∧
          (∀ t, t ∈ next ↔
            ¬ (true = true ∧
              acceptsUnder unodesRepeat24 [0] dnode.ctrl (Const i dnode.ctrl.length)) ∧
            targetUnder unodesRepeat24 [0] dnode.ctrl (Const i dnode.ctrl.length) t) ∧
          (Const i dnode.ctrl.length ∈ dnode.reject ↔
            next = [] ∧
              ¬ acceptsUnder unodesRepeat24 [0] dnode.ctrl (Const i dnode.ctrl.length)) ∧
          (next ≠ [] →
            dnode.edges.filter (fun e => decide (e.2 = Const i dnode.ctrl.length)) =
              [(next, Const i dnode.ctrl.length)]) ∧
          (next = [] →
            dnode.edges.filter (fun e => decide (e.2 = Const i dnode.ctrl.length)) = []) :=
  ⟨rfl, rfl, create_dnode_valuations unodesRepeat24 2 [] dnodesRepeat24 [0] true rfl rfl⟩

end SVA


namespace SVA

/-! ## C6: the implication idiom -/

/-- C6 (as stated, refuted): it is not the case that on every trace with `a` at cycle 0 and
`b` at cycle 1 the property-OK of `a ##1 b |-> c ##[1:2] d` goes false unless `c` holds at
cycle 2 and `d` at cycle 3 or 4. On the trace with `a` at 0, `b` and `c` at 1, `d` at 2 and
nothing else, `c` does not hold at cycle 2, yet property-OK is true at every cycle. -/
theorem import_implication_idiom_counterexample :
    ¬ ∀ env : Nat → Nat → Bool, env 0 0 = true → env 1 1 = true →
        ¬ (env 2 2 = true ∧ (env 3 3 = true ∨ env 4 3 = true)) →
        ∃ m okq, import_sva_assert false (some implProp) {} = Except.ok m ∧
          m.checkers = [(Checker.assert, okq, SigBit.S1)] ∧
          ∃ t, m.value env t okq = false := by
  intro hall
  obtain ⟨m, okq, hm, hch, t, ht⟩ := hall implTrace rfl rfl (by decide)
  rw [import_implProp] at hm
  cases hm
  cases hch
  have h3 : ∀ t, implModule.qval implTrace t 3 = (t == 1) := by
    intro t
    cases t with
    | zero => rfl
    | succ t =>
      rw [(impl_qval_succ implTrace t).1]
      rcases t with _ | _ | _ | t <;> rfl
  have h6 : ∀ t, implModule.qval implTrace t 6 = (t == 2) := by
    intro t
    cases t with
    | zero => rfl
    | succ t =>
      rw [(impl_qval_succ implTrace t).2.1, h3]
      rcases t with _ | _ | _ | t <;> rfl
  have h7 : ∀ t, implModule.qval implTrace t 7 = false := by
    intro t
    cases t with
    | zero => rfl
    | succ t =>
      rw [(impl_qval_succ implTrace t).2.2.1, h6]
      rcases t with _ | _ | _ | _ | t <;> rfl
  have h8 : ∀ t, implModule.qval implTrace t 8 = true := by
    intro t
    cases t with
    | zero => rfl
    | succ t =>
      rw [(impl_qval_succ implTrace t).2.2.2, h3, h7]
      rcases t with _ | _ | _ | t <;> rfl
  have h := h8 t
  have ht' : implModule.qval implTrace t 8 = false := ht
  rw [h] at ht'
  cases ht'

/-- C6 (amended): importing `a ##1 b |-> c ##[1:2] d` in assert mode succeeds and emits one
assert checker on the registered property-OK. On every trace the registered property-OK is
false at cycle `t` iff for some cycle `s` with `a` at `s` and `b` at `s+1` (the antecedent
matches at `s+1`) either `c` is false at `s+1` and `t = s+2`, or `c` holds at `s+1`, `d`
holds neither at `s+2` nor at `s+3`, and `t = s+4`. Hence on every trace with `a` true at
cycle 0 and `b` true at cycle 1: property-OK is false at some cycle up to 4 unless `c` holds
at cycle 1 and `d` holds at cycle 2 or at cycle 3; when `c` holds at cycle 1 and `d` at
cycle 2 or 3 (only at 2, only at 3, or both), property-OK is false only because of a later
match of the antecedent; and when the antecedent matches at no later cycle, property-OK is
true at every cycle iff `c` holds at cycle 1 and `d` holds at cycle 2 or at cycle 3. -/
theorem import_implication_idiom (env : Nat → Nat → Bool)
    (ha : env 0 0 = true) (hb : env 1 1 = true) :
    ∃ m okq, import_sva_assert false (some implProp) {} = Except.ok m ∧
      m.checkers = [(Checker.assert, okq, SigBit.S1)] ∧
      (∀ t, m.value env t okq = false ↔
        ∃ s, env s 0 = true ∧ env (s + 1) 1 = true ∧
          ((t = s + 2 ∧ env (s + 1) 2 = false) ∨
            (t = s + 4 ∧ env (s + 1) 2 = true ∧ env (s + 2) 3 = false ∧
              env (s + 3) 3 = false))) ∧
      (¬ (env 1 2 = true ∧ (env 2 3 = true ∨ env 3 3 = true)) →
        ∃ t, t ≤ 4 ∧ m.value env t okq = false) ∧
      ((env 1 2 = true ∧ (env 2 3 = true ∨ env 3 3 = true)) →
        m.value env 0 okq = true ∧ m.value env 1 okq = true ∧ m.value env 2 okq = true ∧
        ∀ t, m.value env t okq = false →
          ∃ s, 1 ≤ s ∧ env s 0 = true ∧ env (s + 1) 1 = true ∧ (t = s + 2 ∨ t = s + 4)) ∧
      ((∀ s, 1 ≤ s → ¬ (env s 0 = true ∧ env (s + 1) 1 = true)) →
        ((∀ t, m.value env t okq = true) ↔
          (env 1 2 = true ∧ (env 2 3 = true ∨ env 3 3 = true)))) := by
  have hcl : ∀ t, implModule.value env t (SigBit.auto 8) = false ↔
      ∃ s, env s 0 = true ∧ env (s + 1) 1 = true ∧
        ((t = s + 2 ∧ env (s + 1) 2 = false) ∨
          (t = s + 4 ∧ env (s + 1) 2 = true ∧ env (s + 2) 3 = false ∧
            env (s + 3) 3 = false)) := fun t => impl_okq_false env t
  have hfail : ¬ (env 1 2 = true ∧ (env 2 3 = true ∨ env 3 3 = true)) →
      ∃ t, t ≤ 4 ∧ implModule.value env t (SigBit.auto 8) = false := by
    intro h
    by_cases hc : env 1 2 = true
    · have hd2 : env 2 3 = false := by
        cases hd : env 2 3
        · rfl
        · exact absurd ⟨hc, Or.inl hd⟩ h
      have hd3 : env 3 3 = false := by
        cases hd : env 3 3
        · rfl
        · exact absurd ⟨hc, Or.inr hd⟩ h
      exact ⟨4, le_refl _, (hcl 4).2 ⟨0, ha, hb, Or.inr ⟨rfl, hc, hd2, hd3⟩⟩⟩
    · have hc2 : env 1 2 = false := by
        cases hd : env 1 2
        · rfl
        · exact absurd hd hc
      exact ⟨2, by omega, (hcl 2).2 ⟨0, ha, hb, Or.inl ⟨rfl, hc2⟩⟩⟩
  have hlater : (env 1 2 = true ∧ (env 2 3 = true ∨ env 3 3 = true)) →
      ∀ t, implModule.value env t (SigBit.auto 8) = false →
        ∃ s, 1 ≤ s ∧ env s 0 = true ∧ env (s + 1) 1 = true ∧ (t = s + 2 ∨ t = s + 4) := by
    intro hp t ht
    obtain ⟨s, a, b, h⟩ := (hcl t).1 ht
    rcases s with _ | s
    · rcases h with ⟨_, c⟩ | ⟨_, _, d2, d3⟩
      · rw [hp.1] at c
        cases c
      · rcases hp.2 with e | e
        · rw [e] at d2
          cases d2
        · rw [e] at d3
          cases d3
    · refine ⟨s + 1, by omega, a, b, ?_⟩
      rcases h with ⟨e, _⟩ | ⟨e, _⟩
      · exact Or.inl e
      · exact Or.inr e
  have htrue : ∀ t, ¬ implModule.value env t (SigBit.auto 8) = false →
      implModule.value env t (SigBit.auto 8) = true := by
    intro t h
    cases hv : implModule.value env t (SigBit.auto 8)
    · exact absurd hv h
    · rfl
  refine ⟨implModule, SigBit.auto 8, import_implProp, rfl, hcl, hfail, ?_, ?_⟩
  · intro hp
    refine ⟨htrue 0 ?_, htrue 1 ?_, htrue 2 ?_, hlater hp⟩
    · intro h
      obtain ⟨s, _, _, _, e⟩ := hlater hp 0 h
      omega
    · intro h
      obtain ⟨s, _, _, _, e⟩ := hlater hp 1 h
      omega
    · intro h
      obtain ⟨s, _, _, _, e⟩ := hlater hp 2 h
      omega
  · intro hno
    constructor
    · intro hall
      by_contra hp
      obtain ⟨t, _, ht⟩ := hfail hp
      rw [hall t] at ht
      cases ht
    · intro hp t
      apply htrue
      intro h
      obtain ⟨s, hs, a, b, _⟩ := hlater hp t h
      exact hno s hs ⟨a, b⟩

/-- Witness for C6: the trace with `a` at cycle 0, `b` and `c` at cycle 1 and `d` at cycle 2,
on which property-OK is true at every cycle. -/
theorem import_implication_idiom_witness :
    implTrace 0 0 = true ∧ implTrace 1 1 = true ∧
    ∃ m okq, import_sva_assert false (some implProp) {} = Except.ok m ∧
      m.checkers = [(Checker.assert, okq, SigBit.S1)] ∧
      (∀ t, m.value implTrace t okq = false ↔
        ∃ s, implTrace s 0 = true ∧ implTrace (s + 1) 1 = true ∧
          ((t = s + 2 ∧ implTrace (s + 1) 2 = false) ∨
            (t = s + 4 ∧ implTrace (s + 1) 2 = true ∧ implTrace (s + 2) 3 = false ∧
              implTrace (s + 3) 3 = false))) ∧
      (¬ (implTrace 1 2 = true ∧ (implTrace 2 3 = true ∨ implTrace 3 3 = true)) →
        ∃ t, t ≤ 4 ∧ m.value implTrace t okq = false) ∧
      ((implTrace 1 2 = true ∧ (implTrace 2 3 = true ∨ implTrace 3 3 = true)) →
        m.value implTrace 0 okq = true ∧ m.value implTrace 1 okq = true ∧
        m.value implTrace 2 okq = true ∧
        ∀ t, m.value implTrace t okq = false →
          ∃ s, 1 ≤ s ∧ implTrace s 0 = true ∧ implTrace (s + 1) 1 = true ∧
            (t = s + 2 ∨ t = s + 4)) ∧
      ((∀ s, 1 ≤ s → ¬ (implTrace s 0 = true ∧ implTrace (s + 1) 1 = true)) →
        ((∀ t, m.value implTrace t okq = true) ↔
          (implTrace 1 2 = true ∧ (implTrace 2 3 = true ∨ implTrace 3 3 = true)))) :=
  ⟨rfl, rfl, import_implication_idiom implTrace rfl rfl⟩

end SVA


namespace SVA

/-! ## C4: bounded repetition -/

/-- C4 (behaviour of the code): for every Boolean `e`, trigger `trig` and bounds `N`, `M`,
`parse_sequence` builds an automaton for `e[*N:M]` (end node linked to the accept node) and
`getAccept` emits its circuit; when the trigger is true at cycle 0 only, the accept signal is
true at cycle `t` iff `e` holds on cycles `0..t` and `max N 1 ≤ t+1 ≤ max N 1 + (M - N)`.
For `1 ≤ N ≤ M` this is `N ≤ t+1 ≤ M`; for `N = 0` it is `1 ≤ t+1 ≤ M+1`, one more than
the upper bound `M`. -/
theorem repeat_bounded_accept (e trig : SigBit) (N M : Nat) (m : Module) :
    ∃ fsm m' fsm' acc,
      build_fsm false trig (SvaNet.consecutive_repeat N (some M) (SvaNet.expr e)) false =
        Except.ok fsm ∧
      fsm.getAccept m = Except.ok (m', fsm', acc) ∧
      ∀ env : Nat → Nat → Bool, (∀ t, m'.value env t trig = true ↔ t = 0) →
        ∀ t, (m'.value env t acc = true ↔
          (∀ i, i ≤ t → m'.value env i e = true) ∧
            max N 1 ≤ t + 1 ∧ t + 1 ≤ max N 1 + (M - N)) := by
  obtain ⟨m', fsm', acc, hget, hsem⟩ :=
    getAccept_reference (fsmOf trig (2 * (max N 1 + (M - N)) + 1)
      (repNode e (max N 1) (max N 1 + (M - N)) true)) m
      (rep_wellFormed trig e _ _ (by omega) (by omega))
      (rep_acyclic trig e _ _ (by omega) (by omega)) rfl
  refine ⟨_, m', fsm', acc, build_fsm_repeat_bounded trig e N M, hget, ?_⟩
  intro env htrig t
  rw [hsem env t]
  exact rep_accept trig e _ _ (by omega) (by omega) (m'.value env) (fun _ => rfl)
    (fun _ => rfl) htrig t

/-- Witness for C4 at the failing input `e[*0:1]`: with `e` net 0 always true and the
trigger net 1 true at cycle 0 only, the accept signal is true at cycle 1, after two
consecutive cycles of `e`. -/
theorem repeat_bounded_accept_witness :
    ∃ fsm m' fsm' acc,
      build_fsm false (SigBit.wire 1)
        (SvaNet.consecutive_repeat 0 (some 1) (SvaNet.expr (SigBit.wire 0))) false =
        Except.ok fsm ∧
      fsm.getAccept {} = Except.ok (m', fsm', acc) ∧
      m'.value (fun t w => decide (w = 0) || decide (t = 0)) 1 acc = true := by
  obtain ⟨fsm, m', fsm', acc, hb, hg, h⟩ :=
    repeat_bounded_accept (SigBit.wire 0) (SigBit.wire 1) 0 1 {}
  refine ⟨fsm, m', fsm', acc, hb, hg, ?_⟩
  refine (h (fun t w => decide (w = 0) || decide (t = 0)) ?_ 1).2 ⟨?_, by decide, by decide⟩
  · intro t
    show (decide ((1 : Nat) = 0) || decide (t = 0)) = true ↔ t = 0
    simp
  · intro i _
    show (decide ((0 : Nat) = 0) || decide (i = 0)) = true
    simp

end SVA


namespace SVA

/-! ## C5: unbounded repetition -/

/-- C5: for every Boolean `e`, trigger `trig` and `N` (including `[*]`, `N = 0`, and `[+]`,
`N = 1`), `parse_sequence` builds an automaton for `e[*N:$]` (end node linked to the accept
node) and `getAccept` emits its circuit; when the trigger is true at cycle 0 only, the accept
signal is true at cycle `t` iff `e` holds on all of the cycles `0..t` and the length `t+1` of
that run is at least `N`, with no upper bound. -/
theorem repeat_unbounded_accept (e trig : SigBit) (N : Nat) (m : Module) :
    ∃ fsm m' fsm' acc,
      build_fsm false trig (SvaNet.consecutive_repeat N none (SvaNet.expr e)) false =
        Except.ok fsm ∧
      fsm.getAccept m = Except.ok (m', fsm', acc) ∧
      ∀ env : Nat → Nat → Bool, (∀ t, m'.value env t trig = true ↔ t = 0) →
        ∀ t, (m'.value env t acc = true ↔
          (∀ i, i ≤ t → m'.value env i e = true) ∧ N ≤ t + 1) := by
  obtain ⟨m', fsm', acc, hget, hsem⟩ :=
    getAccept_reference (fsmOf trig (2 * (max N 1) + 1 + 1 + 1) (infNode e (max N 1))) m
      (inf_wellFormed trig e _ (by omega)) (inf_acyclic trig e _ (by omega)) rfl
  refine ⟨_, m', fsm', acc, build_fsm_repeat_unbounded trig e N, hget, ?_⟩
  intro env htrig t
  rw [hsem env t]
  have h := inf_accept trig e (max N 1) (by omega) (m'.value env) (fun _ => rfl)
    (fun _ => rfl) htrig t
  have hN : max N 1 ≤ t + 1 ↔ N ≤ t + 1 := by omega
  rw [hN] at h
  exact h

/-- Witness for C5 on `e[*2:$]`: with `e` net 0 always true and the trigger net 1 true at
cycle 0 only, the accept signal is false at cycle 0 and true at cycles 1 and 7. -/
theorem repeat_unbounded_accept_witness :
    ∃ fsm m' fsm' acc,
      build_fsm false (SigBit.wire 1)
        (SvaNet.consecutive_repeat 2 none (SvaNet.expr (SigBit.wire 0))) false =
        Except.ok fsm ∧
      fsm.getAccept {} = Except.ok (m', fsm', acc) ∧
      m'.value (fun t w => decide (w = 0) || decide (t = 0)) 0 acc ≠ true ∧
      m'.value (fun t w => decide (w = 0) || decide (t = 0)) 1 acc = true ∧
      m'.value (fun t w => decide (w = 0) || decide (t = 0)) 7 acc = true := by
  obtain ⟨fsm, m', fsm', acc, hb, hg, h⟩ :=
    repeat_unbounded_accept (SigBit.wire 0) (SigBit.wire 1) 2 {}
  have htrig : ∀ t, m'.value (fun t w => decide (w = 0) || decide (t = 0)) t (SigBit.wire 1) =
      true ↔ t = 0 := by
    intro t
    show (decide ((1 : Nat) = 0) || decide (t = 0)) = true ↔ t = 0
    simp
  have he : ∀ t i, i ≤ t →
      m'.value (fun t w => decide (w = 0) || decide (t = 0)) i (SigBit.wire 0) = true := by
    intro t i _
    show (decide ((0 : Nat) = 0) || decide (i = 0)) = true
    simp
  refine ⟨fsm, m', fsm', acc, hb, hg, ?_, ?_, ?_⟩
  · intro hacc
    have := ((h _ htrig 0).1 hacc).2
    omega
  · exact (h _ htrig 1).2 ⟨he 1, by decide⟩
  · exact (h _ htrig 7).2 ⟨he 7, by decide⟩

end SVA


namespace SVA

/-! ## C3: the outputs of `getReject` against the run of the automaton -/

/-- C3: for every well-formed automaton with acyclic links and no disable signal on which
`getReject` has not yet run, `getReject` with `accept_sigptr` either stops at the
state-explosion guard or returns; when it returns and the trigger is true at cycle 0 only,
then at every cycle `t` before which the automaton has not accepted (the accept node was
not active in the reference run, which by C1 is the output of `getAccept`): (i) the accept
output is true at `t` iff the automaton accepts at `t`, and (ii) the reject output is true at
`t` iff some node is enabled at `t`, the automaton does not accept at `t` and no node has
its stored bit set at `t+1`. -/
theorem getReject_refines_reference (fsm : SvaFsm) (m : Module) (hwf : fsm.WellFormed)
    (hac : fsm.Acyclic) (hdis : fsm.disable_sig = SigBit.S0) (hun : fsm.unodes = [])
    (hdn : fsm.dnodes = []) :
    fsm.getReject m true = Except.error (Failure.log_error ctrl_error) ∨
    ∃ m' fsm' rej acc, fsm.getReject m true = Except.ok (m', fsm', rej, some acc) ∧
      ∀ env : Nat → Nat → Bool, (∀ t, m'.value env t fsm.trigger_sig = true ↔ t = 0) →
        ∀ t, (∀ t', t' < t → ¬ fsm.refActive (m'.value env) t' fsm.acceptNode) →
          (m'.value env t acc = true ↔ fsm.refActive (m'.value env) t fsm.acceptNode) ∧
          (m'.value env t rej = true ↔
            (∃ w, fsm.refEnabled (m'.value env) t w) ∧
              ¬ fsm.refActive (m'.value env) t fsm.acceptNode ∧
              ∀ w, ¬ fsm.refStored (m'.value env) (t + 1) w) := by
  rcases getReject_total fsm m true hwf hac hun hdn with ⟨m', fsm', rej, accO, hrun⟩ | herr
  · right
    obtain ⟨U, D, _, hC⟩ := getReject_circuit fsm m true m' fsm' rej accO hdn hrun
    obtain ⟨acc, hacc, _⟩ := hC.2.2.2.2 rfl
    subst hacc
    refine ⟨m', fsm', rej, acc, hrun, ?_⟩
    intro env htrig t hno
    obtain ⟨hrej, hA⟩ := getReject_outputs fsm m hwf hac hdis hun hdn true m' fsm' rej
      (some acc) hrun env htrig t
    obtain ⟨acc', he, hval⟩ := hA rfl
    have : acc = acc' := Option.some.inj he
    subst this
    constructor
    · rw [hval]
      exact ⟨fun h => h.2, fun h => ⟨hno, h⟩⟩
    · rw [hrej]
      exact ⟨fun h => h.2, fun h => ⟨hno, h⟩⟩
  · exact Or.inl herr

/-- Witness for C3 on the automaton of `e[*2:4]` and the empty module: `getReject`
returns there. -/
theorem getReject_refines_reference_witness :
    fsmRepeat24.WellFormed ∧ fsmRepeat24.Acyclic ∧ fsmRepeat24.disable_sig = SigBit.S0 ∧
    fsmRepeat24.unodes = [] ∧ fsmRepeat24.dnodes = [] ∧
    (∃ r, fsmRepeat24.getReject {} true = Except.ok r) ∧
    (fsmRepeat24.getReject {} true = Except.error (Failure.log_error ctrl_error) ∨
    ∃ m' fsm' rej acc, fsmRepeat24.getReject {} true = Except.ok (m', fsm', rej, some acc) ∧
      ∀ env : Nat → Nat → Bool,
        (∀ t, m'.value env t fsmRepeat24.trigger_sig = true ↔ t = 0) →
        ∀ t, (∀ t', t' < t →
            ¬ fsmRepeat24.refActive (m'.value env) t' fsmRepeat24.acceptNode) →
          (m'.value env t acc = true ↔
            fsmRepeat24.refActive (m'.value env) t fsmRepeat24.acceptNode) ∧
          (m'.value env t rej = true ↔
            (∃ w, fsmRepeat24.refEnabled (m'.value env) t w) ∧
              ¬ fsmRepeat24.refActive (m'.value env) t fsmRepeat24.acceptNode ∧
              ∀ w, ¬ fsmRepeat24.refStored (m'.value env) (t + 1) w)) :=
  ⟨wellFormed_of_wellFormedb _ (by decide),
   acyclic_of_rankedb _ [0, 4, 1, 0, 1, 0, 2, 0, 3] (by decide),
   rfl, rfl, rfl, ⟨_, rfl⟩,
   getReject_refines_reference fsmRepeat24 {} (wellFormed_of_wellFormedb _ (by decide))
     (acyclic_of_rankedb _ [0, 4, 1, 0, 1, 0, 2, 0, 3] (by decide)) rfl rfl rfl⟩

end SVA


namespace SVA

/-! ## C2: accepted against never rejected -/

/-- C2 (as stated, refuted): for the automaton that `parse_sequence` builds for `a ##1 b`
(5 nodes, acyclic links, trigger net 2) and the one-cycle trace on which `a` and the
trigger hold, the accept output of `getAccept` is not true at any cycle of the trace,
although the reject output of `getReject` is never true on it: the match is still pending. -/
theorem accept_iff_not_rejected_counterexample :
    ∃ fsm m1 f1 acc m2 f2 rej a,
      build_fsm false (SigBit.wire 2) concatAB false = Except.ok fsm ∧
      fsm.nodes.length ≤ 5 ∧ fsm.Acyclic ∧
      fsm.getAccept {} = Except.ok (m1, f1, acc) ∧
      fsm.getReject {} false = Except.ok (m2, f2, rej, a) ∧
      (∀ t, m1.value traceA t (SigBit.wire 2) = true ↔ t = 0) ∧
      (∀ t, m2.value traceA t (SigBit.wire 2) = true ↔ t = 0) ∧
      ¬ ((∃ t, t < 1 ∧ m1.value traceA t acc = true) ↔
        (∀ t, t < 1 → m2.value traceA t rej = false)) := by
  refine ⟨_, _, _, _, _, _, _, _, rfl, by decide,
    acyclic_of_rankedb _ [0, 2, 1, 0, 1] (by decide), rfl, rfl, ?_, ?_, ?_⟩
  · intro t
    show (decide (t = 0) && (decide ((2 : Nat) = 0) || decide ((2 : Nat) = 2))) = true ↔ t = 0
    simp
  · intro t
    show (decide (t = 0) && (decide ((2 : Nat) = 0) || decide ((2 : Nat) = 2))) = true ↔ t = 0
    simp
  · intro h
    obtain ⟨t, ht, hacc⟩ := h.2 (by
      intro t ht
      have : t = 0 := by omega
      subst this
      rfl)
    have : t = 0 := by omega
    subst this
    have hf : false = true := hacc
    cases hf

/-- C2 (amended): for every well-formed automaton with acyclic links and no disable signal
on which `getReject` has not yet run, `getReject` either stops at the state-explosion guard
or returns; when it returns and the trigger is true at cycle 0 only, then for every trace
length `T ≥ 1` the reject output is never true on the cycles `0..T-1` iff the automaton
accepts at some cycle before `T` (the accept node is active in the reference run, which by
C1 is the output of `getAccept`) or the match is still pending at the end of the trace (some
node has its stored bit set at cycle `T`). -/
theorem never_rejected_iff_accepted_or_pending (fsm : SvaFsm) (m : Module) (wa : Bool)
    (hwf : fsm.WellFormed) (hac : fsm.Acyclic) (hdis : fsm.disable_sig = SigBit.S0)
    (hun : fsm.unodes = []) (hdn : fsm.dnodes = []) :
    fsm.getReject m wa = Except.error (Failure.log_error ctrl_error) ∨
    ∃ m' fsm' rej accO, fsm.getReject m wa = Except.ok (m', fsm', rej, accO) ∧
      ∀ env : Nat → Nat → Bool, (∀ t, m'.value env t fsm.trigger_sig = true ↔ t = 0) →
        ∀ T, 1 ≤ T →
          ((∀ t, t < T → m'.value env t rej = false) ↔
            (∃ t, t < T ∧ fsm.refActive (m'.value env) t fsm.acceptNode) ∨
              ∃ w, fsm.refStored (m'.value env) T w) := by
  rcases getReject_total fsm m wa hwf hac hun hdn with ⟨m', fsm', rej, accO, hrun⟩ | herr
  · right
    refine ⟨m', fsm', rej, accO, hrun, ?_⟩
    intro env htrig T hT
    have hdis' : ∀ t, m'.value env t fsm.disable_sig = false := by
      intro t; rw [hdis]; rfl
    exact never_rejected_iff fsm (m'.value env) (fun t => m'.value env t rej) hdis' htrig
      (fun t => (getReject_outputs fsm m hwf hac hdis hun hdn wa m' fsm' rej accO hrun env
        htrig t).1) T hT
  · exact Or.inl herr

/-- Witness for C2 (amended) on the automaton of `e[*2:4]` and the empty module, where
`getReject` returns. -/
theorem never_rejected_iff_accepted_or_pending_witness :
    fsmRepeat24.WellFormed ∧ fsmRepeat24.Acyclic ∧ fsmRepeat24.disable_sig = SigBit.S0 ∧
    fsmRepeat24.unodes = [] ∧ fsmRepeat24.dnodes = [] ∧
    (∃ r, fsmRepeat24.getReject {} false = Except.ok r) ∧
    (fsmRepeat24.getReject {} false = Except.error (Failure.log_error ctrl_error) ∨
    ∃ m' fsm' rej accO, fsmRepeat24.getReject {} false = Except.ok (m', fsm', rej, accO) ∧
      ∀ env : Nat → Nat → Bool,
        (∀ t, m'.value env t fsmRepeat24.trigger_sig = true ↔ t = 0) →
        ∀ T, 1 ≤ T →
          ((∀ t, t < T → m'.value env t rej = false) ↔
            (∃ t, t < T ∧ fsmRepeat24.refActive (m'.value env) t fsmRepeat24.acceptNode) ∨
              ∃ w, fsmRepeat24.refStored (m'.value env) T w)) :=
  ⟨wellFormed_of_wellFormedb _ (by decide),
   acyclic_of_rankedb _ [0, 4, 1, 0, 1, 0, 2, 0, 3] (by decide),
   rfl, rfl, rfl, ⟨_, rfl⟩,
   never_rejected_iff_accepted_or_pending fsmRepeat24 {} false
     (wellFormed_of_wellFormedb _ (by decide))
     (acyclic_of_rankedb _ [0, 4, 1, 0, 1, 0, 2, 0, 3] (by decide)) rfl rfl rfl⟩

end SVA


namespace SVA

/-! ## `usortint` on arbitrary integers -/

theorem usortintZ_eq (vec : List Int) :
    usortintZ vec =
      ((List.range (vec.insertionSort (fun a b => a ≤ b)).length).filter (fun i =>
        decide (i = (vec.insertionSort (fun a b => a ≤ b)).length - 1 ∨
          (vec.insertionSort (fun a b => a ≤ b)).getD i 0 ≠
            (vec.insertionSort (fun a b => a ≤ b)).getD (i + 1) 0))).map
        (fun i => (vec.insertionSort (fun a b => a ≤ b)).getD i 0) := by
  unfold usortintZ
  simp only
  rw [foldl_append_if]
  simp

theorem mem_keep_last_int (s : List Int) (x : Int) :
    x ∈ ((List.range s.length).filter (fun i =>
        decide (i = s.length - 1 ∨ s.getD i 0 ≠ s.getD (i + 1) 0))).map (fun i => s.getD i 0) ↔
      x ∈ s := by
  constructor
  · intro h
    rw [List.mem_map] at h
    obtain ⟨i, hi, rfl⟩ := h
    rw [List.mem_filter, List.mem_range] at hi
    rw [List.getD_eq_getElem _ _ hi.1]
    exact List.getElem_mem _
  · intro h
    have key : ∀ d i, i < s.length → s.length - 1 - i = d →
        s.getD i 0 ∈ ((List.range s.length).filter (fun i =>
          decide (i = s.length - 1 ∨ s.getD i 0 ≠ s.getD (i + 1) 0))).map
            (fun i => s.getD i 0) := by
      intro d
      induction d with
      | zero =>
        intro i hi hd
        rw [List.mem_map]
        refine ⟨i, ?_, rfl⟩
        rw [List.mem_filter, List.mem_range]
        refine ⟨hi, ?_⟩
        simp only [decide_eq_true_eq]
        left; omega
      | succ d ih =>
        intro i hi hd
        by_cases hk : s.getD i 0 ≠ s.getD (i + 1) 0
        · rw [List.mem_map]
          refine ⟨i, ?_, rfl⟩
          rw [List.mem_filter, List.mem_range]
          refine ⟨hi, ?_⟩
          simp only [decide_eq_true_eq]
          exact Or.inr hk
        · have heq : s.getD i 0 = s.getD (i + 1) 0 := by
            by_contra hne; exact hk hne
          rw [heq]
          exact ih (i + 1) (by omega) (by omega)
    obtain ⟨i, hi, rfl⟩ := List.mem_iff_getElem.mp h
    have := key (s.length - 1 - i) i hi rfl
    rwa [List.getD_eq_getElem _ _ hi] at this

theorem sorted_keep_last_int (s : List Int) (hs : List.Sorted (fun a b => a ≤ b) s) :
    List.Sorted (fun a b => a < b)
      (((List.range s.length).filter (fun i =>
        decide (i = s.length - 1 ∨ s.getD i 0 ≠ s.getD (i + 1) 0))).map (fun i => s.getD i 0)) := by
  unfold List.Sorted
  rw [List.pairwise_map]
  have hrange : List.Pairwise (fun a b => a < b) (List.range s.length) := List.pairwise_lt_range _
  have hfil := hrange.filter (fun i =>
        decide (i = s.length - 1 ∨ s.getD i 0 ≠ s.getD (i + 1) 0))
  refine List.Pairwise.imp_of_mem ?_ hfil
  intro i j hi hj hij
  rw [List.mem_filter, List.mem_range] at hi hj
  have hki := hi.2
  simp only [decide_eq_true_eq] at hki
  have hjlt := hj.1
  have hi1 : i + 1 < s.length := by omega
  rcases hki with hki | hki
  · omega
  · have hsorted := List.pairwise_iff_getElem.mp hs
    have e1 : s.getD i 0 = s[i] := List.getD_eq_getElem _ _ hi.1
    have e2 : s.getD (i + 1) 0 = s[i + 1] := List.getD_eq_getElem _ _ hi1
    have e3 : s.getD j 0 = s[j] := List.getD_eq_getElem _ _ hjlt
    have h1 : s[i] ≤ s[i + 1] := hsorted i (i + 1) hi.1 hi1 (by omega)
    have h2 : s.getD (i + 1) 0 ≤ s.getD j 0 := by
      by_cases hij' : i + 1 = j
      · subst hij'; exact le_refl _
      · have := hsorted (i + 1) j hi1 hjlt (by omega)
        omega
    omega

theorem mem_usortintZ (vec : List Int) (x : Int) : x ∈ usortintZ vec ↔ x ∈ vec := by
  rw [usortintZ_eq, mem_keep_last_int, List.mem_insertionSort]

theorem sorted_usortintZ (vec : List Int) : List.Sorted (fun a b => a < b) (usortintZ vec) := by
  rw [usortintZ_eq]
  apply sorted_keep_last_int
  exact List.sorted_insertionSort (fun (a b : Int) => a ≤ b) vec

/-- Two strictly increasing vectors with the same elements are equal. -/
theorem strictSorted_ext_int (a b : List Int) (ha : a.Sorted (fun x y => x < y))
    (hb : b.Sorted (fun x y => x < y)) (h : ∀ w, w ∈ a ↔ w ∈ b) : a = b := by
  apply List.eq_of_perm_of_sorted (r := fun x y => x < y) _ ha hb
  rw [List.perm_ext_iff_of_nodup ha.nodup hb.nodup]
  exact h

end SVA


namespace SVA

/-! ## The materialized flag -/

/-- Every mutator and `getAccept` fail their first assertion on a materialized automaton. -/
theorem materialized_aborts (fsm : SvaFsm) (h : fsm.materialized = true) :
    fsm.createNode = Except.error Failure.log_assert ∧
    (∀ u v c, fsm.createEdge u v c = Except.error Failure.log_assert) ∧
    (∀ u v c, fsm.createLink u v c = Except.error Failure.log_assert) ∧
    (∀ s, fsm.pushThroughout s = Except.error Failure.log_assert) ∧
    fsm.popThroughout = Except.error Failure.log_assert ∧
    (∀ s, fsm.pushDisable s = Except.error Failure.log_assert) ∧
    fsm.popDisable = Except.error Failure.log_assert ∧
    (∀ m, fsm.getAccept m = Except.error Failure.log_assert) := by
  refine ⟨?_, ?_, ?_, ?_, ?_, ?_, ?_, ?_⟩
  · unfold SvaFsm.createNode; rw [if_pos h]
  · intro u v c; unfold SvaFsm.createEdge; rw [if_pos h]
  · intro u v c; unfold SvaFsm.createLink; rw [if_pos h]
  · intro s; unfold SvaFsm.pushThroughout; rw [if_pos h]
  · unfold SvaFsm.popThroughout; rw [if_pos h]
  · intro s; unfold SvaFsm.pushDisable; rw [if_pos h]
  · unfold SvaFsm.popDisable; rw [if_pos h]
  · intro m; unfold SvaFsm.getAccept; rw [if_pos h]

/-- The recursion of `make_link_order` fails only by exhausting its depth budget. -/
theorem make_link_order_error (fsm : SvaFsm) :
    ∀ (fuel : Nat) (order : List Nat) (node min : Nat) (e : Failure),
      fsm.make_link_order fuel order node min = Except.error e → e = Failure.depth := by
  intro fuel
  induction fuel with
  | zero =>
    intro order node min e h
    unfold SvaFsm.make_link_order at h
    cases h
    rfl
  | succ fuel ih =>
    intro order node min e h
    unfold SvaFsm.make_link_order at h
    exact foldlM_error (fun e => e = Failure.depth) _
      (fun s a e he => ih _ _ _ e he) _ _ e h

theorem link_orders_error (fsm : SvaFsm) (e : Failure)
    (h : fsm.link_orders = Except.error e) : e = Failure.depth := by
  unfold SvaFsm.link_orders at h
  exact foldlM_error (fun e => e = Failure.depth) _
    (fun s a e he => make_link_order_error fsm _ _ _ _ e he) _ _ e h

/-- On a non-materialized automaton `getAccept` fails only when the recursion over the
links does not return. -/
theorem getAccept_error (fsm : SvaFsm) (m : Module) (hm : fsm.materialized = false)
    (e : Failure) (h : fsm.getAccept m = Except.error e) : e = Failure.depth := by
  unfold SvaFsm.getAccept at h
  rw [if_neg (by simp [hm])] at h
  simp only at h
  split at h
  · rename_i e' he'
    cases h
    exact link_orders_error _ _ he'
  · cases h

/-- A successful `getAccept` starts from a non-materialized automaton and materializes it. -/
theorem getAccept_ok_materialized (fsm : SvaFsm) (m m' : Module) (fsm' : SvaFsm) (acc : SigBit)
    (h : fsm.getAccept m = Except.ok (m', fsm', acc)) :
    fsm.materialized = false ∧ fsm'.materialized = true := by
  unfold SvaFsm.getAccept at h
  by_cases hm : fsm.materialized = true
  · rw [if_pos hm] at h
    cases h
  · rw [if_neg hm] at h
    simp only at h
    split at h
    · cases h
    · cases h
      exact ⟨by simpa using hm, rfl⟩

end SVA


namespace SVA

/-- The only members `getReject` writes are `unodes`, `dnodes` and the final signals. -/
theorem getReject_frame (fsm : SvaFsm) (m : Module) (wa : Bool) (m' : Module) (fsm' : SvaFsm)
    (rej : SigBit) (acc : Option SigBit)
    (h : fsm.getReject m wa = Except.ok (m', fsm', rej, acc)) :
    fsm' = { fsm with unodes := fsm'.unodes, dnodes := fsm'.dnodes,
                      final_accept_sig := fsm'.final_accept_sig,
                      final_reject_sig := fsm'.final_reject_sig } := by
  unfold SvaFsm.getReject at h
  split at h
  · cases h
  · split at h
    · cases h
    · simp only at h
      split at h
      · cases h
      · cases h
        rfl

/-- A non-materialized automaton accepts every mutation with node ids in range. -/
theorem unmaterialized_mutable (fsm : SvaFsm) (hm : fsm.materialized = false) :
    (∃ r, fsm.createNode = Except.ok r) ∧
    (∀ (u v : Nat) c, u < fsm.nodes.length → v < fsm.nodes.length →
      ∃ r, fsm.createEdge u v c = Except.ok r) ∧
    (∀ (u v : Nat) c, u < fsm.nodes.length → v < fsm.nodes.length →
      ∃ r, fsm.createLink u v c = Except.ok r) := by
  have hm' : ¬ fsm.materialized = true := by simp [hm]
  refine ⟨?_, ?_, ?_⟩
  · unfold SvaFsm.createNode
    rw [if_neg hm']
    exact ⟨_, rfl⟩
  · intro u v c hu hv
    unfold SvaFsm.createEdge
    rw [if_neg hm', if_neg (by simp [hu]), if_neg (by simp [hv])]
    exact ⟨_, rfl⟩
  · intro u v c hu hv
    unfold SvaFsm.createLink
    rw [if_neg hm', if_neg (by simp [hu]), if_neg (by simp [hv])]
    exact ⟨_, rfl⟩

end SVA


namespace SVA

/-! ## The mutators in closed form -/

theorem createNode_ok (fsm : SvaFsm) (hm : fsm.materialized = false) :
    fsm.createNode = Except.ok (fsm.withNode, fsm.nodes.length) := by
  unfold SvaFsm.createNode
  rw [if_neg (by simp [hm])]
  rfl

theorem createNode_inv (fsm f2 : SvaFsm) (n : Nat) (h : fsm.createNode = Except.ok (f2, n)) :
    fsm.materialized = false ∧ f2 = fsm.withNode ∧ n = fsm.nodes.length := by
  unfold SvaFsm.createNode at h
  by_cases hm : fsm.materialized = true
  · rw [if_pos hm] at h; cases h
  · rw [if_neg hm] at h
    cases h
    exact ⟨by simpa using hm, rfl, rfl⟩

theorem createEdge_ok (fsm : SvaFsm) (u v : Nat) (c : SigBit) (hm : fsm.materialized = false)
    (hu : u < fsm.nodes.length) (hv : v < fsm.nodes.length) :
    fsm.createEdge u v c = Except.ok (fsm.withEdge u v (fsm.throughout_ctrl c)) := by
  unfold SvaFsm.createEdge
  rw [if_neg (by simp [hm]), if_neg (by simp [hu]), if_neg (by simp [hv])]
  rfl

theorem createLink_ok (fsm : SvaFsm) (u v : Nat) (c : SigBit) (hm : fsm.materialized = false)
    (hu : u < fsm.nodes.length) (hv : v < fsm.nodes.length) :
    fsm.createLink u v c = Except.ok (fsm.withLink u v (fsm.throughout_ctrl c)) := by
  unfold SvaFsm.createLink
  rw [if_neg (by simp [hm]), if_neg (by simp [hu]), if_neg (by simp [hv])]
  rfl

theorem createEdge_inv (fsm f2 : SvaFsm) (u v : Nat) (c : SigBit)
    (h : fsm.createEdge u v c = Except.ok f2) :
    fsm.materialized = false ∧ u < fsm.nodes.length ∧ v < fsm.nodes.length ∧
      f2 = fsm.withEdge u v (fsm.throughout_ctrl c) := by
  by_cases hm : fsm.materialized = true
  · unfold SvaFsm.createEdge at h
    rw [if_pos hm] at h; cases h
  have hm' : fsm.materialized = false := by simpa using hm
  by_cases hu : u < fsm.nodes.length
  · by_cases hv : v < fsm.nodes.length
    · rw [createEdge_ok fsm u v c hm' hu hv] at h
      cases h
      exact ⟨hm', hu, hv, rfl⟩
    · unfold SvaFsm.createEdge at h
      rw [if_neg hm, if_neg (by simp [hu]), if_pos (by simp; omega)] at h
      cases h
  · unfold SvaFsm.createEdge at h
    rw [if_neg hm, if_pos (by simp; omega)] at h
    cases h

theorem createLink_inv (fsm f2 : SvaFsm) (u v : Nat) (c : SigBit)
    (h : fsm.createLink u v c = Except.ok f2) :
    fsm.materialized = false ∧ u < fsm.nodes.length ∧ v < fsm.nodes.length ∧
      f2 = fsm.withLink u v (fsm.throughout_ctrl c) := by
  by_cases hm : fsm.materialized = true
  · unfold SvaFsm.createLink at h
    rw [if_pos hm] at h; cases h
  have hm' : fsm.materialized = false := by simpa using hm
  by_cases hu : u < fsm.nodes.length
  · by_cases hv : v < fsm.nodes.length
    · rw [createLink_ok fsm u v c hm' hu hv] at h
      cases h
      exact ⟨hm', hu, hv, rfl⟩
    · unfold SvaFsm.createLink at h
      rw [if_neg hm, if_neg (by simp [hu]), if_pos (by simp; omega)] at h
      cases h
  · unfold SvaFsm.createLink at h
    rw [if_neg hm, if_pos (by simp; omega)] at h
    cases h

/-! ## Nodes, edges and links after a mutation -/

theorem nodesOnly_refl (fsm : SvaFsm) : fsm.NodesOnly fsm := by
  cases fsm; rfl

theorem nodesOnly_trans (a b c : SvaFsm) (h1 : a.NodesOnly b) (h2 : b.NodesOnly c) :
    a.NodesOnly c := by
  unfold SvaFsm.NodesOnly at *
  rw [h2, h1]

theorem nodesOnly_withNode (fsm : SvaFsm) : fsm.NodesOnly fsm.withNode := rfl

theorem nodesOnly_withEdge (fsm : SvaFsm) (u v : Nat) (c : SigBit) :
    fsm.NodesOnly (fsm.withEdge u v c) := rfl

theorem nodesOnly_withLink (fsm : SvaFsm) (u v : Nat) (c : SigBit) :
    fsm.NodesOnly (fsm.withLink u v c) := rfl

theorem length_withNode (fsm : SvaFsm) : fsm.withNode.nodes.length = fsm.nodes.length + 1 := by
  simp [SvaFsm.withNode]

theorem length_withEdge (fsm : SvaFsm) (u v : Nat) (c : SigBit) :
    (fsm.withEdge u v c).nodes.length = fsm.nodes.length := by
  simp [SvaFsm.withEdge]

theorem length_withLink (fsm : SvaFsm) (u v : Nat) (c : SigBit) :
    (fsm.withLink u v c).nodes.length = fsm.nodes.length := by
  simp [SvaFsm.withLink]

theorem getD_withNode (fsm : SvaFsm) (i : Nat) :
    fsm.withNode.nodes.getD i default = fsm.nodes.getD i default := by
  unfold SvaFsm.withNode
  simp only [List.getD_eq_getElem?_getD]
  by_cases hi : i < fsm.nodes.length
  · rw [List.getElem?_append_left hi]
  · rw [List.getElem?_append_right (by omega)]
    rw [List.getElem?_eq_none (by omega : fsm.nodes.length ≤ i)]
    rcases Nat.eq_zero_or_pos (i - fsm.nodes.length) with h | h
    · rw [h]; rfl
    · rw [List.getElem?_eq_none (by simp; omega)]

theorem edgesOf_withNode (fsm : SvaFsm) (i : Nat) : fsm.withNode.edgesOf i = fsm.edgesOf i := by
  unfold SvaFsm.edgesOf; rw [getD_withNode]

theorem linksOf_withNode (fsm : SvaFsm) (i : Nat) : fsm.withNode.linksOf i = fsm.linksOf i := by
  unfold SvaFsm.linksOf; rw [getD_withNode]

end SVA


namespace SVA

theorem edgesOf_withEdge (fsm : SvaFsm) (u v : Nat) (c : SigBit) (i : Nat)
    (hu : u < fsm.nodes.length) :
    (fsm.withEdge u v c).edgesOf i = fsm.edgesOf i ++ (if i = u then [(v, c)] else []) := by
  unfold SvaFsm.edgesOf SvaFsm.withEdge
  by_cases h : i = u
  · subst h
    simp only [if_true]
    rw [getD_set_eq _ _ _ _ hu]
  · rw [if_neg h, List.append_nil]
    simp only
    rw [getD_set_ne _ _ _ _ _ (fun h' => h h'.symm)]

theorem linksOf_withEdge (fsm : SvaFsm) (u v : Nat) (c : SigBit) (i : Nat) :
    (fsm.withEdge u v c).linksOf i = fsm.linksOf i := by
  unfold SvaFsm.linksOf SvaFsm.withEdge
  by_cases h : i = u
  · subst h
    by_cases hu : i < fsm.nodes.length
    · simp only
      rw [getD_set_eq _ _ _ _ hu]
    · simp only
      rw [getD_set_ge _ _ _ _ _ (by omega)]
  · simp only
    rw [getD_set_ne _ _ _ _ _ (fun h' => h h'.symm)]

theorem linksOf_withLink (fsm : SvaFsm) (u v : Nat) (c : SigBit) (i : Nat)
    (hu : u < fsm.nodes.length) :
    (fsm.withLink u v c).linksOf i = fsm.linksOf i ++ (if i = u then [(v, c)] else []) := by
  unfold SvaFsm.linksOf SvaFsm.withLink
  by_cases h : i = u
  · subst h
    simp only [if_true]
    rw [getD_set_eq _ _ _ _ hu]
  · rw [if_neg h, List.append_nil]
    simp only
    rw [getD_set_ne _ _ _ _ _ (fun h' => h h'.symm)]

theorem edgesOf_withLink (fsm : SvaFsm) (u v : Nat) (c : SigBit) (i : Nat) :
    (fsm.withLink u v c).edgesOf i = fsm.edgesOf i := by
  unfold SvaFsm.edgesOf SvaFsm.withLink
  by_cases h : i = u
  · subst h
    by_cases hu : i < fsm.nodes.length
    · simp only
      rw [getD_set_eq _ _ _ _ hu]
    · simp only
      rw [getD_set_ge _ _ _ _ _ (by omega)]
  · simp only
    rw [getD_set_ne _ _ _ _ _ (fun h' => h h'.symm)]

/-! ## What a compiler step leaves alone -/

theorem grows_refl (s : SvaFsm × Nat) : Grows s s :=
  ⟨nodesOnly_refl _, le_refl _, fun h => h⟩

theorem grows_trans (a b c : SvaFsm × Nat) (h1 : Grows a b) (h2 : Grows b c) : Grows a c :=
  ⟨nodesOnly_trans _ _ _ h1.1 h2.1, le_trans h1.2.1 h2.2.1, fun h => h2.2.2 (h1.2.2 h)⟩

theorem nodesOnly_materialized (a b : SvaFsm) (h : a.NodesOnly b) :
    b.materialized = a.materialized := by
  unfold SvaFsm.NodesOnly at h; rw [h]

theorem nodesOnly_throughout (a b : SvaFsm) (h : a.NodesOnly b) :
    b.throughout_sig = a.throughout_sig ∧ b.throughout_stack = a.throughout_stack := by
  unfold SvaFsm.NodesOnly at h
  constructor <;> rw [h]

theorem nodesOnly_throughout_ctrl (a b : SvaFsm) (h : a.NodesOnly b) (c : SigBit) :
    b.throughout_ctrl c = a.throughout_ctrl c := by
  unfold SvaFsm.throughout_ctrl
  rw [(nodesOnly_throughout a b h).1]

theorem edge_to_new_node_ok (fsm : SvaFsm) (node : Nat) (hm : fsm.materialized = false)
    (hn : node < fsm.nodes.length) :
    edge_to_new_node fsm node =
      Except.ok (fsm.withNode.withEdge node fsm.nodes.length (fsm.throughout_ctrl SigBit.S1),
        fsm.nodes.length) := by
  unfold edge_to_new_node
  rw [createNode_ok fsm hm]
  show (do
    let fsm2 ← fsm.withNode.createEdge node fsm.nodes.length SigBit.S1
    pure (fsm2, fsm.nodes.length)) = _
  rw [createEdge_ok fsm.withNode node fsm.nodes.length SigBit.S1 hm
    (by rw [length_withNode]; omega) (by rw [length_withNode]; omega)]
  rfl

theorem edge_to_new_node_inv (fsm f2 : SvaFsm) (node n : Nat)
    (h : edge_to_new_node fsm node = Except.ok (f2, n)) :
    fsm.materialized = false ∧ node < fsm.nodes.length + 1 ∧ n = fsm.nodes.length ∧
      f2 = fsm.withNode.withEdge node fsm.nodes.length (fsm.throughout_ctrl SigBit.S1) := by
  unfold edge_to_new_node at h
  by_cases hm : fsm.materialized = true
  · have := (materialized_aborts fsm hm).1
    rw [this] at h
    cases h
  have hm' : fsm.materialized = false := by simpa using hm
  rw [createNode_ok fsm hm'] at h
  have h' : (do
    let fsm2 ← fsm.withNode.createEdge node fsm.nodes.length SigBit.S1
    pure (fsm2, fsm.nodes.length)) = Except.ok (f2, n) := h
  cases hce : fsm.withNode.createEdge node fsm.nodes.length SigBit.S1 with
  | error e => rw [hce] at h'; cases h'
  | ok f3 =>
    rw [hce] at h'
    cases h'
    obtain ⟨_, hu, _, hf⟩ := createEdge_inv _ _ _ _ _ hce
    rw [length_withNode] at hu
    exact ⟨hm', hu, rfl, hf⟩

theorem grows_edge_to_new_node (fsm f2 : SvaFsm) (node n : Nat)
    (h : edge_to_new_node fsm node = Except.ok (f2, n)) : Grows (fsm, node) (f2, n) := by
  obtain ⟨_, _, hn, hf⟩ := edge_to_new_node_inv fsm f2 node n h
  subst hn hf
  refine ⟨rfl, ?_, fun _ => ?_⟩
  · show fsm.nodes.length ≤ (fsm.withNode.withEdge _ _ _).nodes.length
    rw [length_withEdge, length_withNode]; omega
  · show fsm.nodes.length < (fsm.withNode.withEdge _ _ _).nodes.length
    rw [length_withEdge, length_withNode]; omega

end SVA


namespace SVA

theorem bind_ok {α β : Type} (x : Except Failure α) (f : α → Except Failure β) (r : β)
    (h : x >>= f = Except.ok r) : ∃ a, x = Except.ok a ∧ f a = Except.ok r := by
  cases x with
  | error e => cases h
  | ok a => exact ⟨a, rfl, h⟩

theorem parse_unsupported (k : Bool) (net : SvaNet) (fsm : SvaFsm) (start : Nat)
    (h : net.unsupported_in_sequence = true) :
    parse_sequence k net fsm start =
      if ¬ k then Except.error (Failure.log_error unsupported_error)
      else Except.ok (fsm, start) := by
  cases net <;> first | (cases h; done) | (unfold parse_sequence; rfl)

theorem throughout_frame (fsm f1 f2 f3 : SvaFsm) (e : SigBit)
    (h1 : fsm.pushThroughout e = Except.ok f1) (h2 : f1.NodesOnly f2)
    (h3 : f2.popThroughout = Except.ok f3) :
    fsm.NodesOnly f3 ∧ f3.nodes = f2.nodes ∧ f1.nodes = fsm.nodes := by
  unfold SvaFsm.pushThroughout at h1
  by_cases hm : fsm.materialized = true
  · rw [if_pos hm] at h1; cases h1
  rw [if_neg hm] at h1
  unfold SvaFsm.popThroughout at h3
  unfold SvaFsm.NodesOnly at h2
  by_cases hs : fsm.throughout_sig = SigBit.S1
  · simp only [hs, if_true] at h1
    cases h1
    rw [h2] at h3
    simp at h3
    rw [if_neg (by simpa using hm)] at h3
    cases h3
    refine ⟨?_, rfl, rfl⟩
    unfold SvaFsm.NodesOnly
    cases fsm
    simp at hs ⊢
    exact hs.symm
  · simp only [hs, if_false] at h1
    cases h1
    rw [h2] at h3
    simp at h3
    rw [if_neg (by simpa using hm)] at h3
    cases h3
    refine ⟨?_, rfl, rfl⟩
    unfold SvaFsm.NodesOnly
    cases fsm
    simp

/-- A successful run of `parse_sequence` changes only the nodes of the automaton, removes
no node, and returns a node of the automaton when it was started on one. -/
theorem parse_sequence_grows (k : Bool) (net : SvaNet) :
    ∀ (fsm : SvaFsm) (start : Nat) (r : SvaFsm × Nat),
      parse_sequence k net fsm start = Except.ok r → Grows (fsm, start) r := by
  induction net with
  | expr sig =>
    intro fsm start r h
    unfold parse_sequence at h
    obtain ⟨⟨f1, n1⟩, h1, h⟩ := bind_ok _ _ _ h
    simp only at h
    obtain ⟨f2, h2, h⟩ := bind_ok _ _ _ h
    cases h
    obtain ⟨_, hf1, hn1⟩ := createNode_inv _ _ _ h1
    obtain ⟨_, hu, hv, hf2⟩ := createLink_inv _ _ _ _ _ h2
    subst hf1 hn1 hf2
    refine ⟨rfl, ?_, fun _ => ?_⟩
    · show fsm.nodes.length ≤ (fsm.withNode.withLink _ _ _).nodes.length
      rw [length_withLink, length_withNode]; omega
    · show fsm.nodes.length < (fsm.withNode.withLink _ _ _).nodes.length
      rw [length_withLink, length_withNode]; omega
  | seq_concat N M a b iha ihb =>
    intro fsm start r h
    unfold parse_sequence at h
    obtain ⟨⟨f1, n1⟩, h1, h⟩ := bind_ok _ _ _ h
    simp only at h
    obtain ⟨⟨f2, n2⟩, h2, h⟩ := bind_ok _ _ _ h
    simp only at h
    have g1 := iha _ _ _ h1
    have g2 : Grows (f1, n1) (f2, n2) :=
      foldlM_preserves Grows grows_refl grows_trans _ _
        (fun s _ s' _ hs => grows_edge_to_new_node _ _ _ _ hs) _ _ h2
    cases M with
    | none =>
      simp only at h
      obtain ⟨f3, h3, h⟩ := bind_ok _ _ _ h
      obtain ⟨_, _, _, hf3⟩ := createEdge_inv _ _ _ _ _ h3
      have g3 : Grows (f2, n2) (f3, n2) := by
        subst hf3
        exact ⟨rfl, by show _ ≤ (f2.withEdge _ _ _).nodes.length; rw [length_withEdge],
          fun hh => by show _ < (f2.withEdge _ _ _).nodes.length; rw [length_withEdge]; exact hh⟩
      exact grows_trans _ _ _ g1 (grows_trans _ _ _ g2 (grows_trans _ _ _ g3 (ihb _ _ _ h)))
    | some M =>
      simp only at h
      obtain ⟨⟨f3, n3⟩, h3, h⟩ := bind_ok _ _ _ h
      have g3 : Grows (f2, n2) (f3, n3) := by
        refine foldlM_preserves Grows grows_refl grows_trans _ _ ?_ _ _ h3
        intro s _ s' _ hs
        obtain ⟨⟨f4, n4⟩, h4, hs⟩ := bind_ok _ _ _ hs
        simp only at hs
        obtain ⟨f5, h5, hs⟩ := bind_ok _ _ _ hs
        cases hs
        obtain ⟨_, _, _, hf5⟩ := createLink_inv _ _ _ _ _ h5
        have g4 := grows_edge_to_new_node _ _ _ _ h4
        refine grows_trans _ _ _ g4 ?_
        subst hf5
        exact ⟨rfl, by show _ ≤ (f4.withLink _ _ _).nodes.length; rw [length_withLink],
          fun hh => by show _ < (f4.withLink _ _ _).nodes.length; rw [length_withLink]; exact hh⟩
      exact grows_trans _ _ _ g1 (grows_trans _ _ _ g2 (grows_trans _ _ _ g3 (ihb _ _ _ h)))
  | consecutive_repeat N M a iha =>
    intro fsm start r h
    unfold parse_sequence at h
    obtain ⟨⟨f1, n1⟩, h1, h⟩ := bind_ok _ _ _ h
    simp only at h
    obtain ⟨⟨f2, n2⟩, h2, h⟩ := bind_ok _ _ _ h
    simp only at h
    have g1 := iha _ _ _ h1
    have g2 : Grows (f1, n1) (f2, n2) := by
      refine foldlM_preserves Grows grows_refl grows_trans _ _ ?_ _ _ h2
      intro s _ s' _ hs
      obtain ⟨⟨f4, n4⟩, h4, hs⟩ := bind_ok _ _ _ hs
      exact grows_trans _ _ _ (grows_edge_to_new_node _ _ _ _ h4) (iha _ _ _ hs)
    cases M with
    | none =>
      simp only at h
      obtain ⟨⟨f3, n3⟩, h3, h⟩ := bind_ok _ _ _ h
      simp only at h
      obtain ⟨⟨f4, n4⟩, h4, h⟩ := bind_ok _ _ _ h
      simp only at h
      obtain ⟨f5, h5, h⟩ := bind_ok _ _ _ h
      cases h
      obtain ⟨_, _, _, hf5⟩ := createLink_inv _ _ _ _ _ h5
      have g3 := grows_edge_to_new_node _ _ _ _ h3
      have g4 := iha _ _ _ h4
      have g := grows_trans _ _ _ g1 (grows_trans _ _ _ g2 (grows_trans _ _ _ g3 g4))
      have g24 := grows_trans _ _ _ g3 g4
      subst hf5
      refine ⟨nodesOnly_trans _ _ _ g.1 rfl, ?_, fun hh => ?_⟩
      · show _ ≤ (f4.withLink _ _ _).nodes.length
        rw [length_withLink]; exact g.2.1
      · show n2 < (f4.withLink _ _ _).nodes.length
        rw [length_withLink]
        have := (grows_trans _ _ _ g1 g2).2.2 hh
        exact lt_of_lt_of_le this g24.2.1
    | some M =>
      simp only at h
      have g3 : Grows (f2, n2) r := by
        refine foldlM_preserves Grows grows_refl grows_trans _ _ ?_ _ _ h
        intro s _ s' _ hs
        obtain ⟨⟨f4, n4⟩, h4, hs⟩ := bind_ok _ _ _ hs
        simp only at hs
        obtain ⟨⟨f5, n5⟩, h5, hs⟩ := bind_ok _ _ _ hs
        simp only at hs
        obtain ⟨f6, h6, hs⟩ := bind_ok _ _ _ hs
        cases hs
        obtain ⟨_, _, _, hf6⟩ := createLink_inv _ _ _ _ _ h6
        have g := grows_trans _ _ _ (grows_edge_to_new_node _ _ _ _ h4) (iha _ _ _ h5)
        refine grows_trans _ _ _ g ?_
        subst hf6
        exact ⟨rfl, by show _ ≤ (f5.withLink _ _ _).nodes.length; rw [length_withLink],
          fun hh => by show _ < (f5.withLink _ _ _).nodes.length; rw [length_withLink]; exact hh⟩
      exact grows_trans _ _ _ g1 (grows_trans _ _ _ g2 g3)
  | seq_or a b iha ihb =>
    intro fsm start r h
    unfold parse_sequence at h
    obtain ⟨⟨f1, n1⟩, h1, h⟩ := bind_ok _ _ _ h
    simp only at h
    obtain ⟨⟨f2, n2⟩, h2, h⟩ := bind_ok _ _ _ h
    simp only at h
    obtain ⟨f3, h3, h⟩ := bind_ok _ _ _ h
    cases h
    obtain ⟨_, _, hv, hf3⟩ := createLink_inv _ _ _ _ _ h3
    have g1 := iha _ _ _ h1
    have g2 := ihb _ _ _ h2
    subst hf3
    refine ⟨nodesOnly_trans _ _ _ (nodesOnly_trans _ _ _ g1.1 g2.1) rfl, ?_, fun _ => ?_⟩
    · show _ ≤ (f2.withLink _ _ _).nodes.length
      rw [length_withLink]; exact le_trans g1.2.1 g2.2.1
    · show n1 < (f2.withLink _ _ _).nodes.length
      rw [length_withLink]; exact hv
  | throughout a b _ ihb =>
    intro fsm start r h
    unfold parse_sequence at h
    cases a with
    | expr e =>
      simp only at h
      obtain ⟨f1, h1, h⟩ := bind_ok _ _ _ h
      obtain ⟨⟨f2, n2⟩, h2, h⟩ := bind_ok _ _ _ h
      simp only at h
      obtain ⟨f3, h3, h⟩ := bind_ok _ _ _ h
      cases h
      have g2 := ihb _ _ _ h2
      obtain ⟨hn, e1, e2⟩ := throughout_frame fsm f1 f2 f3 e h1 g2.1 h3
      refine ⟨hn, ?_, fun hh => ?_⟩
      · show _ ≤ f3.nodes.length
        rw [e1, ← e2]; exact g2.2.1
      · show n2 < f3.nodes.length
        rw [e1]; exact g2.2.2 (by rw [e2]; exact hh)
    | _ => cases h
  | _ =>
    intro fsm start r h
    unfold parse_sequence at h
    split at h
    · cases h
    · cases h
      exact grows_refl _

end SVA


namespace SVA

/-! ## Delay chains -/

theorem chain_src_inj (node L j k : Nat) (h : node < L)
    (hjk : chain_src node L j = chain_src node L k) : j = k := by
  unfold chain_src at hjk
  split_ifs at hjk <;> omega

theorem chain_src_lt (node L j : Nat) (h : node < L) : chain_src node L j < L + j + 1 := by
  unfold chain_src
  split_ifs <;> omega

theorem chain_src_succ (node L j : Nat) : chain_src node L (j + 1) = L + j := by
  unfold chain_src
  rw [if_neg (by omega)]
  omega

/-- A loop whose body ignores the loop variable and maintains an invariant indexed by the
number of iterations. -/
theorem foldlM_invariant {σ α : Type} (P : Nat → σ → Prop) (A B : Nat)
    (step : σ → Except Failure σ)
    (hstep : ∀ j s, A ≤ j → j < B → P j s → ∃ s2, step s = Except.ok s2 ∧ P (j + 1) s2)
    (l : List α) :
    ∀ j s, A ≤ j → j + l.length ≤ B → P j s →
      ∃ s2, l.foldlM (fun acc _ => step acc) s = Except.ok s2 ∧ P (j + l.length) s2 := by
  induction l with
  | nil =>
    intro j s _ _ hP
    exact ⟨s, rfl, hP⟩
  | cons a l ih =>
    intro j s hA hB hP
    rw [List.length_cons] at hB
    obtain ⟨s1, h1, hP1⟩ := hstep j s hA (by omega) hP
    obtain ⟨s2, h2, hP2⟩ := ih (j + 1) s1 (by omega) (by omega) hP1
    refine ⟨s2, ?_, ?_⟩
    · rw [foldlM_ok_cons]
      simp only [h1]
      exact h2
    · rw [List.length_cons]
      have : j + (l.length + 1) = j + 1 + l.length := by omega
      rw [this]
      exact hP2

theorem delayChain_zero (f1 : SvaFsm) (node : Nat) (c : SigBit) (N : Nat) :
    DelayChain f1 node c N 0 f1 := by
  refine ⟨nodesOnly_refl _, rfl, ?_, ?_, ?_, ?_⟩
  · intro j hj; omega
  · intro i _; rfl
  · intro j _ hj; omega
  · intro i _; rfl

/-- One pass of a delay loop: a fresh node reached by an edge, and by a link when `lk`. -/
theorem delayChain_step (f1 f : SvaFsm) (node : Nat) (N j : Nat) (lk : Bool)
    (hn : node < f1.nodes.length)
    (hlk : lk = true ↔ N ≤ j)
    (hD : DelayChain f1 node (f1.throughout_ctrl SigBit.S1) N j f) :
    DelayChain f1 node (f1.throughout_ctrl SigBit.S1) N (j + 1)
      (if lk then
        ((f.withNode.withEdge (chain_src node f1.nodes.length j) (f1.nodes.length + j)
          (f1.throughout_ctrl SigBit.S1)).withLink (chain_src node f1.nodes.length j)
            (f1.nodes.length + j) (f1.throughout_ctrl SigBit.S1))
       else
        (f.withNode.withEdge (chain_src node f1.nodes.length j) (f1.nodes.length + j)
          (f1.throughout_ctrl SigBit.S1))) := by
  obtain ⟨h1, h2, h3, h4, h5, h6⟩ := hD
  have hsrc : chain_src node f1.nodes.length j < f.withNode.nodes.length := by
    rw [length_withNode, h2]
    exact chain_src_lt _ _ _ hn
  have hne : ∀ k, k < j → chain_src node f1.nodes.length k ≠ chain_src node f1.nodes.length j :=
    fun k hk heq => by have := chain_src_inj _ _ _ _ hn heq; omega
  have hE : ∀ i, (f.withNode.withEdge (chain_src node f1.nodes.length j) (f1.nodes.length + j)
      (f1.throughout_ctrl SigBit.S1)).edgesOf i =
      f.edgesOf i ++ (if i = chain_src node f1.nodes.length j
        then [(f1.nodes.length + j, f1.throughout_ctrl SigBit.S1)] else []) := by
    intro i
    rw [edgesOf_withEdge _ _ _ _ _ hsrc, edgesOf_withNode]
  have hL : ∀ i, (f.withNode.withEdge (chain_src node f1.nodes.length j) (f1.nodes.length + j)
      (f1.throughout_ctrl SigBit.S1)).linksOf i = f.linksOf i := by
    intro i
    rw [linksOf_withEdge, linksOf_withNode]
  have hEj : f.edgesOf (chain_src node f1.nodes.length j) =
      f1.edgesOf (chain_src node f1.nodes.length j) :=
    h4 _ (fun k hk heq => hne k hk heq.symm)
  have hLj : f.linksOf (chain_src node f1.nodes.length j) =
      f1.linksOf (chain_src node f1.nodes.length j) :=
    h6 _ (fun k _ hk heq => hne k hk heq.symm)
  cases lk with
  | false =>
    have hjN : ¬ N ≤ j := fun h => by have := hlk.2 h; cases this
    simp only [Bool.false_eq_true, if_false]
    refine ⟨nodesOnly_trans _ _ _ h1 rfl, ?_, ?_, ?_, ?_, ?_⟩
    · rw [length_withEdge, length_withNode, h2]; omega
    · intro k hk
      rw [hE]
      by_cases hkj : k = j
      · subst hkj
        rw [if_pos rfl, hEj]
      · rw [if_neg (hne k (by omega)), List.append_nil]
        exact h3 k (by omega)
    · intro i hi
      rw [hE, if_neg (hi j (by omega)), List.append_nil]
      exact h4 i (fun k hk => hi k (by omega))
    · intro k hNk hk
      rw [hL]
      exact h5 k hNk (by omega)
    · intro i hi
      rw [hL]
      exact h6 i (fun k hNk hk => hi k hNk (by omega))
  | true =>
    have hjN : N ≤ j := hlk.1 rfl
    simp only [if_true]
    have hsrc2 : chain_src node f1.nodes.length j <
        (f.withNode.withEdge (chain_src node f1.nodes.length j) (f1.nodes.length + j)
          (f1.throughout_ctrl SigBit.S1)).nodes.length := by
      rw [length_withEdge]; exact hsrc
    refine ⟨nodesOnly_trans _ _ _ h1 rfl, ?_, ?_, ?_, ?_, ?_⟩
    · rw [length_withLink, length_withEdge, length_withNode, h2]; omega
    · intro k hk
      rw [edgesOf_withLink, hE]
      by_cases hkj : k = j
      · subst hkj
        rw [if_pos rfl, hEj]
      · rw [if_neg (hne k (by omega)), List.append_nil]
        exact h3 k (by omega)
    · intro i hi
      rw [edgesOf_withLink, hE, if_neg (hi j (by omega)), List.append_nil]
      exact h4 i (fun k hk => hi k (by omega))
    · intro k hNk hk
      rw [linksOf_withLink _ _ _ _ _ hsrc2, hL]
      by_cases hkj : k = j
      · subst hkj
        rw [if_pos rfl, hLj]
      · rw [if_neg (hne k (by omega)), List.append_nil]
        exact h5 k hNk (by omega)
    · intro i hi
      rw [linksOf_withLink _ _ _ _ _ hsrc2, hL, if_neg (hi j hjN (by omega)), List.append_nil]
      exact h6 i (fun k hNk hk => hi k hNk (by omega))

end SVA


namespace SVA

theorem ok_bind {α β : Type} (a : α) (f : α → Except Failure β) :
    (Except.ok a >>= f) = f a := rfl

theorem error_bind {α β : Type} (e : Failure) (f : α → Except Failure β) :
    ((Except.error e : Except Failure α) >>= f) = Except.error e := rfl

/-- The first loop of a concatenation: `n` fresh nodes chained by edges. -/
theorem delay_loop_edges (f1 : SvaFsm) (node N : Nat) (hm : f1.materialized = false)
    (hn : node < f1.nodes.length) (n : Nat) (hnN : n ≤ N) :
    ∃ f2, (List.range n).foldlM
        (fun (acc : SvaFsm × Nat) _ => edge_to_new_node acc.1 acc.2) (f1, node) =
        Except.ok (f2, chain_src node f1.nodes.length n) ∧
      DelayChain f1 node (f1.throughout_ctrl SigBit.S1) N n f2 := by
  have key := foldlM_invariant
    (fun j (s : SvaFsm × Nat) =>
      DelayChain f1 node (f1.throughout_ctrl SigBit.S1) N j s.1 ∧
        s.2 = chain_src node f1.nodes.length j) 0 N
    (fun (acc : SvaFsm × Nat) => edge_to_new_node acc.1 acc.2)
    (by
      intro j s _ hj hP
      obtain ⟨hD, hs⟩ := hP
      have hmat : s.1.materialized = false := by
        rw [nodesOnly_materialized _ _ hD.1]; exact hm
      have hlen : s.1.nodes.length = f1.nodes.length + j := hD.2.1
      have hlt : s.2 < s.1.nodes.length := by
        rw [hs, hlen]
        have := chain_src_lt node f1.nodes.length j hn
        unfold chain_src at this ⊢
        split_ifs at this ⊢ <;> omega
      refine ⟨_, edge_to_new_node_ok s.1 s.2 hmat hlt, ?_, ?_⟩
      · have := delayChain_step f1 s.1 node N j false hn
          ⟨fun h => (by cases h), fun h => (by omega)⟩ hD
        simp only [Bool.false_eq_true, if_false] at this
        rw [hlen, hs, nodesOnly_throughout_ctrl _ _ hD.1]
        exact this
      · show s.1.nodes.length = _
        rw [hlen, chain_src_succ])
    (List.range n) 0 (f1, node) (le_refl _) (by rw [List.length_range]; omega)
    ⟨delayChain_zero _ _ _ _, rfl⟩
  obtain ⟨⟨f2, n2⟩, h2, hD2, hn2⟩ := key
  rw [List.length_range, Nat.zero_add] at hD2 hn2
  simp only at hn2
  subst hn2
  exact ⟨f2, h2, hD2⟩

/-- The second loop of a concatenation: `K` more fresh nodes, each reached from the node
before it by an edge and a link. -/
theorem delay_loop_window (f1 f2 : SvaFsm) (node N K : Nat) (hm : f1.materialized = false)
    (hn : node < f1.nodes.length)
    (hD : DelayChain f1 node (f1.throughout_ctrl SigBit.S1) N N f2) :
    ∃ f3, (List.range' N K).foldlM
        (fun (acc : SvaFsm × Nat) _ => do
          let (fsm, next_node) ← edge_to_new_node acc.1 acc.2
          let fsm ← fsm.createLink acc.2 next_node SigBit.S1
          pure (fsm, next_node))
        (f2, chain_src node f1.nodes.length N) =
        Except.ok (f3, chain_src node f1.nodes.length (N + K)) ∧
      DelayChain f1 node (f1.throughout_ctrl SigBit.S1) N (N + K) f3 := by
  have key := foldlM_invariant
    (fun j (s : SvaFsm × Nat) =>
      DelayChain f1 node (f1.throughout_ctrl SigBit.S1) N j s.1 ∧
        s.2 = chain_src node f1.nodes.length j) N (N + K)
    (fun (acc : SvaFsm × Nat) => do
          let (fsm, next_node) ← edge_to_new_node acc.1 acc.2
          let fsm ← fsm.createLink acc.2 next_node SigBit.S1
          pure (fsm, next_node))
    (by
      intro j s hNj hj hP
      obtain ⟨hD, hs⟩ := hP
      have hmat : s.1.materialized = false := by
        rw [nodesOnly_materialized _ _ hD.1]; exact hm
      have hlen : s.1.nodes.length = f1.nodes.length + j := hD.2.1
      have hlt : s.2 < s.1.nodes.length := by
        rw [hs, hlen]
        have := chain_src_lt node f1.nodes.length j hn
        unfold chain_src at this ⊢
        split_ifs at this ⊢ <;> omega
      have hstep := delayChain_step f1 s.1 node N j true hn
          ⟨fun _ => hNj, fun _ => rfl⟩ hD
      simp only [if_true] at hstep
      refine ⟨(((s.1.withNode.withEdge (chain_src node f1.nodes.length j)
          (f1.nodes.length + j) (f1.throughout_ctrl SigBit.S1)).withLink
            (chain_src node f1.nodes.length j) (f1.nodes.length + j)
            (f1.throughout_ctrl SigBit.S1)), f1.nodes.length + j), ?_, hstep, ?_⟩
      · simp only
        rw [edge_to_new_node_ok s.1 s.2 hmat hlt, ok_bind]
        simp only
        rw [createLink_ok (s.1.withNode.withEdge s.2 s.1.nodes.length
          (s.1.throughout_ctrl SigBit.S1)) s.2 s.1.nodes.length SigBit.S1 hmat
          (by rw [length_withEdge, length_withNode]; omega)
          (by rw [length_withEdge, length_withNode]; omega), ok_bind]
        rw [hlen, hs, nodesOnly_throughout_ctrl _ _ hD.1]
        have e : (s.1.withNode.withEdge (chain_src node f1.nodes.length j)
            (f1.nodes.length + j) (f1.throughout_ctrl SigBit.S1)).throughout_ctrl SigBit.S1 =
            f1.throughout_ctrl SigBit.S1 := by
          rw [nodesOnly_throughout_ctrl s.1 _
            (nodesOnly_trans _ _ _ (nodesOnly_withNode s.1) (nodesOnly_withEdge _ _ _ _)),
            nodesOnly_throughout_ctrl _ _ hD.1]
        rw [e]
        rfl
      · show f1.nodes.length + j = _
        rw [chain_src_succ])
    (List.range' N K) N (f2, chain_src node f1.nodes.length N) (le_refl _)
    (by rw [List.length_range']) ⟨hD, rfl⟩
  obtain ⟨⟨f3, n3⟩, h3, hD3, hn3⟩ := key
  rw [List.length_range'] at hD3 hn3
  simp only at hn3
  subst hn3
  exact ⟨f3, h3, hD3⟩

end SVA


namespace SVA

theorem seq_concat_unbounded (k : Bool) (N : Nat) (lhs rhs : SvaNet) (fsm : SvaFsm)
    (start : Nat) (f1 : SvaFsm) (n1 : Nat)
    (h1 : parse_sequence k lhs fsm start = Except.ok (f1, n1))
    (hm : f1.materialized = false) (hn : n1 < f1.nodes.length) :
    ∃ f2, DelayChain f1 n1 (f1.throughout_ctrl SigBit.S1) N N f2 ∧
      parse_sequence k (SvaNet.seq_concat N none lhs rhs) fsm start =
        parse_sequence k rhs
          (f2.withEdge (chain_src n1 f1.nodes.length N) (chain_src n1 f1.nodes.length N)
            (f1.throughout_ctrl SigBit.S1))
          (chain_src n1 f1.nodes.length N) := by
  obtain ⟨f2, h2, hD⟩ := delay_loop_edges f1 n1 N hm hn N (le_refl _)
  refine ⟨f2, hD, ?_⟩
  have hlt : chain_src n1 f1.nodes.length N < f2.nodes.length := by
    rw [hD.2.1]
    have := chain_src_lt n1 f1.nodes.length N hn
    unfold chain_src at this ⊢
    split_ifs at this ⊢ <;> omega
  have hm2 : f2.materialized = false := by rw [nodesOnly_materialized _ _ hD.1]; exact hm
  conv_lhs => unfold parse_sequence
  rw [h1, ok_bind]
  simp only
  rw [h2, ok_bind]
  simp only
  rw [createEdge_ok f2 _ _ SigBit.S1 hm2 hlt hlt, ok_bind, nodesOnly_throughout_ctrl _ _ hD.1]
  rfl

theorem seq_concat_bounded (k : Bool) (N M : Nat) (lhs rhs : SvaNet) (fsm : SvaFsm)
    (start : Nat) (f1 : SvaFsm) (n1 : Nat)
    (h1 : parse_sequence k lhs fsm start = Except.ok (f1, n1))
    (hm : f1.materialized = false) (hn : n1 < f1.nodes.length) :
    ∃ f3, DelayChain f1 n1 (f1.throughout_ctrl SigBit.S1) N (N + (M - N)) f3 ∧
      parse_sequence k (SvaNet.seq_concat N (some M) lhs rhs) fsm start =
        parse_sequence k rhs f3 (chain_src n1 f1.nodes.length (N + (M - N))) := by
  obtain ⟨f2, h2, hD⟩ := delay_loop_edges f1 n1 N hm hn N (le_refl _)
  obtain ⟨f3, h3, hD3⟩ := delay_loop_window f1 f2 n1 N (M - N) hm hn hD
  refine ⟨f3, hD3, ?_⟩
  conv_lhs => unfold parse_sequence
  rw [h1, ok_bind]
  simp only
  rw [h2, ok_bind]
  simp only
  rw [h3, ok_bind]

theorem seq_concat_error (k : Bool) (N : Nat) (M : Option Nat) (lhs rhs : SvaNet)
    (fsm : SvaFsm) (start : Nat) (e : Failure)
    (h1 : parse_sequence k lhs fsm start = Except.error e) :
    parse_sequence k (SvaNet.seq_concat N M lhs rhs) fsm start = Except.error e := by
  conv_lhs => unfold parse_sequence
  rw [h1, error_bind]

/-! ## Plain expressions and disjunctions -/

theorem parse_expr_ok (k : Bool) (sig : SigBit) (fsm : SvaFsm) (start : Nat)
    (hm : fsm.materialized = false) (hs : start < fsm.nodes.length) :
    parse_sequence k (SvaNet.expr sig) fsm start =
      Except.ok (fsm.withNode.withLink start fsm.nodes.length (fsm.throughout_ctrl sig),
        fsm.nodes.length) := by
  unfold parse_sequence
  rw [createNode_ok fsm hm, ok_bind]
  simp only
  rw [createLink_ok fsm.withNode start fsm.nodes.length sig hm
    (by rw [length_withNode]; omega) (by rw [length_withNode]; omega), ok_bind]
  rfl

theorem seq_or_ok (k : Bool) (s1 s2 : SvaNet) (fsm : SvaFsm) (start : Nat)
    (f1 f2 : SvaFsm) (n1 n2 : Nat)
    (h1 : parse_sequence k s1 fsm start = Except.ok (f1, n1))
    (h2 : parse_sequence k s2 f1 start = Except.ok (f2, n2))
    (hm : fsm.materialized = false) (hs : start < fsm.nodes.length) :
    parse_sequence k (SvaNet.seq_or s1 s2) fsm start =
      Except.ok (f2.withLink n2 n1 (fsm.throughout_ctrl SigBit.S1), n1) ∧
    n1 < f2.nodes.length ∧ n2 < f2.nodes.length ∧ fsm.NodesOnly f2 := by
  have g1 := parse_sequence_grows k s1 _ _ _ h1
  have g2 := parse_sequence_grows k s2 _ _ _ h2
  have hn1 : n1 < f2.nodes.length := lt_of_lt_of_le (g1.2.2 hs) g2.2.1
  have hn2 : n2 < f2.nodes.length := g2.2.2 (lt_of_lt_of_le hs g1.2.1)
  have hN : fsm.NodesOnly f2 := nodesOnly_trans _ _ _ g1.1 g2.1
  have hm2 : f2.materialized = false := by rw [nodesOnly_materialized _ _ hN]; exact hm
  refine ⟨?_, hn1, hn2, hN⟩
  conv_lhs => unfold parse_sequence
  rw [h1, ok_bind]
  simp only
  rw [h2, ok_bind]
  simp only
  rw [createLink_ok f2 n2 n1 SigBit.S1 hm2 hn2 hn1, ok_bind, nodesOnly_throughout_ctrl _ _ hN]
  rfl

theorem seq_or_error (k : Bool) (s1 s2 : SvaNet) (fsm : SvaFsm) (start : Nat) (e : Failure) :
    (parse_sequence k s1 fsm start = Except.error e →
      parse_sequence k (SvaNet.seq_or s1 s2) fsm start = Except.error e) ∧
    (∀ f1 n1, parse_sequence k s1 fsm start = Except.ok (f1, n1) →
      parse_sequence k s2 f1 start = Except.error e →
      parse_sequence k (SvaNet.seq_or s1 s2) fsm start = Except.error e) := by
  constructor
  · intro h1
    conv_lhs => unfold parse_sequence
    rw [h1, error_bind]
  · intro f1 n1 h1 h2
    conv_lhs => unfold parse_sequence
    rw [h1, ok_bind]
    simp only
    rw [h2, error_bind]

/-- The nodes active after a link from `u` to `v` with control `c` has been added. -/
theorem linkClosure_withLink (f : SvaFsm) (u v : Nat) (c : SigBit) (hu : u < f.nodes.length)
    (val : SigBit → Bool) (E : Nat → Prop) :
    (f.withLink u v c).LinkClosure val E v ↔
      f.LinkClosure val E v ∨ (f.LinkClosure val E u ∧ val c = true) := by
  have mono : ∀ w, f.LinkClosure val E w → (f.withLink u v c).LinkClosure val E w := by
    intro w hw
    induction hw with
    | base h => exact SvaFsm.LinkClosure.base h
    | link _ hl hc ih =>
      refine SvaFsm.LinkClosure.link ih ?_ hc
      rw [linksOf_withLink _ _ _ _ _ hu]
      exact List.mem_append_left _ hl
  constructor
  · intro h
    have key : ∀ w, (f.withLink u v c).LinkClosure val E w →
        f.LinkClosure val E w ∨ (f.LinkClosure val E u ∧ val c = true) := by
      intro w hw
      induction hw with
      | base h => exact Or.inl (SvaFsm.LinkClosure.base h)
      | link _ hl hc ih =>
        rename_i x y c2 _
        rcases ih with ih | ih
        · rw [linksOf_withLink _ _ _ _ _ hu, List.mem_append] at hl
          rcases hl with hl | hl
          · exact Or.inl (SvaFsm.LinkClosure.link ih hl hc)
          · by_cases hx : x = u
            · rw [if_pos hx, List.mem_singleton] at hl
              cases hl
              subst hx
              exact Or.inr ⟨ih, hc⟩
            · rw [if_neg hx] at hl
              cases hl
        · exact Or.inr ih
    exact key v h
  · rintro (h | ⟨h, hc⟩)
    · exact mono v h
    · refine SvaFsm.LinkClosure.link (mono u h) ?_ hc
      rw [linksOf_withLink _ _ _ _ _ hu, if_pos rfl]
      exact List.mem_append_right _ (List.mem_singleton.2 rfl)

/-- Adding a link that leaves `u` does not change whether `u` is active. -/
theorem linkClosure_withLink_src (f : SvaFsm) (u v : Nat) (c : SigBit) (hu : u < f.nodes.length)
    (val : SigBit → Bool) (E : Nat → Prop) :
    (f.withLink u v c).LinkClosure val E u ↔ f.LinkClosure val E u := by
  constructor
  · intro h
    have key : ∀ w, (f.withLink u v c).LinkClosure val E w →
        f.LinkClosure val E w ∨ f.LinkClosure val E u := by
      intro w hw
      induction hw with
      | base h => exact Or.inl (SvaFsm.LinkClosure.base h)
      | link _ hl hc ih =>
        rename_i x y c2 _
        rcases ih with ih | ih
        · rw [linksOf_withLink _ _ _ _ _ hu, List.mem_append] at hl
          rcases hl with hl | hl
          · exact Or.inl (SvaFsm.LinkClosure.link ih hl hc)
          · by_cases hx : x = u
            · subst hx
              exact Or.inr ih
            · rw [if_neg hx] at hl
              cases hl
        · exact Or.inr ih
    rcases key u h with h | h <;> exact h
  · intro h
    have mono : ∀ w, f.LinkClosure val E w → (f.withLink u v c).LinkClosure val E w := by
      intro w hw
      induction hw with
      | base h => exact SvaFsm.LinkClosure.base h
      | link _ hl hc ih =>
        refine SvaFsm.LinkClosure.link ih ?_ hc
        rw [linksOf_withLink _ _ _ _ _ hu]
        exact List.mem_append_left _ hl
    exact mono u h

theorem throughout_ctrl_S1 (fsm : SvaFsm) (c : SigBit) (h : fsm.throughout_sig = SigBit.S1) :
    fsm.throughout_ctrl c = c := by
  unfold SvaFsm.throughout_ctrl
  rw [if_neg (by simp [h])]

end SVA


namespace SVA

/-! ## The importer -/

/-- The automaton built by `build_fsm` is a fresh automaton with the given trigger whose
nodes were filled in by the compiler. -/
theorem build_fsm_frame (k : Bool) (trig : SigBit) (net : SvaNet) (x : Bool) (C : SvaFsm)
    (h : build_fsm k trig net x = Except.ok C) : (SvaFsm.new trig).NodesOnly C := by
  unfold build_fsm at h
  simp only at h
  obtain ⟨⟨f1, n1⟩, h1, h⟩ := bind_ok _ _ _ h
  simp only at h
  have g1 := parse_sequence_grows k net _ _ _ h1
  cases x with
  | true =>
    simp only [if_true] at h
    obtain ⟨⟨f2, n2⟩, h2, h⟩ := bind_ok _ _ _ h
    have g2 := (grows_edge_to_new_node _ _ _ _ h2).1
    obtain ⟨_, _, _, hC⟩ := createLink_inv _ _ _ _ _ h
    subst hC
    exact nodesOnly_trans _ _ _ g1.1 (nodesOnly_trans _ _ _ g2 (nodesOnly_withLink _ _ _ _))
  | false =>
    simp only [Bool.false_eq_true, if_false] at h
    obtain ⟨⟨f2, n2⟩, h2, h⟩ := bind_ok _ _ _ h
    cases h2
    obtain ⟨_, _, _, hC⟩ := createLink_inv _ _ _ _ _ h
    subst hC
    exact nodesOnly_trans _ _ _ g1.1 (nodesOnly_withLink _ _ _ _)

theorem build_fsm_trigger (k : Bool) (trig : SigBit) (net : SvaNet) (x : Bool) (C : SvaFsm)
    (h : build_fsm k trig net x = Except.ok C) : C.trigger_sig = trig := by
  have := build_fsm_frame k trig net x C h
  unfold SvaFsm.NodesOnly at this
  rw [this]
  rfl

/-- The consequent part of `import` when the consequent is not a negation. -/
theorem import_consequent_plain (k cover : Bool) (m : Module) (am : SigBit) (seq : SvaNet)
    (hseq : ∀ s, seq ≠ SvaNet.not s) :
    import_consequent k cover m am seq =
      (build_fsm k am seq false >>= fun C =>
        if cover then (C.getAccept m).map (fun r => (r.1, r.2.2))
        else (C.getReject m false).map (fun r => (r.1, SigBit.not r.2.2.1))) := by
  unfold import_consequent
  cases seq with
  | not s => exact absurd rfl (hseq s)
  | _ =>
    simp only
    cases build_fsm k am _ false with
    | error e => rfl
    | ok C =>
      cases cover with
      | true =>
        simp only [ok_bind, if_true, Bool.false_eq_true, if_false]
        cases C.getAccept m <;> rfl
      | false =>
        simp only [ok_bind, if_true, Bool.false_eq_true, if_false]
        cases C.getReject m false <;> rfl

/-- The consequent part of `import` when the consequent is `not seq`. -/
theorem import_consequent_not (k cover : Bool) (m : Module) (am : SigBit) (seq : SvaNet) :
    import_consequent k cover m am (SvaNet.not seq) =
      (build_fsm k am seq false >>= fun C =>
        if cover then (C.getReject m false).map (fun r => (r.1, r.2.2.1))
        else (C.getAccept m).map (fun r => (r.1, SigBit.not r.2.2))) := by
  unfold import_consequent
  simp only
  cases build_fsm k am seq false with
  | error e => rfl
  | ok C =>
    cases cover with
    | true =>
      simp only [ok_bind, if_true, Bool.false_eq_true, if_false]
      cases C.getReject m false <;> rfl
    | false =>
      simp only [ok_bind, if_true, Bool.false_eq_true, if_false]
      cases C.getAccept m <;> rfl

end SVA


namespace SVA

/-- The implication branch of `import` for a consequent that is not an until primitive. -/
theorem import_implication_plain (k cover : Bool) (m : Module) (nonov : Bool) (a b : SvaNet)
    (A : SvaFsm) (m1 : Module) (fa : SvaFsm) (am : SigBit)
    (hA : build_fsm k SigBit.S1 a nonov = Except.ok A)
    (hG : A.getAccept m = Except.ok (m1, fa, am)) (hb : b.until_parts = none) :
    import_implication k cover m nonov a b =
      (import_consequent k cover m1 am b).map (fun r => (r.1, some r.2)) := by
  unfold import_implication
  rw [hA, ok_bind]
  simp only
  rw [hG, ok_bind]
  cases b <;> first
    | (cases hb; done)
    | (simp only
       cases import_consequent k cover m1 am _ <;> rfl)

/-- The implication branch of `import` for a consequent that is an until primitive. -/
theorem import_implication_until (k cover : Bool) (m : Module) (nonov : Bool) (a b : SvaNet)
    (A : SvaFsm) (m1 : Module) (fa : SvaFsm) (am : SigBit) (p u un : SvaNet) (uw : Bool)
    (hA : build_fsm k SigBit.S1 a nonov = Except.ok A)
    (hG : A.getAccept m = Except.ok (m1, fa, am)) (hb : b.until_parts = some (p, u, uw))
    (hu : u.until_cond = some un) :
    import_implication k cover m nonov a b =
      (import_until k m1 am un uw >>= fun r =>
        (import_consequent k cover r.1 r.2 p).map (fun q => (q.1, some q.2))) := by
  unfold import_implication
  rw [hA, ok_bind]
  simp only
  rw [hG, ok_bind]
  cases b <;> first
    | (cases hb; done)
    | (cases hb
       cases u <;> first
         | (cases hu; done)
         | (cases hu
            simp only
            cases import_until k m1 am _ _ with
            | error e => rfl
            | ok r =>
              simp only [ok_bind]
              cases import_consequent k cover r.1 r.2 _ <;> rfl))

/-- The latch of the until handling: closed form of `import_until`. -/
theorem import_until_ok (k : Bool) (m : Module) (am : SigBit) (un : SvaNet) (uw : Bool)
    (U : SvaFsm) (m1 : Module) (fu : SvaFsm) (um : SigBit)
    (hU : build_fsm k SigBit.S1 un false = Except.ok U)
    (hA : U.getAccept m = Except.ok (m1, fu, um)) :
    import_until k m am un uw =
      Except.ok
        ({ m1 with nwires := m1.nwires + 1,
                   drivers := (m1.nwires,
                     Driver.dff (SigBit.and (SigBit.or am (SigBit.auto m1.nwires))
                       (SigBit.not um)) false) :: m1.drivers },
          if ¬ uw then SigBit.and (SigBit.or am (SigBit.auto m1.nwires)) (SigBit.not um)
          else SigBit.or am (SigBit.auto m1.nwires)) := by
  unfold import_until
  rw [hU, ok_bind, hA, ok_bind]
  rfl

end SVA


namespace SVA

/-! ## The until latch -/

theorem latch_qval_zero (m : Module) (w : Nat) (d : SigBit) (env : Nat → Nat → Bool) (rst : Bool)
    (hd : m.driver w = some (Driver.dff d rst)) : m.qval env 0 w = rst := by
  unfold Module.qval
  rw [hd]

theorem latch_qval_succ (m : Module) (w : Nat) (d : SigBit) (env : Nat → Nat → Bool) (rst : Bool)
    (hd : m.driver w = some (Driver.dff d rst)) (t : Nat) :
    m.qval env (t + 1) w = m.value env t d := by
  conv_lhs => unfold Module.qval
  rw [hd]
  rfl

theorem value_filtered (m : Module) (w : Nat) (am um : SigBit) (env : Nat → Nat → Bool) (t : Nat) :
    m.value env t (SigBit.and (SigBit.or am (SigBit.auto w)) (SigBit.not um)) =
      ((m.value env t am || m.qval env t w) && !m.value env t um) := rfl

theorem value_latched (m : Module) (w : Nat) (am : SigBit) (env : Nat → Nat → Bool) (t : Nat) :
    m.value env t (SigBit.or am (SigBit.auto w)) = (m.value env t am || m.qval env t w) := rfl

/-- The filtered antecedent match is true at `t` iff the antecedent matched at some
`s ≤ t` and the until condition has been false from `s` to `t`. -/
theorem latch_filtered (m : Module) (w : Nat) (am um : SigBit) (env : Nat → Nat → Bool)
    (hd : m.driver w =
      some (Driver.dff (SigBit.and (SigBit.or am (SigBit.auto w)) (SigBit.not um)) false)) :
    ∀ t, (m.value env t (SigBit.and (SigBit.or am (SigBit.auto w)) (SigBit.not um)) = true ↔
      ∃ s, s ≤ t ∧ m.value env s am = true ∧ ∀ r, s ≤ r → r ≤ t → m.value env r um = false) := by
  intro t
  induction t with
  | zero =>
    rw [value_filtered, latch_qval_zero m w _ env false hd]
    simp only [Bool.or_false, Bool.and_eq_true, Bool.not_eq_true']
    constructor
    · rintro ⟨h1, h2⟩
      refine ⟨0, le_refl _, h1, fun r hr1 hr2 => ?_⟩
      have : r = 0 := by omega
      subst this
      exact h2
    · rintro ⟨s, hs, h1, h2⟩
      have : s = 0 := by omega
      subst this
      exact ⟨h1, h2 0 (le_refl _) (le_refl _)⟩
  | succ t ih =>
    rw [value_filtered, latch_qval_succ m w _ env false hd]
    simp only [Bool.and_eq_true, Bool.or_eq_true, Bool.not_eq_true']
    constructor
    · rintro ⟨h1 | h1, h2⟩
      · refine ⟨t + 1, le_refl _, h1, fun r hr1 hr2 => ?_⟩
        have : r = t + 1 := by omega
        subst this
        exact h2
      · obtain ⟨s, hs, hs1, hs2⟩ := ih.1 h1
        refine ⟨s, by omega, hs1, fun r hr1 hr2 => ?_⟩
        by_cases hr : r ≤ t
        · exact hs2 r hr1 hr
        · have : r = t + 1 := by omega
          subst this
          exact h2
    · rintro ⟨s, hs, h1, h2⟩
      refine ⟨?_, h2 (t + 1) hs (le_refl _)⟩
      by_cases hst : s = t + 1
      · subst hst
        exact Or.inl h1
      · exact Or.inr (ih.2 ⟨s, by omega, h1, fun r hr1 hr2 => h2 r hr1 (by omega)⟩)

/-- The latched antecedent match is true at `t` iff the antecedent matches at `t`, or it
matched at some `s < t` and the until condition has been false from `s` to `t - 1`. -/
theorem latch_with (m : Module) (w : Nat) (am um : SigBit) (env : Nat → Nat → Bool)
    (hd : m.driver w =
      some (Driver.dff (SigBit.and (SigBit.or am (SigBit.auto w)) (SigBit.not um)) false)) :
    ∀ t, (m.value env t (SigBit.or am (SigBit.auto w)) = true ↔
      m.value env t am = true ∨
        ∃ s, s < t ∧ m.value env s am = true ∧ ∀ r, s ≤ r → r < t → m.value env r um = false) := by
  intro t
  cases t with
  | zero =>
    rw [value_latched, latch_qval_zero m w _ env false hd]
    simp only [Bool.or_false]
    constructor
    · intro h; exact Or.inl h
    · rintro (h | ⟨s, hs, _⟩)
      · exact h
      · omega
  | succ t =>
    rw [value_latched, latch_qval_succ m w _ env false hd]
    simp only [Bool.or_eq_true]
    rw [latch_filtered m w am um env hd t]
    constructor
    · rintro (h | ⟨s, hs, h1, h2⟩)
      · exact Or.inl h
      · exact Or.inr ⟨s, by omega, h1, fun r hr1 hr2 => h2 r hr1 (by omega)⟩
    · rintro (h | ⟨s, hs, h1, h2⟩)
      · exact Or.inl h
      · exact Or.inr ⟨s, by omega, h1, fun r hr1 hr2 => h2 r hr1 (by omega)⟩

end SVA


namespace SVA

/-! ## The final FF stage -/

theorem driver_addChecker (m : Module) (c : Checker) (a en : SigBit) (w : Nat) :
    (m.addChecker c a en).driver w = m.driver w := rfl

/-- The final stage of `import` in closed form. -/
theorem import_final_ok (imp : VerificSvaImporter) (m : Module) (okay : SigBit)
    (hev : imp.eventually = false) :
    ∃ M, import_final imp m okay = Except.ok M ∧
      M.driver m.nwires = some (Driver.dff okay (!imp.mode_cover)) ∧
      M.checkers = m.checkers ++
        (if imp.mode_assert then [(Checker.assert, SigBit.auto m.nwires, SigBit.S1)] else []) ++
        (if imp.mode_assume then [(Checker.assume, SigBit.auto m.nwires, SigBit.S1)] else []) ++
        (if imp.mode_cover then [(Checker.cover, SigBit.auto m.nwires, SigBit.S1)] else []) := by
  obtain ⟨k, a, u, c, ev, b⟩ := imp
  simp only at hev
  subst hev
  unfold import_final
  cases a <;> cases u <;> cases c <;>
    exact ⟨_, rfl, by simp [Module.addWire, Module.addChecker, Module.addDff, Module.driver],
      by simp [Module.addWire, Module.addChecker, Module.addDff]⟩

/-- The signal that drives the checker cells is `prop_okay` delayed by one cycle. -/
theorem import_delay (imp : VerificSvaImporter) (m : Module) (net : SvaNet) (m1 : Module)
    (okay : SigBit) (hb : imp.body_net = some net)
    (h1 : import_prop_okay imp m net = Except.ok (m1, some okay))
    (hev : imp.eventually = false) :
    ∃ m2, imp.import m = Except.ok m2 ∧
      m2.checkers = m1.checkers ++
        (if imp.mode_assert then [(Checker.assert, SigBit.auto m1.nwires, SigBit.S1)] else []) ++
        (if imp.mode_assume then [(Checker.assume, SigBit.auto m1.nwires, SigBit.S1)] else []) ++
        (if imp.mode_cover then [(Checker.cover, SigBit.auto m1.nwires, SigBit.S1)] else []) ∧
      ∀ env : Nat → Nat → Bool,
        m2.value env 0 (SigBit.auto m1.nwires) = (!imp.mode_cover) ∧
        ∀ t, m2.value env (t + 1) (SigBit.auto m1.nwires) = m2.value env t okay := by
  obtain ⟨M, hM, hd, hc⟩ := import_final_ok imp m1 okay hev
  refine ⟨M, ?_, hc, fun env => ⟨?_, fun t => ?_⟩⟩
  · unfold VerificSvaImporter.import
    rw [hb]
    simp only
    rw [h1]
    exact hM
  · exact latch_qval_zero M _ _ env _ hd
  · exact latch_qval_succ M _ _ env _ hd t

end SVA


namespace SVA

/-! ## Circuit emission extends the module -/

theorem extends_refl (m : Module) : m.Extends m := ⟨le_refl _, fun _ _ => rfl⟩

theorem extends_trans (a b c : Module) (h1 : a.Extends b) (h2 : b.Extends c) : a.Extends c :=
  ⟨le_trans h1.1 h2.1, fun w hw => (h2.2 w (lt_of_lt_of_le hw h1.1)).trans (h1.2 w hw)⟩

theorem accept_state_ffs_nwires (n : Nat) (ns : List SigBit) (sw : List Nat) (m : Module) :
    (accept_state_ffs n ns sw m).nwires = m.nwires := by
  unfold accept_state_ffs
  generalize List.range n = l
  induction l generalizing m with
  | nil => rfl
  | cons a l ih =>
    rw [List.foldl_cons, ih]
    by_cases hc : ns.getD a SigBit.S0 ≠ SigBit.S0
    · rw [if_pos hc]; rfl
    · rw [if_neg hc]; rfl

theorem accept_state_ffs_driver_other (n : Nat) (ns : List SigBit) (sw : List Nat) (m : Module)
    (w : Nat) (h : ∀ i, i < n → sw.getD i 0 ≠ w) :
    (accept_state_ffs n ns sw m).driver w = m.driver w := by
  unfold accept_state_ffs
  have h' : ∀ i ∈ List.range n, sw.getD i 0 ≠ w := fun i hi => h i (List.mem_range.1 hi)
  generalize List.range n = l at h'
  induction l generalizing m with
  | nil => rfl
  | cons a l ih =>
    rw [List.foldl_cons, ih _ (fun i hi => h' i (List.mem_cons_of_mem _ hi))]
    have ha := h' a (List.mem_cons_self _ _)
    by_cases hc : ns.getD a SigBit.S0 ≠ SigBit.S0
    · rw [if_pos hc, driver_addDff, if_neg ha]
    · rw [if_neg hc, driver_connect, if_neg ha]

theorem getAccept_ok_order (fsm : SvaFsm) (m : Module) (r : Module × SvaFsm × SigBit)
    (h : fsm.getAccept m = Except.ok r) : ∃ order, fsm.link_orders = Except.ok order := by
  cases hord : fsm.link_orders with
  | ok order => exact ⟨order, rfl⟩
  | error e =>
    have hmat := (getAccept_ok_materialized fsm m r.1 r.2.1 r.2.2 h).1
    unfold SvaFsm.getAccept at h
    rw [if_neg (by simp [hmat])] at h
    simp only at h
    have h1 : SvaFsm.link_orders { fsm with materialized := true } = Except.error e :=
      (link_orders_congr { fsm with materialized := true } fsm rfl).trans hord
    simp only [h1] at h
    cases h

/-- The circuit of `getAccept` is added on fresh wires. -/
theorem getAccept_extends (fsm : SvaFsm) (m m2 : Module) (fsm2 : SvaFsm) (acc : SigBit)
    (h : fsm.getAccept m = Except.ok (m2, fsm2, acc)) : m.Extends m2 := by
  have hmat := (getAccept_ok_materialized fsm m m2 fsm2 acc h).1
  obtain ⟨order, hord⟩ := getAccept_ok_order fsm m _ h
  rw [getAccept_eq fsm m hmat order hord] at h
  have h' := Except.ok.inj h
  simp only [Prod.mk.injEq] at h'
  obtain ⟨hm2, _, _⟩ := h'
  subst hm2
  constructor
  · rw [accept_state_ffs_nwires]
    show m.nwires ≤ m.nwires + fsm.nodes.length
    omega
  · intro w hw
    rw [accept_state_ffs_driver_other]
    · rfl
    · intro i hi
      rw [getD_map_range _ _ _ _ hi]
      omega

theorem reject_state_ffs_nwires (l : List (List Nat × SvaDFsmNode)) :
    ∀ m : Module, (reject_state_ffs m l).nwires = m.nwires := by
  induction l with
  | nil => intro m; rfl
  | cons a l ih =>
    intro m
    unfold reject_state_ffs
    rw [List.foldl_cons]
    have := ih (if a.2.nextstate.length = 0 then m.connect a.2.ffoutwire false
      else if a.2.nextstate.length = 1 then
        m.addDff (a.2.nextstate.getD 0 SigBit.S0) a.2.ffoutwire false
      else m.addDff (ReduceOr a.2.nextstate) a.2.ffoutwire false)
    unfold reject_state_ffs at this
    refine this.trans ?_
    split_ifs <;> rfl

/-- The circuit of `getReject` is added on fresh wires. -/
theorem getReject_extends (fsm : SvaFsm) (m : Module) (wa : Bool) (m2 : Module)
    (fsm2 : SvaFsm) (rej : SigBit) (accO : Option SigBit) (hdn : fsm.dnodes = [])
    (h : fsm.getReject m wa = Except.ok (m2, fsm2, rej, accO)) : m.Extends m2 := by
  unfold SvaFsm.getReject at h
  cases hU : fsm.make_unodes with
  | error e => rw [hU] at h; cases h
  | ok U =>
    rw [hU, hdn] at h
    simp only at h
    cases hD : create_dnode U (2 ^ fsm.nodes.length + 1) [] [fsm.startNode] true with
    | error e => rw [hD] at h; cases h
    | ok d =>
      rw [hD] at h
      simp only at h
      obtain ⟨hnd0, _, hent0⟩ := create_dnode_top U _ _ d hD
      rw [reject_state_signals_eq] at h
      simp only at h
      have hk1 : dict_keys (fsm.with_wires m.nwires (dict_sort d)) = dict_keys (dict_sort d) :=
        with_wires_keys fsm _ _
      have hent1 := with_wires_entry fsm U m.nwires (dict_sort d) hent0
      have hw1 := with_wires_wires fsm (dict_sort d) m.nwires
      generalize fsm.with_wires m.nwires (dict_sort d) = D1 at h hk1 hent1 hw1
      have hnd1 : (dict_keys D1).Nodup := by
        rw [hk1]; exact hnd0
      rw [reject_activations_eq wa _ hnd1 (fun it hit => (hent1 it hit).2.2.1)] at h
      simp only at h
      have h' := Except.ok.inj h
      simp only [Prod.mk.injEq] at h'
      obtain ⟨hm2, _, _, _⟩ := h'
      subst hm2
      have hwires : (add_next D1 (dict_trigs D1)).map (fun it => it.2.ffoutwire) =
          List.range' m.nwires (dict_sort d).length := by
        rw [← hw1]
        simp [add_next, List.map_map, Function.comp]
      constructor
      · rw [reject_state_ffs_nwires]
        show m.nwires ≤ m.nwires + (dict_sort d).length
        omega
      · intro w hw
        rw [driver_reject_state_ffs_other]
        · rfl
        · intro it hit heq
          have : it.2.ffoutwire ∈ (add_next D1 (dict_trigs D1)).map (fun it => it.2.ffoutwire) :=
            List.mem_map.2 ⟨it, hit, rfl⟩
          rw [hwires, List.mem_range'_1] at this
          omega

/-- The final FF stage is added on a fresh wire. -/
theorem import_final_extends (imp : VerificSvaImporter) (m : Module) (okay : SigBit)
    (M : Module) (h : import_final imp m okay = Except.ok M) : m.Extends M := by
  have hev : imp.eventually = false := by
    cases hev : imp.eventually with
    | false => rfl
    | true =>
      simp only [import_final, hev, if_true] at h
      cases h
  obtain ⟨k, a, u, c, ev, b⟩ := imp
  simp only at hev
  subst hev
  unfold import_final at h
  cases a <;> cases u <;> cases c <;>
    (cases h
     refine ⟨Nat.le_succ _, fun w hw => ?_⟩
     simp only [Module.addWire, driver_addChecker, Bool.false_eq_true, if_false, if_true]
     rw [driver_addDff, if_neg (by omega)]
     rfl)

/-- The consequent part of `import` adds its circuit on fresh wires. -/
theorem import_consequent_extends (k cover : Bool) (m : Module) (am : SigBit) (net : SvaNet)
    (M : Module) (okay : SigBit)
    (h : import_consequent k cover m am net = Except.ok (M, okay)) : m.Extends M := by
  have key : ∀ seq, (build_fsm k am seq false >>= fun C =>
        if cover then (C.getAccept m).map (fun r => (r.1, r.2.2))
        else (C.getReject m false).map (fun r => (r.1, SigBit.not r.2.2.1))) =
        Except.ok (M, okay) ∨
      (build_fsm k am seq false >>= fun C =>
        if cover then (C.getReject m false).map (fun r => (r.1, r.2.2.1))
        else (C.getAccept m).map (fun r => (r.1, SigBit.not r.2.2))) = Except.ok (M, okay) →
      m.Extends M := by
    intro seq hh
    have hacc : ∀ (C : SvaFsm) (f : Module × SvaFsm × SigBit → Module × SigBit),
        (∀ r, (f r).1 = r.1) → (C.getAccept m).map f = Except.ok (M, okay) → m.Extends M := by
      intro C f hf hm
      cases hG : C.getAccept m with
      | error e => rw [hG] at hm; cases hm
      | ok r =>
        rw [hG] at hm
        have e1 : f r = (M, okay) := Except.ok.inj hm
        have e2 : r.1 = M := by rw [← hf r, e1]
        obtain ⟨m2, f2, a2⟩ := r
        subst e2
        exact getAccept_extends C m _ f2 a2 hG
    have hrej : ∀ (C : SvaFsm) (f : Module × SvaFsm × SigBit × Option SigBit → Module × SigBit),
        C.dnodes = [] → (∀ r, (f r).1 = r.1) →
        (C.getReject m false).map f = Except.ok (M, okay) → m.Extends M := by
      intro C f hdn hf hm
      cases hG : C.getReject m false with
      | error e => rw [hG] at hm; cases hm
      | ok r =>
        rw [hG] at hm
        have e1 : f r = (M, okay) := Except.ok.inj hm
        have e2 : r.1 = M := by rw [← hf r, e1]
        obtain ⟨m2, f2, a2, b2⟩ := r
        subst e2
        exact getReject_extends C m false _ f2 a2 b2 hdn hG
    have hdn : ∀ C, build_fsm k am seq false = Except.ok C → C.dnodes = [] := by
      intro C hC
      have := build_fsm_frame _ _ _ _ _ hC
      unfold SvaFsm.NodesOnly at this
      rw [this]
      rfl
    rcases hh with hh | hh
    · obtain ⟨C, hC, hh⟩ := bind_ok _ _ _ hh
      cases cover with
      | true =>
        simp only [if_true] at hh
        exact hacc C _ (fun _ => rfl) hh
      | false =>
        simp only [Bool.false_eq_true, if_false] at hh
        exact hrej C _ (hdn C hC) (fun _ => rfl) hh
    · obtain ⟨C, hC, hh⟩ := bind_ok _ _ _ hh
      cases cover with
      | true =>
        simp only [if_true] at hh
        exact hrej C _ (hdn C hC) (fun _ => rfl) hh
      | false =>
        simp only [Bool.false_eq_true, if_false] at hh
        exact hacc C _ (fun _ => rfl) hh
  by_cases hn : ∃ s, net = SvaNet.not s
  · obtain ⟨s, rfl⟩ := hn
    rw [import_consequent_not] at h
    exact key s (Or.inr h)
  · rw [import_consequent_plain _ _ _ _ _ (fun s hs => hn ⟨s, hs⟩)] at h
    exact key net (Or.inl h)

end SVA


namespace SVA

/-! ## C11: `usortint` -/

/-- C11: for every integer vector, `usortint` returns the strictly increasing (sorted,
duplicate-free) vector with the same set of elements; it is idempotent, and its result
depends only on the set of elements of the input, not on their order or multiplicity. On
node ids (`usortint`) it is the same function, and has the same properties. -/
theorem usortint_canonical :
    (∀ vec : List Int,
      (usortintZ vec).Sorted (fun a b => a < b) ∧ (usortintZ vec).Nodup ∧
      (∀ x, x ∈ usortintZ vec ↔ x ∈ vec) ∧
      usortintZ (usortintZ vec) = usortintZ vec ∧
      ∀ vec2 : List Int, (∀ x, x ∈ vec2 ↔ x ∈ vec) → usortintZ vec2 = usortintZ vec) ∧
    (∀ vec : List Nat,
      (usortint vec).map Int.ofNat = usortintZ (vec.map Int.ofNat) ∧
      (usortint vec).Sorted (fun a b => a < b) ∧ (usortint vec).Nodup ∧
      (∀ x, x ∈ usortint vec ↔ x ∈ vec) ∧
      usortint (usortint vec) = usortint vec ∧
      ∀ vec2 : List Nat, (∀ x, x ∈ vec2 ↔ x ∈ vec) → usortint vec2 = usortint vec) := by
  constructor
  · intro vec
    refine ⟨sorted_usortintZ vec, (sorted_usortintZ vec).nodup, mem_usortintZ vec, ?_, ?_⟩
    · apply strictSorted_ext_int _ _ (sorted_usortintZ _) (sorted_usortintZ _)
      intro w
      rw [mem_usortintZ]
    · intro vec2 h
      apply strictSorted_ext_int _ _ (sorted_usortintZ _) (sorted_usortintZ _)
      intro w
      rw [mem_usortintZ, mem_usortintZ, h]
  · intro vec
    refine ⟨?_, sorted_usortint vec, (sorted_usortint vec).nodup, mem_usortint vec, ?_, ?_⟩
    · apply strictSorted_ext_int _ _ _ (sorted_usortintZ _)
      · intro w
        rw [mem_usortintZ, List.mem_map, List.mem_map]
        constructor
        · rintro ⟨a, ha, rfl⟩
          exact ⟨a, (mem_usortint _ _).1 ha, rfl⟩
        · rintro ⟨a, ha, rfl⟩
          exact ⟨a, (mem_usortint _ _).2 ha, rfl⟩
      · unfold List.Sorted
        rw [List.pairwise_map]
        exact (sorted_usortint vec).imp (fun h => Int.ofNat_lt.2 h)
    · apply strictSorted_ext _ _ (sorted_usortint _) (sorted_usortint _)
      intro w
      rw [mem_usortint]
    · intro vec2 h
      apply strictSorted_ext _ _ (sorted_usortint _) (sorted_usortint _)
      intro w
      rw [mem_usortint, mem_usortint, h]

/-- Witness for C11: the vectors `[1, -3, 1]` and `[-3, 1, -3, -3]` have the same elements. -/
theorem usortint_canonical_witness : usortintZ [1, -3, 1] = usortintZ [-3, 1, -3, -3] :=
  (usortint_canonical.1 [-3, 1, -3, -3]).2.2.2.2 [1, -3, 1]
    (by intro x; simp only [List.mem_cons, List.mem_singleton]; tauto)

/-! ## C12: the materialized flag and `getAccept` -/

/-- C12: a call of `getAccept` that returns was made on a non-materialized automaton and
leaves it materialized, and on the automaton it leaves every call of `createNode`,
`createEdge`, `createLink`, `pushThroughout`, `popThroughout`, `pushDisable`, `popDisable`
and `getAccept` fails the assertion. On a non-materialized automaton none of them fails for
that reason: `createNode`, `pushThroughout` and `pushDisable` return, `createEdge` and
`createLink` return exactly when both node ids are in range, `popThroughout` and
`popDisable` return exactly when their stack is not empty, and `getAccept` fails no
assertion (it fails only when the recursion over the links does not return). -/
theorem getAccept_materialized_contract (fsm : SvaFsm) :
    (∀ m m' fsm' acc, fsm.getAccept m = Except.ok (m', fsm', acc) →
      fsm.materialized = false ∧ fsm'.materialized = true ∧
      fsm'.createNode = Except.error Failure.log_assert ∧
      (∀ u v c, fsm'.createEdge u v c = Except.error Failure.log_assert) ∧
      (∀ u v c, fsm'.createLink u v c = Except.error Failure.log_assert) ∧
      (∀ s, fsm'.pushThroughout s = Except.error Failure.log_assert) ∧
      fsm'.popThroughout = Except.error Failure.log_assert ∧
      (∀ s, fsm'.pushDisable s = Except.error Failure.log_assert) ∧
      fsm'.popDisable = Except.error Failure.log_assert ∧
      (∀ m2, fsm'.getAccept m2 = Except.error Failure.log_assert)) ∧
    (fsm.materialized = false →
      (∃ r, fsm.createNode = Except.ok r) ∧
      (∀ u v c, (∃ r, fsm.createEdge u v c = Except.ok r) ↔
        (0 ≤ u ∧ u < fsm.nodes.length) ∧ (0 ≤ v ∧ v < fsm.nodes.length)) ∧
      (∀ u v c, (∃ r, fsm.createLink u v c = Except.ok r) ↔
        (0 ≤ u ∧ u < fsm.nodes.length) ∧ (0 ≤ v ∧ v < fsm.nodes.length)) ∧
      (∀ s, ∃ r, fsm.pushThroughout s = Except.ok r) ∧
      ((∃ r, fsm.popThroughout = Except.ok r) ↔ fsm.throughout_stack ≠ []) ∧
      (∀ s, ∃ r, fsm.pushDisable s = Except.ok r) ∧
      ((∃ r, fsm.popDisable = Except.ok r) ↔ fsm.disable_stack ≠ []) ∧
      (∀ m, fsm.getAccept m ≠ Except.error Failure.log_assert)) := by
  constructor
  · intro m m' fsm' acc h
    obtain ⟨h1, h2⟩ := getAccept_ok_materialized fsm m m' fsm' acc h
    exact ⟨h1, h2, materialized_aborts fsm' h2⟩
  · intro hm
    have hm' : ¬ fsm.materialized = true := by simp [hm]
    refine ⟨?_, ?_, ?_, ?_, ?_, ?_, ?_, ?_⟩
    · unfold SvaFsm.createNode
      rw [if_neg hm']
      exact ⟨_, rfl⟩
    · intro u v c
      unfold SvaFsm.createEdge
      rw [if_neg hm']
      by_cases hu : 0 ≤ u ∧ u < fsm.nodes.length
      · by_cases hv : 0 ≤ v ∧ v < fsm.nodes.length
        · rw [if_neg (not_not.2 hu), if_neg (not_not.2 hv)]
          exact ⟨fun _ => ⟨hu, hv⟩, fun _ => ⟨_, rfl⟩⟩
        · rw [if_neg (not_not.2 hu), if_pos hv]
          exact ⟨fun ⟨r, hr⟩ => (by cases hr), fun h => absurd h.2 hv⟩
      · rw [if_pos hu]
        exact ⟨fun ⟨r, hr⟩ => (by cases hr), fun h => absurd h.1 hu⟩
    · intro u v c
      unfold SvaFsm.createLink
      rw [if_neg hm']
      by_cases hu : 0 ≤ u ∧ u < fsm.nodes.length
      · by_cases hv : 0 ≤ v ∧ v < fsm.nodes.length
        · rw [if_neg (not_not.2 hu), if_neg (not_not.2 hv)]
          exact ⟨fun _ => ⟨hu, hv⟩, fun _ => ⟨_, rfl⟩⟩
        · rw [if_neg (not_not.2 hu), if_pos hv]
          exact ⟨fun ⟨r, hr⟩ => (by cases hr), fun h => absurd h.2 hv⟩
      · rw [if_pos hu]
        exact ⟨fun ⟨r, hr⟩ => (by cases hr), fun h => absurd h.1 hu⟩
    · intro s
      unfold SvaFsm.pushThroughout
      rw [if_neg hm']
      by_cases h : fsm.throughout_sig = SigBit.S1
      · simp only [h, if_true]; exact ⟨_, rfl⟩
      · simp only [h, if_false]; exact ⟨_, rfl⟩
    · unfold SvaFsm.popThroughout
      rw [if_neg hm']
      cases hst : fsm.throughout_stack with
      | nil => simp
      | cons a l => simp
    · intro s
      unfold SvaFsm.pushDisable
      rw [if_neg hm']
      by_cases h : fsm.disable_sig = SigBit.S0
      · simp only [h, if_true]; exact ⟨_, rfl⟩
      · simp only [h, if_false]; exact ⟨_, rfl⟩
    · unfold SvaFsm.popDisable
      rw [if_neg hm']
      cases hst : fsm.disable_stack with
      | nil => simp
      | cons a l => simp
    · intro m h
      have := getAccept_error fsm m hm _ h
      cases this

/-- Witness for C12: `getAccept` on the automaton of `e[*2:4]`. -/
theorem getAccept_materialized_contract_witness :
    fsmRepeat24.materialized = false ∧
    ∃ m' fsm' acc, fsmRepeat24.getAccept {} = Except.ok (m', fsm', acc) ∧
      fsm'.materialized = true ∧ fsm'.createNode = Except.error Failure.log_assert ∧
      ∃ r, fsmRepeat24.createNode = Except.ok r :=
  ⟨rfl, _, _, _, rfl,
    ((getAccept_materialized_contract fsmRepeat24).1 _ _ _ _ rfl).2.1,
    ((getAccept_materialized_contract fsmRepeat24).1 _ _ _ _ rfl).2.2.1,
    ((getAccept_materialized_contract fsmRepeat24).2 rfl).1⟩

end SVA


namespace SVA

/-! ## C13: `getReject` and the materialized flag -/

/-- C13 (what the code does): a call of `getReject` that returns leaves the materialized
flag and the nodes as they were. After `getReject` on a non-materialized automaton, the
automaton is still not materialized: `createNode` returns, `createEdge` and `createLink`
return for node ids in range, and `getAccept` fails no assertion. -/
theorem getReject_keeps_materialized (fsm : SvaFsm) (m : Module) (wa : Bool) (m' : Module)
    (fsm' : SvaFsm) (rej : SigBit) (acc : Option SigBit)
    (h : fsm.getReject m wa = Except.ok (m', fsm', rej, acc)) :
    fsm'.materialized = fsm.materialized ∧ fsm'.nodes = fsm.nodes ∧
    (fsm.materialized = false →
      (∃ r, fsm'.createNode = Except.ok r) ∧
      (∀ (u v : Nat) c, u < fsm.nodes.length → v < fsm.nodes.length →
        ∃ r, fsm'.createEdge u v c = Except.ok r) ∧
      (∀ (u v : Nat) c, u < fsm.nodes.length → v < fsm.nodes.length →
        ∃ r, fsm'.createLink u v c = Except.ok r) ∧
      (∀ m2, fsm'.getAccept m2 ≠ Except.error Failure.log_assert)) := by
  have hf := getReject_frame fsm m wa m' fsm' rej acc h
  have h1 : fsm'.materialized = fsm.materialized := by rw [hf]
  have h2 : fsm'.nodes = fsm.nodes := by rw [hf]
  refine ⟨h1, h2, ?_⟩
  intro hm
  have hm' : fsm'.materialized = false := by rw [h1, hm]
  obtain ⟨a, b, c⟩ := unmaterialized_mutable fsm' hm'
  rw [h2] at b c
  refine ⟨a, b, c, ?_⟩
  intro m2 he
  have := getAccept_error fsm' m2 hm' _ he
  cases this

/-- Witness for C13: after `getReject` on the automaton of `e[*2:4]` the automaton is not
materialized, a node can be added, and `getAccept` and `getReject` both return. -/
theorem getReject_keeps_materialized_witness :
    ∃ m' fsm' rej acc, fsmRepeat24.getReject {} false = Except.ok (m', fsm', rej, acc) ∧
      fsm'.materialized = false ∧ (∃ r, fsm'.createNode = Except.ok r) ∧
      (∃ r, fsm'.getAccept m' = Except.ok r) ∧ (∃ r, fsm'.getReject m' false = Except.ok r) :=
  ⟨_, _, _, _, rfl,
    (getReject_keeps_materialized fsmRepeat24 {} false _ _ _ _ rfl).1,
    ((getReject_keeps_materialized fsmRepeat24 {} false _ _ _ _ rfl).2.2 rfl).1,
    ⟨_, rfl⟩, ⟨_, rfl⟩⟩

end SVA


namespace SVA

/-! ## C14: unsupported primitives in a sequence -/

/-- C14: when `parse_sequence` meets a primitive other than sequence concatenation,
consecutive repetition, sequence-or and throughout, it fails with the fatal error for
unsupported primitives in strict mode (`mode_keep` false), and in permissive mode
(`mode_keep` true) it returns the start node it was given and the automaton unchanged. -/
theorem parse_sequence_unsupported (net : SvaNet) (fsm : SvaFsm) (start : Nat)
    (h : net.unsupported_in_sequence = true) :
    parse_sequence false net fsm start = Except.error (Failure.log_error unsupported_error) ∧
    parse_sequence true net fsm start = Except.ok (fsm, start) := by
  constructor
  · rw [parse_unsupported false net fsm start h]
    rfl
  · rw [parse_unsupported true net fsm start h]
    rfl

/-- Witness for C14: a negated expression inside a sequence. -/
theorem parse_sequence_unsupported_witness :
    parse_sequence false (SvaNet.not (SvaNet.expr (SigBit.wire 0))) (SvaFsm.new SigBit.S1) 0 =
      Except.error (Failure.log_error unsupported_error) ∧
    parse_sequence true (SvaNet.not (SvaNet.expr (SigBit.wire 0))) (SvaFsm.new SigBit.S1) 0 =
      Except.ok (SvaFsm.new SigBit.S1, 0) :=
  parse_sequence_unsupported (SvaNet.not (SvaNet.expr (SigBit.wire 0))) (SvaFsm.new SigBit.S1) 0
    rfl

/-! ## C15: a plain Boolean expression -/

/-- C15 (as stated, refuted): compiling the expression `a` (net 0) from the start node of
a fresh automaton returns the new node 2, but no one-cycle edge from the start node to it
is added; no node of the automaton has an edge, and the start node has a zero-delay link
to node 2 guarded by `a`. -/
theorem parse_sequence_expr_counterexample :
    ∃ fsm2 node, parse_sequence false (SvaNet.expr (SigBit.wire 0)) (SvaFsm.new SigBit.S1) 0 =
        Except.ok (fsm2, node) ∧
      ¬ ((node, SigBit.wire 0) ∈ fsm2.edgesOf 0) ∧
      fsm2.nodes = [{ edges := [], links := [(node, SigBit.wire 0)] }, default, default] :=
  ⟨_, _, rfl, by decide, rfl⟩

/-- C15 (amended): for a plain Boolean expression, on a non-materialized automaton and a
start node of the automaton, `parse_sequence` creates exactly one new node, adds exactly
one zero-delay link (no one-cycle edge) from the start node to the new node and returns
the new node. The link is guarded by the expression's signal, combined with the throughout
signal when one is in force. Nothing else changes. -/
theorem parse_sequence_expr (k : Bool) (sig : SigBit) (fsm : SvaFsm) (start : Nat)
    (hm : fsm.materialized = false) (hs : start < fsm.nodes.length) :
    ∃ fsm2, parse_sequence k (SvaNet.expr sig) fsm start = Except.ok (fsm2, fsm.nodes.length) ∧
      fsm.NodesOnly fsm2 ∧ fsm2.nodes.length = fsm.nodes.length + 1 ∧
      fsm2.linksOf start = fsm.linksOf start ++ [(fsm.nodes.length, fsm.throughout_ctrl sig)] ∧
      (∀ i, i ≠ start → fsm2.linksOf i = fsm.linksOf i) ∧
      (∀ i, fsm2.edgesOf i = fsm.edgesOf i) ∧
      fsm2.linksOf fsm.nodes.length = [] ∧ fsm2.edgesOf fsm.nodes.length = [] ∧
      (fsm.throughout_sig = SigBit.S1 → fsm.throughout_ctrl sig = sig) := by
  have hs2 : start < fsm.withNode.nodes.length := by rw [length_withNode]; omega
  have hL : ∀ i, (fsm.withNode.withLink start fsm.nodes.length (fsm.throughout_ctrl sig)).linksOf i
      = fsm.linksOf i ++
        (if i = start then [(fsm.nodes.length, fsm.throughout_ctrl sig)] else []) := by
    intro i
    rw [linksOf_withLink _ _ _ _ _ hs2, linksOf_withNode]
  have hE : ∀ i, (fsm.withNode.withLink start fsm.nodes.length (fsm.throughout_ctrl sig)).edgesOf i
      = fsm.edgesOf i := by
    intro i
    rw [edgesOf_withLink, edgesOf_withNode]
  refine ⟨_, parse_expr_ok k sig fsm start hm hs, rfl, ?_, ?_, ?_, hE, ?_, ?_,
    throughout_ctrl_S1 fsm sig⟩
  · rw [length_withLink, length_withNode]
  · rw [hL, if_pos rfl]
  · intro i hi
    rw [hL, if_neg hi, List.append_nil]
  · rw [hL, if_neg (by omega), List.append_nil]
    exact linksOf_nil_of_ge fsm _ (le_refl _)
  · rw [hE]
    exact edgesOf_nil_of_ge fsm _ (le_refl _)

/-- Witness for C15: the expression `a` compiled from the start node of a fresh automaton. -/
theorem parse_sequence_expr_witness :
    (SvaFsm.new SigBit.S1).materialized = false ∧ 0 < (SvaFsm.new SigBit.S1).nodes.length ∧
    ∃ fsm2, parse_sequence false (SvaNet.expr (SigBit.wire 0)) (SvaFsm.new SigBit.S1) 0 =
        Except.ok (fsm2, 2) ∧
      fsm2.linksOf 0 = [(2, SigBit.wire 0)] ∧ ∀ i, fsm2.edgesOf i = (SvaFsm.new SigBit.S1).edgesOf i :=
  ⟨rfl, by decide,
    (parse_sequence_expr false (SigBit.wire 0) (SvaFsm.new SigBit.S1) 0 rfl (by decide)).elim
      (fun fsm2 h => ⟨fsm2, h.1, h.2.2.2.1, h.2.2.2.2.2.1⟩)⟩

end SVA


namespace SVA

/-! ## C16: concatenation with a delay range -/

/-- C16 (as stated, refuted): the edges of the delay chain are not always unguarded. Inside
the scope of `c throughout` (the state in which `parse_sequence` compiles the operand of
`c throughout (a ##[1:2] b)`), the concatenation `a ##[1:2] b` chains its mandatory edge
from the end node 2 of `a` to the fresh node 3 with control `c`, and reaches the further
fresh node 4 by an edge and a link that both carry `c`; no edge or link of the chain has
the constant 1 as control. The automaton is the one built for the whole throughout. -/
theorem parse_sequence_concat_counterexample :
    (SvaFsm.new SigBit.S1).pushThroughout (SigBit.wire 2) = Except.ok fsmThroughout ∧
    ∃ f1 fsm2 node,
      parse_sequence false (SvaNet.expr (SigBit.wire 0)) fsmThroughout 0 = Except.ok (f1, 2) ∧
      parse_sequence false (SvaNet.seq_concat 1 (some 2) (SvaNet.expr (SigBit.wire 0))
        (SvaNet.expr (SigBit.wire 1))) fsmThroughout 0 = Except.ok (fsm2, node) ∧
      f1.nodes.length = 3 ∧
      fsm2.edgesOf 2 = [(3, SigBit.wire 2)] ∧ fsm2.edgesOf 3 = [(4, SigBit.wire 2)] ∧
      fsm2.linksOf 3 = [(4, SigBit.wire 2)] ∧
      ¬ ((3, SigBit.S1) ∈ fsm2.edgesOf 2) ∧ ¬ ((4, SigBit.S1) ∈ fsm2.edgesOf 3) ∧
      ¬ ((4, SigBit.S1) ∈ fsm2.linksOf 3) ∧
      ∃ f, parse_sequence false throughoutWindow (SvaFsm.new SigBit.S1) 0 =
          Except.ok (f, node) ∧ f.nodes = fsm2.nodes :=
  ⟨rfl, _, _, _, rfl, rfl, rfl, rfl, rfl, rfl, by decide, by decide, by decide, _, rfl, rfl⟩

/-- C16 (amended): for a concatenation `lhs ##[N:M] rhs`, on a non-materialized automaton and a start
node of the automaton, `parse_sequence` compiles `lhs` from the start node (a failure of
`lhs` is the failure of the whole); from the end node `n1` of `lhs` it chains `N` fresh
nodes by edges and, for a finite `M`, `M - N` further fresh nodes (none when `M ≤ N`), each
reached from the node before it by an edge and a link (`DelayChain`); for `M = $` it adds
instead one self-edge on the last node of the chain and no link. The added edges and links
have no control of their own: their control is the throughout signal in force, and constant
1 when there is none. The result is that of compiling `rhs` from the last node of the chain:
the returned node is the end node of `rhs`. -/
theorem parse_sequence_concat (k : Bool) (N : Nat) (M : Option Nat) (lhs rhs : SvaNet)
    (fsm : SvaFsm) (start : Nat) (hm : fsm.materialized = false)
    (hs : start < fsm.nodes.length) :
    (∀ e, parse_sequence k lhs fsm start = Except.error e →
      parse_sequence k (SvaNet.seq_concat N M lhs rhs) fsm start = Except.error e) ∧
    (fsm.throughout_sig = SigBit.S1 → fsm.throughout_ctrl SigBit.S1 = SigBit.S1) ∧
    ∀ f1 n1, parse_sequence k lhs fsm start = Except.ok (f1, n1) →
      ∃ f2 f3,
        DelayChain f1 n1 (fsm.throughout_ctrl SigBit.S1) N (N + concat_window N M) f2 ∧
        (M ≠ none → f3 = f2) ∧
        (M = none →
          f3.nodes.length = f2.nodes.length ∧ f1.NodesOnly f3 ∧
          f3.edgesOf (chain_src n1 f1.nodes.length N) =
            f2.edgesOf (chain_src n1 f1.nodes.length N) ++
              [(chain_src n1 f1.nodes.length N, fsm.throughout_ctrl SigBit.S1)] ∧
          (∀ i, i ≠ chain_src n1 f1.nodes.length N → f3.edgesOf i = f2.edgesOf i) ∧
          (∀ i, f3.linksOf i = f1.linksOf i)) ∧
        parse_sequence k (SvaNet.seq_concat N M lhs rhs) fsm start =
          parse_sequence k rhs f3 (chain_src n1 f1.nodes.length (N + concat_window N M)) := by
  refine ⟨fun e h => seq_concat_error k N M lhs rhs fsm start e h,
    throughout_ctrl_S1 fsm SigBit.S1, ?_⟩
  intro f1 n1 h1
  have g1 := parse_sequence_grows k lhs _ _ _ h1
  have hm1 : f1.materialized = false := by rw [nodesOnly_materialized _ _ g1.1]; exact hm
  have hn1 : n1 < f1.nodes.length := g1.2.2 hs
  have hc : f1.throughout_ctrl SigBit.S1 = fsm.throughout_ctrl SigBit.S1 :=
    nodesOnly_throughout_ctrl _ _ g1.1 _
  cases M with
  | none =>
    obtain ⟨f2, hD, hp⟩ := seq_concat_unbounded k N lhs rhs fsm start f1 n1 h1 hm1 hn1
    rw [hc] at hD hp
    have hlt : chain_src n1 f1.nodes.length N < f2.nodes.length := by
      rw [hD.2.1]
      have := chain_src_lt n1 f1.nodes.length N hn1
      unfold chain_src at this ⊢
      split_ifs at this ⊢ <;> omega
    refine ⟨f2, _, hD, fun h => absurd rfl h, fun _ => ⟨?_, ?_, ?_, ?_, ?_⟩, hp⟩
    · rw [length_withEdge]
    · exact nodesOnly_trans _ _ _ hD.1 (nodesOnly_withEdge _ _ _ _)
    · rw [edgesOf_withEdge _ _ _ _ _ hlt, if_pos rfl]
    · intro i hi
      rw [edgesOf_withEdge _ _ _ _ _ hlt, if_neg hi, List.append_nil]
    · intro i
      rw [linksOf_withEdge]
      exact hD.2.2.2.2.2 i (fun j hNj hj => by omega)
  | some M =>
    obtain ⟨f3, hD, hp⟩ := seq_concat_bounded k N M lhs rhs fsm start f1 n1 h1 hm1 hn1
    rw [hc] at hD
    exact ⟨f3, f3, hD, fun _ => rfl, fun h => (by cases h), hp⟩

/-- Witness for C16: `a ##[1:2] b` compiled into a fresh automaton. -/
theorem parse_sequence_concat_witness :
    (SvaFsm.new SigBit.S1).materialized = false ∧ 0 < (SvaFsm.new SigBit.S1).nodes.length ∧
    ∃ f1 f2 f3,
      parse_sequence false (SvaNet.expr (SigBit.wire 0)) (SvaFsm.new SigBit.S1) 0 =
        Except.ok (f1, 2) ∧
      DelayChain f1 2 SigBit.S1 1 2 f2 ∧ f3 = f2 ∧
      parse_sequence false (SvaNet.seq_concat 1 (some 2) (SvaNet.expr (SigBit.wire 0))
          (SvaNet.expr (SigBit.wire 1))) (SvaFsm.new SigBit.S1) 0 =
        parse_sequence false (SvaNet.expr (SigBit.wire 1)) f3 4 :=
  ⟨rfl, by decide, _,
    ((parse_sequence_concat false 1 (some 2) (SvaNet.expr (SigBit.wire 0))
      (SvaNet.expr (SigBit.wire 1)) (SvaFsm.new SigBit.S1) 0 rfl (by decide)).2.2 _ 2 rfl).elim
      (fun f2 h => h.elim (fun f3 h => ⟨f2, f3, rfl, h.1, h.2.1 (by simp), h.2.2.2⟩))⟩

/-! ## C17: disjunction of sequences -/

/-- C17 (as stated, refuted): the link of a disjunction is not always unguarded, and the
result node is not always active when the end of `s2` is. Inside the scope of
`c throughout`, the link that `a or b` adds from the end node 3 of `b` to the end node 2 of
`a` has control `c`, not the constant 1. In permissive mode, for `a or s2` with an
unsupported primitive `s2`, the end node of `s2` is the start node 0 and the link from it
to node 2 has control `c`; in a cycle in which the start node is enabled and `c` is false,
the end of `s2` is active but the result node 2 is not. -/
theorem parse_sequence_or_counterexample :
    (SvaFsm.new SigBit.S1).pushThroughout (SigBit.wire 2) = Except.ok fsmThroughout ∧
    (∃ f1 f2 f3,
      parse_sequence false (SvaNet.expr (SigBit.wire 0)) fsmThroughout 0 = Except.ok (f1, 2) ∧
      parse_sequence false (SvaNet.expr (SigBit.wire 1)) f1 0 = Except.ok (f2, 3) ∧
      parse_sequence false (SvaNet.seq_or (SvaNet.expr (SigBit.wire 0))
        (SvaNet.expr (SigBit.wire 1))) fsmThroughout 0 = Except.ok (f3, 2) ∧
      f3.linksOf 3 = f2.linksOf 3 ++ [(2, SigBit.wire 2)] ∧
      ¬ ((2, SigBit.S1) ∈ f3.linksOf 3) ∧
      ∃ f, parse_sequence false throughoutOr (SvaFsm.new SigBit.S1) 0 = Except.ok (f, 2) ∧
        f.nodes = f3.nodes) ∧
    ∃ f1 f3,
      parse_sequence true (SvaNet.expr (SigBit.wire 0)) fsmThroughout 0 = Except.ok (f1, 2) ∧
      parse_sequence true (SvaNet.other "x") f1 0 = Except.ok (f1, 0) ∧
      parse_sequence true (SvaNet.seq_or (SvaNet.expr (SigBit.wire 0)) (SvaNet.other "x"))
        fsmThroughout 0 = Except.ok (f3, 2) ∧
      ∃ (val : SigBit → Bool) (E : Nat → Prop), val SigBit.S1 = true ∧
        f1.LinkClosure val E 0 ∧ ¬ f3.LinkClosure val E 2 ∧
        ¬ (f3.LinkClosure val E 2 ↔ (f1.LinkClosure val E 2 ∨ f1.LinkClosure val E 0)) := by
  refine ⟨rfl, ⟨_, _, _, rfl, rfl, rfl, rfl, by decide, _, rfl, rfl⟩, _, _, rfl, rfl, rfl,
    fun c => c.eval (fun _ => false) (fun _ => false), fun v => v = 0, rfl, ?_⟩
  have h0 : ∀ f : SvaFsm, f.LinkClosure (fun c => c.eval (fun _ => false) (fun _ => false))
      (fun v => v = 0) 0 := fun f => SvaFsm.LinkClosure.base rfl
  have h2 : ∀ f3 : SvaFsm,
      f3.nodes = [{ edges := [], links := [(2, SigBit.and (SigBit.wire 2) (SigBit.wire 0)),
        (2, SigBit.wire 2)] }, default, default] →
      ¬ f3.LinkClosure (fun c => c.eval (fun _ => false) (fun _ => false))
        (fun v => v = 0) 2 := by
    intro f3 hf h
    have key : ∀ u c, (2, c) ∈ f3.linksOf u →
        c.eval (fun _ => false) (fun _ => false) = false := by
      intro u c hmem
      unfold SvaFsm.linksOf at hmem
      rw [hf] at hmem
      rcases u with _ | _ | _ | u
      · simp only [List.getD_cons_zero, List.mem_cons, Prod.mk.injEq, true_and,
          List.mem_nil_iff, or_false] at hmem
        rcases hmem with e | e
        · rw [e]; rfl
        · rw [e]; rfl
      · cases hmem
      · cases hmem
      · cases hmem
    cases h with
    | base e => cases e
    | link hu hmem hval =>
      rw [key _ _ hmem] at hval
      cases hval
  exact ⟨h0 _, h2 _ rfl, fun hiff => h2 _ rfl (hiff.2 (Or.inr (h0 _)))⟩

/-- C17 (amended): for a disjunction `s1 or s2`, on a non-materialized automaton and a start node of
the automaton, `parse_sequence` compiles `s1` and then `s2` from the same start node (a
failure of either is the failure of the whole), adds exactly one link, from the end node
`n2` of `s2` to the end node `n1` of `s1`, and returns `n1`. The link has no control of its
own (its control is the throughout signal in force, constant 1 when there is none).
Consequently, in every cycle, for every set `E` of nodes enabled in that cycle, the
returned node is active after the link was added iff, before it was added, the end of `s1`
is active or the end of `s2` is active and the control of the link is true; the link
does not change whether the end of `s2` is active. When no throughout is in force, the
returned node is active iff the end of `s1` or the end of `s2` is active. -/
theorem parse_sequence_or (k : Bool) (s1 s2 : SvaNet) (fsm : SvaFsm) (start : Nat)
    (hm : fsm.materialized = false) (hs : start < fsm.nodes.length) :
    (∀ e, parse_sequence k s1 fsm start = Except.error e →
      parse_sequence k (SvaNet.seq_or s1 s2) fsm start = Except.error e) ∧
    (fsm.throughout_sig = SigBit.S1 → fsm.throughout_ctrl SigBit.S1 = SigBit.S1) ∧
    ∀ f1 n1, parse_sequence k s1 fsm start = Except.ok (f1, n1) →
      (∀ e, parse_sequence k s2 f1 start = Except.error e →
        parse_sequence k (SvaNet.seq_or s1 s2) fsm start = Except.error e) ∧
      ∀ f2 n2, parse_sequence k s2 f1 start = Except.ok (f2, n2) →
        ∃ f3, parse_sequence k (SvaNet.seq_or s1 s2) fsm start = Except.ok (f3, n1) ∧
          f2.NodesOnly f3 ∧ f3.nodes.length = f2.nodes.length ∧
          f3.linksOf n2 = f2.linksOf n2 ++ [(n1, fsm.throughout_ctrl SigBit.S1)] ∧
          (∀ i, i ≠ n2 → f3.linksOf i = f2.linksOf i) ∧
          (∀ i, f3.edgesOf i = f2.edgesOf i) ∧
          (∀ (val : SigBit → Bool) (E : Nat → Prop),
            (f3.LinkClosure val E n1 ↔
              f2.LinkClosure val E n1 ∨
                (f2.LinkClosure val E n2 ∧ val (fsm.throughout_ctrl SigBit.S1) = true)) ∧
            (f3.LinkClosure val E n2 ↔ f2.LinkClosure val E n2)) ∧
          (fsm.throughout_sig = SigBit.S1 →
            ∀ (val : SigBit → Bool) (E : Nat → Prop), val SigBit.S1 = true →
              (f3.LinkClosure val E n1 ↔
                f2.LinkClosure val E n1 ∨ f2.LinkClosure val E n2)) := by
  refine ⟨fun e h => (seq_or_error k s1 s2 fsm start e).1 h,
    throughout_ctrl_S1 fsm SigBit.S1, ?_⟩
  intro f1 n1 h1
  refine ⟨fun e h => (seq_or_error k s1 s2 fsm start e).2 f1 n1 h1 h, ?_⟩
  intro f2 n2 h2
  obtain ⟨hp, _, hn2, _⟩ := seq_or_ok k s1 s2 fsm start f1 f2 n1 n2 h1 h2 hm hs
  refine ⟨_, hp, nodesOnly_withLink _ _ _ _, length_withLink _ _ _ _, ?_, ?_, ?_, ?_, ?_⟩
  · rw [linksOf_withLink _ _ _ _ _ hn2, if_pos rfl]
  · intro i hi
    rw [linksOf_withLink _ _ _ _ _ hn2, if_neg hi, List.append_nil]
  · intro i
    rw [edgesOf_withLink]
  · intro val E
    exact ⟨linkClosure_withLink f2 n2 n1 _ hn2 val E,
      linkClosure_withLink_src f2 n2 n1 _ hn2 val E⟩
  · intro hT val E hS1
    have h := linkClosure_withLink f2 n2 n1 (fsm.throughout_ctrl SigBit.S1) hn2 val E
    rw [throughout_ctrl_S1 fsm SigBit.S1 hT] at h ⊢
    rw [h, hS1]
    simp

/-- Witness for C17: `a or b` compiled into a fresh automaton. -/
theorem parse_sequence_or_witness :
    (SvaFsm.new SigBit.S1).materialized = false ∧ 0 < (SvaFsm.new SigBit.S1).nodes.length ∧
    ∃ f1 f2 f3,
      parse_sequence false (SvaNet.expr (SigBit.wire 0)) (SvaFsm.new SigBit.S1) 0 =
        Except.ok (f1, 2) ∧
      parse_sequence false (SvaNet.expr (SigBit.wire 1)) f1 0 = Except.ok (f2, 3) ∧
      parse_sequence false (SvaNet.seq_or (SvaNet.expr (SigBit.wire 0))
          (SvaNet.expr (SigBit.wire 1))) (SvaFsm.new SigBit.S1) 0 = Except.ok (f3, 2) ∧
      f3.linksOf 3 = f2.linksOf 3 ++ [(2, SigBit.S1)] :=
  ⟨rfl, by decide, _, _,
    ((((parse_sequence_or false (SvaNet.expr (SigBit.wire 0)) (SvaNet.expr (SigBit.wire 1))
      (SvaFsm.new SigBit.S1) 0 rfl (by decide)).2.2 _ 2 rfl).2 _ 3 rfl).elim
      (fun f3 h => ⟨f3, rfl, rfl, h.1, h.2.2.2.1⟩))⟩

end SVA


namespace SVA

/-! ## C18: the property-OK signal of an implication -/

/-- C18: in the implication branch of `import`, with `C` the consequent automaton (built
from the consequent sequence, with a leading `not` stripped, and triggered by the antecedent
match `am`): in assert and assume mode (`mode_cover` false) `prop_okay` is the negation of
the reject signal returned by `C.getReject` when the consequent is not negated, and the
negation of the accept signal returned by `C.getAccept` when it is `not seq`; in cover mode
it is the accept signal of `C.getAccept` when the consequent is not negated and the reject
signal of `C.getReject` when it is `not seq`. The module returned is the one returned by
that one call, and a failure of that call or of the construction of `C` is the failure of
the consequent part. For a consequent that is not an until primitive, this consequent part
is run on the module and the accept signal returned by `getAccept` for the antecedent. -/
theorem import_consequent_prop_okay (k : Bool) (m : Module) (am : SigBit) (seq : SvaNet) :
    (∀ e, build_fsm k am seq false = Except.error e → ∀ cover,
      import_consequent k cover m am (SvaNet.not seq) = Except.error e ∧
      ((∀ s, seq ≠ SvaNet.not s) → import_consequent k cover m am seq = Except.error e)) ∧
    (∀ C, build_fsm k am seq false = Except.ok C →
      C.trigger_sig = am ∧
      ((∀ s, seq ≠ SvaNet.not s) →
        import_consequent k false m am seq =
          (C.getReject m false).map (fun r => (r.1, SigBit.not r.2.2.1)) ∧
        import_consequent k true m am seq =
          (C.getAccept m).map (fun r => (r.1, r.2.2))) ∧
      import_consequent k false m am (SvaNet.not seq) =
        (C.getAccept m).map (fun r => (r.1, SigBit.not r.2.2)) ∧
      import_consequent k true m am (SvaNet.not seq) =
        (C.getReject m false).map (fun r => (r.1, r.2.2.1))) ∧
    (∀ (cover nonov : Bool) (a b : SvaNet) (A : SvaFsm) (m0 : Module) (fa : SvaFsm),
      build_fsm k SigBit.S1 a nonov = Except.ok A → A.getAccept m0 = Except.ok (m, fa, am) →
      b.until_parts = none →
      import_implication k cover m0 nonov a b =
        (import_consequent k cover m am b).map (fun r => (r.1, some r.2))) := by
  refine ⟨?_, ?_, ?_⟩
  · intro e he cover
    refine ⟨?_, fun hs => ?_⟩
    · rw [import_consequent_not, he]; rfl
    · rw [import_consequent_plain _ _ _ _ _ hs, he]; rfl
  · intro C hC
    refine ⟨build_fsm_trigger _ _ _ _ _ hC, fun hs => ⟨?_, ?_⟩, ?_, ?_⟩
    · rw [import_consequent_plain _ _ _ _ _ hs, hC]; rfl
    · rw [import_consequent_plain _ _ _ _ _ hs, hC]; rfl
    · rw [import_consequent_not, hC]; rfl
    · rw [import_consequent_not, hC]; rfl
  · intro cover nonov a b A m0 fa hA hG hb
    exact import_implication_plain k cover m0 nonov a b A m fa am hA hG hb

/-- Witness for C18: the consequent `not b` with `b` the net 1, in assert mode. -/
theorem import_consequent_prop_okay_witness :
    ∃ C, build_fsm false (SigBit.wire 0) (SvaNet.expr (SigBit.wire 1)) false = Except.ok C ∧
      import_consequent false false {} (SigBit.wire 0) (SvaNet.not (SvaNet.expr (SigBit.wire 1))) =
        (C.getAccept {}).map (fun r => (r.1, SigBit.not r.2.2)) :=
  ⟨_, rfl, ((import_consequent_prop_okay false {} (SigBit.wire 0)
    (SvaNet.expr (SigBit.wire 1))).2.1 _ rfl).2.2.1⟩

/-! ## C19: the until latch -/

/-- C19: in the until handling of `import`, with `am` the antecedent match and `um` the
accept signal returned by `getAccept` for the until automaton, `import_until` returns, the
latch is the wire allocated after the until circuit, and the signal `trig` it returns is
the trigger of every automaton built with it. For an implication whose consequent is an
until primitive with a supported condition, the consequent part of `import` is run with
this `trig`; the consequent part and the final FF stage extend the module they are given.
In the module `m2` returned by `import_until` and in every module that extends it (so in
the module that `import` returns), the latch reads 0 at cycle 0 and: for `until` and
`s_until`, `trig` is true at cycle `t` iff `am` is true at some cycle `s ≤ t` and `um` is
false at every cycle from `s` to `t`; for `until_with` and `s_until_with`, `trig` is true
at `t` iff `am` is true at `t`, or `am` is true at some `s < t` and `um` is false at every
cycle from `s` to `t - 1`. -/
theorem import_until_trigger (k : Bool) (m : Module) (am : SigBit) (un : SvaNet) (uw : Bool)
    (U : SvaFsm) (m1 : Module) (fu : SvaFsm) (um : SigBit)
    (hU : build_fsm k SigBit.S1 un false = Except.ok U)
    (hA : U.getAccept m = Except.ok (m1, fu, um)) :
    ∃ m2 trig, import_until k m am un uw = Except.ok (m2, trig) ∧
      (∀ cn C, build_fsm k trig cn false = Except.ok C → C.trigger_sig = trig) ∧
      (∀ (cover nonov : Bool) (a b : SvaNet) (A : SvaFsm) (m0 : Module) (fa : SvaFsm)
        (p u : SvaNet),
        build_fsm k SigBit.S1 a nonov = Except.ok A → A.getAccept m0 = Except.ok (m, fa, am) →
        b.until_parts = some (p, u, uw) → u.until_cond = some un →
        import_implication k cover m0 nonov a b =
          (import_consequent k cover m2 trig p).map (fun q => (q.1, some q.2))) ∧
      (∀ cover p M okay, import_consequent k cover m2 trig p = Except.ok (M, okay) →
        m2.Extends M ∧ ∀ imp Mf, import_final imp M okay = Except.ok Mf → M.Extends Mf) ∧
      ∀ M, m2.Extends M → ∀ env : Nat → Nat → Bool,
        M.qval env 0 m1.nwires = false ∧
        ∀ t,
          (uw = false →
            (M.value env t trig = true ↔
              ∃ s, s ≤ t ∧ M.value env s am = true ∧
                ∀ r, s ≤ r → r ≤ t → M.value env r um = false)) ∧
          (uw = true →
            (M.value env t trig = true ↔
              M.value env t am = true ∨
                ∃ s, s < t ∧ M.value env s am = true ∧
                  ∀ r, s ≤ r → r < t → M.value env r um = false)) := by
  have hu := import_until_ok k m am un uw U m1 fu um hU hA
  refine ⟨_, _, hu, fun cn C hC => build_fsm_trigger _ _ _ _ _ hC, ?_, ?_, ?_⟩
  · intro cover nonov a b A m0 fa p u hA0 hG hb hcond
    rw [import_implication_until k cover m0 nonov a b A m fa am p u un uw hA0 hG hb hcond, hu]
    rfl
  · intro cover p M okay h
    exact ⟨import_consequent_extends _ _ _ _ _ _ _ h,
      fun imp Mf hf => import_final_extends imp M okay Mf hf⟩
  · intro M hM env
    have hd0 := driver_cons { m1 with nwires := m1.nwires + 1 } m1.nwires
      (Driver.dff (SigBit.and (SigBit.or am (SigBit.auto m1.nwires)) (SigBit.not um)) false)
      m1.nwires
    rw [if_pos rfl] at hd0
    have hd : M.driver m1.nwires = some (Driver.dff
        (SigBit.and (SigBit.or am (SigBit.auto m1.nwires)) (SigBit.not um)) false) :=
      (hM.2 m1.nwires (Nat.lt_succ_self _)).trans hd0
    refine ⟨latch_qval_zero _ _ _ env _ hd, fun t => ⟨fun h => ?_, fun h => ?_⟩⟩
    · subst h
      simp only [Bool.false_eq_true, not_false_eq_true, if_true]
      exact latch_filtered _ _ am um env hd t
    · subst h
      simp only [not_true_eq_false, if_false]
      exact latch_with _ _ am um env hd t

/-- Witness for C19: the until condition `u` (net 1) with the antecedent match `a` (net 0). -/
theorem import_until_trigger_witness :
    ∃ U m1 fu um m2 trig,
      build_fsm false SigBit.S1 (SvaNet.expr (SigBit.wire 1)) false = Except.ok U ∧
      U.getAccept {} = Except.ok (m1, fu, um) ∧
      import_until false {} (SigBit.wire 0) (SvaNet.expr (SigBit.wire 1)) false =
        Except.ok (m2, trig) ∧
      ∀ env : Nat → Nat → Bool, m2.qval env 0 m1.nwires = false :=
  ⟨_, _, _, _,
    (import_until_trigger false {} (SigBit.wire 0) (SvaNet.expr (SigBit.wire 1)) false
      _ _ _ _ rfl rfl).elim
      (fun m2 h => h.elim (fun trig h => ⟨m2, trig, rfl, rfl, h.1,
        fun env => (h.2.2.2.2 m2 (extends_refl m2) env).1⟩))⟩

end SVA


namespace SVA

/-! ## C20: the final FF stage -/

/-- C20: whenever `import` returns, either the property was skipped after a warning (no
`prop_okay`; the module is returned as it is, without checker cell), or a signal `prop_okay`
was computed and the property is not an eventually property. In the latter case `import`
does return, and every checker cell it adds is driven by the register `prop_okay_q`, which
is `prop_okay` delayed by exactly one cycle: at cycle `t + 1` it has the value of
`prop_okay` at cycle `t`, and at cycle 0 it is 1 when `mode_cover` is not set (assert and
assume mode) and 0 in cover mode. -/
theorem import_checker_delay (imp : VerificSvaImporter) (m : Module) :
    (∀ m2, imp.import m = Except.ok m2 →
      ∃ net m1 o, imp.body_net = some net ∧ import_prop_okay imp m net = Except.ok (m1, o) ∧
        (o = none → m2 = m1) ∧ (o ≠ none → imp.eventually = false)) ∧
    (∀ net m1 okay, imp.body_net = some net →
      import_prop_okay imp m net = Except.ok (m1, some okay) → imp.eventually = false →
      ∃ m2, imp.import m = Except.ok m2 ∧
        m2.checkers = m1.checkers ++
          (if imp.mode_assert then [(Checker.assert, SigBit.auto m1.nwires, SigBit.S1)]
           else []) ++
          (if imp.mode_assume then [(Checker.assume, SigBit.auto m1.nwires, SigBit.S1)]
           else []) ++
          (if imp.mode_cover then [(Checker.cover, SigBit.auto m1.nwires, SigBit.S1)]
           else []) ∧
        ∀ env : Nat → Nat → Bool,
          (imp.mode_cover = false → m2.value env 0 (SigBit.auto m1.nwires) = true) ∧
          (imp.mode_cover = true → m2.value env 0 (SigBit.auto m1.nwires) = false) ∧
          ∀ t, m2.value env (t + 1) (SigBit.auto m1.nwires) = m2.value env t okay) := by
  constructor
  · intro m2 h
    unfold VerificSvaImporter.import at h
    cases hb : imp.body_net with
    | none =>
      rw [hb] at h
      cases h
    | some net =>
      rw [hb] at h
      simp only at h
      cases h1 : import_prop_okay imp m net with
      | error e =>
        rw [h1] at h
        cases h
      | ok r =>
        rw [h1] at h
        rcases r with ⟨m1, _ | okay⟩
        · have hm : m1 = m2 := by cases h; rfl
          subst hm
          exact ⟨net, m1, none, rfl, h1, fun _ => rfl, fun h => absurd rfl h⟩
        · refine ⟨net, m1, some okay, rfl, h1, fun h => (by cases h), fun _ => ?_⟩
          cases hev : imp.eventually with
          | false => rfl
          | true =>
            simp only [import_final, hev, if_true] at h
            cases h
  · intro net m1 okay hb h1 hev
    obtain ⟨m2, h2, hc, hv⟩ := import_delay imp m net m1 okay hb h1 hev
    refine ⟨m2, h2, hc, fun env => ⟨?_, ?_, (hv env).2⟩⟩
    · intro hcov
      rw [(hv env).1, hcov]; rfl
    · intro hcov
      rw [(hv env).1, hcov]; rfl

/-- Witness for C20: `import_sva_assert` on `a ##1 b |-> c ##[1:2] d`. -/
theorem import_checker_delay_witness :
    ∃ m1 okay m2,
      import_prop_okay { mode_assert := true, body_net := some implProp } {} implProp =
        Except.ok (m1, some okay) ∧
      import_sva_assert false (some implProp) {} = Except.ok m2 ∧
      ∀ env : Nat → Nat → Bool, m2.value env 0 (SigBit.auto m1.nwires) = true ∧
        ∀ t, m2.value env (t + 1) (SigBit.auto m1.nwires) = m2.value env t okay :=
  ⟨_, _,
    ((import_checker_delay { mode_assert := true, body_net := some implProp } {}).2
      implProp _ _ rfl rfl rfl).elim
      (fun m2 h => ⟨m2, rfl, h.1, fun env => ⟨(h.2.2 env).1 rfl, (h.2.2 env).2.2⟩⟩)⟩

end SVA


namespace SVA

/-! ## `createEdge` and `createLink` outside their contract -/

theorem createEdge_abort (fsm : SvaFsm) (u v : Int) (c : SigBit)
    (h : fsm.materialized = true ∨ ¬ (0 ≤ u ∧ u < fsm.nodes.length) ∨
      ¬ (0 ≤ v ∧ v < fsm.nodes.length)) :
    fsm.createEdge u v c = Except.error Failure.log_assert := by
  unfold SvaFsm.createEdge
  by_cases hm : fsm.materialized = true
  · rw [if_pos hm]
  rw [if_neg hm]
  by_cases hu : 0 ≤ u ∧ u < fsm.nodes.length
  · rw [if_neg (not_not.2 hu)]
    by_cases hv : 0 ≤ v ∧ v < fsm.nodes.length
    · rcases h with h | h | h
      · exact absurd h hm
      · exact absurd hu h
      · exact absurd hv h
    · rw [if_pos hv]
  · rw [if_pos hu]

theorem createLink_abort (fsm : SvaFsm) (u v : Int) (c : SigBit)
    (h : fsm.materialized = true ∨ ¬ (0 ≤ u ∧ u < fsm.nodes.length) ∨
      ¬ (0 ≤ v ∧ v < fsm.nodes.length)) :
    fsm.createLink u v c = Except.error Failure.log_assert := by
  unfold SvaFsm.createLink
  by_cases hm : fsm.materialized = true
  · rw [if_pos hm]
  rw [if_neg hm]
  by_cases hu : 0 ≤ u ∧ u < fsm.nodes.length
  · rw [if_neg (not_not.2 hu)]
    by_cases hv : 0 ≤ v ∧ v < fsm.nodes.length
    · rcases h with h | h | h
      · exact absurd h hm
      · exact absurd hu h
      · exact absurd hv h
    · rw [if_pos hv]
  · rw [if_pos hu]

/-- The three cases of the control stored by `createEdge` and `createLink`. -/
theorem throughout_ctrl_cases (fsm : SvaFsm) (c : SigBit) :
    (fsm.throughout_sig = SigBit.S1 → fsm.throughout_ctrl c = c) ∧
    (fsm.throughout_sig ≠ SigBit.S1 → c = SigBit.S1 →
      fsm.throughout_ctrl c = fsm.throughout_sig) ∧
    (fsm.throughout_sig ≠ SigBit.S1 → c ≠ SigBit.S1 →
      fsm.throughout_ctrl c = SigBit.and fsm.throughout_sig c) := by
  unfold SvaFsm.throughout_ctrl
  refine ⟨fun h => ?_, fun h hc => ?_, fun h hc => ?_⟩
  · rw [if_neg (not_not.2 h)]
  · rw [if_pos h, if_neg (not_not.2 hc)]
  · rw [if_pos h, if_pos hc]

end SVA


namespace SVA

/-! ## The circuit of `getAccept`: state signals and registers -/

/-- The circuit emitted by `getAccept` follows the reference run: after links are followed
the state signal of node `w` is true at `t` iff `w` is active at `t`, and the register of
node `v` is set at `t` iff `v` is stored at `t`. -/
theorem getAccept_circuit (fsm : SvaFsm) (m : Module) (hwf : fsm.WellFormed)
    (hac : fsm.Acyclic) (hmat : fsm.materialized = false) :
    ∃ m2 fsm2 order, fsm.link_orders = Except.ok order ∧
      fsm.getAccept m =
        Except.ok (m2, fsm2, (fsm.linked_state_sigs m.nwires order).getD fsm.acceptNode SigBit.S0) ∧
      ∀ (env : Nat → Nat → Bool) (t : Nat),
        (∀ w, m2.value env t ((fsm.linked_state_sigs m.nwires order).getD w SigBit.S0) = true ↔
          fsm.refActive (m2.value env) t w) ∧
        (∀ v, v < fsm.nodes.length →
          (m2.qval env t (m.nwires + v) = true ↔ fsm.refStored (m2.value env) t v)) := by
  obtain ⟨order, hrun, _, _, _⟩ := link_orders_spec hwf hac
  refine ⟨_, _, order, hrun, getAccept_eq fsm m hmat order hrun, ?_⟩
  intro env
  have hact := accept_circuit_active hwf hac m order hrun env
  show ∀ t, (∀ w, _ ↔ _) ∧ _
  unfold SvaFsm.linked_state_sigs
  generalize hss : fsm.follow_links (order_to_nodes order)
    ((List.range fsm.nodes.length).map (fsm.state_sig0 m.nwires)) = ss at hact ⊢
  generalize hns : next_state_sigs fsm.nodes.length (fsm.activate_sigs ss) = ns at hact ⊢
  generalize hm2 : accept_state_ffs fsm.nodes.length ns
    ((List.range fsm.nodes.length).map (fun i => m.nwires + i))
    { m with nwires := m.nwires + fsm.nodes.length } = m2 at hact ⊢
  have hdrv : ∀ v, v < fsm.nodes.length →
      m2.driver (m.nwires + v) =
        some (if ns.getD v SigBit.S0 ≠ SigBit.S0 then Driver.dff (ns.getD v SigBit.S0) false
              else Driver.const false) := by
    intro v hv
    rw [← hm2]
    exact driver_accept_state_ffs _ _ _ _ v hv
  have hstored : ∀ t v, v < fsm.nodes.length →
      (m2.qval env t (m.nwires + v) = true ↔ fsm.refStored (m2.value env) t v) := by
    intro t v hv
    cases t with
    | zero =>
      rw [qval_zero_of_driver m2 env _ _ (hdrv v hv)]
      simp [SvaFsm.refStored]
    | succ t =>
      rw [qval_succ_of_driver m2 env t _ _ (hdrv v hv), ← hns,
        eval_next_state_sigs _ _ _ _ v hv, List.any_eq_true, refStored_succ]
      constructor
      · rintro ⟨x, hx, hxe⟩
        obtain ⟨u, c, huc, rfl⟩ := (mem_activate_sigs fsm ss v hv x).mp hx
        simp only [SigBit.eval, Bool.and_eq_true] at hxe
        exact ⟨u, c, (hact t u).mp hxe.1, huc, hxe.2⟩
      · rintro ⟨u, c, h1, huc, h2⟩
        refine ⟨SigBit.and (ss.getD u SigBit.S0) c,
          (mem_activate_sigs fsm ss v hv _).mpr ⟨u, c, huc, rfl⟩, ?_⟩
        have h1' := (hact t u).mpr h1
        simp only [SigBit.eval, Bool.and_eq_true]
        exact ⟨h1', h2⟩
  intro t
  exact ⟨fun w => hact t w, hstored t⟩

end SVA


namespace SVA

theorem linkClosure_iff (fsm : SvaFsm) (val : SigBit → Bool) (E : Nat → Prop) (v : Nat) :
    fsm.LinkClosure val E v ↔
      E v ∨ ∃ u c, fsm.LinkClosure val E u ∧ (v, c) ∈ fsm.linksOf u ∧ val c = true := by
  constructor
  · intro h
    cases h with
    | base h => exact Or.inl h
    | link hu hl hc => exact Or.inr ⟨_, _, hu, hl, hc⟩
  · rintro (h | ⟨u, c, hu, hl, hc⟩)
    · exact SvaFsm.LinkClosure.base h
    · exact SvaFsm.LinkClosure.link hu hl hc

theorem linkClosure_empty (fsm : SvaFsm) (val : SigBit → Bool) (E : Nat → Prop)
    (hE : ∀ w, ¬ E w) (v : Nat) : ¬ fsm.LinkClosure val E v := by
  intro h
  induction h with
  | base h => exact hE _ h
  | link _ _ _ ih => exact ih

theorem pushDisable_eval (fsm0 fsm : SvaFsm) (sig : SigBit)
    (h : fsm0.pushDisable sig = Except.ok fsm) (inp q : Nat → Bool) :
    fsm.disable_sig.eval inp q = (fsm0.disable_sig.eval inp q || sig.eval inp q) := by
  unfold SvaFsm.pushDisable at h
  by_cases hm : fsm0.materialized = true
  · rw [if_pos hm] at h; cases h
  rw [if_neg hm] at h
  by_cases hd : fsm0.disable_sig = SigBit.S0
  · simp only [hd, if_true] at h
    cases h
    rw [hd]
    simp [SigBit.eval]
  · simp only [hd, if_false] at h
    cases h
    simp [SigBit.eval]

end SVA


namespace SVA

/-! ## `mark_reachable_unode` marks exactly the reachable nodes -/

theorem getD_all {α : Type} (P : α → Prop) (l : List α) (d : α) (hd : P d)
    (hl : ∀ x ∈ l, P x) (j : Nat) : P (l.getD j d) := by
  by_cases hj : j < l.length
  · rw [List.getD_eq_getElem _ _ hj]
    exact hl _ (List.getElem_mem _)
  · rw [getD_of_length_le _ _ _ (Nat.le_of_not_lt hj)]
    exact hd

theorem edges_in_range_spec (U : List SvaUFsmNode) (h : edges_in_range U = true) :
    ∀ j, ∀ e ∈ (U.getD j default).edges, e.1 < U.length := by
  unfold edges_in_range at h
  simp only [List.all_eq_true, decide_eq_true_eq] at h
  intro j
  apply getD_all (fun u => ∀ e ∈ u.edges, e.1 < U.length) U default
  · intro e he
    cases he
  · exact h

theorem marks_closed_spec (U : List SvaUFsmNode) (h : marks_closed U = true) :
    MarksClosed U [] := by
  unfold marks_closed at h
  simp only [List.all_eq_true, Bool.or_eq_true, Bool.not_eq_true'] at h
  intro j hj _
  have := getD_all (fun u => u.reachable = false ∨
    ∀ e ∈ u.edges, (U.getD e.1 default).reachable = true) U default (Or.inl rfl) h j
  rcases this with h1 | h1
  · rw [hj] at h1
    cases h1
  · exact h1

theorem unmarked_spec (U : List SvaUFsmNode) (h : (U.all fun u => !u.reachable) = true) :
    ∀ j, (U.getD j default).reachable = false := by
  simp only [List.all_eq_true, Bool.not_eq_true'] at h
  intro j
  exact getD_all (fun u => u.reachable = false) U default rfl h j

theorem marked_lt (U : List SvaUFsmNode) (j : Nat)
    (h : (U.getD j default).reachable = true) : j < U.length := by
  by_contra hj
  rw [getD_of_length_le _ _ _ (Nat.le_of_not_lt hj)] at h
  cases h

theorem ureach_congr (U U' : List SvaUFsmNode)
    (h : ∀ j, (U'.getD j default).edges = (U.getD j default).edges) (a b : Nat) :
    UReach U' a b ↔ UReach U a b := by
  unfold UReach
  have : (fun x y => ∃ e ∈ (U'.getD x default).edges, e.1 = y) =
      (fun x y => ∃ e ∈ (U.getD x default).edges, e.1 = y) := by
    funext x y
    rw [h x]
  rw [this]

theorem ureach_step (U : List SvaUFsmNode) (a b c : Nat) (e : Nat × List SigBit)
    (he : e ∈ (U.getD a default).edges) (hb : e.1 = b) (h : UReach U b c) : UReach U a c :=
  Relation.ReflTransGen.head ⟨e, he, hb⟩ h

theorem mark_reachable_sound :
    ∀ (fuel : Nat) (U : List SvaUFsmNode) (u : Nat) (U' : List SvaUFsmNode),
      mark_reachable_unode fuel U u = Except.ok U' →
      ∀ j, (U'.getD j default).reachable = true →
        (U.getD j default).reachable = true ∨ UReach U u j := by
  intro fuel
  induction fuel with
  | zero =>
    intro U u U' h
    cases h
  | succ fuel ih =>
    intro U u U' h j hj
    unfold mark_reachable_unode at h
    by_cases hr : (U.getD u default).reachable = true
    · rw [if_pos hr] at h
      rw [← Except.ok.inj h] at hj
      exact Or.inl hj
    · rw [if_neg hr] at h
      simp only at h
      have hfold : ∀ (es : List (Nat × List SigBit)) (V V' : List SvaUFsmNode),
          (∀ i, (V.getD i default).edges = (U.getD i default).edges) →
          es.foldlM (fun (unodes : List SvaUFsmNode) it =>
            mark_reachable_unode fuel unodes it.1) V = Except.ok V' →
          (V'.getD j default).reachable = true →
          (V.getD j default).reachable = true ∨ ∃ e ∈ es, UReach U e.1 j := by
        intro es
        induction es with
        | nil =>
          intro V V' _ hrun hm
          have : V = V' := Except.ok.inj hrun
          rw [← this] at hm
          exact Or.inl hm
        | cons e es ihes =>
          intro V V' hV hrun hm
          rw [foldlM_ok_cons] at hrun
          cases h1 : mark_reachable_unode fuel V e.1 with
          | error x => rw [h1] at hrun; cases hrun
          | ok V1 =>
            rw [h1] at hrun
            have hk := (mark_reachable_unode_keeps fuel V e.1 V1 h1).2
            have hV1 : ∀ i, (V1.getD i default).edges = (U.getD i default).edges :=
              fun i => ((hk i).1).trans (hV i)
            rcases ihes V1 V' hV1 hrun hm with h2 | ⟨e', he', hre⟩
            · rcases ih V e.1 V1 h1 j h2 with h3 | h3
              · exact Or.inl h3
              · exact Or.inr ⟨e, List.mem_cons_self _ _, (ureach_congr U V hV _ _).1 h3⟩
            · exact Or.inr ⟨e', List.mem_cons_of_mem _ he', hre⟩
      have hset : ∀ i, ((U.set u { U.getD u default with reachable := true }).getD i
          default).edges = (U.getD i default).edges := by
        intro i
        by_cases hi : i = u
        · subst hi
          by_cases hlt : i < U.length
          · rw [getD_set_eq _ _ _ _ hlt]
          · rw [getD_set_ge _ _ _ _ _ (by omega)]
        · rw [getD_set_ne _ _ _ _ _ (fun e => hi e.symm)]
      rcases hfold _ _ _ hset h hj with h2 | ⟨e, he, hre⟩
      · by_cases hju : j = u
        · right
          rw [hju]
          exact Relation.ReflTransGen.refl
        · left
          rw [getD_set_ne _ _ _ _ _ (fun e => hju e.symm)] at h2
          exact h2
      · exact Or.inr (ureach_step U u e.1 j e he rfl hre)

theorem unmarked_le (U : List SvaUFsmNode) : unmarked U ≤ U.length :=
  List.countP_le_length _

/-- Started on a link-free automaton without marks, `mark_reachable_unode` returns and has
marked exactly the nodes reachable from `u` along edges; edges and accept entries are kept. -/
theorem mark_reachable_exact (U : List SvaUFsmNode) (u : Nat) (hu : u < U.length)
    (hR : ∀ j, ∀ e ∈ (U.getD j default).edges, e.1 < U.length)
    (hun : ∀ j, (U.getD j default).reachable = false) :
    ∃ U', mark_reachable_unode (U.length + 1) U u = Except.ok U' ∧ U'.length = U.length ∧
      (∀ j, (U'.getD j default).edges = (U.getD j default).edges ∧
        (U'.getD j default).accept = (U.getD j default).accept) ∧
      (∀ j, (U'.getD j default).reachable = true ↔ UReach U u j) ∧
      MarksClosed U' [] := by
  have hcl : MarksClosed U [] := by
    intro j hj
    rw [hun j] at hj
    cases hj
  obtain ⟨U', hrun, _, _, hmark, hcl'⟩ := mark_reachable_total (U.length + 1) [] U u
    (Nat.lt_succ_of_le (unmarked_le U)) hu hR hcl
  obtain ⟨hlen, hkeep⟩ := mark_reachable_unode_keeps _ _ _ _ hrun
  refine ⟨U', hrun, hlen, hkeep, ?_, hcl'⟩
  intro j
  constructor
  · intro hj
    rcases mark_reachable_sound _ _ _ _ hrun j hj with h | h
    · rw [hun j] at h
      cases h
    · exact h
  · intro hj
    unfold UReach at hj
    induction hj with
    | refl => exact hmark
    | tail _ hstep ih =>
      obtain ⟨e, he, hb⟩ := hstep
      rw [← hb]
      rw [← (hkeep _).1] at he
      exact hcl' _ ih (by simp) e he

end SVA


namespace SVA

/-! ## Invariants of the subset construction, for either value of `firstmatch` -/

theorem dnode_ctrl_raw_marked (U : List SvaUFsmNode) (S : List Nat) (raw : List SigBit)
    (h : dnode_ctrl_raw U S = Except.ok raw) :
    ∀ x ∈ S, (U.getD x default).reachable = true := by
  unfold dnode_ctrl_raw at h
  generalize ([] : List SigBit) = acc at h
  induction S generalizing acc with
  | nil => intro x hx; cases hx
  | cons y S ih =>
    rw [foldlM_ok_cons] at h
    by_cases hy : (U.getD y default).reachable = true
    · simp only [hy, not_true_eq_false, if_false] at h
      intro x hx
      rcases List.mem_cons.1 hx with e | e
      · rw [e]; exact hy
      · exact ih _ h x e
    · simp only [hy, not_false_eq_true, if_true] at h
      cases h

/-- A property of subsets that holds for the subset given and for every sorted list of
edge targets holds for every key of the dictionary. -/
theorem create_dnode_keys (U : List SvaUFsmNode) (fm : Bool) (Q : List Nat → Prop)
    (hQ : ∀ l : List Nat, l ≠ [] → Q (usortint l)) :
    ∀ (fuel : Nat) (d : List (List Nat × SvaDFsmNode)) (S : List Nat)
      (d' : List (List Nat × SvaDFsmNode)),
      create_dnode U fuel d S fm = Except.ok d' → Q S →
      (∀ K ∈ dict_keys d, Q K) → ∀ K ∈ dict_keys d', Q K := by
  intro fuel
  induction fuel with
  | zero =>
    intro d S d' h
    rw [create_dnode_zero] at h
    cases h
  | succ fuel ih =>
    intro d S d' hrun hS hd
    rw [create_dnode_succ] at hrun
    split_ifs at hrun with hcnt
    · rw [← Except.ok.inj hrun]
      exact hd
    · cases hraw : dnode_ctrl_raw U S with
      | error e => rw [hraw] at hrun; cases hrun
      | ok raw =>
        rw [hraw] at hrun
        simp only at hrun
        split_ifs at hrun with hlen
        cases hloop : (List.range (1 <<< (sort_and_unify raw).length)).foldlM
            (dnode_step U S fm (sort_and_unify raw)
              (fun d s => create_dnode U fuel d s fm))
            ({ ctrl := sort_and_unify raw }, dict_set d S default) with
        | error e => rw [hloop] at hrun; cases hrun
        | ok res =>
          rw [hloop] at hrun
          simp only at hrun
          rw [← Except.ok.inj hrun]
          have hstep : ∀ (s : SvaDFsmNode × List (List Nat × SvaDFsmNode)) (a : Nat)
              (s' : SvaDFsmNode × List (List Nat × SvaDFsmNode)),
              dnode_step U S fm (sort_and_unify raw)
                (fun d s => create_dnode U fuel d s fm) s a = Except.ok s' →
              (∀ K ∈ dict_keys s.2, Q K) → ∀ K ∈ dict_keys s'.2, Q K := by
            intro s a s' hs hq
            rw [dnode_step_eq] at hs
            by_cases hnext : val_next U S fm (sort_and_unify raw) a = []
            · rw [if_pos hnext] at hs
              rw [← Except.ok.inj hs]
              exact hq
            · rw [if_neg hnext] at hs
              cases hc : create_dnode U fuel s.2
                  (usortint (val_next U S fm (sort_and_unify raw) a)) fm with
              | error e => rw [hc] at hs; cases hs
              | ok d1 =>
                rw [hc] at hs
                rw [← Except.ok.inj hs]
                exact ih _ _ _ hc (hQ _ hnext) hq
          have := foldlM_preserves
            (fun (a b : SvaDFsmNode × List (List Nat × SvaDFsmNode)) =>
              (∀ K ∈ dict_keys a.2, Q K) → ∀ K ∈ dict_keys b.2, Q K)
            (fun s h => h) (fun a b c hab hbc h => hbc (hab h))
            (dnode_step U S fm (sort_and_unify raw)
              (fun d s => create_dnode U fuel d s fm))
            (List.range (1 <<< (sort_and_unify raw).length))
            (fun s a s' _ hs => hstep s a s' hs)
            _ _ hloop
          have hq0 : ∀ K ∈ dict_keys (dict_set d S default), Q K := by
            intro K hK
            rcases (mem_dict_keys_dict_set d S K default).1 hK with e | e
            · rw [e]; exact hS
            · exact hd K e
          intro K hK
          rcases (mem_dict_keys_dict_set res.2 S K res.1).1 hK with e | e
          · rw [e]; exact hS
          · exact this hq0 K e

/-- The members of a new subset are edge targets of members of the old one. -/
theorem marked_next (U : List SvaUFsmNode) (fm : Bool) (hcl : MarksClosed U [])
    (S : List Nat) (hS : ∀ x ∈ S, (U.getD x default).reachable = true) (ctrl : List SigBit)
    (i : Nat) :
    ∀ x ∈ usortint (val_next U S fm ctrl i), (U.getD x default).reachable = true := by
  intro x hx
  rw [mem_usortint, mem_val_next] at hx
  obtain ⟨_, u, hu, e, he, hex, _⟩ := hx
  rw [← hex]
  exact hcl u (hS u hu) (by simp) e he

/-- On a link-free automaton whose marks are closed under edges, the assertion of
`create_dnode` never fails, whatever the depth of the recursion. -/
theorem create_dnode_no_assert (U : List SvaUFsmNode) (fm : Bool) (hcl : MarksClosed U []) :
    ∀ (fuel : Nat) (d : List (List Nat × SvaDFsmNode)) (S : List Nat),
      (∀ x ∈ S, (U.getD x default).reachable = true) →
      create_dnode U fuel d S fm ≠ Except.error Failure.log_assert := by
  intro fuel
  induction fuel with
  | zero =>
    intro d S _ h
    rw [create_dnode_zero] at h
    cases h
  | succ fuel ih =>
    intro d S hS hrun
    rw [create_dnode_succ] at hrun
    split_ifs at hrun with hcnt
    obtain ⟨raw, hraw⟩ := dnode_ctrl_raw_ok U S hS
    rw [hraw] at hrun
    simp only at hrun
    split_ifs at hrun with hlen
    · cases hrun
    · cases hloop : (List.range (1 <<< (sort_and_unify raw).length)).foldlM
          (dnode_step U S fm (sort_and_unify raw)
            (fun d s => create_dnode U fuel d s fm))
          ({ ctrl := sort_and_unify raw }, dict_set d S default) with
      | ok res => rw [hloop] at hrun; cases hrun
      | error e =>
        rw [hloop] at hrun
        simp only at hrun
        have he : e = Failure.log_assert := Except.error.inj hrun
        have := foldlM_error (fun e => e ≠ Failure.log_assert)
          (dnode_step U S fm (sort_and_unify raw)
            (fun d s => create_dnode U fuel d s fm))
          (by
            intro s a e1 hs
            rw [dnode_step_eq] at hs
            by_cases hnext : val_next U S fm (sort_and_unify raw) a = []
            · rw [if_pos hnext] at hs
              cases hs
            · rw [if_neg hnext] at hs
              cases hc : create_dnode U fuel s.2
                  (usortint (val_next U S fm (sort_and_unify raw) a)) fm with
              | ok d1 => rw [hc] at hs; cases hs
              | error e2 =>
                rw [hc] at hs
                have : e2 = e1 := Except.error.inj hs
                rw [← this]
                intro h2
                rw [h2] at hc
                exact ih _ _ (marked_next U fm hcl S hS _ a) hc)
          _ _ e hloop
        exact this he

theorem dnode_loop_outcomes (U : List SvaUFsmNode) (S : List Nat) (fm : Bool)
    (ctrl : List SigBit)
    (construct : List (List Nat × SvaDFsmNode) → List Nat →
      Except Failure (List (List Nat × SvaDFsmNode)))
    (P : List (List Nat × SvaDFsmNode) → Prop) (E : Failure → Prop)
    (hC : ∀ d i, P d →
      (∃ d', construct d (usortint (val_next U S fm ctrl i)) = Except.ok d' ∧ P d') ∨
      ∃ e, construct d (usortint (val_next U S fm ctrl i)) = Except.error e ∧ E e) :
    ∀ (l : List Nat) (acc : SvaDFsmNode × List (List Nat × SvaDFsmNode)), P acc.2 →
      (∃ res, l.foldlM (dnode_step U S fm ctrl construct) acc = Except.ok res) ∨
      ∃ e, l.foldlM (dnode_step U S fm ctrl construct) acc = Except.error e ∧ E e := by
  intro l
  induction l with
  | nil => intro acc _; exact Or.inl ⟨acc, rfl⟩
  | cons i l ih =>
    intro acc hP
    rw [foldlM_ok_cons, dnode_step_eq]
    by_cases hnext : val_next U S fm ctrl i = []
    · rw [if_pos hnext]
      exact ih _ hP
    · rw [if_neg hnext]
      rcases hC acc.2 i hP with ⟨d', hd', hP'⟩ | ⟨e, herr, hE⟩
      · rw [hd']
        exact ih _ hP'
      · rw [herr]
        exact Or.inr ⟨e, rfl, hE⟩

/-- With a recursion depth above the number of subsets not yet constructed, `create_dnode`
returns, stops at the 10-bit guard, or fails the assertion on a member that is not marked:
it never exhausts the depth. -/
theorem create_dnode_outcomes (U : List SvaUFsmNode) (fm : Bool) :
    ∀ (fuel : Nat) (d : List (List Nat × SvaDFsmNode)) (S : List Nat)
      (A : Finset (Finset Nat)), S.Sorted (fun a b => a < b) →
      (∀ K, GoodState U K → K ∉ dict_keys d → K.toFinset ∈ A) → A.card < fuel →
      (∃ d', create_dnode U fuel d S fm = Except.ok d') ∨
      ∃ e, create_dnode U fuel d S fm = Except.error e ∧
        (e = Failure.log_error ctrl_error ∨ e = Failure.log_assert) := by
  intro fuel
  induction fuel with
  | zero => intro d S A _ _ h; omega
  | succ k ih =>
    intro d S A hsort hA hcard
    rw [create_dnode_succ]
    by_cases hin : S ∈ dict_keys d
    · rw [if_pos ((dict_count_ne_zero_iff d S).2 hin)]
      exact Or.inl ⟨d, rfl⟩
    · rw [if_neg (fun h => hin ((dict_count_ne_zero_iff d S).1 h))]
      cases hraw : dnode_ctrl_raw U S with
      | error e =>
        exact Or.inr ⟨e, rfl, Or.inr ((dnode_ctrl_raw_spec U S).1 e hraw)⟩
      | ok raw =>
        simp only
        have hmark := dnode_ctrl_raw_marked U S raw hraw
        have hS : GoodState U S :=
          ⟨hsort, fun x hx => ⟨marked_lt U x (hmark x hx), hmark x hx⟩⟩
        by_cases hlen : (sort_and_unify raw).length > 10
        · rw [if_pos hlen]
          exact Or.inr ⟨_, rfl, Or.inl rfl⟩
        · rw [if_neg hlen]
          have hSA : S.toFinset ∈ A := hA S hS hin
          have hcard' : (A.erase S.toFinset).card < k := by
            rw [Finset.card_erase_of_mem hSA]
            have : 0 < A.card := Finset.card_pos.2 ⟨_, hSA⟩
            omega
          have hloop := dnode_loop_outcomes U S fm (sort_and_unify raw)
            (fun d s => create_dnode U k d s fm)
            (fun d' => ∀ K, K ∈ dict_keys (dict_set d S default) → K ∈ dict_keys d')
            (fun e => e = Failure.log_error ctrl_error ∨ e = Failure.log_assert)
            (by
              intro d1 i hP
              have hA' : ∀ K, GoodState U K → K ∉ dict_keys d1 →
                  K.toFinset ∈ A.erase S.toFinset := by
                intro K hK hKn
                have hKS : K ≠ S := by
                  intro e
                  exact hKn (e ▸ hP S ((mem_dict_keys_dict_set d S S default).2 (Or.inl rfl)))
                have hKd : K ∉ dict_keys d := fun h =>
                  hKn (hP K ((mem_dict_keys_dict_set d S K default).2 (Or.inr h)))
                refine Finset.mem_erase.2 ⟨?_, hA K hK hKd⟩
                intro e
                exact hKS (good_toFinset_inj U K S hK hS e)
              rcases ih d1 _ (A.erase S.toFinset) (sorted_usortint _) hA' hcard' with
                ⟨d', hd'⟩ | herr
              · refine Or.inl ⟨d', hd', ?_⟩
                intro K hK
                exact (create_dnode_inv U fm k d1 _ d' hd').2.1 K (hP K hK)
              · exact Or.inr herr)
            (List.range (1 <<< (sort_and_unify raw).length))
            ({ ctrl := sort_and_unify raw }, dict_set d S default) (fun K hK => hK)
          rcases hloop with ⟨res, hres⟩ | ⟨e, herr, hE⟩
          · rw [hres]
            exact Or.inl ⟨_, rfl⟩
          · rw [herr]
            exact Or.inr ⟨e, rfl, hE⟩

theorem good_powerset (U : List SvaUFsmNode) (d : List (List Nat × SvaDFsmNode)) :
    ∀ K, GoodState U K → K ∉ dict_keys d →
      K.toFinset ∈ (Finset.range U.length).powerset := by
  intro K hK _
  rw [Finset.mem_powerset]
  intro x hx
  rw [Finset.mem_range]
  exact (hK.2 x (List.mem_toFinset.1 hx)).1

theorem card_powerset_lt (n fuel : Nat) (h : 2 ^ n < fuel) :
    ((Finset.range n).powerset).card < fuel := by
  rw [Finset.card_powerset, Finset.card_range]
  exact h

/-- The keys of a dictionary built from the empty one are non-empty strictly increasing
lists of marked nodes, so there are at most `2^n - 1` of them. -/
theorem create_dnode_count (U : List SvaUFsmNode) (fm : Bool) (fuel : Nat) (S : List Nat)
    (d : List (List Nat × SvaDFsmNode)) (hsort : S.Sorted (fun a b => a < b)) (hne : S ≠ [])
    (h : create_dnode U fuel [] S fm = Except.ok d) :
    (dict_keys d).Nodup ∧ (∀ K ∈ dict_keys d, K ≠ [] ∧ GoodState U K) ∧
      d.length ≤ 2 ^ U.length - 1 := by
  have hnd : (dict_keys d).Nodup := create_dnode_nodup U fm fuel [] S d h List.nodup_nil
  have hq := create_dnode_keys U fm (fun K => K ≠ [] ∧ K.Sorted (fun a b => a < b))
    (fun l hl => ⟨fun e => hl ((usortint_eq_nil_iff l).1 e), sorted_usortint l⟩)
    fuel [] S d h ⟨hne, hsort⟩ (fun K hK => by cases hK)
  obtain ⟨_, _, _, hnew⟩ := create_dnode_inv U fm fuel [] S d h
  have hgood : ∀ K ∈ dict_keys d, K ≠ [] ∧ GoodState U K := by
    intro K hK
    refine ⟨(hq K hK).1, (hq K hK).2, ?_⟩
    cases hat : dict_at d K with
    | none => exact absurd hK ((dict_at_eq_none_iff d K).1 hat)
    | some dn =>
      obtain ⟨⟨raw, hraw, _, _⟩, _⟩ := hnew K (by simp [dict_keys]) dn hat
      have hm := dnode_ctrl_raw_marked U K raw hraw
      exact fun x hx => ⟨marked_lt U x (hm x hx), hm x hx⟩
  refine ⟨hnd, hgood, ?_⟩
  have hinj : ((dict_keys d).map List.toFinset).Nodup := by
    apply List.Nodup.map_on _ hnd
    intro K hK K' hK' e
    exact good_toFinset_inj U K K' (hgood K hK).2 (hgood K' hK').2 e
  have hsub : ((dict_keys d).map List.toFinset).toFinset ⊆
      ((Finset.range U.length).powerset).erase ∅ := by
    intro F hF
    rw [List.mem_toFinset, List.mem_map] at hF
    obtain ⟨K, hK, rfl⟩ := hF
    refine Finset.mem_erase.2 ⟨?_, ?_⟩
    · intro e
      exact (hgood K hK).1 ((List.toFinset_eq_empty_iff K).1 e)
    · rw [Finset.mem_powerset]
      intro x hx
      rw [Finset.mem_range]
      exact ((hgood K hK).2.2 x (List.mem_toFinset.1 hx)).1
  have hcard := Finset.card_le_card hsub
  rw [List.toFinset_card_of_nodup hinj, List.length_map,
    Finset.card_erase_of_mem (Finset.empty_mem_powerset _), Finset.card_powerset,
    Finset.card_range] at hcard
  have hl : (dict_keys d).length = d.length := by
    unfold dict_keys
    rw [List.length_map]
  omega

end SVA


namespace SVA

/-! ## The dictionary is closed under edges and holds constructed nodes only -/

theorem mem_of_dict_at (d : List (List Nat × SvaDFsmNode)) (K : List Nat) (dn : SvaDFsmNode)
    (h : dict_at d K = some dn) : (K, dn) ∈ d := by
  unfold dict_at at h
  cases hf : d.find? (fun p => decide (p.1 = K)) with
  | none => rw [hf] at h; cases h
  | some p =>
    rw [hf] at h
    have h2 : p.2 = dn := by
      simpa using h
    have h3 := List.find?_some hf
    have h4 : p.1 = K := by simpa using h3
    have h5 := List.mem_of_find?_eq_some hf
    have : p = (K, dn) := by
      rw [← h2, ← h4]
    rw [← this]
    exact h5

/-- The node built for a subset has an entry for valuation 0, so it differs from the
placeholder. -/
theorem dnode_of_ctrl_ne_default (U : List SvaUFsmNode) (fm : Bool) (K : List Nat)
    (ctrl : List SigBit) : dnode_of_ctrl U fm K ctrl ≠ default := by
  intro h
  have h0 : 0 ∈ List.range (2 ^ ctrl.length) := by
    rw [List.mem_range]
    exact Nat.two_pow_pos _
  have he : (dnode_of_ctrl U fm K ctrl).edges = [] := by rw [h]; rfl
  have ha : (dnode_of_ctrl U fm K ctrl).accept = [] := by rw [h]; rfl
  have hr : (dnode_of_ctrl U fm K ctrl).reject = [] := by rw [h]; rfl
  simp only [dnode_of_ctrl, List.map_eq_nil_iff, List.filter_eq_nil_iff] at he ha hr
  have h1 := he 0 h0
  have h2 := ha 0 h0
  have h3 := hr 0 h0
  simp only [Bool.not_eq_true', decide_eq_false_iff_not, not_not, Bool.and_eq_true,
    decide_eq_true_eq, not_and, Bool.not_eq_false] at h1 h3
  exact h2 (h3 h1)

theorem with_wires_closed (fsm : SvaFsm) (base : Nat) (D0 : List (List Nat × SvaDFsmNode))
    (hcl : ∀ it ∈ D0, ∀ e ∈ it.2.edges, e.1 ∈ dict_keys D0) :
    ∀ it ∈ fsm.with_wires base D0, ∀ e ∈ it.2.edges,
      e.1 ∈ dict_keys (fsm.with_wires base D0) := by
  intro it hit e he
  obtain ⟨i, hi, rfl⟩ := (mem_with_wires fsm D0 it base).1 hit
  have hmem : D0.getD i default ∈ D0 := by
    rw [List.getD_eq_getElem _ _ hi]
    exact List.getElem_mem _
  rw [with_wires_keys]
  exact hcl _ hmem e he

/-- Every entry of a dictionary built from the empty one is the node constructed for its
key, and its edge targets are keys. -/
theorem create_dnode_entries (U : List SvaUFsmNode) (fm : Bool) (fuel : Nat) (S : List Nat)
    (d : List (List Nat × SvaDFsmNode)) (h : create_dnode U fuel [] S fm = Except.ok d) :
    (dict_keys d).Nodup ∧ S ∈ dict_keys d ∧
    ∀ it ∈ d,
      (∃ raw, dnode_ctrl_raw U it.1 = Except.ok raw ∧ (sort_and_unify raw).length ≤ 10 ∧
        it.2 = dnode_of_ctrl U fm it.1 (sort_and_unify raw)) ∧
      ∀ e ∈ it.2.edges, e.1 ∈ dict_keys d := by
  have hnd : (dict_keys d).Nodup := create_dnode_nodup U fm fuel [] S d h List.nodup_nil
  obtain ⟨hS, _, _, hnew⟩ := create_dnode_inv U fm fuel [] S d h
  refine ⟨hnd, hS, ?_⟩
  intro it hit
  have hat := dict_at_of_mem d it.1 it.2 hnd hit
  exact hnew it.1 (by simp [dict_keys]) it.2 hat

theorem reject_activations_ok (U : List SvaUFsmNode) (fm : Bool) (fuel : Nat) (S : List Nat)
    (d : List (List Nat × SvaDFsmNode)) (h : create_dnode U fuel [] S fm = Except.ok d)
    (fsm : SvaFsm) (m : Module) (wa : Bool) :
    ∃ r, reject_activations wa (fsm.reject_state_signals m (dict_sort d)).2 = Except.ok r := by
  obtain ⟨hnd, _, hent⟩ := create_dnode_entries U fm fuel S d h
  rw [reject_state_signals_eq]
  have hcl0 : ∀ it ∈ dict_sort d, ∀ e ∈ it.2.edges, e.1 ∈ dict_keys (dict_sort d) := by
    intro it hit e he
    exact (mem_dict_keys_dict_sort d _).2 ((hent it ((mem_dict_sort d it).1 hit)).2 e he)
  have hnd1 : (dict_keys (fsm.with_wires m.nwires (dict_sort d))).Nodup := by
    rw [with_wires_keys]
    exact dict_sort_keys_nodup d hnd
  rw [reject_activations_eq wa _ hnd1 (with_wires_closed fsm _ _ hcl0)]
  exact ⟨_, rfl⟩

/-! ## The failures of the recursions of `getReject` -/

/-- The recursion of `node_to_unode` fails only by exhausting its depth budget. -/
theorem node_to_unode_error (fsm : SvaFsm) :
    ∀ (fuel : Nat) (unodes : List SvaUFsmNode) (node unode : Nat) (ctrl : List SigBit)
      (e : Failure),
      fsm.node_to_unode fuel unodes node unode ctrl = Except.error e → e = Failure.depth := by
  intro fuel
  induction fuel with
  | zero =>
    intro unodes node unode ctrl e h
    unfold SvaFsm.node_to_unode at h
    cases h
    rfl
  | succ fuel ih =>
    intro unodes node unode ctrl e h
    rw [node_to_unode_succ] at h
    refine foldlM_error (fun e => e = Failure.depth) _ ?_ _ _ e h
    intro s a e1 he
    by_cases hc : a.2 ≠ SigBit.S1
    · rw [if_pos hc] at he
      exact ih _ _ _ _ e1 he
    · rw [if_neg hc] at he
      exact ih _ _ _ _ e1 he

theorem mark_reachable_error :
    ∀ (fuel : Nat) (U : List SvaUFsmNode) (u : Nat) (e : Failure),
      mark_reachable_unode fuel U u = Except.error e → e = Failure.depth := by
  intro fuel
  induction fuel with
  | zero =>
    intro U u e h
    unfold mark_reachable_unode at h
    cases h
    rfl
  | succ fuel ih =>
    intro U u e h
    unfold mark_reachable_unode at h
    by_cases hr : (U.getD u default).reachable = true
    · rw [if_pos hr] at h
      cases h
    · rw [if_neg hr] at h
      exact foldlM_error (fun e => e = Failure.depth) _
        (fun s a e1 he => ih _ _ e1 he) _ _ e h

theorem make_unodes_error (fsm : SvaFsm) (e : Failure)
    (h : fsm.make_unodes = Except.error e) : e = Failure.depth := by
  unfold SvaFsm.make_unodes at h
  simp only at h
  split at h
  · rename_i e1 he1
    have : e1 = e := Except.error.inj h
    rw [← this]
    exact foldlM_error (fun e => e = Failure.depth) _
      (fun s a e2 he => node_to_unode_error fsm _ _ _ _ _ e2 he) _ _ e1 he1
  · exact mark_reachable_error _ _ _ e h

/-- The subset construction itself never fails a lookup. -/
theorem create_dnode_error (U : List SvaUFsmNode) (fm : Bool) :
    ∀ (fuel : Nat) (d : List (List Nat × SvaDFsmNode)) (S : List Nat) (e : Failure),
      create_dnode U fuel d S fm = Except.error e → e ≠ Failure.out_of_range := by
  intro fuel
  induction fuel with
  | zero =>
    intro d S e h
    rw [create_dnode_zero] at h
    cases h
    intro h2
    cases h2
  | succ fuel ih =>
    intro d S e hrun
    rw [create_dnode_succ] at hrun
    split_ifs at hrun with hcnt
    cases hraw : dnode_ctrl_raw U S with
    | error e1 =>
      rw [hraw] at hrun
      have : e1 = e := Except.error.inj hrun
      rw [← this, (dnode_ctrl_raw_spec U S).1 e1 hraw]
      intro h2
      cases h2
    | ok raw =>
      rw [hraw] at hrun
      simp only at hrun
      split_ifs at hrun with hlen
      · cases hrun
        intro h2
        cases h2
      · cases hloop : (List.range (1 <<< (sort_and_unify raw).length)).foldlM
            (dnode_step U S fm (sort_and_unify raw)
              (fun d s => create_dnode U fuel d s fm))
            ({ ctrl := sort_and_unify raw }, dict_set d S default) with
        | ok res => rw [hloop] at hrun; cases hrun
        | error e1 =>
          rw [hloop] at hrun
          simp only at hrun
          have he : e1 = e := Except.error.inj hrun
          rw [← he]
          refine foldlM_error (fun e => e ≠ Failure.out_of_range)
            (dnode_step U S fm (sort_and_unify raw)
              (fun d s => create_dnode U fuel d s fm)) ?_ _ _ e1 hloop
          intro s a e2 hs
          rw [dnode_step_eq] at hs
          by_cases hnext : val_next U S fm (sort_and_unify raw) a = []
          · rw [if_pos hnext] at hs
            cases hs
          · rw [if_neg hnext] at hs
            cases hc : create_dnode U fuel s.2
                (usortint (val_next U S fm (sort_and_unify raw) a)) fm with
            | ok d1 => rw [hc] at hs; cases hs
            | error e3 =>
              rw [hc] at hs
              have : e3 = e2 := Except.error.inj hs
              rw [← this]
              exact ih _ _ e3 hc

/-- Started with an empty dictionary, `getReject` never fails the lookup of an edge
target. -/
theorem getReject_lookup (fsm : SvaFsm) (m : Module) (wa : Bool) (hdn : fsm.dnodes = []) :
    fsm.getReject m wa ≠ Except.error Failure.out_of_range := by
  intro h
  unfold SvaFsm.getReject at h
  cases hU : fsm.make_unodes with
  | error e =>
    rw [hU] at h
    simp only at h
    have h1 := make_unodes_error fsm e hU
    rw [h1] at h
    cases h
  | ok U =>
    rw [hU, hdn] at h
    simp only at h
    cases hD : create_dnode U (2 ^ fsm.nodes.length + 1) [] [fsm.startNode] true with
    | error e =>
      rw [hD] at h
      simp only at h
      have h1 := create_dnode_error U true _ _ _ e hD
      exact h1 (Except.error.inj h)
    | ok d =>
      rw [hD] at h
      simp only at h
      obtain ⟨r, hr⟩ := reject_activations_ok U true _ _ d hD fsm m wa
      rw [hr] at h
      cases h

end SVA


namespace SVA

/-! ## The valuations of a deterministic node -/

theorem filter3_perm {α : Type} (p1 p2 p3 : α → Bool) :
    ∀ (l : List α),
      (∀ x ∈ l, (p1 x = true ∧ p2 x = false ∧ p3 x = false) ∨
        (p1 x = false ∧ p2 x = true ∧ p3 x = false) ∨
        (p1 x = false ∧ p2 x = false ∧ p3 x = true)) →
      (l.filter p1 ++ l.filter p2 ++ l.filter p3).Perm l := by
  intro l
  induction l with
  | nil => intro _; exact List.Perm.refl _
  | cons x l ih =>
    intro h
    have ih1 := ih (fun y hy => h y (List.mem_cons_of_mem _ hy))
    rcases h x (List.mem_cons_self _ _) with ⟨h1, h2, h3⟩ | ⟨h1, h2, h3⟩ | ⟨h1, h2, h3⟩
    · simp only [List.filter_cons, h1, h2, h3, if_true, Bool.false_eq_true, if_false,
        List.cons_append]
      exact List.Perm.cons x ih1
    · simp only [List.filter_cons, h1, h2, h3, if_true, Bool.false_eq_true, if_false]
      refine List.Perm.trans ?_ (List.Perm.cons x ih1)
      have : (l.filter p1 ++ x :: l.filter p2).Perm (x :: (l.filter p1 ++ l.filter p2)) :=
        List.perm_middle
      exact List.Perm.append_right _ this
    · simp only [List.filter_cons, h1, h2, h3, if_true, Bool.false_eq_true, if_false]
      exact List.perm_middle.trans (List.Perm.cons x ih1)

/-- In first-match mode the valuations of the edges, the accept list and the reject list
of the node built for a subset are, up to order, all valuations of its control vector. -/
theorem dnode_of_ctrl_perm (U : List SvaUFsmNode) (K : List Nat) (ctrl : List SigBit) :
    ((dnode_of_ctrl U true K ctrl).edges.map Prod.snd ++ (dnode_of_ctrl U true K ctrl).accept
      ++ (dnode_of_ctrl U true K ctrl).reject).Perm
      ((List.range (2 ^ ctrl.length)).map (fun i => Const i ctrl.length)) := by
  have h := filter3_perm
    (fun i => !decide (val_next U K true ctrl i = []))
    (fun i => val_accept U K ctrl i)
    (fun i => decide (val_next U K true ctrl i = []) && !val_accept U K ctrl i)
    (List.range (2 ^ ctrl.length))
    (by
      intro i _
      cases hacc : val_accept U K ctrl i with
      | true =>
        have hn : val_next U K true ctrl i = [] := by
          unfold val_next
          simp [hacc]
        right; left
        simp [hn, hacc]
      | false =>
        by_cases hn : val_next U K true ctrl i = []
        · right; right
          simp [hn, hacc]
        · left
          simp [hn, hacc])
  have h2 := h.map (fun i => Const i ctrl.length)
  simp only [List.map_append] at h2
  simp only [dnode_of_ctrl, List.map_map]
  exact h2

theorem valuations_nodup (n : Nat) :
    ((List.range (2 ^ n)).map (fun i => Const i n)).Nodup := by
  apply List.Nodup.map_on _ (List.nodup_range _)
  intro i hi j hj e
  exact Const_injective n i j (List.mem_range.1 hi) (List.mem_range.1 hj) e

theorem mem_valuations (n : Nat) (v : List Bool) :
    v ∈ (List.range (2 ^ n)).map (fun i => Const i n) ↔ v.length = n := by
  constructor
  · intro h
    obtain ⟨i, _, rfl⟩ := List.mem_map.1 h
    exact length_Const i n
  · intro h
    obtain ⟨i, hi, hbits⟩ := exists_valuation (fun j => v.getD j false) n
    refine List.mem_map.2 ⟨i, List.mem_range.2 hi, ?_⟩
    apply List.ext_getElem
    · rw [length_Const, h]
    · intro j h1 h2
      have hj : j < n := by rw [length_Const] at h1; exact h1
      have e1 := getD_Const i n j hj
      rw [List.getD_eq_getElem _ _ h1] at e1
      rw [e1, hbits j hj, List.getD_eq_getElem _ _ h2]

/-- The edges of the node built for a subset carry distinct valuations. -/
theorem dnode_of_ctrl_deterministic (U : List SvaUFsmNode) (fm : Bool) (K : List Nat)
    (ctrl : List SigBit) :
    ∀ e1 ∈ (dnode_of_ctrl U fm K ctrl).edges, ∀ e2 ∈ (dnode_of_ctrl U fm K ctrl).edges,
      e1.2 = e2.2 → e1 = e2 := by
  intro e1 h1 e2 h2 e
  simp only [dnode_of_ctrl, List.mem_map, List.mem_filter, List.mem_range] at h1 h2
  obtain ⟨i1, ⟨hi1, _⟩, rfl⟩ := h1
  obtain ⟨i2, ⟨hi2, _⟩, rfl⟩ := h2
  have : i1 = i2 := Const_injective _ _ _ hi1 hi2 e
  rw [this]

theorem mem_add_next (l : List (List Nat × SvaDFsmNode)) (N : List Nat → List SigBit)
    (it : List Nat × SvaDFsmNode) (h : it ∈ add_next l N) :
    ∃ it0 ∈ l, it.1 = it0.1 ∧ it.2.ctrl = it0.2.ctrl ∧ it.2.edges = it0.2.edges ∧
      it.2.accept = it0.2.accept ∧ it.2.reject = it0.2.reject ∧
      it.2.statesig = it0.2.statesig ∧ it.2.ffoutwire = it0.2.ffoutwire ∧
      it = (it0.1, { it0.2 with nextstate := it0.2.nextstate ++ N it0.1 }) := by
  unfold add_next at h
  obtain ⟨it0, h0, rfl⟩ := List.mem_map.1 h
  exact ⟨it0, h0, rfl, rfl, rfl, rfl, rfl, rfl, rfl, rfl⟩

theorem entry_unique (d : List (List Nat × SvaDFsmNode)) (hnd : (dict_keys d).Nodup)
    (a b : List Nat × SvaDFsmNode) (ha : a ∈ d) (hb : b ∈ d) (h : a.1 = b.1) : a = b := by
  have h1 := dict_at_of_mem d a.1 a.2 hnd ha
  have h2 := dict_at_of_mem d b.1 b.2 hnd hb
  rw [h, h2] at h1
  have h3 : b.2 = a.2 := Option.some.inj h1
  exact Prod.ext h h3.symm

end SVA


namespace SVA

/-! ## The dictionary stored by `getReject` -/

theorem getReject_circuit_dnodes (fsm : SvaFsm) (m : Module) (with_accept : Bool) (m' : Module)
    (fsm' : SvaFsm) (rej : SigBit) (accO : Option SigBit) (hdn : fsm.dnodes = [])
    (h : fsm.getReject m with_accept = Except.ok (m', fsm', rej, accO)) :
    ∃ U D, fsm.make_unodes = Except.ok U ∧ fsm.DfsmCircuit U D m' rej accO with_accept ∧
      fsm'.dnodes = add_next D (dict_trigs D) ∧ fsm'.unodes = U := by
  unfold SvaFsm.getReject at h
  cases hU : fsm.make_unodes with
  | error e => rw [hU] at h; cases h
  | ok U =>
    rw [hU, hdn] at h
    simp only at h
    cases hD : create_dnode U (2 ^ fsm.nodes.length + 1) [] [fsm.startNode] true with
    | error e => rw [hD] at h; cases h
    | ok d =>
      rw [hD] at h
      simp only at h
      obtain ⟨hnd0, hS0, hent0⟩ := create_dnode_top U _ _ d hD
      rw [reject_state_signals_eq] at h
      simp only at h
      have hk1 : dict_keys (fsm.with_wires m.nwires (dict_sort d)) = dict_keys (dict_sort d) :=
        with_wires_keys fsm _ _
      have hent1 := with_wires_entry fsm U m.nwires (dict_sort d) hent0
      have hw1 := with_wires_wires fsm (dict_sort d) m.nwires
      generalize fsm.with_wires m.nwires (dict_sort d) = D1 at h hk1 hent1 hw1
      have hnd1 : (dict_keys D1).Nodup := by
        rw [hk1]; exact hnd0
      rw [reject_activations_eq with_accept _ hnd1 (fun it hit => (hent1 it hit).2.2.1)] at h
      simp only at h
      have h' := Except.ok.inj h
      simp only [Prod.mk.injEq] at h'
      obtain ⟨hm', hfsm, hrej, hacc⟩ := h'
      refine ⟨U, D1, rfl, ⟨hnd1, ?_, ?_, ?_, ?_⟩, ?_, ?_⟩
      · rw [hk1]; exact hS0
      · intro it hit
        obtain ⟨hp, hss, hcl, hns⟩ := hent1 it hit
        refine ⟨hp, hss, hcl, ?_⟩
        have hwn : ((add_next D1 (dict_trigs D1)).map (fun it => it.2.ffoutwire)).Nodup := by
          have : (add_next D1 (dict_trigs D1)).map (fun it => it.2.ffoutwire) =
              D1.map (fun it => it.2.ffoutwire) := by
            simp [add_next, List.map_map, Function.comp]
          rw [this, hw1]
          exact List.nodup_range' _ _
        have hit2 : (fun (it : List Nat × SvaDFsmNode) =>
            (it.1, { it.2 with nextstate := it.2.nextstate ++ dict_trigs D1 it.1 })) it ∈
            add_next D1 (dict_trigs D1) :=
          List.mem_map.2 ⟨it, hit, rfl⟩
        have hdrv := driver_reject_state_ffs _
          { m with nwires := m.nwires + (dict_sort d).length } hwn _ hit2
        rw [hm'] at hdrv
        simp only at hdrv
        constructor
        · intro env
          exact qval_zero_dnode_driver m' env _ _ hdrv
        · intro env t
          rw [qval_succ_dnode_driver m' env t _ _ hdrv]
          simp only [hns, List.nil_append]
          exact any_dict_trigs _ _ _
      · intro env t
        rw [← hrej]
        unfold Module.value
        rw [eval_reduce_sig]
        exact any_flatMap_map _ (fun dn => dn.reject) _
      · intro hwa
        subst hwa
        simp only [if_true] at hacc
        refine ⟨_, hacc.symm, ?_⟩
        intro env t
        unfold Module.value
        rw [eval_reduce_sig]
        exact any_flatMap_map _ (fun dn => dn.accept) _
      · rw [← hfsm]
      · rw [← hfsm]

end SVA


namespace SVA

/-! ## At most one state of the deterministic automaton is active -/

theorem dfsm_unique (fsm : SvaFsm) (U : List SvaUFsmNode)
    (D : List (List Nat × SvaDFsmNode)) (m' : Module) (rej : SigBit) (accO : Option SigBit)
    (wa : Bool) (hC : fsm.DfsmCircuit U D m' rej accO wa) (env : Nat → Nat → Bool)
    (htrig : ∀ t, m'.value env t fsm.trigger_sig = true → t = 0) :
    ∀ t, ∀ it1 ∈ D, ∀ it2 ∈ D, m'.value env t it1.2.statesig = true →
      m'.value env t it2.2.statesig = true → it1.1 = it2.1 := by
  intro t
  induction t with
  | zero =>
    have key : ∀ it ∈ D, m'.value env 0 it.2.statesig = true → it.1 = [fsm.startNode] := by
      intro it hit h
      rw [statesig_value fsm U D m' rej accO wa hC it hit env 0,
        (hC.2.2.1 it hit).2.2.2.1 env] at h
      simp only [Bool.false_or, Bool.and_eq_true, decide_eq_true_eq] at h
      exact h.1
    intro it1 h1 it2 h2 s1 s2
    rw [key it1 h1 s1, key it2 h2 s2]
  | succ t ih =>
    have key : ∀ it ∈ D, m'.value env (t + 1) it.2.statesig = true →
        ∃ itS ∈ D, ∃ e ∈ itS.2.edges, e.1 = it.1 ∧
          m'.value env t (dnode_eq itS.2 e.2) = true := by
      intro it hit h
      rw [statesig_value fsm U D m' rej accO wa hC it hit env (t + 1)] at h
      have htr : m'.value env (t + 1) fsm.trigger_sig = false := by
        cases hv : m'.value env (t + 1) fsm.trigger_sig with
        | false => rfl
        | true => exact absurd (htrig _ hv) (Nat.succ_ne_zero t)
      rw [htr] at h
      simp only [Bool.and_false, Bool.or_false] at h
      exact ((hC.2.2.1 it hit).2.2.2.2 env t).1 h
    intro it1 h1 it2 h2 s1 s2
    obtain ⟨itS1, hS1, e1, he1, ht1, hv1⟩ := key it1 h1 s1
    obtain ⟨itS2, hS2, e2, he2, ht2, hv2⟩ := key it2 h2 s2
    have a1 : m'.value env t itS1.2.statesig = true := ((eval_dnode_eq _ _ _ _).1 hv1).1
    have a2 : m'.value env t itS2.2.statesig = true := ((eval_dnode_eq _ _ _ _).1 hv2).1
    have hsame : itS1 = itS2 := entry_unique D hC.1 itS1 itS2 hS1 hS2 (ih itS1 hS1 itS2 hS2 a1 a2)
    subst hsame
    obtain ⟨⟨raw, _, _, hctrl, hedges, _, _⟩, _⟩ := hC.2.2.1 itS1 hS1
    rw [hedges] at he1 he2
    simp only [dnode_of_ctrl, List.mem_map, List.mem_filter, List.mem_range] at he1 he2
    obtain ⟨i1, ⟨hi1, _⟩, rfl⟩ := he1
    obtain ⟨i2, ⟨hi2, _⟩, rfl⟩ := he2
    obtain ⟨i, hi, hbits⟩ := exists_valuation
      (fun j => (itS1.2.ctrl.getD j SigBit.S0).eval (env t) (m'.qval env t)) itS1.2.ctrl.length
    rw [← hctrl] at hi1 hi2 hv1 hv2
    have b1 := ((dnode_eq_taken itS1.2 (env t) (m'.qval env t) i i1 hi hi1 hbits).1 hv1).2
    have b2 := ((dnode_eq_taken itS1.2 (env t) (m'.qval env t) i i2 hi hi2 hbits).1 hv2).2
    rw [← ht1, ← ht2, b1, b2]

end SVA


namespace SVA

/-! ## Termination of the recursions over links -/

theorem foldlM_total {σ α : Type} (f : σ → α → Except Failure σ) :
    ∀ (l : List α), (∀ s, ∀ a ∈ l, ∃ s', f s a = Except.ok s') →
      ∀ s, ∃ s', l.foldlM f s = Except.ok s' := by
  intro l
  induction l with
  | nil => intro _ s; exact ⟨s, rfl⟩
  | cons a l ih =>
    intro h s
    obtain ⟨s1, h1⟩ := h s a (List.mem_cons_self _ _)
    rw [foldlM_ok_cons, h1]
    exact ih (fun s b hb => h s b (List.mem_cons_of_mem _ hb)) s1

/-- A loop with a pass that fails from every state fails. -/
theorem foldlM_error_mem {σ α : Type} (f : σ → α → Except Failure σ) (e0 : Failure)
    (hall : ∀ s a e, f s a = Except.error e → e = e0) :
    ∀ (l : List α) (a : α), a ∈ l → (∀ s, f s a = Except.error e0) →
      ∀ s, l.foldlM f s = Except.error e0 := by
  intro l
  induction l with
  | nil => intro a ha; cases ha
  | cons b l ih =>
    intro a ha hbad s
    rw [foldlM_ok_cons]
    cases hb : f s b with
    | error e =>
      rw [hall s b e hb]
    | ok s1 =>
      rcases List.mem_cons.1 ha with e | e
      · rw [← e, hbad s] at hb
        cases hb
      · exact ih a e hbad s1

theorem make_link_order_returns {fsm : SvaFsm} (hl : fsm.LinksInRange) (hac : fsm.Acyclic) :
    ∀ (fuel : Nat) (anc : List Nat) (order : List Nat) (node min : Nat),
      List.Chain' (Function.swap fsm.Link) (node :: anc) →
      (∀ x ∈ node :: anc, x < fsm.nodes.length) →
      fsm.nodes.length < fuel + (anc.length + 1) →
      ∃ order', fsm.make_link_order fuel order node min = Except.ok order' := by
  intro fuel
  induction fuel with
  | zero =>
    intro anc order node min hch hlt hfuel
    have := chain_length_le hac (node :: anc) hch hlt
    simp only [List.length_cons] at this
    omega
  | succ fuel ih =>
    intro anc order node min hch hlt hfuel
    rw [make_link_order_succ]
    apply foldlM_total
    intro s a ha
    apply ih (node :: anc) s a.1
    · exact List.Chain'.cons ⟨a.2, ha⟩ hch
    · intro x hx
      rcases List.mem_cons.1 hx with e | e
      · rw [e]; exact hl node a ha
      · exact hlt x e
    · simp only [List.length_cons]
      omega

theorem node_to_unode_returns {fsm : SvaFsm} (hl : fsm.LinksInRange) (hac : fsm.Acyclic) :
    ∀ (fuel : Nat) (anc : List Nat) (unodes : List SvaUFsmNode) (node unode : Nat)
      (ctrl : List SigBit),
      List.Chain' (Function.swap fsm.Link) (node :: anc) →
      (∀ x ∈ node :: anc, x < fsm.nodes.length) →
      fsm.nodes.length < fuel + (anc.length + 1) →
      ∃ unodes', fsm.node_to_unode fuel unodes node unode ctrl = Except.ok unodes' := by
  intro fuel
  induction fuel with
  | zero =>
    intro anc unodes node unode ctrl hch hlt hfuel
    have := chain_length_le hac (node :: anc) hch hlt
    simp only [List.length_cons] at this
    omega
  | succ fuel ih =>
    intro anc unodes node unode ctrl hch hlt hfuel
    rw [node_to_unode_succ]
    apply foldlM_total
    intro s a ha
    have hch' : List.Chain' (Function.swap fsm.Link) (a.1 :: node :: anc) :=
      List.Chain'.cons ⟨a.2, ha⟩ hch
    have hlt' : ∀ x ∈ a.1 :: node :: anc, x < fsm.nodes.length := by
      intro x hx
      rcases List.mem_cons.1 hx with e | e
      · rw [e]; exact hl node a ha
      · exact hlt x e
    have hfuel' : fsm.nodes.length < fuel + ((node :: anc).length + 1) := by
      simp only [List.length_cons]
      omega
    by_cases hc : a.2 ≠ SigBit.S1
    · rw [if_pos hc]
      exact ih (node :: anc) s a.1 unode _ hch' hlt' hfuel'
    · rw [if_neg hc]
      exact ih (node :: anc) s a.1 unode _ hch' hlt' hfuel'

theorem link_orders_returns {fsm : SvaFsm} (hl : fsm.LinksInRange) (hac : fsm.Acyclic) :
    ∃ order, fsm.link_orders = Except.ok order := by
  unfold SvaFsm.link_orders
  apply foldlM_total
  intro s a ha
  exact make_link_order_returns hl hac _ [] s a 0 (List.chain'_singleton _)
    (fun x hx => by rw [List.mem_singleton.1 hx]; exact List.mem_range.1 ha)
    (by simp)

theorem getAccept_returns {fsm : SvaFsm} (hl : fsm.LinksInRange) (hac : fsm.Acyclic)
    (hmat : fsm.materialized = false) (m : Module) :
    ∃ r, fsm.getAccept m = Except.ok r := by
  obtain ⟨order, hord⟩ := link_orders_returns hl hac
  exact ⟨_, getAccept_eq fsm m hmat order hord⟩

/-! ## Non-termination on a cycle of links -/

theorem linkCycleFrom_step (fsm : SvaFsm) (node : Nat) (h : fsm.LinkCycleFrom node) :
    ∃ p ∈ fsm.linksOf node, fsm.LinkCycleFrom p.1 := by
  obtain ⟨u, hreach, hcyc⟩ := h
  rcases Relation.ReflTransGen.cases_head hreach with e | ⟨b, hb, hbu⟩
  · subst e
    obtain ⟨b, hb, hbu⟩ := Relation.TransGen.head'_iff.1 hcyc
    obtain ⟨c, hc⟩ := hb
    exact ⟨(b, c), hc, node, hbu, hcyc⟩
  · obtain ⟨c, hc⟩ := hb
    exact ⟨(b, c), hc, u, hbu, hcyc⟩

/-- Started on a node from which a cycle of links is reachable, `make_link_order` exhausts
every depth budget. -/
theorem make_link_order_cycle (fsm : SvaFsm) :
    ∀ (fuel : Nat) (order : List Nat) (node min : Nat), fsm.LinkCycleFrom node →
      fsm.make_link_order fuel order node min = Except.error Failure.depth := by
  intro fuel
  induction fuel with
  | zero => intro order node min _; rfl
  | succ fuel ih =>
    intro order node min h
    rw [make_link_order_succ]
    obtain ⟨p, hp, hcyc⟩ := linkCycleFrom_step fsm node h
    exact foldlM_error_mem _ Failure.depth
      (fun s a e he => make_link_order_error fsm _ _ _ _ e he) _ p hp
      (fun s => ih s p.1 _ hcyc) _

/-- Started on a node from which a cycle of links is reachable, `node_to_unode` exhausts
every depth budget. -/
theorem node_to_unode_cycle (fsm : SvaFsm) :
    ∀ (fuel : Nat) (unodes : List SvaUFsmNode) (node unode : Nat) (ctrl : List SigBit),
      fsm.LinkCycleFrom node →
      fsm.node_to_unode fuel unodes node unode ctrl = Except.error Failure.depth := by
  intro fuel
  induction fuel with
  | zero => intro unodes node unode ctrl _; rfl
  | succ fuel ih =>
    intro unodes node unode ctrl h
    rw [node_to_unode_succ]
    obtain ⟨p, hp, hcyc⟩ := linkCycleFrom_step fsm node h
    refine foldlM_error_mem _ Failure.depth ?_ _ p hp ?_ _
    · intro s a e he
      by_cases hc : a.2 ≠ SigBit.S1
      · rw [if_pos hc] at he
        exact node_to_unode_error fsm _ _ _ _ _ e he
      · rw [if_neg hc] at he
        exact node_to_unode_error fsm _ _ _ _ _ e he
    · intro s
      by_cases hc : p.2 ≠ SigBit.S1
      · rw [if_pos hc]
        exact ih s p.1 unode _ hcyc
      · rw [if_neg hc]
        exact ih s p.1 unode _ hcyc

theorem cycle_node_lt (fsm : SvaFsm) (u : Nat) (h : Relation.TransGen fsm.Link u u) :
    u < fsm.nodes.length := by
  obtain ⟨b, hb, _⟩ := Relation.TransGen.head'_iff.1 h
  exact Link.src_lt hb

theorem link_orders_cycle (fsm : SvaFsm) (u : Nat) (h : Relation.TransGen fsm.Link u u) :
    fsm.link_orders = Except.error Failure.depth := by
  unfold SvaFsm.link_orders
  exact foldlM_error_mem
    (fun (order : List Nat) i => fsm.make_link_order fsm.nodes.length order i 0)
    Failure.depth
    (fun s a e he => make_link_order_error fsm _ _ _ _ e he) _ u
    (List.mem_range.2 (cycle_node_lt fsm u h))
    (fun s => make_link_order_cycle fsm _ s u 0 ⟨u, Relation.ReflTransGen.refl, h⟩) _

theorem getAccept_cycle (fsm : SvaFsm) (u : Nat) (h : Relation.TransGen fsm.Link u u)
    (hmat : fsm.materialized = false) (m : Module) :
    fsm.getAccept m = Except.error Failure.depth := by
  have h2 : ({ fsm with materialized := true } : SvaFsm).link_orders =
      Except.error Failure.depth :=
    link_orders_cycle { fsm with materialized := true } u h
  unfold SvaFsm.getAccept
  rw [if_neg (by simp [hmat])]
  simp only
  rw [h2]

theorem make_unodes_cycle (fsm : SvaFsm) (u : Nat) (h : Relation.TransGen fsm.Link u u) :
    fsm.make_unodes = Except.error Failure.depth := by
  unfold SvaFsm.make_unodes
  simp only
  rw [foldlM_error_mem
    (fun (unodes : List SvaUFsmNode) node =>
      fsm.node_to_unode fsm.nodes.length unodes node node [])
    Failure.depth
    (fun s a e he => node_to_unode_error fsm _ _ _ _ _ e he) _ u
    (List.mem_range.2 (cycle_node_lt fsm u h))
    (fun s => node_to_unode_cycle fsm _ s u u [] ⟨u, Relation.ReflTransGen.refl, h⟩) _]

theorem getReject_cycle (fsm : SvaFsm) (u : Nat) (h : Relation.TransGen fsm.Link u u)
    (m : Module) (wa : Bool) : fsm.getReject m wa = Except.error Failure.depth := by
  unfold SvaFsm.getReject
  rw [make_unodes_cycle fsm u h]

/-- The links of `fsmLinkLoop` form a cycle through node 1, reachable from node 0. -/
theorem fsmLinkLoop_cycle : fsmLinkLoop.LinkCycleFrom 0 :=
  ⟨1, Relation.ReflTransGen.single (⟨SigBit.S1, by decide⟩ : fsmLinkLoop.Link 0 1),
    Relation.TransGen.tail
      (Relation.TransGen.single (⟨SigBit.S1, by decide⟩ : fsmLinkLoop.Link 1 2))
      (⟨SigBit.wire 0, by decide⟩ : fsmLinkLoop.Link 2 1)⟩

end SVA


namespace SVA

/-! ## C30: the effect of `createEdge` and `createLink` -/

/-- C30: on a non-materialized automaton with both node ids in range,
`createEdge(from, to, ctrl)` returns and appends exactly one entry `(to, c)` to the edge
list of node `from`; it changes no other edge list, no link list, not the number of nodes
and no other member of the automaton. `createLink` does the same on the link lists. The
control `c` is `ctrl` when the throughout signal is the constant 1, the throughout signal
when it is not and `ctrl` is the constant 1, and `throughout AND ctrl` otherwise. With a
node id outside `[0, number of nodes)` either call fails its assertion. -/
theorem createEdge_createLink_effect (fsm : SvaFsm) (u v : Nat) (ctrl : SigBit)
    (hm : fsm.materialized = false) (hu : u < fsm.nodes.length) (hv : v < fsm.nodes.length) :
    (∃ f2, fsm.createEdge u v ctrl = Except.ok f2 ∧ fsm.NodesOnly f2 ∧
      f2.nodes.length = fsm.nodes.length ∧
      f2.edgesOf u = fsm.edgesOf u ++ [(v, fsm.throughout_ctrl ctrl)] ∧
      (∀ i, i ≠ u → f2.edgesOf i = fsm.edgesOf i) ∧
      (∀ i, f2.linksOf i = fsm.linksOf i)) ∧
    (∃ f2, fsm.createLink u v ctrl = Except.ok f2 ∧ fsm.NodesOnly f2 ∧
      f2.nodes.length = fsm.nodes.length ∧
      f2.linksOf u = fsm.linksOf u ++ [(v, fsm.throughout_ctrl ctrl)] ∧
      (∀ i, i ≠ u → f2.linksOf i = fsm.linksOf i) ∧
      (∀ i, f2.edgesOf i = fsm.edgesOf i)) ∧
    ((fsm.throughout_sig = SigBit.S1 → fsm.throughout_ctrl ctrl = ctrl) ∧
      (fsm.throughout_sig ≠ SigBit.S1 → ctrl = SigBit.S1 →
        fsm.throughout_ctrl ctrl = fsm.throughout_sig) ∧
      (fsm.throughout_sig ≠ SigBit.S1 → ctrl ≠ SigBit.S1 →
        fsm.throughout_ctrl ctrl = SigBit.and fsm.throughout_sig ctrl)) ∧
    (∀ a b : Int, ¬ (0 ≤ a ∧ a < fsm.nodes.length) ∨ ¬ (0 ≤ b ∧ b < fsm.nodes.length) →
      fsm.createEdge a b ctrl = Except.error Failure.log_assert ∧
      fsm.createLink a b ctrl = Except.error Failure.log_assert) := by
  refine ⟨⟨_, createEdge_ok fsm u v ctrl hm hu hv, nodesOnly_withEdge _ _ _ _,
      length_withEdge _ _ _ _, ?_, ?_, fun i => linksOf_withEdge _ _ _ _ i⟩,
    ⟨_, createLink_ok fsm u v ctrl hm hu hv, nodesOnly_withLink _ _ _ _,
      length_withLink _ _ _ _, ?_, ?_, fun i => edgesOf_withLink _ _ _ _ i⟩,
    throughout_ctrl_cases fsm ctrl, ?_⟩
  · rw [edgesOf_withEdge _ _ _ _ _ hu, if_pos rfl]
  · intro i hi
    rw [edgesOf_withEdge _ _ _ _ _ hu, if_neg hi, List.append_nil]
  · rw [linksOf_withLink _ _ _ _ _ hu, if_pos rfl]
  · intro i hi
    rw [linksOf_withLink _ _ _ _ _ hu, if_neg hi, List.append_nil]
  · intro a b h
    exact ⟨createEdge_abort fsm a b ctrl (Or.inr h), createLink_abort fsm a b ctrl (Or.inr h)⟩

/-- Witness for C30: an edge from node 2 to node 4 of the automaton of `e[*2:4]`. -/
theorem createEdge_createLink_effect_witness :
    fsmRepeat24.materialized = false ∧ 2 < fsmRepeat24.nodes.length ∧
    4 < fsmRepeat24.nodes.length ∧
    ∃ f2, fsmRepeat24.createEdge 2 4 (SigBit.wire 5) = Except.ok f2 ∧
      f2.edgesOf 2 = fsmRepeat24.edgesOf 2 ++ [(4, SigBit.wire 5)] :=
  ⟨rfl, by decide, by decide,
    (createEdge_createLink_effect fsmRepeat24 2 4 (SigBit.wire 5) rfl (by decide)
      (by decide)).1.elim (fun f2 h => ⟨f2, h.1, h.2.2.2.1⟩)⟩

end SVA


namespace SVA

/-! ## C21: a plain sequence as property body -/

/-- C21 (what the code does): for a property body whose top primitive is a sequence
operator (sequence concatenation, consecutive repetition, sequence-or or throughout),
`import` in assert or assume mode builds no automaton: in strict mode it fails with the
error for unsupported primitives, and in permissive mode it returns the module as it is,
without checker cell. -/
theorem import_plain_sequence (net : SvaNet) (m : Module) (h : net.is_sequence_op = true) :
    import_sva_assert false (some net) m =
      Except.error (Failure.log_error unsupported_error) ∧
    import_sva_assume false (some net) m =
      Except.error (Failure.log_error unsupported_error) ∧
    import_sva_assert true (some net) m = Except.ok m ∧
    import_sva_assume true (some net) m = Except.ok m := by
  cases net <;> first
    | (cases h; done)
    | exact ⟨rfl, rfl, rfl, rfl⟩

/-- Witness for C21: the property body `a ##1 b`. -/
theorem import_plain_sequence_witness :
    import_sva_assert false (some concatAB) {} =
      Except.error (Failure.log_error unsupported_error) ∧
    import_sva_assume false (some concatAB) {} =
      Except.error (Failure.log_error unsupported_error) ∧
    import_sva_assert true (some concatAB) {} = Except.ok {} ∧
    import_sva_assume true (some concatAB) {} = Except.ok {} :=
  import_plain_sequence concatAB {} rfl

end SVA


namespace SVA

/-! ## C23: the order of the sub-passes of `memory` -/

/-- C23 (what the code does): for every argument list that `extra_args` accepts, the
`memory` pass calls `opt_mem`, `memory_dff` (unless `-nordff` or `-memx`), `opt_clean`,
`memory_share` with `-nowide` and `-nosat` forwarded, `memory_memx` (with `-memx`),
`opt_clean`, `memory_collect`, `memory_bram` with its rules (with `-bram`) and `memory_map`
(unless `-nomap`), in this order. This is the order of the help text exactly when `-memx`
is not given: with `-memx`, `memory_memx` is called before the second `opt_clean`, not
after it. An argument list that `extra_args` refuses calls no sub-pass. -/
theorem memory_pass_order (extra_args : List String → Nat → Except Failure Unit)
    (args : List String) :
    (∀ e, extra_args args (MemoryPass.argidx args) = Except.error e →
      MemoryPass.execute extra_args args = Except.error e) ∧
    (extra_args args (MemoryPass.argidx args) = Except.ok () →
      MemoryPass.execute extra_args args = Except.ok
        (["opt_mem"] ++
          (if (MemoryPass.flags args).flag_nordff then [] else ["memory_dff"]) ++
          ["opt_clean"] ++
          ["memory_share" ++ (if (MemoryPass.flags args).flag_nowide then " -nowide" else "") ++
            (if (MemoryPass.flags args).flag_nosat then " -nosat" else "")] ++
          (if (MemoryPass.flags args).flag_memx then ["memory_memx"] else []) ++
          ["opt_clean"] ++
          ["memory_collect"] ++
          (if (MemoryPass.flags args).memory_bram_opts.isEmpty then []
           else ["memory_bram" ++ (MemoryPass.flags args).memory_bram_opts]) ++
          (if (MemoryPass.flags args).flag_nomap then [] else ["memory_map"])) ∧
      ((MemoryPass.flags args).flag_memx = false →
        MemoryPass.execute extra_args args =
          Except.ok (MemoryPass.help_order (MemoryPass.flags args))) ∧
      ((MemoryPass.flags args).flag_memx = true →
        MemoryPass.execute extra_args args ≠
          Except.ok (MemoryPass.help_order (MemoryPass.flags args)))) := by
  constructor
  · intro e he
    unfold MemoryPass.execute
    unfold MemoryPass.argidx at he
    simp only
    rw [he]
    rfl
  · intro hok
    have hex : MemoryPass.execute extra_args args = Except.ok
        (["opt_mem"] ++
          (if (MemoryPass.flags args).flag_nordff then [] else ["memory_dff"]) ++
          ["opt_clean"] ++
          ["memory_share" ++ (if (MemoryPass.flags args).flag_nowide then " -nowide" else "") ++
            (if (MemoryPass.flags args).flag_nosat then " -nosat" else "")] ++
          (if (MemoryPass.flags args).flag_memx then ["memory_memx"] else []) ++
          ["opt_clean"] ++
          ["memory_collect"] ++
          (if (MemoryPass.flags args).memory_bram_opts.isEmpty then []
           else ["memory_bram" ++ (MemoryPass.flags args).memory_bram_opts]) ++
          (if (MemoryPass.flags args).flag_nomap then [] else ["memory_map"])) := by
      unfold MemoryPass.execute
      unfold MemoryPass.argidx at hok
      unfold MemoryPass.flags
      simp only
      rw [hok]
      generalize (MemoryPass.parse_args (List.drop 1 args) 1 {}).1 = f
      obtain ⟨a, b, c, d, e, g⟩ := f
      cases a <;> cases b <;> cases c <;> cases d <;> cases e <;>
        cases hg : g.isEmpty <;> simp [Pass.call, hg]
    refine ⟨hex, ?_, ?_⟩
    · intro hx
      rw [hex]
      unfold MemoryPass.help_order
      rw [hx]
      simp
    · intro hx heq
      rw [hex] at heq
      have h2 := Except.ok.inj heq
      unfold MemoryPass.help_order at h2
      rw [hx] at h2
      simp at h2

/-- Witness for C23: `memory -memx` with every selection accepted. -/
theorem memory_pass_order_witness :
    MemoryPass.execute (fun _ _ => Except.ok ()) ["memory", "-memx"] =
      Except.ok ["opt_mem", "opt_clean", "memory_share -nowide", "memory_memx", "opt_clean",
        "memory_collect", "memory_map"] ∧
    MemoryPass.help_order (MemoryPass.flags ["memory", "-memx"]) =
      ["opt_mem", "opt_clean", "memory_share -nowide", "opt_clean", "memory_memx",
        "memory_collect", "memory_map"] ∧
    MemoryPass.execute (fun _ _ => Except.ok ()) ["memory", "-memx"] ≠
      Except.ok (MemoryPass.help_order (MemoryPass.flags ["memory", "-memx"])) :=
  ⟨((memory_pass_order (fun _ _ => Except.ok ()) ["memory", "-memx"]).2 rfl).1, by decide,
    ((memory_pass_order (fun _ _ => Except.ok ()) ["memory", "-memx"]).2 rfl).2.2 (by decide)⟩

end SVA


namespace SVA

/-! ## C22: the signal returned by `getAccept` -/

/-- C22 (as stated, refuted): for the automaton of the sequence `a` (net 0, trigger
constant 1) `getAccept` returns a signal that is not the storage bit of the accept node:
on the trace on which every net is 1 the returned signal is 1 at cycle 0, while the
storage bit of the accept node (the state wire 1) is 0. -/
theorem getAccept_storage_bit_counterexample :
    ∃ m2 fsm2 acc,
      build_fsm false SigBit.S1 (SvaNet.expr (SigBit.wire 0)) false = Except.ok fsmExpr ∧
      fsmExpr.getAccept {} = Except.ok (m2, fsm2, acc) ∧
      acc ≠ SigBit.auto fsmExpr.acceptNode ∧
      m2.value (fun _ _ => true) 0 acc = true ∧
      m2.value (fun _ _ => true) 0 (SigBit.auto fsmExpr.acceptNode) = false :=
  ⟨_, _, _, rfl, rfl, by decide, rfl, rfl⟩

/-- C22 (amended): on a well-formed, non-materialized automaton with acyclic links,
`getAccept` returns the state signal of the accept node after link resolution, and stores
it in `final_accept_sig`. In every cycle this signal is true iff the accept node is enabled
(disable is false, and the storage bit of the accept node is set or the accept node is the
start node and the trigger is true), or some node whose state signal after link resolution
is true has a link to the accept node whose control is true. -/
theorem getAccept_returns_linked_state (fsm : SvaFsm) (m : Module) (hwf : fsm.WellFormed)
    (hac : fsm.Acyclic) (hmat : fsm.materialized = false) :
    ∃ m2 fsm2 acc order, fsm.getAccept m = Except.ok (m2, fsm2, acc) ∧
      fsm.link_orders = Except.ok order ∧
      acc = (fsm.linked_state_sigs m.nwires order).getD fsm.acceptNode SigBit.S0 ∧
      fsm2.final_accept_sig = acc ∧
      ∀ (env : Nat → Nat → Bool) (t : Nat),
        (m2.value env t acc = true ↔
          (m2.value env t fsm.disable_sig = false ∧
            (m2.value env t (SigBit.auto (m.nwires + fsm.acceptNode)) = true ∨
              (fsm.acceptNode = fsm.startNode ∧ m2.value env t fsm.trigger_sig = true))) ∨
          ∃ u c, (fsm.acceptNode, c) ∈ fsm.linksOf u ∧
            m2.value env t ((fsm.linked_state_sigs m.nwires order).getD u SigBit.S0) = true ∧
            m2.value env t c = true) := by
  obtain ⟨m2, fsm2, order, hord, hget, hsem⟩ := getAccept_circuit fsm m hwf hac hmat
  have hf : fsm2.final_accept_sig =
      (fsm.linked_state_sigs m.nwires order).getD fsm.acceptNode SigBit.S0 := by
    have h2 := getAccept_eq fsm m hmat order hord
    rw [hget] at h2
    have h3 := Except.ok.inj h2
    simp only [Prod.mk.injEq] at h3
    rw [h3.2.1]
    rfl
  refine ⟨m2, fsm2, _, order, hget, hord, rfl, hf, ?_⟩
  intro env t
  obtain ⟨hact, hst⟩ := hsem env t
  rw [hact fsm.acceptNode]
  unfold SvaFsm.refActive
  rw [linkClosure_iff]
  have hq : m2.value env t (SigBit.auto (m.nwires + fsm.acceptNode)) =
      m2.qval env t (m.nwires + fsm.acceptNode) := rfl
  rw [hq, hst fsm.acceptNode hwf.2.1]
  constructor
  · rintro (h | ⟨u, c, hu, hl, hc⟩)
    · exact Or.inl h
    · exact Or.inr ⟨u, c, hl, (hact u).2 hu, hc⟩
  · rintro (h | ⟨u, c, hl, hu, hc⟩)
    · exact Or.inl h
    · exact Or.inr ⟨u, c, (hact u).1 hu, hl, hc⟩

/-- Witness for C22: the automaton of `e[*2:4]`. -/
theorem getAccept_returns_linked_state_witness :
    fsmRepeat24.WellFormed ∧ fsmRepeat24.Acyclic ∧ fsmRepeat24.materialized = false ∧
    ∃ m2 fsm2 acc order, fsmRepeat24.getAccept {} = Except.ok (m2, fsm2, acc) ∧
      fsmRepeat24.link_orders = Except.ok order ∧ fsm2.final_accept_sig = acc :=
  ⟨wellFormed_of_wellFormedb _ (by decide),
    acyclic_of_rankedb _ [0, 4, 1, 0, 1, 0, 2, 0, 3] (by decide), rfl,
    (getAccept_returns_linked_state fsmRepeat24 {}
      (wellFormed_of_wellFormedb _ (by decide))
      (acyclic_of_rankedb _ [0, 4, 1, 0, 1, 0, 2, 0, 3] (by decide)) rfl).elim
      (fun m2 h => h.elim (fun fsm2 h => h.elim (fun acc h => h.elim (fun order h =>
        ⟨m2, fsm2, acc, order, h.1, h.2.1, h.2.2.2.1⟩))))⟩

/-! ## C24: the disable signal -/

/-- C24: after `pushDisable(sig)` the disable signal of the automaton is true in every
cycle in which `sig` (or the disable signal installed before) is true. On a well-formed,
non-materialized automaton with acyclic links `getAccept` returns, and in every cycle in
which the disable signal is true the state signal of every node is false after link
resolution, the returned accept signal is false, and no storage bit is set in the next
cycle. -/
theorem getAccept_disable (fsm : SvaFsm) (m : Module) (hwf : fsm.WellFormed)
    (hac : fsm.Acyclic) (hmat : fsm.materialized = false) :
    (∀ (fsm0 : SvaFsm) (sig : SigBit), fsm0.pushDisable sig = Except.ok fsm →
      ∀ inp q : Nat → Bool,
      fsm.disable_sig.eval inp q = (fsm0.disable_sig.eval inp q || sig.eval inp q)) ∧
    ∃ m2 fsm2 acc order, fsm.getAccept m = Except.ok (m2, fsm2, acc) ∧
      fsm.link_orders = Except.ok order ∧
      ∀ (env : Nat → Nat → Bool) (t : Nat), m2.value env t fsm.disable_sig = true →
        (∀ w, m2.value env t
          ((fsm.linked_state_sigs m.nwires order).getD w SigBit.S0) = false) ∧
        m2.value env t acc = false ∧
        ∀ v, v < fsm.nodes.length → m2.qval env (t + 1) (m.nwires + v) = false := by
  refine ⟨fun fsm0 sig h inp q => pushDisable_eval fsm0 fsm sig h inp q, ?_⟩
  obtain ⟨m2, fsm2, order, hord, hget, hsem⟩ := getAccept_circuit fsm m hwf hac hmat
  refine ⟨m2, fsm2, _, order, hget, hord, ?_⟩
  intro env t hdis
  have hE : ∀ w, ¬ fsm.refEnabled (m2.value env) t w := by
    intro w hw
    have := hw.1
    rw [hdis] at this
    cases this
  have hA : ∀ w, ¬ fsm.refActive (m2.value env) t w :=
    fun w => linkClosure_empty fsm _ _ hE w
  have hoff : ∀ w, m2.value env t
      ((fsm.linked_state_sigs m.nwires order).getD w SigBit.S0) = false := by
    intro w
    cases hv : m2.value env t ((fsm.linked_state_sigs m.nwires order).getD w SigBit.S0) with
    | false => rfl
    | true => exact absurd (((hsem env t).1 w).1 hv) (hA w)
  refine ⟨hoff, hoff fsm.acceptNode, ?_⟩
  intro v hv
  cases hq : m2.qval env (t + 1) (m.nwires + v) with
  | false => rfl
  | true =>
    have hs := ((hsem env (t + 1)).2 v hv).1 hq
    rw [refStored_succ] at hs
    obtain ⟨u, c, hu, _, _⟩ := hs
    exact absurd hu (hA u)

/-- Witness for C24: the automaton of `e[*2:4]` with the net 1 installed as disable. -/
theorem getAccept_disable_witness :
    fsmDisabled.WellFormed ∧ fsmDisabled.Acyclic ∧ fsmDisabled.materialized = false ∧
    fsmRepeat24.pushDisable (SigBit.wire 1) = Except.ok fsmDisabled ∧
    ∃ m2 fsm2 acc order, fsmDisabled.getAccept {} = Except.ok (m2, fsm2, acc) ∧
      fsmDisabled.link_orders = Except.ok order ∧
      ∀ (env : Nat → Nat → Bool) (t : Nat), m2.value env t fsmDisabled.disable_sig = true →
        m2.value env t acc = false :=
  ⟨wellFormed_of_wellFormedb _ (by decide),
    acyclic_of_rankedb _ [0, 4, 1, 0, 1, 0, 2, 0, 3] (by decide), rfl, rfl,
    (getAccept_disable fsmDisabled {}
      (wellFormed_of_wellFormedb _ (by decide))
      (acyclic_of_rankedb _ [0, 4, 1, 0, 1, 0, 2, 0, 3] (by decide)) rfl).2.elim
      (fun m2 h => h.elim (fun fsm2 h => h.elim (fun acc h => h.elim (fun order h =>
        ⟨m2, fsm2, acc, order, h.1, h.2.1, fun env t hd => (h.2.2 env t hd).2.1⟩))))⟩

end SVA


namespace SVA

/-! ## C25: the subsets of the deterministic automaton consist of reachable nodes -/

/-- C25: on a link-free automaton without marks whose edge targets are in range,
`mark_reachable_unode(start)` returns, keeps edges and accept entries, and marks exactly
the nodes reachable from `start` along edges. On the marked automaton, for either value of
`firstmatch` and from the empty dictionary, `create_dnode({start})` never fails the
assertion that every member of a subset is reachable (with a depth of `2^n + 1` it returns
or stops at the 10-bit guard), and when it returns, every key of `dnodes` and every edge
target stored in a deterministic node is a non-empty, strictly increasing list of ids of
nodes that are reachable from `start`. -/
theorem create_dnode_reachable (U0 : List SvaUFsmNode) (start : Nat)
    (hs : start < U0.length)
    (hR : ∀ j, ∀ e ∈ (U0.getD j default).edges, e.1 < U0.length)
    (hun : ∀ j, (U0.getD j default).reachable = false) :
    ∃ U, mark_reachable_unode (U0.length + 1) U0 start = Except.ok U ∧
      U.length = U0.length ∧
      (∀ j, (U.getD j default).edges = (U0.getD j default).edges ∧
        (U.getD j default).accept = (U0.getD j default).accept) ∧
      (∀ j, (U.getD j default).reachable = true ↔ UReach U0 start j) ∧
      ∀ (fm : Bool),
        (∀ fuel, create_dnode U fuel [] [start] fm ≠ Except.error Failure.log_assert) ∧
        ((∃ d, create_dnode U (2 ^ U.length + 1) [] [start] fm = Except.ok d) ∨
          create_dnode U (2 ^ U.length + 1) [] [start] fm =
            Except.error (Failure.log_error ctrl_error)) ∧
        ∀ fuel d, create_dnode U fuel [] [start] fm = Except.ok d →
          (∀ K ∈ dict_keys d, K ≠ [] ∧ K.Sorted (fun a b => a < b) ∧
            ∀ x ∈ K, x < U.length ∧ UReach U0 start x) ∧
          (∀ it ∈ d, ∀ e ∈ it.2.edges, e.1 ≠ [] ∧ e.1.Sorted (fun a b => a < b) ∧
            ∀ x ∈ e.1, x < U.length ∧ UReach U0 start x) := by
  obtain ⟨U, hrun, hlen, hkeep, hexact, hcl⟩ := mark_reachable_exact U0 start hs hR hun
  refine ⟨U, hrun, hlen, hkeep, hexact, ?_⟩
  intro fm
  have hstart : ∀ x ∈ [start], (U.getD x default).reachable = true := by
    intro x hx
    rw [List.mem_singleton.1 hx]
    exact (hexact start).2 Relation.ReflTransGen.refl
  have hna := fun fuel => create_dnode_no_assert U fm hcl fuel [] [start] hstart
  refine ⟨hna, ?_, ?_⟩
  · rcases create_dnode_outcomes U fm (2 ^ U.length + 1) [] [start] _
      (List.sorted_singleton start) (good_powerset U []) (card_powerset_lt _ _ (by omega)) with
      h | ⟨e, he, h1 | h1⟩
    · exact Or.inl h
    · rw [h1] at he
      exact Or.inr he
    · rw [h1] at he
      exact absurd he (hna _)
  · intro fuel d hd
    obtain ⟨hnd, hgood, _⟩ := create_dnode_count U fm fuel [start] d
      (List.sorted_singleton start) (List.cons_ne_nil _ _) hd
    have hkeys : ∀ K ∈ dict_keys d, K ≠ [] ∧ K.Sorted (fun a b => a < b) ∧
        ∀ x ∈ K, x < U.length ∧ UReach U0 start x := by
      intro K hK
      obtain ⟨h1, h2, h3⟩ := hgood K hK
      exact ⟨h1, h2, fun x hx => ⟨(h3 x hx).1, (hexact x).1 (h3 x hx).2⟩⟩
    refine ⟨hkeys, ?_⟩
    intro it hit e he
    obtain ⟨_, _, _, hnew⟩ := create_dnode_inv U fm fuel [] [start] d hd
    have hat := dict_at_of_mem d it.1 it.2 hnd hit
    exact hkeys e.1 ((hnew it.1 (by simp [dict_keys]) it.2 hat).2 e he)

/-- Witness for C25: the automaton `unodesLoop`, which has a cycle of edges and a node
that is not reachable from node 0. -/
theorem create_dnode_reachable_witness :
    0 < unodesLoop.length ∧
    (∀ j, ∀ e ∈ (unodesLoop.getD j default).edges, e.1 < unodesLoop.length) ∧
    (∀ j, (unodesLoop.getD j default).reachable = false) ∧
    mark_reachable_unode (unodesLoop.length + 1) unodesLoop 0 = Except.ok unodesLoopMarked ∧
    (∃ d, create_dnode unodesLoopMarked 17 [] [0] true = Except.ok d ∧
      dict_keys d = [[0], [1], [2], [1, 2]]) ∧
    ∃ U, mark_reachable_unode (unodesLoop.length + 1) unodesLoop 0 = Except.ok U ∧
      (∀ j, (U.getD j default).reachable = true ↔ UReach unodesLoop 0 j) ∧
      ∀ fuel, create_dnode U fuel [] [0] true ≠ Except.error Failure.log_assert :=
  ⟨by decide, edges_in_range_spec _ (by decide), unmarked_spec _ (by decide), rfl,
    ⟨_, rfl, rfl⟩,
    (create_dnode_reachable unodesLoop 0 (by decide) (edges_in_range_spec _ (by decide))
      (unmarked_spec _ (by decide))).elim
      (fun U h => ⟨U, h.1, h.2.2.2.1, (h.2.2.2.2 true).1⟩)⟩

/-! ## C28: the subset construction terminates -/

/-- C28: on every link-free automaton, also one whose edges form cycles, and for either
value of `firstmatch`, `create_dnode` started on a non-empty strictly increasing subset with
a recursion depth above `2^n` never exhausts the depth: from any dictionary it returns,
stops at the 10-bit guard, or fails the assertion on a member that is not marked; when the
marks are closed under edges and the members of the subset are marked, it returns or stops
at the guard. A subset that is already a key is not constructed again, and the dictionary
built from the empty one has distinct keys and at most `2^n - 1` nodes, `n` being the number
of nodes of the link-free automaton. -/
theorem create_dnode_terminates (U : List SvaUFsmNode) (fm : Bool) (S : List Nat)
    (fuel : Nat) (hsort : S.Sorted (fun a b => a < b)) (hne : S ≠ [])
    (hfuel : 2 ^ U.length < fuel) :
    (∀ d0, (∃ d, create_dnode U fuel d0 S fm = Except.ok d) ∨
      create_dnode U fuel d0 S fm = Except.error (Failure.log_error ctrl_error) ∨
      create_dnode U fuel d0 S fm = Except.error Failure.log_assert) ∧
    (MarksClosed U [] → (∀ x ∈ S, (U.getD x default).reachable = true) →
      ∀ d0, (∃ d, create_dnode U fuel d0 S fm = Except.ok d) ∨
        create_dnode U fuel d0 S fm = Except.error (Failure.log_error ctrl_error)) ∧
    (∀ d0 K, K ∈ dict_keys d0 → create_dnode U fuel d0 K fm = Except.ok d0) ∧
    (∀ d, create_dnode U fuel [] S fm = Except.ok d →
      (dict_keys d).Nodup ∧ d.length ≤ 2 ^ U.length - 1) := by
  have hout : ∀ d0, (∃ d, create_dnode U fuel d0 S fm = Except.ok d) ∨
      create_dnode U fuel d0 S fm = Except.error (Failure.log_error ctrl_error) ∨
      create_dnode U fuel d0 S fm = Except.error Failure.log_assert := by
    intro d0
    rcases create_dnode_outcomes U fm fuel d0 S _ hsort (good_powerset U d0)
      (card_powerset_lt _ _ hfuel) with h | ⟨e, he, h1 | h1⟩
    · exact Or.inl h
    · rw [h1] at he
      exact Or.inr (Or.inl he)
    · rw [h1] at he
      exact Or.inr (Or.inr he)
  refine ⟨hout, ?_, ?_, ?_⟩
  · intro hcl hS d0
    rcases hout d0 with h | h | h
    · exact Or.inl h
    · exact Or.inr h
    · exact absurd h (create_dnode_no_assert U fm hcl fuel d0 S hS)
  · intro d0 K hK
    obtain ⟨k, rfl⟩ : ∃ k, fuel = k + 1 := ⟨fuel - 1, by
      have : 0 < 2 ^ U.length := Nat.two_pow_pos _
      omega⟩
    rw [create_dnode_succ, if_pos ((dict_count_ne_zero_iff d0 K).2 hK)]
  · intro d hd
    obtain ⟨hnd, _, hcount⟩ := create_dnode_count U fm fuel S d hsort hne hd
    exact ⟨hnd, hcount⟩

/-- Witness for C28: the marked automaton `unodesLoopMarked`, whose node 1 has an edge to
itself; the construction returns four deterministic nodes. -/
theorem create_dnode_terminates_witness :
    List.Sorted (fun a b => a < b) [0] ∧ 2 ^ unodesLoopMarked.length < 17 ∧
    MarksClosed unodesLoopMarked [] ∧
    (∃ d, create_dnode unodesLoopMarked 17 [] [0] true = Except.ok d ∧ d.length = 4) ∧
    ((∃ d, create_dnode unodesLoopMarked 17 [] [0] true = Except.ok d) ∨
      create_dnode unodesLoopMarked 17 [] [0] true =
        Except.error (Failure.log_error ctrl_error)) ∧
    ∀ d, create_dnode unodesLoopMarked 17 [] [0] true = Except.ok d →
      (dict_keys d).Nodup ∧ d.length ≤ 2 ^ unodesLoopMarked.length - 1 :=
  ⟨List.sorted_singleton 0, by decide, marks_closed_spec _ (by decide), ⟨_, rfl, rfl⟩,
    (create_dnode_terminates unodesLoopMarked true [0] 17 (List.sorted_singleton 0)
      (List.cons_ne_nil _ _) (by decide)).2.1 (marks_closed_spec _ (by decide))
      (by decide) [],
    (create_dnode_terminates unodesLoopMarked true [0] 17 (List.sorted_singleton 0)
      (List.cons_ne_nil _ _) (by decide)).2.2.2⟩

end SVA


namespace SVA

/-! ## C27: the dictionary of deterministic nodes is closed under edges -/

/-- C27: when `create_dnode({start}, f)` returns from the empty dictionary, the start
subset is a key; every entry is the node constructed for its key and differs from the
placeholder; the target of every edge of every entry is a key whose lookup succeeds and
yields an entry of the dictionary. Hence the second loop of the circuit construction of
`getReject` returns, and `getReject` started with an empty dictionary never fails a lookup.
Calling `create_dnode` again on a key returns the dictionary unchanged. -/
theorem create_dnode_closed (U : List SvaUFsmNode) (fm : Bool) (fuel : Nat) (S : List Nat)
    (d : List (List Nat × SvaDFsmNode)) (h : create_dnode U fuel [] S fm = Except.ok d) :
    S ∈ dict_keys d ∧
    (∀ it ∈ d,
      (∃ raw, dnode_ctrl_raw U it.1 = Except.ok raw ∧
        it.2 = dnode_of_ctrl U fm it.1 (sort_and_unify raw)) ∧
      it.2 ≠ default ∧
      ∀ e ∈ it.2.edges, ∃ dn, dict_at d e.1 = some dn ∧ (e.1, dn) ∈ d) ∧
    (∀ (fsm : SvaFsm) (m : Module) (wa : Bool),
      ∃ r, reject_activations wa (fsm.reject_state_signals m (dict_sort d)).2 =
        Except.ok r) ∧
    (∀ (fsm : SvaFsm) (m : Module) (wa : Bool), fsm.dnodes = [] →
      fsm.getReject m wa ≠ Except.error Failure.out_of_range) ∧
    (∀ K ∈ dict_keys d, ∀ (fuel2 : Nat) (fm2 : Bool),
      create_dnode U (fuel2 + 1) d K fm2 = Except.ok d) := by
  obtain ⟨_, hS, hent⟩ := create_dnode_entries U fm fuel S d h
  refine ⟨hS, ?_, ?_, ?_, ?_⟩
  · intro it hit
    obtain ⟨⟨raw, hraw, _, heq⟩, hcl⟩ := hent it hit
    refine ⟨⟨raw, hraw, heq⟩, ?_, ?_⟩
    · rw [heq]
      exact dnode_of_ctrl_ne_default U fm it.1 _
    · intro e he
      cases hat : dict_at d e.1 with
      | none => exact absurd (hcl e he) ((dict_at_eq_none_iff d e.1).1 hat)
      | some dn => exact ⟨dn, rfl, mem_of_dict_at d e.1 dn hat⟩
  · intro fsm m wa
    exact reject_activations_ok U fm fuel S d h fsm m wa
  · intro fsm m wa hdn
    exact getReject_lookup fsm m wa hdn
  · intro K hK fuel2 fm2
    rw [create_dnode_succ, if_pos ((dict_count_ne_zero_iff d K).2 hK)]

/-- Witness for C27: the link-free automaton of `e[*2:4]`. -/
theorem create_dnode_closed_witness :
    create_dnode unodesRepeat24 9 [] [0] true = Except.ok dnodesRepeat24 ∧
    [0] ∈ dict_keys dnodesRepeat24 ∧
    (∀ it ∈ dnodesRepeat24, it.2 ≠ default ∧
      ∀ e ∈ it.2.edges, ∃ dn, dict_at dnodesRepeat24 e.1 = some dn ∧
        (e.1, dn) ∈ dnodesRepeat24) ∧
    create_dnode unodesRepeat24 1 dnodesRepeat24 [3] true = Except.ok dnodesRepeat24 :=
  ⟨rfl, (create_dnode_closed unodesRepeat24 true 9 [0] dnodesRepeat24 rfl).1,
    fun it hit =>
      ((create_dnode_closed unodesRepeat24 true 9 [0] dnodesRepeat24 rfl).2.1 it hit).2,
    (create_dnode_closed unodesRepeat24 true 9 [0] dnodesRepeat24 rfl).2.2.2.2 [3]
      (by decide) 0 true⟩

end SVA


namespace SVA

/-! ## C26: the valuations of a deterministic node form a partition -/

/-- C26: when `getReject`, started with an empty dictionary, returns, every node of the
stored deterministic automaton with control vector `ctrl` has `2^|ctrl|` entries in its
edges, accept list and reject list together; their valuations are pairwise distinct across
the three lists, and a list of bits is among them iff it has `|ctrl|` bits: every valuation
occurs exactly once, in exactly one of the lists. In particular two edges of a node with the
same valuation are the same edge. When the trigger is true at no cycle other than cycle 0,
at most one node has its state signal true, and at most one state register is set, in any
cycle. -/
theorem getReject_partition (fsm : SvaFsm) (m : Module) (wa : Bool) (m2 : Module)
    (fsm2 : SvaFsm) (rej : SigBit) (accO : Option SigBit) (hdn : fsm.dnodes = [])
    (h : fsm.getReject m wa = Except.ok (m2, fsm2, rej, accO)) :
    (∀ it ∈ fsm2.dnodes,
      (it.2.edges.map Prod.snd ++ it.2.accept ++ it.2.reject).length = 2 ^ it.2.ctrl.length ∧
      (it.2.edges.map Prod.snd ++ it.2.accept ++ it.2.reject).Nodup ∧
      (∀ v : List Bool, v ∈ it.2.edges.map Prod.snd ++ it.2.accept ++ it.2.reject ↔
        v.length = it.2.ctrl.length) ∧
      (∀ e1 ∈ it.2.edges, ∀ e2 ∈ it.2.edges, e1.2 = e2.2 → e1 = e2)) ∧
    (∀ env : Nat → Nat → Bool, (∀ t, m2.value env t fsm.trigger_sig = true → t = 0) →
      ∀ t, ∀ it1 ∈ fsm2.dnodes, ∀ it2 ∈ fsm2.dnodes,
        (m2.value env t it1.2.statesig = true → m2.value env t it2.2.statesig = true →
          it1 = it2) ∧
        (m2.qval env t it1.2.ffoutwire = true → m2.qval env t it2.2.ffoutwire = true →
          it1 = it2)) := by
  obtain ⟨U, D, _, hC, hD, _⟩ := getReject_circuit_dnodes fsm m wa m2 fsm2 rej accO hdn h
  constructor
  · intro it hit
    rw [hD] at hit
    obtain ⟨it0, h0, _, hc, he, ha, hr, _, _, _⟩ := mem_add_next _ _ it hit
    obtain ⟨⟨raw, _, _, hctrl, hedges, haccept, hreject⟩, _⟩ := hC.2.2.1 it0 h0
    have hperm := dnode_of_ctrl_perm U it0.1 (sort_and_unify raw)
    rw [← hedges, ← haccept, ← hreject, ← he, ← ha, ← hr, ← hctrl, ← hc] at hperm
    refine ⟨?_, ?_, ?_, ?_⟩
    · rw [hperm.length_eq, List.length_map, List.length_range]
    · exact hperm.nodup_iff.2 (valuations_nodup _)
    · intro v
      rw [hperm.mem_iff]
      exact mem_valuations _ v
    · rw [he, hedges]
      exact dnode_of_ctrl_deterministic U true it0.1 _
  · intro env htrig t it1 h1 it2 h2
    rw [hD] at h1 h2
    obtain ⟨a, ha, hk1, _, _, _, _, hs1, hw1, e1⟩ := mem_add_next _ _ it1 h1
    obtain ⟨b, hb, hk2, _, _, _, _, hs2, hw2, e2⟩ := mem_add_next _ _ it2 h2
    have huniq : m2.value env t a.2.statesig = true → m2.value env t b.2.statesig = true →
        it1 = it2 := by
      intro s1 s2
      have hab : a = b :=
        entry_unique D hC.1 a b ha hb (dfsm_unique fsm U D m2 rej accO wa hC env htrig t a ha b hb s1 s2)
      rw [e1, e2, hab]
    constructor
    · intro s1 s2
      rw [hs1] at s1
      rw [hs2] at s2
      exact huniq s1 s2
    · intro q1 q2
      rw [hw1] at q1
      rw [hw2] at q2
      apply huniq
      · rw [statesig_value fsm U D m2 rej accO wa hC a ha env t, q1]
        rfl
      · rw [statesig_value fsm U D m2 rej accO wa hC b hb env t, q2]
        rfl

/-- Witness for C26: `getReject` on the automaton of `e[*2:4]`. -/
theorem getReject_partition_witness :
    fsmRepeat24.dnodes = [] ∧
    ∃ m2 fsm2 rej accO, fsmRepeat24.getReject {} true = Except.ok (m2, fsm2, rej, accO) ∧
      fsm2.dnodes.length = 2 ∧
      ∀ it ∈ fsm2.dnodes,
        (it.2.edges.map Prod.snd ++ it.2.accept ++ it.2.reject).length =
          2 ^ it.2.ctrl.length ∧
        (it.2.edges.map Prod.snd ++ it.2.accept ++ it.2.reject).Nodup :=
  ⟨rfl, _, _, _, _, rfl, rfl,
    fun it hit =>
      ⟨((getReject_partition fsmRepeat24 {} true _ _ _ _ rfl rfl).1 it hit).1,
        ((getReject_partition fsmRepeat24 {} true _ _ _ _ rfl rfl).1 it hit).2.1⟩⟩

end SVA


namespace SVA

/-! ## C29: the recursions over links -/

/-- C29: on an automaton whose link targets are nodes and whose links are acyclic, whatever
its edges, `make_link_order` and `node_to_unode` return from every node and every argument
within a recursion depth of the number of nodes, `getAccept` returns on a non-materialized
automaton, and `getReject` (on a well-formed automaton with empty `unodes` and `dnodes`)
returns or stops at the 10-bit guard. When a cycle of links is reachable through links from
the node they are started on, `make_link_order` and `node_to_unode` exhaust every depth
budget: the recursion never returns; then neither `getAccept` nor `getReject` returns. -/
theorem link_recursion_terminates (fsm : SvaFsm) :
    (fsm.LinksInRange → fsm.Acyclic →
      (∀ order node min, node < fsm.nodes.length →
        ∃ order', fsm.make_link_order fsm.nodes.length order node min = Except.ok order') ∧
      (∀ unodes node unode ctrl, node < fsm.nodes.length →
        ∃ unodes', fsm.node_to_unode fsm.nodes.length unodes node unode ctrl =
          Except.ok unodes') ∧
      (fsm.materialized = false → ∀ m, ∃ r, fsm.getAccept m = Except.ok r) ∧
      (fsm.WellFormed → fsm.unodes = [] → fsm.dnodes = [] → ∀ m wa,
        (∃ r, fsm.getReject m wa = Except.ok r) ∨
        fsm.getReject m wa = Except.error (Failure.log_error ctrl_error))) ∧
    (∀ node, fsm.LinkCycleFrom node →
      (∀ fuel order min,
        fsm.make_link_order fuel order node min = Except.error Failure.depth) ∧
      (∀ fuel unodes unode ctrl,
        fsm.node_to_unode fuel unodes node unode ctrl = Except.error Failure.depth) ∧
      (fsm.materialized = false → ∀ m, fsm.getAccept m = Except.error Failure.depth) ∧
      (∀ m wa, fsm.getReject m wa = Except.error Failure.depth)) := by
  constructor
  · intro hl hac
    refine ⟨?_, ?_, ?_, ?_⟩
    · intro order node min hnode
      exact make_link_order_returns hl hac _ [] order node min (List.chain'_singleton _)
        (fun x hx => by rw [List.mem_singleton.1 hx]; exact hnode) (by simp)
    · intro unodes node unode ctrl hnode
      exact node_to_unode_returns hl hac _ [] unodes node unode ctrl
        (List.chain'_singleton _)
        (fun x hx => by rw [List.mem_singleton.1 hx]; exact hnode) (by simp)
    · intro hmat m
      exact getAccept_returns hl hac hmat m
    · intro hwf hun hdn m wa
      rcases getReject_total fsm m wa hwf hac hun hdn with ⟨a, b, c, d, h⟩ | h
      · exact Or.inl ⟨_, h⟩
      · exact Or.inr h
  · intro node hcyc
    obtain ⟨u, _, hu⟩ := hcyc
    refine ⟨?_, ?_, ?_, ?_⟩
    · intro fuel order min
      exact make_link_order_cycle fsm fuel order node min ⟨u, by assumption, hu⟩
    · intro fuel unodes unode ctrl
      exact node_to_unode_cycle fsm fuel unodes node unode ctrl ⟨u, by assumption, hu⟩
    · intro hmat m
      exact getAccept_cycle fsm u hu hmat m
    · intro m wa
      exact getReject_cycle fsm u hu m wa

/-- Witness for C29: the automaton of `e[*2:4]`, whose links are acyclic, and the automaton
`fsmLinkLoop`, which four calls of the constructor functions build and whose links form a
cycle. -/
theorem link_recursion_terminates_witness :
    fsmRepeat24.LinksInRange ∧ fsmRepeat24.Acyclic ∧
    (∃ r, fsmRepeat24.getAccept {} = Except.ok r) ∧
    (∃ f1 f2 f3, (SvaFsm.new SigBit.S1).createNode = Except.ok (f1, 2) ∧
      f1.createLink 0 1 SigBit.S1 = Except.ok f2 ∧
      f2.createLink 1 2 SigBit.S1 = Except.ok f3 ∧
      f3.createLink 2 1 (SigBit.wire 0) = Except.ok fsmLinkLoop) ∧
    fsmLinkLoop.LinkCycleFrom 0 ∧
    (∀ fuel order min,
      fsmLinkLoop.make_link_order fuel order 0 min = Except.error Failure.depth) ∧
    fsmLinkLoop.getAccept {} = Except.error Failure.depth ∧
    fsmLinkLoop.getReject {} false = Except.error Failure.depth :=
  ⟨(wellFormed_of_wellFormedb fsmRepeat24 (by decide)).2.2.1,
    acyclic_of_rankedb _ [0, 4, 1, 0, 1, 0, 2, 0, 3] (by decide),
    ((link_recursion_terminates fsmRepeat24).1
      (wellFormed_of_wellFormedb fsmRepeat24 (by decide)).2.2.1
      (acyclic_of_rankedb _ [0, 4, 1, 0, 1, 0, 2, 0, 3] (by decide))).2.2.1 rfl {},
    ⟨_, _, _, rfl, rfl, rfl, rfl⟩,
    fsmLinkLoop_cycle,
    ((link_recursion_terminates fsmLinkLoop).2 0
      fsmLinkLoop_cycle).1,
    ((link_recursion_terminates fsmLinkLoop).2 0
      fsmLinkLoop_cycle).2.2.1 rfl {},
    ((link_recursion_terminates fsmLinkLoop).2 0
      fsmLinkLoop_cycle).2.2.2 {} false⟩

end SVA


namespace SVA

/-! ## Entries added to an automaton -/

theorem edgesOf_nodes (a b : SvaFsm) (h : a.nodes = b.nodes) (u : Nat) :
    a.edgesOf u = b.edgesOf u := by
  unfold SvaFsm.edgesOf
  rw [h]

theorem linksOf_nodes (a b : SvaFsm) (h : a.nodes = b.nodes) (u : Nat) :
    a.linksOf u = b.linksOf u := by
  unfold SvaFsm.linksOf
  rw [h]

theorem adds_refl (L start : Nat) (G : SigBit → Prop) (f : SvaFsm) : f.Adds L start G f :=
  ⟨nodesOnly_refl f, le_refl _, fun _ =>
    ⟨[], [], (List.append_nil _).symm, (List.append_nil _).symm,
      fun _ hp => by rcases hp with h | h <;> cases h⟩⟩

theorem adds_trans (L start : Nat) (G : SigBit → Prop) (a b c : SvaFsm)
    (h1 : a.Adds L start G b) (h2 : b.Adds L start G c) : a.Adds L start G c := by
  refine ⟨nodesOnly_trans _ _ _ h1.1 h2.1, le_trans h1.2.1 h2.2.1, ?_⟩
  intro u
  obtain ⟨e1, l1, he1, hl1, hp1⟩ := h1.2.2 u
  obtain ⟨e2, l2, he2, hl2, hp2⟩ := h2.2.2 u
  refine ⟨e1 ++ e2, l1 ++ l2, by rw [he2, he1, List.append_assoc],
    by rw [hl2, hl1, List.append_assoc], ?_⟩
  intro p hp
  have hcase : (p ∈ e1 ∨ p ∈ l1) ∨ (p ∈ e2 ∨ p ∈ l2) := by
    rcases hp with h | h
    · rcases List.mem_append.1 h with h | h
      · exact Or.inl (Or.inl h)
      · exact Or.inr (Or.inl h)
    · rcases List.mem_append.1 h with h | h
      · exact Or.inl (Or.inr h)
      · exact Or.inr (Or.inr h)
  rcases hcase with h | h
  · obtain ⟨a1, a2, a3, a4, a5⟩ := hp1 p h
    exact ⟨a1, lt_of_lt_of_le a2 h2.2.1, a3, lt_of_lt_of_le a4 h2.2.1, a5⟩
  · exact hp2 p h

theorem adds_weaken (L L' start n : Nat) (G G' : SigBit → Prop) (f f2 : SvaFsm)
    (h : f.Adds L' n G f2) (hL : L ≤ L') (hn : n = start ∨ L ≤ n) (hG : ∀ c, G c → G' c) :
    f.Adds L start G' f2 := by
  refine ⟨h.1, h.2.1, ?_⟩
  intro u
  obtain ⟨e1, l1, he1, hl1, hp1⟩ := h.2.2 u
  refine ⟨e1, l1, he1, hl1, ?_⟩
  intro p hp
  obtain ⟨a1, a2, a3, a4, a5⟩ := hp1 p hp
  refine ⟨?_, a2, ?_, a4, hG _ a5⟩
  · rcases a1 with e | e
    · rw [e]; exact hn
    · exact Or.inr (le_trans hL e)
  · rcases a3 with e | e
    · rw [e]; exact hn
    · exact Or.inr (le_trans hL e)

theorem adds_nodes (L start : Nat) (G : SigBit → Prop) (f f2 g g2 : SvaFsm)
    (h : f.Adds L start G f2) (h1 : g.nodes = f.nodes) (h2 : g2.nodes = f2.nodes)
    (hn : g.NodesOnly g2) : g.Adds L start G g2 := by
  refine ⟨hn, by rw [h1, h2]; exact h.2.1, ?_⟩
  intro u
  obtain ⟨e1, l1, he1, hl1, hp1⟩ := h.2.2 u
  refine ⟨e1, l1, ?_, ?_, ?_⟩
  · rw [edgesOf_nodes g2 f2 h2, edgesOf_nodes g f h1]; exact he1
  · rw [linksOf_nodes g2 f2 h2, linksOf_nodes g f h1]; exact hl1
  · rw [h2]; exact hp1

theorem adds_withNode (L start : Nat) (G : SigBit → Prop) (f : SvaFsm) :
    f.Adds L start G f.withNode := by
  refine ⟨nodesOnly_withNode f, by rw [length_withNode]; omega, ?_⟩
  intro u
  exact ⟨[], [], by rw [edgesOf_withNode, List.append_nil],
    by rw [linksOf_withNode, List.append_nil], fun _ hp => by rcases hp with h | h <;> cases h⟩

theorem adds_withEdge (L start : Nat) (G : SigBit → Prop) (f : SvaFsm) (u v : Nat)
    (c : SigBit) (hu : u < f.nodes.length) (hv : v < f.nodes.length)
    (hsu : u = start ∨ L ≤ u) (hsv : v = start ∨ L ≤ v) (hG : G c) :
    f.Adds L start G (f.withEdge u v c) := by
  refine ⟨nodesOnly_withEdge f u v c, by rw [length_withEdge], ?_⟩
  intro i
  refine ⟨if i = u then [(v, c)] else [], [], edgesOf_withEdge f u v c i hu,
    by rw [linksOf_withEdge, List.append_nil], ?_⟩
  intro p hp
  rcases hp with h | h
  · by_cases hi : i = u
    · rw [if_pos hi] at h
      rw [List.mem_singleton.1 h, hi, length_withEdge]
      exact ⟨hsu, hu, hsv, hv, hG⟩
    · rw [if_neg hi] at h
      cases h
  · cases h

theorem adds_withLink (L start : Nat) (G : SigBit → Prop) (f : SvaFsm) (u v : Nat)
    (c : SigBit) (hu : u < f.nodes.length) (hv : v < f.nodes.length)
    (hsu : u = start ∨ L ≤ u) (hsv : v = start ∨ L ≤ v) (hG : G c) :
    f.Adds L start G (f.withLink u v c) := by
  refine ⟨nodesOnly_withLink f u v c, by rw [length_withLink], ?_⟩
  intro i
  refine ⟨[], if i = u then [(v, c)] else [], by rw [edgesOf_withLink, List.append_nil],
    linksOf_withLink f u v c i hu, ?_⟩
  intro p hp
  rcases hp with h | h
  · cases h
  · by_cases hi : i = u
    · rw [if_pos hi] at h
      rw [List.mem_singleton.1 h, hi, length_withLink]
      exact ⟨hsu, hu, hsv, hv, hG⟩
    · rw [if_neg hi] at h
      cases h

/-- A node that is neither the start node nor new keeps its edges and links. -/
theorem adds_old (L start : Nat) (G : SigBit → Prop) (f f2 : SvaFsm)
    (h : f.Adds L start G f2) (u : Nat) (hu : u ≠ start) (hL : u < L) :
    f2.edgesOf u = f.edgesOf u ∧ f2.linksOf u = f.linksOf u := by
  obtain ⟨e1, l1, he1, hl1, hp1⟩ := h.2.2 u
  have hsrc : ∀ p, p ∈ e1 ∨ p ∈ l1 → False := by
    intro p hp
    rcases (hp1 p hp).1 with e | e
    · exact hu e
    · omega
  have h1 : e1 = [] := List.eq_nil_iff_forall_not_mem.2 (fun p hp => hsrc p (Or.inl hp))
  have h2 : l1 = [] := List.eq_nil_iff_forall_not_mem.2 (fun p hp => hsrc p (Or.inr hp))
  rw [he1, hl1, h1, h2, List.append_nil, List.append_nil]
  exact ⟨rfl, rfl⟩

theorem adds_mem_edge (L start : Nat) (G : SigBit → Prop) (f f2 : SvaFsm)
    (h : f.Adds L start G f2) (u : Nat) (p : Nat × SigBit) (hp : p ∈ f2.edgesOf u) :
    p ∈ f.edgesOf u ∨ ((u = start ∨ L ≤ u) ∧ u < f2.nodes.length ∧
      (p.1 = start ∨ L ≤ p.1) ∧ p.1 < f2.nodes.length ∧ G p.2) := by
  obtain ⟨e1, l1, he1, _, hp1⟩ := h.2.2 u
  rw [he1] at hp
  rcases List.mem_append.1 hp with h1 | h1
  · exact Or.inl h1
  · exact Or.inr (hp1 p (Or.inl h1))

theorem adds_mem_link (L start : Nat) (G : SigBit → Prop) (f f2 : SvaFsm)
    (h : f.Adds L start G f2) (u : Nat) (p : Nat × SigBit) (hp : p ∈ f2.linksOf u) :
    p ∈ f.linksOf u ∨ ((u = start ∨ L ≤ u) ∧ u < f2.nodes.length ∧
      (p.1 = start ∨ L ≤ p.1) ∧ p.1 < f2.nodes.length ∧ G p.2) := by
  obtain ⟨e1, l1, _, hl1, hp1⟩ := h.2.2 u
  rw [hl1] at hp
  rcases List.mem_append.1 hp with h1 | h1
  · exact Or.inl h1
  · exact Or.inr (hp1 p (Or.inr h1))

/-! ## Acyclic links under the mutators -/

theorem acyclic_sub (f f2 : SvaFsm) (h : ∀ u v, f.Link u v → f2.Link u v)
    (hac : f2.Acyclic) : f.Acyclic :=
  fun u hu => hac u (Relation.TransGen.mono h hu)

theorem acyclic_links (f f2 : SvaFsm) (h : ∀ u, f2.linksOf u = f.linksOf u)
    (hac : f.Acyclic) : f2.Acyclic := by
  apply acyclic_sub f2 f _ hac
  intro u v huv
  obtain ⟨c, hc⟩ := huv
  rw [h u] at hc
  exact ⟨c, hc⟩

/-- A link into a node without links, from another node, closes no cycle. -/
theorem acyclic_withLink (f : SvaFsm) (u v : Nat) (c : SigBit) (hu : u < f.nodes.length)
    (hac : f.Acyclic) (hv : f.linksOf v = []) (huv : u ≠ v) : (f.withLink u v c).Acyclic := by
  have hlink : ∀ a b, (f.withLink u v c).Link a b → f.Link a b ∨ (a = u ∧ b = v) := by
    intro a b hab
    obtain ⟨d, hd⟩ := hab
    rw [linksOf_withLink f u v c a hu] at hd
    rcases List.mem_append.1 hd with h | h
    · exact Or.inl ⟨d, h⟩
    · by_cases ha : a = u
      · rw [if_pos ha] at h
        have := List.mem_singleton.1 h
        exact Or.inr ⟨ha, (Prod.mk.inj this).1⟩
      · rw [if_neg ha] at h
        cases h
  have hsink : ∀ b, ¬ f.Link v b := by
    intro b hb
    obtain ⟨d, hd⟩ := hb
    rw [hv] at hd
    cases hd
  have key : ∀ x y, Relation.TransGen (f.withLink u v c).Link x y →
      Relation.TransGen f.Link x y ∨ y = v := by
    intro x y h
    induction h with
    | single h1 =>
      rcases hlink _ _ h1 with h2 | h2
      · exact Or.inl (Relation.TransGen.single h2)
      · exact Or.inr h2.2
    | tail _ h1 ih =>
      rcases hlink _ _ h1 with h2 | h2
      · rcases ih with h3 | h3
        · exact Or.inl (Relation.TransGen.tail h3 h2)
        · rw [h3] at h2
          exact absurd h2 (hsink _)
      · exact Or.inr h2.2
  intro x hx
  rcases key x x hx with h | h
  · exact hac x h
  · rw [h] at hx
    obtain ⟨b, hb, _⟩ := Relation.TransGen.head'_iff.1 hx
    rcases hlink _ _ hb with h2 | h2
    · exact hsink _ h2
    · exact huv h2.1.symm

/-! ## The control stored by `createEdge` and `createLink` -/

theorem guarded_throughout_ctrl (f : SvaFsm) (P : SigBit → Prop)
    (hand : ∀ a b, P a → P b → P (SigBit.and a b)) (c : SigBit) (hc : P c)
    (hT : P f.throughout_sig) : Guarded f.throughout_sig P (f.throughout_ctrl c) := by
  unfold SvaFsm.throughout_ctrl
  by_cases h1 : f.throughout_sig ≠ SigBit.S1
  · rw [if_pos h1]
    by_cases h2 : c ≠ SigBit.S1
    · rw [if_pos h2]
      refine ⟨?_, hand _ _ hT hc⟩
      intro inp q h
      simp only [SigBit.eval, Bool.and_eq_true] at h
      exact h.1
    · rw [if_neg h2]
      exact ⟨fun _ _ h => h, hT⟩
  · rw [if_neg h1]
    have h1' : f.throughout_sig = SigBit.S1 := by simpa using h1
    refine ⟨?_, hc⟩
    intro inp q _
    rw [h1']
    rfl

end SVA


namespace SVA

/-! ## The states of a run of the sequence compiler -/

theorem foldlM_inv {σ α : Type} (I : σ → Prop) (f : σ → α → Except Failure σ) (l : List α)
    (hf : ∀ s a s', I s → f s a = Except.ok s' → I s') (s s' : σ)
    (h : l.foldlM f s = Except.ok s') (hs : I s) : I s' :=
  foldlM_preserves (fun a b => I a → I b) (fun _ h => h) (fun _ _ _ h1 h2 h => h2 (h1 h))
    f l (fun s a s' _ hfa hi => hf s a s' hi hfa) s s' h hs

theorem built_sup (f0 : SvaFsm) (start : Nat) (G : SigBit → Prop) (sup sup' : Prop)
    (s : SvaFsm × Nat) (h : f0.Built start G sup s) (hs : sup' → sup) :
    f0.Built start G sup' s :=
  ⟨h.1, h.2.1, h.2.2.1, fun h' => h.2.2.2 (hs h')⟩

theorem built_trans (f0 : SvaFsm) (start : Nat) (G : SigBit → Prop) (sup sup' : Prop)
    (s s' : SvaFsm × Nat) (h1 : f0.Built start G sup s) (h2 : s.1.Built s.2 G sup' s')
    (hs : sup → sup') : f0.Built start G sup s' := by
  obtain ⟨a1, a2, a3, a4⟩ := h1
  obtain ⟨b1, b2, b3, b4⟩ := h2
  refine ⟨adds_trans _ _ _ _ _ _ a1 (adds_weaken _ _ _ _ G G _ _ b1 a1.2.1 a2 (fun _ h => h)),
    ?_, b3, ?_⟩
  · rcases b2 with e | e
    · rw [e]; exact a2
    · exact Or.inr (le_trans a1.2.1 e)
  · intro h
    obtain ⟨c1, c2, c3⟩ := b4 (hs h)
    exact ⟨le_trans a1.2.1 c1, c2, fun hac => c3 ((a4 h).2.2 hac)⟩

theorem built_throughout (f0 : SvaFsm) (start : Nat) (G : SigBit → Prop) (sup : Prop)
    (s : SvaFsm × Nat) (h : f0.Built start G sup s) (c : SigBit) :
    s.1.throughout_ctrl c = f0.throughout_ctrl c ∧ s.1.throughout_sig = f0.throughout_sig :=
  ⟨nodesOnly_throughout_ctrl _ _ h.1.1 c, (nodesOnly_throughout _ _ h.1.1).1⟩

theorem built_edge_to_new_node (f0 : SvaFsm) (start : Nat) (G : SigBit → Prop) (sup : Prop)
    (s s' : SvaFsm × Nat) (h1 : f0.Built start G sup s)
    (hG : G (f0.throughout_ctrl SigBit.S1))
    (h : edge_to_new_node s.1 s.2 = Except.ok s') :
    f0.Built start G sup s' ∧ s'.2 = s.1.nodes.length := by
  obtain ⟨f', n'⟩ := s'
  obtain ⟨_, _, hn, hf⟩ := edge_to_new_node_inv _ _ _ _ h
  obtain ⟨a1, a2, a3, a4⟩ := h1
  have hG' : G (s.1.throughout_ctrl SigBit.S1) := by
    rw [nodesOnly_throughout_ctrl _ _ a1.1]; exact hG
  subst hn hf
  refine ⟨⟨?_, Or.inr a1.2.1, ?_, ?_⟩, rfl⟩
  · refine adds_trans _ _ _ _ _ _ a1 (adds_trans _ _ _ _ _ _ (adds_withNode _ _ _ _) ?_)
    exact adds_withEdge _ _ _ _ _ _ _ (by rw [length_withNode]; omega)
      (by rw [length_withNode]; omega) a2 (Or.inr a1.2.1) hG'
  · show s.1.nodes.length < (s.1.withNode.withEdge _ _ _).nodes.length
    rw [length_withEdge, length_withNode]; omega
  · intro hs
    refine ⟨a1.2.1, ?_, fun hac => ?_⟩
    · show (s.1.withNode.withEdge _ _ _).linksOf s.1.nodes.length = []
      rw [linksOf_withEdge, linksOf_withNode]
      exact linksOf_nil_of_ge _ _ (le_refl _)
    · apply acyclic_links s.1 _ _ ((a4 hs).2.2 hac)
      intro u
      show (s.1.withNode.withEdge _ _ _).linksOf u = _
      rw [linksOf_withEdge, linksOf_withNode]

theorem built_createEdge (f0 : SvaFsm) (start : Nat) (G : SigBit → Prop) (sup : Prop)
    (s : SvaFsm × Nat) (f' : SvaFsm) (h1 : f0.Built start G sup s)
    (hG : G (f0.throughout_ctrl SigBit.S1))
    (h : s.1.createEdge s.2 s.2 SigBit.S1 = Except.ok f') :
    f0.Built start G sup (f', s.2) := by
  obtain ⟨_, hu, _, hf⟩ := createEdge_inv _ _ _ _ _ h
  obtain ⟨a1, a2, a3, a4⟩ := h1
  have hG' : G (s.1.throughout_ctrl SigBit.S1) := by
    rw [nodesOnly_throughout_ctrl _ _ a1.1]; exact hG
  subst hf
  refine ⟨adds_trans _ _ _ _ _ _ a1 (adds_withEdge _ _ _ _ _ _ _ hu hu a2 a2 hG'), a2, ?_, ?_⟩
  · show s.2 < (s.1.withEdge _ _ _).nodes.length
    rw [length_withEdge]; exact hu
  · intro hs
    obtain ⟨c1, c2, c3⟩ := a4 hs
    refine ⟨c1, ?_, fun hac => ?_⟩
    · show (s.1.withEdge _ _ _).linksOf s.2 = []
      rw [linksOf_withEdge]; exact c2
    · apply acyclic_links s.1 _ _ (c3 hac)
      intro u
      show (s.1.withEdge _ _ _).linksOf u = _
      rw [linksOf_withEdge]

/-- A link from `x` to `t` keeps the run in shape with `t` as the current node; with `sup`
the target has no links, so no cycle is closed. -/
theorem built_createLink (f0 : SvaFsm) (start : Nat) (G : SigBit → Prop) (sup : Prop)
    (f f' : SvaFsm) (x t : Nat) (c : SigBit)
    (hA : f0.Adds f0.nodes.length start G f) (hx : x = start ∨ f0.nodes.length ≤ x)
    (ht : t = start ∨ f0.nodes.length ≤ t) (hG : G (f0.throughout_ctrl c))
    (h : f.createLink x t c = Except.ok f')
    (hsup : sup → f0.nodes.length ≤ t ∧ f.linksOf t = [] ∧ x ≠ t ∧
      (f0.Acyclic → f.Acyclic)) :
    f0.Built start G sup (f', t) := by
  obtain ⟨_, hu, hv, hf⟩ := createLink_inv _ _ _ _ _ h
  have hG' : G (f.throughout_ctrl c) := by
    rw [nodesOnly_throughout_ctrl _ _ hA.1]; exact hG
  subst hf
  refine ⟨adds_trans _ _ _ _ _ _ hA (adds_withLink _ _ _ _ _ _ _ hu hv hx ht hG'), ht, ?_, ?_⟩
  · show t < (f.withLink _ _ _).nodes.length
    rw [length_withLink]; exact hv
  · intro hs
    obtain ⟨c1, c2, c3, c4⟩ := hsup hs
    refine ⟨c1, ?_, fun hac => ?_⟩
    · show (f.withLink _ _ _).linksOf t = []
      rw [linksOf_withLink _ _ _ _ _ hu, c2, if_neg (fun e => c3 e.symm)]
      rfl
    · exact acyclic_withLink f x t _ hu (c4 hac) c2 c3

theorem pushThroughout_inv (fsm f1 : SvaFsm) (e : SigBit)
    (h : fsm.pushThroughout e = Except.ok f1) :
    f1.nodes = fsm.nodes ∧
    ((fsm.throughout_sig = SigBit.S1 ∧ f1.throughout_sig = e) ∨
      (fsm.throughout_sig ≠ SigBit.S1 ∧
        f1.throughout_sig = SigBit.and fsm.throughout_sig e)) := by
  unfold SvaFsm.pushThroughout at h
  by_cases hm : fsm.materialized = true
  · rw [if_pos hm] at h; cases h
  rw [if_neg hm] at h
  by_cases hs : fsm.throughout_sig = SigBit.S1
  · simp only [hs, if_true] at h
    cases h
    exact ⟨rfl, Or.inl ⟨hs, rfl⟩⟩
  · simp only [hs, if_false] at h
    cases h
    exact ⟨rfl, Or.inr ⟨hs, rfl⟩⟩

end SVA


namespace SVA

/-! ## The frame of `parse_sequence` -/

theorem built_sub (k : Bool) (P : SigBit → Prop) (a : SvaNet)
    (IH : ∀ (fsm : SvaFsm) (start : Nat) (r : SvaFsm × Nat),
      (∀ e ∈ a.exprs, P e) → P fsm.throughout_sig → start < fsm.nodes.length →
      parse_sequence k a fsm start = Except.ok r →
      fsm.Built start (Guarded fsm.throughout_sig P) (k = false ∨ a.supported = true) r)
    (hP : ∀ e ∈ a.exprs, P e) (f0 : SvaFsm) (start : Nat) (sup : Prop)
    (s s' : SvaFsm × Nat) (hT : P f0.throughout_sig)
    (h1 : f0.Built start (Guarded f0.throughout_sig P) sup s)
    (hs : sup → (k = false ∨ a.supported = true))
    (h : parse_sequence k a s.1 s.2 = Except.ok s') :
    f0.Built start (Guarded f0.throughout_sig P) sup s' ∧
    s.1.Built s.2 (Guarded f0.throughout_sig P) (k = false ∨ a.supported = true) s' := by
  have hts := (nodesOnly_throughout _ _ h1.1.1).1
  have hloc := IH s.1 s.2 s' hP (by rw [hts]; exact hT) h1.2.2.1 h
  rw [hts] at hloc
  exact ⟨built_trans _ _ _ _ _ _ _ h1 hloc hs, hloc⟩

/-- The frame of a run of `parse_sequence`: entries are added only, from the start node or
new nodes to the start node or new nodes, each control is guarded by the throughout signal
at entry, and the returned node is the start node or a new node. For a sequence of
supported operators, or a strict importer, the returned node is new and has no links, and
acyclic links stay acyclic. -/
theorem parse_sequence_built (k : Bool) (P : SigBit → Prop)
    (hand : ∀ a b, P a → P b → P (SigBit.and a b)) (hS1 : P SigBit.S1) (net : SvaNet) :
    ∀ (fsm : SvaFsm) (start : Nat) (r : SvaFsm × Nat),
      (∀ e ∈ net.exprs, P e) → P fsm.throughout_sig → start < fsm.nodes.length →
      parse_sequence k net fsm start = Except.ok r →
      fsm.Built start (Guarded fsm.throughout_sig P) (k = false ∨ net.supported = true) r := by
  induction net with
  | expr sig =>
    intro fsm start r hP hT hstart h
    unfold parse_sequence at h
    obtain ⟨⟨f1, n1⟩, h1, h⟩ := bind_ok _ _ _ h
    simp only at h
    obtain ⟨f2, h2, h⟩ := bind_ok _ _ _ h
    cases h
    obtain ⟨_, hf1, hn1⟩ := createNode_inv _ _ _ h1
    subst hf1 hn1
    refine built_createLink fsm start _ _ fsm.withNode f2 start fsm.nodes.length sig
      (adds_withNode _ _ _ _) (Or.inl rfl) (Or.inr (le_refl _))
      (guarded_throughout_ctrl fsm P hand sig (hP sig (by simp [SvaNet.exprs])) hT) h2 ?_
    intro _
    refine ⟨le_refl _, ?_, by omega, fun hac => acyclic_links fsm _ (linksOf_withNode fsm) hac⟩
    rw [linksOf_withNode]
    exact linksOf_nil_of_ge _ _ (le_refl _)
  | seq_concat N M a b iha ihb =>
    intro fsm start r hP hT hstart h
    have hPa : ∀ e ∈ a.exprs, P e := fun e he => hP e (by simp [SvaNet.exprs, he])
    have hPb : ∀ e ∈ b.exprs, P e := fun e he => hP e (by simp [SvaNet.exprs, he])
    have hsa : (k = false ∨ (SvaNet.seq_concat N M a b).supported = true) →
        (k = false ∨ a.supported = true) := by
      rintro (h1 | h1)
      · exact Or.inl h1
      · simp only [SvaNet.supported, Bool.and_eq_true] at h1; exact Or.inr h1.1
    have hsb : (k = false ∨ (SvaNet.seq_concat N M a b).supported = true) →
        (k = false ∨ b.supported = true) := by
      rintro (h1 | h1)
      · exact Or.inl h1
      · simp only [SvaNet.supported, Bool.and_eq_true] at h1; exact Or.inr h1.2
    have hG1 := guarded_throughout_ctrl fsm P hand SigBit.S1 hS1 hT
    unfold parse_sequence at h
    obtain ⟨⟨f1, n1⟩, h1, h⟩ := bind_ok _ _ _ h
    simp only at h
    obtain ⟨⟨f2, n2⟩, h2, h⟩ := bind_ok _ _ _ h
    simp only at h
    have B1 := built_sup _ _ _ _ _ _ (iha _ _ _ hPa hT hstart h1) hsa
    have B2 := foldlM_inv (fsm.Built start (Guarded fsm.throughout_sig P)
        (k = false ∨ (SvaNet.seq_concat N M a b).supported = true)) _ _
      (fun s _ s' hI hs => (built_edge_to_new_node _ _ _ _ s s' hI hG1 hs).1) _ _ h2 B1
    cases M with
    | none =>
      simp only at h
      obtain ⟨f3, h3, h⟩ := bind_ok _ _ _ h
      have B3 := built_createEdge _ _ _ _ (f2, n2) f3 B2 hG1 h3
      exact (built_sub k P b ihb hPb fsm start _ (f3, n2) r hT B3 hsb h).1
    | some M =>
      simp only at h
      obtain ⟨⟨f3, n3⟩, h3, h⟩ := bind_ok _ _ _ h
      have B3 := foldlM_inv (fsm.Built start (Guarded fsm.throughout_sig P)
          (k = false ∨ (SvaNet.seq_concat N (some M) a b).supported = true)) _ _
        (by
          intro s _ s' hI hs
          obtain ⟨⟨f4, n4⟩, h4, hs⟩ := bind_ok _ _ _ hs
          simp only at hs
          obtain ⟨f5, h5, hs⟩ := bind_ok _ _ _ hs
          cases hs
          obtain ⟨B4, hn4⟩ := built_edge_to_new_node _ _ _ _ s (f4, n4) hI hG1 h4
          refine built_createLink fsm start _ _ f4 f5 s.2 n4 SigBit.S1 B4.1 hI.2.1 B4.2.1
            hG1 h5 ?_
          intro hsup
          obtain ⟨c1, c2, c3⟩ := B4.2.2.2 hsup
          refine ⟨c1, c2, ?_, c3⟩
          have := hI.2.2.1
          simp only at hn4
          omega) _ _ h3 B2
      exact (built_sub k P b ihb hPb fsm start _ (f3, n3) r hT B3 hsb h).1
  | consecutive_repeat N M a iha =>
    intro fsm start r hP hT hstart h
    have hPa : ∀ e ∈ a.exprs, P e := fun e he => hP e (by simpa [SvaNet.exprs] using he)
    have hsa : (k = false ∨ (SvaNet.consecutive_repeat N M a).supported = true) →
        (k = false ∨ a.supported = true) := by
      rintro (h1 | h1)
      · exact Or.inl h1
      · simp only [SvaNet.supported] at h1; exact Or.inr h1
    have hG1 := guarded_throughout_ctrl fsm P hand SigBit.S1 hS1 hT
    unfold parse_sequence at h
    obtain ⟨⟨f1, n1⟩, h1, h⟩ := bind_ok _ _ _ h
    simp only at h
    obtain ⟨⟨f2, n2⟩, h2, h⟩ := bind_ok _ _ _ h
    simp only at h
    have B1 := built_sup _ _ _ _ _ _ (iha _ _ _ hPa hT hstart h1) hsa
    have B2 := foldlM_inv (fsm.Built start (Guarded fsm.throughout_sig P)
        (k = false ∨ (SvaNet.consecutive_repeat N M a).supported = true)) _ _
      (by
        intro s _ s' hI hs
        obtain ⟨⟨f4, n4⟩, h4, hs⟩ := bind_ok _ _ _ hs
        obtain ⟨B4, _⟩ := built_edge_to_new_node _ _ _ _ s (f4, n4) hI hG1 h4
        exact (built_sub k P a iha hPa fsm start _ (f4, n4) s' hT B4 hsa hs).1) _ _ h2 B1
    cases M with
    | none =>
      simp only at h
      obtain ⟨⟨f3, n3⟩, h3, h⟩ := bind_ok _ _ _ h
      simp only at h
      obtain ⟨⟨f4, n4⟩, h4, h⟩ := bind_ok _ _ _ h
      simp only at h
      obtain ⟨f5, h5, h⟩ := bind_ok _ _ _ h
      cases h
      obtain ⟨B3, hn3⟩ := built_edge_to_new_node _ _ _ _ (f2, n2) (f3, n3) B2 hG1 h3
      obtain ⟨B4, B4loc⟩ := built_sub k P a iha hPa fsm start _ (f3, n3) (f4, n4) hT B3 hsa h4
      obtain ⟨_, _, hn3', hf3⟩ := edge_to_new_node_inv _ _ _ _ h3
      refine built_createLink fsm start _ _ f4 f5 n4 n2 SigBit.S1 B4.1 B4.2.1 B2.2.1 hG1 h5 ?_
      intro hsup
      obtain ⟨c1, c2, c3⟩ := B2.2.2.2 hsup
      obtain ⟨d1, d2, d3⟩ := B4.2.2.2 hsup
      obtain ⟨e1, _, _⟩ := B4loc.2.2.2 (hsa hsup)
      have hlt := B2.2.2.1
      have hlen3 : f2.nodes.length < f3.nodes.length := by
        rw [hf3, length_withEdge, length_withNode]; omega
      simp only at hn3 hlt e1
      refine ⟨c1, ?_, by omega, d3⟩
      have hold := (adds_old _ _ _ _ _ B4loc.1 n2 (by simp only; omega)
        (by simp only; omega)).2
      simp only at hold
      rw [hold, hf3, linksOf_withEdge, linksOf_withNode]
      exact c2
    | some M =>
      simp only at h
      exact foldlM_inv (fsm.Built start (Guarded fsm.throughout_sig P)
          (k = false ∨ (SvaNet.consecutive_repeat N (some M) a).supported = true)) _ _
        (by
          intro s _ s' hI hs
          obtain ⟨⟨f4, n4⟩, h4, hs⟩ := bind_ok _ _ _ hs
          simp only at hs
          obtain ⟨⟨f5, n5⟩, h5, hs⟩ := bind_ok _ _ _ hs
          simp only at hs
          obtain ⟨f6, h6, hs⟩ := bind_ok _ _ _ hs
          cases hs
          obtain ⟨B4, hn4⟩ := built_edge_to_new_node _ _ _ _ s (f4, n4) hI hG1 h4
          obtain ⟨B5, B5loc⟩ :=
            built_sub k P a iha hPa fsm start _ (f4, n4) (f5, n5) hT B4 hsa h5
          obtain ⟨_, _, _, hf4⟩ := edge_to_new_node_inv _ _ _ _ h4
          refine built_createLink fsm start _ _ f5 f6 s.2 n5 SigBit.S1 B5.1 hI.2.1 B5.2.1
            hG1 h6 ?_
          intro hsup
          obtain ⟨d1, d2, d3⟩ := B5.2.2.2 hsup
          obtain ⟨e1, _, _⟩ := B5loc.2.2.2 (hsa hsup)
          have hlt := hI.2.2.1
          have hlen4 : s.1.nodes.length < f4.nodes.length := by
            rw [hf4, length_withEdge, length_withNode]; omega
          simp only at e1
          exact ⟨d1, d2, by omega, d3⟩) _ _ h B2
  | seq_or a b iha ihb =>
    intro fsm start r hP hT hstart h
    have hPa : ∀ e ∈ a.exprs, P e := fun e he => hP e (by simp [SvaNet.exprs, he])
    have hPb : ∀ e ∈ b.exprs, P e := fun e he => hP e (by simp [SvaNet.exprs, he])
    have hsa : (k = false ∨ (SvaNet.seq_or a b).supported = true) →
        (k = false ∨ a.supported = true) := by
      rintro (h1 | h1)
      · exact Or.inl h1
      · simp only [SvaNet.supported, Bool.and_eq_true] at h1; exact Or.inr h1.1
    have hsb : (k = false ∨ (SvaNet.seq_or a b).supported = true) →
        (k = false ∨ b.supported = true) := by
      rintro (h1 | h1)
      · exact Or.inl h1
      · simp only [SvaNet.supported, Bool.and_eq_true] at h1; exact Or.inr h1.2
    have hG1 := guarded_throughout_ctrl fsm P hand SigBit.S1 hS1 hT
    unfold parse_sequence at h
    obtain ⟨⟨f1, n1⟩, h1, h⟩ := bind_ok _ _ _ h
    simp only at h
    obtain ⟨⟨f2, n2⟩, h2, h⟩ := bind_ok _ _ _ h
    simp only at h
    obtain ⟨f3, h3, h⟩ := bind_ok _ _ _ h
    cases h
    have B1 := iha _ _ _ hPa hT hstart h1
    have hts := (nodesOnly_throughout _ _ B1.1.1).1
    have hlen1 : fsm.nodes.length ≤ f1.nodes.length := B1.1.2.1
    have B2 := ihb f1 start (f2, n2) hPb (by rw [hts]; exact hT) (by omega) h2
    rw [hts] at B2
    have hA : fsm.Adds fsm.nodes.length start (Guarded fsm.throughout_sig P) f2 :=
      adds_trans _ _ _ _ _ _ B1.1
        (adds_weaken _ _ _ _ _ _ _ _ B2.1 hlen1 (Or.inl rfl) (fun _ h => h))
    have hx : n2 = start ∨ fsm.nodes.length ≤ n2 := by
      rcases B2.2.1 with e | e
      · exact Or.inl e
      · exact Or.inr (le_trans hlen1 e)
    refine built_createLink fsm start _ _ f2 f3 n2 n1 SigBit.S1 hA hx B1.2.1 hG1 h3 ?_
    intro hsup
    obtain ⟨c1, c2, c3⟩ := B1.2.2.2 (hsa hsup)
    obtain ⟨d1, d2, d3⟩ := B2.2.2.2 (hsb hsup)
    have hlt := B1.2.2.1
    simp only at c1 c2 d1 hlt
    refine ⟨c1, ?_, by omega, fun hac => d3 (c3 hac)⟩
    have hold := (adds_old _ _ _ _ _ B2.1 n1 (by omega) hlt).2
    simp only at hold
    rw [hold]
    exact c2
  | throughout a b _ ihb =>
    intro fsm start r hP hT hstart h
    unfold parse_sequence at h
    cases a with
    | expr e =>
      simp only at h
      obtain ⟨f1, h1, h⟩ := bind_ok _ _ _ h
      obtain ⟨⟨f2, n2⟩, h2, h⟩ := bind_ok _ _ _ h
      simp only at h
      obtain ⟨f3, h3, h⟩ := bind_ok _ _ _ h
      cases h
      have hPe : P e := hP e (by simp [SvaNet.exprs])
      have hPb : ∀ x ∈ b.exprs, P x := fun x hx => hP x (by simp [SvaNet.exprs, hx])
      have hsb : (k = false ∨ (SvaNet.throughout (SvaNet.expr e) b).supported = true) →
          (k = false ∨ b.supported = true) := by
        rintro (h1 | h1)
        · exact Or.inl h1
        · simp only [SvaNet.supported, Bool.and_eq_true] at h1; exact Or.inr h1.2
      obtain ⟨hn1, hsig⟩ := pushThroughout_inv fsm f1 e h1
      have hT1 : P f1.throughout_sig := by
        rcases hsig with ⟨_, e1⟩ | ⟨_, e1⟩
        · rw [e1]; exact hPe
        · rw [e1]; exact hand _ _ hT hPe
      have hguard : ∀ c, Guarded f1.throughout_sig P c → Guarded fsm.throughout_sig P c := by
        intro c hc
        refine ⟨fun inp q hq => ?_, hc.2⟩
        have := hc.1 inp q hq
        rcases hsig with ⟨e0, _⟩ | ⟨_, e1⟩
        · rw [e0]; rfl
        · rw [e1] at this
          simp only [SigBit.eval, Bool.and_eq_true] at this
          exact this.1
      have B2 := ihb f1 start (f2, n2) hPb hT1 (by rw [hn1]; exact hstart) h2
      obtain ⟨hno, e3, _⟩ := throughout_frame fsm f1 f2 f3 e h1 B2.1.1 h3
      obtain ⟨b1, b2, b3, b4⟩ := B2
      rw [hn1] at b1 b2 b4
      refine ⟨adds_nodes _ _ _ f1 f2 fsm f3
        (adds_weaken _ _ _ _ _ _ _ _ b1 (le_refl _) (Or.inl rfl) hguard) hn1.symm e3 hno,
        b2, ?_, ?_⟩
      · show n2 < f3.nodes.length
        rw [e3]; exact b3
      · intro hsup
        obtain ⟨c1, c2, c3⟩ := b4 (hsb hsup)
        refine ⟨c1, ?_, fun hac => ?_⟩
        · show f3.linksOf n2 = []
          rw [linksOf_nodes f3 f2 e3]; exact c2
        · apply acyclic_links f2 f3 (fun u => linksOf_nodes f3 f2 e3 u)
          apply c3
          exact acyclic_links fsm f1 (fun u => linksOf_nodes f1 fsm hn1 u) hac
    | _ => cases h
  | _ =>
    intro fsm start r _ _ hstart h
    unfold parse_sequence at h
    split at h
    · cases h
    · rename_i hk
      cases h
      refine ⟨adds_refl _ _ _ _, Or.inl rfl, hstart, ?_⟩
      rintro (h1 | h1)
      · rw [h1] at hk
        simp at hk
      · simp [SvaNet.supported] at h1

end SVA


namespace SVA

/-! ## Repetition from zero -/

/-- A loop whose body ignores the loop variable depends on the number of passes only. -/
theorem foldlM_ignore {σ α β : Type} (f : σ → Except Failure σ) :
    ∀ (l1 : List α) (l2 : List β), l1.length = l2.length →
      ∀ s, l1.foldlM (fun acc _ => f acc) s = l2.foldlM (fun acc _ => f acc) s := by
  intro l1
  induction l1 with
  | nil =>
    intro l2 h s
    cases l2 with
    | nil => rfl
    | cons b l2 => cases h
  | cons a l1 ih =>
    intro l2 h s
    cases l2 with
    | nil => cases h
    | cons b l2 =>
      rw [foldlM_ok_cons, foldlM_ok_cons]
      cases f s with
      | error e => rfl
      | ok s1 => exact ih l2 (by simpa using h) s1

theorem parse_repeat_zero_bounded (k : Bool) (s : SvaNet) (M : Nat) (fsm : SvaFsm)
    (start : Nat) :
    parse_sequence k (SvaNet.consecutive_repeat 0 (some M) s) fsm start =
      parse_sequence k (SvaNet.consecutive_repeat 1 (some (M + 1)) s) fsm start := by
  conv_lhs => unfold parse_sequence
  conv_rhs => unfold parse_sequence
  cases parse_sequence k s fsm start with
  | error e => rfl
  | ok r =>
    simp only [Nat.zero_sub, Nat.sub_self, Nat.sub_zero, Nat.add_sub_cancel,
      List.range'_zero, ok_bind, List.foldlM_nil, pure, Except.pure]
    exact foldlM_ignore _ _ _ (by simp) _

theorem parse_repeat_zero_unbounded (k : Bool) (s : SvaNet) (fsm : SvaFsm) (start : Nat) :
    parse_sequence k (SvaNet.consecutive_repeat 0 none s) fsm start =
      parse_sequence k (SvaNet.consecutive_repeat 1 none s) fsm start := by
  conv_lhs => unfold parse_sequence
  conv_rhs => unfold parse_sequence

end SVA


namespace SVA

/-! ## `parse_sequence` returns on supported sequences -/

theorem bind_total {α β : Type} (x : Except Failure α) (f : α → Except Failure β)
    (Q : α → Prop) (R : β → Prop) (hx : ∃ a, x = Except.ok a ∧ Q a)
    (hf : ∀ a, Q a → ∃ r, f a = Except.ok r ∧ R r) : ∃ r, (x >>= f) = Except.ok r ∧ R r := by
  obtain ⟨a, ha, hQ⟩ := hx
  rw [ha]
  exact hf a hQ

theorem foldlM_total_inv {σ α : Type} (J : σ → Prop) (f : σ → α → Except Failure σ) :
    ∀ (l : List α), (∀ s a, J s → ∃ s', f s a = Except.ok s' ∧ J s') →
      ∀ s, J s → ∃ s', l.foldlM f s = Except.ok s' ∧ J s' := by
  intro l
  induction l with
  | nil => intro _ s hs; exact ⟨s, rfl, hs⟩
  | cons a l ih =>
    intro h s hs
    obtain ⟨s1, h1, hJ1⟩ := h s a hs
    rw [foldlM_ok_cons, h1]
    exact ih h s1 hJ1

/-- The state of a run of the sequence compiler can be continued: the automaton is not
materialized and the current node is one of its nodes. -/
theorem grows_ready (s r : SvaFsm × Nat) (g : Grows s r) (hm : s.1.materialized = false)
    (hn : s.2 < s.1.nodes.length) : r.1.materialized = false ∧ r.2 < r.1.nodes.length :=
  ⟨by rw [nodesOnly_materialized _ _ g.1]; exact hm, g.2.2 hn⟩

theorem edge_ready (s : SvaFsm × Nat)
    (h : s.1.materialized = false ∧ s.2 < s.1.nodes.length) :
    ∃ r, edge_to_new_node s.1 s.2 = Except.ok r ∧
      (r.1.materialized = false ∧ r.2 < r.1.nodes.length) ∧
      s.1.nodes.length < r.1.nodes.length := by
  refine ⟨_, edge_to_new_node_ok s.1 s.2 h.1 h.2, ⟨h.1, ?_⟩, ?_⟩
  · show s.1.nodes.length < (s.1.withNode.withEdge _ _ _).nodes.length
    rw [length_withEdge, length_withNode]; omega
  · show s.1.nodes.length < (s.1.withNode.withEdge _ _ _).nodes.length
    rw [length_withEdge, length_withNode]; omega

theorem link_ready (f : SvaFsm) (u v : Nat) (c : SigBit) (hm : f.materialized = false)
    (hu : u < f.nodes.length) (hv : v < f.nodes.length) :
    ∃ f', f.createLink u v c = Except.ok f' ∧ f'.materialized = false ∧
      f'.nodes.length = f.nodes.length :=
  ⟨_, createLink_ok f u v c hm hu hv, hm, length_withLink _ _ _ _⟩

/-- On a sequence of supported operators `parse_sequence` returns, from every node of
every automaton that is not materialized. -/
theorem parse_sequence_returns (k : Bool) (net : SvaNet) :
    net.supported = true → ∀ (fsm : SvaFsm) (start : Nat), fsm.materialized = false →
      start < fsm.nodes.length →
      ∃ r, parse_sequence k net fsm start = Except.ok r ∧
        (r.1.materialized = false ∧ r.2 < r.1.nodes.length) := by
  induction net with
  | expr sig =>
    intro _ fsm start hm hs
    refine ⟨_, parse_expr_ok k sig fsm start hm hs, hm, ?_⟩
    show fsm.nodes.length < (fsm.withNode.withLink _ _ _).nodes.length
    rw [length_withLink, length_withNode]; omega
  | seq_concat N M a b iha ihb =>
    intro hsup fsm start hm hs
    simp only [SvaNet.supported, Bool.and_eq_true] at hsup
    unfold parse_sequence
    refine bind_total _ _ (fun r => r.1.materialized = false ∧ r.2 < r.1.nodes.length) _
      (iha hsup.1 fsm start hm hs) ?_
    rintro ⟨f1, n1⟩ J1
    dsimp only at J1 ⊢
    refine bind_total _ _ (fun r => r.1.materialized = false ∧ r.2 < r.1.nodes.length) _
      (foldlM_total_inv _ _ _ (fun s _ hJ => by
        obtain ⟨r, h1, h2, _⟩ := edge_ready s hJ
        exact ⟨r, h1, h2⟩) _ J1) ?_
    rintro ⟨f2, n2⟩ J2
    dsimp only at J2 ⊢
    cases M with
    | none =>
      dsimp only
      rw [createEdge_ok f2 n2 n2 SigBit.S1 J2.1 J2.2 J2.2, ok_bind]
      simp only [pure, Except.pure, ok_bind]
      exact ihb hsup.2 _ _ J2.1 (by rw [length_withEdge]; exact J2.2)
    | some M =>
      dsimp only
      refine bind_total _ _ (fun r => r.1.materialized = false ∧ r.2 < r.1.nodes.length) _
        (foldlM_total_inv _ _ _ (fun s _ hJ => by
          obtain ⟨sf, sn⟩ := s
          dsimp only at hJ ⊢
          rw [edge_to_new_node_ok sf sn hJ.1 hJ.2, ok_bind]
          dsimp only
          rw [createLink_ok (sf.withNode.withEdge sn sf.nodes.length (sf.throughout_ctrl SigBit.S1))
            sn sf.nodes.length SigBit.S1 hJ.1
            (by rw [length_withEdge, length_withNode]; omega)
            (by rw [length_withEdge, length_withNode]; omega), ok_bind]
          refine ⟨_, rfl, hJ.1, ?_⟩
          show sf.nodes.length < ((sf.withNode.withEdge _ _ _).withLink _ _ _).nodes.length
          rw [length_withLink, length_withEdge, length_withNode]; omega) _ J2) ?_
      rintro ⟨f3, n3⟩ J3
      dsimp only at J3 ⊢
      exact ihb hsup.2 _ _ J3.1 J3.2
  | consecutive_repeat N M a iha =>
    intro hsup fsm start hm hs
    simp only [SvaNet.supported] at hsup
    unfold parse_sequence
    refine bind_total _ _ (fun r => r.1.materialized = false ∧ r.2 < r.1.nodes.length) _
      (iha hsup fsm start hm hs) ?_
    rintro ⟨f1, n1⟩ J1
    dsimp only at J1 ⊢
    refine bind_total _ _ (fun r => r.1.materialized = false ∧ r.2 < r.1.nodes.length) _
      (foldlM_total_inv _ _ _ (fun s _ hJ => by
        obtain ⟨sf, sn⟩ := s
        dsimp only at hJ ⊢
        rw [edge_to_new_node_ok sf sn hJ.1 hJ.2, ok_bind]
        dsimp only
        exact iha hsup _ _ hJ.1 (by rw [length_withEdge, length_withNode]; omega)) _ J1) ?_
    rintro ⟨f2, n2⟩ J2
    dsimp only at J2 ⊢
    cases M with
    | none =>
      dsimp only
      rw [edge_to_new_node_ok f2 n2 J2.1 J2.2, ok_bind]
      dsimp only
      obtain ⟨⟨f4, n4⟩, h4, J4⟩ := iha hsup
        (f2.withNode.withEdge n2 f2.nodes.length (f2.throughout_ctrl SigBit.S1))
        f2.nodes.length J2.1 (by rw [length_withEdge, length_withNode]; omega)
      rw [h4, ok_bind]
      dsimp only at J4 ⊢
      have g4 := parse_sequence_grows k a _ _ _ h4
      have hn2 : n2 < f4.nodes.length := by
        have := g4.2.1
        simp only [length_withEdge, length_withNode] at this
        omega
      rw [createLink_ok f4 n4 n2 SigBit.S1 J4.1 J4.2 hn2, ok_bind]
      exact ⟨_, rfl, J4.1, by show n2 < (f4.withLink _ _ _).nodes.length; rw [length_withLink]; exact hn2⟩
    | some M =>
      dsimp only
      refine foldlM_total_inv _ _ _ (fun s _ hJ => ?_) _ J2
      obtain ⟨sf, sn⟩ := s
      dsimp only at hJ ⊢
      rw [edge_to_new_node_ok sf sn hJ.1 hJ.2, ok_bind]
      dsimp only
      obtain ⟨⟨f4, n4⟩, h4, J4⟩ := iha hsup
        (sf.withNode.withEdge sn sf.nodes.length (sf.throughout_ctrl SigBit.S1))
        sf.nodes.length hJ.1 (by rw [length_withEdge, length_withNode]; omega)
      rw [h4, ok_bind]
      dsimp only at J4 ⊢
      have g4 := parse_sequence_grows k a _ _ _ h4
      have hn2 : sn < f4.nodes.length := by
        have := g4.2.1
        simp only [length_withEdge, length_withNode] at this
        omega
      rw [createLink_ok f4 sn n4 SigBit.S1 J4.1 hn2 J4.2, ok_bind]
      exact ⟨_, rfl, J4.1, by show n4 < (f4.withLink _ _ _).nodes.length; rw [length_withLink]; exact J4.2⟩
  | seq_or a b iha ihb =>
    intro hsup fsm start hm hs
    simp only [SvaNet.supported, Bool.and_eq_true] at hsup
    obtain ⟨⟨f1, n1⟩, h1, J1⟩ := iha hsup.1 fsm start hm hs
    have g1 := parse_sequence_grows k a _ _ _ h1
    obtain ⟨⟨f2, n2⟩, h2, J2⟩ := ihb hsup.2 f1 start J1.1 (lt_of_lt_of_le hs g1.2.1)
    have g2 := parse_sequence_grows k b _ _ _ h2
    obtain ⟨h3, hn1, _, _⟩ := seq_or_ok k a b fsm start f1 f2 n1 n2 h1 h2 hm hs
    refine ⟨_, h3, J2.1, ?_⟩
    show n1 < (f2.withLink _ _ _).nodes.length
    rw [length_withLink]; exact hn1
  | throughout a b _ ihb =>
    intro hsup fsm start hm hs
    simp only [SvaNet.supported, Bool.and_eq_true] at hsup
    cases a with
    | expr e =>
      unfold parse_sequence
      dsimp only
      have hpush : ∃ f1, fsm.pushThroughout e = Except.ok f1 ∧ f1.materialized = false ∧
          f1.nodes = fsm.nodes ∧ f1.throughout_stack ≠ [] := by
        unfold SvaFsm.pushThroughout
        rw [if_neg (by simp [hm])]
        by_cases hT : fsm.throughout_sig = SigBit.S1
        · simp only [hT, if_true]
          exact ⟨_, rfl, hm, rfl, by simp⟩
        · simp only [hT, if_false]
          exact ⟨_, rfl, hm, rfl, by simp⟩
      obtain ⟨f1, h1, hm1, hn1, hst1⟩ := hpush
      rw [h1, ok_bind]
      obtain ⟨⟨f2, n2⟩, h2, J2⟩ := ihb hsup.2 f1 start hm1 (by rw [hn1]; exact hs)
      rw [h2, ok_bind]
      dsimp only at J2 ⊢
      have g2 := parse_sequence_grows k b _ _ _ h2
      have hst2 : f2.throughout_stack ≠ [] := by
        rw [(nodesOnly_throughout _ _ g2.1).2]; exact hst1
      have hpop : ∃ f3, f2.popThroughout = Except.ok f3 ∧ f3.materialized = false ∧
          f3.nodes = f2.nodes := by
        unfold SvaFsm.popThroughout
        rw [if_neg (by simp [J2.1]), if_neg (by simpa using hst2)]
        exact ⟨_, rfl, J2.1, rfl⟩
      obtain ⟨f3, h3, hm3, hn3⟩ := hpop
      rw [h3, ok_bind]
      exact ⟨_, rfl, hm3, by rw [hn3]; exact J2.2⟩
    | _ => simp [SvaNet.is_expr] at hsup
  | _ =>
    intro hsup
    simp [SvaNet.supported] at hsup

end SVA


namespace SVA

/-! ## The automaton of `build_fsm`: shape, well-formedness, acyclic links -/

theorem new_linksOf (trig : SigBit) (u : Nat) : (SvaFsm.new trig).linksOf u = [] := by
  unfold SvaFsm.linksOf SvaFsm.new
  rcases u with _ | _ | u <;> rfl

theorem new_edgesOf (trig : SigBit) (u : Nat) : (SvaFsm.new trig).edgesOf u = [] := by
  unfold SvaFsm.edgesOf SvaFsm.new
  rcases u with _ | _ | u <;> rfl

theorem acyclic_of_no_links (f : SvaFsm) (h : ∀ u, f.linksOf u = []) : f.Acyclic := by
  intro u hu
  obtain ⟨b, hb⟩ : ∃ b, f.Link u b := by
    rcases Relation.TransGen.head'_iff.1 hu with ⟨b, hb, _⟩
    exact ⟨b, hb⟩
  obtain ⟨c, hc⟩ := hb
  rw [h u] at hc
  cases hc

theorem new_acyclic (trig : SigBit) : (SvaFsm.new trig).Acyclic :=
  acyclic_of_no_links _ (new_linksOf trig)

theorem new_wellFormed (trig : SigBit) : (SvaFsm.new trig).WellFormed := by
  refine ⟨show 0 < 2 by omega, show 1 < 2 by omega, ?_, ?_⟩
  · intro u p hp
    rw [new_linksOf] at hp
    cases hp
  · intro u p hp
    rw [new_edgesOf] at hp
    cases hp

theorem nodesOnly_nodes (a b : SvaFsm) (h : a.NodesOnly b) :
    b.startNode = a.startNode ∧ b.acceptNode = a.acceptNode ∧ b.trigger_sig = a.trigger_sig ∧
    b.disable_sig = a.disable_sig ∧ b.unodes = a.unodes ∧ b.dnodes = a.dnodes := by
  unfold SvaFsm.NodesOnly at h
  rw [h]
  exact ⟨rfl, rfl, rfl, rfl, rfl, rfl⟩

/-- Adding entries whose targets are nodes keeps the automaton well formed. -/
theorem adds_wellFormed (L start : Nat) (G : SigBit → Prop) (f f2 : SvaFsm)
    (h : f.Adds L start G f2) (hwf : f.WellFormed) : f2.WellFormed := by
  obtain ⟨hs, ha, _⟩ := nodesOnly_nodes _ _ h.1
  refine ⟨by rw [hs]; exact lt_of_lt_of_le hwf.1 h.2.1,
    by rw [ha]; exact lt_of_lt_of_le hwf.2.1 h.2.1, ?_, ?_⟩
  · intro u p hp
    obtain ⟨e1, l1, he1, hl1, hp1⟩ := h.2.2 u
    rw [hl1] at hp
    rcases List.mem_append.1 hp with hp | hp
    · exact lt_of_lt_of_le (hwf.2.2.1 u p hp) h.2.1
    · exact (hp1 p (Or.inr hp)).2.2.2.1
  · intro u p hp
    obtain ⟨e1, l1, he1, hl1, hp1⟩ := h.2.2 u
    rw [he1] at hp
    rcases List.mem_append.1 hp with hp | hp
    · exact lt_of_lt_of_le (hwf.2.2.2 u p hp) h.2.1
    · exact (hp1 p (Or.inl hp)).2.2.2.1

theorem wellFormed_withNode (f : SvaFsm) (hwf : f.WellFormed) : f.withNode.WellFormed :=
  adds_wellFormed 0 0 (fun _ => True) f _ (adds_withNode 0 0 _ f) hwf

theorem wellFormed_withEdge (f : SvaFsm) (u v : Nat) (c : SigBit) (hwf : f.WellFormed)
    (hu : u < f.nodes.length) (hv : v < f.nodes.length) : (f.withEdge u v c).WellFormed :=
  adds_wellFormed 0 0 (fun _ => True) f _
    (adds_withEdge 0 0 _ f u v c hu hv (Or.inr (Nat.zero_le _)) (Or.inr (Nat.zero_le _)) trivial)
    hwf

theorem wellFormed_withLink (f : SvaFsm) (u v : Nat) (c : SigBit) (hwf : f.WellFormed)
    (hu : u < f.nodes.length) (hv : v < f.nodes.length) : (f.withLink u v c).WellFormed :=
  adds_wellFormed 0 0 (fun _ => True) f _
    (adds_withLink 0 0 _ f u v c hu hv (Or.inr (Nat.zero_le _)) (Or.inr (Nat.zero_le _)) trivial)
    hwf

/-- The link that `import` adds after `parse_sequence`, with the extra edge of the
non-overlapped implication: the result is well formed. -/
theorem finish_wellFormed (P : SvaFsm) (node : Nat) (x : Bool) (hwf : P.WellFormed)
    (hn : node < P.nodes.length) : (P.finish node x).WellFormed := by
  unfold SvaFsm.finish
  cases x with
  | false =>
    rw [if_neg (by simp)]
    exact wellFormed_withLink P _ _ _ hwf hn hwf.2.1
  | true =>
    rw [if_pos rfl]
    have h1 : P.withNode.WellFormed := wellFormed_withNode P hwf
    have hl1 : P.withNode.nodes.length = P.nodes.length + 1 := length_withNode P
    have h2 := wellFormed_withEdge P.withNode node P.nodes.length
      (P.throughout_ctrl SigBit.S1) h1 (by omega) (by omega)
    refine wellFormed_withLink _ _ _ _ h2 ?_ ?_
    · rw [length_withEdge]; omega
    · rw [length_withEdge]; have := hwf.2.1; omega

/-- The result of `finish` has acyclic links when the accept node has no link and the end
node is another node. -/
theorem finish_acyclic (P : SvaFsm) (node : Nat) (x : Bool) (hac : P.Acyclic)
    (hn : node < P.nodes.length) (ha : P.acceptNode < P.nodes.length)
    (hsink : P.linksOf P.acceptNode = []) (hne : node ≠ P.acceptNode) :
    (P.finish node x).Acyclic := by
  unfold SvaFsm.finish
  cases x with
  | false =>
    rw [if_neg (by simp)]
    exact acyclic_withLink P node P.acceptNode _ hn hac hsink hne
  | true =>
    rw [if_pos rfl]
    have hl1 : P.withNode.nodes.length = P.nodes.length + 1 := length_withNode P
    have hlk : ∀ u, (P.withNode.withEdge node P.nodes.length
        (P.throughout_ctrl SigBit.S1)).linksOf u = P.linksOf u := by
      intro u
      rw [linksOf_withEdge, linksOf_withNode]
    refine acyclic_withLink _ _ _ _ ?_ (acyclic_links P _ hlk hac) ?_ ?_
    · rw [length_withEdge]; omega
    · rw [hlk]; exact hsink
    · omega

theorem finish_nodesOnly (P : SvaFsm) (node : Nat) (x : Bool) : P.NodesOnly (P.finish node x) := by
  unfold SvaFsm.finish
  cases x with
  | false =>
    rw [if_neg (by simp)]
    exact nodesOnly_withLink _ _ _ _
  | true =>
    rw [if_pos rfl]
    exact nodesOnly_trans _ _ _ (nodesOnly_trans _ _ _ (nodesOnly_withNode P)
      (nodesOnly_withEdge _ _ _ _)) (nodesOnly_withLink _ _ _ _)

/-- The automaton of `build_fsm` when `parse_sequence` returned. -/
theorem build_fsm_finish (k : Bool) (trig : SigBit) (net : SvaNet) (x : Bool) (P : SvaFsm)
    (node : Nat) (h : parse_sequence k net (SvaFsm.new trig) 0 = Except.ok (P, node)) :
    build_fsm k trig net x = Except.ok (P.finish node x) := by
  have g := parse_sequence_grows k net _ _ _ h
  have hm : P.materialized = false := by
    rw [nodesOnly_materialized _ _ g.1]; rfl
  have hlen : 2 ≤ P.nodes.length := g.2.1
  have hn : node < P.nodes.length := g.2.2 (show 0 < 2 by omega)
  have ha : P.acceptNode = 1 := (nodesOnly_nodes _ _ g.1).2.1
  unfold build_fsm
  simp only
  rw [show (SvaFsm.new trig).startNode = 0 from rfl, h, ok_bind]
  simp only
  unfold SvaFsm.finish
  cases x with
  | false =>
    simp only [Bool.false_eq_true, if_false, pure, Except.pure, ok_bind]
    exact createLink_ok P node P.acceptNode SigBit.S1 hm hn (by omega)
  | true =>
    simp only [if_true]
    rw [edge_to_new_node_ok P node hm hn, ok_bind]
    simp only
    exact createLink_ok _ P.nodes.length P.acceptNode SigBit.S1 hm
      (by rw [length_withEdge, length_withNode]; omega)
      (by rw [length_withEdge, length_withNode]; omega)

/-- Every automaton that `build_fsm` returns is the result of `parse_sequence` on the
fresh automaton, finished by the link to the accept node. -/
theorem build_fsm_inv (k : Bool) (trig : SigBit) (net : SvaNet) (x : Bool) (A : SvaFsm)
    (h : build_fsm k trig net x = Except.ok A) :
    ∃ P node, parse_sequence k net (SvaFsm.new trig) 0 = Except.ok (P, node) ∧
      A = P.finish node x := by
  have h0 := h
  unfold build_fsm at h
  simp only at h
  obtain ⟨⟨P, node⟩, h1, _⟩ := bind_ok _ _ _ h
  refine ⟨P, node, h1, ?_⟩
  have h2 := build_fsm_finish k trig net x P node h1
  rw [h0] at h2
  exact Except.ok.inj h2

end SVA


namespace SVA

/-! ## Signals of the module under an extension of the module -/

theorem eval_reads_below (n : Nat) (c : SigBit) (inp q q' : Nat → Bool)
    (hq : ∀ w, w < n → q w = q' w) (hc : c.reads_below n = true) :
    c.eval inp q = c.eval inp q' := by
  induction c with
  | S0 => rfl
  | S1 => rfl
  | Sx => rfl
  | wire k => rfl
  | auto k =>
    simp only [SigBit.reads_below, decide_eq_true_eq] at hc
    exact hq k hc
  | not a iha =>
    simp only [SigBit.reads_below] at hc
    simp only [SigBit.eval, iha hc]
  | and a b iha ihb =>
    simp only [SigBit.reads_below, Bool.and_eq_true] at hc
    simp only [SigBit.eval, iha hc.1, ihb hc.2]
  | or a b iha ihb =>
    simp only [SigBit.reads_below, Bool.and_eq_true] at hc
    simp only [SigBit.eval, iha hc.1, ihb hc.2]

/-- The wires of a closed module keep their values in every module that extends it. -/
theorem extends_qval (m M : Module) (hext : m.Extends M) (hcl : m.Closed)
    (env : Nat → Nat → Bool) :
    ∀ t w, w < m.nwires → M.qval env t w = m.qval env t w := by
  intro t
  induction t with
  | zero =>
    intro w hw
    simp only [Module.qval]
    rw [hext.2 w hw]
  | succ t ih =>
    intro w hw
    simp only [Module.qval]
    rw [hext.2 w hw]
    cases hd : m.driver w with
    | none => rfl
    | some d =>
      cases d with
      | const v => rfl
      | dff d i =>
        simp only
        exact eval_reads_below m.nwires d (env t) _ _ ih (hcl w d i hw hd)

/-- A signal that reads wires of a closed module only has the same value in every module
that extends it. -/
theorem extends_value (m M : Module) (hext : m.Extends M) (hcl : m.Closed)
    (env : Nat → Nat → Bool) (t : Nat) (c : SigBit) (hc : c.reads_below m.nwires = true) :
    M.value env t c = m.value env t c :=
  eval_reads_below m.nwires c (env t) _ _ (extends_qval m M hext hcl env t) hc

theorem closed_empty : ({} : Module).Closed := by
  intro w d i hw
  exact absurd hw (Nat.not_lt_zero w)

/-! ## The reference run on a part of the automaton -/

/-- The link closure restricted to a set of nodes `C` that links enter from `C` only. -/
theorem linkClosure_core (F F2 : SvaFsm) (ev ev2 : SigBit → Bool) (E E2 : Nat → Prop)
    (C : Nat → Prop) (hE : ∀ v, C v → E v → E2 v)
    (hl : ∀ u v c, C v → (v, c) ∈ F.linksOf u →
      C u ∧ (v, c) ∈ F2.linksOf u ∧ (ev c = true → ev2 c = true)) :
    ∀ v, F.LinkClosure ev E v → C v → F2.LinkClosure ev2 E2 v := by
  intro v h
  induction h with
  | base hv => intro hC; exact SvaFsm.LinkClosure.base (hE _ hC hv)
  | link hu hmem hval ih =>
    intro hC
    obtain ⟨hCu, hmem2, hval2⟩ := hl _ _ _ hC hmem
    exact SvaFsm.LinkClosure.link (ih hCu) hmem2 (hval2 hval)

/-- One direction of `ref_core`. -/
theorem ref_core_mp (F F2 : SvaFsm) (val val2 : Nat → SigBit → Bool) (C : Nat → Prop)
    (hstart : F2.startNode = F.startNode)
    (htrig : ∀ t, val2 t F2.trigger_sig = val t F.trigger_sig)
    (hdis : ∀ t, val2 t F2.disable_sig = val t F.disable_sig)
    (hl : ∀ u v c, C v → (v, c) ∈ F.linksOf u →
      C u ∧ (v, c) ∈ F2.linksOf u ∧ ∀ t, val2 t c = val t c)
    (he : ∀ u v c, C v → (v, c) ∈ F.edgesOf u →
      C u ∧ (v, c) ∈ F2.edgesOf u ∧ ∀ t, val2 t c = val t c) :
    ∀ t, (∀ v, C v → F.refStored val t v → F2.refStored val2 t v) ∧
      (∀ v, C v → F.refActive val t v → F2.refActive val2 t v) := by
  have step : ∀ t, (∀ v, C v → F.refStored val t v → F2.refStored val2 t v) →
      (∀ v, C v → F.refActive val t v → F2.refActive val2 t v) := by
    intro t hst v hC hact
    refine linkClosure_core F F2 (val t) (val2 t) _ _ C ?_ ?_ v hact hC
    · intro w hCw hE
      refine ⟨by rw [hdis]; exact hE.1, ?_⟩
      rcases hE.2 with h | ⟨h1, h2⟩
      · exact Or.inl (hst w hCw h)
      · exact Or.inr ⟨by rw [hstart]; exact h1, by rw [htrig]; exact h2⟩
    · intro u w c hCw hmem
      obtain ⟨a, b, d⟩ := hl u w c hCw hmem
      exact ⟨a, b, fun h => by rw [d t]; exact h⟩
  intro t
  induction t with
  | zero =>
    have h0 : ∀ v, C v → F.refStored val 0 v → F2.refStored val2 0 v := by
      intro v _ h
      exact absurd h (by simp [SvaFsm.refStored])
    exact ⟨h0, step 0 h0⟩
  | succ t ih =>
    have h1 : ∀ v, C v → F.refStored val (t + 1) v → F2.refStored val2 (t + 1) v := by
      intro v hC h
      obtain ⟨u, c, hact, hmem, hval⟩ := (refStored_succ F val t v).1 h
      obtain ⟨hCu, hmem2, hval2⟩ := he u v c hC hmem
      exact (refStored_succ F2 val2 t v).2 ⟨u, c, ih.2 u hCu hact, hmem2,
        by rw [hval2 t]; exact hval⟩
    exact ⟨h1, step (t + 1) h1⟩

/-- Two automata with the same start node, trigger and disable signal have the same
reference run on a set `C` of nodes when the edges and links into `C` are the same in both,
start in `C`, and carry controls with the same values. -/
theorem ref_core (F F2 : SvaFsm) (val val2 : Nat → SigBit → Bool) (C : Nat → Prop)
    (hstart : F2.startNode = F.startNode)
    (htrig : ∀ t, val2 t F2.trigger_sig = val t F.trigger_sig)
    (hdis : ∀ t, val2 t F2.disable_sig = val t F.disable_sig)
    (hl : ∀ u v c, C v → ((v, c) ∈ F.linksOf u ↔ (v, c) ∈ F2.linksOf u))
    (he : ∀ u v c, C v → ((v, c) ∈ F.edgesOf u ↔ (v, c) ∈ F2.edgesOf u))
    (hsl : ∀ u v c, C v → (v, c) ∈ F.linksOf u → C u ∧ ∀ t, val2 t c = val t c)
    (hse : ∀ u v c, C v → (v, c) ∈ F.edgesOf u → C u ∧ ∀ t, val2 t c = val t c) :
    ∀ t v, C v → (F.refStored val t v ↔ F2.refStored val2 t v) ∧
      (F.refActive val t v ↔ F2.refActive val2 t v) := by
  have h1 := ref_core_mp F F2 val val2 C hstart htrig hdis
    (fun u v c hC hm => ⟨(hsl u v c hC hm).1, (hl u v c hC).1 hm, (hsl u v c hC hm).2⟩)
    (fun u v c hC hm => ⟨(hse u v c hC hm).1, (he u v c hC).1 hm, (hse u v c hC hm).2⟩)
  have h2 := ref_core_mp F2 F val2 val C hstart.symm (fun t => (htrig t).symm)
    (fun t => (hdis t).symm)
    (fun u v c hC hm => ⟨(hsl u v c hC ((hl u v c hC).2 hm)).1, (hl u v c hC).2 hm,
      fun t => ((hsl u v c hC ((hl u v c hC).2 hm)).2 t).symm⟩)
    (fun u v c hC hm => ⟨(hse u v c hC ((he u v c hC).2 hm)).1, (he u v c hC).2 hm,
      fun t => ((hse u v c hC ((he u v c hC).2 hm)).2 t).symm⟩)
  intro t v hC
  exact ⟨⟨(h1 t).1 v hC, (h2 t).1 v hC⟩, ⟨(h1 t).2 v hC, (h2 t).2 v hC⟩⟩

/-- A node without incoming edge never has its stored bit set. -/
theorem refStored_no_edge (F : SvaFsm) (val : Nat → SigBit → Bool) (v : Nat)
    (h : ∀ u c, (v, c) ∉ F.edgesOf u) : ∀ t, ¬ F.refStored val t v := by
  intro t
  cases t with
  | zero => simp [SvaFsm.refStored]
  | succ t =>
    intro hs
    obtain ⟨u, c, _, hmem, _⟩ := (refStored_succ F val t v).1 hs
    exact h u c hmem

end SVA


namespace SVA

/-! ## The extra edge of the non-overlapped implication delays acceptance by one cycle -/

theorem mem_append_if {α : Type} (l : List α) (b : Prop) [Decidable b] (x y : α) :
    x ∈ l ++ (if b then [y] else []) ↔ x ∈ l ∨ (b ∧ x = y) := by
  by_cases hb : b
  · simp [hb]
  · simp [hb]

theorem finish_links (P : SvaFsm) (node : Nat) (x : Bool) (hn : node < P.nodes.length)
    (u : Nat) :
    (P.finish node x).linksOf u = P.linksOf u ++
      (if u = (if x = true then P.nodes.length else node) then
        [(P.acceptNode, P.throughout_ctrl SigBit.S1)] else []) := by
  unfold SvaFsm.finish
  cases x with
  | false =>
    rw [if_neg (by simp)]
    simp only [Bool.false_eq_true, if_false]
    exact linksOf_withLink P node _ _ u hn
  | true =>
    rw [if_pos rfl, if_pos rfl]
    rw [linksOf_withLink _ _ _ _ u (by rw [length_withEdge, length_withNode]; omega),
      linksOf_withEdge, linksOf_withNode]

theorem finish_edges (P : SvaFsm) (node : Nat) (x : Bool) (hn : node < P.nodes.length)
    (u : Nat) :
    (P.finish node x).edgesOf u = P.edgesOf u ++
      (if x = true ∧ u = node then [(P.nodes.length, P.throughout_ctrl SigBit.S1)] else []) := by
  unfold SvaFsm.finish
  cases x with
  | false =>
    rw [if_neg (by simp), if_neg (by simp), List.append_nil]
    exact edgesOf_withLink P node _ _ u
  | true =>
    rw [if_pos rfl, edgesOf_withLink,
      edgesOf_withEdge _ _ _ _ u (by rw [length_withNode]; omega), edgesOf_withNode]
    by_cases hu : u = node
    · rw [if_pos hu, if_pos ⟨rfl, hu⟩]
    · rw [if_neg hu, if_neg (fun h => hu h.2)]

/-- A node other than the start node, without incoming edge and with one incoming link
whose control is true, is active iff the source of the link is. -/
theorem active_single_link (F : SvaFsm) (val : Nat → SigBit → Bool) (t v u0 : Nat)
    (c0 : SigBit) (hne : v ≠ F.startNode) (hedge : ∀ u c, (v, c) ∉ F.edgesOf u)
    (hlink : ∀ u c, (v, c) ∈ F.linksOf u ↔ (u = u0 ∧ c = c0)) (hc : val t c0 = true) :
    F.refActive val t v ↔ F.refActive val t u0 := by
  constructor
  · intro h
    rcases (linkClosure_iff F (val t) _ v).1 h with hE | ⟨u, c, hu, hmem, _⟩
    · rcases hE.2 with hs | ⟨h1, _⟩
      · exact absurd hs (refStored_no_edge F val v hedge t)
      · exact absurd h1 hne
    · rw [((hlink u c).1 hmem).1] at hu
      exact hu
  · intro h
    exact SvaFsm.LinkClosure.link h ((hlink u0 c0).2 ⟨rfl, rfl⟩) hc

/-- A node other than the start node without incoming link is active iff the disable
signal is false and its stored bit is set. -/
theorem active_no_link (F : SvaFsm) (val : Nat → SigBit → Bool) (t v : Nat)
    (hne : v ≠ F.startNode) (hlink : ∀ u c, (v, c) ∉ F.linksOf u) :
    F.refActive val t v ↔ (val t F.disable_sig = false ∧ F.refStored val t v) := by
  constructor
  · intro h
    rcases (linkClosure_iff F (val t) _ v).1 h with hE | ⟨u, c, _, hmem, _⟩
    · rcases hE.2 with hs | ⟨h1, _⟩
      · exact ⟨hE.1, hs⟩
      · exact absurd h1 hne
    · exact absurd hmem (hlink u c)
  · intro h
    exact SvaFsm.LinkClosure.base ⟨h.1, Or.inl h.2⟩

/-- The entries of an automaton compiled from the fresh automaton: no entry leaves or
enters the accept node, and all controls satisfy `G`. -/
theorem adds_new_entries (trig : SigBit) (G : SigBit → Prop) (P : SvaFsm)
    (hA : (SvaFsm.new trig).Adds 2 0 G P) (u : Nat) (p : Nat × SigBit)
    (hp : p ∈ P.edgesOf u ∨ p ∈ P.linksOf u) :
    u ≠ 1 ∧ u < P.nodes.length ∧ p.1 ≠ 1 ∧ p.1 < P.nodes.length ∧ G p.2 := by
  have key : (u = 0 ∨ 2 ≤ u) ∧ u < P.nodes.length ∧ (p.1 = 0 ∨ 2 ≤ p.1) ∧
      p.1 < P.nodes.length ∧ G p.2 := by
    rcases hp with hp | hp
    · rcases adds_mem_edge _ _ _ _ _ hA u p hp with h | h
      · rw [new_edgesOf] at h
        cases h
      · exact h
    · rcases adds_mem_link _ _ _ _ _ hA u p hp with h | h
      · rw [new_linksOf] at h
        cases h
      · exact h
  obtain ⟨a, b, c, d, e⟩ := key
  exact ⟨by omega, b, by omega, d, e⟩

/-- The automaton with the extra edge before the final link accepts exactly one cycle
after the automaton without it: never at cycle 0, and at cycle `t+1` iff the other one
accepts at cycle `t`. -/
theorem finish_shift (trig : SigBit) (G : SigBit → Prop) (P : SvaFsm) (node : Nat)
    (hA : (SvaFsm.new trig).Adds 2 0 G P) (hn0 : node = 0 ∨ 2 ≤ node)
    (hn : node < P.nodes.length) (val val2 : Nat → SigBit → Bool)
    (hG : ∀ c, G c → ∀ t, val2 t c = val t c)
    (hS1 : ∀ t, val t SigBit.S1 = true) (hS1' : ∀ t, val2 t SigBit.S1 = true)
    (hS0 : ∀ t, val2 t SigBit.S0 = false) (hS00 : ∀ t, val t SigBit.S0 = false)
    (htrig : ∀ t, val2 t trig = val t trig) :
    ¬ (P.finish node true).refActive val2 0 1 ∧
    ∀ t, (P.finish node true).refActive val2 (t + 1) 1 ↔
      (P.finish node false).refActive val t 1 := by
  have hL : 2 ≤ P.nodes.length := hA.2.1
  obtain ⟨hPs, hPa, hPt, hPd, _, _⟩ := nodesOnly_nodes _ _ hA.1
  have hPs : P.startNode = 0 := hPs
  have hPa : P.acceptNode = 1 := hPa
  have hPt : P.trigger_sig = trig := hPt
  have hPd : P.disable_sig = SigBit.S0 := hPd
  have hPth : P.throughout_sig = SigBit.S1 := (nodesOnly_throughout _ _ hA.1).1
  have hc0 : P.throughout_ctrl SigBit.S1 = SigBit.S1 := throughout_ctrl_S1 P _ hPth
  have hent := adds_new_entries trig G P hA
  have hfields : ∀ x, (P.finish node x).startNode = 0 ∧ (P.finish node x).trigger_sig = trig ∧
      (P.finish node x).disable_sig = SigBit.S0 := by
    intro x
    obtain ⟨a, _, c, d, _, _⟩ := nodesOnly_nodes _ _ (finish_nodesOnly P node x)
    exact ⟨a.trans hPs, c.trans hPt, d.trans hPd⟩
  have hl : ∀ x u v c, (v, c) ∈ (P.finish node x).linksOf u ↔
      ((v, c) ∈ P.linksOf u ∨
        (u = (if x = true then P.nodes.length else node) ∧ v = 1 ∧ c = SigBit.S1)) := by
    intro x u v c
    rw [finish_links P node x hn u, mem_append_if, hPa, hc0, Prod.mk.injEq]
  have he : ∀ x u v c, (v, c) ∈ (P.finish node x).edgesOf u ↔
      ((v, c) ∈ P.edgesOf u ∨
        ((x = true ∧ u = node) ∧ v = P.nodes.length ∧ c = SigBit.S1)) := by
    intro x u v c
    rw [finish_edges P node x hn u, mem_append_if, hc0, Prod.mk.injEq]
  -- the reference runs agree on the nodes of the sequence
  have hcore := ref_core (P.finish node false) (P.finish node true) val val2
    (fun v => v ≠ 1 ∧ v < P.nodes.length)
    ((hfields true).1.trans (hfields false).1.symm)
    (fun t => by rw [(hfields true).2.1, (hfields false).2.1]; exact htrig t)
    (fun t => by rw [(hfields true).2.2, (hfields false).2.2, hS0, hS00])
    (fun u v c hC => by
      rw [hl, hl]
      constructor
      · rintro (h | ⟨_, h, _⟩)
        · exact Or.inl h
        · exact absurd h hC.1
      · rintro (h | ⟨_, h, _⟩)
        · exact Or.inl h
        · exact absurd h hC.1)
    (fun u v c hC => by
      rw [he, he]
      constructor
      · rintro (h | ⟨_, h, _⟩)
        · exact Or.inl h
        · exact absurd h (by have := hC.2; omega)
      · rintro (h | ⟨_, h, _⟩)
        · exact Or.inl h
        · exact absurd h (by have := hC.2; omega))
    (fun u v c hC hm => by
      rcases (hl false u v c).1 hm with h | ⟨_, h, _⟩
      · obtain ⟨a, b, _, _, g⟩ := hent u (v, c) (Or.inr h)
        exact ⟨⟨a, b⟩, hG c g⟩
      · exact absurd h hC.1)
    (fun u v c hC hm => by
      rcases (he false u v c).1 hm with h | ⟨_, h, _⟩
      · obtain ⟨a, b, _, _, g⟩ := hent u (v, c) (Or.inl h)
        exact ⟨⟨a, b⟩, hG c g⟩
      · exact absurd h (by have := hC.2; omega))
  have hnode : ∀ t, (P.finish node false).refActive val t node ↔
      (P.finish node true).refActive val2 t node :=
    fun t => (hcore t node ⟨by omega, hn⟩).2
  -- the accept node
  have hacc : ∀ x (vl : Nat → SigBit → Bool) t, vl t SigBit.S1 = true →
      ((P.finish node x).refActive vl t 1 ↔
        (P.finish node x).refActive vl t (if x = true then P.nodes.length else node)) := by
    intro x vl t hv
    refine active_single_link _ vl t 1 _ SigBit.S1 (by rw [(hfields x).1]; omega) ?_ ?_ hv
    · intro u c hm
      rcases (he x u 1 c).1 hm with h | ⟨_, h, _⟩
      · exact (hent u (1, c) (Or.inl h)).2.2.1 rfl
      · omega
    · intro u c
      rw [hl]
      constructor
      · rintro (h | ⟨h1, _, h2⟩)
        · exact absurd rfl (hent u (1, c) (Or.inr h)).2.2.1
        · exact ⟨h1, h2⟩
      · rintro ⟨h1, h2⟩
        exact Or.inr ⟨h1, rfl, h2⟩
  -- the node of the extra edge
  have hnew : ∀ t, (P.finish node true).refActive val2 t P.nodes.length ↔
      (P.finish node true).refStored val2 t P.nodes.length := by
    intro t
    rw [active_no_link _ val2 t P.nodes.length (by rw [(hfields true).1]; omega) ?_]
    · rw [(hfields true).2.2]
      exact ⟨fun h => h.2, fun h => ⟨hS0 t, h⟩⟩
    · intro u c hm
      rcases (hl true u _ c).1 hm with h | ⟨_, h, _⟩
      · have := (hent u (P.nodes.length, c) (Or.inr h)).2.2.2.1
        exact absurd this (lt_irrefl _)
      · omega
  have hstored : ∀ t, (P.finish node true).refStored val2 (t + 1) P.nodes.length ↔
      (P.finish node true).refActive val2 t node := by
    intro t
    rw [refStored_succ]
    constructor
    · rintro ⟨u, c, hact, hm, _⟩
      rcases (he true u _ c).1 hm with h | ⟨⟨_, h⟩, _, _⟩
      · have := (hent u (P.nodes.length, c) (Or.inl h)).2.2.2.1
        exact absurd this (lt_irrefl _)
      · rw [h] at hact
        exact hact
    · intro h
      exact ⟨node, SigBit.S1, h, (he true node _ _).2 (Or.inr ⟨⟨rfl, rfl⟩, rfl, rfl⟩), hS1' t⟩
  constructor
  · rw [hacc true val2 0 (hS1' 0), if_pos rfl, hnew 0]
    simp [SvaFsm.refStored]
  · intro t
    rw [hacc true val2 (t + 1) (hS1' (t + 1)), if_pos rfl, hnew (t + 1), hstored t,
      hacc false val t (hS1 t), if_neg (by simp)]
    exact (hnode t).symm

end SVA


namespace SVA

/-! ## The automata of `build_fsm` with and without the extra edge -/

/-- On a sequence of supported operators `build_fsm` returns a well-formed automaton with
acyclic links, on which `getAccept` returns. -/
theorem build_fsm_returns (k : Bool) (trig : SigBit) (net : SvaNet) (x : Bool)
    (hs : net.supported = true) (m : Module) :
    ∃ A m1 f1 acc, build_fsm k trig net x = Except.ok A ∧ A.WellFormed ∧ A.Acyclic ∧
      A.materialized = false ∧ A.getAccept m = Except.ok (m1, f1, acc) ∧
      ∀ (env : Nat → Nat → Bool) (t : Nat),
        (m1.value env t acc = true ↔ A.refActive (m1.value env) t A.acceptNode) := by
  obtain ⟨⟨P, node⟩, hr, _⟩ := parse_sequence_returns k net hs (SvaFsm.new trig) 0 rfl
    (show 0 < 2 by omega)
  have B := parse_sequence_built k (fun _ => True) (fun _ _ _ _ => trivial) trivial net
    (SvaFsm.new trig) 0 (P, node) (fun _ _ => trivial) trivial (show 0 < 2 by omega) hr
  obtain ⟨hc, _, hacyc⟩ := B.2.2.2 (Or.inr hs)
  have hc2 : 2 ≤ node := hc
  have hn : node < P.nodes.length := B.2.2.1
  have hA : (SvaFsm.new trig).Adds 2 0 (fun _ => True) P :=
    adds_weaken _ _ _ _ _ _ _ _ B.1 (le_refl _) (Or.inl rfl) (fun _ _ => trivial)
  have hacc : P.acceptNode = 1 := (nodesOnly_nodes _ _ hA.1).2.1
  have hlen : 2 ≤ P.nodes.length := hA.2.1
  have hold : P.linksOf 1 = [] := by
    rw [(adds_old _ _ _ _ _ hA 1 (by omega) (show 1 < 2 by omega)).2]
    exact new_linksOf trig 1
  have hwf : (P.finish node x).WellFormed :=
    finish_wellFormed P node x (adds_wellFormed _ _ _ _ _ hA (new_wellFormed trig)) hn
  have hac : (P.finish node x).Acyclic :=
    finish_acyclic P node x (hacyc (new_acyclic trig)) hn (by rw [hacc]; omega)
      (by rw [hacc]; exact hold) (by rw [hacc]; omega)
  have hno : (SvaFsm.new trig).NodesOnly (P.finish node x) :=
    nodesOnly_trans _ _ _ hA.1 (finish_nodesOnly P node x)
  have hmat : (P.finish node x).materialized = false := by
    rw [nodesOnly_materialized _ _ hno]; rfl
  obtain ⟨m1, f1, acc, hg, hspec⟩ := getAccept_reference (P.finish node x) m hwf hac hmat
  exact ⟨_, m1, f1, acc, build_fsm_finish k trig net x P node hr, hwf, hac, hmat, hg, hspec⟩

/-- The accept signal of the automaton with the extra edge (non-overlapped implication) is
the accept signal of the automaton without it (overlapped implication), one cycle later. -/
theorem build_fsm_shift (k : Bool) (trig : SigBit) (net : SvaNet) (m : Module) (A : SvaFsm)
    (m1 : Module) (f1 : SvaFsm) (acc1 : SigBit) (hcl : m.Closed)
    (he : ∀ e ∈ net.exprs, e.reads_below m.nwires = true)
    (ht : trig.reads_below m.nwires = true)
    (hb : build_fsm k trig net false = Except.ok A)
    (hg : A.getAccept m = Except.ok (m1, f1, acc1)) :
    ∃ B m2 f2 acc2, build_fsm k trig net true = Except.ok B ∧
      B.getAccept m = Except.ok (m2, f2, acc2) ∧
      ∀ env : Nat → Nat → Bool, m2.value env 0 acc2 = false ∧
        ∀ t, m2.value env (t + 1) acc2 = m1.value env t acc1 := by
  obtain ⟨P, node, hr, hAeq⟩ := build_fsm_inv k trig net false A hb
  subst hAeq
  have hB := build_fsm_finish k trig net true P node hr
  have Bt := parse_sequence_built k (fun c => c.reads_below m.nwires = true)
    (fun a b ha hb => by simp only [SigBit.reads_below, ha, hb, Bool.and_self]) rfl net
    (SvaFsm.new trig) 0 (P, node) he rfl (show 0 < 2 by omega) hr
  have hA : (SvaFsm.new trig).Adds 2 0 (fun c => c.reads_below m.nwires = true) P :=
    adds_weaken _ _ _ _ _ _ _ _ Bt.1 (le_refl _) (Or.inl rfl) (fun _ g => g.2)
  have hn0 : node = 0 ∨ 2 ≤ node := Bt.2.1
  have hn : node < P.nodes.length := Bt.2.2.1
  have hacc : P.acceptNode = 1 := (nodesOnly_nodes _ _ hA.1).2.1
  have hlen : 2 ≤ P.nodes.length := hA.2.1
  have hwfP : P.WellFormed := adds_wellFormed _ _ _ _ _ hA (new_wellFormed trig)
  have hmat : ∀ x, (P.finish node x).materialized = false := by
    intro x
    rw [nodesOnly_materialized _ _
      (nodesOnly_trans _ _ _ hA.1 (finish_nodesOnly P node x))]
    rfl
  have hfacc : ∀ x, (P.finish node x).acceptNode = 1 := fun x =>
    ((nodesOnly_nodes _ _ (finish_nodesOnly P node x)).2.1).trans hacc
  -- the links are acyclic, since `getAccept` returned
  have hacA : (P.finish node false).Acyclic := by
    intro u hu
    have := getAccept_cycle _ u hu (hmat false) m
    rw [hg] at this
    cases this
  have hacP : P.Acyclic := by
    refine acyclic_sub P _ ?_ hacA
    rintro u v ⟨c, hc⟩
    exact ⟨c, by rw [finish_links P node false hn u]; exact List.mem_append_left _ hc⟩
  have hsink : P.linksOf 1 = [] := by
    apply List.eq_nil_iff_forall_not_mem.2
    intro p hp
    exact (adds_new_entries trig _ P hA 1 p (Or.inr hp)).1 rfl
  have hacB : (P.finish node true).Acyclic :=
    finish_acyclic P node true hacP hn (by rw [hacc]; omega) (by rw [hacc]; exact hsink)
      (by rw [hacc]; omega)
  obtain ⟨m1', f1', acc1', hg1, hspec1⟩ := getAccept_reference (P.finish node false) m
    (finish_wellFormed P node false hwfP hn) hacA (hmat false)
  rw [hg] at hg1
  have hinj := Except.ok.inj hg1
  simp only [Prod.mk.injEq] at hinj
  obtain ⟨e1, _, e3⟩ := hinj
  subst e1
  subst e3
  obtain ⟨m2, f2, acc2, hg2, hspec2⟩ := getAccept_reference (P.finish node true) m
    (finish_wellFormed P node true hwfP hn) hacB (hmat true)
  refine ⟨_, m2, f2, acc2, hB, hg2, ?_⟩
  intro env
  have hx1 := getAccept_extends _ m m1 f1 acc1 hg
  have hx2 := getAccept_extends _ m m2 f2 acc2 hg2
  have hval : ∀ c, c.reads_below m.nwires = true →
      ∀ t, m2.value env t c = m1.value env t c := by
    intro c hc t
    rw [extends_value m m2 hx2 hcl env t c hc, extends_value m m1 hx1 hcl env t c hc]
  have hsh := finish_shift trig _ P node hA hn0 hn (m1.value env) (m2.value env) hval
    (fun _ => rfl) (fun _ => rfl) (fun _ => rfl) (fun _ => rfl) (hval trig ht)
  constructor
  · have h0 := hspec2 env 0
    rw [hfacc true] at h0
    cases hv : m2.value env 0 acc2 with
    | false => rfl
    | true => exact absurd (h0.1 hv) hsh.1
  · intro t
    have h2 := hspec2 env (t + 1)
    have h1 := hspec1 env t
    rw [hfacc true] at h2
    rw [hfacc false] at h1
    exact Bool.eq_iff_iff.2 (h2.trans ((hsh.2 t).trans h1.symm))

end SVA


namespace SVA

/-! ## C31: the throughout stack -/

/-- C31: whenever `parse_sequence` returns, for every sequence, the throughout signal and
the throughout stack of the automaton are those at entry, and (when started on a node of
the automaton) it has only added entries to the edge and link lists, each with a control
that is true only when the throughout signal at entry is true. For `expr throughout seq`
the run is `pushThroughout(expr)`, which pushes the signal at entry, the run for `seq`,
which returns with the signal and stack that `pushThroughout` left, also when `seq` contains
throughout operators, and `popThroughout`, which restores the signal and stack at entry;
every edge and link added carries a control that is true only when `expr` is true and the
throughout signal at entry is true. -/
theorem parse_sequence_throughout (k : Bool) (net : SvaNet) (fsm : SvaFsm) (start : Nat)
    (fsm2 : SvaFsm) (node : Nat)
    (h : parse_sequence k net fsm start = Except.ok (fsm2, node)) :
    fsm2.throughout_sig = fsm.throughout_sig ∧
    fsm2.throughout_stack = fsm.throughout_stack ∧
    (start < fsm.nodes.length →
      ∀ u, ∃ newE newL, fsm2.edgesOf u = fsm.edgesOf u ++ newE ∧
        fsm2.linksOf u = fsm.linksOf u ++ newL ∧
        ∀ p, p ∈ newE ∨ p ∈ newL → ∀ inp q : Nat → Bool, p.2.eval inp q = true →
          fsm.throughout_sig.eval inp q = true) ∧
    (∀ expr inner, net = SvaNet.throughout (SvaNet.expr expr) inner →
      ∃ f1 f2, fsm.pushThroughout expr = Except.ok f1 ∧
        f1.throughout_stack = fsm.throughout_stack ++ [fsm.throughout_sig] ∧
        parse_sequence k inner f1 start = Except.ok (f2, node) ∧
        f2.throughout_sig = f1.throughout_sig ∧ f2.throughout_stack = f1.throughout_stack ∧
        f2.popThroughout = Except.ok fsm2 ∧
        (start < fsm.nodes.length →
          ∀ u, ∃ newE newL, fsm2.edgesOf u = fsm.edgesOf u ++ newE ∧
            fsm2.linksOf u = fsm.linksOf u ++ newL ∧
            ∀ p, p ∈ newE ∨ p ∈ newL → ∀ inp q : Nat → Bool, p.2.eval inp q = true →
              expr.eval inp q = true ∧ fsm.throughout_sig.eval inp q = true)) := by
  have g := parse_sequence_grows k net fsm start _ h
  have hts := nodesOnly_throughout _ _ g.1
  refine ⟨hts.1, hts.2, ?_, ?_⟩
  · intro hs u
    have B := parse_sequence_built k (fun _ => True) (fun _ _ _ _ => trivial) trivial net
      fsm start _ (fun _ _ => trivial) trivial hs h
    obtain ⟨newE, newL, he, hl, hp⟩ := B.1.2.2 u
    exact ⟨newE, newL, he, hl, fun p hp1 inp q hq => (hp p hp1).2.2.2.2.1 inp q hq⟩
  · intro expr inner hnet
    subst hnet
    unfold parse_sequence at h
    simp only at h
    obtain ⟨f1, h1, h⟩ := bind_ok _ _ _ h
    obtain ⟨⟨f2, n2⟩, h2, h⟩ := bind_ok _ _ _ h
    simp only at h
    obtain ⟨f3, h3, h⟩ := bind_ok _ _ _ h
    have hf : f3 = fsm2 ∧ n2 = node := by
      cases h
      exact ⟨rfl, rfl⟩
    obtain ⟨hf3, hn2⟩ := hf
    subst hf3 hn2
    have g2 := parse_sequence_grows k inner f1 start _ h2
    have hts2 := nodesOnly_throughout _ _ g2.1
    obtain ⟨hn1, hsig⟩ := pushThroughout_inv fsm f1 expr h1
    obtain ⟨_, e3, _⟩ := throughout_frame fsm f1 f2 f3 expr h1 g2.1 h3
    have hstack : f1.throughout_stack = fsm.throughout_stack ++ [fsm.throughout_sig] := by
      unfold SvaFsm.pushThroughout at h1
      by_cases hm : fsm.materialized = true
      · rw [if_pos hm] at h1; cases h1
      rw [if_neg hm] at h1
      by_cases hs : fsm.throughout_sig = SigBit.S1
      · simp only [hs, if_true] at h1
        cases h1
        simp only [hs]
      · simp only [hs, if_false] at h1
        cases h1
        rfl
    refine ⟨f1, f2, h1, hstack, h2, hts2.1, hts2.2, h3, ?_⟩
    intro hs u
    have B := parse_sequence_built k (fun _ => True) (fun _ _ _ _ => trivial) trivial inner
      f1 start _ (fun _ _ => trivial) trivial (by rw [hn1]; exact hs) h2
    obtain ⟨newE, newL, he, hl, hp⟩ := B.1.2.2 u
    refine ⟨newE, newL, ?_, ?_, ?_⟩
    · rw [edgesOf_nodes f3 f2 e3, he, edgesOf_nodes f1 fsm hn1]
    · rw [linksOf_nodes f3 f2 e3, hl, linksOf_nodes f1 fsm hn1]
    · intro p hp1 inp q hq
      have := (hp p hp1).2.2.2.2.1 inp q hq
      rcases hsig with ⟨e0, e1⟩ | ⟨_, e1⟩
      · rw [e1] at this
        rw [e0]
        exact ⟨this, rfl⟩
      · rw [e1] at this
        simp only [SigBit.eval, Bool.and_eq_true] at this
        exact ⟨this.2, this.1⟩

/-- Witness for C31: a throughout nested in a throughout, compiled into a fresh automaton. -/
theorem parse_sequence_throughout_witness :
    ∃ fsm2 node,
      parse_sequence false throughoutNested (SvaFsm.new SigBit.S1) 0 =
        Except.ok (fsm2, node) ∧
      fsm2.throughout_sig = SigBit.S1 ∧ fsm2.throughout_stack = [] ∧
      fsm2.linksOf 0 = [(2, SigBit.and (SigBit.wire 4) (SigBit.wire 0))] ∧
      fsm2.linksOf 3 =
        [(4, SigBit.and (SigBit.and (SigBit.wire 4) (SigBit.wire 2)) (SigBit.wire 1))] :=
  ⟨_, _, rfl,
    (parse_sequence_throughout false throughoutNested (SvaFsm.new SigBit.S1) 0 _ _ rfl).1,
    (parse_sequence_throughout false throughoutNested (SvaFsm.new SigBit.S1) 0 _ _ rfl).2.1,
    rfl, rfl⟩

end SVA


namespace SVA

/-! ## C34: repetition from zero -/

/-- C34: for every inner sequence `s`, every `M`, every automaton and start node,
`parse_sequence` returns for `s[*0:M]` what it returns for `s[*1:M+1]`, and for `s[*0:$]`
what it returns for `s[*1:$]` (the same automaton and end node, or the same failure); so
`build_fsm` builds the same automata. The first step of either run is the run for `s` from
the start node. For a Boolean `e` and a trigger at cycle 0 only, the accept signal of the
automaton of `e[*0:M]` is true at cycle `t` iff `e` holds on the cycles `0..t` and
`t + 1 ≤ M + 1`, and that of `e[*0:$]` iff `e` holds on the cycles `0..t`: a match needs
at least one cycle with `e`. -/
theorem repeat_zero_is_repeat_one (k : Bool) (s : SvaNet) :
    (∀ M fsm start,
      parse_sequence k (SvaNet.consecutive_repeat 0 (some M) s) fsm start =
        parse_sequence k (SvaNet.consecutive_repeat 1 (some (M + 1)) s) fsm start) ∧
    (∀ fsm start,
      parse_sequence k (SvaNet.consecutive_repeat 0 none s) fsm start =
        parse_sequence k (SvaNet.consecutive_repeat 1 none s) fsm start) ∧
    (∀ M trig x,
      build_fsm k trig (SvaNet.consecutive_repeat 0 (some M) s) x =
        build_fsm k trig (SvaNet.consecutive_repeat 1 (some (M + 1)) s) x) ∧
    (∀ trig x,
      build_fsm k trig (SvaNet.consecutive_repeat 0 none s) x =
        build_fsm k trig (SvaNet.consecutive_repeat 1 none s) x) ∧
    (∀ hi fsm start r,
      parse_sequence k (SvaNet.consecutive_repeat 0 hi s) fsm start = Except.ok r →
      ∃ f1 n1, parse_sequence k s fsm start = Except.ok (f1, n1) ∧ Grows (f1, n1) r) ∧
    (∀ (e trig : SigBit) (M : Nat) (m : Module),
      ∃ fsm m' fsm' acc,
        build_fsm false trig (SvaNet.consecutive_repeat 0 (some M) (SvaNet.expr e)) false =
          Except.ok fsm ∧
        fsm.getAccept m = Except.ok (m', fsm', acc) ∧
        ∀ env : Nat → Nat → Bool, (∀ t, m'.value env t trig = true ↔ t = 0) →
          ∀ t, (m'.value env t acc = true ↔
            (∀ i, i ≤ t → m'.value env i e = true) ∧ t + 1 ≤ M + 1)) ∧
    (∀ (e trig : SigBit) (m : Module),
      ∃ fsm m' fsm' acc,
        build_fsm false trig (SvaNet.consecutive_repeat 0 none (SvaNet.expr e)) false =
          Except.ok fsm ∧
        fsm.getAccept m = Except.ok (m', fsm', acc) ∧
        ∀ env : Nat → Nat → Bool, (∀ t, m'.value env t trig = true ↔ t = 0) →
          ∀ t, (m'.value env t acc = true ↔ ∀ i, i ≤ t → m'.value env i e = true)) := by
  refine ⟨fun M fsm start => parse_repeat_zero_bounded k s M fsm start,
    fun fsm start => parse_repeat_zero_unbounded k s fsm start, ?_, ?_, ?_, ?_, ?_⟩
  · intro M trig x
    unfold build_fsm
    simp only
    rw [parse_repeat_zero_bounded]
  · intro trig x
    unfold build_fsm
    simp only
    rw [parse_repeat_zero_unbounded]
  · intro hi fsm start r h
    unfold parse_sequence at h
    obtain ⟨⟨f1, n1⟩, h1, h⟩ := bind_ok _ _ _ h
    refine ⟨f1, n1, h1, ?_⟩
    simp only at h
    obtain ⟨⟨f2, n2⟩, h2, h⟩ := bind_ok _ _ _ h
    simp only at h
    have e2 : (f2, n2) = (f1, n1) := by
      have : Except.ok (f1, n1) = Except.ok (f2, n2) := h2
      exact (Except.ok.inj this).symm
    cases e2
    cases hi with
    | none =>
      simp only at h
      obtain ⟨⟨f3, n3⟩, h3, h⟩ := bind_ok _ _ _ h
      simp only at h
      obtain ⟨⟨f4, n4⟩, h4, h⟩ := bind_ok _ _ _ h
      simp only at h
      obtain ⟨f5, h5, h⟩ := bind_ok _ _ _ h
      cases h
      obtain ⟨_, _, hv, hf5⟩ := createLink_inv _ _ _ _ _ h5
      have g3 := grows_edge_to_new_node _ _ _ _ h3
      have g4 := parse_sequence_grows k s _ _ _ h4
      have g := grows_trans _ _ _ g3 g4
      subst hf5
      refine ⟨nodesOnly_trans _ _ _ g.1 rfl, ?_, fun _ => ?_⟩
      · show _ ≤ (f4.withLink _ _ _).nodes.length
        rw [length_withLink]; exact g.2.1
      · show n1 < (f4.withLink _ _ _).nodes.length
        rw [length_withLink]; exact hv
    | some M =>
      simp only at h
      refine foldlM_preserves Grows grows_refl grows_trans _ _ ?_ _ _ h
      intro a _ a' _ hs
      obtain ⟨⟨f4, n4⟩, h4, hs⟩ := bind_ok _ _ _ hs
      simp only at hs
      obtain ⟨⟨f5, n5⟩, h5, hs⟩ := bind_ok _ _ _ hs
      simp only at hs
      obtain ⟨f6, h6, hs⟩ := bind_ok _ _ _ hs
      cases hs
      obtain ⟨_, _, _, hf6⟩ := createLink_inv _ _ _ _ _ h6
      have g := grows_trans _ _ _ (grows_edge_to_new_node _ _ _ _ h4)
        (parse_sequence_grows k s _ _ _ h5)
      refine grows_trans _ _ _ g ?_
      subst hf6
      exact ⟨rfl, by show _ ≤ (f5.withLink _ _ _).nodes.length; rw [length_withLink],
        fun hh => by show _ < (f5.withLink _ _ _).nodes.length; rw [length_withLink]; exact hh⟩
  · intro e trig M m
    obtain ⟨m', fsm', acc, hget, hsem⟩ :=
      getAccept_reference (fsmOf trig (2 * (max 0 1 + (M - 0)) + 1)
        (repNode e (max 0 1) (max 0 1 + (M - 0)) true)) m
        (rep_wellFormed trig e _ _ (by omega) (by omega))
        (rep_acyclic trig e _ _ (by omega) (by omega)) rfl
    refine ⟨_, m', fsm', acc, build_fsm_repeat_bounded trig e 0 M, hget, ?_⟩
    intro env htrig t
    rw [hsem env t]
    have h := rep_accept trig e (max 0 1) (max 0 1 + (M - 0)) (by omega) (by omega)
      (m'.value env) (fun _ => rfl) (fun _ => rfl) htrig t
    refine h.trans ?_
    constructor
    · rintro ⟨h1, _, h3⟩
      exact ⟨h1, by omega⟩
    · rintro ⟨h1, h3⟩
      exact ⟨h1, by omega, by omega⟩
  · intro e trig m
    obtain ⟨m', fsm', acc, hget, hsem⟩ :=
      getAccept_reference (fsmOf trig (2 * (max 0 1) + 1 + 1 + 1) (infNode e (max 0 1))) m
        (inf_wellFormed trig e _ (by omega)) (inf_acyclic trig e _ (by omega)) rfl
    refine ⟨_, m', fsm', acc, build_fsm_repeat_unbounded trig e 0, hget, ?_⟩
    intro env htrig t
    rw [hsem env t]
    have h := inf_accept trig e (max 0 1) (by omega) (m'.value env) (fun _ => rfl)
      (fun _ => rfl) htrig t
    refine h.trans ?_
    constructor
    · rintro ⟨h1, _⟩
      exact h1
    · intro h1
      exact ⟨h1, by omega⟩

/-- Witness for C34: `e[*0:1]` and `e[*1:2]` from the fresh automaton, where
`parse_sequence` returns. -/
theorem repeat_zero_is_repeat_one_witness :
    parse_sequence false (SvaNet.consecutive_repeat 0 (some 1) (SvaNet.expr (SigBit.wire 0)))
        (SvaFsm.new SigBit.S1) 0 =
      parse_sequence false (SvaNet.consecutive_repeat 1 (some 2) (SvaNet.expr (SigBit.wire 0)))
        (SvaFsm.new SigBit.S1) 0 ∧
    ∃ r, parse_sequence false
      (SvaNet.consecutive_repeat 0 (some 1) (SvaNet.expr (SigBit.wire 0)))
      (SvaFsm.new SigBit.S1) 0 = Except.ok r :=
  ⟨(repeat_zero_is_repeat_one false (SvaNet.expr (SigBit.wire 0))).1 1 (SvaFsm.new SigBit.S1) 0,
    ⟨_, rfl⟩⟩

end SVA


namespace SVA

/-! ## C35: the links of a compiled sequence are acyclic -/

/-- In permissive mode an unsupported primitive is skipped and `parse_sequence` returns
its start node; for `(other or other)` the sequence-or then links the start node to
itself, and `getAccept` does not return on the automaton. -/
theorem keep_mode_self_link :
    parse_sequence true orOther (SvaFsm.new SigBit.S1) 0 =
      Except.ok ((SvaFsm.new SigBit.S1).withLink 0 0 SigBit.S1, 0) ∧
    orOther.supported = false ∧
    ∀ m : Module, ((SvaFsm.new SigBit.S1).withLink 0 0 SigBit.S1).getAccept m =
      Except.error Failure.depth := by
  refine ⟨rfl, rfl, fun m => ?_⟩
  exact getAccept_cycle _ 0 (Relation.TransGen.single ⟨SigBit.S1, by decide⟩) rfl m

/-- C35: for a sequence built only from supported operators (Boolean expression,
`##[N:M]` concatenation, `[*N:M]` repetition, `or`, `expr throughout`), `parse_sequence`
returns from every node of every automaton that is not materialized; the node it returns
was created during the call and has no link; acyclic links stay acyclic, also with the
final link from the returned node to an accept node that has no link and is not the
start node. Hence `build_fsm` (the fresh automaton, `parse_sequence`, the optional extra
edge and the final link to the accept node) returns a well-formed automaton with acyclic
links, on which `getAccept` returns and `getReject` returns or stops with the error for
too many control signals. -/
theorem parse_sequence_acyclic (k : Bool) (net : SvaNet) (hs : net.supported = true) :
    (∀ (fsm : SvaFsm) (start : Nat), fsm.materialized = false → start < fsm.nodes.length →
      ∃ fsm2 node, parse_sequence k net fsm start = Except.ok (fsm2, node) ∧
        fsm.nodes.length ≤ node ∧ node < fsm2.nodes.length ∧ fsm2.linksOf node = [] ∧
        (fsm.Acyclic → fsm2.Acyclic) ∧
        (fsm.Acyclic → fsm.acceptNode < fsm.nodes.length → fsm.acceptNode ≠ start →
          fsm.linksOf fsm.acceptNode = [] →
          ∀ c, (fsm2.withLink node fsm2.acceptNode c).Acyclic)) ∧
    (∀ (trig : SigBit) (x : Bool),
      ∃ A, build_fsm k trig net x = Except.ok A ∧ A.WellFormed ∧ A.Acyclic ∧
        ∀ (m : Module), (∃ r, A.getAccept m = Except.ok r) ∧
          ∀ wa, (∃ m2 fsm2 rej accO, A.getReject m wa = Except.ok (m2, fsm2, rej, accO)) ∨
            A.getReject m wa = Except.error (Failure.log_error ctrl_error)) := by
  have key : ∀ (fsm : SvaFsm) (start : Nat), fsm.materialized = false →
      start < fsm.nodes.length →
      ∃ fsm2 node, parse_sequence k net fsm start = Except.ok (fsm2, node) ∧
        fsm.Adds fsm.nodes.length start (fun _ => True) fsm2 ∧
        fsm.nodes.length ≤ node ∧ node < fsm2.nodes.length ∧ fsm2.linksOf node = [] ∧
        (fsm.Acyclic → fsm2.Acyclic) := by
    intro fsm start hm hst
    obtain ⟨⟨fsm2, node⟩, hr, _⟩ := parse_sequence_returns k net hs fsm start hm hst
    have B := parse_sequence_built k (fun _ => True) (fun _ _ _ _ => trivial) trivial net
      fsm start (fsm2, node) (fun _ _ => trivial) trivial hst hr
    obtain ⟨hc, hsink, hacyc⟩ := B.2.2.2 (Or.inr hs)
    exact ⟨fsm2, node, hr,
      adds_weaken _ _ _ _ _ _ _ _ B.1 (le_refl _) (Or.inl rfl) (fun _ _ => trivial),
      hc, B.2.2.1, hsink, hacyc⟩
  constructor
  · intro fsm start hm hst
    obtain ⟨fsm2, node, hr, hA, hc, hn, hsink, hacyc⟩ := key fsm start hm hst
    refine ⟨fsm2, node, hr, hc, hn, hsink, hacyc, ?_⟩
    intro hac ha hne hl c
    have hacc : fsm2.acceptNode = fsm.acceptNode := (nodesOnly_nodes _ _ hA.1).2.1
    have hold := (adds_old _ _ _ _ _ hA fsm.acceptNode hne ha).2
    rw [hacc]
    refine acyclic_withLink fsm2 node fsm.acceptNode c hn (hacyc hac) ?_ ?_
    · rw [hold]; exact hl
    · omega
  · intro trig x
    obtain ⟨P, node, hr, hA, hc, hn, hsink, hacyc⟩ :=
      key (SvaFsm.new trig) 0 rfl (show 0 < 2 by omega)
    have hc2 : 2 ≤ node := hc
    have hacc : P.acceptNode = 1 := (nodesOnly_nodes _ _ hA.1).2.1
    have hlen : 2 ≤ P.nodes.length := hA.2.1
    have hold : P.linksOf 1 = [] := by
      rw [(adds_old _ _ _ _ _ hA 1 (by omega) (show 1 < 2 by omega)).2]
      exact new_linksOf trig 1
    have hwf : (P.finish node x).WellFormed :=
      finish_wellFormed P node x (adds_wellFormed _ _ _ _ _ hA (new_wellFormed trig)) hn
    have hac : (P.finish node x).Acyclic :=
      finish_acyclic P node x (hacyc (new_acyclic trig)) hn (by rw [hacc]; omega)
        (by rw [hacc]; exact hold) (by rw [hacc]; omega)
    have hno : (SvaFsm.new trig).NodesOnly (P.finish node x) :=
      nodesOnly_trans _ _ _ hA.1 (finish_nodesOnly P node x)
    have hmat : (P.finish node x).materialized = false := by
      rw [nodesOnly_materialized _ _ hno]; rfl
    obtain ⟨_, _, _, _, hun, hdn⟩ := nodesOnly_nodes _ _ hno
    refine ⟨P.finish node x, build_fsm_finish k trig net x P node hr, hwf, hac, ?_⟩
    intro m
    exact ⟨getAccept_returns hwf.2.2.1 hac hmat m,
      fun wa => getReject_total _ m wa hwf hac (by rw [hun]; rfl) (by rw [hdn]; rfl)⟩

/-- Witness for C35: the antecedent `c throughout (a ##1 b)` of a non-overlapped
implication. -/
theorem parse_sequence_acyclic_witness :
    throughoutSeq.supported = true ∧
    ∃ A, build_fsm false SigBit.S1 throughoutSeq true = Except.ok A ∧ A.WellFormed ∧
      A.Acyclic ∧
      ∀ (m : Module), (∃ r, A.getAccept m = Except.ok r) ∧
        ∀ wa, (∃ m2 fsm2 rej accO, A.getReject m wa = Except.ok (m2, fsm2, rej, accO)) ∨
          A.getReject m wa = Except.error (Failure.log_error ctrl_error) :=
  ⟨rfl, (parse_sequence_acyclic false throughoutSeq rfl).2 SigBit.S1 true⟩

end SVA


namespace SVA

/-! ## C32: the antecedent match of the non-overlapped implication -/

/-- C32: let the module be closed (its registers read its own wires only) and let the
Boolean expressions of the antecedent sequence read wires of the module only, as every
signal does that exists before the automaton is emitted. Whenever `import` builds the
antecedent automaton of the overlapped implication (`build_fsm` without the extra edge)
and `getAccept` returns on it, it also builds the one of the non-overlapped implication
(with the extra edge) and `getAccept` returns on it, and on every input trace the
non-overlapped antecedent match is false at cycle 0 and at cycle `t+1` equals the
overlapped antecedent match at cycle `t`. On a sequence of supported operators the
overlapped automaton is built and `getAccept` returns on it. -/
theorem antecedent_match_shift (k : Bool) (net : SvaNet) (m : Module) (hcl : m.Closed)
    (he : ∀ e ∈ net.exprs, e.reads_below m.nwires = true) :
    (net.supported = true → ∃ A m1 f1 acc1,
      build_fsm k SigBit.S1 net false = Except.ok A ∧
      A.getAccept m = Except.ok (m1, f1, acc1)) ∧
    ∀ A m1 f1 acc1, build_fsm k SigBit.S1 net false = Except.ok A →
      A.getAccept m = Except.ok (m1, f1, acc1) →
      ∃ B m2 f2 acc2, build_fsm k SigBit.S1 net true = Except.ok B ∧
        B.getAccept m = Except.ok (m2, f2, acc2) ∧
        ∀ env : Nat → Nat → Bool, m2.value env 0 acc2 = false ∧
          ∀ t, m2.value env (t + 1) acc2 = m1.value env t acc1 := by
  constructor
  · intro hs
    obtain ⟨A, m1, f1, acc1, hb, _, _, _, hg, _⟩ :=
      build_fsm_returns k SigBit.S1 net false hs m
    exact ⟨A, m1, f1, acc1, hb, hg⟩
  · intro A m1 f1 acc1 hb hg
    exact build_fsm_shift k SigBit.S1 net m A m1 f1 acc1 hcl he rfl hb hg

/-- Witness for C32: the antecedent `a ##1 b` and the empty module. -/
theorem antecedent_match_shift_witness :
    ({} : Module).Closed ∧
    (∀ e ∈ concatAB.exprs, e.reads_below ({} : Module).nwires = true) ∧
    (∃ A m1 f1 acc1, build_fsm false SigBit.S1 concatAB false = Except.ok A ∧
      A.getAccept {} = Except.ok (m1, f1, acc1)) ∧
    ∀ A m1 f1 acc1, build_fsm false SigBit.S1 concatAB false = Except.ok A →
      A.getAccept {} = Except.ok (m1, f1, acc1) →
      ∃ B m2 f2 acc2, build_fsm false SigBit.S1 concatAB true = Except.ok B ∧
        B.getAccept {} = Except.ok (m2, f2, acc2) ∧
        ∀ env : Nat → Nat → Bool, m2.value env 0 acc2 = false ∧
          ∀ t, m2.value env (t + 1) acc2 = m1.value env t acc1 :=
  ⟨closed_empty, by decide, ⟨_, _, _, _, rfl, rfl⟩,
    (antecedent_match_shift false concatAB {} closed_empty (by decide)).2⟩

end SVA


namespace SVA

/-! ## C33: a plain sequence as the body of a cover property -/

/-- The cover property `a ##1 b` on the trace where `a` holds at cycle 0 and `b` at cycle 1:
the sequence matches at cycle 1 only (the accept signal is 0, 1, 0 at the cycles 0, 1, 2),
but the input of the cover cell, the register behind property-OK, reads 1 at cycle 1 and
0 at cycle 2: it is the negated accept signal, one cycle later. -/
theorem cover_sequence_trace :
    ∃ M, import_sva_cover false (some concatAB) {} = Except.ok M ∧
      M.checkers = [(Checker.cover, SigBit.auto 5, SigBit.S1)] ∧
      M.driver 5 = some (Driver.dff (SigBit.not acceptAB) false) ∧
      M.value traceAB 0 acceptAB = false ∧ M.value traceAB 1 acceptAB = true ∧
      M.value traceAB 2 acceptAB = false ∧
      M.value traceAB 1 (SigBit.auto 5) = true ∧ M.value traceAB 2 (SigBit.auto 5) = false ∧
      M.value traceAB 3 (SigBit.auto 5) = true :=
  ⟨_, rfl, rfl, rfl, rfl, rfl, rfl, rfl, rfl, rfl⟩

/-- C33 (what the code does): in cover mode, for a property body whose top primitive is a
sequence operator, `import` compiles the sequence into one automaton, calls `getAccept`,
and takes the negation of the accept signal as property-OK; the cover cell reads the
register behind it. On a sequence of supported operators all of this returns, and in
every cycle property-OK is true iff the accept node is not active in the reference run of
the automaton, that is, iff the sequence does not match in that cycle. -/
theorem import_cover_sequence (k : Bool) (net : SvaNet) (m : Module)
    (h : net.is_sequence_op = true) (hs : net.supported = true) :
    ∃ fsm m2 fsm2 accept,
      build_fsm k SigBit.S1 net false = Except.ok fsm ∧
      fsm.getAccept m = Except.ok (m2, fsm2, accept) ∧
      import_prop_okay { mode_keep := k, mode_cover := true } m net =
        Except.ok (m2, some (SigBit.not accept)) ∧
      import_sva_cover k (some net) m =
        Except.ok (((m2.addWire).1.addDff (SigBit.not accept) m2.nwires false).addChecker
          Checker.cover (SigBit.auto m2.nwires) SigBit.S1) ∧
      ∀ (env : Nat → Nat → Bool) (t : Nat),
        (m2.value env t accept = true ↔ fsm.refActive (m2.value env) t fsm.acceptNode) ∧
        (m2.value env t (SigBit.not accept) = true ↔
          ¬ fsm.refActive (m2.value env) t fsm.acceptNode) := by
  obtain ⟨A, m1, f1, acc, hb, _, _, _, hg, hspec⟩ :=
    build_fsm_returns k SigBit.S1 net false hs m
  have hp : ∀ body, import_prop_okay
      { mode_keep := k, mode_cover := true, body_net := body } m net =
      Except.ok (m1, some (SigBit.not acc)) := by
    intro body
    cases net <;> first
      | (cases h; done)
      | (simp only [import_prop_okay, Option.isSome, Bool.false_eq_true, or_true, false_or,
          if_true]
         rw [hb, ok_bind, hg, ok_bind]
         rfl)
  refine ⟨A, m1, f1, acc, hb, hg, hp none, ?_, ?_⟩
  · unfold import_sva_cover VerificSvaImporter.import
    simp only
    rw [hp (some net)]
    rfl
  · intro env t
    refine ⟨hspec env t, ?_⟩
    rw [← hspec env t]
    show (!(m1.value env t acc)) = true ↔ _
    cases m1.value env t acc <;> simp

/-- Witness for C33: the cover property `a ##1 b` and the empty module. -/
theorem import_cover_sequence_witness :
    concatAB.is_sequence_op = true ∧ concatAB.supported = true ∧
    ∃ fsm m2 fsm2 accept,
      build_fsm false SigBit.S1 concatAB false = Except.ok fsm ∧
      fsm.getAccept {} = Except.ok (m2, fsm2, accept) ∧
      import_prop_okay { mode_keep := false, mode_cover := true } {} concatAB =
        Except.ok (m2, some (SigBit.not accept)) ∧
      import_sva_cover false (some concatAB) {} =
        Except.ok (((m2.addWire).1.addDff (SigBit.not accept) m2.nwires false).addChecker
          Checker.cover (SigBit.auto m2.nwires) SigBit.S1) ∧
      ∀ (env : Nat → Nat → Bool) (t : Nat),
        (m2.value env t accept = true ↔ fsm.refActive (m2.value env) t fsm.acceptNode) ∧
        (m2.value env t (SigBit.not accept) = true ↔
          ¬ fsm.refActive (m2.value env) t fsm.acceptNode) :=
  ⟨rfl, rfl, import_cover_sequence false concatAB {} rfl rfl⟩

end SVA


namespace SVA

/-! ## The state-explosion guard along the recursion of `create_dnode` -/

theorem foldlM_error_at {σ α : Type} (f : σ → α → Except Failure σ) :
    ∀ (l : List α) (s : σ) (e : Failure), l.foldlM f s = Except.error e →
      ∃ s' a, a ∈ l ∧ f s' a = Except.error e := by
  intro l
  induction l with
  | nil => intro s e h; cases h
  | cons a l ih =>
    intro s e h
    rw [foldlM_ok_cons] at h
    cases hfa : f s a with
    | error e' =>
      rw [hfa] at h
      have : e' = e := Except.error.inj h
      subst this
      exact ⟨s, a, List.mem_cons_self _ _, hfa⟩
    | ok s1 =>
      rw [hfa] at h
      obtain ⟨s', b, hb, hf⟩ := ih s1 e h
      exact ⟨s', b, List.mem_cons_of_mem _ hb, hf⟩

/-- A pass of the valuation loop fails only in the recursive call, which is made for a
non-empty next subset. -/
theorem dnode_step_error_next (unodes : List SvaUFsmNode) (state : List Nat)
    (firstmatch : Bool) (ctrl : List SigBit)
    (construct : List (List Nat × SvaDFsmNode) → List Nat →
      Except Failure (List (List Nat × SvaDFsmNode)))
    (acc : SvaDFsmNode × List (List Nat × SvaDFsmNode)) (i : Nat) (e : Failure)
    (h : dnode_step unodes state firstmatch ctrl construct acc i = Except.error e) :
    val_next unodes state firstmatch ctrl i ≠ [] ∧
    construct acc.2 (usortint (val_next unodes state firstmatch ctrl i)) = Except.error e := by
  rw [dnode_step_eq] at h
  by_cases hn : val_next unodes state firstmatch ctrl i = []
  · rw [if_pos hn] at h; cases h
  · rw [if_neg hn] at h
    refine ⟨hn, ?_⟩
    cases hc : construct acc.2 (usortint (val_next unodes state firstmatch ctrl i)) with
    | error e' =>
      rw [hc] at h
      rw [Except.error.inj h]
    | ok d => rw [hc] at h; cases h

/-- When a call fails with a `log_error`, the guard fired for the subset itself or for a
subset constructed from it. -/
theorem create_dnode_error_reach (unodes : List SvaUFsmNode) (firstmatch : Bool) :
    ∀ (fuel : Nat) (dnodes : List (List Nat × SvaDFsmNode)) (state : List Nat) (msg : String),
      create_dnode unodes fuel dnodes state firstmatch = Except.error (Failure.log_error msg) →
      ∃ K raw, SubsetReach unodes firstmatch state K ∧
        dnode_ctrl_raw unodes K = Except.ok raw ∧ 10 < (sort_and_unify raw).length := by
  intro fuel
  induction fuel with
  | zero =>
    intro dnodes state msg h
    rw [create_dnode_zero] at h
    cases h
  | succ fuel ih =>
    intro dnodes state msg h
    rw [create_dnode_succ] at h
    split_ifs at h with hc
    cases hraw : dnode_ctrl_raw unodes state with
    | error e =>
      rw [hraw] at h
      simp only at h
      have h1 := (dnode_ctrl_raw_spec unodes state).1 e hraw
      rw [h1] at h
      cases h
    | ok raw =>
      rw [hraw] at h
      simp only at h
      split_ifs at h with hlen
      · exact ⟨state, raw, Relation.ReflTransGen.refl, hraw, hlen⟩
      · cases hloop : (List.range (1 <<< (sort_and_unify raw).length)).foldlM
            (dnode_step unodes state firstmatch (sort_and_unify raw)
              (fun d s => create_dnode unodes fuel d s firstmatch))
            ({ ctrl := sort_and_unify raw }, dict_set dnodes state default) with
        | error e =>
          rw [hloop] at h
          simp only at h
          have he : e = Failure.log_error msg := Except.error.inj h
          subst he
          obtain ⟨s', i, hi, hstep⟩ := foldlM_error_at _ _ _ _ hloop
          obtain ⟨hne, hrec⟩ := dnode_step_error_next _ _ _ _ _ _ _ _ hstep
          obtain ⟨K, raw', hreach, hraw', hlen'⟩ := ih _ _ msg hrec
          have hi' : i < 2 ^ (sort_and_unify raw).length := by
            have := List.mem_range.1 hi
            rwa [Nat.shiftLeft_eq, Nat.one_mul] at this
          exact ⟨K, raw', Relation.ReflTransGen.head
            ⟨raw, i, hraw, by omega, hi', hne, rfl⟩ hreach, hraw', hlen'⟩
        | ok res =>
          rw [hloop] at h
          cases h

/-- When a call on the empty dictionary returns, every subset constructed from the subset is
a key of the dictionary and has a control union of at most 10 bits. -/
theorem create_dnode_ok_reach (unodes : List SvaUFsmNode) (firstmatch : Bool) (fuel : Nat)
    (state : List Nat) (d : List (List Nat × SvaDFsmNode))
    (h : create_dnode unodes fuel [] state firstmatch = Except.ok d) :
    ∀ K, SubsetReach unodes firstmatch state K →
      K ∈ dict_keys d ∧
      ∀ raw, dnode_ctrl_raw unodes K = Except.ok raw → (sort_and_unify raw).length ≤ 10 := by
  obtain ⟨hnd, hS, hent⟩ := create_dnode_entries unodes firstmatch fuel state d h
  have hkey : ∀ K, K ∈ dict_keys d → ∃ raw, dnode_ctrl_raw unodes K = Except.ok raw ∧
      (sort_and_unify raw).length ≤ 10 ∧
      ∀ e ∈ (dnode_of_ctrl unodes firstmatch K (sort_and_unify raw)).edges,
        e.1 ∈ dict_keys d := by
    intro K hK
    unfold dict_keys at hK
    obtain ⟨it, hit, hitK⟩ := List.mem_map.1 hK
    obtain ⟨⟨raw, hraw, hlen, hdn⟩, hedges⟩ := hent it hit
    rw [hitK] at hraw hdn
    rw [hdn] at hedges
    exact ⟨raw, hraw, hlen, hedges⟩
  have hall : ∀ K, SubsetReach unodes firstmatch state K → K ∈ dict_keys d := by
    intro K hK
    induction hK with
    | refl => exact hS
    | tail _ hstep ih =>
      obtain ⟨raw, i, hraw, _, hi, hne, hK2⟩ := hstep
      obtain ⟨raw', hraw', _, hedges⟩ := hkey _ ih
      rw [hraw] at hraw'
      have hrr : raw = raw' := Except.ok.inj hraw'
      subst hrr
      rw [hK2]
      refine hedges (_, Const i (sort_and_unify raw).length) ?_
      unfold dnode_of_ctrl
      simp only
      rw [List.mem_map]
      exact ⟨i, List.mem_filter.2 ⟨List.mem_range.2 hi, by simp [hne]⟩, rfl⟩
  intro K hK
  refine ⟨hall K hK, ?_⟩
  intro raw hraw
  obtain ⟨raw', hraw', hlen, _⟩ := hkey K (hall K hK)
  rw [hraw] at hraw'
  rw [Except.ok.inj hraw']
  exact hlen

/-- The guard along the recursion, for a sufficient budget: called with the empty dictionary
on a strictly increasing subset of marked nodes, `create_dnode` fails with the documented
error iff the subset or a subset constructed from it has a control union of more than 10
bits, and returns otherwise. -/
theorem create_dnode_guard_reach (unodes : List SvaUFsmNode) (firstmatch : Bool)
    (state : List Nat) (fuel : Nat) (hsort : state.Sorted (fun a b => a < b))
    (hcl : MarksClosed unodes [])
    (hmark : ∀ x ∈ state, (unodes.getD x default).reachable = true)
    (hfuel : 2 ^ unodes.length < fuel) :
    (create_dnode unodes fuel [] state firstmatch =
        Except.error (Failure.log_error ctrl_error) ↔
      ∃ K raw, SubsetReach unodes firstmatch state K ∧
        dnode_ctrl_raw unodes K = Except.ok raw ∧ 10 < (sort_and_unify raw).length) ∧
    ((¬ ∃ K raw, SubsetReach unodes firstmatch state K ∧
        dnode_ctrl_raw unodes K = Except.ok raw ∧ 10 < (sort_and_unify raw).length) →
      ∃ d, create_dnode unodes fuel [] state firstmatch = Except.ok d) := by
  have hout : (∃ d, create_dnode unodes fuel [] state firstmatch = Except.ok d) ∨
      create_dnode unodes fuel [] state firstmatch =
        Except.error (Failure.log_error ctrl_error) := by
    rcases create_dnode_outcomes unodes firstmatch fuel [] state _ hsort
      (good_powerset unodes []) (card_powerset_lt _ _ hfuel) with h | ⟨e, he, h1 | h1⟩
    · exact Or.inl h
    · rw [h1] at he
      exact Or.inr he
    · rw [h1] at he
      exact absurd he (create_dnode_no_assert unodes firstmatch hcl fuel [] state hmark)
  have hiff : create_dnode unodes fuel [] state firstmatch =
        Except.error (Failure.log_error ctrl_error) ↔
      ∃ K raw, SubsetReach unodes firstmatch state K ∧
        dnode_ctrl_raw unodes K = Except.ok raw ∧ 10 < (sort_and_unify raw).length := by
    constructor
    · intro h
      exact create_dnode_error_reach unodes firstmatch fuel [] state ctrl_error h
    · rintro ⟨K, raw, hreach, hraw, hlen⟩
      rcases hout with ⟨d, hd⟩ | herr
      · have := (create_dnode_ok_reach unodes firstmatch fuel state d hd K hreach).2 raw hraw
        omega
      · exact herr
  refine ⟨hiff, ?_⟩
  intro hno
  rcases hout with h | herr
  · exact h
  · exact absurd (hiff.1 herr) hno

/-! ## A subset with one wide accept guard -/

theorem unodesWide_next (n : Nat) (fm : Bool) (K : List Nat) (ctrl : List SigBit) (i : Nat)
    (hK : ∀ x ∈ K, ((unodesWide n).getD x default).reachable = true) :
    val_next (unodesWide n) K fm ctrl i = [] := by
  apply List.eq_nil_iff_forall_not_mem.2
  intro t ht
  obtain ⟨_, u, hu, e, he, _⟩ := (mem_val_next _ _ _ _ _ _).1 ht
  have hr := hK u hu
  rcases u with _ | u
  · cases he
  · cases hr

/-- No subset is constructed from a subset of `unodesWide n`: its node has no edge. -/
theorem unodesWide_reach (n : Nat) (fm : Bool) (S K : List Nat)
    (h : SubsetReach (unodesWide n) fm S K) : K = S := by
  induction h with
  | refl => rfl
  | tail hreach hstep ih =>
    obtain ⟨raw, i, hraw, _, _, hne, _⟩ := hstep
    exact absurd (unodesWide_next n fm _ _ i (dnode_ctrl_raw_marked _ _ raw hraw)) hne

end SVA


namespace SVA

/-- A call that constructs a subset records every valuation of its control union, and
nothing else, in the node of the subset. -/
theorem create_dnode_enumerates (unodes : List SvaUFsmNode) (fuel : Nat)
    (dnodes dnodes' : List (List Nat × SvaDFsmNode)) (state : List Nat) (firstmatch : Bool)
    (raw : List SigBit) (hnew : dict_count dnodes state = 0)
    (hraw : dnode_ctrl_raw unodes state = Except.ok raw)
    (hrun : create_dnode unodes (fuel + 1) dnodes state firstmatch = Except.ok dnodes') :
    ∃ dnode, dict_at dnodes' state = some dnode ∧ dnode.ctrl = sort_and_unify raw ∧
      (∀ i, i < 2 ^ (sort_and_unify raw).length →
        Const i (sort_and_unify raw).length ∈ dnode.accept ∨
        Const i (sort_and_unify raw).length ∈ dnode.reject ∨
        ∃ S, (S, Const i (sort_and_unify raw).length) ∈ dnode.edges) ∧
      (∀ v, (v ∈ dnode.accept ∨ v ∈ dnode.reject ∨ ∃ S, (S, v) ∈ dnode.edges) →
        ∃ i, i < 2 ^ (sort_and_unify raw).length ∧
          v = Const i (sort_and_unify raw).length) := by
  obtain ⟨raw', dnode, hraw', _, hat, hctrl, hacc, hrej, hedg⟩ :=
    create_dnode_constructs unodes fuel dnodes dnodes' state firstmatch hnew hrun
  have hrr : raw' = raw := by
    rw [hraw] at hraw'
    exact (Except.ok.inj hraw').symm
  subst hrr
  refine ⟨dnode, hat, hctrl, ?_, ?_⟩
  · intro i hi
    have hir : i ∈ List.range (2 ^ (sort_and_unify raw').length) := List.mem_range.mpr hi
    by_cases hnext : val_next unodes state firstmatch (sort_and_unify raw') i = []
    · by_cases ha : val_accept unodes state (sort_and_unify raw') i = true
      · left
        rw [hacc, List.mem_map]
        exact ⟨i, List.mem_filter.mpr ⟨hir, ha⟩, rfl⟩
      · right; left
        rw [hrej, List.mem_map]
        refine ⟨i, List.mem_filter.mpr ⟨hir, ?_⟩, rfl⟩
        simp [hnext, ha]
    · right; right
      refine ⟨usortint (val_next unodes state firstmatch (sort_and_unify raw') i), ?_⟩
      rw [hedg, List.mem_map]
      refine ⟨i, List.mem_filter.mpr ⟨hir, ?_⟩, rfl⟩
      simp [hnext]
  · intro v hv
    rcases hv with hv | hv | ⟨S, hv⟩
    · rw [hacc, List.mem_map] at hv
      obtain ⟨i, hi, rfl⟩ := hv
      exact ⟨i, by simpa using (List.mem_filter.mp hi).1, rfl⟩
    · rw [hrej, List.mem_map] at hv
      obtain ⟨i, hi, rfl⟩ := hv
      exact ⟨i, by simpa using (List.mem_filter.mp hi).1, rfl⟩
    · rw [hedg, List.mem_map] at hv
      obtain ⟨i, hi, heq⟩ := hv
      refine ⟨i, by simpa using (List.mem_filter.mp hi).1, ?_⟩
      exact (congrArg Prod.snd heq).symm

end SVA


namespace SVA

/-! ## C7: the state-explosion guard -/

/-- C7: the state-explosion guard. For a subset that is not yet constructed and whose members
are all reachable, let `ctrl` be the control union: the strictly increasing vector of exactly
the bits of the edge and accept guards of the members. With more than 10 bits the call fails
with the documented error for every budget, before any valuation is enumerated or leads
anywhere; with a budget of one call (no nested subset can be constructed) it fails with
that error iff `ctrl` has more than 10 bits; a call that returns on exactly 10 bits has
recorded exactly the 1024 valuations of `ctrl`; and whenever a call fails with a
`log_error`, it is the documented one and some subset has a control union of more than 10
bits. With a sufficient budget (more than `2^n` for `n` nodes), on the empty dictionary and
a strictly increasing subset of a marked automaton: the call fails with the documented
error iff the subset, or a subset constructed from it, has a control union of more than 10
bits, and it returns otherwise; when no other subset constructed from it exceeds 10 bits,
it fails with the error iff `ctrl` has more than 10 bits, it returns when `ctrl` has at
most 10 bits, and with exactly 10 bits it returns with exactly the 1024 valuations of
`ctrl` recorded in the node of the subset. -/
theorem create_dnode_guard (unodes : List SvaUFsmNode) (dnodes : List (List Nat × SvaDFsmNode))
    (state : List Nat) (firstmatch : Bool) (raw : List SigBit)
    (hnew : dict_count dnodes state = 0)
    (hraw : dnode_ctrl_raw unodes state = Except.ok raw) :
    (List.Sorted (fun a b => a.code < b.code) (sort_and_unify raw) ∧
      ∀ b, b ∈ sort_and_unify raw ↔ ∃ u ∈ state,
        (∃ e ∈ (unodes.getD u default).edges, b ∈ e.2) ∨
        (∃ G ∈ (unodes.getD u default).accept, b ∈ G)) ∧
    (create_dnode unodes 1 dnodes state firstmatch = Except.error (Failure.log_error ctrl_error) ↔
      10 < (sort_and_unify raw).length) ∧
    (10 < (sort_and_unify raw).length → ∀ fuel,
      create_dnode unodes (fuel + 1) dnodes state firstmatch =
        Except.error (Failure.log_error ctrl_error)) ∧
    ((sort_and_unify raw).length = 10 → ∀ fuel dnodes',
      create_dnode unodes (fuel + 1) dnodes state firstmatch = Except.ok dnodes' →
      ∃ dnode, dict_at dnodes' state = some dnode ∧ dnode.ctrl = sort_and_unify raw ∧
        (∀ i, i < 1024 → Const i 10 ∈ dnode.accept ∨ Const i 10 ∈ dnode.reject ∨
          ∃ S, (S, Const i 10) ∈ dnode.edges) ∧
        (∀ v, (v ∈ dnode.accept ∨ v ∈ dnode.reject ∨ ∃ S, (S, v) ∈ dnode.edges) →
          ∃ i, i < 1024 ∧ v = Const i 10)) ∧
    (∀ fuel d s msg, create_dnode unodes fuel d s firstmatch =
        Except.error (Failure.log_error msg) →
      msg = ctrl_error ∧
      ∃ S raw', dnode_ctrl_raw unodes S = Except.ok raw' ∧
        10 < (sort_and_unify raw').length) ∧
    (∀ fuel, 2 ^ unodes.length < fuel → state.Sorted (fun a b => a < b) →
      MarksClosed unodes [] →
      (create_dnode unodes fuel [] state firstmatch =
          Except.error (Failure.log_error ctrl_error) ↔
        ∃ K raw', SubsetReach unodes firstmatch state K ∧
          dnode_ctrl_raw unodes K = Except.ok raw' ∧ 10 < (sort_and_unify raw').length) ∧
      ((¬ ∃ K raw', SubsetReach unodes firstmatch state K ∧
          dnode_ctrl_raw unodes K = Except.ok raw' ∧ 10 < (sort_and_unify raw').length) →
        ∃ d, create_dnode unodes fuel [] state firstmatch = Except.ok d) ∧
      ((∀ K raw', SubsetReach unodes firstmatch state K → K ≠ state →
          dnode_ctrl_raw unodes K = Except.ok raw' → (sort_and_unify raw').length ≤ 10) →
        (create_dnode unodes fuel [] state firstmatch =
            Except.error (Failure.log_error ctrl_error) ↔
          10 < (sort_and_unify raw).length) ∧
        ((sort_and_unify raw).length ≤ 10 →
          ∃ d, create_dnode unodes fuel [] state firstmatch = Except.ok d) ∧
        ((sort_and_unify raw).length = 10 →
          ∃ d dnode, create_dnode unodes fuel [] state firstmatch = Except.ok d ∧
            dict_at d state = some dnode ∧ dnode.ctrl = sort_and_unify raw ∧
            (∀ i, i < 1024 → Const i 10 ∈ dnode.accept ∨ Const i 10 ∈ dnode.reject ∨
              ∃ S, (S, Const i 10) ∈ dnode.edges) ∧
            (∀ v, (v ∈ dnode.accept ∨ v ∈ dnode.reject ∨ ∃ S, (S, v) ∈ dnode.edges) →
              ∃ i, i < 1024 ∧ v = Const i 10)))) := by
  have henum : (sort_and_unify raw).length = 10 → ∀ fuel d0 dnodes',
      dict_count d0 state = 0 →
      create_dnode unodes (fuel + 1) d0 state firstmatch = Except.ok dnodes' →
      ∃ dnode, dict_at dnodes' state = some dnode ∧ dnode.ctrl = sort_and_unify raw ∧
        (∀ i, i < 1024 → Const i 10 ∈ dnode.accept ∨ Const i 10 ∈ dnode.reject ∨
          ∃ S, (S, Const i 10) ∈ dnode.edges) ∧
        (∀ v, (v ∈ dnode.accept ∨ v ∈ dnode.reject ∨ ∃ S, (S, v) ∈ dnode.edges) →
          ∃ i, i < 1024 ∧ v = Const i 10) := by
    intro h10 fuel d0 dnodes' hnew0 hrun
    obtain ⟨dnode, hat, hctrl, h1, h2⟩ :=
      create_dnode_enumerates unodes fuel d0 dnodes' state firstmatch raw hnew0 hraw hrun
    rw [h10] at h1 h2
    exact ⟨dnode, hat, hctrl, fun i hi => h1 i (by omega), fun v hv => by
      obtain ⟨i, hi, hv'⟩ := h2 v hv
      exact ⟨i, by omega, hv'⟩⟩
  refine ⟨⟨strictSorted_sort_and_unify raw, ?_⟩,
    create_dnode_one_log_error unodes dnodes state firstmatch raw hnew hraw,
    fun hlen fuel => create_dnode_guard_fires unodes dnodes state firstmatch raw hnew hraw hlen fuel,
    fun h10 fuel dnodes' hrun => henum h10 fuel dnodes dnodes' hnew hrun,
    create_dnode_log_error unodes firstmatch, ?_⟩
  · intro b
    rw [mem_sort_and_unify]
    exact (dnode_ctrl_raw_spec unodes state).2 raw hraw b
  · intro fuel hfuel hsort hcl
    obtain ⟨hiff, hret⟩ := create_dnode_guard_reach unodes firstmatch state fuel hsort hcl
      (dnode_ctrl_raw_marked unodes state raw hraw) hfuel
    refine ⟨hiff, hret, ?_⟩
    intro hother
    have hiff2 : create_dnode unodes fuel [] state firstmatch =
          Except.error (Failure.log_error ctrl_error) ↔
        10 < (sort_and_unify raw).length := by
      rw [hiff]
      constructor
      · rintro ⟨K, raw', hreach, hraw', hlen⟩
        by_cases hK : K = state
        · subst hK
          rw [hraw] at hraw'
          rw [Except.ok.inj hraw']
          exact hlen
        · have := hother K raw' hreach hK hraw'
          omega
      · intro hlen
        exact ⟨state, raw, Relation.ReflTransGen.refl, hraw, hlen⟩
    have hok : (sort_and_unify raw).length ≤ 10 →
        ∃ d, create_dnode unodes fuel [] state firstmatch = Except.ok d := by
      intro hlen
      apply hret
      intro h
      have := (hiff2.1 (hiff.2 h))
      omega
    refine ⟨hiff2, hok, ?_⟩
    intro h10
    obtain ⟨d, hd⟩ := hok (by omega)
    obtain ⟨k, rfl⟩ : ∃ k, fuel = k + 1 := ⟨fuel - 1, by
      have : 0 < 2 ^ unodes.length := Nat.two_pow_pos _
      omega⟩
    obtain ⟨dnode, h⟩ := henum h10 k [] d rfl hd
    exact ⟨d, dnode, hd, h⟩

/-- Witness for C7: a subset whose control union has exactly 10 bits, on which the
construction returns with the 1024 valuations recorded, and a subset whose control union
has 11 bits, on which it fails with the documented error for every budget. -/
theorem create_dnode_guard_witness :
    (dnode_ctrl_raw (unodesWide 11) [0] = Except.ok ((List.range 11).map SigBit.wire) ∧
      10 < (sort_and_unify ((List.range 11).map SigBit.wire)).length ∧
      ∀ fuel, create_dnode (unodesWide 11) (fuel + 1) [] [0] true =
        Except.error (Failure.log_error ctrl_error)) ∧
    dict_count [] [0] = 0 ∧
    dnode_ctrl_raw (unodesWide 10) [0] = Except.ok ((List.range 10).map SigBit.wire) ∧
    (sort_and_unify ((List.range 10).map SigBit.wire)).length = 10 ∧
    ∃ d dnode, create_dnode (unodesWide 10) 3 [] [0] true = Except.ok d ∧
      dict_at d [0] = some dnode ∧
      dnode.ctrl = sort_and_unify ((List.range 10).map SigBit.wire) ∧
      (∀ i, i < 1024 → Const i 10 ∈ dnode.accept ∨ Const i 10 ∈ dnode.reject ∨
        ∃ S, (S, Const i 10) ∈ dnode.edges) ∧
      (∀ v, (v ∈ dnode.accept ∨ v ∈ dnode.reject ∨ ∃ S, (S, v) ∈ dnode.edges) →
        ∃ i, i < 1024 ∧ v = Const i 10) :=
  ⟨⟨rfl, by decide,
    (create_dnode_guard (unodesWide 11) [] [0] true ((List.range 11).map SigBit.wire)
      rfl rfl).2.2.1 (by decide)⟩,
   rfl, rfl, by decide,
   ((create_dnode_guard (unodesWide 10) [] [0] true ((List.range 10).map SigBit.wire)
      rfl rfl).2.2.2.2.2 3 (by decide) (List.sorted_singleton 0)
      (marks_closed_spec _ (by decide))).2.2
      (fun K raw' hreach hK _ => absurd (unodesWide_reach 10 true [0] K hreach) hK)
      |>.2.2 (by decide)⟩

end SVA
